import Mathlib

/-!
# GnTools: label resolver, interpolation scanner and code model

A shallow embedding of `GnCodeModel.cpp` (and the parts of `GnLexer.cpp` it uses).

* A `QByteArray` is a list of bytes; a byte is written as a `Char`.
* C++ `int` positions are `Int` (`-1` is "not found", as in Qt).
* The Qt primitives (`indexOf`, `lastIndexOf`, `mid`, `left`, ...) follow Qt 5.
-/

namespace Gn

/-! ## Qt byte arrays -/

abbrev QByteArray := List Char

/-- Scan of the list `cs`, whose head has index `i`, for the first `ch`; `-1` when absent. -/
def findChar (ch : Char) : List Char → Nat → Int
  | [], _ => -1
  | c :: cs, i => if c = ch then (i : Int) else findChar ch cs (i + 1)

/-- The `QByteArray::indexOf(char ch, int from)` of Qt 5: a negative `start` counts from the end. -/
def indexOf (str : QByteArray) (ch : Char) (start : Int) : Int :=
  let start1 : Int := if start < 0 then max (start + (str.length : Int)) 0 else start
  if start1 < (str.length : Int) then findChar ch (str.drop start1.toNat) start1.toNat else -1

/-- Scan for the last `ch` of `cs` (head at index `i`), `best` being the last one seen so far. -/
def findLastChar (ch : Char) : List Char → Nat → Int → Int
  | [], _, best => best
  | c :: cs, i, best => findLastChar ch cs (i + 1) (if c = ch then (i : Int) else best)

/-- The `QByteArray::lastIndexOf(char ch)` with the default `from = -1` (search from the end). -/
def lastIndexOf (str : QByteArray) (ch : Char) : Int :=
  findLastChar ch str 0 (-1)

/-- The `QByteArray::mid(int pos, int len)` of Qt 5 (`QContainerImplHelper::mid`). -/
def mid (str : QByteArray) (pos len : Int) : QByteArray :=
  let n : Int := (str.length : Int)
  if pos > n then []
  else if pos < 0 then
    if len < 0 ∨ len + pos ≥ n then str
    else if len + pos ≤ 0 then []
    else str.take (len + pos).toNat
  else if len < 0 ∨ len > n - pos then str.drop pos.toNat
  else (str.drop pos.toNat).take len.toNat

/-- The `QByteArray::left(int len)`. -/
def left (str : QByteArray) (len : Int) : QByteArray :=
  if len ≥ (str.length : Int) then str
  else if len < 0 then []
  else str.take len.toNat

/-- The `str[i]` of a byte array; an index out of range reads the terminating NUL. -/
def at_ (str : QByteArray) (i : Int) : Char :=
  if i < 0 then Char.ofNat 0 else str.getD i.toNat (Char.ofNat 0)

/-- The `QByteArray::startsWith(char)`. -/
def startsWithCh (str : QByteArray) (ch : Char) : Bool :=
  match str with
  | [] => false
  | c :: _ => c == ch

/-- The `QByteArray::endsWith(char)`. -/
def endsWithCh (str : QByteArray) (ch : Char) : Bool :=
  match str.getLast? with
  | none => false
  | some c => c == ch

/-- The `QByteArray::chop(n)`: removes `n` bytes from the end. -/
def chop (str : QByteArray) (n : Nat) : QByteArray :=
  str.take (str.length - n)

/-! ## Label resolver (`GnCodeModel.cpp`, lines 732-840) -/

/-- The static helper `get(str, i)`: the byte at `i`, or 0 beyond the end. -/
def get (str : QByteArray) (i : Int) : Char :=
  if i < (str.length : Int) then at_ str i else Char.ofNat 0

/-- The `while( i < str.size() )` loop of `looksLikeImplicitNamePath` over the bytes from `i` on:
`none` is the `return false` inside the loop, `some lastSlash` the value after the loop. -/
def implicitNameLoop : List Char → Int → Int → Option Int
  | [], _, lastSlash => some lastSlash
  | c :: cs, i, lastSlash =>
    if c = '\\' then none
    else if c = '/' then
      if lastSlash ≠ -1 ∧ i - lastSlash = 0 then none -- embedded "//"
      else implicitNameLoop cs (i + 1) i
    else implicitNameLoop cs (i + 1) lastSlash

/-- The leading-slash tests of `looksLikeImplicitNamePath` at index `i`: the pair
`(i, lastSlash)` after `if( get(str,i) == '/' ) { ... }`, where `lastSlash` was `-1` before. -/
def implicitNamePrefix (str : QByteArray) (i : Int) : Int × Int :=
  if get str i = '/' then -- starts with "/"
    if get str (i + 1) = '/' then (i + 2, i + 1) -- starts with "//"
    else (i + 1, i)
  else (i, -1)

/-- The static function `looksLikeImplicitNamePath`. -/
def looksLikeImplicitNamePath (str : QByteArray) : Bool :=
  if str.isEmpty then false
  else
    let i0 : Int := if at_ str 0 = '"' then 1 else 0
    let pre := implicitNamePrefix str i0
    match implicitNameLoop (str.drop pre.1.toNat) pre.1 pre.2 with
    | none => false
    | some lastSlash =>
      let i2 : Int := (str.length : Int) - 1
      let i3 : Int := if get str i2 = '"' then i2 - 1 else i2
      if lastSlash = i3 then false -- ends with "/"
      else indexOf str '.' (lastSlash + 1) = -1

/-- The function `CodeModel::extractPathIdentFromString`; the pair is `(path, name)`. -/
def extractPathIdentFromString (str : QByteArray) : QByteArray × QByteArray :=
  if str.isEmpty then ([], [])
  else
    let pos1 := indexOf str ':' 0
    if pos1 = -1 then
      if looksLikeImplicitNamePath str then
        let pos := lastIndexOf str '/'
        let name : QByteArray := if pos ≠ -1 then mid str (pos + 1) (-1) else []
        (str, name)
      else (str, []) -- path only
    else if indexOf str ':' (pos1 + 1) ≠ -1 then ([], []) -- invalid format
    else
      let pos2 := indexOf str '(' (pos1 + 1)
      if pos2 ≠ -1 then
        if pos2 - pos1 = 1 then ([], []) -- invalid ident
        else (left str pos1, mid str (pos1 + 1) (pos2 - pos1 - 1))
      else (left str pos1, mid str (pos1 + 1) (-1))

/-! ### The label shapes in the words of the specification -/

/-- The final path segment of a label: the bytes after its last `/` (all of it without `/`). -/
def specFinalSegment (s : QByteArray) : QByteArray :=
  (s.reverse.takeWhile (fun c => c ≠ '/')).reverse

/-- The "implicit name" shape: at least one `/`, no `/` at the end, no `.` in the final
segment; the amended shape also asks for no backslash. -/
def specImplicitShape (s : QByteArray) : Bool :=
  decide ('/' ∈ s ∧ s.getLast? ≠ some '/' ∧ '.' ∉ specFinalSegment s)

/-! ## String interpolation scanner (`GnCodeModel.cpp`, lines 669-730) -/

/-- The `::isalnum` of the C locale on a byte. -/
def isalnum (c : Char) : Bool :=
  ('0' ≤ c ∧ c ≤ '9') ∨ ('a' ≤ c ∧ c ≤ 'z') ∨ ('A' ≤ c ∧ c ≤ 'Z')

/-- The loop of the static function `findNonEscapedDollar`, `pos` being the loop variable.
Every iteration but the last increases `pos`, so `str.size() + 1` iterations are enough;
the value at `fuel = 0` is never reached from `findNonEscapedDollar`. -/
def findNonEscapedDollarLoop (str : QByteArray) : Nat → Int → Int
  | 0, _ => -1
  | fuel + 1, pos =>
    if pos < (str.length : Int) then
      let pos1 := indexOf str '$' pos
      if pos1 ≠ -1 then
        if pos1 > 0 ∧ at_ str (pos1 - 1) = '\\' then
          findNonEscapedDollarLoop str fuel (pos1 + 1)
        else pos1
      else pos1
    else -1

/-- The static function `findNonEscapedDollar(str, start)`. -/
def findNonEscapedDollar (str : QByteArray) (start : Int) : Int :=
  findNonEscapedDollarLoop str (str.length + 1) start

/-- The `struct Dollar`: a span `(d_pos, d_len)`, both `quint16`. -/
structure Dollar where
  d_pos : Nat
  d_len : Nat
deriving DecidableEq, Repr

/-- The constructor `Dollar(quint16 p, quint16 l)` applied to two `int`s: both are
converted to 16 bits. -/
def Dollar.make (p l : Int) : Dollar :=
  ⟨(p % 65536).toNat, (l % 65536).toNat⟩

/-- The inner `while( i < str.size() )` loop of `findDollars` and `string`: `cs` are the
bytes from index `i` on; the result is the first index whose byte is neither alphanumeric
nor `_`, or `str.size()`. -/
def scanName : List Char → Int → Int
  | [], i => i
  | c :: cs, i => if !isalnum c ∧ c ≠ '_' then i else scanName cs (i + 1)

/-- The `while( pos != -1 )` loop of `CodeModel::findDollars`; `none` when the fuel runs
out, that is when the loop has not ended after `fuel` iterations. -/
def findDollarsLoop (str : QByteArray) : Nat → Int → List Dollar → Option (List Dollar)
  | 0, pos, res => if pos ≠ -1 then none else some res
  | fuel + 1, pos, res =>
    if pos ≠ -1 then
      if pos + 1 < (str.length : Int) then
        if at_ str (pos + 1) = '{' then
          let pos2 := indexOf str '}' (pos + 1)
          if pos2 = -1 then some res
          else
            let len := pos2 - pos + 1
            findDollarsLoop str fuel (findNonEscapedDollar str (pos + len))
              (res ++ [Dollar.make pos len])
        else if at_ str (pos + 1) = '0' then
          let len := 5 -- hex char $0xff
          findDollarsLoop str fuel (findNonEscapedDollar str (pos + len))
            (res ++ [Dollar.make pos len])
        else
          let i := scanName (str.drop (pos + 1).toNat) (pos + 1)
          let len := i - pos
          findDollarsLoop str fuel (findNonEscapedDollar str (pos + len))
            (res ++ [Dollar.make pos len])
      else
        let len := 0
        findDollarsLoop str fuel (findNonEscapedDollar str (pos + len)) res
    else some res

/-- The function `CodeModel::findDollars`, run for at most `fuel` iterations of its loop. -/
def findDollars (fuel : Nat) (str : QByteArray) : Option (List Dollar) :=
  findDollarsLoop str fuel (findNonEscapedDollar str 0) []

/-! ### The interpolation spans in the words of the specification -/

/-- A byte of a `$name` run: alphanumeric or `_`. -/
def specNameByte (c : Char) : Bool :=
  isalnum c || c == '_'

/-- The length of the span that starts at a `$` followed by the bytes `after`: through the
first following `}` when the next byte is `{` (`none` when there is no `}`), the fixed
length 5 when the next byte is `0`, otherwise `$` plus the maximal run of name bytes. -/
def specSpanLen (after : List Char) : Option Nat :=
  match after with
  | '{' :: _ =>
    if '}' ∈ after then some ((after.takeWhile (fun c => c ≠ '}')).length + 2) else none
  | '0' :: _ => some 5
  | _ => some ((after.takeWhile specNameByte).length + 1)

/-- The spans of a string, read left to right: `prev` is the byte before the current one,
`i` the index of the current byte, `covered` the number of bytes that still belong to the
previous span. A `$` counts when it is not covered, not preceded by a backslash and
followed by a byte. At a `${` without `}` the scan stops. -/
def specDollars : Option Char → List Char → Nat → Nat → List Dollar
  | _, [], _, _ => []
  | _, c :: cs, i, covered + 1 => specDollars (some c) cs (i + 1) covered
  | prev, c :: cs, i, 0 =>
    if c = '$' ∧ prev ≠ some '\\' ∧ cs ≠ [] then
      match specSpanLen cs with
      | none => []
      | some len => ⟨i, len⟩ :: specDollars (some c) cs (i + 1) (len - 1)
    else specDollars (some c) cs (i + 1) 0

/-- The first `$` of `cs` (head at index `i`, preceded by `prev`) that is not preceded by a
backslash; `-1` when there is none. -/
def firstFreeDollar : Option Char → List Char → Nat → Int
  | _, [], _ => -1
  | prev, c :: cs, i =>
    if c = '$' ∧ prev ≠ some '\\' then (i : Int) else firstFreeDollar (some c) cs (i + 1)

/-! ## Tokens, syntax trees and the error sink

The declarations of `Token`, `TokenType`, `SynTree` and `Errors` are not part of the sources
at hand; they are given here as far as `GnCodeModel.cpp` and `GnLexer.cpp` use them. Line,
column and length are natural numbers. -/

/-- The token types and the rule tags `SynTree::R_...` that the code tests. -/
inductive TokenType where
  | Tok_Invalid | Tok_Lpar | Tok_Rpar | Tok_Lbrack | Tok_Rbrack | Tok_Lbrace | Tok_Rbrace
  | Tok_Dot | Tok_Hash | Tok_identifier | Tok_integer | Tok_string | Tok_Comment | Tok_Eof
  | Tok_other (n : Nat)
  | R_ArrayAccess | R_AssignOp | R_Assignment | R_BinaryOp | R_Block | R_Call | R_Condition
  | R_Expr | R_ExprList | R_Expr_nlr_ | R_LValue | R_List_ | R_PrimaryExpr | R_Scope_
  | R_ScopeAccess | R_Statement | R_StatementList | R_UnaryExpr | R_UnaryOp
deriving DecidableEq, Repr

/-- The `struct Token`. -/
structure Token where
  d_type : TokenType
  d_lineNr : Nat
  d_colNr : Nat
  d_len : Nat
  d_val : QByteArray
  d_sourcePath : QByteArray
deriving DecidableEq, Repr

/-- The `struct SynTree`: a token (or rule tag) and the children. A `SynTree*` is modelled
by the node it points to. -/
inductive SynTree where
  | mk (d_tok : Token) (d_children : List SynTree)
deriving Repr

def SynTree.d_tok : SynTree → Token
  | .mk t _ => t

def SynTree.d_children : SynTree → List SynTree
  | .mk _ c => c

mutual
/-- Decidable equality of syntax trees. -/
def SynTree.decEq : (a b : SynTree) → Decidable (a = b)
  | .mk t1 c1, .mk t2 c2 =>
    if h : t1 = t2 then
      match SynTree.decEqList c1 c2 with
      | isTrue h2 => isTrue (by rw [h, h2])
      | isFalse h2 => isFalse (fun e => by cases e; exact h2 rfl)
    else isFalse (fun e => by cases e; exact h rfl)
/-- Decidable equality of lists of syntax trees. -/
def SynTree.decEqList : (a b : List SynTree) → Decidable (a = b)
  | [], [] => isTrue rfl
  | [], _ :: _ => isFalse (fun e => by cases e)
  | _ :: _, [] => isFalse (fun e => by cases e)
  | a :: as, b :: bs =>
    match SynTree.decEq a b with
    | isTrue h =>
      match SynTree.decEqList as bs with
      | isTrue h2 => isTrue (by rw [h, h2])
      | isFalse h2 => isFalse (fun e => by cases e; exact h2 rfl)
    | isFalse h => isFalse (fun e => by cases e; exact h rfl)
end

instance : DecidableEq SynTree := SynTree.decEq

/-- The severity of a report to the error sink `Errors`. -/
inductive Severity where
  | warning | error
deriving DecidableEq, Repr

/-- The source of a report: `Errors::Lexer`, `Errors::Syntax`, `Errors::Semantics`. -/
inductive ErrSource where
  | Lexer | Syntax | Semantics
deriving DecidableEq, Repr

/-- One call of `Errors::error` or `Errors::warning`. -/
structure Report where
  severity : Severity
  source : ErrSource
  msg : String
deriving DecidableEq, Repr

/-! ## The code model (`GnCodeModel.h`)

Scopes live in an arena `scopes`; a `Scope*` is the index of the scope in the arena, and
`new Scope()` appends to it. The hashes keyed by `const char*` hold interned symbols, whose
address is fixed by their bytes: the key is modelled by the bytes, and `Lexer::getSymbol`
by the byte array it returns (equal to its argument). A hash is an association list. -/

abbrev ScopeId := Nat

/-- The `QHash<const char*,SynTreeList>`. -/
abbrev VarRefs := List (QByteArray × List SynTree)

/-- The `QHash<const char*,ScopeList>`. -/
abbrev ObjRefs := List (QByteArray × List ScopeId)

/-- The `QHash<const char*,Scope*>`. -/
abbrev ScopeHash := List (QByteArray × ScopeId)

/-- The bytes of `Lexer::getSymbol(str)`. -/
def getSymbolBytes (str : QByteArray) : QByteArray := str

/-- The `hash[key].append(x)` of a `QHash` of lists: a missing key is created. -/
def hashAppend {β : Type} : List (QByteArray × List β) → QByteArray → β →
    List (QByteArray × List β)
  | [], k, x => [(k, [x])]
  | (k1, v) :: rest, k, x =>
    if k1 = k then (k1, v ++ [x]) :: rest else (k1, v) :: hashAppend rest k x

/-- The `hash.insert(key, value)` of a `QHash`: the value of an existing key is replaced. -/
def hashInsert {β : Type} : List (QByteArray × β) → QByteArray → β → List (QByteArray × β)
  | [], k, x => [(k, x)]
  | (k1, v) :: rest, k, x =>
    if k1 = k then (k1, x) :: rest else (k1, v) :: hashInsert rest k x

/-- The `hash.find(key)` of a `QHash`; `none` is `end()`. -/
def hashFind {β : Type} : List (QByteArray × β) → QByteArray → Option β
  | [], _ => none
  | (k1, v) :: rest, k => if k1 = k then some v else hashFind rest k

/-- The `hash.value(key)` of a `QHash` of lists: the empty list for a missing key. -/
def hashValue {β : Type} (h : List (QByteArray × List β)) (k : QByteArray) : List β :=
  (hashFind h k).getD []

/-- The `struct CodeModel::Scope`. -/
structure Scope where
  d_kind : QByteArray := []
  d_name : QByteArray := []
  d_params : Option SynTree := none
  d_st : Option SynTree := none
  d_objectDefs : ScopeHash := []
  d_allScopes : List ScopeId := []
  d_relovedImports : ScopeHash := []
  d_unresolvedImports : List SynTree := []
  d_lhs : VarRefs := []
  d_rhs : VarRefs := []
  d_outer : Option ScopeId := none
deriving DecidableEq, Repr

/-- The members of `class CodeModel`, with the arena of scopes. -/
structure CodeModel where
  d_errs : List Report := []
  d_sourceRoot : QByteArray := []
  scopes : List Scope := []
  d_files : ScopeHash := []
  d_knownVars : List QByteArray := []
  d_knownFuncs : List QByteArray := []
  d_namedObjs : List QByteArray := []
  d_foreach : QByteArray := []
  d_import : QByteArray := []
  d_declare_args : QByteArray := []
  d_fileKind : QByteArray := []
  d_allRhs : VarRefs := []
  d_allLhs : VarRefs := []
  d_allFuncRefs : VarRefs := []
  d_allImports : VarRefs := []
  d_allObjDefs : ObjRefs := []
  d_allUnresolvedImports : List SynTree := []
  d_allUnnamedObjs : List ScopeId := []
  d_unresolvedRefs : List SynTree := []
  d_declaredArgs : List SynTree := []
deriving DecidableEq, Repr

/-- The static table `s_knownVars`. -/
def s_knownVars : List String :=
  ["arg_file_template", "buildconfig", "check_targets", "exec_script_whitelist", "root",
   "script_executable", "secondary_source", "default_args",
   "current_cpu", "current_os", "current_toolchain", "default_toolchain", "host_cpu",
   "host_os", "invoker", "python_path", "root_build_dir", "root_gen_dir", "root_out_dir",
   "target_cpu", "target_gen_dir", "target_name", "target_os", "target_out_dir",
   "aliased_deps", "all_dependent_configs", "allow_circular_includes_from", "arflags",
   "args", "asmflags", "assert_no_deps", "bundle_contents_dir", "bundle_deps_filter",
   "bundle_executable_dir", "bundle_resources_dir", "bundle_root_dir", "cflags", "cflags_c",
   "cflags_cc", "cflags_objc", "cflags_objcc", "check_includes", "code_signing_args",
   "code_signing_outputs", "code_signing_script", "code_signing_sources",
   "complete_static_lib", "configs", "contents", "crate_name", "crate_root", "crate_type",
   "data", "data_deps", "data_keys", "defines", "depfile", "deps", "edition", "friend",
   "include_dirs", "inputs", "ldflags", "lib_dirs", "libs", "metadata", "output_conversion",
   "output_dir", "output_extension", "output_name", "output_prefix_override", "outputs",
   "partial_info_plist", "pool", "precompiled_header", "precompiled_header_type",
   "precompiled_source", "product_type", "public", "public_configs", "public_deps", "rebase",
   "response_file_contents", "script", "sources", "testonly", "visibility", "walk_keys",
   "write_runtime_deps", "xcode_extra_attributes", "xcode_test_application_name",
   "toolchain_args"]

/-- The static table `s_knownFuncs`. -/
def s_knownFuncs : List String :=
  ["assert", "declare_args", "defined", "exec_script", "foreach", "forward_variables_from",
   "get_label_info", "get_path_info", "get_target_outputs", "getenv", "import", "not_needed",
   "print", "process_file_template", "read_file", "rebase_path", "set_default_toolchain",
   "set_defaults", "set_sources_assignment_filter", "split_list", "string_replace", "tool",
   "write_file"]

/-- The static table `s_namedObjs`. -/
def s_namedObjs : List String :=
  ["config", "pool", "template", "toolchain",
   "action", "action_foreach", "bundle_data", "copy", "create_bundle", "executable",
   "generated_file", "group", "loadable_module", "rust_library", "shared_library",
   "source_set", "static_library", "target"]

/-- The function `CodeModel::clear`: everything but the source root is reset, and the
registries are seeded from the static tables. -/
def CodeModel.clear (m : CodeModel) : CodeModel :=
  { d_sourceRoot := m.d_sourceRoot
    d_knownVars := s_knownVars.map (fun s => getSymbolBytes s.toList)
    d_knownFuncs := s_knownFuncs.map (fun s => getSymbolBytes s.toList)
    d_namedObjs := s_namedObjs.map (fun s => getSymbolBytes s.toList)
    d_foreach := getSymbolBytes "foreach".toList
    d_import := getSymbolBytes "import".toList
    d_fileKind := getSymbolBytes "file".toList
    d_declare_args := getSymbolBytes "declare_args".toList }

/-- The call `d_errs->error(source, ..., msg)`. -/
def CodeModel.error (m : CodeModel) (source : ErrSource) (msg : String) : CodeModel :=
  { m with d_errs := m.d_errs ++ [⟨Severity.error, source, msg⟩] }

/-- The call `d_errs->warning(source, ..., msg)`. -/
def CodeModel.warning (m : CodeModel) (source : ErrSource) (msg : String) : CodeModel :=
  { m with d_errs := m.d_errs ++ [⟨Severity.warning, source, msg⟩] }

/-- Update of the element `i` of a list. -/
def updateAt {α : Type} : List α → Nat → (α → α) → List α
  | [], _, _ => []
  | a :: as, 0, f => f a :: as
  | a :: as, i + 1, f => a :: updateAt as i f

/-- An assignment through a `Scope*`: the scope `sc` of the arena is updated by `f`. -/
def CodeModel.modifyScope (m : CodeModel) (sc : ScopeId) (f : Scope → Scope) : CodeModel :=
  { m with scopes := updateAt m.scopes sc f }

/-- The external collaborators and the file system, as the code model uses them. -/
structure Env where
  /-- `QFile::open`, then `Lexer` and `Parser::RunParser` on the file: `none` when the file
  cannot be opened, otherwise `p.d_root.d_children` and the reports of lexer and parser. -/
  openAndParse : QByteArray → Option (List SynTree × List Report)
  /-- `Parser::ParsePrimaryExpr` on a buffer holding the fragment: `p.d_root.d_children`
  and the reports of lexer and parser. -/
  parsePrimaryExpr : QByteArray → List SynTree × List Report
  /-- `Token::getEscapedVal`. -/
  getEscapedVal : Token → QByteArray
  /-- `QFileInfo(path).exists()`. -/
  fileExists : QByteArray → Bool
  /-- `QFileInfo(path).canonicalFilePath()`. -/
  canonicalFilePath : QByteArray → QByteArray
  /-- `QDir(dir).absoluteFilePath(name)`. -/
  absoluteFilePath : QByteArray → QByteArray → QByteArray
  /-- `QFileInfo(file).absoluteDir()`. -/
  absoluteDir : QByteArray → QByteArray
  /-- The default of the parameter `imports` of `Scope::findObject`. -/
  findObjectImports : Bool

/-- The outcomes that end a run of the model early. -/
inductive WalkError where
  /-- The fuel is used up: more calls and loop iterations than `fuel`. -/
  | fuel
  /-- A `Q_ASSERT` fails, or a list is indexed out of its range. -/
  | assertion
deriving DecidableEq, Repr

abbrev Walk := Except WalkError

/-- A `Q_ASSERT`. -/
def qassert (b : Bool) : Walk Unit :=
  if b then pure () else throw WalkError.assertion

/-- The `st->d_children[i]`. -/
def SynTree.child (st : SynTree) (i : Nat) : Walk SynTree :=
  match st.d_children[i]? with
  | some c => pure c
  | none => throw WalkError.assertion

/-- The `st->d_children.first()`. -/
def SynTree.first (st : SynTree) : Walk SynTree :=
  match st.d_children.head? with
  | some c => pure c
  | none => throw WalkError.assertion

/-- The `st->d_children.last()`. -/
def SynTree.last (st : SynTree) : Walk SynTree :=
  match st.d_children.getLast? with
  | some c => pure c
  | none => throw WalkError.assertion

/-- The dereference of a `Scope*`. -/
def CodeModel.scope (m : CodeModel) (sc : ScopeId) : Walk Scope :=
  match m.scopes[sc]? with
  | some s => pure s
  | none => throw WalkError.assertion

/-- The function `CodeModel::flatten` with `stopAt = 0`. -/
def flatten : SynTree → SynTree
  | .mk _ [c] => flatten c
  | t => t

mutual
/-- The static function `remap(st, ref, pos)`, `ref` being the token of the string node. -/
def remap (ref : Token) (pos : Int) : SynTree → SynTree
  | .mk tok cs =>
    .mk { tok with
          d_lineNr := ref.d_lineNr
          d_colNr := ((tok.d_colNr : Int) + ((ref.d_colNr : Int) + pos - 1)).toNat
          d_sourcePath := ref.d_sourcePath }
        (remapList ref pos cs)
/-- The `foreach( SynTree* sub, st->d_children ) remap( sub, ref, pos )`. -/
def remapList (ref : Token) (pos : Int) : List SynTree → List SynTree
  | [] => []
  | c :: cs => remap ref pos c :: remapList ref pos cs
end

mutual
/-- All tokens of a tree, the root first. -/
def SynTree.tokens : SynTree → List Token
  | .mk tok cs => tok :: SynTree.tokensList cs
/-- All tokens of a list of trees. -/
def SynTree.tokensList : List SynTree → List Token
  | [] => []
  | c :: cs => SynTree.tokens c ++ SynTree.tokensList cs
end

/-- The `QString::startsWith` on the bytes of a path. -/
def startsWithStr (str pre : QByteArray) : Bool :=
  pre.isPrefixOf str

/-- The function `CodeModel::calcPath(const QByteArray& path, const QByteArray& ref)`. -/
def calcPath (env : Env) (m : CodeModel) (path ref : QByteArray) : QByteArray :=
  let tmp := path
  let tmp :=
    if startsWithStr tmp "//".toList then env.absoluteFilePath m.d_sourceRoot (mid tmp 2 (-1))
    else if startsWithStr tmp "/".toList then tmp -- NOP, absolute path
    else if !tmp.isEmpty && !ref.isEmpty then env.absoluteFilePath (env.absoluteDir ref) tmp
    else if !tmp.isEmpty then env.absoluteFilePath m.d_sourceRoot tmp
    else tmp
  env.canonicalFilePath tmp

/-- The function `CodeModel::calcPath(SynTree* ref)`. -/
def calcPathRef (env : Env) (m : CodeModel) (ref : SynTree) : Walk QByteArray := do
  qassert (ref.d_tok.d_type = TokenType.Tok_string)
  pure (calcPath env m (env.getEscapedVal ref.d_tok) ref.d_tok.d_sourcePath)

/-- The function `CodeModel::calcPath(QByteArray path, const QByteArray& ref, bool addBUILDgn)`. -/
def calcPathBuild (env : Env) (m : CodeModel) (path ref : QByteArray) (addBUILDgn : Bool) :
    QByteArray :=
  let path := if addBUILDgn then path ++ "/".toList ++ "BUILD.gn".toList else path
  calcPath env m path ref

/-- The function `CodeModel::varRhs`. -/
def varRhs (st : SynTree) (sc : ScopeId) (m : CodeModel) : Walk CodeModel := do
  qassert (st.d_tok.d_type = TokenType.Tok_identifier)
  let _ ← m.scope sc
  let m := m.modifyScope sc (fun s => { s with d_rhs := hashAppend s.d_rhs st.d_tok.d_val st })
  pure { m with d_allRhs := hashAppend m.d_allRhs st.d_tok.d_val st }

/-- The function `CodeModel::varLhs`. -/
def varLhs (st : SynTree) (sc : ScopeId) (m : CodeModel) : Walk CodeModel := do
  qassert (st.d_tok.d_type = TokenType.Tok_identifier)
  let s ← m.scope sc
  let m := m.modifyScope sc (fun s => { s with d_lhs := hashAppend s.d_lhs st.d_tok.d_val st })
  let m := { m with d_allLhs := hashAppend m.d_allLhs st.d_tok.d_val st }
  if s.d_kind = m.d_declare_args then
    pure { m with d_declaredArgs := m.d_declaredArgs ++ [st] }
  else pure m

/-- The end of `CodeModel::string`, after the loop over the `$`: the string is tested as a
label (lines 998-1012). -/
def stringLabel (m : CodeModel) (st : SynTree) : CodeModel :=
  let str := st.d_tok.d_val
  let pip := extractPathIdentFromString str
  if !pip.2.isEmpty && !startsWithCh pip.2 '\\' then -- avoid Windows paths
    let dlr : Bool := findNonEscapedDollar pip.2 0 ≠ -1
    let m1 :=
      if !dlr then
        let name := pip.2
        let name := if endsWithCh name '"' then chop name 1 else name
        let name := getSymbolBytes name
        { m with d_allFuncRefs := hashAppend m.d_allFuncRefs name st }
      else m
    if dlr || decide (findNonEscapedDollar pip.1 0 ≠ -1) then
      { m1 with d_unresolvedRefs := m1.d_unresolvedRefs ++ [st] }
    else m1
  else m

/-- The `new Scope()` followed by `newScope->d_outer = sc; sc->d_allScopes.append(newScope);
newScope->d_st = st; newScope->d_kind = kind;` of `namedObj_` and `function_`; the result
is the model and the new scope. -/
def newScope (m : CodeModel) (sc : ScopeId) (st : SynTree) (kind : QByteArray) :
    CodeModel × ScopeId :=
  let id := m.scopes.length
  let fresh : Scope := { d_outer := some sc }
  let m := { m with scopes := m.scopes ++ [fresh] }
  let m := m.modifyScope sc (fun s => { s with d_allScopes := s.d_allScopes ++ [id] })
  let m := m.modifyScope id (fun s => { s with d_st := some st, d_kind := kind })
  (m, id)

/-- The type of the child `i`, when there is one. -/
def SynTree.typeAt (st : SynTree) (i : Nat) : Option TokenType :=
  (st.d_children[i]?).map (fun c => c.d_tok.d_type)

/-- The type of the last child, when there is one. -/
def SynTree.typeLast (st : SynTree) : Option TokenType :=
  st.d_children.getLast?.map (fun c => c.d_tok.d_type)

/-- Appends a child to a node: `st->d_children.append(c)`. -/
def SynTree.appendChild (st : SynTree) (c : SynTree) : SynTree :=
  .mk st.d_tok (st.d_children ++ [c])

/-- The function `CodeModel::scopeAccess`. -/
def scopeAccess (_env : Env) (fuel : Nat) (st : SynTree) (sc : ScopeId) (m : CodeModel) :
    Walk CodeModel :=
  match fuel with
  | 0 => throw WalkError.fuel
  | _ + 1 => do
    qassert (st.d_tok.d_type = TokenType.R_ScopeAccess && st.d_children.length == 3
      && st.typeAt 1 == some TokenType.Tok_Dot)
    let m ← varRhs (← st.first) sc m
    varRhs (← st.last) sc m -- meistens invoker.name

set_option maxHeartbeats 4000000 in
open TokenType in
mutual

/-- The function `CodeModel::parseFile`; the result is the model and the `Scope*`. -/
def parseFile (env : Env) (fuel : Nat) (path : QByteArray) (m : CodeModel) :
    Walk (CodeModel × Option ScopeId) :=
  match fuel with
  | 0 => throw WalkError.fuel
  | f + 1 =>
    let pathSym := getSymbolBytes path
    match hashFind m.d_files pathSym with
    | some id => pure (m, some id)
    | none =>
      match env.openAndParse path with
      | none => pure (m.warning ErrSource.Lexer "cannot open file for reading", none)
      | some (children, reports) => do
        let m := { m with d_errs := m.d_errs ++ reports }
        qassert (children.isEmpty ||
          (children.length == 1 && children.head?.map (fun c => c.d_tok.d_type)
            == some R_StatementList))
        match children with
        | [] => pure (m, none)
        | st :: _ =>
          let id := m.scopes.length
          let fresh : Scope := { d_kind := m.d_fileKind, d_name := pathSym }
          let m := { m with scopes := m.scopes ++ [fresh]
                            d_files := hashInsert m.d_files pathSym id }
          -- Analyze file
          let m ← statementList env f st id m
          let m := m.modifyScope id (fun s => { s with d_st := some st })
          pure (m, some id)
termination_by structural fuel

/-- The function `CodeModel::statementList`. -/
def statementList (env : Env) (fuel : Nat) (st : SynTree) (sc : ScopeId) (m : CodeModel) :
    Walk CodeModel :=
  match fuel with
  | 0 => throw WalkError.fuel
  | f + 1 => do
    qassert (st.d_tok.d_type = R_StatementList)
    st.d_children.foldlM (fun m s => statement env f s sc m) m
termination_by structural fuel

/-- The function `CodeModel::statement`. -/
def statement (env : Env) (fuel : Nat) (st : SynTree) (sc : ScopeId) (m : CodeModel) :
    Walk CodeModel :=
  match fuel with
  | 0 => throw WalkError.fuel
  | f + 1 => do
    qassert (st.d_tok.d_type = R_Statement && st.d_children.length == 1)
    let c ← st.first
    match c.d_tok.d_type with
    | R_Assignment => assignment_ env f c sc m
    | R_Call => call_ env f c sc m
    | R_Condition => condition_ env f c sc m
    | _ => pure m
termination_by structural fuel

/-- The function `CodeModel::call_`. -/
def call_ (env : Env) (fuel : Nat) (st : SynTree) (sc : ScopeId) (m : CodeModel) :
    Walk CodeModel :=
  match fuel with
  | 0 => throw WalkError.fuel
  | f + 1 => do
    qassert (decide (st.d_children.length ≥ 3) && st.typeAt 0 == some Tok_identifier)
    let callee ← st.child 0
    let kind := callee.d_tok.d_val
    let m := { m with d_allFuncRefs := hashAppend m.d_allFuncRefs kind callee }
    if kind = m.d_foreach then
      -- no new scope
      loop_ env f st sc m
    else if kind = m.d_import then
      import_ env f st sc m
    else if m.d_namedObjs.contains kind || !m.d_knownFuncs.contains kind then
      -- new scope; template instances
      namedObj_ env f st sc callee.d_tok.d_val m
    else
      -- new scope
      function_ env f st sc callee.d_tok.d_val m
termination_by structural fuel

/-- The function `CodeModel::loop_`. -/
def loop_ (env : Env) (fuel : Nat) (st : SynTree) (sc : ScopeId) (m : CodeModel) :
    Walk CodeModel :=
  match fuel with
  | 0 => throw WalkError.fuel
  | f + 1 => do
    let c2 ← st.child 2
    let lastc ← st.last
    if c2.d_tok.d_type = Tok_Rpar ∨ lastc.d_tok.d_type ≠ R_Block then
      pure (m.error ErrSource.Syntax "invalid foreach statement")
    else do
      qassert (c2.d_tok.d_type = R_ExprList && st.d_children.length == 5)
      if c2.d_children.length ≠ 2 then
        pure (m.error ErrSource.Syntax "invalid expression list in foreach statement")
      else do
        let var := flatten (← c2.first)
        let m :=
          if var.d_tok.d_type ≠ Tok_identifier then
            m.error ErrSource.Syntax "invalid loop variable in foreach statement"
          else { m with d_allLhs := hashAppend m.d_allLhs var.d_tok.d_val var }
        let m ← expr env f (← c2.last) sc m
        block env f lastc sc m
termination_by structural fuel

/-- The function `CodeModel::import_`. -/
def import_ (env : Env) (fuel : Nat) (st : SynTree) (sc : ScopeId) (m : CodeModel) :
    Walk CodeModel :=
  match fuel with
  | 0 => throw WalkError.fuel
  | f + 1 => do
    let c2 ← st.child 2
    if c2.d_tok.d_type = Tok_Rpar then
      pure (m.error ErrSource.Syntax "invalid import statement")
    else do
      qassert (c2.d_tok.d_type = R_ExprList && !c2.d_children.isEmpty)
      let ref := flatten c2
      let arg ← c2.first
      let (m, resolved) ←
        (if ref.d_tok.d_type = Tok_string then do
          let (m, ref) ← string env f ref sc m
          if ref.d_children.isEmpty then do
            -- Name known
            let path ← calcPathRef env m ref
            if !path.isEmpty then do
              let pathSym := getSymbolBytes path
              let m := { m with d_allImports := hashAppend m.d_allImports pathSym ref }
              if env.fileExists path then do
                let (m, res) ← parseFile env f path m
                match res with
                | some resId => do
                  let r ← m.scope resId
                  pure (m.modifyScope sc (fun s =>
                    { s with d_relovedImports := hashInsert s.d_relovedImports r.d_name resId }),
                    true)
                | none => pure (m, false)
              else
                pure (m.warning ErrSource.Semantics "import file doesn't exist: %1", false)
            else pure (m, false)
          else pure (m, false)
        else do
          let m ← expr env f arg sc m
          pure (m, false))
      if !resolved then do
        let _ ← m.scope sc
        let m := m.modifyScope sc (fun s =>
          { s with d_unresolvedImports := s.d_unresolvedImports ++ [arg] })
        pure { m with d_allUnresolvedImports := m.d_allUnresolvedImports ++ [arg] }
      else pure m
termination_by structural fuel

/-- The function `CodeModel::expr`. -/
def expr (env : Env) (fuel : Nat) (st : SynTree) (sc : ScopeId) (m : CodeModel) :
    Walk CodeModel :=
  match fuel with
  | 0 => throw WalkError.fuel
  | f + 1 => do
    qassert (st.d_tok.d_type = R_Expr && !st.d_children.isEmpty)
    let m ← unaryExpr env f (← st.first) sc m
    if st.d_children.length > 1 then
      if st.d_children.length = 2 then exprNlr env f (← st.last) sc m
      else throw WalkError.assertion
    else pure m
termination_by structural fuel

/-- The function `CodeModel::exprList`. -/
def exprList (env : Env) (fuel : Nat) (st : SynTree) (sc : ScopeId) (m : CodeModel) :
    Walk CodeModel :=
  match fuel with
  | 0 => throw WalkError.fuel
  | f + 1 => do
    qassert (st.d_tok.d_type = R_ExprList)
    st.d_children.foldlM (fun m e => expr env f e sc m) m
termination_by structural fuel

/-- The function `CodeModel::block`. -/
def block (env : Env) (fuel : Nat) (st : SynTree) (sc : ScopeId) (m : CodeModel) :
    Walk CodeModel :=
  match fuel with
  | 0 => throw WalkError.fuel
  | f + 1 => do
    qassert (st.d_tok.d_type = R_Block && st.d_children.length == 3
      && st.typeAt 0 == some Tok_Lbrace && st.typeLast == some Tok_Rbrace)
    statementList env f (← st.child 1) sc m
termination_by structural fuel

/-- The function `CodeModel::condition_`. -/
def condition_ (env : Env) (fuel : Nat) (st : SynTree) (sc : ScopeId) (m : CodeModel) :
    Walk CodeModel :=
  match fuel with
  | 0 => throw WalkError.fuel
  | f + 1 => do
    qassert (st.d_tok.d_type = R_Condition && decide (st.d_children.length ≥ 5))
    let m ← expr env f (← st.child 2) sc m
    let m ← block env f (← st.child 4) sc m
    if st.d_children.length > 5 then do
      qassert (st.d_children.length == 7)
      let c6 ← st.child 6
      if c6.d_tok.d_type = R_Condition then condition_ env f c6 sc m
      else block env f c6 sc m
    else pure m
termination_by structural fuel

/-- The function `CodeModel::assignment_`. -/
def assignment_ (env : Env) (fuel : Nat) (st : SynTree) (sc : ScopeId) (m : CodeModel) :
    Walk CodeModel :=
  match fuel with
  | 0 => throw WalkError.fuel
  | f + 1 => do
    qassert (st.d_children.length == 3 && st.typeAt 0 == some R_LValue
      && st.typeAt 1 == some R_AssignOp && st.typeLast == some R_Expr)
    let m ← lvalue env f (← st.first) sc m
    expr env f (← st.last) sc m
termination_by structural fuel

/-- The function `CodeModel::lvalue`. -/
def lvalue (env : Env) (fuel : Nat) (st : SynTree) (sc : ScopeId) (m : CodeModel) :
    Walk CodeModel :=
  match fuel with
  | 0 => throw WalkError.fuel
  | f + 1 => do
    qassert (st.d_tok.d_type = R_LValue && !st.d_children.isEmpty
      && st.typeAt 0 == some Tok_identifier)
    let id ← st.first
    if st.d_children.length > 1 then
      if st.typeAt 1 = some Tok_Lbrack then do -- ArrayAccess
        qassert (st.d_children.length == 4 && st.typeAt 3 == some Tok_Rbrack)
        let m ← varLhs id sc m
        expr env f (← st.child 2) sc m
      else if st.typeAt 1 = some Tok_Dot then do -- ScopeAccess
        qassert (st.d_children.length == 3 && st.typeAt 2 == some Tok_identifier)
        let m ← varRhs id sc m
        varLhs (← st.child 2) sc m
      else throw WalkError.assertion
    else -- plain ident
      varLhs id sc m
termination_by structural fuel

/-- The function `CodeModel::primaryExpr`. -/
def primaryExpr (env : Env) (fuel : Nat) (st : SynTree) (sc : ScopeId) (m : CodeModel) :
    Walk CodeModel :=
  match fuel with
  | 0 => throw WalkError.fuel
  | f + 1 => do
    qassert (!st.d_children.isEmpty)
    let c ← st.first
    match c.d_tok.d_type with
    | R_Call => call_ env f c sc m
    | Tok_string => do
      let (m, _) ← string env f c sc m -- parses Tok_string if $ included
      pure m
    | Tok_Lpar => do
      qassert (st.d_children.length == 3)
      expr env f (← st.child 1) sc m
    | R_Scope_ => do
      qassert (!c.d_children.isEmpty)
      block env f (← c.first) sc m
    | Tok_identifier => varRhs c sc m
    | R_ArrayAccess => arrayAccess env f c sc m
    | R_ScopeAccess => scopeAccess env f c sc m
    | R_List_ => list env f c sc m
    | _ => pure m
termination_by structural fuel

/-- The function `CodeModel::unaryExpr`. -/
def unaryExpr (env : Env) (fuel : Nat) (st : SynTree) (sc : ScopeId) (m : CodeModel) :
    Walk CodeModel :=
  match fuel with
  | 0 => throw WalkError.fuel
  | f + 1 => do
    qassert (st.d_tok.d_type = R_UnaryExpr)
    if st.d_children.length = 1 then
      primaryExpr env f (← st.first) sc m
    else if st.d_children.length = 2 then do
      qassert (st.typeAt 0 == some R_UnaryOp)
      unaryExpr env f (← st.last) sc m
    else throw WalkError.assertion
termination_by structural fuel

/-- The function `CodeModel::exprNlr`. -/
def exprNlr (env : Env) (fuel : Nat) (st : SynTree) (sc : ScopeId) (m : CodeModel) :
    Walk CodeModel :=
  match fuel with
  | 0 => throw WalkError.fuel
  | f + 1 => do
    qassert (st.d_tok.d_type = R_Expr_nlr_ && decide (st.d_children.length ≥ 2))
    qassert (st.typeAt 0 == some R_BinaryOp)
    let m ← expr env f (← st.child 1) sc m
    if st.d_children.length > 2 then
      if st.d_children.length = 3 then exprNlr env f (← st.last) sc m
      else throw WalkError.assertion
    else pure m
termination_by structural fuel

/-- The `while( pos != -1 )` loop of `CodeModel::string`, `pos` being the current `$`. The
result is the model, the string node with the children attached so far, and whether the
loop ran to its end (`false` is the `return` at a `${` without `}`). -/
def stringLoop (env : Env) (fuel : Nat) (st : SynTree) (sc : ScopeId) (pos : Int)
    (m : CodeModel) : Walk (CodeModel × SynTree × Bool) :=
  match fuel with
  | 0 => throw WalkError.fuel
  | f + 1 =>
    let str := st.d_tok.d_val
    if pos ≠ -1 then
      if pos + 1 < (str.length : Int) then
        if at_ str (pos + 1) = '{' then
          let pos2 := indexOf str '}' (pos + 1)
          if pos2 = -1 then
            pure (m.error ErrSource.Syntax "'$\x7b' without terminating '\x7d'", st, false)
          else do
            let len := pos2 - pos
            let (m, st) ← stringVar_ env f st sc (pos + 2) (pos2 - pos - 2) m
            stringLoop env f st sc (findNonEscapedDollar str (pos + len)) m
        else if at_ str (pos + 1) = '0' then
          let len := 5 -- hex char $0xff
          stringLoop env f st sc (findNonEscapedDollar str (pos + len)) m
        else do
          let i := scanName (str.drop (pos + 1).toNat) (pos + 1)
          let len := i - pos
          let (m, st) ← stringVar_ env f st sc (pos + 1) (i - pos - 1) m
          stringLoop env f st sc (findNonEscapedDollar str (pos + len)) m
      else
        let len := 0
        stringLoop env f st sc (findNonEscapedDollar str (pos + len)) m
    else pure (m, st, true)
termination_by structural fuel

/-- The function `CodeModel::string`; the result is the model and the string node with
the children that were attached to it. -/
def string (env : Env) (fuel : Nat) (st : SynTree) (sc : ScopeId) (m : CodeModel) :
    Walk (CodeModel × SynTree) :=
  match fuel with
  | 0 => throw WalkError.fuel
  | f + 1 => do
    qassert (st.d_tok.d_type = Tok_string)
    let str := st.d_tok.d_val
    let (m, st, finished) ← stringLoop env f st sc (findNonEscapedDollar str 0) m
    if finished then pure (stringLabel m st, st)
    else pure (m, st)
termination_by structural fuel

/-- The function `CodeModel::arrayAccess`. -/
def arrayAccess (env : Env) (fuel : Nat) (st : SynTree) (sc : ScopeId) (m : CodeModel) :
    Walk CodeModel :=
  match fuel with
  | 0 => throw WalkError.fuel
  | f + 1 => do
    qassert (st.d_tok.d_type = R_ArrayAccess && st.d_children.length == 4
      && st.typeAt 1 == some Tok_Lbrack && st.typeAt 3 == some Tok_Rbrack)
    let m ← varRhs (← st.first) sc m
    expr env f (← st.child 2) sc m
termination_by structural fuel

/-- The function `CodeModel::list`. -/
def list (env : Env) (fuel : Nat) (st : SynTree) (sc : ScopeId) (m : CodeModel) :
    Walk CodeModel :=
  match fuel with
  | 0 => throw WalkError.fuel
  | f + 1 => do
    qassert (st.d_tok.d_type = R_List_ && decide (st.d_children.length ≥ 2)
      && st.typeAt 0 == some Tok_Lbrack && st.typeLast == some Tok_Rbrack)
    ((st.d_children.drop 1).dropLast).foldlM (fun m e => expr env f e sc m) m
termination_by structural fuel

/-- The function `CodeModel::stringVar_`; the result is the model and the string node. -/
def stringVar_ (env : Env) (fuel : Nat) (st : SynTree) (sc : ScopeId) (pos len : Int)
    (m : CodeModel) : Walk (CodeModel × SynTree) :=
  match fuel with
  | 0 => throw WalkError.fuel
  | f + 1 => do
    let str := mid st.d_tok.d_val pos len
    let (children, reports) := env.parsePrimaryExpr str
    let m := { m with d_errs := m.d_errs ++ reports }
    qassert (decide (children.length ≤ 1))
    match children with
    | [] => pure (m, st)
    | primary :: _ => do
      qassert (primary.d_tok.d_type = R_PrimaryExpr && !primary.d_children.isEmpty)
      let c ← primary.first
      if c.d_tok.d_type = R_ArrayAccess ∨ c.d_tok.d_type = R_ScopeAccess
          ∨ c.d_tok.d_type = Tok_identifier then do
        qassert (primary.d_children.length == 1)
        let primary := remap st.d_tok pos primary
        let m ← primaryExpr env f primary sc m
        pure (m, st.appendChild (← primary.first))
      else
        pure (m.error ErrSource.Syntax "embedding of %1 in strings not allowed", st)
termination_by structural fuel

/-- The function `CodeModel::namedObj_`. -/
def namedObj_ (env : Env) (fuel : Nat) (st : SynTree) (sc : ScopeId) (kind : QByteArray)
    (m : CodeModel) : Walk CodeModel :=
  match fuel with
  | 0 => throw WalkError.fuel
  | f + 1 => do
    let c2 ← st.child 2
    if c2.d_tok.d_type = Tok_Rpar then
      pure (m.error ErrSource.Syntax "invalid named object statement")
    else do
      qassert (c2.d_tok.d_type = R_ExprList && !c2.d_children.isEmpty
        && decide (st.d_children.length ≥ 4))
      let _ ← m.scope sc
      let (m, newSc) := newScope m sc st kind
      let arg ← c2.first
      let name := flatten arg
      let m ←
        (if name.d_tok.d_type = Tok_string then do
          let (m, name) ← string env f name sc m
          let m := m.modifyScope newSc (fun s => { s with d_params := some name })
          if name.d_children.isEmpty then
            -- Name known
            let sym := getSymbolBytes (env.getEscapedVal name.d_tok)
            let m := m.modifyScope sc (fun s =>
              { s with d_objectDefs := hashInsert s.d_objectDefs sym newSc })
            let m := { m with d_allObjDefs := hashAppend m.d_allObjDefs sym newSc }
            pure (m.modifyScope newSc (fun s => { s with d_name := sym }))
          else
            pure { m with d_allUnnamedObjs := m.d_allUnnamedObjs ++ [newSc] }
        else do
          -- Name not yet known
          let m := m.modifyScope newSc (fun s => { s with d_params := some arg })
          let m ← expr env f arg sc m
          pure { m with d_allUnnamedObjs := m.d_allUnnamedObjs ++ [newSc] })
      if st.d_children.length > 4 then
        if st.d_children.length = 5 then block env f (← st.last) newSc m
        else throw WalkError.assertion
      else pure m
termination_by structural fuel

/-- The function `CodeModel::function_`. -/
def function_ (env : Env) (fuel : Nat) (st : SynTree) (sc : ScopeId) (kind : QByteArray)
    (m : CodeModel) : Walk CodeModel :=
  match fuel with
  | 0 => throw WalkError.fuel
  | f + 1 => do
    qassert (decide (st.d_children.length ≥ 3))
    let c2 ← st.child 2
    let m ← (if c2.d_tok.d_type = R_ExprList then exprList env f c2 sc m else pure m)
    let lastc ← st.last
    if lastc.d_tok.d_type = R_Block then do
      let _ ← m.scope sc
      let (m, newSc) := newScope m sc st kind
      let m :=
        if c2.d_tok.d_type = R_ExprList then
          m.modifyScope newSc (fun s => { s with d_params := some c2 })
        else m
      block env f lastc newSc m
    else pure m
termination_by structural fuel

end

/-! ## Queries (`GnCodeModel.cpp`, lines 288-355 and 1200-1220) -/

/-- The function `CodeModel::Scope::findObject(name, recursive, imports)` on the scope
`self`; the imports are tried in the order of the association list. -/
def findObject (env : Env) (m : CodeModel) (fuel : Nat) (self : ScopeId) (name : QByteArray)
    (recursive imports : Bool) : Walk (Option ScopeId) :=
  match fuel with
  | 0 => throw WalkError.fuel
  | f + 1 => do
    let s ← m.scope self
    match hashFind s.d_objectDefs name with
    | some o => pure (some o)
    | none => do
      let r ←
        match s.d_outer with
        | some outer =>
          if recursive then findObject env m f outer name recursive env.findObjectImports
          else pure none
        | none => pure none
      match r with
      | some o => pure (some o)
      | none =>
        if imports then
          s.d_relovedImports.foldlM
            (fun acc i =>
              match acc with
              | some o => pure (some o)
              | none => findObject env m f i.2 name recursive env.findObjectImports)
            none
        else pure none
termination_by structural fuel

/-- The function `CodeModel::getScope`. -/
def getScope (m : CodeModel) (sourcePath : QByteArray) : Option ScopeId :=
  match hashFind m.d_files (getSymbolBytes sourcePath) with
  | none => none
  | some id =>
    match m.scopes[id]? with
    | none => none
    | some s => if s.d_st.isNone then none else some id

/-- The function `CodeModel::findFromPath`. -/
def findFromPath (env : Env) (m : CodeModel) (fuel : Nat) (path callerPath : QByteArray) :
    Walk (Option SynTree) :=
  if path.isEmpty then pure none
  else
    let pip := extractPathIdentFromString path
    if pip.1.isEmpty && pip.2.isEmpty then pure none
    else
      let file := if !pip.1.isEmpty then calcPathBuild env m pip.1 callerPath (!pip.2.isEmpty)
                  else callerPath
      if !pip.1.isEmpty && file.isEmpty then pure none
      else
        match getScope m file with
        | none => pure none
        | some s =>
          if !pip.2.isEmpty then do
            let name := getSymbolBytes pip.2
            let o ← findObject env m fuel s name true env.findObjectImports
            match o with
            | some o => do
              let os ← m.scope o
              pure os.d_st
            | none => pure none
          else do
            let ss ← m.scope s
            pure ss.d_st

/-- The function `CodeModel::findDefinition`; `none` is the null pointer. -/
def findDefinition (env : Env) (m : CodeModel) (fuel : Nat) (st : Option SynTree) :
    Walk (Option SynTree) :=
  match st with
  | none => pure none
  | some st =>
    if st.d_tok.d_type = TokenType.Tok_string then
      findFromPath env m fuel (env.getEscapedVal st.d_tok) st.d_tok.d_sourcePath
    else if st.d_tok.d_type = TokenType.Tok_identifier then
      match hashFind m.d_allObjDefs st.d_tok.d_val with
      | some l =>
        if l.length = 1 then
          match l.head? with
          | some o => do
            let os ← m.scope o
            pure os.d_st
          | none => pure none
        else pure none
      | none => pure none
    else pure none

/-! ### The roles of a call in the words of the specification -/

/-- The four roles of a call. -/
inductive CallRole where
  | Loop | Import | NamedObject | BuiltinFunction
deriving DecidableEq, Repr

/-- The role of a call by its callee name, tested in the order of the specification:
`foreach`, `import`, a named object or a name that is no built-in function, and last the
built-in functions. -/
def specCallRole (k : QByteArray) : CallRole :=
  if k = "foreach".toList then CallRole.Loop
  else if k = "import".toList then CallRole.Import
  else if k ∈ s_namedObjs.map String.toList ∨ k ∉ s_knownFuncs.map String.toList then
    CallRole.NamedObject
  else CallRole.BuiltinFunction

/-- The registries and the symbols of `foreach` and `import` are those that `clear()` sets. -/
def CodeModel.Seeded (m : CodeModel) : Prop :=
  m.d_namedObjs = s_namedObjs.map String.toList
  ∧ m.d_knownFuncs = s_knownFuncs.map String.toList
  ∧ m.d_foreach = "foreach".toList
  ∧ m.d_import = "import".toList

/-! ### Frame of a walk -/

/-- What a walk under the scope `sc` may change between the models `m` and `m1`, `n` being
the size of the arena when the walk began: scopes are only added; a scope below `n` other
than `sc` is left as it is; `sc` keeps its `d_outer`, `d_kind`, `d_name`, `d_st` and
`d_params` and gets new children only; the global lists and hashes grow at their end, and
what is added to `allObjDefs` and `allUnnamedObjs` are scopes at or above `n`. -/
structure Frame (n : Nat) (sc : ScopeId) (m m1 : CodeModel) : Prop where
  base : n ≤ m.scopes.length
  len : m.scopes.length ≤ m1.scopes.length
  others : ∀ i, i < n → i ≠ sc → m1.scopes[i]? = m.scopes[i]?
  self : ∀ s, m.scopes[sc]? = some s → ∃ s1, m1.scopes[sc]? = some s1
    ∧ s1.d_outer = s.d_outer ∧ s1.d_kind = s.d_kind ∧ s1.d_name = s.d_name
    ∧ s1.d_st = s.d_st ∧ s1.d_params = s.d_params
    ∧ ∃ ext, s1.d_allScopes = s.d_allScopes ++ ext ∧ ∀ i ∈ ext, n ≤ i
  objDefs : ∀ k, ∃ ext, hashValue m1.d_allObjDefs k = hashValue m.d_allObjDefs k ++ ext
    ∧ ∀ i ∈ ext, n ≤ i
  unnamed : ∃ ext, m1.d_allUnnamedObjs = m.d_allUnnamedObjs ++ ext ∧ ∀ i ∈ ext, n ≤ i
  funcRefs : ∀ k, ∃ ext, hashValue m1.d_allFuncRefs k = hashValue m.d_allFuncRefs k ++ ext

/-- The frames of all walk functions at the fuel `f`. -/
structure FrameAll (env : Env) (f : Nat) : Prop where
  parseFile : ∀ path m m1 r sc, parseFile env f path m = Except.ok (m1, r) →
    Frame m.scopes.length sc m m1
  statementList : ∀ st sc m m1, statementList env f st sc m = Except.ok m1 →
    Frame m.scopes.length sc m m1
  statement : ∀ st sc m m1, statement env f st sc m = Except.ok m1 →
    Frame m.scopes.length sc m m1
  call_ : ∀ st sc m m1, call_ env f st sc m = Except.ok m1 → Frame m.scopes.length sc m m1
  loop_ : ∀ st sc m m1, loop_ env f st sc m = Except.ok m1 → Frame m.scopes.length sc m m1
  import_ : ∀ st sc m m1, import_ env f st sc m = Except.ok m1 →
    Frame m.scopes.length sc m m1
  expr : ∀ st sc m m1, expr env f st sc m = Except.ok m1 → Frame m.scopes.length sc m m1
  exprList : ∀ st sc m m1, exprList env f st sc m = Except.ok m1 →
    Frame m.scopes.length sc m m1
  block : ∀ st sc m m1, block env f st sc m = Except.ok m1 → Frame m.scopes.length sc m m1
  condition_ : ∀ st sc m m1, condition_ env f st sc m = Except.ok m1 →
    Frame m.scopes.length sc m m1
  assignment_ : ∀ st sc m m1, assignment_ env f st sc m = Except.ok m1 →
    Frame m.scopes.length sc m m1
  lvalue : ∀ st sc m m1, lvalue env f st sc m = Except.ok m1 → Frame m.scopes.length sc m m1
  primaryExpr : ∀ st sc m m1, primaryExpr env f st sc m = Except.ok m1 →
    Frame m.scopes.length sc m m1
  unaryExpr : ∀ st sc m m1, unaryExpr env f st sc m = Except.ok m1 →
    Frame m.scopes.length sc m m1
  exprNlr : ∀ st sc m m1, exprNlr env f st sc m = Except.ok m1 →
    Frame m.scopes.length sc m m1
  stringLoop : ∀ st sc pos m m1 st1 b,
    stringLoop env f st sc pos m = Except.ok (m1, st1, b) → Frame m.scopes.length sc m m1
  string : ∀ st sc m m1 st1, string env f st sc m = Except.ok (m1, st1) →
    Frame m.scopes.length sc m m1
  arrayAccess : ∀ st sc m m1, arrayAccess env f st sc m = Except.ok m1 →
    Frame m.scopes.length sc m m1
  scopeAccess : ∀ st sc m m1, scopeAccess env f st sc m = Except.ok m1 →
    Frame m.scopes.length sc m m1
  list : ∀ st sc m m1, list env f st sc m = Except.ok m1 → Frame m.scopes.length sc m m1
  stringVar_ : ∀ st sc pos len m m1 st1,
    stringVar_ env f st sc pos len m = Except.ok (m1, st1) → Frame m.scopes.length sc m m1
  namedObj_ : ∀ st sc kind m m1, namedObj_ env f st sc kind m = Except.ok m1 →
    Frame m.scopes.length sc m m1
  function_ : ∀ st sc kind m m1, function_ env f st sc kind m = Except.ok m1 →
    Frame m.scopes.length sc m m1

/-- The scopes in `allObjDefs` and `allUnnamedObjs` are scopes of the arena. -/
def CodeModel.ObjsInArena (m : CodeModel) : Prop :=
  (∀ k, ∀ i ∈ hashValue m.d_allObjDefs k, i < m.scopes.length)
  ∧ (∀ i ∈ m.d_allUnnamedObjs, i < m.scopes.length)

/-! ## Sample trees and collaborators for the concrete checks -/

/-- Leaf of an identifier token `v` at line `line`, column `col` of `/p/BUILD.gn`. -/
def identNode (line col : Nat) (v : String) : SynTree :=
  .mk ⟨TokenType.Tok_identifier, line, col, v.length, v.toList, "/p/BUILD.gn".toList⟩ []

/-- Leaf of a string token with the raw value `v`, the quotes included. -/
def stringNode (line col : Nat) (v : String) : SynTree :=
  .mk ⟨TokenType.Tok_string, line, col, v.length, v.toList, "/p/BUILD.gn".toList⟩ []

/-- Leaf of a token without value. -/
def tokenNode (ty : TokenType) (line col : Nat) : SynTree :=
  .mk ⟨ty, line, col, 1, [], "/p/BUILD.gn".toList⟩ []

/-- Node of a grammar rule with its children. -/
def ruleNode (ty : TokenType) (cs : List SynTree) : SynTree :=
  .mk ⟨ty, 0, 0, 0, [], []⟩ cs

/-- Tree `Expr(UnaryExpr(PrimaryExpr(prim)))` of an expression that is one primary. -/
def exprNode (prim : SynTree) : SynTree :=
  ruleNode TokenType.R_Expr
    [ruleNode TokenType.R_UnaryExpr [ruleNode TokenType.R_PrimaryExpr [prim]]]

/-- Tree of the statement `v = rhs` on line `line`. -/
def assignNode (line : Nat) (v : String) (rhs : SynTree) : SynTree :=
  ruleNode TokenType.R_Statement
    [ruleNode TokenType.R_Assignment
      [ruleNode TokenType.R_LValue [identNode line 1 v],
       ruleNode TokenType.R_AssignOp [tokenNode (TokenType.Tok_other 0) line 3],
       exprNode rhs]]

/-- Tree of a block with the statements `stmts`. -/
def blockNode (stmts : List SynTree) : SynTree :=
  ruleNode TokenType.R_Block
    [tokenNode TokenType.Tok_Lbrace 0 0, ruleNode TokenType.R_StatementList stmts,
     tokenNode TokenType.Tok_Rbrace 0 0]

/-- Tree of the call `callee(args) blk` on line `line`. -/
def callNode (line : Nat) (callee : String) (args : List SynTree) (blk : Option SynTree) :
    SynTree :=
  ruleNode TokenType.R_Call
    ([identNode line 1 callee, tokenNode TokenType.Tok_Lpar line 2]
      ++ (if args.isEmpty then [] else [ruleNode TokenType.R_ExprList args])
      ++ [tokenNode TokenType.Tok_Rpar line 9] ++ blk.toList)

/-- Token of a `PrimaryExpr` node as the sub-parser builds it. -/
def primaryToken : Token := ⟨TokenType.R_PrimaryExpr, 0, 0, 0, [], []⟩

/-- Token of an identifier that is the whole fragment `v`: line 1, column 1. -/
def fragmentToken (v : QByteArray) : Token :=
  ⟨TokenType.Tok_identifier, 1, 1, v.length, v, []⟩

/-- Sample collaborators: no file can be opened, the sub-parser reads every fragment as one
identifier at line 1, column 1, and the escaped value of a string token is its raw value
without the two quotes. -/
def sampleEnv : Env :=
  { openAndParse := fun _ => none
    parsePrimaryExpr := fun frag => ([.mk primaryToken [.mk (fragmentToken frag) []]], [])
    getEscapedVal := fun t => (t.d_val.drop 1).dropLast
    fileExists := fun _ => false
    canonicalFilePath := fun q => q
    absoluteFilePath := fun d n => d ++ "/".toList ++ n
    absoluteDir := fun _ => "/p".toList
    findObjectImports := true }

/-- Sample model: the model after `clear()` with one scope, that of a file. -/
def sampleModel : CodeModel :=
  { (CodeModel.clear {}) with scopes := [{ d_kind := "file".toList }] }

/-- Sample call `executable("app") \x7b deps = "hello" \x7d` on line 1. -/
def sampleCall : SynTree :=
  callNode 1 "executable" [exprNode (stringNode 1 12 "\"app\"")]
    (some (blockNode [assignNode 2 "deps" (stringNode 2 8 "\"hello\"")]))

/-- The argument list `("app")` of the sample call. -/
def sampleArgs : SynTree :=
  ruleNode TokenType.R_ExprList [exprNode (stringNode 1 12 "\"app\"")]

/-- The raw value of the string token `"hello $\x7bfoo\x7d/$bar.txt/$0xff"`. -/
def embeddedRaw : QByteArray :=
  "\"hello $\x7bfoo\x7d/$bar.txt/$0xff\"".toList

/-- The string token `"hello $\x7bfoo\x7d/$bar.txt/$0xff"` at line `line`, column `col` of the
file `path`. -/
def embeddedNode (line col : Nat) (path : QByteArray) : SynTree :=
  .mk ⟨TokenType.Tok_string, line, col, 29, embeddedRaw, path⟩ []

/-- The coordinates that a token of a fragment gets, in the words of the specification: the
line of the string token, the column `C + p + c - 1` for the column `c` in the fragment at
the offset `p`, and the source path of the string token. -/
def specRemapToken (ref : Token) (p : Nat) (t : Token) : Token :=
  { t with
    d_lineNr := ref.d_lineNr
    d_colNr := ref.d_colNr + p + t.d_colNr - 1
    d_sourcePath := ref.d_sourcePath }

/-- The model after `namedObj_` walked the sample call in the file scope of the sample
model. -/
def sampleWalked : CodeModel :=
  (namedObj_ sampleEnv 12 sampleCall 0 "executable".toList sampleModel).toOption.getD sampleModel

/-- Statement list of a file that defines the target `app` twice, on the lines 1 and 3. -/
def twoDefsFile : SynTree :=
  ruleNode TokenType.R_StatementList
    [ruleNode TokenType.R_Statement
       [callNode 1 "executable" [exprNode (stringNode 1 12 "\"app\"")] (some (blockNode []))],
     ruleNode TokenType.R_Statement
       [callNode 3 "executable" [exprNode (stringNode 3 12 "\"app\"")] (some (blockNode []))]]

/-- Collaborators for which `/p/BUILD.gn` is the file `twoDefsFile`. -/
def twoDefsEnv : Env :=
  { sampleEnv with
    openAndParse := fun q => if q = "/p/BUILD.gn".toList then some ([twoDefsFile], []) else none }

/-- The model after `clear()` and `parseFile("/p/BUILD.gn")` with `twoDefsEnv`. -/
def twoDefsModel : CodeModel :=
  ((parseFile twoDefsEnv 12 "/p/BUILD.gn".toList (CodeModel.clear {})).toOption.map
    (fun r => r.1)).getD {}

/-- Collaborators with `absoluteDir` the path up to its last `/`, `absoluteFilePath d n` the
path `d/n`, and the canonical path the path itself. -/
def projEnv : Env :=
  { sampleEnv with
    absoluteDir := fun ref => left ref (lastIndexOf ref '/') }

/-- The model after `clear()` with the source root `/proj`. -/
def projModel : CodeModel := { (CodeModel.clear {}) with d_sourceRoot := "/proj".toList }

/-- The call `import("//missing.gni")` on line 1. -/
def missingImport : SynTree :=
  callNode 1 "import" [exprNode (stringNode 1 8 "\"//missing.gni\"")] none

/-- Collaborators of an empty file system: no file exists or can be opened, and the
canonical path of every path is empty, as `QFileInfo::canonicalFilePath` is for a file that
does not exist. -/
def emptyFsEnv : Env :=
  { sampleEnv with canonicalFilePath := fun _ => [] }

/-- The call `foreach("x", items) \x7b y = 1 \x7d`, whose loop variable is a string. -/
def badVarLoop : SynTree :=
  callNode 1 "foreach" [exprNode (stringNode 1 9 "\"x\""), exprNode (identNode 1 14 "items")]
    (some (blockNode [assignNode 2 "y" (tokenNode TokenType.Tok_integer 2 5)]))

/-- The call `foreach()`. -/
def emptyLoop : SynTree := callNode 1 "foreach" [] none

/-! ### The recordings of a walk -/

/-- One recording of the walk: each constructor is one of the updates that the walk
functions make to the model, with the pairs and triples that the code makes together
taken as one. -/
inductive Prim : CodeModel → CodeModel → Prop where
  /-- Reports of the lexer, the parser or the model go to the error sink. -/
  | errs (m : CodeModel) (r : List Report) : Prim m { m with d_errs := m.d_errs ++ r }
  /-- The append `d_allFuncRefs[k].append(x)` of `call_` and `string`. -/
  | funcRef (m : CodeModel) (k : QByteArray) (x : SynTree) :
    Prim m { m with d_allFuncRefs := hashAppend m.d_allFuncRefs k x }
  /-- The append `d_allLhs[var].append(var)` of `loop_`. -/
  | loopVar (m : CodeModel) (x : SynTree) :
    Prim m { m with d_allLhs := hashAppend m.d_allLhs x.d_tok.d_val x }
  /-- A call of `varRhs`. -/
  | varRhs (m m1 : CodeModel) (st : SynTree) (sc : ScopeId) :
    varRhs st sc m = Except.ok m1 → Prim m m1
  /-- A call of `varLhs`. -/
  | varLhs (m m1 : CodeModel) (st : SynTree) (sc : ScopeId) :
    varLhs st sc m = Except.ok m1 → Prim m m1
  /-- The creation of a scope by `namedObj_` or `function_`. -/
  | newScope (m : CodeModel) (sc : ScopeId) (st : SynTree) (kind : QByteArray) :
    sc < m.scopes.length → Prim m (newScope m sc st kind).1
  /-- The assignment `newScope->d_params = p`. -/
  | params (m : CodeModel) (i : ScopeId) (p : SynTree) :
    Prim m (m.modifyScope i (fun s => { s with d_params := some p }))
  /-- The registration of a named object: `sc->d_objectDefs.insert(sym, n)`,
  `d_allObjDefs[sym].append(n)` and `n->d_name = sym`; `n` is the scope that `namedObj_`
  has created, which has an `outer`. -/
  | namedDef (m : CodeModel) (sc n : ScopeId) (sym : QByteArray) :
    (∃ s o, m.scopes[n]? = some s ∧ s.d_outer = some o) →
    Prim m (CodeModel.modifyScope { (m.modifyScope sc (fun s => { s with d_objectDefs := hashInsert s.d_objectDefs sym n })) with d_allObjDefs := hashAppend m.d_allObjDefs sym n } n (fun s => { s with d_name := sym }))
  /-- The append `d_allUnnamedObjs.append(n)`. -/
  | unnamed (m : CodeModel) (n : ScopeId) :
    Prim m { m with d_allUnnamedObjs := m.d_allUnnamedObjs ++ [n] }
  /-- The append `d_allImports[k].append(x)`. -/
  | imports (m : CodeModel) (k : QByteArray) (x : SynTree) :
    Prim m { m with d_allImports := hashAppend m.d_allImports k x }
  /-- The insert `sc->d_relovedImports.insert(k, res)`. -/
  | resolved (m : CodeModel) (sc : ScopeId) (k : QByteArray) (res : ScopeId) :
    Prim m (m.modifyScope sc (fun s => { s with d_relovedImports := hashInsert s.d_relovedImports k res }))
  /-- The two appends of an unresolved import, to the scope and to the model. -/
  | unresolved (m : CodeModel) (sc : ScopeId) (arg : SynTree) : sc < m.scopes.length →
    Prim m { (m.modifyScope sc (fun s => { s with d_unresolvedImports := s.d_unresolvedImports ++ [arg] })) with d_allUnresolvedImports := m.d_allUnresolvedImports ++ [arg] }
  /-- The append `d_unresolvedRefs.append(x)`. -/
  | unresolvedRef (m : CodeModel) (x : SynTree) :
    Prim m { m with d_unresolvedRefs := m.d_unresolvedRefs ++ [x] }
  /-- The entry of a file that has none yet in `d_files`, with `d_kind` and `d_name` set. -/
  | fileScope (m : CodeModel) (pathSym : QByteArray) : hashFind m.d_files pathSym = none →
    Prim m { m with scopes := m.scopes ++ [{ d_kind := m.d_fileKind, d_name := pathSym }], d_files := hashInsert m.d_files pathSym m.scopes.length }
  /-- The assignment `scope->d_st = st` at the end of `parseFile`. -/
  | fileDone (m : CodeModel) (i : ScopeId) (st : SynTree) :
    Prim m (m.modifyScope i (fun s => { s with d_st := some st }))

/-- A sequence of recordings. -/
def Steps : CodeModel → CodeModel → Prop := Relation.ReflTransGen Prim

/-- Every walk function at the fuel `f` makes a sequence of recordings. -/
structure StepsAll (env : Env) (f : Nat) : Prop where
  parseFile : ∀ path m m1 r, parseFile env f path m = Except.ok (m1, r) → Steps m m1
  statementList : ∀ st sc m m1, statementList env f st sc m = Except.ok m1 → Steps m m1
  statement : ∀ st sc m m1, statement env f st sc m = Except.ok m1 → Steps m m1
  call_ : ∀ st sc m m1, call_ env f st sc m = Except.ok m1 → Steps m m1
  loop_ : ∀ st sc m m1, loop_ env f st sc m = Except.ok m1 → Steps m m1
  import_ : ∀ st sc m m1, import_ env f st sc m = Except.ok m1 → Steps m m1
  expr : ∀ st sc m m1, expr env f st sc m = Except.ok m1 → Steps m m1
  exprList : ∀ st sc m m1, exprList env f st sc m = Except.ok m1 → Steps m m1
  block : ∀ st sc m m1, block env f st sc m = Except.ok m1 → Steps m m1
  condition_ : ∀ st sc m m1, condition_ env f st sc m = Except.ok m1 → Steps m m1
  assignment_ : ∀ st sc m m1, assignment_ env f st sc m = Except.ok m1 → Steps m m1
  lvalue : ∀ st sc m m1, lvalue env f st sc m = Except.ok m1 → Steps m m1
  primaryExpr : ∀ st sc m m1, primaryExpr env f st sc m = Except.ok m1 → Steps m m1
  unaryExpr : ∀ st sc m m1, unaryExpr env f st sc m = Except.ok m1 → Steps m m1
  exprNlr : ∀ st sc m m1, exprNlr env f st sc m = Except.ok m1 → Steps m m1
  stringLoop : ∀ st sc pos m m1 st1 b,
    stringLoop env f st sc pos m = Except.ok (m1, st1, b) → Steps m m1
  string : ∀ st sc m m1 st1, string env f st sc m = Except.ok (m1, st1) → Steps m m1
  arrayAccess : ∀ st sc m m1, arrayAccess env f st sc m = Except.ok m1 → Steps m m1
  scopeAccess : ∀ st sc m m1, scopeAccess env f st sc m = Except.ok m1 → Steps m m1
  list : ∀ st sc m m1, list env f st sc m = Except.ok m1 → Steps m m1
  stringVar_ : ∀ st sc pos len m m1 st1,
    stringVar_ env f st sc pos len m = Except.ok (m1, st1) → Steps m m1
  namedObj_ : ∀ st sc kind m m1, namedObj_ env f st sc kind m = Except.ok m1 → Steps m m1
  function_ : ∀ st sc kind m m1, function_ env f st sc kind m = Except.ok m1 → Steps m m1

/-- What no recording undoes: the symbols and registries of the model stay, a scope of the
arena stays in its place with its `d_kind` and `d_outer`, and the LHS and RHS lists of the
scopes and of the model, `allFuncRefs`, `declaredArgs` and the error sink only grow at
their end. -/
structure Grows (m m1 : CodeModel) : Prop where
  config : m1.d_declare_args = m.d_declare_args ∧ m1.d_fileKind = m.d_fileKind
    ∧ m1.d_foreach = m.d_foreach ∧ m1.d_import = m.d_import
    ∧ m1.d_namedObjs = m.d_namedObjs ∧ m1.d_knownFuncs = m.d_knownFuncs
    ∧ m1.d_knownVars = m.d_knownVars ∧ m1.d_sourceRoot = m.d_sourceRoot
  scopes : ∀ (i : ScopeId) (s : Scope), m.scopes[i]? = some s → ∃ s1 : Scope, m1.scopes[i]? = some s1
    ∧ s1.d_kind = s.d_kind ∧ s1.d_outer = s.d_outer
    ∧ (∀ k, hashValue s.d_lhs k <+: hashValue s1.d_lhs k)
    ∧ (∀ k, hashValue s.d_rhs k <+: hashValue s1.d_rhs k)
  allLhs : ∀ k, hashValue m.d_allLhs k <+: hashValue m1.d_allLhs k
  allRhs : ∀ k, hashValue m.d_allRhs k <+: hashValue m1.d_allRhs k
  allFuncRefs : ∀ k, hashValue m.d_allFuncRefs k <+: hashValue m1.d_allFuncRefs k
  declared : m.d_declaredArgs <+: m1.d_declaredArgs
  errs : m.d_errs <+: m1.d_errs

/-- The number of occurrences of the node `x` in the LHS lists of a scope. -/
def lhsCount (s : Scope) (x : SynTree) : Nat :=
  (s.d_lhs.map (fun p => p.2.count x)).sum

/-- The number of occurrences of the node `x` in the LHS lists of the scopes whose kind is
the symbol of `declare_args`. -/
def declCount (m : CodeModel) (x : SynTree) : Nat :=
  (m.scopes.map (fun s => if s.d_kind = m.d_declare_args then lhsCount s x else 0)).sum

/-- Every node is in `declaredArgs` as often as it is in the LHS lists of the scopes of
kind `declare_args`. -/
def DeclInv (m : CodeModel) : Prop :=
  ∀ x : SynTree, m.d_declaredArgs.count x = declCount m x

/-- Tree of `if (guard) thenB else elseB`; `elseB` is a block or a condition. -/
def condNode (line : Nat) (guard thenB elseB : SynTree) : SynTree :=
  ruleNode TokenType.R_Condition
    [tokenNode (TokenType.Tok_other 1) line 1, tokenNode TokenType.Tok_Lpar line 4, guard,
     tokenNode TokenType.Tok_Rpar line 9, thenB, tokenNode (TokenType.Tok_other 2) line 20,
     elseB]

/-- Statement that is the call or condition `c`. -/
def stmtNode (c : SynTree) : SynTree := ruleNode TokenType.R_Statement [c]

/-- Statement list of the file
`declare_args() \x7b a = 1  if (c) \x7b b = 2 \x7d else \x7b d = 3 \x7d  foreach(i, l) \x7b e = 4 \x7d
group("t") \x7b g = 5 \x7d \x7d  h = 6`, one assignment per line. -/
def declFile : SynTree :=
  ruleNode TokenType.R_StatementList
    [stmtNode (callNode 1 "declare_args" []
      (some (blockNode
        [assignNode 2 "a" (tokenNode TokenType.Tok_integer 2 5),
         stmtNode (condNode 3 (exprNode (identNode 3 5 "c"))
           (blockNode [assignNode 4 "b" (tokenNode TokenType.Tok_integer 4 5)])
           (blockNode [assignNode 5 "d" (tokenNode TokenType.Tok_integer 5 5)])),
         stmtNode (callNode 6 "foreach"
           [exprNode (identNode 6 9 "i"), exprNode (identNode 6 12 "l")]
           (some (blockNode [assignNode 7 "e" (tokenNode TokenType.Tok_integer 7 5)]))),
         stmtNode (callNode 8 "group" [exprNode (stringNode 8 7 "\"t\"")]
           (some (blockNode [assignNode 9 "g" (tokenNode TokenType.Tok_integer 9 5)])))]))),
     assignNode 10 "h" (tokenNode TokenType.Tok_integer 10 5)]

/-! ### Conditions and loops -/


/-- The statement `stmt` is an assignment whose target is the plain identifier `id`. -/
def IsPlainAssignment (stmt id : SynTree) : Prop :=
  ∃ (ts ta tlv : Token) (op e : SynTree), stmt = .mk ts [.mk ta [.mk tlv [id], op, e]]
    ∧ ta.d_type = TokenType.R_Assignment

/-- The statement `stmt` is one of the statements of the block `blk`. -/
def InBlock (blk stmt : SynTree) : Prop :=
  ∃ (tb tl : Token) (lb rb : SynTree) (stmts : List SynTree),
    blk = .mk tb [lb, .mk tl stmts, rb] ∧ stmt ∈ stmts

/-- The node `id` is in the list of its name in the LHS map of the scope `sc`. -/
def RecordedLhs (m : CodeModel) (sc : ScopeId) (id : SynTree) : Prop :=
  ∃ s : Scope, m.scopes[sc]? = some s ∧ id ∈ hashValue s.d_lhs id.d_tok.d_val


mutual
/-- No string literal is in the tree, and every call in it has the callee `fe`. -/
def SynTree.loopsOnly (fe : QByteArray) : SynTree → Bool
  | .mk tok cs =>
    decide (tok.d_type ≠ TokenType.Tok_string)
      && (decide (tok.d_type ≠ TokenType.R_Call)
          || cs.head?.map (fun c => c.d_tok.d_val) == some fe)
      && SynTree.loopsOnlyList fe cs
/-- The same for the trees of a list. -/
def SynTree.loopsOnlyList (fe : QByteArray) : List SynTree → Bool
  | [] => true
  | c :: cs => SynTree.loopsOnly fe c && SynTree.loopsOnlyList fe cs
end

/-- The `childScopes` list of every scope and the `foreach` symbol are the same in `m1` as
in `m`; in particular no scope was added to the arena. -/
def ScopesKept (m m1 : CodeModel) : Prop :=
  m1.d_foreach = m.d_foreach
    ∧ m1.scopes.map (fun s => s.d_allScopes) = m.scopes.map (fun s => s.d_allScopes)

/-- Every walk function at the fuel `f` keeps the `childScopes` lists when the tree has no
string and no call other than `foreach`. -/
structure QuietAll (env : Env) (f : Nat) : Prop where
  statementList : ∀ st sc m m1, SynTree.loopsOnly m.d_foreach st = true →
    statementList env f st sc m = Except.ok m1 → ScopesKept m m1
  statement : ∀ st sc m m1, SynTree.loopsOnly m.d_foreach st = true →
    statement env f st sc m = Except.ok m1 → ScopesKept m m1
  call_ : ∀ st sc m m1, SynTree.loopsOnly m.d_foreach st = true →
    st.d_tok.d_type = TokenType.R_Call → call_ env f st sc m = Except.ok m1 → ScopesKept m m1
  loop_ : ∀ st sc m m1, SynTree.loopsOnly m.d_foreach st = true →
    loop_ env f st sc m = Except.ok m1 → ScopesKept m m1
  expr : ∀ st sc m m1, SynTree.loopsOnly m.d_foreach st = true →
    expr env f st sc m = Except.ok m1 → ScopesKept m m1
  block : ∀ st sc m m1, SynTree.loopsOnly m.d_foreach st = true →
    block env f st sc m = Except.ok m1 → ScopesKept m m1
  condition_ : ∀ st sc m m1, SynTree.loopsOnly m.d_foreach st = true →
    condition_ env f st sc m = Except.ok m1 → ScopesKept m m1
  assignment_ : ∀ st sc m m1, SynTree.loopsOnly m.d_foreach st = true →
    assignment_ env f st sc m = Except.ok m1 → ScopesKept m m1
  lvalue : ∀ st sc m m1, SynTree.loopsOnly m.d_foreach st = true →
    lvalue env f st sc m = Except.ok m1 → ScopesKept m m1
  primaryExpr : ∀ st sc m m1, SynTree.loopsOnly m.d_foreach st = true →
    primaryExpr env f st sc m = Except.ok m1 → ScopesKept m m1
  unaryExpr : ∀ st sc m m1, SynTree.loopsOnly m.d_foreach st = true →
    unaryExpr env f st sc m = Except.ok m1 → ScopesKept m m1
  exprNlr : ∀ st sc m m1, SynTree.loopsOnly m.d_foreach st = true →
    exprNlr env f st sc m = Except.ok m1 → ScopesKept m m1
  arrayAccess : ∀ st sc m m1, SynTree.loopsOnly m.d_foreach st = true →
    arrayAccess env f st sc m = Except.ok m1 → ScopesKept m m1
  list : ∀ st sc m m1, SynTree.loopsOnly m.d_foreach st = true →
    list env f st sc m = Except.ok m1 → ScopesKept m m1

/-- The block `b` is the block of the conditional `st`, of its `else`, or of one of the
conditionals that follow in its `else if` chain. -/
inductive ChainBlock : SynTree → SynTree → Prop where
  | thenB (st b : SynTree) : st.d_children[4]? = some b → ChainBlock st b
  | elseB (st b : SynTree) : st.d_children[6]? = some b →
    b.d_tok.d_type ≠ TokenType.R_Condition → ChainBlock st b
  | elseIf (st c b : SynTree) : st.d_children[6]? = some c →
    c.d_tok.d_type = TokenType.R_Condition → ChainBlock c b → ChainBlock st b

/-- The call `foreach(v, items) \x7b y = v \x7d` on line 5. -/
def goodLoop : SynTree :=
  callNode 5 "foreach" [exprNode (identNode 5 9 "v"), exprNode (identNode 5 12 "items")]
    (some (blockNode [assignNode 6 "y" (identNode 6 5 "v")]))

/-- Statement list of the file
`if (c) \x7b b = 2 \x7d else if (d) \x7b e = 3 \x7d else \x7b foreach(v, items) \x7b y = v \x7d \x7d`. -/
def chainFile : SynTree :=
  ruleNode TokenType.R_StatementList
    [stmtNode (condNode 1 (exprNode (identNode 1 5 "c"))
      (blockNode [assignNode 2 "b" (tokenNode TokenType.Tok_integer 2 5)])
      (condNode 3 (exprNode (identNode 3 12 "d"))
        (blockNode [assignNode 4 "e" (tokenNode TokenType.Tok_integer 4 5)])
        (blockNode [stmtNode goodLoop])))]

/-- What the walk of `chainFile` leaves: the `childScopes` list and the names of the LHS map
of each scope, and the names of the global LHS map. -/
def chainWalked : Option (List (List ScopeId × List QByteArray) × List QByteArray) :=
  (statementList sampleEnv 30 chainFile 0 sampleModel).toOption.map
    (fun m => (m.scopes.map (fun s => (s.d_allScopes, s.d_lhs.map Prod.fst)),
      m.d_allLhs.map Prod.fst))

/-- The model that `loop_` returns for `goodLoop` in the file scope of the sample model. -/
def goodLoopWalked : CodeModel :=
  (loop_ sampleEnv 30 goodLoop 0 sampleModel).toOption.getD sampleModel


/-! ### Assignments -/

/-- The model after `varRhs(id, sc)`: the node is appended to the list of its name in the
RHS map of the scope and in `allRhs`. -/
def recordRhs (sc : ScopeId) (m : CodeModel) (id : SynTree) : CodeModel :=
  { (m.modifyScope sc (fun s => { s with d_rhs := hashAppend s.d_rhs id.d_tok.d_val id })) with d_allRhs := hashAppend m.d_allRhs id.d_tok.d_val id }

/-- The kinds of node of an expression tree; `exprs` is a node whose children are
expressions. -/
inductive ExprKind where
  | expr | unary | nlr | primary | exprs
deriving DecidableEq

/-- The trees of the expressions that are built from identifiers, integer literals,
operators, parentheses, array accesses, scope accesses and lists, with the identifier
nodes that occur in them, from left to right. -/
inductive Plain : ExprKind → SynTree → List SynTree → Prop where
  | expr1 (t : Token) (u : SynTree) (ids : List SynTree) :
    t.d_type = TokenType.R_Expr → Plain ExprKind.unary u ids →
    Plain ExprKind.expr (.mk t [u]) ids
  | expr2 (t : Token) (u n : SynTree) (ids ids2 : List SynTree) :
    t.d_type = TokenType.R_Expr → Plain ExprKind.unary u ids → Plain ExprKind.nlr n ids2 →
    Plain ExprKind.expr (.mk t [u, n]) (ids ++ ids2)
  | unary1 (t : Token) (p : SynTree) (ids : List SynTree) :
    t.d_type = TokenType.R_UnaryExpr → Plain ExprKind.primary p ids →
    Plain ExprKind.unary (.mk t [p]) ids
  | unary2 (t : Token) (o u : SynTree) (ids : List SynTree) :
    t.d_type = TokenType.R_UnaryExpr → o.d_tok.d_type = TokenType.R_UnaryOp →
    Plain ExprKind.unary u ids → Plain ExprKind.unary (.mk t [o, u]) ids
  | nlr2 (t : Token) (o e : SynTree) (ids : List SynTree) :
    t.d_type = TokenType.R_Expr_nlr_ → o.d_tok.d_type = TokenType.R_BinaryOp →
    Plain ExprKind.expr e ids → Plain ExprKind.nlr (.mk t [o, e]) ids
  | nlr3 (t : Token) (o e n : SynTree) (ids ids2 : List SynTree) :
    t.d_type = TokenType.R_Expr_nlr_ → o.d_tok.d_type = TokenType.R_BinaryOp →
    Plain ExprKind.expr e ids → Plain ExprKind.nlr n ids2 →
    Plain ExprKind.nlr (.mk t [o, e, n]) (ids ++ ids2)
  | ident (t : Token) (id : SynTree) :
    id.d_tok.d_type = TokenType.Tok_identifier → Plain ExprKind.primary (.mk t [id]) [id]
  | integer (t : Token) (c : SynTree) :
    c.d_tok.d_type = TokenType.Tok_integer → Plain ExprKind.primary (.mk t [c]) []
  | paren (t : Token) (lp e rp : SynTree) (ids : List SynTree) :
    lp.d_tok.d_type = TokenType.Tok_Lpar → Plain ExprKind.expr e ids →
    Plain ExprKind.primary (.mk t [lp, e, rp]) ids
  | array (t ta : Token) (id lb e rb : SynTree) (ids : List SynTree) :
    ta.d_type = TokenType.R_ArrayAccess → id.d_tok.d_type = TokenType.Tok_identifier →
    lb.d_tok.d_type = TokenType.Tok_Lbrack → rb.d_tok.d_type = TokenType.Tok_Rbrack →
    Plain ExprKind.expr e ids →
    Plain ExprKind.primary (.mk t [.mk ta [id, lb, e, rb]]) (id :: ids)
  | scopeAcc (t ta : Token) (id dot fld : SynTree) :
    ta.d_type = TokenType.R_ScopeAccess → id.d_tok.d_type = TokenType.Tok_identifier →
    dot.d_tok.d_type = TokenType.Tok_Dot → fld.d_tok.d_type = TokenType.Tok_identifier →
    Plain ExprKind.primary (.mk t [.mk ta [id, dot, fld]]) [id, fld]
  | list (t tl : Token) (lb rb : SynTree) (es ids : List SynTree) :
    tl.d_type = TokenType.R_List_ → lb.d_tok.d_type = TokenType.Tok_Lbrack →
    rb.d_tok.d_type = TokenType.Tok_Rbrack → Plain ExprKind.exprs (.mk tl es) ids →
    Plain ExprKind.primary (.mk t [.mk tl (lb :: (es ++ [rb]))]) ids
  | nil (t : Token) : Plain ExprKind.exprs (.mk t []) []
  | cons (t : Token) (e : SynTree) (es ids ids2 : List SynTree) :
    Plain ExprKind.expr e ids → Plain ExprKind.exprs (.mk t es) ids2 →
    Plain ExprKind.exprs (.mk t (e :: es)) (ids ++ ids2)

/-- The walk function for each kind of node, at the fuel `f`. -/
def walkOf (env : Env) (f : Nat) : ExprKind → SynTree → ScopeId → CodeModel → Walk CodeModel
  | ExprKind.expr => expr env f
  | ExprKind.unary => unaryExpr env f
  | ExprKind.nlr => exprNlr env f
  | ExprKind.primary => primaryExpr env f
  | ExprKind.exprs => fun st sc m => st.d_children.foldlM (fun m e => expr env f e sc m) m

/-- The query "LHS only vars" of `MainWindow::onQuery`: the keys of `allLhs` that `allRhs`
does not contain, before the `Sorter` puts them in order. -/
def queryLhsOnly (m : CodeModel) : List QByteArray :=
  (m.d_allLhs.map Prod.fst).filter (fun k => (hashFind m.d_allRhs k).isNone)

/-- The query "RHS only vars" of `MainWindow::onQuery`: the keys of `allRhs` that `allLhs`
does not contain, before the `Sorter` puts them in order. -/
def queryRhsOnly (m : CodeModel) : List QByteArray :=
  (m.d_allRhs.map Prod.fst).filter (fun k => (hashFind m.d_allLhs k).isNone)

/-- Statement list of the file `x = 1` followed by `y = x`. -/
def twoAssignments : SynTree :=
  ruleNode TokenType.R_StatementList
    [assignNode 1 "x" (tokenNode TokenType.Tok_integer 1 5),
     assignNode 2 "y" (identNode 2 5 "x")]

/-- The model after the walk of `twoAssignments` in the file scope of the sample model. -/
def twoAssignmentsWalked : CodeModel :=
  (statementList sampleEnv 12 twoAssignments 0 sampleModel).toOption.getD sampleModel


/-! ### Files that import each other -/

/-- The statement `import(target)` on line `line`; `target` is the string with its quotes. -/
def importStmt (line : Nat) (target : String) : SynTree :=
  stmtNode (callNode line "import" [exprNode (stringNode line 8 target)] none)

/-- Statement list of the file `/proj/a.gni`: `a = 1` and `import("//b.gni")`. -/
def fileA : SynTree :=
  ruleNode TokenType.R_StatementList
    [assignNode 1 "a" (tokenNode TokenType.Tok_integer 1 5), importStmt 2 "\"//b.gni\""]

/-- Statement list of the file `/proj/b.gni`: `b = 2` and `import("//a.gni")`. -/
def fileB : SynTree :=
  ruleNode TokenType.R_StatementList
    [assignNode 1 "b" (tokenNode TokenType.Tok_integer 1 5), importStmt 2 "\"//a.gni\""]

/-- Statement list of the file `/proj/self.gni`: `s = 3` and `import("//self.gni")`. -/
def fileSelf : SynTree :=
  ruleNode TokenType.R_StatementList
    [assignNode 1 "s" (tokenNode TokenType.Tok_integer 1 5), importStmt 2 "\"//self.gni\""]

/-- Collaborators for the project `/proj` with the three files `a.gni`, `b.gni` and
`self.gni`. -/
def cycleEnv : Env :=
  { projEnv with
    openAndParse := fun q =>
      if q = "/proj/a.gni".toList then some ([fileA], [])
      else if q = "/proj/b.gni".toList then some ([fileB], [])
      else if q = "/proj/self.gni".toList then some ([fileSelf], [])
      else none
    fileExists := fun q =>
      q = "/proj/a.gni".toList || q = "/proj/b.gni".toList || q = "/proj/self.gni".toList }

/-- The result of `parseFile("/proj/a.gni")` from the cleared model of the project. -/
def cycleWalked : CodeModel × Option ScopeId :=
  (parseFile cycleEnv 14 "/proj/a.gni".toList projModel).toOption.getD ({}, none)

/-- The result of `parseFile("/proj/self.gni")` from the cleared model of the project. -/
def selfWalked : CodeModel × Option ScopeId :=
  (parseFile cycleEnv 14 "/proj/self.gni".toList projModel).toOption.getD ({}, none)


/-! ### The analysis of a directory -/

/-- The operations of `QDir` on the directory tree that `parseDir` uses. -/
structure DirEnv where
  /-- `QDir::cdUp` on a directory: the parent directory, `none` when there is none. -/
  cdUp : QByteArray → Option QByteArray
  /-- `dir.entryList(["*.gn", "*.gni"], QDir::Files, QDir::Name)`. -/
  buildFiles : QByteArray → List QByteArray
  /-- `dir.entryList(QDir::Dirs | QDir::NoDotAndDotDot | QDir::NoSymLinks, QDir::Name)`. -/
  subDirs : QByteArray → List QByteArray

/-- The constant `s_dotFile`. -/
def s_dotFile : String := ".gn"

/-- The function `collectBuildFiles`. -/
def collectBuildFiles (env : Env) (de : DirEnv) :
    Nat → QByteArray → Walk (List QByteArray)
  | 0, _ => throw WalkError.fuel
  | f + 1, dir =>
    let res := (de.buildFiles dir).map (fun n => env.absoluteFilePath dir n)
    (de.subDirs dir).foldlM
      (fun res d => do
        let r ← collectBuildFiles env de f (env.absoluteFilePath dir d)
        pure (res ++ r)) res

/-- The function `CodeModel::findDotFile`; the empty path is the null `QString`. -/
def findDotFile (env : Env) (de : DirEnv) : Nat → QByteArray → Walk QByteArray
  | 0, _ => throw WalkError.fuel
  | f + 1, dir =>
    let path := env.absoluteFilePath dir s_dotFile.toList
    if env.fileExists path then pure path
    else
      match de.cdUp (env.absoluteDir path) with
      | none => pure []
      | some up => findDotFile env de f up

/-- The `Errors::getErrCount`: the number of reports made with `error`. -/
def getErrCount (m : CodeModel) : Nat :=
  (m.d_errs.filter (fun r => r.severity = Severity.error)).length

/-- The function `CodeModel::parseDir`; the result is the model and the returned `bool`. -/
def parseDir (env : Env) (de : DirEnv) (fuel : Nat) (dir : QByteArray) (m : CodeModel) :
    Walk (CodeModel × Bool) := do
  let m := m.clear
  let dotfile ← findDotFile env de fuel dir
  if dotfile.isEmpty then
    pure (m.error ErrSource.Semantics
      "could not find any dotfile in current or super directories", false)
  else do
    let m := { m with d_sourceRoot := env.absoluteDir dotfile }
    let files := [dotfile] ++ (← collectBuildFiles env de fuel m.d_sourceRoot)
    let m ← files.foldlM (fun m f => do
      let r ← parseFile env fuel f m
      pure r.1) m
    pure (m, getErrCount m == 0)

/-- Collaborators for the project `/proj` with the dotfile `.gn`, which holds `root = 1`,
and the files `a.gni` and `b.gni` that import each other. -/
def dirFsEnv : Env :=
  { cycleEnv with
    openAndParse := fun q =>
      if q = "/proj/.gn".toList then
        some ([ruleNode TokenType.R_StatementList
          [assignNode 1 "root" (tokenNode TokenType.Tok_integer 1 8)]], [])
      else cycleEnv.openAndParse q
    fileExists := fun q => q = "/proj/.gn".toList || cycleEnv.fileExists q }

/-- The directory tree of the project: `/proj` with the files `a.gni` and `b.gni` and the
directory `sub`, which is empty. -/
def projDirs : DirEnv :=
  { cdUp := fun d =>
      if d = "/proj/sub".toList then some "/proj".toList
      else if d = "/proj".toList then some "/".toList
      else none
    buildFiles := fun d =>
      if d = "/proj".toList then ["a.gni".toList, "b.gni".toList] else []
    subDirs := fun d => if d = "/proj".toList then ["sub".toList] else [] }

/-- The result of `parseDir("/proj/sub")` from the model `m`. -/
def dirWalked (m : CodeModel) : CodeModel × Bool :=
  (parseDir dirFsEnv projDirs 16 "/proj/sub".toList m).toOption.getD ({}, false)


/-! ### The scope graph -/

/-- What the scope graph is made of: of each scope of the arena the `childScopes` list
(`d_allScopes`) and `outer`. -/
abbrev Shape := List (List ScopeId × Option ScopeId)

/-- The `childScopes` list and `outer` of every scope of the model. -/
def scopeShape (m : CodeModel) : Shape :=
  m.scopes.map (fun s => (s.d_allScopes, s.d_outer))

/-- The number of occurrences of the scope `j` in all the `childScopes` lists. -/
def childCount (sh : Shape) (j : ScopeId) : Nat :=
  (sh.map (fun p => p.1.count j)).sum

/-- The scope graph is a forest: a scope in the `childScopes` list of `i` has `outer = i`;
the scopes of the Files map, and only they, have no `outer`; a scope with an `outer` is in
the `childScopes` lists exactly once; and `outer` is a scope that was created earlier. -/
structure ForestOn (sh : Shape) (files : ScopeHash) : Prop where
  child_outer : ∀ (i : ScopeId) (p : List ScopeId × Option ScopeId), sh[i]? = some p →
    ∀ c ∈ p.1, ∃ q : List ScopeId × Option ScopeId, sh[c]? = some q ∧ q.2 = some i
  file_outer : ∀ (k : QByteArray) (id : ScopeId), hashFind files k = some id →
    ∃ q : List ScopeId × Option ScopeId, sh[id]? = some q ∧ q.2 = none
  root_file : ∀ (j : ScopeId) (q : List ScopeId × Option ScopeId), sh[j]? = some q →
    q.2 = none → ∃ k, hashFind files k = some j
  once : ∀ (j : ScopeId) (q : List ScopeId × Option ScopeId) (o : ScopeId), sh[j]? = some q →
    q.2 = some o → childCount sh j = 1
  outer_lt : ∀ (j : ScopeId) (q : List ScopeId × Option ScopeId) (o : ScopeId),
    sh[j]? = some q → q.2 = some o → o < j

/-- The scope graph of the model is a forest. -/
def Forest (m : CodeModel) : Prop := ForestOn (scopeShape m) m.d_files

/-- The scope that is reached from `j` by following `outer` `n` times. -/
def outerChain (m : CodeModel) : Nat → ScopeId → Option ScopeId
  | 0, j => if j < m.scopes.length then some j else none
  | n + 1, j =>
    match m.scopes[j]? with
    | some s =>
      match s.d_outer with
      | some o => outerChain m n o
      | none => none
    | none => none

/-- The forest in the terms of the model: (1) every scope in the `childScopes` list of a
scope `i` has `outer = i`; (2) every scope of the Files map has no `outer`; (3) the scopes
without `outer` are the scopes of the Files map; (4) a scope with an `outer` occurs once in
all the `childScopes` lists together, and that is in the list of its `outer`; (5) from
every scope a scope of the Files map is reached by following `outer` finitely often. -/
def ScopeForest (m : CodeModel) : Prop :=
  (∀ (i c : ScopeId) (s : Scope), m.scopes[i]? = some s → c ∈ s.d_allScopes →
      ∃ s2 : Scope, m.scopes[c]? = some s2 ∧ s2.d_outer = some i)
  ∧ (∀ (k : QByteArray) (id : ScopeId), hashFind m.d_files k = some id →
      ∃ s : Scope, m.scopes[id]? = some s ∧ s.d_outer = none)
  ∧ (∀ (j : ScopeId) (s : Scope), m.scopes[j]? = some s →
      (s.d_outer = none ↔ ∃ k, hashFind m.d_files k = some j))
  ∧ (∀ (j o : ScopeId) (s : Scope), m.scopes[j]? = some s → s.d_outer = some o →
      (m.scopes.map (fun s2 => s2.d_allScopes.count j)).sum = 1
      ∧ ∃ so : Scope, m.scopes[o]? = some so ∧ so.d_allScopes.count j = 1)
  ∧ (∀ j : ScopeId, j < m.scopes.length →
      ∃ (n : Nat) (r : ScopeId) (k : QByteArray),
        outerChain m n j = some r ∧ hashFind m.d_files k = some r)

/-- Collaborators for which `/p/BUILD.gn` is the file `declFile`, with a `group` inside a
`declare_args` block. -/
def nestedEnv : Env :=
  { sampleEnv with
    openAndParse := fun q => if q = "/p/BUILD.gn".toList then some ([declFile], []) else none }

/-- The model after `clear()` and `parseFile("/p/BUILD.gn")` with `nestedEnv`. -/
def nestedModel : CodeModel :=
  ((parseFile nestedEnv 31 "/p/BUILD.gn".toList (CodeModel.clear {})).toOption.map
    (fun r => r.1)).getD {}


/-! ## The lexer (`GnLexer.cpp`)

The declarations of the class `Lexer` (`GnLexer.h`) and the generated function
`tokenTypeFromString` are not part of the sources at hand. The members are given as far as
`GnLexer.cpp` uses them; `tokenTypeFromString` is a parameter. The stream `d_in` is the list
of the lines that `QIODevice::readLine` will return, each with its line end; it is at its
end when the list is empty. -/

/-- A `QByteArray` value with the address of its data: two values share their data, as
after an assignment, when the addresses are equal. -/
structure QBuf where
  addr : Nat
  bytes : QByteArray
deriving DecidableEq, Repr

/-- The default-constructed `QByteArray`. -/
def QBuf.null : QBuf := ⟨0, []⟩

/-- The static `QHash<QByteArray,QByteArray> Lexer::d_symbols`; its keys are compared by
their bytes. -/
abbrev Symbols := List (QByteArray × QBuf)

/-- The function `Lexer::getSymbol`; the result is the pool and the returned array.
`d_symbols[str]` makes an entry with a default-constructed value when the key is missing. -/
def getSymbol (syms : Symbols) (str : QBuf) : Symbols × QBuf :=
  if str.bytes.isEmpty then (syms, str)
  else
    let syms1 :=
      match hashFind syms str.bytes with
      | some _ => syms
      | none => hashInsert syms str.bytes QBuf.null
    let sym := (hashFind syms1 str.bytes).getD QBuf.null
    if sym.bytes.isEmpty then (hashInsert syms1 str.bytes str, str)
    else (syms1, sym)

/-- The function `Lexer::clearSymbols`. -/
def clearSymbols (_syms : Symbols) : Symbols := []

/-- The pool after the calls `getSymbol(s)` for the arrays `l`, in their order. -/
def internAll (syms : Symbols) (l : List QBuf) : Symbols :=
  l.foldl (fun p s => (getSymbol p s).1) syms

/-- The `::isalpha` of the C locale on a byte. -/
def isalpha (c : Char) : Bool :=
  ('a' ≤ c ∧ c ≤ 'z') ∨ ('A' ≤ c ∧ c ≤ 'Z')

/-- The `::isdigit` on a byte. -/
def isdigit (c : Char) : Bool :=
  '0' ≤ c ∧ c ≤ '9'

/-- The `::isspace` of the C locale on a byte. -/
def isspace (c : Char) : Bool :=
  c = ' ' ∨ c = '\t' ∨ c = '\n' ∨ c = Char.ofNat 11 ∨ c = Char.ofNat 12 ∨ c = '\r'

/-- The function `Lexer::isValidIdent`. -/
def isValidIdent (id : QByteArray) : Bool :=
  match id with
  | [] => false
  | c :: rest =>
    if !isalpha c ∧ c ≠ '_' then false
    else rest.all (fun d => !(!isalnum d ∧ d ≠ '_'))

/-- The `QByteArray::trimmed`: the array without the white space at its two ends. -/
def trimmed (s : QByteArray) : QByteArray :=
  ((s.dropWhile isspace).reverse.dropWhile isspace).reverse

/-- What the lexer takes from declarations that are not among the sources: the generated
function `tokenTypeFromString(str, &pos)`, as the token type found at `pos` and the number
of bytes by which `pos` is advanced, and the default arguments `len` and `val` of
`Lexer::token`. -/
structure LexEnv where
  tokenTypeFromString : QByteArray → Nat → TokenType × Nat
  defaultLen : Nat
  defaultVal : QByteArray

/-- The members of the class `Lexer` that `GnLexer.cpp` uses. `d_heap` is the address that
the next byte array made by the lexer gets. -/
structure Lexer where
  d_in : Option (List QByteArray) := none
  d_lineNr : Nat := 0
  d_colNr : Nat := 0
  d_line : QByteArray := []
  d_sourcePath : QByteArray := []
  d_lastToken : Token := ⟨TokenType.Tok_Invalid, 0, 0, 0, [], []⟩
  d_buffer : List Token := []
  d_err : Option (List Report) := none
  d_ignoreComments : Bool := true
  d_packComments : Bool := true
  d_symbols : Symbols := []
  d_heap : Nat := 1
deriving DecidableEq, Repr

/-- The function `Lexer::lookAhead`. -/
def Lexer.lookAhead (lx : Lexer) (off : Nat) : Char :=
  if lx.d_colNr + off < lx.d_line.length then lx.d_line.getD (lx.d_colNr + off) (Char.ofNat 0)
  else Char.ofNat 0

/-- The function `Lexer::token`; the result is the lexer and the token. -/
def Lexer.token (lx : Lexer) (tt : TokenType) (len : Nat) (val : QByteArray) : Lexer × Token :=
  let r : Symbols × QByteArray :=
    if tt = TokenType.Tok_identifier then
      let p := getSymbol lx.d_symbols ⟨lx.d_heap, val⟩
      (p.1, p.2.bytes)
    else (lx.d_symbols, val)
  let t0 : Token := ⟨tt, lx.d_lineNr, lx.d_colNr + 1, len, r.2, []⟩
  let t : Token := { t0 with d_sourcePath := lx.d_sourcePath }
  let errs :=
    if tt = TokenType.Tok_Invalid then
      lx.d_err.map (fun e => e ++ [⟨Severity.error, ErrSource.Syntax, String.mk t.d_val⟩])
    else lx.d_err
  ({ lx with d_symbols := r.1, d_lastToken := t0, d_colNr := lx.d_colNr + len, d_err := errs, d_heap := lx.d_heap + 1 }, t)

/-- The function `Lexer::skipWhiteSpace`, on the bytes from `d_colNr` on. -/
def Lexer.skipWhiteSpace (lx : Lexer) : Lexer :=
  { lx with d_colNr := lx.d_colNr + ((lx.d_line.drop lx.d_colNr).takeWhile isspace).length }

/-- The function `Lexer::nextLine`: `line` is what `readLine` returns and `rest` the lines
that stay in the stream. -/
def Lexer.nextLine (lx : Lexer) (line : QByteArray) (rest : List QByteArray) : Lexer :=
  let l :=
    if "\r\n".toList.isSuffixOf line then chop line 2
    else if endsWithCh line '\n' || endsWithCh line '\r' || endsWithCh line (Char.ofNat 21) then
      chop line 1
    else line
  { lx with d_colNr := 0, d_lineNr := lx.d_lineNr + 1, d_line := l, d_in := some rest }

/-- The loop of `Lexer::string` on the bytes `cs` of the line from `d_colNr + off` on:
whether the loop ended at a closing quote, and `off` at its end. The byte after `c` is the
head of the rest, or 0 at the end of the line. -/
def stringScan : List Char → Nat → Bool → Bool × Nat
  | [], off, _ => (false, off + 1)
  | c :: rest, off, escaped =>
    if c = Char.ofNat 0 then (false, off + 1)
    else if c = '\\' then
      let c2 := rest.headD (Char.ofNat 0)
      stringScan rest (off + 1) (if c2 = '"' ∨ c2 = '\\' ∨ c2 = '$' then true else escaped)
    else if c = '"' ∧ !escaped then (true, off + 1)
    else stringScan rest (off + 1) false

/-- The function `Lexer::string`. -/
def Lexer.string (lx : Lexer) : Lexer × Token :=
  let r := stringScan (lx.d_line.drop (lx.d_colNr + 1)) 1 false
  if r.1 then lx.token TokenType.Tok_string r.2 (mid lx.d_line lx.d_colNr r.2)
  else lx.token TokenType.Tok_Invalid r.2 "non-terminated string".toList

/-- The loop of `Lexer::ident` on the bytes of the line from `d_colNr + off` on. -/
def identScan : List Char → Nat → Nat
  | [], off => off
  | c :: rest, off => if !isalnum c ∧ c ≠ '_' then off else identScan rest (off + 1)

/-- The function `Lexer::ident`. -/
def Lexer.ident (env : LexEnv) (lx : Lexer) : Lexer × Token :=
  let off := identScan (lx.d_line.drop (lx.d_colNr + 1)) 1
  let str := mid lx.d_line lx.d_colNr off
  let r := env.tokenTypeFromString str 0
  let t := if r.1 ≠ TokenType.Tok_Invalid ∧ r.2 ≠ str.length then TokenType.Tok_Invalid else r.1
  if t ≠ TokenType.Tok_Invalid then lx.token t off env.defaultVal
  else lx.token TokenType.Tok_identifier off str

/-- The loop of `Lexer::number` on the bytes of the line from `d_colNr + off` on. -/
def numberScan : List Char → Nat → Nat
  | [], off => off
  | c :: rest, off => if !isdigit c then off else numberScan rest (off + 1)

/-- The function `Lexer::number`. -/
def Lexer.number (lx : Lexer) : Lexer × Token :=
  let off := numberScan (lx.d_line.drop (lx.d_colNr + 1)) 1
  lx.token TokenType.Tok_integer off (mid lx.d_line lx.d_colNr off)

/-- The function `Lexer::lineComment`. -/
def Lexer.lineComment (lx : Lexer) : Lexer × Token :=
  lx.token TokenType.Tok_Comment (lx.d_line.length - lx.d_colNr)
    (trimmed (mid lx.d_line (lx.d_colNr + 2) (-1)))

/-- The text `unexpected character '%1' %2` for a 7-bit byte. -/
def unexpectedCharacter (ch : Char) : QByteArray :=
  "unexpected character '".toList ++ [ch] ++ "' ".toList ++ (toString ch.toNat).toList

/-- The `while( d_colNr >= d_line.size() )` loop of `Lexer::nextTokenImp` on the lines of
the stream: the lexer, and whether the stream was at its end. -/
def Lexer.lineLoop : List QByteArray → Lexer → Lexer × Bool
  | [], lx => if lx.d_colNr ≥ lx.d_line.length then (lx, true) else (lx, false)
  | line :: rest, lx =>
    if lx.d_colNr ≥ lx.d_line.length then
      Lexer.lineLoop rest (lx.nextLine line rest).skipWhiteSpace
    else (lx, false)

/-- The body of the `while( d_colNr < d_line.size() )` loop of `Lexer::nextTokenImp`, which
returns in its first round: the token at the byte `d_line[d_colNr]`. -/
def Lexer.tokenAt (env : LexEnv) (lx : Lexer) : Lexer × Token :=
  let ch := lx.d_line.getD lx.d_colNr (Char.ofNat 0)
  if ch = '"' then lx.string
  else if isalpha ch ∨ ch = '_' then lx.ident env
  else if isdigit ch then lx.number
  else
    let r := env.tokenTypeFromString lx.d_line lx.d_colNr
    if r.1 = TokenType.Tok_Hash then lx.lineComment
    else if r.1 = TokenType.Tok_Invalid ∨ r.2 = 0 then
      lx.token TokenType.Tok_Invalid 1 (unexpectedCharacter ch)
    else lx.token r.1 r.2 (mid lx.d_line lx.d_colNr r.2)

/-- The function `Lexer::nextTokenImp`. -/
def Lexer.nextTokenImp (env : LexEnv) (lx : Lexer) : Lexer × Token :=
  match lx.d_in with
  | none => lx.token TokenType.Tok_Eof env.defaultLen env.defaultVal
  | some lines =>
    let r := Lexer.lineLoop lines lx.skipWhiteSpace
    if r.2 then r.1.token TokenType.Tok_Eof 0 env.defaultVal
    else r.1.tokenAt env

/-- The function `Lexer::nextToken`; `none` when the calls of itself are more than
`fuel`. -/
def Lexer.nextToken (env : LexEnv) : Nat → Lexer → Option (Lexer × Token)
  | 0, _ => none
  | fuel + 1, lx =>
    let r : Lexer × Token :=
      match lx.d_buffer with
      | t :: rest => ({ lx with d_buffer := rest }, t)
      | [] => lx.nextTokenImp env
    if r.2.d_type = TokenType.Tok_Comment ∧ r.1.d_ignoreComments then
      Lexer.nextToken env fuel r.1
    else some r

/-- The `while( d_buffer.size() < lookAhead )` loop of `Lexer::peekToken`, for the `n`
tokens that are missing. -/
def Lexer.fillBuffer (env : LexEnv) : Nat → Lexer → Lexer
  | 0, lx => lx
  | n + 1, lx =>
    let r := lx.nextTokenImp env
    Lexer.fillBuffer env n { r.1 with d_buffer := r.1.d_buffer ++ [r.2] }

/-- The function `Lexer::peekToken`; `none` is the failure of the `Q_ASSERT`. -/
def Lexer.peekToken (env : LexEnv) (lx : Lexer) (lookAhead : Nat) : Option (Lexer × Token) :=
  if lookAhead = 0 then none
  else
    let lx := Lexer.fillBuffer env (lookAhead - lx.d_buffer.length) lx
    (lx.d_buffer[lookAhead - 1]?).map (fun t => (lx, t))

/-- The function `Lexer::setStream(QIODevice*, sourcePath)` for a device that is not null,
`lines` being what `readLine` will return. -/
def Lexer.setStream (lx : Lexer) (lines : List QByteArray) (sourcePath : QByteArray) : Lexer :=
  let p := getSymbol lx.d_symbols ⟨lx.d_heap, sourcePath⟩
  { lx with d_in := some lines, d_lineNr := 0, d_colNr := 0, d_sourcePath := p.2.bytes, d_symbols := p.1, d_lastToken := ⟨TokenType.Tok_Invalid, 0, 0, 0, [], []⟩, d_heap := lx.d_heap + 1 }

/-- Whether the bytes hold a quote that is not part of one of the escapes `\\`, `\$` and
`\"`, read from the left as the two bytes that they are; `skip` says that the first byte is
the second one of an escape. -/
def closingQuote : Bool → List Char → Bool
  | _, [] => false
  | true, _ :: rest => closingQuote false rest
  | false, c :: rest =>
    if c = '"' then true
    else
      closingQuote
        (decide (c = '\\' ∧ (rest.head? = some '"' ∨ rest.head? = some '\\' ∨ rest.head? = some '$')))
        rest

/-- A piece of the body of a string literal: a byte other than the quote, the backslash and
the byte 0; one of the escapes, the backslash before `c`; or a backslash before a byte `c`
that makes no escape with it. -/
inductive StrItem where
  | byte (c : Char)
  | esc (c : Char)
  | lone (c : Char)
deriving DecidableEq, Repr

/-- Whether the piece is one of a body. -/
def StrItem.ok : StrItem → Bool
  | .byte c => c ≠ '"' ∧ c ≠ '\\' ∧ c ≠ Char.ofNat 0
  | .esc c => c = '"' ∨ c = '\\' ∨ c = '$'
  | .lone c => c ≠ '"' ∧ c ≠ '\\' ∧ c ≠ '$' ∧ c ≠ Char.ofNat 0

/-- The bytes of a piece. -/
def StrItem.bytes : StrItem → List Char
  | .byte c => [c]
  | .esc c => ['\\', c]
  | .lone c => ['\\', c]

/-- The bytes of a body. -/
def bodyBytes (items : List StrItem) : List Char :=
  (items.map StrItem.bytes).flatten

/-- The value of `escaped` in `Lexer::string` after the pieces of a body. -/
def escapedAfter : Bool → List StrItem → Bool
  | e, [] => e
  | _, it :: rest => escapedAfter (decide (it = StrItem.esc '\\')) rest

/-- The number of the bytes and line ends that the lexer has not passed. -/
def Lexer.ahead (lx : Lexer) : Nat :=
  (match lx.d_in with
    | none => 0
    | some lines => (lines.map (fun l => l.length + 1)).sum)
  + (lx.d_line.length - lx.d_colNr)

/-- A sample of `tokenTypeFromString`: the keywords `if`, `else`, `true` and `false`, the
`#` and some of the punctuation. -/
def sampleTokenType (s : QByteArray) (pos : Nat) : TokenType × Nat :=
  let r := s.drop pos
  if "if".toList.isPrefixOf r then (TokenType.Tok_other 1, 2)
  else if "else".toList.isPrefixOf r then (TokenType.Tok_other 2, 4)
  else if "true".toList.isPrefixOf r then (TokenType.Tok_other 3, 4)
  else if "false".toList.isPrefixOf r then (TokenType.Tok_other 4, 5)
  else if r.head? = some '#' then (TokenType.Tok_Hash, 1)
  else if r.head? = some '(' then (TokenType.Tok_Lpar, 1)
  else if r.head? = some ')' then (TokenType.Tok_Rpar, 1)
  else if r.head? = some '[' then (TokenType.Tok_Lbrack, 1)
  else if r.head? = some ']' then (TokenType.Tok_Rbrack, 1)
  else if r.head? = some '{' then (TokenType.Tok_Lbrace, 1)
  else if r.head? = some '}' then (TokenType.Tok_Rbrace, 1)
  else if r.head? = some '.' then (TokenType.Tok_Dot, 1)
  else if r.head? = some '=' then (TokenType.Tok_other 0, 1)
  else (TokenType.Tok_Invalid, 0)

/-- The sample collaborators of the lexer. -/
def sampleLexEnv : LexEnv := ⟨sampleTokenType, 1, []⟩

/-- A lexer on the lines `lines` of the file `/p/BUILD.gn`, with an error sink. -/
def sampleLexer (lines : List String) (ignoreComments : Bool) : Lexer :=
  Lexer.setStream { d_err := some [], d_ignoreComments := ignoreComments }
    (lines.map (fun l => l.toList)) "/p/BUILD.gn".toList


/-- The state of the symbol pool between two calls: it holds each key once, no key is
empty, and the bytes of each value are its key. -/
def PoolOk (syms : Symbols) : Prop :=
  (syms.map Prod.fst).Nodup ∧ ∀ p ∈ syms, p.1 ≠ [] ∧ p.2.bytes = p.1


/-- The sample lexer after it has read the line `line`, at the byte `col` of this line;
`more` are the lines that follow. -/
def sampleLexerAt (line : String) (col : Nat) (more : List String) : Lexer :=
  { (sampleLexer (line :: more) true).nextLine line.toList (more.map (fun l => l.toList))
      with d_colNr := col }


/-- What the loop of `findDollars` keeps for a recorded span `d` of `str`: it starts at a
`$` that is followed by a byte, is not empty, and ends inside the string unless it is the
span of fixed length 5 at a `$0`. -/
def Dollar.inside (str : QByteArray) (d : Dollar) : Prop :=
  str[d.d_pos]? = some '$' ∧ 1 ≤ d.d_len ∧ d.d_pos + 1 < str.length
    ∧ (d.d_pos + d.d_len ≤ str.length ∨ (str[d.d_pos + 1]? = some '0' ∧ d.d_len = 5))


/-! ## Symbol at a source position (`GnCodeModel.cpp`, lines 277-286 and 1176-1192) -/

mutual
/-- The function `CodeModel::findSymbolBySourcePos(SynTree* st, quint32 line, quint16 col)`;
`none` is the null pointer. -/
def findSymbolBySourcePos (line col : Nat) : SynTree → Option SynTree
  | .mk tok cs =>
    match findSymbolInChildren line col cs with
    | some res => some res
    | none =>
      if tok.d_lineNr = line ∧ tok.d_colNr ≤ col ∧ col ≤ tok.d_colNr + tok.d_len then
        some (.mk tok cs)
      else none
/-- The `foreach( SynTree* sub, st->d_children )` of `findSymbolBySourcePos`: `some res` is
the `return res` inside the loop, `none` the end of the loop. -/
def findSymbolInChildren (line col : Nat) : List SynTree → Option SynTree
  | [] => none
  | sub :: rest =>
    if sub.d_tok.d_lineNr ≤ line then
      match findSymbolBySourcePos line col sub with
      | some res => some res
      | none => findSymbolInChildren line col rest
    else findSymbolInChildren line col rest
end

/-- The function `CodeModel::findSymbolBySourcePos(const QByteArray& sourcePath, ...)`:
the entry of `d_files` is looked up under the given array and then under its symbol (the
keys are the symbols of the paths, so both are the lookup under the bytes of the path). -/
def CodeModel.findSymbolBySourcePos (m : CodeModel) (sourcePath : QByteArray)
    (line col : Nat) : Option SynTree :=
  let i :=
    match hashFind m.d_files sourcePath with
    | some id => some id
    | none => hashFind m.d_files (getSymbolBytes sourcePath)
  match i with
  | none => none
  | some id =>
    match m.scopes[id]? with
    | none => none
    | some s =>
      match s.d_st with
      | none => none
      | some st => Gn.findSymbolBySourcePos line col st

/-! ### The search order in the words of the specification -/

/-- A node whose token covers the position: on the line, with `col` between its column and
its column plus its length, both included. -/
def specCovers (line col : Nat) (n : SynTree) : Bool :=
  decide (n.d_tok.d_lineNr = line ∧ n.d_tok.d_colNr ≤ col
    ∧ col ≤ n.d_tok.d_colNr + n.d_tok.d_len)

mutual
/-- The nodes of a tree, in depth-first order with the children before their parent. -/
def specPostOrder : SynTree → List SynTree
  | .mk tok cs => specPostOrderList cs ++ [.mk tok cs]
/-- The nodes of a list of trees, tree by tree. -/
def specPostOrderList : List SynTree → List SynTree
  | [] => []
  | c :: cs => specPostOrder c ++ specPostOrderList cs
end

mutual
/-- The nodes of a tree that are reachable through children whose line is `≤ line`, in
depth-first order with the children before their parent; the root is always reachable. -/
def specReachable (line : Nat) : SynTree → List SynTree
  | .mk tok cs => specReachableList line cs ++ [.mk tok cs]
/-- The reachable nodes of a list of children: a child whose line is behind `line` is left
out with everything below it. -/
def specReachableList (line : Nat) : List SynTree → List SynTree
  | [] => []
  | c :: cs =>
    (if c.d_tok.d_lineNr ≤ line then specReachable line c else [])
      ++ specReachableList line cs
end

/-- Sample tree for the search: the statement `v = w` on line 2 (columns 3 and 7) below a
statement list, with a statement of line 3 behind it. -/
def positionTree : SynTree :=
  ruleNode TokenType.R_StatementList
    [.mk ⟨TokenType.R_Statement, 2, 3, 0, [], []⟩
      [.mk ⟨TokenType.Tok_identifier, 2, 3, 1, "v".toList, []⟩ [],
       .mk ⟨TokenType.Tok_other 0, 2, 5, 1, [], []⟩ [],
       .mk ⟨TokenType.Tok_identifier, 2, 7, 1, "w".toList, []⟩ []],
     .mk ⟨TokenType.R_Statement, 3, 1, 0, [], []⟩
      [.mk ⟨TokenType.Tok_identifier, 3, 1, 1, "x".toList, []⟩ []]]

mutual
/-- A tree in which no node stands on a line before that of its parent. -/
def specLinesAscend : SynTree → Bool
  | .mk tok cs => specLinesAscendList tok.d_lineNr cs
/-- The children of a node of line `l`: none on a line before `l`, each with ascending
lines below it. -/
def specLinesAscendList (l : Nat) : List SynTree → Bool
  | [] => true
  | c :: cs => decide (l ≤ c.d_tok.d_lineNr) && specLinesAscend c && specLinesAscendList l cs
end


/-- The tokens that `k` calls of `Lexer::nextToken` return one after the other (each call
with the fuel `fuel`); `none` when one of them runs out of fuel. -/
def Lexer.nextTokens (env : LexEnv) (fuel : Nat) : Nat → Lexer → Option (List Token)
  | 0, _ => some []
  | k + 1, lx =>
    match lx.nextToken env fuel with
    | none => none
    | some r => (Lexer.nextTokens env fuel k r.1).map (fun ts => r.2 :: ts)


/-! ## The tokens of a text (`GnLexer.cpp`, lines 115-130) -/

/-- The `while( t.isValid() )` loop of `Lexer::tokens`, for at most `n` rounds, each call of
`nextToken` with the fuel `fuel`; `none` when the rounds or the fuel are used up.
`Token::isValid` is not among the sources and is the parameter `isValid`. -/
def Lexer.tokensLoop (env : LexEnv) (isValid : Token → Bool) (fuel : Nat) :
    Nat → Lexer → Token → List Token → Option (Lexer × List Token)
  | 0, lx, t, res => if isValid t then none else some (lx, res)
  | n + 1, lx, t, res =>
    if isValid t then
      match lx.nextToken env fuel with
      | none => none
      | some r => Lexer.tokensLoop env isValid fuel n r.1 r.2 (res ++ [t])
    else some (lx, res)

/-- The function `Lexer::tokens(const QByteArray& code, const QString& path)`, `lines`
being what `readLine` returns for the buffer of `code`. -/
def Lexer.tokens (env : LexEnv) (isValid : Token → Bool) (fuel : Nat) (lx : Lexer)
    (lines : List QByteArray) (path : QByteArray) : Option (Lexer × List Token) :=
  match (lx.setStream lines path).nextToken env fuel with
  | none => none
  | some r => Lexer.tokensLoop env isValid fuel fuel r.1 r.2 []

/-- The bytes that `Lexer::nextLine` keeps of a line that `readLine` returns: the line
without its line end. -/
def lineBytes (line : QByteArray) : QByteArray :=
  (Lexer.nextLine {} line []).d_line

/-- The lexer reads the lines `lines`: `d_lineNr` of them are read, the others are still in
the stream, and `d_line` holds the bytes of the line read last (no byte before the first
line is read). -/
def Lexer.reads (lines : List QByteArray) (lx : Lexer) : Prop :=
  lx.d_in = some (lines.drop lx.d_lineNr) ∧ lx.d_lineNr ≤ lines.length
    ∧ lx.d_line = (match lx.d_lineNr with
        | 0 => []
        | n + 1 => lineBytes (lines.getD n []))

instance (lines : List QByteArray) (lx : Lexer) : Decidable (lx.reads lines) := by
  unfold Lexer.reads
  infer_instance

/-- The tokens and line ends that the lexer has not passed, the tokens of the buffer
included. -/
def Lexer.left (lx : Lexer) : Nat :=
  lx.d_buffer.length + lx.ahead


/-- The project of `dirFsEnv` with a syntax error reported for the file `a.gni`. -/
def errFsEnv : Env :=
  { dirFsEnv with
    openAndParse := fun q =>
      if q = "/proj/a.gni".toList then
        some ([fileA], [⟨Severity.error, ErrSource.Syntax, "unexpected token"⟩])
      else dirFsEnv.openAndParse q }

/-- The project of `dirFsEnv` with the file `self.gni`, which cannot be opened, in the
directory. -/
def warnDirs : DirEnv :=
  { projDirs with
    buildFiles := fun d =>
      if d = "/proj".toList then ["a.gni".toList, "b.gni".toList, "c.gni".toList] else [] }


/-- What the recordings of references and of unresolved imports keep between the lists of
the scopes and those of the model, counted per node `x`: the node is in `allRhs[k]` as
often as in the `rhs[k]` of all scopes together; it is in `allLhs[k]` as often at least as
in the `lhs[k]` of all scopes together; and it is in `allUnresolvedImports` as often as in
the `unresolvedImports` of all scopes together. -/
structure RefInv (m : CodeModel) : Prop where
  rhs : ∀ (k : QByteArray) (x : SynTree),
    (m.scopes.map (fun s => (hashValue s.d_rhs k).count x)).sum
      = (hashValue m.d_allRhs k).count x
  lhs : ∀ (k : QByteArray) (x : SynTree),
    (m.scopes.map (fun s => (hashValue s.d_lhs k).count x)).sum
      ≤ (hashValue m.d_allLhs k).count x
  unres : ∀ x : SynTree,
    (m.scopes.map (fun s => s.d_unresolvedImports.count x)).sum
      = m.d_allUnresolvedImports.count x


/-- Every scope of the Files map has the key of its entry as its name. -/
def FileNames (m : CodeModel) : Prop :=
  ∀ (k : QByteArray) (id : ScopeId), hashFind m.d_files k = some id →
    ∃ s, m.scopes[id]? = some s ∧ s.d_name = k

/-- Statement list of the file `/proj/a.gni` of the project `mixEnv`: three imports, of
which the second one can be resolved. -/
def fileMixA : SynTree :=
  ruleNode TokenType.R_StatementList
    [importStmt 1 "\"//x.gni\"", importStmt 2 "\"//b.gni\"", importStmt 3 "\"//z.gni\""]

/-- Statement list of the file `/proj/b.gni` of the project `mixEnv`: one import, which
cannot be resolved. -/
def fileMixB : SynTree :=
  ruleNode TokenType.R_StatementList [importStmt 1 "\"//y.gni\""]

/-- Collaborators for the project `/proj` with the two files `a.gni` and `b.gni`. -/
def mixEnv : Env :=
  { projEnv with
    openAndParse := fun q =>
      if q = "/proj/a.gni".toList then some ([fileMixA], [])
      else if q = "/proj/b.gni".toList then some ([fileMixB], [])
      else none
    fileExists := fun q => q = "/proj/a.gni".toList || q = "/proj/b.gni".toList }

/-- The result of `parseFile("/proj/a.gni")` in the project `mixEnv`. -/
def mixWalked : CodeModel :=
  ((parseFile mixEnv 14 "/proj/a.gni".toList projModel).toOption.getD ({}, none)).1

/-- The values of the string tokens below the nodes, in the order of the nodes. -/
def argValues (l : List SynTree) : List QByteArray :=
  l.map (fun x => (flatten x).d_tok.d_val)

/-- The model of the project `/proj` with the scope of the file `a.gni`, as `parseFile` has
it before the statements of the file are walked. -/
def importerModel : CodeModel :=
  { projModel with scopes := projModel.scopes ++ [{ d_kind := projModel.d_fileKind, d_name := "/proj/a.gni".toList }], d_files := hashInsert projModel.d_files "/proj/a.gni".toList projModel.scopes.length }

/-- The call `import("//b.gni")` on line 2. -/
def importCallB : SynTree :=
  callNode 2 "import" [exprNode (stringNode 2 8 "\"//b.gni\"")] none

/-- The model after the call `import("//b.gni")` in the scope of `a.gni`, in the project
`mixEnv`. -/
def importedModel : CodeModel :=
  (import_ mixEnv 12 importCallB 0 importerModel).toOption.getD {}


/-- The collaborators of `cycleEnv` with the default `false` for the parameter `imports` of
`findObject`. -/
def flatEnv : Env := { cycleEnv with findObjectImports := false }

/-- The string token `":zzz"` of the file `/proj/a.gni`. -/
def labelNode : SynTree :=
  SynTree.mk { (stringNode 3 9 "\":zzz\"").d_tok with d_sourcePath := "/proj/a.gni".toList } []

/-- Collaborators of `projEnv` with the canonical path of a file system that holds the two
files `/proj/x/y` and `/proj/sub/z` and no links: the path itself for a path that exists,
and the empty path for every other one, as `QFileInfo::canonicalFilePath` gives it. -/
def twoFilesEnv : Env :=
  { projEnv with
    fileExists := fun q => q = "/proj/x/y".toList || q = "/proj/sub/z".toList
    canonicalFilePath := fun q =>
      if q = "/proj/x/y".toList || q = "/proj/sub/z".toList then q else [] }

/-- What `namedObj_` leaves in the model `M` for the scope `n` that it created under `sc`
for the call node `st`: the scope has `d_outer = sc`, `d_kind = kind`, `d_st = st`, and is
once in the children of `sc`; with a name `sym` it has `d_name = sym`, is once in
`allObjDefs[sym]` and in no other list of `allObjDefs`, is the entry of `sym` in the
`localObjectDefs` of `sc`, and is not in `allUnnamedObjs`; without a name its `d_name` is
empty and it is once in `allUnnamedObjs` and in no list of `allObjDefs`. -/
def NamedObjExact (n : ScopeId) (sc : ScopeId) (st : SynTree) (kind : QByteArray)
    (M : CodeModel) (named : Option QByteArray) : Prop :=
  ∃ s sc1, M.scopes[n]? = some s ∧ s.d_outer = some sc ∧ s.d_kind = kind ∧ s.d_st = some st
    ∧ M.scopes[sc]? = some sc1 ∧ sc1.d_allScopes.count n = 1
    ∧ match named with
      | some sym => s.d_name = sym ∧ (hashValue M.d_allObjDefs sym).count n = 1
          ∧ (∀ k, k ≠ sym → (hashValue M.d_allObjDefs k).count n = 0)
          ∧ hashFind sc1.d_objectDefs sym = some n ∧ M.d_allUnnamedObjs.count n = 0
      | none => s.d_name = [] ∧ M.d_allUnnamedObjs.count n = 1
          ∧ ∀ k, (hashValue M.d_allObjDefs k).count n = 0

/-- The children of every scope are scopes of the arena. -/
def CodeModel.ChildrenInArena (m : CodeModel) : Prop :=
  ∀ (i : ScopeId) (s : Scope), m.scopes[i]? = some s → ∀ c ∈ s.d_allScopes, c < m.scopes.length

/-- Sample call `executable(target_name) \x7b \x7d` on line 1, whose argument is no string. -/
def unnamedCall : SynTree :=
  callNode 1 "executable" [exprNode (identNode 1 12 "target_name")] (some (blockNode []))

/-- Sample call `executable("app_$x")` on line 1, whose argument is a string with an
embedded identifier, without a block. -/
def embeddedCall : SynTree :=
  callNode 1 "executable" [exprNode (stringNode 1 12 "\"app_$x\"")] none

/-- Sample call `executable("app")` on line 1, without a block. -/
def plainCall : SynTree :=
  callNode 1 "executable" [exprNode (stringNode 1 12 "\"app\"")] none

/-- The argument list `(target_name)` of the sample call `unnamedCall`. -/
def unnamedArgs : SynTree :=
  ruleNode TokenType.R_ExprList [exprNode (identNode 1 12 "target_name")]

/-- The model after `namedObj_` walked the call `unnamedCall` in the file scope of the
sample model. -/
def unnamedWalked : CodeModel :=
  (namedObj_ sampleEnv 12 unnamedCall 0 "executable".toList sampleModel).toOption.getD sampleModel

/-- The model after `namedObj_` walked the call `embeddedCall` in the file scope of the
sample model. -/
def embeddedWalked : CodeModel :=
  (namedObj_ sampleEnv 12 embeddedCall 0 "executable".toList sampleModel).toOption.getD sampleModel

/-- The node that `loop_` appends to `d_allLhs` for the call node `st`, when it appends one:
the flattened first expression of the argument list, when the call has an argument list of
two expressions and a block and this node is an identifier. -/
def loopVarOf (st : SynTree) : Option SynTree :=
  match st.d_children[2]?, st.d_children.getLast? with
  | some c2, some lastc =>
    if c2.d_tok.d_type = TokenType.Tok_Rpar ∨ lastc.d_tok.d_type ≠ TokenType.R_Block then none
    else if c2.d_children.length ≠ 2 then none
    else
      match c2.d_children.head? with
      | some a =>
        if (flatten a).d_tok.d_type ≠ TokenType.Tok_identifier then none else some (flatten a)
      | none => none
  | _, _ => none

mutual
/-- The node `x` is the loop variable of no node of the tree. -/
def SynTree.noLoopVar (x : SynTree) : SynTree → Bool
  | .mk tok cs => decide (loopVarOf (.mk tok cs) ≠ some x) && SynTree.noLoopVarList x cs
/-- The same for the trees of a list. -/
def SynTree.noLoopVarList (x : SynTree) : List SynTree → Bool
  | [] => true
  | c :: cs => SynTree.noLoopVar x c && SynTree.noLoopVarList x cs
end

theorem findChar_of_not_mem (ch : Char) :
    ∀ (l : List Char) (i : Nat), ch ∉ l → findChar ch l i = -1 := by
  intro l
  induction l with
  | nil => intro i _; rfl
  | cons c cs ih =>
    intro i h
    have hc : c ≠ ch := fun e => h (by simp [e])
    have hcs : ch ∉ cs := fun e => h (by simp [e])
    simp [findChar, hc, ih (i + 1) hcs]

theorem findChar_append_cons (ch : Char) :
    ∀ (p r : List Char) (i : Nat), ch ∉ p →
      findChar ch (p ++ ch :: r) i = ((i + p.length : Nat) : Int) := by
  intro p
  induction p with
  | nil => intro r i _; simp [findChar]
  | cons c cs ih =>
    intro r i h
    have hc : c ≠ ch := fun e => h (by simp [e])
    have hcs : ch ∉ cs := fun e => h (by simp [e])
    have e : (c :: cs) ++ ch :: r = c :: (cs ++ ch :: r) := rfl
    rw [e, findChar, if_neg hc, ih r (i + 1) hcs]
    simp only [List.length_cons]
    congr 1
    omega

theorem findChar_ge_of_mem (ch : Char) :
    ∀ (l : List Char) (i : Nat), ch ∈ l → (i : Int) ≤ findChar ch l i := by
  intro l
  induction l with
  | nil => intro i h; simp at h
  | cons c cs ih =>
    intro i h
    by_cases hc : c = ch
    · simp [findChar, hc]
    · have hcs : ch ∈ cs := by
        rcases List.mem_cons.1 h with e | e
        · exact absurd e.symm hc
        · exact e
      have := ih (i + 1) hcs
      simp only [findChar, hc, if_false]
      push_cast at this
      omega

theorem findChar_eq_neg_one_iff (ch : Char) (l : List Char) (i : Nat) :
    findChar ch l i = -1 ↔ ch ∉ l := by
  constructor
  · intro h hm
    have := findChar_ge_of_mem ch l i hm
    omega
  · exact findChar_of_not_mem ch l i

theorem indexOf_nat (str : QByteArray) (ch : Char) (k : Nat) (hk : k ≤ str.length) :
    indexOf str ch (k : Int) = findChar ch (str.drop k) k := by
  unfold indexOf
  have h0 : ¬ ((k : Int) < 0) := by omega
  simp only [h0, if_false, Int.toNat_ofNat]
  by_cases hlt : (k : Int) < (str.length : Int)
  · simp [hlt]
  · have hk2 : k = str.length := by omega
    simp [hlt, hk2, findChar]

theorem indexOf_zero (str : QByteArray) (ch : Char) :
    indexOf str ch 0 = findChar ch str 0 := by
  have := indexOf_nat str ch 0 (Nat.zero_le _)
  simpa using this

theorem findLastChar_of_not_mem (ch : Char) :
    ∀ (l : List Char) (i : Nat) (best : Int), ch ∉ l → findLastChar ch l i best = best := by
  intro l
  induction l with
  | nil => intro i best _; rfl
  | cons c cs ih =>
    intro i best h
    have hc : c ≠ ch := fun e => h (by simp [e])
    have hcs : ch ∉ cs := fun e => h (by simp [e])
    simp [findLastChar, hc, ih (i + 1) best hcs]

theorem findLastChar_append_cons (ch : Char) :
    ∀ (a b : List Char) (i : Nat) (best : Int), ch ∉ b →
      findLastChar ch (a ++ ch :: b) i best = ((i + a.length : Nat) : Int) := by
  intro a
  induction a with
  | nil =>
    intro b i best hb
    simp [findLastChar, findLastChar_of_not_mem ch b (i + 1) _ hb]
  | cons c cs ih =>
    intro b i best hb
    have e : (c :: cs) ++ ch :: b = c :: (cs ++ ch :: b) := rfl
    rw [e, findLastChar, ih b (i + 1) _ hb]
    simp only [List.length_cons]
    congr 1
    omega

theorem get_mem_or_nul (str : QByteArray) (i : Int) :
    get str i = Char.ofNat 0 ∨ get str i ∈ str := by
  unfold get at_
  by_cases h1 : i < (str.length : Int)
  · by_cases h2 : i < 0
    · simp [h1, h2]
    · right
      have h3 : i.toNat < str.length := by omega
      simp [h1, h2, List.getD_eq_getElem?_getD, List.getElem?_eq_getElem h3]
  · simp [h1]

theorem drop_length_succ_append (p : List Char) (c : Char) (r : List Char) :
    (p ++ c :: r).drop (p.length + 1) = r := by
  induction p with
  | nil => simp
  | cons a as ih => simp

theorem left_append_length (p r : QByteArray) : left (p ++ r) (p.length : Int) = p := by
  unfold left
  by_cases h : (p.length : Int) ≥ ((p ++ r).length : Int)
  · have hr : r = [] := by
      have : r.length = 0 := by
        simp only [List.length_append] at h
        push_cast at h
        omega
      exact List.length_eq_zero.1 this
    simp [hr]
  · have h0 : ¬ ((p.length : Int) < 0) := by omega
    simp [h, h0]

theorem mid_rest (p : QByteArray) (c : Char) (r : QByteArray) :
    mid (p ++ c :: r) ((p.length : Int) + 1) (-1) = r := by
  unfold mid
  have h1 : ¬ ((p.length : Int) + 1 > ((p ++ c :: r).length : Int)) := by
    simp only [List.length_append, List.length_cons]
    push_cast
    omega
  have h2 : ¬ ((p.length : Int) + 1 < 0) := by omega
  have h3 : ((p.length : Int) + 1).toNat = p.length + 1 := by omega
  simp only [h1, h2, if_false, h3, drop_length_succ_append]
  simp

theorem mid_take (p : QByteArray) (c : Char) (n r : QByteArray) :
    mid (p ++ c :: (n ++ r)) ((p.length : Int) + 1) (n.length : Int) = n := by
  unfold mid
  have h1 : ¬ ((p.length : Int) + 1 > ((p ++ c :: (n ++ r)).length : Int)) := by
    simp only [List.length_append, List.length_cons]
    push_cast
    omega
  have h2 : ¬ ((p.length : Int) + 1 < 0) := by omega
  have h3 : ((p.length : Int) + 1).toNat = p.length + 1 := by omega
  have h4 : ¬ ((n.length : Int) < 0 ∨
      (n.length : Int) > ((p ++ c :: (n ++ r)).length : Int) - ((p.length : Int) + 1)) := by
    simp only [List.length_append, List.length_cons]
    push_cast
    omega
  simp only [h1, h2, h4, if_false, h3, drop_length_succ_append]
  simp

/-- First occurrence split: a list containing `ch` is `p ++ ch :: r` with `ch ∉ p`. -/
theorem exists_first_split (ch : Char) :
    ∀ l : List Char, ch ∈ l → ∃ p r, l = p ++ ch :: r ∧ ch ∉ p := by
  intro l
  induction l with
  | nil => intro h; simp at h
  | cons c cs ih =>
    intro h
    by_cases hc : c = ch
    · exact ⟨[], cs, by simp [hc], by simp⟩
    · have hcs : ch ∈ cs := by
        rcases List.mem_cons.1 h with e | e
        · exact absurd e.symm hc
        · exact e
      obtain ⟨p, r, e, hp⟩ := ih hcs
      refine ⟨c :: p, r, by simp [e], ?_⟩
      intro hm
      rcases List.mem_cons.1 hm with e2 | e2
      · exact hc e2.symm
      · exact hp e2

/-- Last occurrence split: a list containing `ch` is `a ++ ch :: b` with `ch ∉ b`. -/
theorem exists_last_split (ch : Char) :
    ∀ l : List Char, ch ∈ l → ∃ a b, l = a ++ ch :: b ∧ ch ∉ b := by
  intro l
  induction l with
  | nil => intro h; simp at h
  | cons c cs ih =>
    intro h
    by_cases hcs : ch ∈ cs
    · obtain ⟨a, b, e, hb⟩ := ih hcs
      exact ⟨c :: a, b, by simp [e], hb⟩
    · have hc : ch = c := by
        rcases List.mem_cons.1 h with e | e
        · exact e
        · exact absurd e hcs
      exact ⟨[], cs, by simp [hc], hcs⟩

/-- What `extractPathIdentFromString` does on a string with exactly one `:`. -/
theorem extract_one_colon (p r : QByteArray) (hp : ':' ∉ p) (hr : ':' ∉ r) :
    extractPathIdentFromString (p ++ ':' :: r) =
      (if findChar '(' r (p.length + 1) ≠ -1 then
        (if findChar '(' r (p.length + 1) - (p.length : Int) = 1 then ([], [])
         else (p, mid (p ++ ':' :: r) ((p.length : Int) + 1)
                (findChar '(' r (p.length + 1) - (p.length : Int) - 1)))
       else (p, r)) := by
  unfold extractPathIdentFromString
  have hne : (p ++ ':' :: r).isEmpty = false := by cases p <;> rfl
  have hpos1 : indexOf (p ++ ':' :: r) ':' 0 = (p.length : Int) := by
    rw [indexOf_zero, findChar_append_cons ':' p r 0 hp]; simp
  have hle : p.length + 1 ≤ (p ++ ':' :: r).length := by simp
  have hsec : indexOf (p ++ ':' :: r) ':' ((p.length : Int) + 1) = -1 := by
    have := indexOf_nat (p ++ ':' :: r) ':' (p.length + 1) hle
    rw [drop_length_succ_append] at this
    push_cast at this
    rw [this]
    exact findChar_of_not_mem ':' r _ hr
  have hpar : indexOf (p ++ ':' :: r) '(' ((p.length : Int) + 1)
      = findChar '(' r (p.length + 1) := by
    have := indexOf_nat (p ++ ':' :: r) '(' (p.length + 1) hle
    rw [drop_length_succ_append] at this
    push_cast at this
    exact this
  have hn1 : ¬ ((p.length : Int) = -1) := by omega
  simp only [hne, hpos1, hn1, hsec, hpar, if_false, ne_eq, not_true_eq_false,
    Bool.false_eq_true]
  have hl : left (p ++ ':' :: r) (p.length : Int) = p := left_append_length p (':' :: r)
  rw [hl, mid_rest]

theorem implicitNameLoop_eq :
    ∀ (cs : List Char) (i : Nat) (ls : Int), ls < (i : Int) →
      implicitNameLoop cs (i : Int) ls =
        if '\\' ∈ cs then none else some (findLastChar '/' cs i ls) := by
  intro cs
  induction cs with
  | nil => intro i ls _; simp [implicitNameLoop, findLastChar]
  | cons c cs ih =>
    intro i ls h
    by_cases hb : c = '\\'
    · simp [implicitNameLoop, hb]
    · by_cases hs : c = '/'
      · have hno : ¬ (ls ≠ -1 ∧ (i : Int) - ls = 0) := by
          intro hh
          omega
        have hrec := ih (i + 1) (i : Int) (by push_cast; omega)
        push_cast at hrec
        subst hs
        simp only [implicitNameLoop, hno, if_false, hrec, findLastChar, if_true,
          List.mem_cons]
        simp
      · have hrec := ih (i + 1) ls (by push_cast; omega)
        push_cast at hrec
        have hb2 : ¬ ('\\' = c) := fun e => hb e.symm
        simp only [implicitNameLoop, hb, hs, if_false, hrec, findLastChar, List.mem_cons, hb2,
          false_or]

theorem get_ne_quote (s : QByteArray) (hq : '"' ∉ s) (i : Int) : get s i ≠ '"' := by
  rcases get_mem_or_nul s i with h | h
  · rw [h]; decide
  · intro e
    exact hq (e ▸ h)

theorem at_zero_cons (c : Char) (t : QByteArray) : at_ (c :: t) 0 = c := by
  simp [at_]

theorem get_zero_cons (c : Char) (t : QByteArray) : get (c :: t) 0 = c := by
  have h : (0 : Int) < ((c :: t).length : Int) := by simp
  simp [get, h, at_]

theorem get_one_cons (c d : Char) (t : QByteArray) : get (c :: d :: t) 1 = d := by
  have h : (1 : Int) < ((c :: d :: t).length : Int) := by simp
  simp [get, h, at_]

theorem get_one_single (c : Char) : get [c] 1 = Char.ofNat 0 := by
  simp [get]

/-- The prefix handling and the loop of `looksLikeImplicitNamePath` together compute the
index of the last slash, unless a backslash occurs. -/
theorem implicitName_prefix_loop (s : QByteArray) (h0 : at_ s 0 ≠ '"') :
    implicitNameLoop
        (s.drop (implicitNamePrefix s (if at_ s 0 = '"' then 1 else 0)).1.toNat)
        (implicitNamePrefix s (if at_ s 0 = '"' then 1 else 0)).1
        (implicitNamePrefix s (if at_ s 0 = '"' then 1 else 0)).2
    = if '\\' ∈ s then none else some (lastIndexOf s '/') := by
  simp only [h0, if_false, implicitNamePrefix]
  rcases s with _ | ⟨c, t⟩
  · simp [get, implicitNameLoop, lastIndexOf, findLastChar]
  · rw [get_zero_cons]
    by_cases hc : c = '/'
    · subst hc
      rcases t with _ | ⟨d, u⟩
      · simp [get_one_single, implicitNameLoop, lastIndexOf, findLastChar]
      · simp only [zero_add, get_one_cons, if_true]
        by_cases hd : d = '/'
        · subst hd
          have := implicitNameLoop_eq u 2 1 (by norm_num)
          simp only [Nat.cast_ofNat] at this
          simp only [if_true]
          simp [lastIndexOf, findLastChar, this]
        · have := implicitNameLoop_eq (d :: u) 1 0 (by norm_num)
          simp only [Nat.cast_one] at this
          simp only [hd, if_false]
          simp [lastIndexOf, findLastChar, this, hd]
    · have := implicitNameLoop_eq (c :: t) 0 (-1) (by norm_num)
      simp only [Nat.cast_zero] at this
      simp only [hc, if_false]
      simp [lastIndexOf, this]

theorem takeWhile_append_stop (q : Char → Bool) :
    ∀ (l : List Char) (x : Char) (r : List Char), (∀ c ∈ l, q c = true) → q x = false →
      (l ++ x :: r).takeWhile q = l := by
  intro l
  induction l with
  | nil => intro x r _ hx; simp [List.takeWhile, hx]
  | cons c cs ih =>
    intro x r hl hx
    have hc : q c = true := hl c (by simp)
    have hcs : ∀ d ∈ cs, q d = true := fun d hd => hl d (by simp [hd])
    simp [List.takeWhile, hc, ih x r hcs hx]

theorem takeWhile_all (q : Char → Bool) :
    ∀ (l : List Char), (∀ c ∈ l, q c = true) → l.takeWhile q = l := by
  intro l
  induction l with
  | nil => intro _; rfl
  | cons c cs ih =>
    intro hl
    have hc : q c = true := hl c (by simp)
    have hcs : ∀ d ∈ cs, q d = true := fun d hd => hl d (by simp [hd])
    simp [List.takeWhile, hc, ih hcs]

theorem specFinalSegment_split (a b : QByteArray) (hb : '/' ∉ b) :
    specFinalSegment (a ++ '/' :: b) = b := by
  unfold specFinalSegment
  have e : (a ++ '/' :: b).reverse = b.reverse ++ '/' :: a.reverse := by simp
  rw [e, takeWhile_append_stop _ b.reverse '/' a.reverse]
  · simp
  · intro c hc
    have : c ∈ b := by simpa using hc
    have hne : c ≠ '/' := fun e => hb (e ▸ this)
    simp [hne]
  · simp

theorem getLast_split (a b : QByteArray) (hb : '/' ∉ b) :
    ((a ++ '/' :: b).getLast? ≠ some '/') ↔ b ≠ [] := by
  constructor
  · intro h e
    subst e
    simp at h
  · intro hne h
    have hne2 : '/' :: b ≠ [] := by simp
    rw [List.getLast?_append_of_ne_nil a hne2] at h
    rcases List.eq_nil_or_concat b with e | ⟨l, c, e⟩
    · exact hne e
    · subst e
      have : c = '/' := by
        have e2 : '/' :: l.concat c = ('/' :: l) ++ [c] := by simp
        rw [e2, List.getLast?_append_of_ne_nil _ (by simp)] at h
        simpa using h
      exact hb (by simp [this])

/-- The decision of `looksLikeImplicitNamePath` on a quote-free string with a last slash. -/
theorem looksLike_split (a b : QByteArray) (hb : '/' ∉ b) (hq : '"' ∉ a ++ '/' :: b) :
    looksLikeImplicitNamePath (a ++ '/' :: b) =
      decide ('\\' ∉ a ++ '/' :: b ∧ b ≠ [] ∧ '.' ∉ b) := by
  have hne : (a ++ '/' :: b).isEmpty = false := by cases a <;> rfl
  have h0 : at_ (a ++ '/' :: b) 0 ≠ '"' := by
    have := get_ne_quote _ hq 0
    have hl : (0 : Int) < ((a ++ '/' :: b).length : Int) := by
      simp only [List.length_append, List.length_cons]; push_cast; omega
    simp only [get, hl, if_true] at this
    exact this
  have hscan := implicitName_prefix_loop (a ++ '/' :: b) h0
  have hlast : lastIndexOf (a ++ '/' :: b) '/' = (a.length : Int) := by
    unfold lastIndexOf
    rw [findLastChar_append_cons '/' a b 0 (-1) hb]
    simp
  unfold looksLikeImplicitNamePath
  simp only [hne, Bool.false_eq_true, if_false]
  rw [hscan]
  by_cases hbs : '\\' ∈ a ++ '/' :: b
  · simp [hbs]
  · simp only [hbs, if_false, hlast]
    have hgq := get_ne_quote _ hq (((a ++ '/' :: b).length : Int) - 1)
    simp only [hgq, if_false]
    have hle : a.length + 1 ≤ (a ++ '/' :: b).length := by simp
    have hdot := indexOf_nat (a ++ '/' :: b) '.' (a.length + 1) hle
    rw [drop_length_succ_append] at hdot
    push_cast at hdot
    rw [hdot]
    by_cases hbe : b = []
    · subst hbe
      simp
    · have hlen : ¬ ((a.length : Int) = ((a ++ '/' :: b).length : Int) - 1) := by
        have : 0 < b.length := List.length_pos.2 hbe
        simp only [List.length_append, List.length_cons]; push_cast; omega
      simp only [hlen, if_false, findChar_eq_neg_one_iff]
      simp [hbe]

/-- A second `:` anywhere after the first makes the label invalid. -/
theorem extract_two_colons (s : QByteArray) (h : 2 ≤ s.count ':') :
    extractPathIdentFromString s = ([], []) := by
  have hm : ':' ∈ s := by
    apply List.count_pos_iff.1
    omega
  obtain ⟨p, r, e, hp⟩ := exists_first_split ':' s hm
  subst e
  have hr : ':' ∈ r := by
    apply List.count_pos_iff.1
    have hp0 : p.count ':' = 0 := List.count_eq_zero.2 hp
    simp only [List.count_append, List.count_cons_self, hp0] at h
    omega
  have hne : (p ++ ':' :: r).isEmpty = false := by cases p <;> rfl
  have hpos1 : indexOf (p ++ ':' :: r) ':' 0 = (p.length : Int) := by
    rw [indexOf_zero, findChar_append_cons ':' p r 0 hp]; simp
  have hle : p.length + 1 ≤ (p ++ ':' :: r).length := by simp
  have hsec : indexOf (p ++ ':' :: r) ':' ((p.length : Int) + 1) ≠ -1 := by
    have := indexOf_nat (p ++ ':' :: r) ':' (p.length + 1) hle
    rw [drop_length_succ_append] at this
    push_cast at this
    rw [this]
    have := findChar_ge_of_mem ':' r (p.length + 1) hr
    omega
  have hn1 : ¬ ((p.length : Int) = -1) := by omega
  unfold extractPathIdentFromString
  simp only [hne, hpos1, hn1, hsec, if_false, if_true, ne_eq, not_false_eq_true,
    Bool.false_eq_true]

/-! ## Label resolver: the claims -/

/-- C1: for every `p` without `:` (possibly empty) and every non-empty `n` without `:` and
`(`, `extractPathIdentFromString (p ++ ":" ++ n)` is the pair `(p, n)`, so that
`path ++ ":" ++ name` gives the input back; `"//a/b:c"` gives `("//a/b", "c")` and `":c"`
gives `("", "c")`. -/
theorem extractPathIdent_path_colon_name (p n : QByteArray)
    (hp : ':' ∉ p) (_hn : n ≠ []) (hc : ':' ∉ n) (hpar : '(' ∉ n) :
    extractPathIdentFromString (p ++ ":".toList ++ n) = (p, n)
    ∧ (extractPathIdentFromString (p ++ ":".toList ++ n)).1 ++ ":".toList
        ++ (extractPathIdentFromString (p ++ ":".toList ++ n)).2 = p ++ ":".toList ++ n
    ∧ extractPathIdentFromString "//a/b:c".toList = ("//a/b".toList, "c".toList)
    ∧ extractPathIdentFromString ":c".toList = ("".toList, "c".toList) := by
  have e : p ++ ":".toList ++ n = p ++ ':' :: n := by simp
  have h := extract_one_colon p n hp hc
  rw [findChar_of_not_mem '(' n _ hpar] at h
  simp only [ne_eq, not_true_eq_false, if_false] at h
  rw [e, h]
  exact ⟨rfl, by simp, by decide, by decide⟩

theorem extractPathIdent_path_colon_name_witness :
    (':' ∉ "//a/b".toList ∧ "c".toList ≠ [] ∧ ':' ∉ "c".toList ∧ '(' ∉ "c".toList)
    ∧ extractPathIdentFromString ("//a/b".toList ++ ":".toList ++ "c".toList)
        = ("//a/b".toList, "c".toList) :=
  ⟨by decide,
   (extractPathIdent_path_colon_name "//a/b".toList "c".toList
      (by decide) (by decide) (by decide) (by decide)).1⟩

/-- C2, as stated, fails on a label with a backslash: `a\b/c` has a `/`, does not end in
`/`, its final segment `c` has no `.`, and the result is path-only all the same. -/
theorem extractPathIdent_implicit_name_backslash :
    "a\\b/c".toList ≠ [] ∧ ':' ∉ "a\\b/c".toList ∧ '"' ∉ "a\\b/c".toList
    ∧ specImplicitShape "a\\b/c".toList = true
    ∧ specFinalSegment "a\\b/c".toList = "c".toList
    ∧ extractPathIdentFromString "a\\b/c".toList = ("a\\b/c".toList, [])
    ∧ extractPathIdentFromString "a\\b/c".toList
        ≠ ("a\\b/c".toList, specFinalSegment "a\\b/c".toList) := by
  decide

/-- C2 (amended): for every non-empty label `s` without `:` and `"`: if `s` has at least one
`/`, does not end in `/`, its final path segment has no `.`, and `s` has no backslash, the
result is `(s, final segment)`; in every other case it is `(s, "")`. `"//a/b"` gives
`("//a/b", "b")` and `"a/b.c"` gives `("a/b.c", "")`. -/
theorem extractPathIdent_implicit_name (s : QByteArray)
    (hne : s ≠ []) (hc : ':' ∉ s) (hq : '"' ∉ s) :
    extractPathIdentFromString s
      = (s, if specImplicitShape s = true ∧ '\\' ∉ s then specFinalSegment s else [])
    ∧ extractPathIdentFromString "//a/b".toList = ("//a/b".toList, "b".toList)
    ∧ extractPathIdentFromString "a/b.c".toList = ("a/b.c".toList, "".toList) := by
  refine ⟨?_, by decide, by decide⟩
  have hemp : s.isEmpty = false := by
    cases s with
    | nil => exact absurd rfl hne
    | cons _ _ => rfl
  have hpos1 : indexOf s ':' 0 = -1 := by
    rw [indexOf_zero]; exact findChar_of_not_mem ':' s 0 hc
  unfold extractPathIdentFromString
  simp only [hemp, Bool.false_eq_true, if_false, hpos1, if_true]
  by_cases hs : '/' ∈ s
  · obtain ⟨a, b, e, hb⟩ := exists_last_split '/' s hs
    subst e
    have hlast : lastIndexOf (a ++ '/' :: b) '/' = (a.length : Int) := by
      unfold lastIndexOf
      rw [findLastChar_append_cons '/' a b 0 (-1) hb]
      simp
    have hn1 : ¬ ((a.length : Int) = -1) := by omega
    rw [looksLike_split a b hb hq, hlast, mid_rest]
    have hshape : (specImplicitShape (a ++ '/' :: b) = true ∧ '\\' ∉ a ++ '/' :: b)
        ↔ ('\\' ∉ a ++ '/' :: b ∧ b ≠ [] ∧ '.' ∉ b) := by
      unfold specImplicitShape
      rw [specFinalSegment_split a b hb]
      simp only [decide_eq_true_eq, getLast_split a b hb]
      constructor
      · rintro ⟨⟨_, h2, h3⟩, h4⟩
        exact ⟨h4, h2, h3⟩
      · rintro ⟨h4, h2, h3⟩
        exact ⟨⟨hs, h2, h3⟩, h4⟩
    by_cases hd : ('\\' ∉ a ++ '/' :: b ∧ b ≠ [] ∧ '.' ∉ b)
    · simp only [hd, hshape.2 hd, specFinalSegment_split a b hb]
      simp [hn1]
    · have hd2 : ¬ (specImplicitShape (a ++ '/' :: b) = true ∧ '\\' ∉ a ++ '/' :: b) :=
        fun h => hd (hshape.1 h)
      simp only [hd, hd2]
      simp
  · have hlast : lastIndexOf s '/' = -1 := by
      unfold lastIndexOf
      exact findLastChar_of_not_mem '/' s 0 (-1) hs
    have hshape : ¬ (specImplicitShape s = true ∧ '\\' ∉ s) := by
      unfold specImplicitShape
      simp [hs]
    simp only [hlast, hshape, if_false, ne_eq, not_true_eq_false]
    split <;> rfl

theorem extractPathIdent_implicit_name_witness :
    ("//a/b".toList ≠ [] ∧ ':' ∉ "//a/b".toList ∧ '"' ∉ "//a/b".toList)
    ∧ extractPathIdentFromString "//a/b".toList
      = ("//a/b".toList,
          if specImplicitShape "//a/b".toList = true ∧ '\\' ∉ "//a/b".toList
          then specFinalSegment "//a/b".toList else []) :=
  ⟨by decide,
   (extractPathIdent_implicit_name "//a/b".toList (by decide) (by decide) (by decide)).1⟩

/-- C3: every byte string with two or more `:` gives the empty pair `("", "")`, for
instance `"a:b:c"`; the empty string gives `("", "")` too. -/
theorem extractPathIdent_two_colons (s : QByteArray) (h : 2 ≤ s.count ':') :
    extractPathIdentFromString s = ([], [])
    ∧ extractPathIdentFromString "a:b:c".toList = ([], [])
    ∧ extractPathIdentFromString [] = ([], []) := by
  exact ⟨extract_two_colons s h, by decide, by decide⟩

theorem extractPathIdent_two_colons_witness :
    2 ≤ "a:b:c".toList.count ':' ∧ extractPathIdentFromString "a:b:c".toList = ([], []) :=
  ⟨by decide, (extractPathIdent_two_colons "a:b:c".toList (by decide)).1⟩

/-- C4, as stated, fails when the toolchain is itself a label: with `p = "//a"`, `n = "b"`
and `t = "//build/toolchain:gcc"` the result is the empty pair, not `(p, n)`. -/
theorem extractPathIdent_toolchain_label :
    ':' ∉ "//a".toList ∧ "b".toList ≠ [] ∧ ':' ∉ "b".toList ∧ '(' ∉ "b".toList
    ∧ extractPathIdentFromString
        ("//a".toList ++ ":".toList ++ "b".toList ++ "(".toList
          ++ "//build/toolchain:gcc".toList ++ ")".toList) = ([], [])
    ∧ extractPathIdentFromString
        ("//a".toList ++ ":".toList ++ "b".toList ++ "(".toList
          ++ "//build/toolchain:gcc".toList ++ ")".toList) ≠ ("//a".toList, "b".toList) := by
  decide

/-- C4 (amended): for every `p` without `:`, every non-empty `n` without `:` and `(`, and
every toolchain text `t`: when `t` has no `:`, the parenthesised suffix is discarded and
`extractPathIdentFromString (p ++ ":" ++ n ++ "(" ++ t ++ ")") = (p, n)`; when `t` has a
`:` (a toolchain written as a label), the result is the empty pair. -/
theorem extractPathIdent_toolchain_suffix (p n t : QByteArray)
    (hp : ':' ∉ p) (hn : n ≠ []) (hc : ':' ∉ n) (hpar : '(' ∉ n) :
    (':' ∉ t → extractPathIdentFromString
        (p ++ ":".toList ++ n ++ "(".toList ++ t ++ ")".toList) = (p, n))
    ∧ (':' ∈ t → extractPathIdentFromString
        (p ++ ":".toList ++ n ++ "(".toList ++ t ++ ")".toList) = ([], [])) := by
  have e : p ++ ":".toList ++ n ++ "(".toList ++ t ++ ")".toList
      = p ++ ':' :: (n ++ '(' :: (t ++ [')'])) := by simp
  rw [e]
  constructor
  · intro ht
    have hr : ':' ∉ n ++ '(' :: (t ++ [')']) := by
      simp only [List.mem_append, List.mem_cons, List.mem_singleton, not_or]
      exact ⟨hc, by decide, ht, by decide, by simp⟩
    have h := extract_one_colon p (n ++ '(' :: (t ++ [')'])) hp hr
    rw [findChar_append_cons '(' n (t ++ [')']) (p.length + 1) hpar] at h
    have hlen : 0 < n.length := List.length_pos.2 hn
    have h1 : ((p.length + 1 + n.length : Nat) : Int) ≠ -1 := by omega
    have h2 : ¬ (((p.length + 1 + n.length : Nat) : Int) - (p.length : Int) = 1) := by
      push_cast; omega
    have h3 : ((p.length + 1 + n.length : Nat) : Int) - (p.length : Int) - 1
        = (n.length : Int) := by push_cast; omega
    simp only [h1, h2, h3, if_true, if_false, ne_eq, not_false_eq_true] at h
    rw [h, mid_take]
  · intro ht
    have hcount : 2 ≤ (p ++ ':' :: (n ++ '(' :: (t ++ [')']))).count ':' := by
      have : 0 < t.count ':' := List.count_pos_iff.2 ht
      simp only [List.count_append, List.count_cons_self]
      have h4 : List.count ':' ('(' :: (t ++ [')'])) = List.count ':' (t ++ [')']) :=
        List.count_cons_of_ne (by decide) _
      rw [h4, List.count_append]
      omega
    exact extract_two_colons _ hcount

theorem extractPathIdent_toolchain_suffix_witness :
    (':' ∉ "//a".toList ∧ "b".toList ≠ [] ∧ ':' ∉ "b".toList ∧ '(' ∉ "b".toList
      ∧ ':' ∉ "gcc".toList)
    ∧ extractPathIdentFromString
        ("//a".toList ++ ":".toList ++ "b".toList ++ "(".toList ++ "gcc".toList ++ ")".toList)
        = ("//a".toList, "b".toList) :=
  ⟨by decide,
   (extractPathIdent_toolchain_suffix "//a".toList "b".toList "gcc".toList
      (by decide) (by decide) (by decide) (by decide)).1 (by decide)⟩

/-! ## Interpolation scanner: lemmas -/

theorem drop_length_append (p r : List Char) : (p ++ r).drop p.length = r := by
  induction p with
  | nil => rfl
  | cons a as ih => simp

theorem indexOf_append (pre rest : QByteArray) (ch : Char) :
    indexOf (pre ++ rest) ch (pre.length : Int) = findChar ch rest pre.length := by
  have h := indexOf_nat (pre ++ rest) ch pre.length (by simp)
  rw [drop_length_append] at h
  exact h

theorem at_append_last (w : QByteArray) (x : Char) (r : QByteArray) :
    at_ (w ++ x :: r) (w.length : Int) = x := by
  unfold at_
  have h0 : ¬ ((w.length : Int) < 0) := by omega
  simp only [h0, if_false, Int.toNat_ofNat]
  induction w with
  | nil => rfl
  | cons a as ih => simpa [List.getD] using ih (by omega)

theorem firstFreeDollar_of_not_mem :
    ∀ (l : List Char) (prev : Option Char) (i : Nat), '$' ∉ l →
      firstFreeDollar prev l i = -1 := by
  intro l
  induction l with
  | nil => intro prev i _; rfl
  | cons c cs ih =>
    intro prev i h
    have hc : c ≠ '$' := fun e => h (by simp [e])
    have hcs : '$' ∉ cs := fun e => h (by simp [e])
    simp [firstFreeDollar, hc, ih (some c) (i + 1) hcs]

theorem firstFreeDollar_append_cons :
    ∀ (p : List Char) (prev : Option Char) (r : List Char) (i : Nat), '$' ∉ p →
      firstFreeDollar prev (p ++ '$' :: r) i =
        if (p.getLast?.or prev) = some '\\'
        then firstFreeDollar (some '$') r (i + p.length + 1)
        else ((i + p.length : Nat) : Int) := by
  intro p
  induction p with
  | nil =>
    intro prev r i _
    simp only [List.nil_append, firstFreeDollar, List.getLast?_nil, Option.or, List.length_nil,
      Nat.add_zero, true_and]
    by_cases h : prev = some '\\'
    · simp [h]
    · simp [h]
  | cons c cs ih =>
    intro prev r i h
    have hc : c ≠ '$' := fun e => h (by simp [e])
    have hcs : '$' ∉ cs := fun e => h (by simp [e])
    have e : (c :: cs) ++ '$' :: r = c :: (cs ++ '$' :: r) := rfl
    rw [e, firstFreeDollar]
    simp only [hc, false_and, if_false]
    rw [ih (some c) r (i + 1) hcs]
    have hl : (cs.getLast?.or (some c)) = ((c :: cs).getLast?.or prev) := by
      rcases List.eq_nil_or_concat cs with e2 | ⟨l, x, e2⟩
      · subst e2; simp [Option.or]
      · subst e2
        have e3 : c :: l.concat x = (c :: l) ++ [x] := by simp
        have e5 : l.concat x = l ++ [x] := by simp
        rw [e3, e5, List.getLast?_append_of_ne_nil _ (by simp),
          List.getLast?_append_of_ne_nil _ (by simp)]
        simp [Option.or]
    rw [hl]
    have e4 : i + 1 + cs.length = i + (c :: cs).length := by simp; omega
    rw [e4]

theorem at_pred_eq_getLast (w r : QByteArray) (ch : Char) :
    ((w.length : Int) > 0 ∧ at_ (w ++ r) ((w.length : Int) - 1) = ch) ↔ w.getLast? = some ch := by
  rcases List.eq_nil_or_concat w with e | ⟨l, x, e⟩
  · subst e; simp
  · subst e
    have e1 : l.concat x = l ++ [x] := by simp
    have e2 : l ++ [x] ++ r = l ++ x :: r := by simp
    have e3 : ((l ++ [x]).length : Int) - 1 = (l.length : Int) := by
      simp only [List.length_append, List.length_singleton]; push_cast; omega
    have e4 : ((l ++ [x]).length : Int) > 0 := by
      simp only [List.length_append, List.length_singleton]; push_cast; omega
    rw [e1, e2, e3, at_append_last, List.getLast?_append_of_ne_nil _ (by simp)]
    simp [e4]

theorem findNonEscapedDollarLoop_eq :
    ∀ (fuel : Nat) (pre rest : QByteArray), rest.length + 1 ≤ fuel →
      findNonEscapedDollarLoop (pre ++ rest) fuel (pre.length : Int)
        = firstFreeDollar pre.getLast? rest pre.length := by
  intro fuel
  induction fuel with
  | zero => intro pre rest h; omega
  | succ fuel ih =>
    intro pre rest h
    rw [findNonEscapedDollarLoop]
    by_cases hr : rest = []
    · subst hr; simp [firstFreeDollar]
    · have hpos : 0 < rest.length := List.length_pos.2 hr
      have hlt : (pre.length : Int) < ((pre ++ rest).length : Int) := by
        simp only [List.length_append]; push_cast; omega
      simp only [hlt, if_true, indexOf_append]
      by_cases hm : '$' ∈ rest
      · obtain ⟨p, r, e, hp⟩ := exists_first_split '$' rest hm
        subst e
        rw [findChar_append_cons '$' p r _ hp, firstFreeDollar_append_cons p _ r _ hp]
        have hne : ¬ (((pre.length + p.length : Nat) : Int) = -1) := by omega
        have e1 : pre ++ (p ++ '$' :: r) = (pre ++ p) ++ '$' :: r := by simp
        have e2 : ((pre.length + p.length : Nat) : Int) = ((pre ++ p).length : Int) := by simp
        have hcond := at_pred_eq_getLast (pre ++ p) ('$' :: r) '\\'
        rw [List.getLast?_append] at hcond
        simp only [ne_eq, hne, not_false_eq_true, if_true]
        rw [e1, e2]
        by_cases hesc : (p.getLast?.or pre.getLast?) = some '\\'
        · have hc2 := hcond.2 hesc
          simp only [hc2, hesc, and_self, if_true]
          have e3 : (pre ++ p) ++ '$' :: r = (pre ++ p ++ ['$']) ++ r := by simp
          have e4 : ((pre ++ p).length : Int) + 1 = ((pre ++ p ++ ['$']).length : Int) := by
            simp only [List.length_append, List.length_singleton]; push_cast; omega
          rw [e3, e4, ih (pre ++ p ++ ['$']) r (by simp at h; omega)]
          simp [Nat.add_assoc]
        · have hc2 : ¬ (((pre ++ p).length : Int) > 0 ∧
              at_ ((pre ++ p) ++ '$' :: r) (((pre ++ p).length : Int) - 1) = '\\') :=
            fun hh => hesc (hcond.1 hh)
          simp only [hc2, hesc, if_false]
      · have h1 := findChar_of_not_mem '$' rest pre.length hm
        simp [h1, firstFreeDollar_of_not_mem rest _ _ hm]

theorem findNonEscapedDollar_append (pre rest : QByteArray) :
    findNonEscapedDollar (pre ++ rest) (pre.length : Int)
      = firstFreeDollar pre.getLast? rest pre.length := by
  unfold findNonEscapedDollar
  exact findNonEscapedDollarLoop_eq _ pre rest (by simp)

theorem findNonEscapedDollar_zero (str : QByteArray) :
    findNonEscapedDollar str 0 = firstFreeDollar none str 0 := by
  have := findNonEscapedDollar_append [] str
  simpa using this

theorem findNonEscapedDollar_beyond (str : QByteArray) (start : Int)
    (h : (str.length : Int) ≤ start) : findNonEscapedDollar str start = -1 := by
  unfold findNonEscapedDollar
  rw [findNonEscapedDollarLoop]
  have : ¬ (start < (str.length : Int)) := by omega
  simp [this]

theorem getLast_or_cons (c : Char) (cs : List Char) (prev : Option Char) :
    ((c :: cs).getLast?.or prev) = (cs.getLast?.or (some c)) := by
  rcases List.eq_nil_or_concat cs with e | ⟨l, x, e⟩
  · subst e; simp [Option.or]
  · subst e
    have e3 : c :: l.concat x = (c :: l) ++ [x] := by simp
    have e5 : l.concat x = l ++ [x] := by simp
    rw [e3, e5, List.getLast?_append_of_ne_nil _ (by simp),
      List.getLast?_append_of_ne_nil _ (by simp)]
    simp [Option.or]

theorem specDollars_skip :
    ∀ (a : List Char) (prev : Option Char) (b : List Char) (i : Nat),
      specDollars prev (a ++ b) i a.length
        = specDollars (a.getLast?.or prev) b (i + a.length) 0 := by
  intro a
  induction a with
  | nil => intro prev b i; simp [Option.or]
  | cons c cs ih =>
    intro prev b i
    have e : (c :: cs) ++ b = c :: (cs ++ b) := rfl
    rw [e, List.length_cons, specDollars, ih (some c) b (i + 1), getLast_or_cons]
    have e4 : i + 1 + cs.length = i + (cs.length + 1) := by omega
    rw [e4]

theorem specDollars_covered_all :
    ∀ (l : List Char) (prev : Option Char) (i k : Nat), l.length ≤ k →
      specDollars prev l i k = [] := by
  intro l
  induction l with
  | nil => intro prev i k _; simp [specDollars]
  | cons c cs ih =>
    intro prev i k h
    cases k with
    | zero => simp at h
    | succ k =>
      rw [specDollars]
      exact ih (some c) (i + 1) k (by simp at h; omega)

theorem specDollars_of_not_mem :
    ∀ (l : List Char) (prev : Option Char) (i : Nat), '$' ∉ l →
      specDollars prev l i 0 = [] := by
  intro l
  induction l with
  | nil => intro prev i _; simp [specDollars]
  | cons c cs ih =>
    intro prev i h
    have hc : c ≠ '$' := fun e => h (by simp [e])
    have hcs : '$' ∉ cs := fun e => h (by simp [e])
    rw [specDollars]
    simp [hc, ih (some c) (i + 1) hcs]

theorem specDollars_to_dollar :
    ∀ (p : List Char) (prev : Option Char) (r : List Char) (i : Nat), '$' ∉ p →
      specDollars prev (p ++ '$' :: r) i 0
        = specDollars (p.getLast?.or prev) ('$' :: r) (i + p.length) 0 := by
  intro p
  induction p with
  | nil => intro prev r i _; simp [Option.or]
  | cons c cs ih =>
    intro prev r i h
    have hc : c ≠ '$' := fun e => h (by simp [e])
    have hcs : '$' ∉ cs := fun e => h (by simp [e])
    have e : (c :: cs) ++ '$' :: r = c :: (cs ++ '$' :: r) := rfl
    rw [e, specDollars]
    simp only [hc, false_and, if_false]
    rw [ih (some c) r (i + 1) hcs, getLast_or_cons]
    have e4 : i + 1 + cs.length = i + (c :: cs).length := by simp; omega
    rw [e4]

theorem specDollars_escaped (r : List Char) (i : Nat) :
    specDollars (some '\\') ('$' :: r) i 0 = specDollars (some '$') r (i + 1) 0 := by
  rw [specDollars]
  simp

theorem scanName_eq :
    ∀ (l : List Char) (i : Int),
      scanName l i = i + ((l.takeWhile specNameByte).length : Int) := by
  intro l
  induction l with
  | nil => intro i; simp [scanName]
  | cons c cs ih =>
    intro i
    rw [scanName]
    by_cases h : specNameByte c = true
    · have h2 : ¬ ((!isalnum c) = true ∧ c ≠ '_') := by
        unfold specNameByte at h
        intro hh
        rcases hh with ⟨h3, h4⟩
        simp [h4] at h
        simp [h] at h3
      simp only [h2, if_false, ih (i + 1), List.takeWhile, h, List.length_cons]
      push_cast
      omega
    · have h2 : ((!isalnum c) = true ∧ c ≠ '_') := by
        unfold specNameByte at h
        simp at h
        simp [h]
      simp [h2, List.takeWhile, h]

theorem Dollar_make_nat (a b : Nat) (ha : a < 65536) (hb : b < 65536) :
    Dollar.make (a : Int) (b : Int) = ⟨a, b⟩ := by
  unfold Dollar.make
  have h1 : ((a : Int) % 65536).toNat = a := by omega
  have h2 : ((b : Int) % 65536).toNat = b := by omega
  rw [h1, h2]

theorem findDollarsLoop_done (str : QByteArray) (fuel : Nat) (res : List Dollar) :
    findDollarsLoop str fuel (-1) res = some res := by
  cases fuel <;> simp [findDollarsLoop]

/-- One step of the loop of `findDollars` at an unescaped `$` that is followed by a byte:
the branch taken and the next search position. -/
theorem findDollarsLoop_step (w r : QByteArray) (c : Char) (fuel : Nat) (res : List Dollar) :
    findDollarsLoop (w ++ '$' :: c :: r) (fuel + 1) (w.length : Int) res =
      if c = '{' then
        (if findChar '}' (c :: r) (w.length + 1) = -1 then some res
         else findDollarsLoop (w ++ '$' :: c :: r) fuel
            (findNonEscapedDollar (w ++ '$' :: c :: r)
              ((w.length : Int) + (findChar '}' (c :: r) (w.length + 1) - (w.length : Int) + 1)))
            (res ++ [Dollar.make (w.length : Int)
              (findChar '}' (c :: r) (w.length + 1) - (w.length : Int) + 1)]))
      else if c = '0' then
        findDollarsLoop (w ++ '$' :: c :: r) fuel
          (findNonEscapedDollar (w ++ '$' :: c :: r) ((w.length : Int) + 5))
          (res ++ [Dollar.make (w.length : Int) 5])
      else
        findDollarsLoop (w ++ '$' :: c :: r) fuel
          (findNonEscapedDollar (w ++ '$' :: c :: r)
            ((w.length : Int) + (1 + (((c :: r).takeWhile specNameByte).length : Int))))
          (res ++ [Dollar.make (w.length : Int)
            (1 + (((c :: r).takeWhile specNameByte).length : Int))]) := by
  rw [findDollarsLoop]
  have hne : (w.length : Int) ≠ -1 := by omega
  have hlt : (w.length : Int) + 1 < ((w ++ '$' :: c :: r).length : Int) := by
    simp only [List.length_append, List.length_cons]; push_cast; omega
  have e1 : w ++ '$' :: c :: r = (w ++ ['$']) ++ c :: r := by simp
  have e2 : (w.length : Int) + 1 = ((w ++ ['$']).length : Int) := by simp
  have hat : at_ (w ++ '$' :: c :: r) ((w.length : Int) + 1) = c := by
    rw [e1, e2, at_append_last]
  have hidx : indexOf (w ++ '$' :: c :: r) '}' ((w.length : Int) + 1)
      = findChar '}' (c :: r) (w.length + 1) := by
    rw [e1, e2, indexOf_append]; simp
  have hdrop : (w ++ '$' :: c :: r).drop ((w.length : Int) + 1).toNat = c :: r := by
    have : ((w.length : Int) + 1).toNat = (w ++ ['$']).length := by
      simp only [List.length_append, List.length_singleton]; omega
    rw [this, e1, drop_length_append]
  simp only [hne, ne_eq, not_false_eq_true, if_true, hlt, hat, hidx, hdrop, scanName_eq]
  by_cases h1 : c = '{'
  · simp only [h1, if_true]
  · simp only [h1, if_false]
    by_cases h2 : c = '0'
    · simp only [h2, if_true]
    · simp only [h2, if_false]
      have e3 : (w.length : Int) + 1 + (((c :: r).takeWhile specNameByte).length : Int)
          - (w.length : Int) = 1 + (((c :: r).takeWhile specNameByte).length : Int) := by omega
      rw [e3]

theorem specDollars_at_dollar (prev : Option Char) (hprev : prev ≠ some '\\') (c : Char)
    (r : List Char) (i : Nat) :
    specDollars prev ('$' :: c :: r) i 0 =
      match specSpanLen (c :: r) with
      | none => []
      | some len => ⟨i, len⟩ :: specDollars (some '$') (c :: r) (i + 1) (len - 1) := by
  rw [specDollars]
  simp [hprev]

theorem specSpanLen_brace_none (r : List Char) (h : '}' ∉ '{' :: r) :
    specSpanLen ('{' :: r) = none := by
  simp only [specSpanLen, h, if_false]

theorem specSpanLen_brace_some (r a b : List Char) (e : '{' :: r = a ++ '}' :: b)
    (ha : '}' ∉ a) : specSpanLen ('{' :: r) = some (a.length + 2) := by
  have hm : '}' ∈ '{' :: r := by rw [e]; simp
  simp only [specSpanLen, hm, if_true]
  rw [e, takeWhile_append_stop _ a '}' b]
  · intro x hx
    have : x ≠ '}' := fun e2 => ha (e2 ▸ hx)
    simp [this]
  · simp

theorem specSpanLen_zero (r : List Char) : specSpanLen ('0' :: r) = some 5 := by
  simp [specSpanLen]

theorem specSpanLen_name (c : Char) (r : List Char) (h1 : c ≠ '{') (h2 : c ≠ '0') :
    specSpanLen (c :: r) = some (((c :: r).takeWhile specNameByte).length + 1) := by
  unfold specSpanLen
  split
  · rename_i heq; simp at heq; exact absurd heq.1 h1
  · rename_i heq; simp at heq; exact absurd heq.1 h2
  · rfl

theorem findDollarsLoop_eq (str : QByteArray) (hlen : str.length < 65536)
    (hend : ∀ w, str = w ++ ['$'] → w.getLast? = some '\\') :
    ∀ (n : Nat) (pre rest : QByteArray), str = pre ++ rest → rest.length ≤ n →
      ∀ (fuel : Nat), rest.length + 1 ≤ fuel → ∀ res : List Dollar,
        findDollarsLoop str fuel (firstFreeDollar pre.getLast? rest pre.length) res
          = some (res ++ specDollars pre.getLast? rest pre.length 0) := by
  intro n
  induction n with
  | zero =>
    intro pre rest hs hn fuel hf res
    have : rest = [] := List.length_eq_zero.1 (by omega)
    subst this
    simp [firstFreeDollar, specDollars, findDollarsLoop_done]
  | succ n ih =>
    intro pre rest hs hn fuel hf res
    by_cases hm : '$' ∈ rest
    · obtain ⟨p, r, e, hp⟩ := exists_first_split '$' rest hm
      subst e
      rw [firstFreeDollar_append_cons p _ r _ hp, specDollars_to_dollar p _ r _ hp]
      have hgl : (p.getLast?.or pre.getLast?) = (pre ++ p).getLast? := by
        rw [List.getLast?_append]
      have hrl : (p ++ '$' :: r).length = p.length + r.length + 1 := by
        simp only [List.length_append, List.length_cons]; omega
      rw [hrl] at hn hf
      by_cases hesc : (p.getLast?.or pre.getLast?) = some '\\'
      · simp only [hesc, if_true]
        rw [specDollars_escaped]
        have h := ih (pre ++ p ++ ['$']) r (by simp [hs]) (by omega) fuel (by omega) res
        have e1 : (pre ++ p ++ ['$']).getLast? = some '$' := by
          rw [List.getLast?_append_of_ne_nil _ (by simp)]; rfl
        have e2 : (pre ++ p ++ ['$']).length = pre.length + p.length + 1 := by
          simp only [List.length_append, List.length_singleton]
        rw [e1, e2] at h
        exact h
      · simp only [hesc, if_false]
        cases r with
        | nil =>
          exact absurd (hend (pre ++ p) (by simp [hs])) (by rw [← hgl]; exact hesc)
        | cons c r' =>
          obtain ⟨f, rfl⟩ : ∃ f, fuel = f + 1 := ⟨fuel - 1, by omega⟩
          have hstr : str = (pre ++ p) ++ '$' :: c :: r' := by simp [hs]
          have e2 : ((pre.length + p.length : Nat) : Int) = ((pre ++ p).length : Int) := by
            simp
          have e3 : pre.length + p.length = (pre ++ p).length := by simp
          rw [e2, e3]
          generalize hw : pre ++ p = w at *
          have hprev : (p.getLast?.or pre.getLast?) ≠ some '\\' := hesc
          simp only [List.length_cons] at hn hf
          rw [specDollars_at_dollar _ hprev]
          have hsl : str.length = w.length + r'.length + 2 := by
            rw [hstr]; simp only [List.length_append, List.length_cons]; omega
          have hcont : ∀ (a b : List Char), c :: r' = a ++ b → ∀ res' : List Dollar,
              findDollarsLoop str f
                (findNonEscapedDollar str ((w.length : Int) + (1 + (a.length : Int)))) res'
              = some (res' ++ specDollars (some '$') (a ++ b) (w.length + 1) a.length) := by
            intro a b hab res'
            have hs2 : str = (w ++ '$' :: a) ++ b := by rw [hstr, hab]; simp
            have el : (w.length : Int) + (1 + (a.length : Int))
                = ((w ++ '$' :: a).length : Int) := by
              simp only [List.length_append, List.length_cons]; push_cast; omega
            have hlab : r'.length + 1 = a.length + b.length := by
              have := congrArg List.length hab
              simpa using this
            have h := ih (w ++ '$' :: a) b hs2 (by omega) f (by omega) res'
            rw [el]
            conv => lhs; arg 3; rw [hs2]
            rw [findNonEscapedDollar_append, h, specDollars_skip]
            have eg : (w ++ '$' :: a).getLast? = (a.getLast?.or (some '$')) := by
              have : w ++ '$' :: a = (w ++ ['$']) ++ a := by simp
              rw [this, List.getLast?_append, List.getLast?_append_of_ne_nil _ (by simp)]
              rfl
            have en : (w ++ '$' :: a).length = w.length + 1 + a.length := by
              simp only [List.length_append, List.length_cons]; omega
            rw [eg, en]
          have hstep := findDollarsLoop_step w r' c f res
          rw [← hstr] at hstep
          rw [hstep]
          by_cases h1 : c = '{'
          · subst h1
            simp only [if_true]
            by_cases hb : '}' ∈ '{' :: r'
            · obtain ⟨a, b, e, ha⟩ := exists_first_split '}' _ hb
              have hfc : findChar '}' ('{' :: r') (w.length + 1)
                  = ((w.length + 1 + a.length : Nat) : Int) := by
                rw [e]; exact findChar_append_cons '}' a b _ ha
              have hlab : r'.length + 1 = a.length + (b.length + 1) := by
                have := congrArg List.length e
                simpa using this
              have hne : ¬ (((w.length + 1 + a.length : Nat) : Int) = -1) := by omega
              have elen : ((w.length + 1 + a.length : Nat) : Int) - (w.length : Int) + 1
                  = ((a.length + 2 : Nat) : Int) := by push_cast; omega
              rw [hfc]
              simp only [hne, if_false, elen]
              rw [Dollar_make_nat _ _ (by omega) (by omega),
                specSpanLen_brace_some r' a b e ha]
              have e5 : '{' :: r' = (a ++ ['}']) ++ b := by rw [e]; simp
              have h := hcont (a ++ ['}']) b e5 (res ++ [⟨w.length, a.length + 2⟩])
              have e6 : (w.length : Int) + (1 + ((a ++ ['}']).length : Int))
                  = (w.length : Int) + ((a.length + 2 : Nat) : Int) := by
                simp only [List.length_append, List.length_singleton]; push_cast; omega
              rw [e6] at h
              rw [h]
              have e7 : (a ++ ['}']).length = a.length + 2 - 1 := by
                simp only [List.length_append, List.length_singleton]; omega
              rw [← e5, e7]
              simp
            · have hfc := findChar_of_not_mem '}' ('{' :: r') (w.length + 1) hb
              rw [hfc, specSpanLen_brace_none r' hb]
              simp
          · simp only [h1, if_false]
            by_cases h2 : c = '0'
            · subst h2
              simp only [if_true]
              have hd5 : Dollar.make (w.length : Int) 5 = ⟨w.length, 5⟩ :=
                Dollar_make_nat w.length 5 (by omega) (by omega)
              rw [hd5, specSpanLen_zero]
              by_cases h4 : r'.length + 1 ≤ 4
              · rw [findNonEscapedDollar_beyond str _ (by rw [hsl]; push_cast; omega),
                  findDollarsLoop_done]
                have hcov := specDollars_covered_all ('0' :: r') (some '$') (w.length + 1) 4
                  (by simp only [List.length_cons]; omega)
                simp [hcov]
              · have e5 : '0' :: r' = ('0' :: r').take 4 ++ ('0' :: r').drop 4 :=
                  (List.take_append_drop 4 _).symm
                have hl4 : (('0' :: r').take 4).length = 4 := by
                  rw [List.length_take]; simp only [List.length_cons]; omega
                have h := hcont _ _ e5 (res ++ [⟨w.length, 5⟩])
                rw [hl4] at h
                have e6 : (w.length : Int) + (1 + ((4 : Nat) : Int)) = (w.length : Int) + 5 := by
                  push_cast; omega
                rw [e6, ← e5] at h
                rw [h]
                simp
            · simp only [h2, if_false]
              have e5 : c :: r' = (c :: r').takeWhile specNameByte
                  ++ (c :: r').dropWhile specNameByte :=
                (List.takeWhile_append_dropWhile _ _).symm
              have hlt : ((c :: r').takeWhile specNameByte).length ≤ r'.length + 1 := by
                have := congrArg List.length e5
                simp only [List.length_append, List.length_cons] at this
                omega
              have hd : Dollar.make (w.length : Int)
                  (1 + (((c :: r').takeWhile specNameByte).length : Int))
                  = ⟨w.length, ((c :: r').takeWhile specNameByte).length + 1⟩ := by
                have := Dollar_make_nat w.length
                  (((c :: r').takeWhile specNameByte).length + 1) (by omega) (by omega)
                rw [← this]
                congr 1
                push_cast
                omega
              rw [hd, specSpanLen_name c r' h1 h2]
              have h := hcont _ _ e5
                (res ++ [⟨w.length, ((c :: r').takeWhile specNameByte).length + 1⟩])
              rw [← e5] at h
              rw [h]
              simp
    · rw [firstFreeDollar_of_not_mem rest _ _ hm, specDollars_of_not_mem rest _ _ hm,
        findDollarsLoop_done]
      simp

/-! ## Interpolation scanner: the claims -/

/-- C5, as stated, fails at a `${` without `}`: in `${a $b` the `$` at index 4 is not
preceded by a backslash, is followed by a byte and is covered by no span, and `findDollars`
returns no span at all. -/
theorem findDollars_unterminated_brace :
    at_ "$\x7ba $b".toList 4 = '$' ∧ at_ "$\x7ba $b".toList 3 ≠ '\\'
    ∧ (4 : Int) + 1 < ("$\x7ba $b".toList.length : Int)
    ∧ findDollars 7 "$\x7ba $b".toList = some [] := by
  decide

/-- C5 (amended): for every `str` shorter than 65536 bytes that does not end in a `$`
without a backslash before it, `findDollars` returns (within `str.size() + 1` iterations)
one span `(pos, len)` per `$` that is not preceded by a backslash, is followed by a byte
and is not covered by the previous span: through the first following `}` after `${`, of
length 5 after `$0`, otherwise `$` plus the maximal run of alphanumerics and `_`; at a `${`
without a following `}` the scan stops and returns the spans found before it. For
`hello ${foo}/$bar.txt/$0xff` these are the spans of `${foo}`, `$bar` and `$0xff`. -/
theorem findDollars_spans (str : QByteArray) (hlen : str.length < 65536)
    (hend : str.getLast? = some '$' → str.dropLast.getLast? = some '\\')
    (fuel : Nat) (hf : str.length + 1 ≤ fuel) :
    findDollars fuel str = some (specDollars none str 0 0)
    ∧ findDollars 28 "hello $\x7bfoo\x7d/$bar.txt/$0xff".toList
        = some [⟨6, 6⟩, ⟨13, 4⟩, ⟨22, 5⟩]
    ∧ mid "hello $\x7bfoo\x7d/$bar.txt/$0xff".toList 6 6 = "$\x7bfoo\x7d".toList
    ∧ mid "hello $\x7bfoo\x7d/$bar.txt/$0xff".toList 13 4 = "$bar".toList
    ∧ mid "hello $\x7bfoo\x7d/$bar.txt/$0xff".toList 22 5 = "$0xff".toList := by
  refine ⟨?_, by decide, by decide, by decide, by decide⟩
  have hend2 : ∀ w, str = w ++ ['$'] → w.getLast? = some '\\' := by
    intro w hw
    subst hw
    have h1 : (w ++ ['$']).getLast? = some '$' := by simp
    have h2 := hend h1
    simpa using h2
  have h := findDollarsLoop_eq str hlen hend2 str.length [] str rfl (Nat.le_refl _) fuel hf []
  unfold findDollars
  rw [findNonEscapedDollar_zero]
  simpa using h

theorem findDollars_spans_witness :
    ("hello $\x7bfoo\x7d/$bar.txt/$0xff".toList.length < 65536
      ∧ ("hello $\x7bfoo\x7d/$bar.txt/$0xff".toList.getLast? = some '$' →
          "hello $\x7bfoo\x7d/$bar.txt/$0xff".toList.dropLast.getLast? = some '\\')
      ∧ "hello $\x7bfoo\x7d/$bar.txt/$0xff".toList.length + 1 ≤ 28)
    ∧ findDollars 28 "hello $\x7bfoo\x7d/$bar.txt/$0xff".toList
        = some (specDollars none "hello $\x7bfoo\x7d/$bar.txt/$0xff".toList 0 0) :=
  ⟨by decide,
   (findDollars_spans "hello $\x7bfoo\x7d/$bar.txt/$0xff".toList (by decide) (by decide) 28
      (by decide)).1⟩

/-! ## Code model: lemmas on the hashes -/

theorem hashFind_hashAppend_same {β : Type} :
    ∀ (h : List (QByteArray × List β)) (k : QByteArray) (x : β),
      hashFind (hashAppend h k x) k = some ((hashFind h k).getD [] ++ [x]) := by
  intro h
  induction h with
  | nil => intro k x; simp [hashAppend, hashFind]
  | cons p rest ih =>
    intro k x
    obtain ⟨k1, v⟩ := p
    by_cases hk : k1 = k
    · simp [hashAppend, hashFind, hk]
    · simp [hashAppend, hashFind, hk, ih k x]

theorem hashFind_hashAppend_other {β : Type} :
    ∀ (h : List (QByteArray × List β)) (k k2 : QByteArray) (x : β), k2 ≠ k →
      hashFind (hashAppend h k x) k2 = hashFind h k2 := by
  intro h
  induction h with
  | nil =>
    intro k k2 x hne
    have : ¬ (k = k2) := fun e => hne e.symm
    simp [hashAppend, hashFind, this]
  | cons p rest ih =>
    intro k k2 x hne
    obtain ⟨k1, v⟩ := p
    by_cases hk : k1 = k
    · subst hk
      have : ¬ (k1 = k2) := fun e => hne e.symm
      simp [hashAppend, hashFind, this]
    · by_cases hk2 : k1 = k2
      · subst hk2
        simp [hashAppend, hashFind, hk]
      · simp [hashAppend, hashFind, hk, hk2, ih k k2 x hne]

theorem hashValue_hashAppend_same {β : Type} (h : List (QByteArray × List β))
    (k : QByteArray) (x : β) :
    hashValue (hashAppend h k x) k = hashValue h k ++ [x] := by
  simp [hashValue, hashFind_hashAppend_same]

theorem hashValue_hashAppend_other {β : Type} (h : List (QByteArray × List β))
    (k k2 : QByteArray) (x : β) (hne : k2 ≠ k) :
    hashValue (hashAppend h k x) k2 = hashValue h k2 := by
  simp [hashValue, hashFind_hashAppend_other h k k2 x hne]

theorem hashFind_hashInsert_same {β : Type} :
    ∀ (h : List (QByteArray × β)) (k : QByteArray) (x : β),
      hashFind (hashInsert h k x) k = some x := by
  intro h
  induction h with
  | nil => intro k x; simp [hashInsert, hashFind]
  | cons p rest ih =>
    intro k x
    obtain ⟨k1, v⟩ := p
    by_cases hk : k1 = k
    · simp [hashInsert, hashFind, hk]
    · simp [hashInsert, hashFind, hk, ih k x]

/-! ## Queries: the claims -/

/-- C10: for an identifier node with value `k`, `findDefinition` returns the defining node
`d_st` of the single scope of `allObjDefs[k]` when that list has exactly one element, and
null when `k` has no entry or the list has another length; for the null node and for a
node that is neither a string nor an identifier it returns null. -/
theorem findDefinition_identifier (env : Env) (m : CodeModel) (fuel : Nat) (st : SynTree)
    (hid : st.d_tok.d_type = TokenType.Tok_identifier) :
    (∀ (o : ScopeId) (os : Scope), hashFind m.d_allObjDefs st.d_tok.d_val = some [o] →
        m.scopes[o]? = some os → findDefinition env m fuel (some st) = Except.ok os.d_st)
    ∧ (hashFind m.d_allObjDefs st.d_tok.d_val = none →
        findDefinition env m fuel (some st) = Except.ok none)
    ∧ (∀ l : List ScopeId, hashFind m.d_allObjDefs st.d_tok.d_val = some l → l.length ≠ 1 →
        findDefinition env m fuel (some st) = Except.ok none)
    ∧ findDefinition env m fuel none = Except.ok none
    ∧ (∀ other : SynTree, other.d_tok.d_type ≠ TokenType.Tok_string →
        other.d_tok.d_type ≠ TokenType.Tok_identifier →
        findDefinition env m fuel (some other) = Except.ok none) := by
  have hns : ¬ (st.d_tok.d_type = TokenType.Tok_string) := by rw [hid]; decide
  refine ⟨?_, ?_, ?_, rfl, ?_⟩
  · intro o os h1 h2
    simp [findDefinition, hns, hid, h1, CodeModel.scope, h2, bind, Except.bind, pure,
      Except.pure]
  · intro h1
    simp [findDefinition, hns, hid, h1, pure, Except.pure]
  · intro l h1 h2
    simp [findDefinition, hns, hid, h1, h2, pure, Except.pure]
  · intro other h1 h2
    simp [findDefinition, h1, h2, pure, Except.pure]

/-! ## The walk: the claims on calls -/

theorem qassert_true (b : Bool) (h : b = true) : qassert b = Except.ok () := by
  simp [qassert, h, pure, Except.pure]

/-- The static tables of the named objects and of the built-in functions are disjoint. -/
theorem namedObjs_knownFuncs_disjoint :
    ∀ k ∈ s_namedObjs.map String.toList, k ∉ s_knownFuncs.map String.toList := by
  decide

theorem contains_iff_mem (l : List QByteArray) (a : QByteArray) :
    l.contains a = true ↔ a ∈ l := by
  simp

/-- The dispatch of `call_` by the callee name, with the registries as `clear()` seeds them. -/
theorem call_dispatches (env : Env) (f : Nat) (st callee : SynTree) (sc : ScopeId)
    (m : CodeModel) (hseed : m.Seeded) (hlen : 3 ≤ st.d_children.length)
    (hc : st.d_children[0]? = some callee)
    (hid : callee.d_tok.d_type = TokenType.Tok_identifier) :
    call_ env (f + 1) st sc m =
      (match specCallRole callee.d_tok.d_val with
       | CallRole.Loop => loop_ env f st sc
          { m with d_allFuncRefs := hashAppend m.d_allFuncRefs callee.d_tok.d_val callee }
       | CallRole.Import => import_ env f st sc
          { m with d_allFuncRefs := hashAppend m.d_allFuncRefs callee.d_tok.d_val callee }
       | CallRole.NamedObject => namedObj_ env f st sc callee.d_tok.d_val
          { m with d_allFuncRefs := hashAppend m.d_allFuncRefs callee.d_tok.d_val callee }
       | CallRole.BuiltinFunction => function_ env f st sc callee.d_tok.d_val
          { m with d_allFuncRefs := hashAppend m.d_allFuncRefs callee.d_tok.d_val callee })
    ∧ hashValue (hashAppend m.d_allFuncRefs callee.d_tok.d_val callee) callee.d_tok.d_val
        = hashValue m.d_allFuncRefs callee.d_tok.d_val ++ [callee]
    ∧ (∀ k ∈ s_namedObjs.map String.toList, k ∉ s_knownFuncs.map String.toList)
    ∧ (specCallRole callee.d_tok.d_val = CallRole.BuiltinFunction ↔
        (callee.d_tok.d_val ∈ s_knownFuncs.map String.toList
          ∧ callee.d_tok.d_val ≠ "foreach".toList ∧ callee.d_tok.d_val ≠ "import".toList)) := by
  obtain ⟨h1, h2, h3, h4⟩ := hseed
  refine ⟨?_, hashValue_hashAppend_same _ _ _, namedObjs_knownFuncs_disjoint, ?_⟩
  · have hq : (decide (st.d_children.length ≥ 3)
        && st.typeAt 0 == some TokenType.Tok_identifier) = true := by
      simp [SynTree.typeAt, hc, hid, hlen]
    have hch : st.child 0 = Except.ok callee := by
      simp [SynTree.child, hc, pure, Except.pure]
    rw [call_]
    simp only [qassert_true _ hq, hch, bind, Except.bind, h1, h2, h3, h4, specCallRole]
    by_cases e1 : callee.d_tok.d_val = "foreach".toList
    · simp [e1]
    · by_cases e2 : callee.d_tok.d_val = "import".toList
      · simp [e1, e2]
      · simp only [e1, e2, if_false]
        by_cases e3 : (callee.d_tok.d_val ∈ s_namedObjs.map String.toList
            ∨ callee.d_tok.d_val ∉ s_knownFuncs.map String.toList)
        · have e4 : ((s_namedObjs.map String.toList).contains callee.d_tok.d_val
              || !(s_knownFuncs.map String.toList).contains callee.d_tok.d_val) = true := by
            rcases e3 with e | e
            · rw [(contains_iff_mem _ _).2 e]
              rfl
            · have : (s_knownFuncs.map String.toList).contains callee.d_tok.d_val = false := by
                cases hcon : (s_knownFuncs.map String.toList).contains callee.d_tok.d_val
                · rfl
                · exact absurd ((contains_iff_mem _ _).1 hcon) e
              rw [this]
              cases (s_namedObjs.map String.toList).contains callee.d_tok.d_val <;> rfl
          simp only [e3, e4, if_true]
        · have e5 : (s_namedObjs.map String.toList).contains callee.d_tok.d_val = false := by
            cases hcon : (s_namedObjs.map String.toList).contains callee.d_tok.d_val
            · rfl
            · exact absurd (Or.inl ((contains_iff_mem _ _).1 hcon)) e3
          have e6 : (s_knownFuncs.map String.toList).contains callee.d_tok.d_val = true := by
            apply (contains_iff_mem _ _).2
            by_contra hk
            exact e3 (Or.inr hk)
          simp only [e3, e5, e6, if_false, Bool.not_true, Bool.or_self, Bool.false_eq_true]
  · unfold specCallRole
    by_cases e1 : callee.d_tok.d_val = "foreach".toList
    · simp [e1]
    · by_cases e2 : callee.d_tok.d_val = "import".toList
      · simp [e1, e2]
      · simp only [e1, e2, if_false]
        by_cases e3 : (callee.d_tok.d_val ∈ s_namedObjs.map String.toList
            ∨ callee.d_tok.d_val ∉ s_knownFuncs.map String.toList)
        · simp only [e3, if_true]
          constructor
          · intro h; cases h
          · rintro ⟨hk, _, _⟩
            rcases e3 with e | e
            · exact absurd hk (namedObjs_knownFuncs_disjoint _ e)
            · exact absurd hk e
        · simp only [e3, if_false, true_iff]
          refine ⟨?_, e1, e2⟩
          by_contra hk
          exact e3 (Or.inr hk)

/-- C8: `call_` (with the registries as `clear()` seeds them) appends the callee node to
`allFuncRefs` under the callee name and then takes exactly the role that the callee name
has in the order `foreach`, `import`, named object or no built-in function, built-in
function; the static tables of named objects and built-in functions are disjoint. -/
theorem call_classifies (env : Env) (f : Nat) (st callee : SynTree) (sc : ScopeId)
    (m : CodeModel) (hseed : m.Seeded) (hlen : 3 ≤ st.d_children.length)
    (hc : st.d_children[0]? = some callee)
    (hid : callee.d_tok.d_type = TokenType.Tok_identifier) :
    call_ env (f + 1) st sc m =
      (match specCallRole callee.d_tok.d_val with
       | CallRole.Loop => loop_ env f st sc
          { m with d_allFuncRefs := hashAppend m.d_allFuncRefs callee.d_tok.d_val callee }
       | CallRole.Import => import_ env f st sc
          { m with d_allFuncRefs := hashAppend m.d_allFuncRefs callee.d_tok.d_val callee }
       | CallRole.NamedObject => namedObj_ env f st sc callee.d_tok.d_val
          { m with d_allFuncRefs := hashAppend m.d_allFuncRefs callee.d_tok.d_val callee }
       | CallRole.BuiltinFunction => function_ env f st sc callee.d_tok.d_val
          { m with d_allFuncRefs := hashAppend m.d_allFuncRefs callee.d_tok.d_val callee })
    ∧ hashValue (hashAppend m.d_allFuncRefs callee.d_tok.d_val callee) callee.d_tok.d_val
        = hashValue m.d_allFuncRefs callee.d_tok.d_val ++ [callee]
    ∧ (∀ k ∈ s_namedObjs.map String.toList, k ∉ s_knownFuncs.map String.toList)
    ∧ (specCallRole callee.d_tok.d_val = CallRole.BuiltinFunction ↔
        (callee.d_tok.d_val ∈ s_knownFuncs.map String.toList
          ∧ callee.d_tok.d_val ≠ "foreach".toList ∧ callee.d_tok.d_val ≠ "import".toList)) :=
  call_dispatches env f st callee sc m hseed hlen hc hid

/-! ## The walk: frame lemmas -/

theorem updateAt_length {α : Type} (f : α → α) :
    ∀ (l : List α) (i : Nat), (updateAt l i f).length = l.length := by
  intro l
  induction l with
  | nil => intro i; rfl
  | cons a as ih =>
    intro i
    cases i with
    | zero => rfl
    | succ i => simp [updateAt, ih i]

theorem updateAt_get_other {α : Type} (f : α → α) :
    ∀ (l : List α) (i j : Nat), j ≠ i → (updateAt l i f)[j]? = l[j]? := by
  intro l
  induction l with
  | nil => intro i j _; rfl
  | cons a as ih =>
    intro i j h
    cases i with
    | zero =>
      cases j with
      | zero => exact absurd rfl h
      | succ j => rfl
    | succ i =>
      cases j with
      | zero => simp [updateAt]
      | succ j =>
        have : j ≠ i := fun e => h (by rw [e])
        simpa [updateAt] using ih i j this

theorem updateAt_get_same {α : Type} (f : α → α) :
    ∀ (l : List α) (i : Nat), (updateAt l i f)[i]? = (l[i]?).map f := by
  intro l
  induction l with
  | nil => intro i; rfl
  | cons a as ih =>
    intro i
    cases i with
    | zero => simp [updateAt]
    | succ i => simpa [updateAt] using ih i

theorem Frame.refl (n : Nat) (sc : ScopeId) (m : CodeModel) (h : n ≤ m.scopes.length) :
    Frame n sc m m :=
  { base := h
    len := Nat.le_refl _
    others := fun _ _ _ => rfl
    self := fun s hs => ⟨s, hs, rfl, rfl, rfl, rfl, rfl, [], by simp, by simp⟩
    objDefs := fun _ => ⟨[], by simp, by simp⟩
    unnamed := ⟨[], by simp, by simp⟩
    funcRefs := fun _ => ⟨[], by simp⟩ }

theorem Frame.trans {n : Nat} {sc : ScopeId} {m m1 m2 : CodeModel}
    (h1 : Frame n sc m m1) (h2 : Frame n sc m1 m2) : Frame n sc m m2 :=
  { base := h1.base
    len := Nat.le_trans h1.len h2.len
    others := fun i hi hne => (h2.others i hi hne).trans (h1.others i hi hne)
    self := by
      intro s hs
      obtain ⟨s1, hs1, a1, a2, a3, a4, a5, e1, he1, hb1⟩ := h1.self s hs
      obtain ⟨s2, hs2, b1, b2, b3, b4, b5, e2, he2, hb2⟩ := h2.self s1 hs1
      refine ⟨s2, hs2, b1.trans a1, b2.trans a2, b3.trans a3, b4.trans a4, b5.trans a5,
        e1 ++ e2, by rw [he2, he1, List.append_assoc], ?_⟩
      intro i hi
      rcases List.mem_append.1 hi with h | h
      · exact hb1 i h
      · exact hb2 i h
    objDefs := by
      intro k
      obtain ⟨e1, he1, hb1⟩ := h1.objDefs k
      obtain ⟨e2, he2, hb2⟩ := h2.objDefs k
      refine ⟨e1 ++ e2, by rw [he2, he1, List.append_assoc], ?_⟩
      intro i hi
      rcases List.mem_append.1 hi with h | h
      · exact hb1 i h
      · exact hb2 i h
    unnamed := by
      obtain ⟨e1, he1, hb1⟩ := h1.unnamed
      obtain ⟨e2, he2, hb2⟩ := h2.unnamed
      refine ⟨e1 ++ e2, by rw [he2, he1, List.append_assoc], ?_⟩
      intro i hi
      rcases List.mem_append.1 hi with h | h
      · exact hb1 i h
      · exact hb2 i h
    funcRefs := by
      intro k
      obtain ⟨e1, he1⟩ := h1.funcRefs k
      obtain ⟨e2, he2⟩ := h2.funcRefs k
      exact ⟨e1 ++ e2, by rw [he2, he1, List.append_assoc]⟩ }

/-- A walk under `sc1` that began later, at `m1`, is framed by the base `n` and the scope
`sc` when `sc1` is `sc` or a scope at or above `n`. -/
theorem Frame.lift {n : Nat} {sc sc1 : ScopeId} {m1 m2 : CodeModel}
    (h : Frame m1.scopes.length sc1 m1 m2) (hn : n ≤ m1.scopes.length)
    (hsc : sc1 = sc ∨ n ≤ sc1) : Frame n sc m1 m2 :=
  { base := hn
    len := h.len
    others := by
      intro i hi hne
      apply h.others i (by omega)
      rcases hsc with e | e
      · rw [e]; exact hne
      · omega
    self := by
      intro s hs
      rcases hsc with e | e
      · subst e
        obtain ⟨s1, hs1, a1, a2, a3, a4, a5, e1, he1, hb1⟩ := h.self s hs
        exact ⟨s1, hs1, a1, a2, a3, a4, a5, e1, he1, fun i hi => Nat.le_trans hn (hb1 i hi)⟩
      · by_cases heq : sc1 = sc
        · subst heq
          obtain ⟨s1, hs1, a1, a2, a3, a4, a5, e1, he1, hb1⟩ := h.self s hs
          exact ⟨s1, hs1, a1, a2, a3, a4, a5, e1, he1,
            fun i hi => Nat.le_trans hn (hb1 i hi)⟩
        · have hlt : sc < m1.scopes.length := by
            have := List.getElem?_eq_some_iff.1 hs
            exact this.1
          have := h.others sc hlt (fun e2 => heq e2.symm)
          exact ⟨s, by rw [this]; exact hs, rfl, rfl, rfl, rfl, rfl, [], by simp, by simp⟩
    objDefs := by
      intro k
      obtain ⟨e1, he1, hb1⟩ := h.objDefs k
      exact ⟨e1, he1, fun i hi => Nat.le_trans hn (hb1 i hi)⟩
    unnamed := by
      obtain ⟨e1, he1, hb1⟩ := h.unnamed
      exact ⟨e1, he1, fun i hi => Nat.le_trans hn (hb1 i hi)⟩
    funcRefs := h.funcRefs }

/-- A frame extended by a later walk under `sc1`. -/
theorem Frame.step {n : Nat} {sc sc1 : ScopeId} {m m1 m2 : CodeModel}
    (h1 : Frame n sc m m1) (h2 : Frame m1.scopes.length sc1 m1 m2)
    (hsc : sc1 = sc ∨ n ≤ sc1) : Frame n sc m m2 :=
  h1.trans (h2.lift (Nat.le_trans h1.base h1.len) hsc)

/-- A change that leaves the scopes and the three tracked hashes as they are. -/
theorem Frame.of_eq {n : Nat} {sc : ScopeId} {m m2 : CodeModel} (hn : n ≤ m.scopes.length)
    (h1 : m2.scopes = m.scopes) (h2 : m2.d_allObjDefs = m.d_allObjDefs)
    (h3 : m2.d_allUnnamedObjs = m.d_allUnnamedObjs)
    (h4 : m2.d_allFuncRefs = m.d_allFuncRefs) : Frame n sc m m2 :=
  { base := hn
    len := by rw [h1]
    others := fun _ _ _ => by rw [h1]
    self := fun s hs => ⟨s, by rw [h1]; exact hs, rfl, rfl, rfl, rfl, rfl, [], by simp, by simp⟩
    objDefs := fun _ => ⟨[], by rw [h2]; simp, by simp⟩
    unnamed := ⟨[], by rw [h3]; simp, by simp⟩
    funcRefs := fun _ => ⟨[], by rw [h4]; simp⟩ }

theorem Frame.funcRef {n : Nat} {sc : ScopeId} {m : CodeModel} (hn : n ≤ m.scopes.length)
    (k : QByteArray) (x : SynTree) :
    Frame n sc m { m with d_allFuncRefs := hashAppend m.d_allFuncRefs k x } :=
  { base := hn
    len := Nat.le_refl _
    others := fun _ _ _ => rfl
    self := fun s hs => ⟨s, hs, rfl, rfl, rfl, rfl, rfl, [], by simp, by simp⟩
    objDefs := fun _ => ⟨[], by simp, by simp⟩
    unnamed := ⟨[], by simp, by simp⟩
    funcRefs := by
      intro k2
      by_cases h : k2 = k
      · subst h
        exact ⟨[x], hashValue_hashAppend_same _ _ _⟩
      · exact ⟨[], by simp [hashValue_hashAppend_other _ _ _ _ h]⟩ }

theorem Frame.objDef {n : Nat} {sc : ScopeId} {m : CodeModel} (hn : n ≤ m.scopes.length)
    (k : QByteArray) (j : ScopeId) (hj : n ≤ j) :
    Frame n sc m { m with d_allObjDefs := hashAppend m.d_allObjDefs k j } :=
  { base := hn
    len := Nat.le_refl _
    others := fun _ _ _ => rfl
    self := fun s hs => ⟨s, hs, rfl, rfl, rfl, rfl, rfl, [], by simp, by simp⟩
    objDefs := by
      intro k2
      by_cases h : k2 = k
      · subst h
        exact ⟨[j], hashValue_hashAppend_same _ _ _, by simpa using hj⟩
      · exact ⟨[], by simp [hashValue_hashAppend_other _ _ _ _ h], by simp⟩
    unnamed := ⟨[], by simp, by simp⟩
    funcRefs := fun _ => ⟨[], by simp⟩ }

theorem Frame.unnamedObj {n : Nat} {sc : ScopeId} {m : CodeModel} (hn : n ≤ m.scopes.length)
    (j : ScopeId) (hj : n ≤ j) :
    Frame n sc m { m with d_allUnnamedObjs := m.d_allUnnamedObjs ++ [j] } :=
  { base := hn
    len := Nat.le_refl _
    others := fun _ _ _ => rfl
    self := fun s hs => ⟨s, hs, rfl, rfl, rfl, rfl, rfl, [], by simp, by simp⟩
    objDefs := fun _ => ⟨[], by simp, by simp⟩
    unnamed := ⟨[j], rfl, by simpa using hj⟩
    funcRefs := fun _ => ⟨[], by simp⟩ }

/-- An update of the current scope that keeps its identity and adds children at or above
`n` only. -/
theorem Frame.modifySelf {n : Nat} {sc : ScopeId} {m : CodeModel} (hn : n ≤ m.scopes.length)
    (g : Scope → Scope)
    (hg : ∀ s, (g s).d_outer = s.d_outer ∧ (g s).d_kind = s.d_kind ∧ (g s).d_name = s.d_name
      ∧ (g s).d_st = s.d_st ∧ (g s).d_params = s.d_params
      ∧ ∃ ext, (g s).d_allScopes = s.d_allScopes ++ ext ∧ ∀ i ∈ ext, n ≤ i) :
    Frame n sc m (m.modifyScope sc g) :=
  { base := hn
    len := by simp [CodeModel.modifyScope, updateAt_length]
    others := fun i _ hne => by
      simp only [CodeModel.modifyScope]
      exact updateAt_get_other g m.scopes sc i hne
    self := by
      intro s hs
      refine ⟨g s, ?_, (hg s).1, (hg s).2.1, (hg s).2.2.1, (hg s).2.2.2.1, (hg s).2.2.2.2.1,
        (hg s).2.2.2.2.2⟩
      simp only [CodeModel.modifyScope]
      rw [updateAt_get_same, hs]
      rfl
    objDefs := fun _ => ⟨[], by simp [CodeModel.modifyScope], by simp⟩
    unnamed := ⟨[], by simp [CodeModel.modifyScope], by simp⟩
    funcRefs := fun _ => ⟨[], by simp [CodeModel.modifyScope]⟩ }

/-- An update of a scope at or above `n` other than the current one. -/
theorem Frame.modifyNew {n : Nat} {sc : ScopeId} {m : CodeModel} (hn : n ≤ m.scopes.length)
    (j : ScopeId) (hj : n ≤ j) (hne : j ≠ sc) (g : Scope → Scope) :
    Frame n sc m (m.modifyScope j g) :=
  { base := hn
    len := by simp [CodeModel.modifyScope, updateAt_length]
    others := fun i hi _ => by
      simp only [CodeModel.modifyScope]
      exact updateAt_get_other g m.scopes j i (by omega)
    self := by
      intro s hs
      refine ⟨s, ?_, rfl, rfl, rfl, rfl, rfl, [], by simp, by simp⟩
      simp only [CodeModel.modifyScope]
      rw [updateAt_get_other g m.scopes j sc (fun e => hne e.symm)]
      exact hs
    objDefs := fun _ => ⟨[], by simp [CodeModel.modifyScope], by simp⟩
    unnamed := ⟨[], by simp [CodeModel.modifyScope], by simp⟩
    funcRefs := fun _ => ⟨[], by simp [CodeModel.modifyScope]⟩ }

/-- A scope added at the end of the arena. -/
theorem Frame.addScope {n : Nat} {sc : ScopeId} {m m2 : CodeModel} (hn : n ≤ m.scopes.length)
    (fresh : Scope) (h1 : m2.scopes = m.scopes ++ [fresh])
    (h2 : m2.d_allObjDefs = m.d_allObjDefs) (h3 : m2.d_allUnnamedObjs = m.d_allUnnamedObjs)
    (h4 : m2.d_allFuncRefs = m.d_allFuncRefs) : Frame n sc m m2 :=
  { base := hn
    len := by rw [h1]; simp
    others := fun i hi _ => by
      rw [h1]
      exact List.getElem?_append_left (by omega)
    self := by
      intro s hs
      refine ⟨s, ?_, rfl, rfl, rfl, rfl, rfl, [], by simp, by simp⟩
      have hlt : sc < m.scopes.length := (List.getElem?_eq_some_iff.1 hs).1
      rw [h1, List.getElem?_append_left hlt]
      exact hs
    objDefs := fun _ => ⟨[], by rw [h2]; simp, by simp⟩
    unnamed := ⟨[], by rw [h3]; simp, by simp⟩
    funcRefs := fun _ => ⟨[], by rw [h4]; simp⟩ }

theorem newScope_snd (m : CodeModel) (sc : ScopeId) (st : SynTree) (kind : QByteArray) :
    (newScope m sc st kind).2 = m.scopes.length := rfl

theorem newScope_length (m : CodeModel) (sc : ScopeId) (st : SynTree) (kind : QByteArray) :
    (newScope m sc st kind).1.scopes.length = m.scopes.length + 1 := by
  simp [newScope, CodeModel.modifyScope, updateAt_length]

/-- The creation of a scope by `namedObj_` and `function_`. -/
theorem Frame.newScope {n : Nat} {sc : ScopeId} {m : CodeModel} (hn : n ≤ m.scopes.length)
    (hsc : sc < m.scopes.length) (st : SynTree) (kind : QByteArray) :
    Frame n sc m (newScope m sc st kind).1 := by
  have f1 : Frame n sc m { m with scopes := m.scopes ++ [({ d_outer := some sc } : Scope)] } :=
    Frame.addScope hn _ rfl rfl rfl rfl
  have f2 := @Frame.modifySelf n sc _ (Nat.le_trans f1.base f1.len)
    (fun s => { s with d_allScopes := s.d_allScopes ++ [m.scopes.length] })
    (fun s => ⟨rfl, rfl, rfl, rfl, rfl, [m.scopes.length], rfl, by simpa using hn⟩)
  have f3 := @Frame.modifyNew n sc _ (Nat.le_trans f2.base f2.len) m.scopes.length hn
    (Nat.ne_of_gt hsc) (fun s => { s with d_st := some st, d_kind := kind })
  exact (f1.trans f2).trans f3

theorem bind_ok {α β : Type} {x : Walk α} {k : α → Walk β} {b : β}
    (h : (x >>= k) = Except.ok b) : ∃ a, x = Except.ok a ∧ k a = Except.ok b := by
  cases x with
  | error e => simp [bind, Except.bind] at h
  | ok a => exact ⟨a, rfl, h⟩

theorem qassert_ok {b : Bool} {u : Unit} (h : qassert b = Except.ok u) : b = true := by
  cases b with
  | false => simp [qassert] at h
  | true => rfl

theorem pure_ok {α : Type} {a b : α} (h : (pure a : Walk α) = Except.ok b) : a = b := by
  simpa [pure, Except.pure] using h

theorem scope_ok {m : CodeModel} {sc : ScopeId} {s : Scope}
    (h : m.scope sc = Except.ok s) : m.scopes[sc]? = some s := by
  unfold CodeModel.scope at h
  split at h
  · rename_i s1 hs1
    have := pure_ok h
    rw [hs1, this]
  · simp at h

theorem scope_lt {m : CodeModel} {sc : ScopeId} {s : Scope}
    (h : m.scope sc = Except.ok s) : sc < m.scopes.length :=
  (List.getElem?_eq_some_iff.1 (scope_ok h)).1

theorem Frame.varRhs {n : Nat} {sc : ScopeId} {st : SynTree} {m m1 : CodeModel}
    (hn : n ≤ m.scopes.length) (h : varRhs st sc m = Except.ok m1) : Frame n sc m m1 := by
  unfold Gn.varRhs at h
  obtain ⟨_, _, h⟩ := bind_ok h
  obtain ⟨_, _, h⟩ := bind_ok h
  have := pure_ok h
  subst this
  have f1 := @Frame.modifySelf n sc m hn
    (fun s => { s with d_rhs := hashAppend s.d_rhs st.d_tok.d_val st })
    (fun s => ⟨rfl, rfl, rfl, rfl, rfl, [], by simp, by simp⟩)
  exact f1.trans (Frame.of_eq (Nat.le_trans f1.base f1.len) rfl rfl rfl rfl)

theorem Frame.varLhs {n : Nat} {sc : ScopeId} {st : SynTree} {m m1 : CodeModel}
    (hn : n ≤ m.scopes.length) (h : varLhs st sc m = Except.ok m1) : Frame n sc m m1 := by
  unfold Gn.varLhs at h
  obtain ⟨_, _, h⟩ := bind_ok h
  obtain ⟨s, _, h⟩ := bind_ok h
  have f1 := @Frame.modifySelf n sc m hn
    (fun s => { s with d_lhs := hashAppend s.d_lhs st.d_tok.d_val st })
    (fun s => ⟨rfl, rfl, rfl, rfl, rfl, [], by simp, by simp⟩)
  dsimp only at h
  split at h
  · have := pure_ok h
    subst this
    exact f1.trans (Frame.of_eq (Nat.le_trans f1.base f1.len) rfl rfl rfl rfl)
  · have := pure_ok h
    subst this
    exact f1.trans (Frame.of_eq (Nat.le_trans f1.base f1.len) rfl rfl rfl rfl)

theorem Frame.foldlM {n : Nat} {sc : ScopeId} (step : CodeModel → SynTree → Walk CodeModel)
    (hstep : ∀ x m m1, step m x = Except.ok m1 → Frame m.scopes.length sc m m1) :
    ∀ (l : List SynTree) (m m1 : CodeModel), n ≤ m.scopes.length →
      l.foldlM step m = Except.ok m1 → Frame n sc m m1 := by
  intro l
  induction l with
  | nil =>
    intro m m1 hn h
    have := pure_ok h
    subst this
    exact Frame.refl n sc m hn
  | cons x xs ih =>
    intro m m1 hn h
    rw [List.foldlM_cons] at h
    obtain ⟨m2, h2, h⟩ := bind_ok h
    have f1 : Frame n sc m m2 := (hstep x m m2 h2).lift hn (Or.inl rfl)
    exact f1.trans (ih m2 m1 (Nat.le_trans f1.base f1.len) h)

theorem Frame.stringLabel {n : Nat} {sc : ScopeId} (m : CodeModel) (st : SynTree)
    (hn : n ≤ m.scopes.length) : Frame n sc m (stringLabel m st) := by
  unfold Gn.stringLabel
  dsimp only
  split_ifs <;>
    first
    | exact Frame.refl n sc m hn
    | exact Frame.funcRef hn _ _
    | exact Frame.of_eq hn rfl rfl rfl rfl
    | exact (Frame.funcRef hn _ _).trans (Frame.of_eq hn rfl rfl rfl rfl)

/-! ### The frame of every walk function, from the frames at the fuel below -/

theorem frame_statementList (env : Env) (f : Nat) (IH : FrameAll env f)
    {st : SynTree} {sc : ScopeId} {m m1 : CodeModel}
    (h : statementList env (f + 1) st sc m = Except.ok m1) :
    Frame m.scopes.length sc m m1 := by
  rw [statementList] at h
  obtain ⟨_, _, h⟩ := bind_ok h
  exact Frame.foldlM _ (fun x m m1 hx => IH.statement x sc m m1 hx) _ _ _ (Nat.le_refl _) h

theorem frame_statement (env : Env) (f : Nat) (IH : FrameAll env f)
    {st : SynTree} {sc : ScopeId} {m m1 : CodeModel}
    (h : statement env (f + 1) st sc m = Except.ok m1) :
    Frame m.scopes.length sc m m1 := by
  rw [statement] at h
  obtain ⟨_, _, h⟩ := bind_ok h
  obtain ⟨c, _, h⟩ := bind_ok h
  split at h
  · exact IH.assignment_ _ _ _ _ h
  · exact IH.call_ _ _ _ _ h
  · exact IH.condition_ _ _ _ _ h
  · have := pure_ok h
    subst this
    exact Frame.refl _ _ _ (Nat.le_refl _)

theorem frame_call_ (env : Env) (f : Nat) (IH : FrameAll env f)
    {st : SynTree} {sc : ScopeId} {m m1 : CodeModel}
    (h : call_ env (f + 1) st sc m = Except.ok m1) :
    Frame m.scopes.length sc m m1 := by
  rw [call_] at h
  obtain ⟨_, _, h⟩ := bind_ok h
  obtain ⟨callee, _, h⟩ := bind_ok h
  dsimp only at h
  have f1 : Frame m.scopes.length sc m
      { m with d_allFuncRefs := hashAppend m.d_allFuncRefs callee.d_tok.d_val callee } :=
    Frame.funcRef (Nat.le_refl _) _ _
  split at h
  · exact f1.step (IH.loop_ _ _ _ _ h) (Or.inl rfl)
  · split at h
    · exact f1.step (IH.import_ _ _ _ _ h) (Or.inl rfl)
    · split at h
      · exact f1.step (IH.namedObj_ _ _ _ _ _ h) (Or.inl rfl)
      · exact f1.step (IH.function_ _ _ _ _ _ h) (Or.inl rfl)

theorem frame_expr (env : Env) (f : Nat) (IH : FrameAll env f)
    {st : SynTree} {sc : ScopeId} {m m1 : CodeModel}
    (h : expr env (f + 1) st sc m = Except.ok m1) :
    Frame m.scopes.length sc m m1 := by
  rw [expr] at h
  obtain ⟨_, _, h⟩ := bind_ok h
  obtain ⟨c, _, h⟩ := bind_ok h
  obtain ⟨m2, h2, h⟩ := bind_ok h
  have f1 := IH.unaryExpr _ _ _ _ h2
  split at h
  · split at h
    · obtain ⟨c2, _, h⟩ := bind_ok h
      exact f1.step (IH.exprNlr _ _ _ _ h) (Or.inl rfl)
    · simp [throw, throwThe, MonadExceptOf.throw] at h
  · have := pure_ok h
    subst this
    exact f1

theorem frame_exprList (env : Env) (f : Nat) (IH : FrameAll env f)
    {st : SynTree} {sc : ScopeId} {m m1 : CodeModel}
    (h : exprList env (f + 1) st sc m = Except.ok m1) :
    Frame m.scopes.length sc m m1 := by
  rw [exprList] at h
  obtain ⟨_, _, h⟩ := bind_ok h
  exact Frame.foldlM _ (fun x m m1 hx => IH.expr x sc m m1 hx) _ _ _ (Nat.le_refl _) h

theorem frame_block (env : Env) (f : Nat) (IH : FrameAll env f)
    {st : SynTree} {sc : ScopeId} {m m1 : CodeModel}
    (h : block env (f + 1) st sc m = Except.ok m1) :
    Frame m.scopes.length sc m m1 := by
  rw [block] at h
  obtain ⟨_, _, h⟩ := bind_ok h
  obtain ⟨c, _, h⟩ := bind_ok h
  exact IH.statementList _ _ _ _ h

theorem frame_condition_ (env : Env) (f : Nat) (IH : FrameAll env f)
    {st : SynTree} {sc : ScopeId} {m m1 : CodeModel}
    (h : condition_ env (f + 1) st sc m = Except.ok m1) :
    Frame m.scopes.length sc m m1 := by
  rw [condition_] at h
  obtain ⟨_, _, h⟩ := bind_ok h
  obtain ⟨c2, _, h⟩ := bind_ok h
  obtain ⟨m2, h2, h⟩ := bind_ok h
  obtain ⟨c4, _, h⟩ := bind_ok h
  obtain ⟨m3, h3, h⟩ := bind_ok h
  have f1 := (IH.expr _ _ _ _ h2).step (IH.block _ _ _ _ h3) (Or.inl rfl)
  split at h
  · obtain ⟨_, _, h⟩ := bind_ok h
    obtain ⟨c6, _, h⟩ := bind_ok h
    split at h
    · exact f1.step (IH.condition_ _ _ _ _ h) (Or.inl rfl)
    · exact f1.step (IH.block _ _ _ _ h) (Or.inl rfl)
  · have := pure_ok h
    subst this
    exact f1

theorem frame_assignment_ (env : Env) (f : Nat) (IH : FrameAll env f)
    {st : SynTree} {sc : ScopeId} {m m1 : CodeModel}
    (h : assignment_ env (f + 1) st sc m = Except.ok m1) :
    Frame m.scopes.length sc m m1 := by
  rw [assignment_] at h
  obtain ⟨_, _, h⟩ := bind_ok h
  obtain ⟨c, _, h⟩ := bind_ok h
  obtain ⟨m2, h2, h⟩ := bind_ok h
  obtain ⟨c2, _, h⟩ := bind_ok h
  exact (IH.lvalue _ _ _ _ h2).step (IH.expr _ _ _ _ h) (Or.inl rfl)

theorem throw_ok {α : Type} {e : WalkError} {a : α}
    (h : (throw e : Walk α) = Except.ok a) : False := by
  simp [throw, throwThe, MonadExceptOf.throw] at h

theorem frame_lvalue (env : Env) (f : Nat) (IH : FrameAll env f)
    {st : SynTree} {sc : ScopeId} {m m1 : CodeModel}
    (h : lvalue env (f + 1) st sc m = Except.ok m1) :
    Frame m.scopes.length sc m m1 := by
  rw [lvalue] at h
  obtain ⟨_, _, h⟩ := bind_ok h
  obtain ⟨id, _, h⟩ := bind_ok h
  split at h
  · split at h
    · obtain ⟨_, _, h⟩ := bind_ok h
      obtain ⟨m2, h2, h⟩ := bind_ok h
      obtain ⟨c2, _, h⟩ := bind_ok h
      exact (Frame.varLhs (Nat.le_refl _) h2).step (IH.expr _ _ _ _ h) (Or.inl rfl)
    · split at h
      · obtain ⟨_, _, h⟩ := bind_ok h
        obtain ⟨m2, h2, h⟩ := bind_ok h
        obtain ⟨c2, _, h⟩ := bind_ok h
        have f1 : Frame m.scopes.length sc m m2 := Frame.varRhs (Nat.le_refl _) h2
        exact f1.trans (Frame.varLhs (Nat.le_trans f1.base f1.len) h)
      · exact absurd h (fun h => throw_ok h)
  · exact Frame.varLhs (Nat.le_refl _) h

theorem frame_primaryExpr (env : Env) (f : Nat) (IH : FrameAll env f)
    {st : SynTree} {sc : ScopeId} {m m1 : CodeModel}
    (h : primaryExpr env (f + 1) st sc m = Except.ok m1) :
    Frame m.scopes.length sc m m1 := by
  rw [primaryExpr] at h
  obtain ⟨_, _, h⟩ := bind_ok h
  obtain ⟨c, _, h⟩ := bind_ok h
  split at h
  · exact IH.call_ _ _ _ _ h
  · obtain ⟨r, hr, h⟩ := bind_ok h
    obtain ⟨m2, st2⟩ := r
    have := pure_ok h
    subst this
    exact IH.string _ _ _ _ _ hr
  · obtain ⟨_, _, h⟩ := bind_ok h
    obtain ⟨c1, _, h⟩ := bind_ok h
    exact IH.expr _ _ _ _ h
  · obtain ⟨_, _, h⟩ := bind_ok h
    obtain ⟨c1, _, h⟩ := bind_ok h
    exact IH.block _ _ _ _ h
  · exact Frame.varRhs (Nat.le_refl _) h
  · exact IH.arrayAccess _ _ _ _ h
  · exact IH.scopeAccess _ _ _ _ h
  · exact IH.list _ _ _ _ h
  · have := pure_ok h
    subst this
    exact Frame.refl _ _ _ (Nat.le_refl _)

theorem frame_unaryExpr (env : Env) (f : Nat) (IH : FrameAll env f)
    {st : SynTree} {sc : ScopeId} {m m1 : CodeModel}
    (h : unaryExpr env (f + 1) st sc m = Except.ok m1) :
    Frame m.scopes.length sc m m1 := by
  rw [unaryExpr] at h
  obtain ⟨_, _, h⟩ := bind_ok h
  split at h
  · obtain ⟨c, _, h⟩ := bind_ok h
    exact IH.primaryExpr _ _ _ _ h
  · split at h
    · obtain ⟨_, _, h⟩ := bind_ok h
      obtain ⟨c, _, h⟩ := bind_ok h
      exact IH.unaryExpr _ _ _ _ h
    · exact absurd h (fun h => throw_ok h)

theorem frame_exprNlr (env : Env) (f : Nat) (IH : FrameAll env f)
    {st : SynTree} {sc : ScopeId} {m m1 : CodeModel}
    (h : exprNlr env (f + 1) st sc m = Except.ok m1) :
    Frame m.scopes.length sc m m1 := by
  rw [exprNlr] at h
  obtain ⟨_, _, h⟩ := bind_ok h
  obtain ⟨_, _, h⟩ := bind_ok h
  obtain ⟨c, _, h⟩ := bind_ok h
  obtain ⟨m2, h2, h⟩ := bind_ok h
  have f1 := IH.expr _ _ _ _ h2
  split at h
  · split at h
    · obtain ⟨c2, _, h⟩ := bind_ok h
      exact f1.step (IH.exprNlr _ _ _ _ h) (Or.inl rfl)
    · exact absurd h (fun h => throw_ok h)
  · have := pure_ok h
    subst this
    exact f1

theorem frame_arrayAccess (env : Env) (f : Nat) (IH : FrameAll env f)
    {st : SynTree} {sc : ScopeId} {m m1 : CodeModel}
    (h : arrayAccess env (f + 1) st sc m = Except.ok m1) :
    Frame m.scopes.length sc m m1 := by
  rw [arrayAccess] at h
  obtain ⟨_, _, h⟩ := bind_ok h
  obtain ⟨c, _, h⟩ := bind_ok h
  obtain ⟨m2, h2, h⟩ := bind_ok h
  obtain ⟨c2, _, h⟩ := bind_ok h
  exact (Frame.varRhs (Nat.le_refl _) h2).step (IH.expr _ _ _ _ h) (Or.inl rfl)

theorem frame_scopeAccess (env : Env) (f : Nat)
    {st : SynTree} {sc : ScopeId} {m m1 : CodeModel}
    (h : scopeAccess env f st sc m = Except.ok m1) :
    Frame m.scopes.length sc m m1 := by
  unfold scopeAccess at h
  split at h
  · exact absurd h (fun h => throw_ok h)
  · obtain ⟨_, _, h⟩ := bind_ok h
    obtain ⟨c, _, h⟩ := bind_ok h
    obtain ⟨m2, h2, h⟩ := bind_ok h
    obtain ⟨c2, _, h⟩ := bind_ok h
    have f1 : Frame m.scopes.length sc m m2 := Frame.varRhs (Nat.le_refl _) h2
    exact f1.trans (Frame.varRhs (Nat.le_trans f1.base f1.len) h)

theorem frame_list (env : Env) (f : Nat) (IH : FrameAll env f)
    {st : SynTree} {sc : ScopeId} {m m1 : CodeModel}
    (h : list env (f + 1) st sc m = Except.ok m1) :
    Frame m.scopes.length sc m m1 := by
  rw [list] at h
  obtain ⟨_, _, h⟩ := bind_ok h
  exact Frame.foldlM _ (fun x m m1 hx => IH.expr x sc m m1 hx) _ _ _ (Nat.le_refl _) h

theorem Frame.error {n : Nat} {sc : ScopeId} (m : CodeModel) (hn : n ≤ m.scopes.length)
    (src : ErrSource) (msg : String) : Frame n sc m (m.error src msg) :=
  Frame.of_eq hn rfl rfl rfl rfl

theorem Frame.warning {n : Nat} {sc : ScopeId} (m : CodeModel) (hn : n ≤ m.scopes.length)
    (src : ErrSource) (msg : String) : Frame n sc m (m.warning src msg) :=
  Frame.of_eq hn rfl rfl rfl rfl

theorem Frame.after_eq {sc : ScopeId} {m m1 m2 : CodeModel}
    (h : Frame m1.scopes.length sc m1 m2)
    (h1 : m1.scopes = m.scopes) (h2 : m1.d_allObjDefs = m.d_allObjDefs)
    (h3 : m1.d_allUnnamedObjs = m.d_allUnnamedObjs)
    (h4 : m1.d_allFuncRefs = m.d_allFuncRefs) : Frame m.scopes.length sc m m2 :=
  (@Frame.of_eq m.scopes.length sc m m1 (Nat.le_refl _) h1 h2 h3 h4).step h (Or.inl rfl)

theorem frame_stringLoop (env : Env) (f : Nat) (IH : FrameAll env f)
    {st : SynTree} {sc : ScopeId} {pos : Int} {m m1 : CodeModel} {st1 : SynTree} {b : Bool}
    (h : stringLoop env (f + 1) st sc pos m = Except.ok (m1, st1, b)) :
    Frame m.scopes.length sc m m1 := by
  rw [stringLoop] at h
  dsimp only at h
  split at h
  · split at h
    · split at h
      · split at h
        · have := pure_ok h
          cases this
          exact Frame.error m (Nat.le_refl _) _ _
        · obtain ⟨r, hr, h⟩ := bind_ok h
          obtain ⟨m2, st2⟩ := r
          exact (IH.stringVar_ _ _ _ _ _ _ _ hr).step (IH.stringLoop _ _ _ _ _ _ _ h)
            (Or.inl rfl)
      · split at h
        · exact IH.stringLoop _ _ _ _ _ _ _ h
        · obtain ⟨r, hr, h⟩ := bind_ok h
          obtain ⟨m2, st2⟩ := r
          exact (IH.stringVar_ _ _ _ _ _ _ _ hr).step (IH.stringLoop _ _ _ _ _ _ _ h)
            (Or.inl rfl)
    · exact IH.stringLoop _ _ _ _ _ _ _ h
  · have := pure_ok h
    cases this
    exact Frame.refl _ _ _ (Nat.le_refl _)

theorem frame_string (env : Env) (f : Nat) (IH : FrameAll env f)
    {st : SynTree} {sc : ScopeId} {m m1 : CodeModel} {st1 : SynTree}
    (h : string env (f + 1) st sc m = Except.ok (m1, st1)) :
    Frame m.scopes.length sc m m1 := by
  rw [string] at h
  obtain ⟨_, _, h⟩ := bind_ok h
  obtain ⟨r, hr, h⟩ := bind_ok h
  obtain ⟨m2, st2, b⟩ := r
  have f1 := IH.stringLoop _ _ _ _ _ _ _ hr
  dsimp only at h
  split at h
  · have e1 : stringLabel m2 st2 = m1 := congrArg Prod.fst (pure_ok h)
    rw [← e1]
    exact f1.trans (Frame.stringLabel m2 st2 (Nat.le_trans f1.base f1.len))
  · have e1 : m2 = m1 := congrArg Prod.fst (pure_ok h)
    rw [← e1]
    exact f1

theorem frame_stringVar_ (env : Env) (f : Nat) (IH : FrameAll env f)
    {st : SynTree} {sc : ScopeId} {pos len : Int} {m m1 : CodeModel} {st1 : SynTree}
    (h : stringVar_ env (f + 1) st sc pos len m = Except.ok (m1, st1)) :
    Frame m.scopes.length sc m m1 := by
  rw [stringVar_] at h
  dsimp only at h
  have f0 : Frame m.scopes.length sc m
      { m with d_errs := m.d_errs ++ (env.parsePrimaryExpr (mid st.d_tok.d_val pos len)).2 } :=
    Frame.of_eq (Nat.le_refl _) rfl rfl rfl rfl
  obtain ⟨_, _, h⟩ := bind_ok h
  split at h
  · have := pure_ok h
    cases this
    exact f0
  · obtain ⟨_, _, h⟩ := bind_ok h
    obtain ⟨c, _, h⟩ := bind_ok h
    split at h
    · obtain ⟨_, _, h⟩ := bind_ok h
      obtain ⟨m2, h2, h⟩ := bind_ok h
      obtain ⟨c2, _, h⟩ := bind_ok h
      have := pure_ok h
      cases this
      exact f0.step (IH.primaryExpr _ _ _ _ h2) (Or.inl rfl)
    · have := pure_ok h
      cases this
      exact f0.trans (Frame.error _ (Nat.le_trans f0.base f0.len) _ _)

theorem frame_loop_ (env : Env) (f : Nat) (IH : FrameAll env f)
    {st : SynTree} {sc : ScopeId} {m m1 : CodeModel}
    (h : loop_ env (f + 1) st sc m = Except.ok m1) :
    Frame m.scopes.length sc m m1 := by
  rw [loop_] at h
  obtain ⟨c2, _, h⟩ := bind_ok h
  obtain ⟨lastc, _, h⟩ := bind_ok h
  split at h
  · have := pure_ok h
    subst this
    exact Frame.error m (Nat.le_refl _) _ _
  · obtain ⟨_, _, h⟩ := bind_ok h
    split at h
    · have := pure_ok h
      subst this
      exact Frame.error m (Nat.le_refl _) _ _
    · obtain ⟨v, _, h⟩ := bind_ok h
      dsimp only at h
      obtain ⟨e, _, h⟩ := bind_ok h
      obtain ⟨m2, h2, h⟩ := bind_ok h
      split at h2
      · have f0 : Frame m.scopes.length sc m
            (m.error ErrSource.Syntax "invalid loop variable in foreach statement") :=
          Frame.error m (Nat.le_refl _) _ _
        exact (f0.step (IH.expr _ _ _ _ h2) (Or.inl rfl)).step (IH.block _ _ _ _ h)
          (Or.inl rfl)
      · have f1 := IH.expr _ _ _ _ h2
        have f0 : Frame m.scopes.length sc m m2 := Frame.after_eq f1 rfl rfl rfl rfl
        exact f0.step (IH.block _ _ _ _ h) (Or.inl rfl)

theorem frame_function_ (env : Env) (f : Nat) (IH : FrameAll env f)
    {st : SynTree} {sc : ScopeId} {kind : QByteArray} {m m1 : CodeModel}
    (h : function_ env (f + 1) st sc kind m = Except.ok m1) :
    Frame m.scopes.length sc m m1 := by
  rw [function_] at h
  obtain ⟨_, _, h⟩ := bind_ok h
  obtain ⟨c2, _, h⟩ := bind_ok h
  obtain ⟨m2, h2, h⟩ := bind_ok h
  have f1 : Frame m.scopes.length sc m m2 := by
    split at h2
    · exact IH.exprList _ _ _ _ h2
    · have := pure_ok h2
      subst this
      exact Frame.refl _ _ _ (Nat.le_refl _)
  obtain ⟨lastc, _, h⟩ := bind_ok h
  split at h
  · obtain ⟨s, hs, h⟩ := bind_ok h
    have hlt := scope_lt hs
    have hn2 := Nat.le_trans f1.base f1.len
    have f2 : Frame m.scopes.length sc m2 (newScope m2 sc st kind).1 :=
      Frame.newScope hn2 hlt st kind
    have hlen := newScope_length m2 sc st kind
    have hid := newScope_snd m2 sc st kind
    rcases hns : newScope m2 sc st kind with ⟨m3, id⟩
    rw [hns] at h f2 hlen hid
    dsimp only at h f2 hlen hid
    subst hid
    have hge : m.scopes.length ≤ m2.scopes.length := hn2
    split at h
    · have f3 := @Frame.modifyNew m.scopes.length sc m3 (by omega) m2.scopes.length hge
        (Nat.ne_of_gt hlt) (fun s => { s with d_params := some c2 })
      exact ((f1.trans f2).trans f3).step (IH.block _ _ _ _ h) (Or.inr hge)
    · exact (f1.trans f2).step (IH.block _ _ _ _ h) (Or.inr hge)
  · have := pure_ok h
    subst this
    exact f1

theorem frame_namedObj_ (env : Env) (f : Nat) (IH : FrameAll env f)
    {st : SynTree} {sc : ScopeId} {kind : QByteArray} {m m1 : CodeModel}
    (h : namedObj_ env (f + 1) st sc kind m = Except.ok m1) :
    Frame m.scopes.length sc m m1 := by
  rw [namedObj_] at h
  obtain ⟨c2, _, h⟩ := bind_ok h
  split at h
  · have := pure_ok h
    subst this
    exact Frame.error m (Nat.le_refl _) _ _
  · obtain ⟨_, _, h⟩ := bind_ok h
    obtain ⟨s, hs, h⟩ := bind_ok h
    have hlt := scope_lt hs
    have f2 : Frame m.scopes.length sc m (newScope m sc st kind).1 :=
      Frame.newScope (Nat.le_refl _) hlt st kind
    have hlen := newScope_length m sc st kind
    have hid := newScope_snd m sc st kind
    rcases hns : newScope m sc st kind with ⟨m3, id⟩
    rw [hns] at h f2 hlen hid
    dsimp only at h f2 hlen hid
    subst hid
    obtain ⟨arg, _, h⟩ := bind_ok h
    obtain ⟨m4, h4, h⟩ := bind_ok h
    have hne : m.scopes.length ≠ sc := Nat.ne_of_gt hlt
    have f4 : Frame m.scopes.length sc m m4 := by
      split at h4
      · obtain ⟨r, hr, h4⟩ := bind_ok h4
        obtain ⟨m5, name⟩ := r
        dsimp only at h4
        have f5 := f2.step (IH.string _ _ _ _ _ hr) (Or.inl rfl)
        have hb5 := Nat.le_trans f5.base f5.len
        have f6 := f5.trans (@Frame.modifyNew m.scopes.length sc m5 hb5 m.scopes.length
          (Nat.le_refl _) hne (fun s => { s with d_params := some name }))
        have hb6 := Nat.le_trans f6.base f6.len
        split at h4
        · have := pure_ok h4
          subst this
          generalize hsym : getSymbolBytes (env.getEscapedVal name.d_tok) = sym
          have f7 := f6.trans (@Frame.modifySelf m.scopes.length sc _ hb6
            (fun s => { s with d_objectDefs := hashInsert s.d_objectDefs sym m.scopes.length })
            (fun s => ⟨rfl, rfl, rfl, rfl, rfl, [], by simp, by simp⟩))
          have hb7 := Nat.le_trans f7.base f7.len
          have f8 := f7.trans (@Frame.objDef m.scopes.length sc _ hb7
            sym m.scopes.length (Nat.le_refl _))
          have hb8 := Nat.le_trans f8.base f8.len
          exact f8.trans (@Frame.modifyNew m.scopes.length sc _ hb8 m.scopes.length
            (Nat.le_refl _) hne _)
        · have := pure_ok h4
          subst this
          exact f6.trans (Frame.unnamedObj hb6 _ (Nat.le_refl _))
      · obtain ⟨m5, h5, h4⟩ := bind_ok h4
        have := pure_ok h4
        subst this
        have f5 := f2.trans (@Frame.modifyNew m.scopes.length sc m3 (by omega) m.scopes.length
          (Nat.le_refl _) hne (fun s => { s with d_params := some arg }))
        have f6 := f5.step (IH.expr _ _ _ _ h5) (Or.inl rfl)
        exact f6.trans (Frame.unnamedObj (Nat.le_trans f6.base f6.len) _ (Nat.le_refl _))
    split at h
    · split at h
      · obtain ⟨lastc, _, h⟩ := bind_ok h
        exact f4.step (IH.block _ _ _ _ h) (Or.inr (Nat.le_refl _))
      · exact absurd h (fun h => throw_ok h)
    · have := pure_ok h
      subst this
      exact f4

theorem pure_pair_ok {α β : Type} {a a1 : α} {b b1 : β}
    (h : (pure (a, b) : Walk (α × β)) = Except.ok (a1, b1)) : a = a1 ∧ b = b1 := by
  have := pure_ok h
  exact ⟨congrArg Prod.fst this, congrArg Prod.snd this⟩

theorem frame_parseFile (env : Env) (f : Nat) (IH : FrameAll env f)
    {path : QByteArray} {m m1 : CodeModel} {r : Option ScopeId} (sc : ScopeId)
    (h : parseFile env (f + 1) path m = Except.ok (m1, r)) :
    Frame m.scopes.length sc m m1 := by
  rw [parseFile] at h
  dsimp only at h
  split at h
  · have e1 := (pure_pair_ok h).1
    rw [← e1]
    exact Frame.refl _ _ _ (Nat.le_refl _)
  · split at h
    · have e1 := (pure_pair_ok h).1
      rw [← e1]
      exact Frame.warning m (Nat.le_refl _) _ _
    · rename_i children reports _
      obtain ⟨_, _, h⟩ := bind_ok h
      have f0 : Frame m.scopes.length sc m { m with d_errs := m.d_errs ++ reports } :=
        Frame.of_eq (Nat.le_refl _) rfl rfl rfl rfl
      split at h
      · have e1 := (pure_pair_ok h).1
        rw [← e1]
        exact f0
      · rename_i st rest
        obtain ⟨m2, h2, h⟩ := bind_ok h
        have e1 := (pure_pair_ok h).1
        rw [← e1]
        have f1 := f0.trans (@Frame.addScope m.scopes.length sc _
          { m with d_errs := m.d_errs ++ reports
                   scopes := m.scopes ++ [{ d_kind := m.d_fileKind, d_name := getSymbolBytes path }]
                   d_files := hashInsert m.d_files (getSymbolBytes path) m.scopes.length }
          (Nat.le_refl _) _ rfl rfl rfl rfl)
        have f2 := f1.step (IH.statementList _ _ _ _ h2) (Or.inr (Nat.le_refl _))
        by_cases hsc : m.scopes.length = sc
        · subst hsc
          have hnone : m.scopes[m.scopes.length]? = none := by simp
          refine
            { base := Nat.le_refl _
              len := by
                simp only [CodeModel.modifyScope, updateAt_length]
                exact f2.len
              others := fun i hi hne => by
                simp only [CodeModel.modifyScope]
                rw [updateAt_get_other _ _ _ _ hne]
                exact f2.others i hi hne
              self := fun s hs => by rw [hnone] at hs; cases hs
              objDefs := f2.objDefs
              unnamed := f2.unnamed
              funcRefs := f2.funcRefs }
        · exact f2.trans (Frame.modifyNew (Nat.le_trans f2.base f2.len) _ (Nat.le_refl _) hsc _)

theorem frame_import_ (env : Env) (f : Nat) (IH : FrameAll env f)
    {st : SynTree} {sc : ScopeId} {m m1 : CodeModel}
    (h : import_ env (f + 1) st sc m = Except.ok m1) :
    Frame m.scopes.length sc m m1 := by
  rw [import_] at h
  obtain ⟨c2, _, h⟩ := bind_ok h
  split at h
  · have := pure_ok h
    subst this
    exact Frame.error m (Nat.le_refl _) _ _
  · obtain ⟨_, _, h⟩ := bind_ok h
    dsimp only at h
    obtain ⟨arg, _, h⟩ := bind_ok h
    obtain ⟨r, hr, h⟩ := bind_ok h
    obtain ⟨m2, resolved⟩ := r
    dsimp only at h
    have f2 : Frame m.scopes.length sc m m2 := by
      split at hr
      · obtain ⟨r3, hr3, hr⟩ := bind_ok hr
        obtain ⟨m3, ref⟩ := r3
        dsimp only at hr
        have f3 := IH.string _ _ _ _ _ hr3
        split at hr
        · obtain ⟨path, _, hr⟩ := bind_ok hr
          split at hr
          · have f4 := f3.trans (@Frame.of_eq m.scopes.length sc m3
              { m3 with d_allImports := hashAppend m3.d_allImports (getSymbolBytes path) ref }
              (Nat.le_trans f3.base f3.len) rfl rfl rfl rfl)
            split at hr
            · obtain ⟨r5, hr5, hr⟩ := bind_ok hr
              obtain ⟨m5, res⟩ := r5
              dsimp only at hr
              have f5 := f4.step (IH.parseFile _ _ _ _ sc hr5) (Or.inl rfl)
              split at hr
              · obtain ⟨rs, _, hr⟩ := bind_ok hr
                have e1 := (pure_pair_ok hr).1
                rw [← e1]
                exact f5.trans (Frame.modifySelf (Nat.le_trans f5.base f5.len) _
                  (fun s => ⟨rfl, rfl, rfl, rfl, rfl, [], by simp, by simp⟩))
              · have e1 := (pure_pair_ok hr).1
                rw [← e1]
                exact f5
            · have e1 := (pure_pair_ok hr).1
              rw [← e1]
              exact f4.trans (Frame.warning _ (Nat.le_trans f4.base f4.len) _ _)
          · have e1 := (pure_pair_ok hr).1
            rw [← e1]
            exact f3
        · have e1 := (pure_pair_ok hr).1
          rw [← e1]
          exact f3
      · obtain ⟨m3, h3, hr⟩ := bind_ok hr
        have e1 := (pure_pair_ok hr).1
        rw [← e1]
        exact IH.expr _ _ _ _ h3
    split at h
    · obtain ⟨_, _, h⟩ := bind_ok h
      have := pure_ok h
      subst this
      have f3 := f2.trans (@Frame.modifySelf m.scopes.length sc m2 (Nat.le_trans f2.base f2.len)
        (fun s => { s with d_unresolvedImports := s.d_unresolvedImports ++ [arg] })
        (fun s => ⟨rfl, rfl, rfl, rfl, rfl, [], by simp, by simp⟩))
      exact f3.trans (Frame.of_eq (Nat.le_trans f3.base f3.len) rfl rfl rfl rfl)
    · have := pure_ok h
      subst this
      exact f2

/-- Every walk function is framed, at every fuel. -/
theorem frameAll (env : Env) : ∀ f : Nat, FrameAll env f := by
  intro f
  induction f with
  | zero =>
    exact {
      parseFile := fun path m m1 r sc h => by rw [Gn.parseFile] at h; exact absurd h (fun h => throw_ok h)
      statementList := fun st sc m m1 h => by rw [Gn.statementList] at h; exact absurd h (fun h => throw_ok h)
      statement := fun st sc m m1 h => by rw [Gn.statement] at h; exact absurd h (fun h => throw_ok h)
      call_ := fun st sc m m1 h => by rw [Gn.call_] at h; exact absurd h (fun h => throw_ok h)
      loop_ := fun st sc m m1 h => by rw [Gn.loop_] at h; exact absurd h (fun h => throw_ok h)
      import_ := fun st sc m m1 h => by rw [Gn.import_] at h; exact absurd h (fun h => throw_ok h)
      expr := fun st sc m m1 h => by rw [Gn.expr] at h; exact absurd h (fun h => throw_ok h)
      exprList := fun st sc m m1 h => by rw [Gn.exprList] at h; exact absurd h (fun h => throw_ok h)
      block := fun st sc m m1 h => by rw [Gn.block] at h; exact absurd h (fun h => throw_ok h)
      condition_ := fun st sc m m1 h => by rw [Gn.condition_] at h; exact absurd h (fun h => throw_ok h)
      assignment_ := fun st sc m m1 h => by rw [Gn.assignment_] at h; exact absurd h (fun h => throw_ok h)
      lvalue := fun st sc m m1 h => by rw [Gn.lvalue] at h; exact absurd h (fun h => throw_ok h)
      primaryExpr := fun st sc m m1 h => by rw [Gn.primaryExpr] at h; exact absurd h (fun h => throw_ok h)
      unaryExpr := fun st sc m m1 h => by rw [Gn.unaryExpr] at h; exact absurd h (fun h => throw_ok h)
      exprNlr := fun st sc m m1 h => by rw [Gn.exprNlr] at h; exact absurd h (fun h => throw_ok h)
      arrayAccess := fun st sc m m1 h => by rw [Gn.arrayAccess] at h; exact absurd h (fun h => throw_ok h)
      list := fun st sc m m1 h => by rw [Gn.list] at h; exact absurd h (fun h => throw_ok h)
      scopeAccess := fun st sc m m1 h => frame_scopeAccess env 0 h
      stringLoop := fun st sc pos m m1 st1 b h => by rw [Gn.stringLoop] at h; exact absurd h (fun h => throw_ok h)
      string := fun st sc m m1 st1 h => by rw [Gn.string] at h; exact absurd h (fun h => throw_ok h)
      stringVar_ := fun st sc pos len m m1 st1 h => by rw [Gn.stringVar_] at h; exact absurd h (fun h => throw_ok h)
      namedObj_ := fun st sc kind m m1 h => by rw [Gn.namedObj_] at h; exact absurd h (fun h => throw_ok h)
      function_ := fun st sc kind m m1 h => by rw [Gn.function_] at h; exact absurd h (fun h => throw_ok h) }
  | succ f ih =>
    exact {
      parseFile := fun path m m1 r sc h => frame_parseFile env f ih sc h
      statementList := fun st sc m m1 h => frame_statementList env f ih h
      statement := fun st sc m m1 h => frame_statement env f ih h
      call_ := fun st sc m m1 h => frame_call_ env f ih h
      loop_ := fun st sc m m1 h => frame_loop_ env f ih h
      import_ := fun st sc m m1 h => frame_import_ env f ih h
      expr := fun st sc m m1 h => frame_expr env f ih h
      exprList := fun st sc m m1 h => frame_exprList env f ih h
      block := fun st sc m m1 h => frame_block env f ih h
      condition_ := fun st sc m m1 h => frame_condition_ env f ih h
      assignment_ := fun st sc m m1 h => frame_assignment_ env f ih h
      lvalue := fun st sc m m1 h => frame_lvalue env f ih h
      primaryExpr := fun st sc m m1 h => frame_primaryExpr env f ih h
      unaryExpr := fun st sc m m1 h => frame_unaryExpr env f ih h
      exprNlr := fun st sc m m1 h => frame_exprNlr env f ih h
      arrayAccess := fun st sc m m1 h => frame_arrayAccess env f ih h
      list := fun st sc m m1 h => frame_list env f ih h
      scopeAccess := fun st sc m m1 h => frame_scopeAccess env (f + 1) h
      stringLoop := fun st sc pos m m1 st1 b h => frame_stringLoop env f ih h
      string := fun st sc m m1 st1 h => frame_string env f ih h
      stringVar_ := fun st sc pos len m m1 st1 h => frame_stringVar_ env f ih h
      namedObj_ := fun st sc kind m m1 h => frame_namedObj_ env f ih h
      function_ := fun st sc kind m m1 h => frame_function_ env f ih h }

/-! ## The walk: named objects -/

theorem Frame.mem_objDefs {N : Nat} {sc : ScopeId} {m m1 : CodeModel} (h : Frame N sc m m1)
    {i : ScopeId} {k : QByteArray} (hi : i ∈ hashValue m.d_allObjDefs k) :
    i ∈ hashValue m1.d_allObjDefs k := by
  obtain ⟨ext, he, _⟩ := h.objDefs k
  rw [he]
  exact List.mem_append_left _ hi

theorem Frame.not_mem_objDefs {N : Nat} {sc : ScopeId} {m m1 : CodeModel} (h : Frame N sc m m1)
    {i : ScopeId} {k : QByteArray} (hN : i < N) (hi : i ∉ hashValue m.d_allObjDefs k) :
    i ∉ hashValue m1.d_allObjDefs k := by
  obtain ⟨ext, he, hb⟩ := h.objDefs k
  rw [he]
  intro hm
  rcases List.mem_append.1 hm with h1 | h1
  · exact hi h1
  · exact absurd hN (Nat.not_lt.2 (hb i h1))

theorem Frame.mem_unnamed {N : Nat} {sc : ScopeId} {m m1 : CodeModel} (h : Frame N sc m m1)
    {i : ScopeId} (hi : i ∈ m.d_allUnnamedObjs) : i ∈ m1.d_allUnnamedObjs := by
  obtain ⟨ext, he, _⟩ := h.unnamed
  rw [he]
  exact List.mem_append_left _ hi

theorem Frame.not_mem_unnamed {N : Nat} {sc : ScopeId} {m m1 : CodeModel} (h : Frame N sc m m1)
    {i : ScopeId} (hN : i < N) (hi : i ∉ m.d_allUnnamedObjs) : i ∉ m1.d_allUnnamedObjs := by
  obtain ⟨ext, he, hb⟩ := h.unnamed
  rw [he]
  intro hm
  rcases List.mem_append.1 hm with h1 | h1
  · exact hi h1
  · exact absurd hN (Nat.not_lt.2 (hb i h1))

theorem modifyScope_get_same (m : CodeModel) (j : ScopeId) (g : Scope → Scope) :
    (m.modifyScope j g).scopes[j]? = (m.scopes[j]?).map g := by
  simp only [CodeModel.modifyScope]
  exact updateAt_get_same g m.scopes j

theorem modifyScope_get_other (m : CodeModel) (j i : ScopeId) (g : Scope → Scope)
    (h : i ≠ j) : (m.modifyScope j g).scopes[i]? = m.scopes[i]? := by
  simp only [CodeModel.modifyScope]
  exact updateAt_get_other g m.scopes j i h

/-- The model right after `newScope`. -/
theorem newScope_facts (m : CodeModel) (sc : ScopeId) (st : SynTree) (kind : QByteArray)
    (s0 : Scope) (hs0 : m.scopes[sc]? = some s0) :
    (newScope m sc st kind).1.scopes[m.scopes.length]?
        = some { d_outer := some sc, d_st := some st, d_kind := kind }
    ∧ (newScope m sc st kind).1.scopes[sc]?
        = some { s0 with d_allScopes := s0.d_allScopes ++ [m.scopes.length] }
    ∧ (newScope m sc st kind).1.d_allObjDefs = m.d_allObjDefs
    ∧ (newScope m sc st kind).1.d_allUnnamedObjs = m.d_allUnnamedObjs := by
  have hlt : sc < m.scopes.length := (List.getElem?_eq_some_iff.1 hs0).1
  have hne : sc ≠ m.scopes.length := Nat.ne_of_lt hlt
  refine ⟨?_, ?_, rfl, rfl⟩
  · simp only [newScope]
    rw [modifyScope_get_same, modifyScope_get_other _ _ _ _ (fun e => hne e.symm)]
    simp
  · simp only [newScope]
    rw [modifyScope_get_other _ _ _ _ hne, modifyScope_get_same]
    have : (m.scopes ++ [({ d_outer := some sc } : Scope)])[sc]? = some s0 := by
      rw [List.getElem?_append_left hlt]; exact hs0
    simp [this]

theorem child_eq {st c c1 : SynTree} {i : Nat} (h : st.d_children[i]? = some c)
    (h1 : st.child i = Except.ok c1) : c1 = c := by
  simp only [SynTree.child, h, pure, Except.pure] at h1
  exact (Except.ok.inj h1).symm

theorem first_eq {st c c1 : SynTree} (h : st.d_children.head? = some c)
    (h1 : st.first = Except.ok c1) : c1 = c := by
  simp only [SynTree.first, h, pure, Except.pure] at h1
  exact (Except.ok.inj h1).symm

/-! ## The walk: identifiers embedded in strings -/

theorem remap_token_col (C c : Nat) (p : Int) (hp : 0 ≤ p) :
    ((c : Int) + ((C : Int) + p - 1)).toNat = C + p.toNat + c - 1 := by
  omega

mutual
theorem remap_tokens (ref : Token) (pos : Int) (hp : 0 ≤ pos) :
    ∀ t : SynTree, (remap ref pos t).tokens = t.tokens.map (specRemapToken ref pos.toNat)
  | .mk tok cs => by
    simp only [remap, SynTree.tokens, List.map_cons, remapList_tokens ref pos hp cs,
      specRemapToken, remap_token_col _ _ _ hp]
theorem remapList_tokens (ref : Token) (pos : Int) (hp : 0 ≤ pos) :
    ∀ cs : List SynTree, SynTree.tokensList (remapList ref pos cs)
      = (SynTree.tokensList cs).map (specRemapToken ref pos.toNat)
  | [] => rfl
  | c :: cs => by
    simp only [remapList, SynTree.tokensList, List.map_append, remap_tokens ref pos hp c,
      remapList_tokens ref pos hp cs]
end

theorem varRhs_ok (id : SynTree) (sc : ScopeId) (m : CodeModel) (s : Scope)
    (hid : id.d_tok.d_type = TokenType.Tok_identifier) (hsc : m.scopes[sc]? = some s) :
    varRhs id sc m = Except.ok
      { (m.modifyScope sc (fun s => { s with d_rhs := hashAppend s.d_rhs id.d_tok.d_val id }))
          with d_allRhs := hashAppend m.d_allRhs id.d_tok.d_val id } := by
  simp [varRhs, qassert, hid, CodeModel.scope, hsc, bind, Except.bind, pure, Except.pure,
    CodeModel.modifyScope]

theorem stringVar_identifier (env : Env) (f : Nat) (st : SynTree) (sc : ScopeId)
    (pos len : Int) (m : CodeModel) (ptok itok : Token) (reports : List Report)
    (hparse : env.parsePrimaryExpr (mid st.d_tok.d_val pos len)
      = ([.mk ptok [.mk itok []]], reports))
    (hp : ptok.d_type = TokenType.R_PrimaryExpr)
    (hi : itok.d_type = TokenType.Tok_identifier) :
    stringVar_ env (f + 2) st sc pos len m =
      (varRhs (remap st.d_tok pos (.mk itok [])) sc
          { m with d_errs := m.d_errs ++ reports }).map
        (fun m1 => (m1, st.appendChild (remap st.d_tok pos (.mk itok [])))) := by
  rw [stringVar_]
  simp only [hparse]
  simp [qassert, hp, hi, SynTree.first, SynTree.d_tok, SynTree.d_children, remap, remapList,
    primaryExpr, bind, Except.bind, pure, Except.pure, Except.map]

theorem stringLoop_done (env : Env) (f : Nat) (st : SynTree) (sc : ScopeId) (m : CodeModel) :
    stringLoop env (f + 1) st sc (-1) m = Except.ok (m, st, true) := by
  rw [stringLoop]
  rfl

theorem stringLoop_brace (env : Env) (f : Nat) (st : SynTree) (sc : ScopeId) (pos pos2 : Int)
    (m : CodeModel) (h1 : pos ≠ -1) (h2 : pos + 1 < (st.d_tok.d_val.length : Int))
    (h3 : at_ st.d_tok.d_val (pos + 1) = '{')
    (h4 : indexOf st.d_tok.d_val '}' (pos + 1) = pos2) (h5 : pos2 ≠ -1) :
    stringLoop env (f + 1) st sc pos m =
      (stringVar_ env f st sc (pos + 2) (pos2 - pos - 2) m >>= fun r =>
        stringLoop env f r.2 sc (findNonEscapedDollar st.d_tok.d_val (pos + (pos2 - pos))) r.1) := by
  rw [stringLoop]
  simp only [h1, h2, h3, h4, h5, ne_eq, not_false_eq_true, if_true, if_false]

theorem stringLoop_hex (env : Env) (f : Nat) (st : SynTree) (sc : ScopeId) (pos : Int)
    (m : CodeModel) (h1 : pos ≠ -1) (h2 : pos + 1 < (st.d_tok.d_val.length : Int))
    (h4 : at_ st.d_tok.d_val (pos + 1) = '0') :
    stringLoop env (f + 1) st sc pos m =
      stringLoop env f st sc (findNonEscapedDollar st.d_tok.d_val (pos + 5)) m := by
  have h3 : ¬ ('0' = '{') := by decide
  rw [stringLoop]
  simp only [h1, h2, h3, h4, ne_eq, not_false_eq_true, if_true, if_false]

theorem stringLoop_name (env : Env) (f : Nat) (st : SynTree) (sc : ScopeId) (pos i : Int)
    (m : CodeModel) (h1 : pos ≠ -1) (h2 : pos + 1 < (st.d_tok.d_val.length : Int))
    (h3 : at_ st.d_tok.d_val (pos + 1) ≠ '{') (h4 : at_ st.d_tok.d_val (pos + 1) ≠ '0')
    (h5 : scanName (st.d_tok.d_val.drop (pos + 1).toNat) (pos + 1) = i) :
    stringLoop env (f + 1) st sc pos m =
      (stringVar_ env f st sc (pos + 1) (i - pos - 1) m >>= fun r =>
        stringLoop env f r.2 sc (findNonEscapedDollar st.d_tok.d_val (pos + (i - pos))) r.1) := by
  rw [stringLoop]
  simp only [h1, h2, h3, h4, h5, ne_eq, not_false_eq_true, if_true, if_false]


theorem embedded_val (L C : Nat) (path : QByteArray) :
    (embeddedNode L C path).d_tok.d_val = embeddedRaw := rfl

theorem appendChild_tok (st c : SynTree) : (st.appendChild c).d_tok = st.d_tok := rfl

theorem hashValue_two {β : Type} (h : List (QByteArray × List β)) (k1 k2 : QByteArray)
    (x1 x2 : β) (hne : k1 ≠ k2) :
    hashValue (hashAppend (hashAppend h k1 x1) k2 x2) k1 = hashValue h k1 ++ [x1]
    ∧ hashValue (hashAppend (hashAppend h k1 x1) k2 x2) k2 = hashValue h k2 ++ [x2]
    ∧ ∀ k, k ≠ k1 → k ≠ k2 →
        hashValue (hashAppend (hashAppend h k1 x1) k2 x2) k = hashValue h k := by
  refine ⟨?_, ?_, ?_⟩
  · rw [hashValue_hashAppend_other _ _ _ _ hne, hashValue_hashAppend_same]
  · rw [hashValue_hashAppend_same, hashValue_hashAppend_other _ _ _ _ (Ne.symm hne)]
  · intro k h1 h2
    rw [hashValue_hashAppend_other _ _ _ _ h2, hashValue_hashAppend_other _ _ _ _ h1]

theorem stringLabel_allRhs (m : CodeModel) (st : SynTree) :
    (stringLabel m st).d_allRhs = m.d_allRhs ∧ (stringLabel m st).scopes = m.scopes := by
  unfold stringLabel
  dsimp only
  split_ifs <;> exact ⟨rfl, rfl⟩

theorem stringVar_identifier_ok (env : Env) (f : Nat) (st : SynTree) (sc : ScopeId)
    (pos len : Int) (m : CodeModel) (s : Scope) (ptok itok : Token) (reports : List Report)
    (hparse : env.parsePrimaryExpr (mid st.d_tok.d_val pos len)
      = ([.mk ptok [.mk itok []]], reports))
    (hp : ptok.d_type = TokenType.R_PrimaryExpr)
    (hi : itok.d_type = TokenType.Tok_identifier) (hsc : m.scopes[sc]? = some s) :
    ∃ m1, stringVar_ env (f + 2) st sc pos len m
        = Except.ok (m1, st.appendChild (remap st.d_tok pos (.mk itok [])))
      ∧ m1.scopes[sc]? = some { s with
          d_rhs := hashAppend s.d_rhs itok.d_val (remap st.d_tok pos (.mk itok [])) }
      ∧ m1.d_allRhs = hashAppend m.d_allRhs itok.d_val (remap st.d_tok pos (.mk itok [])) := by
  rw [stringVar_identifier env f st sc pos len m ptok itok reports hparse hp hi,
    varRhs_ok (remap st.d_tok pos (.mk itok [])) sc { m with d_errs := m.d_errs ++ reports } s
      (by simpa [remap, SynTree.d_tok] using hi) hsc]
  refine ⟨_, rfl, ?_, rfl⟩
  rw [modifyScope_get_same]
  simp only [hsc, Option.map_some']
  rfl

/-- C6: an identifier embedded in a string literal is recorded as an RHS reference at its
true source position. First, `remap` at the offset `p` gives every token of the sub-tree
the line of the string token, the column `C + p + c - 1` for its column `c` in the
fragment, and the source path of the string token. Second, when the sub-parser reads the
fragment as one identifier, `stringVar_` returns and appends the remapped identifier node
exactly once to the list of its name in the RHS map of the current scope and in `allRhs`,
all other lists being untouched. Third, for the token `"hello $\x7bfoo\x7d/$bar.txt/$0xff"`
at line `L`, column `C`, `string` returns with `foo` recorded once at column `C + 9` and
`bar` once at column `C + 15`, both at line `L` with the path of the token, and with no
other name recorded, so nothing for `$0xff`. -/
theorem string_embedded_identifiers (env : Env) (f L C : Nat) (path : QByteArray)
    (sc : ScopeId) (m : CodeModel) (s : Scope) (pf tf pb tb : Token) (rf rb : List Report)
    (hsc : m.scopes[sc]? = some s)
    (hfoo : env.parsePrimaryExpr "foo".toList = ([.mk pf [.mk tf []]], rf))
    (hpf : pf.d_type = TokenType.R_PrimaryExpr)
    (htf : tf.d_type = TokenType.Tok_identifier ∧ tf.d_val = "foo".toList ∧ tf.d_colNr = 1)
    (hbar : env.parsePrimaryExpr "bar".toList = ([.mk pb [.mk tb []]], rb))
    (hpb : pb.d_type = TokenType.R_PrimaryExpr)
    (htb : tb.d_type = TokenType.Tok_identifier ∧ tb.d_val = "bar".toList ∧ tb.d_colNr = 1) :
    (∀ (ref : Token) (p : Int) (sub : SynTree), 0 ≤ p →
        (remap ref p sub).tokens = sub.tokens.map (specRemapToken ref p.toNat))
    ∧ (∀ (g : Nat) (st : SynTree) (pos len : Int) (ptok itok : Token) (reports : List Report),
        env.parsePrimaryExpr (mid st.d_tok.d_val pos len) = ([.mk ptok [.mk itok []]], reports) →
        ptok.d_type = TokenType.R_PrimaryExpr → itok.d_type = TokenType.Tok_identifier →
        ∃ m1 s1, stringVar_ env (g + 2) st sc pos len m
            = Except.ok (m1, st.appendChild (remap st.d_tok pos (.mk itok [])))
          ∧ m1.scopes[sc]? = some s1
          ∧ hashValue s1.d_rhs itok.d_val
              = hashValue s.d_rhs itok.d_val ++ [remap st.d_tok pos (.mk itok [])]
          ∧ hashValue m1.d_allRhs itok.d_val
              = hashValue m.d_allRhs itok.d_val ++ [remap st.d_tok pos (.mk itok [])]
          ∧ ∀ k, k ≠ itok.d_val → hashValue s1.d_rhs k = hashValue s.d_rhs k
              ∧ hashValue m1.d_allRhs k = hashValue m.d_allRhs k)
    ∧ ∃ m1 s1 st1, string env (f + 5) (embeddedNode L C path) sc m = Except.ok (m1, st1)
        ∧ m1.scopes[sc]? = some s1
        ∧ st1.d_children
            = [.mk { tf with d_lineNr := L, d_colNr := C + 9, d_sourcePath := path } [],
               .mk { tb with d_lineNr := L, d_colNr := C + 15, d_sourcePath := path } []]
        ∧ hashValue m1.d_allRhs "foo".toList = hashValue m.d_allRhs "foo".toList
            ++ [.mk { tf with d_lineNr := L, d_colNr := C + 9, d_sourcePath := path } []]
        ∧ hashValue m1.d_allRhs "bar".toList = hashValue m.d_allRhs "bar".toList
            ++ [.mk { tb with d_lineNr := L, d_colNr := C + 15, d_sourcePath := path } []]
        ∧ hashValue s1.d_rhs "foo".toList = hashValue s.d_rhs "foo".toList
            ++ [.mk { tf with d_lineNr := L, d_colNr := C + 9, d_sourcePath := path } []]
        ∧ hashValue s1.d_rhs "bar".toList = hashValue s.d_rhs "bar".toList
            ++ [.mk { tb with d_lineNr := L, d_colNr := C + 15, d_sourcePath := path } []]
        ∧ ∀ k, k ≠ "foo".toList → k ≠ "bar".toList →
            hashValue m1.d_allRhs k = hashValue m.d_allRhs k
              ∧ hashValue s1.d_rhs k = hashValue s.d_rhs k := by
  obtain ⟨htf, hvf, hcf⟩ := htf
  obtain ⟨htb, hvb, hcb⟩ := htb
  refine ⟨fun ref p sub hp => remap_tokens ref p hp sub, ?_, ?_⟩
  · intro g st pos len ptok itok reports hparse hp hi
    obtain ⟨m1, h1, h2, h3⟩ :=
      stringVar_identifier_ok env g st sc pos len m s ptok itok reports hparse hp hi hsc
    refine ⟨m1, _, h1, h2, ?_, ?_, ?_⟩
    · exact hashValue_hashAppend_same _ _ _
    · rw [h3]; exact hashValue_hashAppend_same _ _ _
    · intro k hk
      refine ⟨hashValue_hashAppend_other _ _ _ _ hk, ?_⟩
      rw [h3]; exact hashValue_hashAppend_other _ _ _ _ hk
  · have hv := embedded_val L C path
    have e0 : findNonEscapedDollar embeddedRaw 0 = 7 := by decide
    have hlen : (embeddedRaw.length : Int) = 29 := by decide
    have e1 : at_ embeddedRaw 8 = '{' := by decide
    have e2 : indexOf embeddedRaw '}' 8 = 12 := by decide
    have e3 : mid embeddedRaw 9 3 = "foo".toList := by decide
    have e4 : findNonEscapedDollar embeddedRaw 12 = 14 := by decide
    have e5 : at_ embeddedRaw 15 = 'b' := by decide
    have e6 : scanName (embeddedRaw.drop 15) 15 = 18 := by decide
    have e7 : mid embeddedRaw 15 3 = "bar".toList := by decide
    have e8 : findNonEscapedDollar embeddedRaw 18 = 23 := by decide
    have e9 : at_ embeddedRaw 24 = '0' := by decide
    have e10 : findNonEscapedDollar embeddedRaw 28 = -1 := by decide
    have hq : qassert (decide ((embeddedNode L C path).d_tok.d_type = TokenType.Tok_string))
        = Except.ok () := rfl
    obtain ⟨mA, hA, hscA, hrA⟩ := stringVar_identifier_ok env (f + 1) (embeddedNode L C path)
      sc 9 3 m s pf tf rf (by rw [hv, e3]; exact hfoo) hpf htf hsc
    obtain ⟨mB, hB, hscB, hrB⟩ := stringVar_identifier_ok env f
      ((embeddedNode L C path).appendChild
        (remap (embeddedNode L C path).d_tok 9 (.mk tf []))) sc 15 3 mA _ pb tb rb
      (by rw [appendChild_tok, hv, e7]; exact hbar) hpb htb hscA
    have hloop : stringLoop env (f + 4) (embeddedNode L C path) sc 7 m
        = Except.ok (mB, ((embeddedNode L C path).appendChild
            (remap (embeddedNode L C path).d_tok 9 (.mk tf []))).appendChild
            (remap (embeddedNode L C path).d_tok 15 (.mk tb [])), true) := by
      rw [stringLoop_brace env (f + 3) _ sc 7 12 m (by decide) (by rw [hv, hlen]; decide)
        (by rw [hv]; exact e1) (by rw [hv]; exact e2) (by decide)]
      rw [show (7 : Int) + 2 = 9 from rfl, show (12 : Int) - 7 - 2 = 3 from rfl, hA]
      simp only [bind, Except.bind]
      rw [hv, show (7 : Int) + (12 - 7) = 12 from rfl, e4]
      rw [stringLoop_name env (f + 2) _ sc 14 18 mA (by decide)
        (by rw [appendChild_tok, hv, hlen]; decide)
        (by rw [appendChild_tok, hv]; exact e5 ▸ (by decide))
        (by rw [appendChild_tok, hv]; exact e5 ▸ (by decide))
        (by rw [appendChild_tok, hv]; exact e6)]
      rw [show (14 : Int) + 1 = 15 from rfl, show (18 : Int) - 14 - 1 = 3 from rfl, hB]
      simp only [bind, Except.bind]
      rw [appendChild_tok, hv, show (14 : Int) + (18 - 14) = 18 from rfl, e8]
      rw [stringLoop_hex env (f + 1) _ sc 23 mB (by decide)
        (by rw [appendChild_tok, appendChild_tok, hv, hlen]; decide)
        (by rw [appendChild_tok, appendChild_tok, hv]; exact e9)]
      rw [appendChild_tok, appendChild_tok, hv, show (23 : Int) + 5 = 28 from rfl, e10]
      exact stringLoop_done env f _ sc mB
    have hidF : remap (embeddedNode L C path).d_tok 9 (.mk tf [])
        = .mk { tf with d_lineNr := L, d_colNr := C + 9, d_sourcePath := path } [] := by
      simp only [remap, remapList, embeddedNode, SynTree.d_tok, hcf]
      congr 2
      omega
    have hidB : remap (embeddedNode L C path).d_tok 15 (.mk tb [])
        = .mk { tb with d_lineNr := L, d_colNr := C + 15, d_sourcePath := path } [] := by
      simp only [remap, remapList, embeddedNode, SynTree.d_tok, hcb]
      congr 2
      omega
    rw [appendChild_tok] at hscB hrB
    rw [hvf] at hrA hscB
    rw [hvb] at hrB hscB
    rw [hidF] at hrA hscB hloop
    rw [hidB] at hrB hscB hloop
    have hne : "foo".toList ≠ "bar".toList := by decide
    have hstr : string env (f + 5) (embeddedNode L C path) sc m
        = Except.ok (stringLabel mB (((embeddedNode L C path).appendChild
            (.mk { tf with d_lineNr := L, d_colNr := C + 9, d_sourcePath := path } [])).appendChild
            (.mk { tb with d_lineNr := L, d_colNr := C + 15, d_sourcePath := path } [])),
          ((embeddedNode L C path).appendChild
            (.mk { tf with d_lineNr := L, d_colNr := C + 9, d_sourcePath := path } [])).appendChild
            (.mk { tb with d_lineNr := L, d_colNr := C + 15, d_sourcePath := path } [])) := by
      rw [string]
      simp [hq, hv, e0, hloop, bind, Except.bind, pure, Except.pure]
    have hsc1 := hscB
    rw [← (stringLabel_allRhs mB (((embeddedNode L C path).appendChild
      (.mk { tf with d_lineNr := L, d_colNr := C + 9, d_sourcePath := path } [])).appendChild
      (.mk { tb with d_lineNr := L, d_colNr := C + 15, d_sourcePath := path } []))).2] at hsc1
    refine ⟨_, _, _, hstr, hsc1, rfl, ?_⟩
    · rw [(stringLabel_allRhs _ _).1, hrB, hrA]
      obtain ⟨a1, a2, a3⟩ := hashValue_two m.d_allRhs _ _
        (SynTree.mk { tf with d_lineNr := L, d_colNr := C + 9, d_sourcePath := path } [])
        (SynTree.mk { tb with d_lineNr := L, d_colNr := C + 15, d_sourcePath := path } []) hne
      obtain ⟨b1, b2, b3⟩ := hashValue_two s.d_rhs _ _
        (SynTree.mk { tf with d_lineNr := L, d_colNr := C + 9, d_sourcePath := path } [])
        (SynTree.mk { tb with d_lineNr := L, d_colNr := C + 15, d_sourcePath := path } []) hne
      exact ⟨a1, a2, b1, b2, fun k h1 h2 => ⟨a3 k h1 h2, b3 k h1 h2⟩⟩

theorem string_embedded_identifiers_witness :
    (sampleModel.scopes[0]? = some { d_kind := "file".toList }
      ∧ sampleEnv.parsePrimaryExpr "foo".toList
          = ([.mk primaryToken [.mk (fragmentToken "foo".toList) []]], [])
      ∧ primaryToken.d_type = TokenType.R_PrimaryExpr
      ∧ ((fragmentToken "foo".toList).d_type = TokenType.Tok_identifier
          ∧ (fragmentToken "foo".toList).d_val = "foo".toList
          ∧ (fragmentToken "foo".toList).d_colNr = 1)
      ∧ sampleEnv.parsePrimaryExpr "bar".toList
          = ([.mk primaryToken [.mk (fragmentToken "bar".toList) []]], [])
      ∧ ((fragmentToken "bar".toList).d_type = TokenType.Tok_identifier
          ∧ (fragmentToken "bar".toList).d_val = "bar".toList
          ∧ (fragmentToken "bar".toList).d_colNr = 1))
    ∧ ∃ m1 s1 st1, string sampleEnv 5 (embeddedNode 2 8 "/p/BUILD.gn".toList) 0 sampleModel
          = Except.ok (m1, st1)
        ∧ m1.scopes[0]? = some s1
        ∧ st1.d_children
            = [.mk { fragmentToken "foo".toList with
                      d_lineNr := 2, d_colNr := 8 + 9, d_sourcePath := "/p/BUILD.gn".toList } [],
               .mk { fragmentToken "bar".toList with
                      d_lineNr := 2, d_colNr := 8 + 15, d_sourcePath := "/p/BUILD.gn".toList } []]
        ∧ hashValue m1.d_allRhs "foo".toList = hashValue sampleModel.d_allRhs "foo".toList
            ++ [.mk { fragmentToken "foo".toList with
                      d_lineNr := 2, d_colNr := 8 + 9, d_sourcePath := "/p/BUILD.gn".toList } []]
        ∧ hashValue m1.d_allRhs "bar".toList = hashValue sampleModel.d_allRhs "bar".toList
            ++ [.mk { fragmentToken "bar".toList with
                      d_lineNr := 2, d_colNr := 8 + 15, d_sourcePath := "/p/BUILD.gn".toList } []] :=
  ⟨⟨rfl, rfl, rfl, ⟨rfl, rfl, rfl⟩, rfl, ⟨rfl, rfl, rfl⟩⟩,
   (string_embedded_identifiers sampleEnv 0 2 8 "/p/BUILD.gn".toList 0 sampleModel
      { d_kind := "file".toList } primaryToken (fragmentToken "foo".toList) primaryToken
      (fragmentToken "bar".toList) [] [] rfl rfl rfl ⟨rfl, rfl, rfl⟩ rfl rfl
      ⟨rfl, rfl, rfl⟩).2.2.imp
     (fun _ h => h.imp (fun _ h => h.imp (fun _ h => ⟨h.1, h.2.1, h.2.2.1, h.2.2.2.1, h.2.2.2.2.1⟩)))⟩
/-! ## The walk: string literals as labels -/

/-- What the label test at the end of `string` records: nothing for an empty name and for a
name that starts with a backslash; for another name without `$` the node under the name
without its trailing quote in `allFuncRefs`, and in the unresolved references when the
path holds a `$`; for a name with a `$` the node in the unresolved references only. -/
theorem stringLabel_cases (m : CodeModel) (st : SynTree) :
    ((extractPathIdentFromString st.d_tok.d_val).2 = [] → stringLabel m st = m)
    ∧ (startsWithCh (extractPathIdentFromString st.d_tok.d_val).2 '\\' = true →
        stringLabel m st = m)
    ∧ ((extractPathIdentFromString st.d_tok.d_val).2 ≠ [] →
        startsWithCh (extractPathIdentFromString st.d_tok.d_val).2 '\\' = false →
        findNonEscapedDollar (extractPathIdentFromString st.d_tok.d_val).2 0 = -1 →
        (stringLabel m st).d_allFuncRefs = hashAppend m.d_allFuncRefs
            (getSymbolBytes
              (if endsWithCh (extractPathIdentFromString st.d_tok.d_val).2 '"' = true
               then chop (extractPathIdentFromString st.d_tok.d_val).2 1
               else (extractPathIdentFromString st.d_tok.d_val).2)) st
          ∧ (stringLabel m st).d_unresolvedRefs = m.d_unresolvedRefs
              ++ (if findNonEscapedDollar (extractPathIdentFromString st.d_tok.d_val).1 0 ≠ -1
                  then [st] else []))
    ∧ ((extractPathIdentFromString st.d_tok.d_val).2 ≠ [] →
        startsWithCh (extractPathIdentFromString st.d_tok.d_val).2 '\\' = false →
        findNonEscapedDollar (extractPathIdentFromString st.d_tok.d_val).2 0 ≠ -1 →
        (stringLabel m st).d_allFuncRefs = m.d_allFuncRefs
          ∧ (stringLabel m st).d_unresolvedRefs = m.d_unresolvedRefs ++ [st]) := by
  refine ⟨?_, ?_, ?_, ?_⟩
  · intro h
    simp [stringLabel, h]
  · intro h
    simp [stringLabel, h]
  · intro h1 h2 h3
    have h1' : (extractPathIdentFromString st.d_tok.d_val).2.isEmpty = false := by
      cases hx : (extractPathIdentFromString st.d_tok.d_val).2 with
      | nil => exact absurd hx h1
      | cons a l => rfl
    by_cases hp : findNonEscapedDollar (extractPathIdentFromString st.d_tok.d_val).1 0 = -1
    · simp [stringLabel, h1', h2, h3, hp]
    · simp [stringLabel, h1', h2, h3, hp]
  · intro h1 h2 h3
    have h1' : (extractPathIdentFromString st.d_tok.d_val).2.isEmpty = false := by
      cases hx : (extractPathIdentFromString st.d_tok.d_val).2 with
      | nil => exact absurd hx h1
      | cons a l => rfl
    simp [stringLabel, h1', h2, h3]

theorem stringVar_tok (env : Env) (f : Nat)
    {st : SynTree} {sc : ScopeId} {pos len : Int} {m m1 : CodeModel} {st1 : SynTree}
    (h : stringVar_ env f st sc pos len m = Except.ok (m1, st1)) : st1.d_tok = st.d_tok := by
  cases f with
  | zero => rw [stringVar_] at h; exact absurd h (fun h => throw_ok h)
  | succ f =>
    rw [stringVar_] at h
    dsimp only at h
    obtain ⟨_, _, h⟩ := bind_ok h
    split at h
    · have := pure_ok h
      cases this
      rfl
    · obtain ⟨_, _, h⟩ := bind_ok h
      obtain ⟨c, _, h⟩ := bind_ok h
      split at h
      · obtain ⟨_, _, h⟩ := bind_ok h
        obtain ⟨m2, h2, h⟩ := bind_ok h
        obtain ⟨c2, _, h⟩ := bind_ok h
        have := pure_ok h
        cases this
        rfl
      · have := pure_ok h
        cases this
        rfl

theorem stringLoop_tok (env : Env) :
    ∀ (f : Nat) {st : SynTree} {sc : ScopeId} {pos : Int} {m m1 : CodeModel} {st1 : SynTree}
      {b : Bool}, stringLoop env f st sc pos m = Except.ok (m1, st1, b) →
      st1.d_tok = st.d_tok := by
  intro f
  induction f with
  | zero =>
    intro st sc pos m m1 st1 b h
    rw [stringLoop] at h
    exact absurd h (fun h => throw_ok h)
  | succ f ih =>
    intro st sc pos m m1 st1 b h
    rw [stringLoop] at h
    dsimp only at h
    split at h
    · split at h
      · split at h
        · split at h
          · have := pure_ok h
            cases this
            rfl
          · obtain ⟨r, hr, h⟩ := bind_ok h
            obtain ⟨m2, st2⟩ := r
            exact (ih h).trans (stringVar_tok env f hr)
        · split at h
          · exact ih h
          · obtain ⟨r, hr, h⟩ := bind_ok h
            obtain ⟨m2, st2⟩ := r
            exact (ih h).trans (stringVar_tok env f hr)
      · exact ih h
    · have := pure_ok h
      cases this
      rfl

/-- A walk of `string` that returns keeps the token of the node, and records the label test
of `stringLabel` exactly when the loop over the `$` ran to its end. -/
theorem string_label (env : Env) (f : Nat)
    {st : SynTree} {sc : ScopeId} {m m1 : CodeModel} {st1 : SynTree}
    (h : string env (f + 1) st sc m = Except.ok (m1, st1)) :
    st1.d_tok = st.d_tok
    ∧ ∃ m0 b, stringLoop env f st sc (findNonEscapedDollar st.d_tok.d_val 0) m
          = Except.ok (m0, st1, b)
        ∧ (b = true → m1 = stringLabel m0 st1) ∧ (b = false → m1 = m0) := by
  rw [string] at h
  obtain ⟨_, _, h⟩ := bind_ok h
  obtain ⟨r, hr, h⟩ := bind_ok h
  obtain ⟨m2, st2, b⟩ := r
  dsimp only at h
  split at h
  · rename_i hb
    have e := pure_ok h
    cases e
    exact ⟨stringLoop_tok env f hr, _, _, hr, fun _ => rfl, fun hb2 => by simp [hb] at hb2⟩
  · rename_i hb
    have e := pure_ok h
    cases e
    exact ⟨stringLoop_tok env f hr, _, _, hr, fun hb2 => absurd hb2 hb, fun _ => rfl⟩

/-- C7: the claim fails at the string literal `"a:"`, whose raw value is `"a:"` with the
quotes. The label resolver gives the path `"a` and the name `"`, which is non-empty, does
not start with a backslash and holds no `$`; `string` tests the name for emptiness before
it removes the trailing quote, and so appends the string node to `allFuncRefs` under the
empty key, which is not a non-empty name. -/
theorem string_label_empty_key (env : Env) (f L C : Nat) (sc : ScopeId) (m : CodeModel) :
    extractPathIdentFromString "\"a:\"".toList = ("\"a".toList, "\"".toList)
    ∧ findNonEscapedDollar "\"".toList 0 = -1
    ∧ string env (f + 2) (stringNode L C "\"a:\"") sc m
        = Except.ok
          ({ m with d_allFuncRefs := hashAppend m.d_allFuncRefs [] (stringNode L C "\"a:\"") },
            stringNode L C "\"a:\"")
    ∧ hashValue (hashAppend m.d_allFuncRefs [] (stringNode L C "\"a:\"")) []
        = hashValue m.d_allFuncRefs [] ++ [stringNode L C "\"a:\""] := by
  have e1 : extractPathIdentFromString "\"a:\"".toList = ("\"a".toList, "\"".toList) := by
    decide
  have e2 : findNonEscapedDollar "\"".toList 0 = -1 := by decide
  have e3 : findNonEscapedDollar "\"a:\"".toList 0 = -1 := by decide
  have e4 : findNonEscapedDollar "\"a".toList 0 = -1 := by decide
  have hv : (stringNode L C "\"a:\"").d_tok.d_val = "\"a:\"".toList := rfl
  have hq : qassert (decide ((stringNode L C "\"a:\"").d_tok.d_type = TokenType.Tok_string))
      = Except.ok () := rfl
  refine ⟨e1, e2, ?_, hashValue_hashAppend_same _ _ _⟩
  rw [string]
  simp only [hq, hv, e3, stringLoop_done, bind, Except.bind]
  have hl : stringLabel m (stringNode L C "\"a:\"")
      = { m with d_allFuncRefs := hashAppend m.d_allFuncRefs [] (stringNode L C "\"a:\"") } := by
    unfold stringLabel
    simp only [hv, e1, e2, e4]
    rfl
  rw [hl]
  rfl

/-! ## Concrete checks on the sample call -/

theorem walk_eq_ok {α : Type} (x : Walk α) (d : α) (h : x.isOk = true) :
    x = Except.ok (x.toOption.getD d) := by
  cases x with
  | error e => cases h
  | ok a => rfl

theorem findDefinition_identifier_witness :
    (identNode 3 9 "app").d_tok.d_type = TokenType.Tok_identifier
    ∧ findDefinition sampleEnv sampleWalked 0 (some (identNode 3 9 "app"))
        = Except.ok (some sampleCall) :=
  ⟨rfl, (findDefinition_identifier sampleEnv sampleWalked 0 (identNode 3 9 "app") rfl).1 1
    { d_kind := "executable".toList, d_name := "app".toList,
      d_params := some (stringNode 1 12 "\"app\""), d_st := some sampleCall, d_outer := some 0,
      d_lhs := [("deps".toList, [identNode 2 1 "deps"])] }
    (by decide) (by decide)⟩

theorem call_classifies_witness :
    (sampleModel.Seeded ∧ 3 ≤ sampleCall.d_children.length
      ∧ sampleCall.d_children[0]? = some (identNode 1 1 "executable")
      ∧ (identNode 1 1 "executable").d_tok.d_type = TokenType.Tok_identifier)
    ∧ call_ sampleEnv (12 + 1) sampleCall 0 sampleModel
        = namedObj_ sampleEnv 12 sampleCall 0 "executable".toList
            { sampleModel with d_allFuncRefs := hashAppend sampleModel.d_allFuncRefs "executable".toList (identNode 1 1 "executable") } :=
  ⟨⟨⟨rfl, rfl, rfl, rfl⟩, by decide, rfl, rfl⟩,
   (call_classifies sampleEnv 12 sampleCall (identNode 1 1 "executable") 0 sampleModel
      ⟨rfl, rfl, rfl, rfl⟩ (by decide) rfl rfl).1.trans
        (by rw [show specCallRole (identNode 1 1 "executable").d_tok.d_val = CallRole.NamedObject
              from by decide]
            rfl)⟩

/-! ## Queries: labels -/

/-- An `insert` under a key that is already stored replaces the stored value. -/
theorem hashFind_hashInsert_twice {β : Type} (h : List (QByteArray × β)) (k : QByteArray)
    (a b : β) : hashFind (hashInsert (hashInsert h k a) k b) k = some b :=
  hashFind_hashInsert_same _ _ _

/-- C11 (amended): for a string node whose label has the path `p` and the non-empty name
`n`, and whose file (the file of the node when `p` is empty, else `p/BUILD.gn` resolved by
`calcPath`) has a finished scope, `findDefinition` looks `n` up in the local object
definitions of that file scope: when the name is stored there, it returns the defining node
of the stored scope, which is the one that `namedObj_` inserted last under the name; it
returns null when the name is not stored and the file scope has no outer scope and no
resolved import. -/
theorem findDefinition_label (env : Env) (m : CodeModel) (f : Nat) (st : SynTree)
    (p n : QByteArray) (s : ScopeId) (ss : Scope)
    (hty : st.d_tok.d_type = TokenType.Tok_string)
    (hpip : extractPathIdentFromString (env.getEscapedVal st.d_tok) = (p, n)) (hn : n ≠ [])
    (hfile : p ≠ [] → calcPathBuild env m p st.d_tok.d_sourcePath true ≠ [])
    (hs : getScope m (if p = [] then st.d_tok.d_sourcePath
        else calcPathBuild env m p st.d_tok.d_sourcePath true) = some s)
    (hss : m.scopes[s]? = some ss) :
    (∀ o os, hashFind ss.d_objectDefs n = some o → m.scopes[o]? = some os →
        findDefinition env m (f + 1) (some st) = Except.ok os.d_st)
    ∧ (hashFind ss.d_objectDefs n = none → ss.d_outer = none → ss.d_relovedImports = [] →
        findDefinition env m (f + 1) (some st) = Except.ok none) := by
  have hne : (env.getEscapedVal st.d_tok).isEmpty = false := by
    cases hx : env.getEscapedVal st.d_tok with
    | nil =>
      rw [hx] at hpip
      have : n = [] := by
        have := congrArg Prod.snd hpip
        simpa [extractPathIdentFromString] using this.symm
      exact absurd this hn
    | cons a l => rfl
  have hn' : n.isEmpty = false := by
    cases n with
    | nil => exact absurd rfl hn
    | cons a l => rfl
  have hfile' : (if (!p.isEmpty) = true then calcPathBuild env m p st.d_tok.d_sourcePath true
      else st.d_tok.d_sourcePath)
      = (if p = [] then st.d_tok.d_sourcePath
          else calcPathBuild env m p st.d_tok.d_sourcePath true) := by
    cases p <;> rfl
  have hfe : (!p.isEmpty && (if (!p.isEmpty) = true
      then calcPathBuild env m p st.d_tok.d_sourcePath true
      else st.d_tok.d_sourcePath).isEmpty) = false := by
    cases p with
    | nil => rfl
    | cons a l =>
      cases hx : calcPathBuild env m (a :: l) st.d_tok.d_sourcePath true with
      | nil => exact absurd hx (hfile (by simp))
      | cons b l2 => simp [hx]
  have hpe : (p.isEmpty && n.isEmpty) = false := by rw [hn']; simp
  refine ⟨?_, ?_⟩
  · intro o os ho hos
    simp only [findDefinition, hty, if_true, findFromPath, hne, hpip, hn', hpe, hfe, hfile',
      hs, Bool.false_eq_true, if_false, Bool.not_false]
    rw [findObject]
    simp [CodeModel.scope, hss, getSymbolBytes, ho, hos, bind, Except.bind, pure, Except.pure]
    intro hp he
    rw [if_neg hp] at he
    exact absurd he (hfile hp)
  · intro ho hout himp
    simp only [findDefinition, hty, if_true, findFromPath, hne, hpip, hn', hpe, hfe, hfile',
      hs, Bool.false_eq_true, if_false, Bool.not_false]
    rw [findObject]
    simp [CodeModel.scope, hss, getSymbolBytes, ho, hout, himp, bind, Except.bind, pure,
      Except.pure]

theorem toOption_eq_some {α : Type} {x : Walk α} {a : α} (h : x.toOption = some a) :
    x = Except.ok a := by
  cases x with
  | error e => cases h
  | ok b => cases h; rfl

/-- C11: the file `/p/BUILD.gn` defines `app` twice, `allObjDefs` lists both scopes, and the
lookup of the label `":app"` returns the second defining node and not null. -/
theorem findDefinition_label_ambiguous :
    (parseFile twoDefsEnv 12 "/p/BUILD.gn".toList (CodeModel.clear {})).isOk = true
    ∧ hashValue twoDefsModel.d_allObjDefs "app".toList = [1, 2]
    ∧ findDefinition twoDefsEnv twoDefsModel 1 (some (stringNode 5 9 "\":app\""))
        = Except.ok (some (callNode 3 "executable" [exprNode (stringNode 3 12 "\"app\"")]
            (some (blockNode [])))) :=
  ⟨by decide!, by decide!, toOption_eq_some (by decide!)⟩

theorem findDefinition_label_witness :
    ((stringNode 5 9 "\":app\"").d_tok.d_type = TokenType.Tok_string
      ∧ extractPathIdentFromString (twoDefsEnv.getEscapedVal (stringNode 5 9 "\":app\"").d_tok)
          = ([], "app".toList)
      ∧ "app".toList ≠ []
      ∧ getScope twoDefsModel (stringNode 5 9 "\":app\"").d_tok.d_sourcePath = some 0
      ∧ twoDefsModel.scopes[0]? = some (twoDefsModel.scopes.getD 0 {})
      ∧ hashFind (twoDefsModel.scopes.getD 0 {}).d_objectDefs "app".toList = some 2
      ∧ twoDefsModel.scopes[2]? = some (twoDefsModel.scopes.getD 2 {}))
    ∧ findDefinition twoDefsEnv twoDefsModel 1 (some (stringNode 5 9 "\":app\""))
        = Except.ok (twoDefsModel.scopes.getD 2 {}).d_st :=
  ⟨⟨rfl, by decide, by decide, by decide!, by decide!, by decide!, by decide!⟩,
   (findDefinition_label twoDefsEnv twoDefsModel 0 (stringNode 5 9 "\":app\"")
      [] "app".toList 0 (twoDefsModel.scopes.getD 0 {}) rfl (by decide) (by decide)
      (fun h => absurd rfl h) (by decide!) (by decide!)).1 2 (twoDefsModel.scopes.getD 2 {})
      (by decide!) (by decide!)⟩

/-! ## Paths -/

/-- C20: `calcPath(path, ref)` returns the canonical path of `x` resolved in the source root
for `path = "//" ++ x`, of the path itself for a path with a single leading `/`, and of
every other non-empty path resolved in the directory of `ref` when `ref` is not empty and in
the source root when `ref` is empty. So wherever the canonical path of the resolved path `q`
is `q` itself, as for an existing path without links or dot segments, the result is `q`;
nothing is assumed of the canonical path of any other path. In the file system with the two
files `/proj/x/y` and `/proj/sub/z`, source root `/proj` and `ref = /proj/sub/BUILD`,
`//x/y` resolves to `/proj/x/y` and `z` to `/proj/sub/z`. -/
theorem calcPath_resolves (env : Env) (m : CodeModel) (ref : QByteArray) :
    (∀ x, calcPath env m ("//".toList ++ x) ref
        = env.canonicalFilePath (env.absoluteFilePath m.d_sourceRoot x))
    ∧ (∀ rest, rest.head? ≠ some '/' →
        calcPath env m ('/' :: rest) ref = env.canonicalFilePath ('/' :: rest))
    ∧ (∀ path, path ≠ [] → path.head? ≠ some '/' → ref ≠ [] →
        calcPath env m path ref
          = env.canonicalFilePath (env.absoluteFilePath (env.absoluteDir ref) path))
    ∧ (∀ path, path ≠ [] → path.head? ≠ some '/' → ref = [] →
        calcPath env m path ref
          = env.canonicalFilePath (env.absoluteFilePath m.d_sourceRoot path))
    ∧ (∀ x, env.canonicalFilePath (env.absoluteFilePath m.d_sourceRoot x)
          = env.absoluteFilePath m.d_sourceRoot x →
        calcPath env m ("//".toList ++ x) ref = env.absoluteFilePath m.d_sourceRoot x)
    ∧ (∀ rest, rest.head? ≠ some '/' → env.canonicalFilePath ('/' :: rest) = '/' :: rest →
        calcPath env m ('/' :: rest) ref = '/' :: rest)
    ∧ (∀ path, path ≠ [] → path.head? ≠ some '/' → ref ≠ [] →
        env.canonicalFilePath (env.absoluteFilePath (env.absoluteDir ref) path)
          = env.absoluteFilePath (env.absoluteDir ref) path →
        calcPath env m path ref = env.absoluteFilePath (env.absoluteDir ref) path)
    ∧ (∀ path, path ≠ [] → path.head? ≠ some '/' → ref = [] →
        env.canonicalFilePath (env.absoluteFilePath m.d_sourceRoot path)
          = env.absoluteFilePath m.d_sourceRoot path →
        calcPath env m path ref = env.absoluteFilePath m.d_sourceRoot path)
    ∧ calcPath twoFilesEnv projModel "//x/y".toList "/proj/sub/BUILD".toList
        = "/proj/x/y".toList
    ∧ calcPath twoFilesEnv projModel "z".toList "/proj/sub/BUILD".toList
        = "/proj/sub/z".toList
    ∧ calcPath twoFilesEnv projModel "//x/none".toList "/proj/sub/BUILD".toList = [] := by
  have e2 : "//".toList = ['/', '/'] := rfl
  have e1 : "/".toList = ['/'] := rfl
  have h1 : ∀ x, calcPath env m ("//".toList ++ x) ref
      = env.canonicalFilePath (env.absoluteFilePath m.d_sourceRoot x) := by
    intro x
    simp [calcPath, startsWithStr, e2, mid]
    have : ¬ ((x.length : Int) + 1 + 1 < 2) := by omega
    rw [if_neg this]
  have h2 : ∀ rest, rest.head? ≠ some '/' →
      calcPath env m ('/' :: rest) ref = env.canonicalFilePath ('/' :: rest) := by
    intro rest hr
    cases rest with
    | nil => simp [calcPath, startsWithStr, e2, e1]
    | cons c cs =>
      have hc : c ≠ '/' := by simpa using hr
      simp [calcPath, startsWithStr, e2, e1, hc]
      rw [if_neg (fun h => hc h.symm)]
  have h3 : ∀ path, path ≠ [] → path.head? ≠ some '/' → ref ≠ [] →
      calcPath env m path ref
        = env.canonicalFilePath (env.absoluteFilePath (env.absoluteDir ref) path) := by
    intro path hp hh href
    cases path with
    | nil => exact absurd rfl hp
    | cons c cs =>
      have hc : c ≠ '/' := by simpa using hh
      cases ref with
      | nil => exact absurd rfl href
      | cons r rs => simp [calcPath, startsWithStr, e2, e1, hc, Ne.symm hc]
  have h4 : ∀ path, path ≠ [] → path.head? ≠ some '/' → ref = [] →
      calcPath env m path ref
        = env.canonicalFilePath (env.absoluteFilePath m.d_sourceRoot path) := by
    intro path hp hh href
    subst href
    cases path with
    | nil => exact absurd rfl hp
    | cons c cs =>
      have hc : c ≠ '/' := by simpa using hh
      simp [calcPath, startsWithStr, e2, e1, hc, Ne.symm hc]
  refine ⟨h1, h2, h3, h4, ?_, ?_, ?_, ?_, by decide, by decide, by decide⟩
  · intro x hq
    rw [h1 x, hq]
  · intro rest hr hq
    rw [h2 rest hr, hq]
  · intro path hp hh href hq
    rw [h3 path hp hh href, hq]
  · intro path hp hh href hq
    rw [h4 path hp hh href, hq]

theorem calcPath_resolves_witness :
    (twoFilesEnv.canonicalFilePath (twoFilesEnv.absoluteFilePath projModel.d_sourceRoot
          "x/y".toList) = twoFilesEnv.absoluteFilePath projModel.d_sourceRoot "x/y".toList
      ∧ twoFilesEnv.canonicalFilePath "/proj/miss".toList ≠ "/proj/miss".toList)
    ∧ calcPath twoFilesEnv projModel ("//".toList ++ "x/y".toList) "/proj/sub/BUILD".toList
        = "/proj/x/y".toList
    ∧ calcPath twoFilesEnv projModel "z".toList "/proj/sub/BUILD".toList
        = "/proj/sub/z".toList :=
  ⟨⟨by decide, by decide⟩,
   ((calcPath_resolves twoFilesEnv projModel "/proj/sub/BUILD".toList).2.2.2.2.1
      "x/y".toList (by decide)).trans (by decide),
   ((calcPath_resolves twoFilesEnv projModel "/proj/sub/BUILD".toList).2.2.2.2.2.2.1
      "z".toList (by decide) (by decide) (by decide) (by decide)).trans (by decide)⟩

/-! ## The walk: imports of missing files -/

/-- A string token without `$` and without a label name is walked without any recording. -/
theorem string_plain (env : Env) (f : Nat) (st : SynTree) (sc : ScopeId) (m : CodeModel)
    (hty : st.d_tok.d_type = TokenType.Tok_string)
    (hd : findNonEscapedDollar st.d_tok.d_val 0 = -1)
    (hn : (extractPathIdentFromString st.d_tok.d_val).2 = []) :
    string env (f + 2) st sc m = Except.ok (m, st) := by
  rw [string]
  simp only [hd, stringLoop_done, qassert, hty, decide_True, if_true, bind, Except.bind,
    pure, Except.pure]
  rw [(stringLabel_cases m st).1 hn]

/-- C16: an `import` of a string literal (without `$`, and no label by its shape) whose
resolved path is empty, as `calcPath` returns it for a file that does not exist because
`QFileInfo::canonicalFilePath` is empty then: `import_` returns, appends the argument once
to the unresolved imports of the scope and to `allUnresolvedImports`, leaves the resolved
imports and `allImports` as they are, and reports nothing, neither an error nor the warning
of the claim: the error sink is unchanged. -/
theorem import_missing_file (env : Env) (f : Nat) (st c2 arg ref : SynTree) (sc : ScopeId)
    (m : CodeModel) (s : Scope)
    (hc2 : st.d_children[2]? = some c2) (hty2 : c2.d_tok.d_type = TokenType.R_ExprList)
    (harg : c2.d_children.head? = some arg) (hfl : flatten c2 = ref)
    (hty : ref.d_tok.d_type = TokenType.Tok_string)
    (hd : findNonEscapedDollar ref.d_tok.d_val 0 = -1)
    (hn : (extractPathIdentFromString ref.d_tok.d_val).2 = [])
    (hch : ref.d_children = [])
    (hmiss : calcPath env m (env.getEscapedVal ref.d_tok) ref.d_tok.d_sourcePath = [])
    (hsc : m.scopes[sc]? = some s) :
    ∃ m1, import_ env (f + 3) st sc m = Except.ok m1
      ∧ m1.d_errs = m.d_errs
      ∧ m1.d_allUnresolvedImports = m.d_allUnresolvedImports ++ [arg]
      ∧ m1.scopes[sc]? = some { s with d_unresolvedImports := s.d_unresolvedImports ++ [arg] }
      ∧ m1.d_allImports = m.d_allImports := by
  have hc2' : st.child 2 = Except.ok c2 := by
    simp [SynTree.child, hc2, pure, Except.pure]
  have hfirst : c2.first = Except.ok arg := by
    simp [SynTree.first, harg, pure, Except.pure]
  have hne : c2.d_children.isEmpty = false := by
    cases hx : c2.d_children with
    | nil => rw [hx] at harg; cases harg
    | cons a l => rfl
  have hstr := string_plain env f ref sc m hty hd hn
  have hnr : ¬ (c2.d_tok.d_type = TokenType.Tok_Rpar) := by rw [hty2]; decide
  have himp : import_ env (f + 3) st sc m
      = Except.ok { (m.modifyScope sc (fun s => { s with d_unresolvedImports := s.d_unresolvedImports ++ [arg] })) with d_allUnresolvedImports := m.d_allUnresolvedImports ++ [arg] } := by
    rw [import_]
    simp only [hc2', bind, Except.bind, hfl, hfirst, hstr, hnr, if_false, qassert, hty2, hne,
      hty, hch, calcPathRef, hmiss, pure, Except.pure, CodeModel.scope]
    simp [hsc]
    rfl
  refine ⟨_, himp, rfl, rfl, ?_, rfl⟩
  rw [modifyScope_get_same, hsc]
  rfl

theorem import_missing_file_witness :
    (missingImport.d_children[2]? = some (ruleNode TokenType.R_ExprList
        [exprNode (stringNode 1 8 "\"//missing.gni\"")])
      ∧ calcPath emptyFsEnv sampleModel
          (emptyFsEnv.getEscapedVal (stringNode 1 8 "\"//missing.gni\"").d_tok)
          (stringNode 1 8 "\"//missing.gni\"").d_tok.d_sourcePath = []
      ∧ sampleModel.scopes[0]? = some { d_kind := "file".toList })
    ∧ ∃ m1, import_ emptyFsEnv 3 missingImport 0 sampleModel = Except.ok m1
      ∧ m1.d_errs = sampleModel.d_errs
      ∧ m1.d_allUnresolvedImports = sampleModel.d_allUnresolvedImports
          ++ [exprNode (stringNode 1 8 "\"//missing.gni\"")]
      ∧ m1.scopes[0]? = some { d_kind := "file".toList, d_unresolvedImports := [] ++ [exprNode (stringNode 1 8 "\"//missing.gni\"")] }
      ∧ m1.d_allImports = sampleModel.d_allImports :=
  ⟨⟨rfl, by decide, rfl⟩,
   import_missing_file emptyFsEnv 0 missingImport _ _ _ 0 sampleModel { d_kind := "file".toList }
     rfl rfl rfl rfl rfl (by decide) (by decide) rfl (by decide) rfl⟩

/-! ## The walk: malformed calls -/

theorem child_ok {st c : SynTree} {i : Nat} (h : st.d_children[i]? = some c) :
    st.child i = Except.ok c := by
  simp [SynTree.child, h, pure, Except.pure]

theorem last_ok {st c : SynTree} (h : st.d_children.getLast? = some c) :
    st.last = Except.ok c := by
  simp [SynTree.last, h, pure, Except.pure]

theorem first_ok {st c : SynTree} (h : st.d_children.head? = some c) :
    st.first = Except.ok c := by
  simp [SynTree.first, h, pure, Except.pure]

theorem loop_invalid (env : Env) (f : Nat) (st c2 lastc : SynTree) (sc : ScopeId)
    (m : CodeModel) (hc2 : st.d_children[2]? = some c2)
    (hlast : st.d_children.getLast? = some lastc)
    (h : c2.d_tok.d_type = TokenType.Tok_Rpar ∨ lastc.d_tok.d_type ≠ TokenType.R_Block) :
    loop_ env (f + 1) st sc m
      = Except.ok (m.error ErrSource.Syntax "invalid foreach statement") := by
  rw [loop_]
  simp only [child_ok hc2, last_ok hlast, bind, Except.bind, h, if_true]
  rfl

theorem loop_invalid_list (env : Env) (f : Nat) (st c2 lastc : SynTree) (sc : ScopeId)
    (m : CodeModel) (hc2 : st.d_children[2]? = some c2)
    (hlast : st.d_children.getLast? = some lastc)
    (h2 : c2.d_tok.d_type = TokenType.R_ExprList)
    (hl : lastc.d_tok.d_type = TokenType.R_Block) (h5 : st.d_children.length = 5)
    (hn : c2.d_children.length ≠ 2) :
    loop_ env (f + 1) st sc m
      = Except.ok (m.error ErrSource.Syntax "invalid expression list in foreach statement") := by
  have h : ¬ (c2.d_tok.d_type = TokenType.Tok_Rpar ∨ lastc.d_tok.d_type ≠ TokenType.R_Block) := by
    rw [h2, hl]; decide
  rw [loop_]
  simp only [child_ok hc2, last_ok hlast, bind, Except.bind, h, if_false, qassert, h2, h5, hn,
    ne_eq, not_false_eq_true, if_true]
  simp [hl, pure, Except.pure]

theorem loop_invalid_var (env : Env) (f : Nat) (st c2 lastc a l : SynTree) (sc : ScopeId)
    (m : CodeModel) (hc2 : st.d_children[2]? = some c2)
    (hlast : st.d_children.getLast? = some lastc)
    (h2 : c2.d_tok.d_type = TokenType.R_ExprList)
    (hl : lastc.d_tok.d_type = TokenType.R_Block) (h5 : st.d_children.length = 5)
    (hargs : c2.d_children = [a, l])
    (hv : (flatten a).d_tok.d_type ≠ TokenType.Tok_identifier) :
    loop_ env (f + 1) st sc m
      = (expr env f l sc (m.error ErrSource.Syntax "invalid loop variable in foreach statement")
          >>= fun m1 => block env f lastc sc m1) := by
  have h : ¬ (c2.d_tok.d_type = TokenType.Tok_Rpar ∨ lastc.d_tok.d_type ≠ TokenType.R_Block) := by
    rw [h2, hl]; decide
  have hn : c2.d_children.length = 2 := by rw [hargs]; rfl
  have hf : c2.first = Except.ok a := first_ok (by rw [hargs]; rfl)
  have hla : c2.last = Except.ok l := last_ok (by rw [hargs]; rfl)
  rw [loop_]
  simp only [child_ok hc2, last_ok hlast, bind, Except.bind, h, if_false, qassert, h2, h5, hn,
    ne_eq, not_true_eq_false, hf, hla, hv, not_false_eq_true, if_true]
  simp [hl, pure, Except.pure]

theorem import_invalid (env : Env) (f : Nat) (st c2 : SynTree) (sc : ScopeId)
    (m : CodeModel) (hc2 : st.d_children[2]? = some c2)
    (h : c2.d_tok.d_type = TokenType.Tok_Rpar) :
    import_ env (f + 1) st sc m
      = Except.ok (m.error ErrSource.Syntax "invalid import statement") := by
  rw [import_]
  simp only [child_ok hc2, bind, Except.bind, h, if_true]
  rfl

theorem namedObj_invalid (env : Env) (f : Nat) (st c2 : SynTree) (sc : ScopeId)
    (kind : QByteArray) (m : CodeModel) (hc2 : st.d_children[2]? = some c2)
    (h : c2.d_tok.d_type = TokenType.Tok_Rpar) :
    namedObj_ env (f + 1) st sc kind m
      = Except.ok (m.error ErrSource.Syntax "invalid named object statement") := by
  rw [namedObj_]
  simp only [child_ok hc2, bind, Except.bind, h, if_true]
  rfl


theorem d_tok_mk (t : Token) (cs : List SynTree) : (SynTree.mk t cs).d_tok = t := rfl

theorem d_children_mk (t : Token) (cs : List SynTree) : (SynTree.mk t cs).d_children = cs :=
  rfl

theorem statementList_cons_call (env : Env) (f : Nat) (tl ts : Token) (st : SynTree)
    (rest : List SynTree) (sc : ScopeId) (m : CodeModel)
    (htl : tl.d_type = TokenType.R_StatementList) (hts : ts.d_type = TokenType.R_Statement)
    (hst : st.d_tok.d_type = TokenType.R_Call) :
    statementList env (f + 2) (.mk tl (.mk ts [st] :: rest)) sc m
      = (call_ env f st sc m >>= fun m1 =>
          rest.foldlM (fun m s => statement env (f + 1) s sc m) m1) := by
  rw [statementList]
  simp only [d_tok_mk, d_children_mk, htl, qassert, decide_True, if_true,
    List.foldlM_cons, bind, Except.bind, pure, Except.pure]
  rw [statement]
  simp [d_tok_mk, d_children_mk, hts, qassert, SynTree.first, hst, bind,
    Except.bind, pure, Except.pure]

/-- C19 (amended): `call_` appends the callee to `allFuncRefs` and then, for a `foreach`,
`import` or named-object call with an empty argument list, for a `foreach` without a body
block, and for a `foreach` whose argument list has not exactly two arguments, reports one
syntax error and returns: the model is otherwise unchanged, so no reference of the
arguments or the body is recorded and no scope is created. For a `foreach` whose loop
variable is not a plain identifier the error is reported, but the iterable expression and
the body are still walked in the enclosing scope. The statement list then walks the
following statements from the model that the call left. -/
theorem malformed_call_reported (env : Env) (f : Nat) (st callee c2 lastc : SynTree)
    (sc : ScopeId) (m : CodeModel) (hseed : m.Seeded) (hlen : 3 ≤ st.d_children.length)
    (hc : st.d_children[0]? = some callee)
    (hid : callee.d_tok.d_type = TokenType.Tok_identifier)
    (hc2 : st.d_children[2]? = some c2) (hlast : st.d_children.getLast? = some lastc) :
    (c2.d_tok.d_type = TokenType.Tok_Rpar →
      specCallRole callee.d_tok.d_val ≠ CallRole.BuiltinFunction →
      ∃ msg, call_ env (f + 2) st sc m = Except.ok
        (CodeModel.error { m with d_allFuncRefs := hashAppend m.d_allFuncRefs callee.d_tok.d_val callee } ErrSource.Syntax msg))
    ∧ (callee.d_tok.d_val = "foreach".toList → lastc.d_tok.d_type ≠ TokenType.R_Block →
      call_ env (f + 2) st sc m = Except.ok
        (CodeModel.error { m with d_allFuncRefs := hashAppend m.d_allFuncRefs callee.d_tok.d_val callee } ErrSource.Syntax "invalid foreach statement"))
    ∧ (callee.d_tok.d_val = "foreach".toList → c2.d_tok.d_type = TokenType.R_ExprList →
      lastc.d_tok.d_type = TokenType.R_Block → st.d_children.length = 5 →
      c2.d_children.length ≠ 2 →
      call_ env (f + 2) st sc m = Except.ok
        (CodeModel.error { m with d_allFuncRefs := hashAppend m.d_allFuncRefs callee.d_tok.d_val callee } ErrSource.Syntax "invalid expression list in foreach statement"))
    ∧ (∀ a l, callee.d_tok.d_val = "foreach".toList → c2.d_tok.d_type = TokenType.R_ExprList →
      lastc.d_tok.d_type = TokenType.R_Block → st.d_children.length = 5 →
      c2.d_children = [a, l] → (flatten a).d_tok.d_type ≠ TokenType.Tok_identifier →
      call_ env (f + 2) st sc m =
        (expr env f l sc (CodeModel.error { m with d_allFuncRefs := hashAppend m.d_allFuncRefs callee.d_tok.d_val callee } ErrSource.Syntax "invalid loop variable in foreach statement")
          >>= fun m1 => block env f lastc sc m1))
    ∧ (∀ (tl ts : Token) (rest : List SynTree) (m1 : CodeModel),
      tl.d_type = TokenType.R_StatementList → ts.d_type = TokenType.R_Statement →
      st.d_tok.d_type = TokenType.R_Call → call_ env (f + 2) st sc m = Except.ok m1 →
      statementList env (f + 4) (.mk tl (.mk ts [st] :: rest)) sc m
        = rest.foldlM (fun m s => statement env (f + 3) s sc m) m1) := by
  have hd := (call_dispatches env (f + 1) st callee sc m hseed hlen hc hid).1
  refine ⟨?_, ?_, ?_, ?_, ?_⟩
  · intro h2 hrole
    rw [hd]
    cases hr : specCallRole callee.d_tok.d_val with
    | Loop => exact ⟨_, loop_invalid env f st c2 lastc sc _ hc2 hlast (Or.inl h2)⟩
    | Import => exact ⟨_, import_invalid env f st c2 sc _ hc2 h2⟩
    | NamedObject => exact ⟨_, namedObj_invalid env f st c2 sc _ _ hc2 h2⟩
    | BuiltinFunction => exact absurd hr hrole
  · intro hv hl
    have hr : specCallRole callee.d_tok.d_val = CallRole.Loop := by simp [specCallRole, hv]
    rw [hd, hr]
    exact loop_invalid env f st c2 lastc sc _ hc2 hlast (Or.inr hl)
  · intro hv h2 hl h5 hn
    have hr : specCallRole callee.d_tok.d_val = CallRole.Loop := by simp [specCallRole, hv]
    rw [hd, hr]
    exact loop_invalid_list env f st c2 lastc sc _ hc2 hlast h2 hl h5 hn
  · intro a l hv h2 hl h5 hargs hvar
    have hr : specCallRole callee.d_tok.d_val = CallRole.Loop := by simp [specCallRole, hv]
    rw [hd, hr]
    exact loop_invalid_var env f st c2 lastc a l sc _ hc2 hlast h2 hl h5 hargs hvar
  · intro tl ts rest m1 htl hts hst h1
    rw [statementList_cons_call env (f + 2) tl ts st rest sc m htl hts hst, h1]
    rfl

/-- C19: for `foreach("x", items) \x7b y = 1 \x7d` one error is reported, and yet `items` is
recorded in `allRhs` and the target `y` of the body in the LHS map of the scope. -/
theorem malformed_loop_variable_walked :
    ((call_ sampleEnv 12 badVarLoop 0 sampleModel).toOption.map
      (fun m => (m.d_errs.length, hashValue m.d_allRhs "items".toList,
        m.scopes.map (fun s => hashValue s.d_lhs "y".toList))))
      = some (1, [identNode 1 14 "items"], [[identNode 2 1 "y"]]) := by
  decide!

theorem malformed_call_reported_witness :
    (sampleModel.Seeded ∧ 3 ≤ emptyLoop.d_children.length
      ∧ emptyLoop.d_children[0]? = some (identNode 1 1 "foreach")
      ∧ (identNode 1 1 "foreach").d_tok.d_type = TokenType.Tok_identifier
      ∧ emptyLoop.d_children[2]? = some (tokenNode TokenType.Tok_Rpar 1 9)
      ∧ emptyLoop.d_children.getLast? = some (tokenNode TokenType.Tok_Rpar 1 9))
    ∧ call_ sampleEnv 2 emptyLoop 0 sampleModel = Except.ok
        (CodeModel.error { sampleModel with d_allFuncRefs := hashAppend sampleModel.d_allFuncRefs (identNode 1 1 "foreach").d_tok.d_val (identNode 1 1 "foreach") } ErrSource.Syntax "invalid foreach statement") :=
  ⟨⟨⟨rfl, rfl, rfl, rfl⟩, by decide, rfl, rfl, rfl, rfl⟩,
   (malformed_call_reported sampleEnv 0 emptyLoop (identNode 1 1 "foreach")
      (tokenNode TokenType.Tok_Rpar 1 9) (tokenNode TokenType.Tok_Rpar 1 9) 0 sampleModel
      ⟨rfl, rfl, rfl, rfl⟩ (by decide) rfl rfl rfl rfl).2.1 rfl (by decide)⟩
/-! ## The walk as a sequence of recordings -/

theorem Steps.none_made (m : CodeModel) : Steps m m := Relation.ReflTransGen.refl

theorem Steps.followed_by {a b c : CodeModel} (h1 : Steps a b) (h2 : Steps b c) : Steps a c :=
  Relation.ReflTransGen.trans h1 h2

theorem Steps.single {a b : CodeModel} (h : Prim a b) : Steps a b :=
  Relation.ReflTransGen.single h

theorem Steps.of_error (m : CodeModel) (src : ErrSource) (msg : String) :
    Steps m (m.error src msg) :=
  Steps.single (Prim.errs m _)

theorem Steps.of_warning (m : CodeModel) (src : ErrSource) (msg : String) :
    Steps m (m.warning src msg) :=
  Steps.single (Prim.errs m _)

theorem Steps.of_foldlM (step : CodeModel → SynTree → Walk CodeModel)
    (hstep : ∀ x m m1, step m x = Except.ok m1 → Steps m m1) :
    ∀ (l : List SynTree) (m m1 : CodeModel), l.foldlM step m = Except.ok m1 → Steps m m1 := by
  intro l
  induction l with
  | nil =>
    intro m m1 h
    have := pure_ok h
    subst this
    exact Steps.none_made m
  | cons x xs ih =>
    intro m m1 h
    rw [List.foldlM_cons] at h
    obtain ⟨m2, h2, h⟩ := bind_ok h
    exact (hstep x m m2 h2).followed_by (ih m2 m1 h)

theorem Steps.of_stringLabel (m : CodeModel) (st : SynTree) : Steps m (stringLabel m st) := by
  unfold Gn.stringLabel
  dsimp only
  split_ifs <;>
    first
    | exact Steps.none_made m
    | exact Steps.single (Prim.funcRef _ _ _)
    | exact Steps.single (Prim.unresolvedRef _ _)
    | exact (Steps.single (Prim.funcRef _ _ _)).followed_by (Steps.single (Prim.unresolvedRef _ _))

theorem steps_statementList (env : Env) (f : Nat) (IH : StepsAll env f)
    {st : SynTree} {sc : ScopeId} {m m1 : CodeModel}
    (h : statementList env (f + 1) st sc m = Except.ok m1) :
    Steps m m1 := by
  rw [statementList] at h
  obtain ⟨_, _, h⟩ := bind_ok h
  exact Steps.of_foldlM _ (fun x m m1 hx => IH.statement x sc m m1 hx) _ _ _ h

theorem steps_statement (env : Env) (f : Nat) (IH : StepsAll env f)
    {st : SynTree} {sc : ScopeId} {m m1 : CodeModel}
    (h : statement env (f + 1) st sc m = Except.ok m1) :
    Steps m m1 := by
  rw [statement] at h
  obtain ⟨_, _, h⟩ := bind_ok h
  obtain ⟨c, _, h⟩ := bind_ok h
  split at h
  · exact IH.assignment_ _ _ _ _ h
  · exact IH.call_ _ _ _ _ h
  · exact IH.condition_ _ _ _ _ h
  · have := pure_ok h
    subst this
    exact Steps.none_made _

theorem steps_call_ (env : Env) (f : Nat) (IH : StepsAll env f)
    {st : SynTree} {sc : ScopeId} {m m1 : CodeModel}
    (h : call_ env (f + 1) st sc m = Except.ok m1) :
    Steps m m1 := by
  rw [call_] at h
  obtain ⟨_, _, h⟩ := bind_ok h
  obtain ⟨callee, _, h⟩ := bind_ok h
  dsimp only at h
  have f1 : Steps m
      { m with d_allFuncRefs := hashAppend m.d_allFuncRefs callee.d_tok.d_val callee } :=
    Steps.single (Prim.funcRef _ _ _)
  split at h
  · exact f1.followed_by (IH.loop_ _ _ _ _ h)
  · split at h
    · exact f1.followed_by (IH.import_ _ _ _ _ h)
    · split at h
      · exact f1.followed_by (IH.namedObj_ _ _ _ _ _ h)
      · exact f1.followed_by (IH.function_ _ _ _ _ _ h)

theorem steps_expr (env : Env) (f : Nat) (IH : StepsAll env f)
    {st : SynTree} {sc : ScopeId} {m m1 : CodeModel}
    (h : expr env (f + 1) st sc m = Except.ok m1) :
    Steps m m1 := by
  rw [expr] at h
  obtain ⟨_, _, h⟩ := bind_ok h
  obtain ⟨c, _, h⟩ := bind_ok h
  obtain ⟨m2, h2, h⟩ := bind_ok h
  have f1 := IH.unaryExpr _ _ _ _ h2
  split at h
  · split at h
    · obtain ⟨c2, _, h⟩ := bind_ok h
      exact f1.followed_by (IH.exprNlr _ _ _ _ h)
    · simp [throw, throwThe, MonadExceptOf.throw] at h
  · have := pure_ok h
    subst this
    exact f1

theorem steps_exprList (env : Env) (f : Nat) (IH : StepsAll env f)
    {st : SynTree} {sc : ScopeId} {m m1 : CodeModel}
    (h : exprList env (f + 1) st sc m = Except.ok m1) :
    Steps m m1 := by
  rw [exprList] at h
  obtain ⟨_, _, h⟩ := bind_ok h
  exact Steps.of_foldlM _ (fun x m m1 hx => IH.expr x sc m m1 hx) _ _ _ h

theorem steps_block (env : Env) (f : Nat) (IH : StepsAll env f)
    {st : SynTree} {sc : ScopeId} {m m1 : CodeModel}
    (h : block env (f + 1) st sc m = Except.ok m1) :
    Steps m m1 := by
  rw [block] at h
  obtain ⟨_, _, h⟩ := bind_ok h
  obtain ⟨c, _, h⟩ := bind_ok h
  exact IH.statementList _ _ _ _ h

theorem steps_condition_ (env : Env) (f : Nat) (IH : StepsAll env f)
    {st : SynTree} {sc : ScopeId} {m m1 : CodeModel}
    (h : condition_ env (f + 1) st sc m = Except.ok m1) :
    Steps m m1 := by
  rw [condition_] at h
  obtain ⟨_, _, h⟩ := bind_ok h
  obtain ⟨c2, _, h⟩ := bind_ok h
  obtain ⟨m2, h2, h⟩ := bind_ok h
  obtain ⟨c4, _, h⟩ := bind_ok h
  obtain ⟨m3, h3, h⟩ := bind_ok h
  have f1 := (IH.expr _ _ _ _ h2).followed_by (IH.block _ _ _ _ h3)
  split at h
  · obtain ⟨_, _, h⟩ := bind_ok h
    obtain ⟨c6, _, h⟩ := bind_ok h
    split at h
    · exact f1.followed_by (IH.condition_ _ _ _ _ h)
    · exact f1.followed_by (IH.block _ _ _ _ h)
  · have := pure_ok h
    subst this
    exact f1

theorem steps_assignment_ (env : Env) (f : Nat) (IH : StepsAll env f)
    {st : SynTree} {sc : ScopeId} {m m1 : CodeModel}
    (h : assignment_ env (f + 1) st sc m = Except.ok m1) :
    Steps m m1 := by
  rw [assignment_] at h
  obtain ⟨_, _, h⟩ := bind_ok h
  obtain ⟨c, _, h⟩ := bind_ok h
  obtain ⟨m2, h2, h⟩ := bind_ok h
  obtain ⟨c2, _, h⟩ := bind_ok h
  exact (IH.lvalue _ _ _ _ h2).followed_by (IH.expr _ _ _ _ h)

theorem steps_lvalue (env : Env) (f : Nat) (IH : StepsAll env f)
    {st : SynTree} {sc : ScopeId} {m m1 : CodeModel}
    (h : lvalue env (f + 1) st sc m = Except.ok m1) :
    Steps m m1 := by
  rw [lvalue] at h
  obtain ⟨_, _, h⟩ := bind_ok h
  obtain ⟨id, _, h⟩ := bind_ok h
  split at h
  · split at h
    · obtain ⟨_, _, h⟩ := bind_ok h
      obtain ⟨m2, h2, h⟩ := bind_ok h
      obtain ⟨c2, _, h⟩ := bind_ok h
      exact (Steps.single (Prim.varLhs _ _ _ _ h2)).followed_by (IH.expr _ _ _ _ h)
    · split at h
      · obtain ⟨_, _, h⟩ := bind_ok h
        obtain ⟨m2, h2, h⟩ := bind_ok h
        obtain ⟨c2, _, h⟩ := bind_ok h
        have f1 : Steps m m2 := Steps.single (Prim.varRhs _ _ _ _ h2)
        exact f1.followed_by (Steps.single (Prim.varLhs _ _ _ _ h))
      · exact absurd h (fun h => throw_ok h)
  · exact Steps.single (Prim.varLhs _ _ _ _ h)

theorem steps_primaryExpr (env : Env) (f : Nat) (IH : StepsAll env f)
    {st : SynTree} {sc : ScopeId} {m m1 : CodeModel}
    (h : primaryExpr env (f + 1) st sc m = Except.ok m1) :
    Steps m m1 := by
  rw [primaryExpr] at h
  obtain ⟨_, _, h⟩ := bind_ok h
  obtain ⟨c, _, h⟩ := bind_ok h
  split at h
  · exact IH.call_ _ _ _ _ h
  · obtain ⟨r, hr, h⟩ := bind_ok h
    obtain ⟨m2, st2⟩ := r
    have := pure_ok h
    subst this
    exact IH.string _ _ _ _ _ hr
  · obtain ⟨_, _, h⟩ := bind_ok h
    obtain ⟨c1, _, h⟩ := bind_ok h
    exact IH.expr _ _ _ _ h
  · obtain ⟨_, _, h⟩ := bind_ok h
    obtain ⟨c1, _, h⟩ := bind_ok h
    exact IH.block _ _ _ _ h
  · exact Steps.single (Prim.varRhs _ _ _ _ h)
  · exact IH.arrayAccess _ _ _ _ h
  · exact IH.scopeAccess _ _ _ _ h
  · exact IH.list _ _ _ _ h
  · have := pure_ok h
    subst this
    exact Steps.none_made _

theorem steps_unaryExpr (env : Env) (f : Nat) (IH : StepsAll env f)
    {st : SynTree} {sc : ScopeId} {m m1 : CodeModel}
    (h : unaryExpr env (f + 1) st sc m = Except.ok m1) :
    Steps m m1 := by
  rw [unaryExpr] at h
  obtain ⟨_, _, h⟩ := bind_ok h
  split at h
  · obtain ⟨c, _, h⟩ := bind_ok h
    exact IH.primaryExpr _ _ _ _ h
  · split at h
    · obtain ⟨_, _, h⟩ := bind_ok h
      obtain ⟨c, _, h⟩ := bind_ok h
      exact IH.unaryExpr _ _ _ _ h
    · exact absurd h (fun h => throw_ok h)

theorem steps_exprNlr (env : Env) (f : Nat) (IH : StepsAll env f)
    {st : SynTree} {sc : ScopeId} {m m1 : CodeModel}
    (h : exprNlr env (f + 1) st sc m = Except.ok m1) :
    Steps m m1 := by
  rw [exprNlr] at h
  obtain ⟨_, _, h⟩ := bind_ok h
  obtain ⟨_, _, h⟩ := bind_ok h
  obtain ⟨c, _, h⟩ := bind_ok h
  obtain ⟨m2, h2, h⟩ := bind_ok h
  have f1 := IH.expr _ _ _ _ h2
  split at h
  · split at h
    · obtain ⟨c2, _, h⟩ := bind_ok h
      exact f1.followed_by (IH.exprNlr _ _ _ _ h)
    · exact absurd h (fun h => throw_ok h)
  · have := pure_ok h
    subst this
    exact f1

theorem steps_arrayAccess (env : Env) (f : Nat) (IH : StepsAll env f)
    {st : SynTree} {sc : ScopeId} {m m1 : CodeModel}
    (h : arrayAccess env (f + 1) st sc m = Except.ok m1) :
    Steps m m1 := by
  rw [arrayAccess] at h
  obtain ⟨_, _, h⟩ := bind_ok h
  obtain ⟨c, _, h⟩ := bind_ok h
  obtain ⟨m2, h2, h⟩ := bind_ok h
  obtain ⟨c2, _, h⟩ := bind_ok h
  exact (Steps.single (Prim.varRhs _ _ _ _ h2)).followed_by (IH.expr _ _ _ _ h)

theorem steps_scopeAccess (env : Env) (f : Nat)
    {st : SynTree} {sc : ScopeId} {m m1 : CodeModel}
    (h : scopeAccess env f st sc m = Except.ok m1) :
    Steps m m1 := by
  unfold scopeAccess at h
  split at h
  · exact absurd h (fun h => throw_ok h)
  · obtain ⟨_, _, h⟩ := bind_ok h
    obtain ⟨c, _, h⟩ := bind_ok h
    obtain ⟨m2, h2, h⟩ := bind_ok h
    obtain ⟨c2, _, h⟩ := bind_ok h
    have f1 : Steps m m2 := Steps.single (Prim.varRhs _ _ _ _ h2)
    exact f1.followed_by (Steps.single (Prim.varRhs _ _ _ _ h))

theorem steps_list (env : Env) (f : Nat) (IH : StepsAll env f)
    {st : SynTree} {sc : ScopeId} {m m1 : CodeModel}
    (h : list env (f + 1) st sc m = Except.ok m1) :
    Steps m m1 := by
  rw [list] at h
  obtain ⟨_, _, h⟩ := bind_ok h
  exact Steps.of_foldlM _ (fun x m m1 hx => IH.expr x sc m m1 hx) _ _ _ h

theorem steps_stringLoop (env : Env) (f : Nat) (IH : StepsAll env f)
    {st : SynTree} {sc : ScopeId} {pos : Int} {m m1 : CodeModel} {st1 : SynTree} {b : Bool}
    (h : stringLoop env (f + 1) st sc pos m = Except.ok (m1, st1, b)) :
    Steps m m1 := by
  rw [stringLoop] at h
  dsimp only at h
  split at h
  · split at h
    · split at h
      · split at h
        · have := pure_ok h
          cases this
          exact Steps.of_error m _ _
        · obtain ⟨r, hr, h⟩ := bind_ok h
          obtain ⟨m2, st2⟩ := r
          exact (IH.stringVar_ _ _ _ _ _ _ _ hr).followed_by (IH.stringLoop _ _ _ _ _ _ _ h)
      · split at h
        · exact IH.stringLoop _ _ _ _ _ _ _ h
        · obtain ⟨r, hr, h⟩ := bind_ok h
          obtain ⟨m2, st2⟩ := r
          exact (IH.stringVar_ _ _ _ _ _ _ _ hr).followed_by (IH.stringLoop _ _ _ _ _ _ _ h)
    · exact IH.stringLoop _ _ _ _ _ _ _ h
  · have := pure_ok h
    cases this
    exact Steps.none_made _

theorem steps_string (env : Env) (f : Nat) (IH : StepsAll env f)
    {st : SynTree} {sc : ScopeId} {m m1 : CodeModel} {st1 : SynTree}
    (h : string env (f + 1) st sc m = Except.ok (m1, st1)) :
    Steps m m1 := by
  rw [string] at h
  obtain ⟨_, _, h⟩ := bind_ok h
  obtain ⟨r, hr, h⟩ := bind_ok h
  obtain ⟨m2, st2, b⟩ := r
  have f1 := IH.stringLoop _ _ _ _ _ _ _ hr
  dsimp only at h
  split at h
  · have e1 : stringLabel m2 st2 = m1 := congrArg Prod.fst (pure_ok h)
    rw [← e1]
    exact f1.followed_by (Steps.of_stringLabel m2 st2)
  · have e1 : m2 = m1 := congrArg Prod.fst (pure_ok h)
    rw [← e1]
    exact f1

theorem steps_stringVar_ (env : Env) (f : Nat) (IH : StepsAll env f)
    {st : SynTree} {sc : ScopeId} {pos len : Int} {m m1 : CodeModel} {st1 : SynTree}
    (h : stringVar_ env (f + 1) st sc pos len m = Except.ok (m1, st1)) :
    Steps m m1 := by
  rw [stringVar_] at h
  dsimp only at h
  have f0 : Steps m
      { m with d_errs := m.d_errs ++ (env.parsePrimaryExpr (mid st.d_tok.d_val pos len)).2 } :=
    Steps.single (Prim.errs _ _)
  obtain ⟨_, _, h⟩ := bind_ok h
  split at h
  · have := pure_ok h
    cases this
    exact f0
  · obtain ⟨_, _, h⟩ := bind_ok h
    obtain ⟨c, _, h⟩ := bind_ok h
    split at h
    · obtain ⟨_, _, h⟩ := bind_ok h
      obtain ⟨m2, h2, h⟩ := bind_ok h
      obtain ⟨c2, _, h⟩ := bind_ok h
      have := pure_ok h
      cases this
      exact f0.followed_by (IH.primaryExpr _ _ _ _ h2)
    · have := pure_ok h
      cases this
      exact f0.followed_by (Steps.of_error _ _ _)

theorem steps_loop_ (env : Env) (f : Nat) (IH : StepsAll env f)
    {st : SynTree} {sc : ScopeId} {m m1 : CodeModel}
    (h : loop_ env (f + 1) st sc m = Except.ok m1) :
    Steps m m1 := by
  rw [loop_] at h
  obtain ⟨c2, _, h⟩ := bind_ok h
  obtain ⟨lastc, _, h⟩ := bind_ok h
  split at h
  · have := pure_ok h
    subst this
    exact Steps.of_error m _ _
  · obtain ⟨_, _, h⟩ := bind_ok h
    split at h
    · have := pure_ok h
      subst this
      exact Steps.of_error m _ _
    · obtain ⟨v, _, h⟩ := bind_ok h
      dsimp only at h
      obtain ⟨e, _, h⟩ := bind_ok h
      obtain ⟨m2, h2, h⟩ := bind_ok h
      split at h2
      · exact ((Steps.of_error m _ _).followed_by (IH.expr _ _ _ _ h2)).followed_by (IH.block _ _ _ _ h)
      · exact ((Steps.single (Prim.loopVar m _)).followed_by (IH.expr _ _ _ _ h2)).followed_by
          (IH.block _ _ _ _ h)

theorem steps_function_ (env : Env) (f : Nat) (IH : StepsAll env f)
    {st : SynTree} {sc : ScopeId} {kind : QByteArray} {m m1 : CodeModel}
    (h : function_ env (f + 1) st sc kind m = Except.ok m1) :
    Steps m m1 := by
  rw [function_] at h
  obtain ⟨_, _, h⟩ := bind_ok h
  obtain ⟨c2, _, h⟩ := bind_ok h
  obtain ⟨m2, h2, h⟩ := bind_ok h
  have f1 : Steps m m2 := by
    split at h2
    · exact IH.exprList _ _ _ _ h2
    · have := pure_ok h2
      subst this
      exact Steps.none_made _
  obtain ⟨lastc, _, h⟩ := bind_ok h
  split at h
  · obtain ⟨s, hs, h⟩ := bind_ok h
    have hlt := scope_lt hs
    have f2 : Steps m2 (newScope m2 sc st kind).1 := Steps.single (Prim.newScope _ _ _ _ hlt)
    have hid := newScope_snd m2 sc st kind
    rcases hns : newScope m2 sc st kind with ⟨m3, id⟩
    rw [hns] at h f2 hid
    dsimp only at h f2 hid
    subst hid
    split at h
    · exact ((f1.followed_by f2).followed_by (Steps.single (Prim.params _ _ _))).followed_by
        (IH.block _ _ _ _ h)
    · exact (f1.followed_by f2).followed_by (IH.block _ _ _ _ h)
  · have := pure_ok h
    subst this
    exact f1

theorem steps_namedObj_ (env : Env) (f : Nat) (IH : StepsAll env f)
    {st : SynTree} {sc : ScopeId} {kind : QByteArray} {m m1 : CodeModel}
    (h : namedObj_ env (f + 1) st sc kind m = Except.ok m1) :
    Steps m m1 := by
  rw [namedObj_] at h
  obtain ⟨c2, _, h⟩ := bind_ok h
  split at h
  · have := pure_ok h
    subst this
    exact Steps.of_error m _ _
  · obtain ⟨_, _, h⟩ := bind_ok h
    obtain ⟨s, hs, h⟩ := bind_ok h
    have hlt := scope_lt hs
    have f2 : Steps m (newScope m sc st kind).1 := Steps.single (Prim.newScope _ _ _ _ hlt)
    have hid := newScope_snd m sc st kind
    rcases hns : newScope m sc st kind with ⟨m3, id⟩
    rw [hns] at h f2 hid
    dsimp only at h f2 hid
    subst hid
    obtain ⟨arg, _, h⟩ := bind_ok h
    obtain ⟨m4, h4, h⟩ := bind_ok h
    have f4 : Steps m m4 := by
      split at h4
      · obtain ⟨r, hr, h4⟩ := bind_ok h4
        obtain ⟨m5, name⟩ := r
        dsimp only at h4
        have f6 := (f2.followed_by (IH.string _ _ _ _ _ hr)).followed_by
          (Steps.single (Prim.params m5 m.scopes.length name))
        have hnew : ∃ s1 o, (m5.modifyScope m.scopes.length
            (fun s => { s with d_params := some name })).scopes[m.scopes.length]? = some s1
              ∧ s1.d_outer = some o := by
          have hf := (newScope_facts m sc st kind s (scope_ok hs)).1
          have hl := newScope_length m sc st kind
          rw [hns] at hf hl
          dsimp only at hf hl
          have ho := ((frameAll env f).string _ _ _ _ _ hr).others m.scopes.length
            (by omega) (Nat.ne_of_gt hlt)
          rw [modifyScope_get_same, ho, hf]
          exact ⟨_, sc, rfl, rfl⟩
        split at h4
        · have := pure_ok h4
          subst this
          exact f6.followed_by (Steps.single (Prim.namedDef _ _ _ _ hnew))
        · have := pure_ok h4
          subst this
          exact f6.followed_by (Steps.single (Prim.unnamed _ _))
      · obtain ⟨m5, h5, h4⟩ := bind_ok h4
        have := pure_ok h4
        subst this
        exact ((f2.followed_by (Steps.single (Prim.params m3 m.scopes.length arg))).followed_by
          (IH.expr _ _ _ _ h5)).followed_by (Steps.single (Prim.unnamed _ _))
    split at h
    · split at h
      · obtain ⟨lastc, _, h⟩ := bind_ok h
        exact f4.followed_by (IH.block _ _ _ _ h)
      · exact absurd h (fun h => throw_ok h)
    · have := pure_ok h
      subst this
      exact f4

theorem steps_parseFile (env : Env) (f : Nat) (IH : StepsAll env f)
    {path : QByteArray} {m m1 : CodeModel} {r : Option ScopeId}
    (h : parseFile env (f + 1) path m = Except.ok (m1, r)) :
    Steps m m1 := by
  rw [parseFile] at h
  dsimp only at h
  split at h
  · have e1 := (pure_pair_ok h).1
    rw [← e1]
    exact Steps.none_made _
  · rename_i hnone
    split at h
    · have e1 := (pure_pair_ok h).1
      rw [← e1]
      exact Steps.of_warning m _ _
    · rename_i children reports _
      obtain ⟨_, _, h⟩ := bind_ok h
      have f0 : Steps m { m with d_errs := m.d_errs ++ reports } :=
        Steps.single (Prim.errs _ _)
      split at h
      · have e1 := (pure_pair_ok h).1
        rw [← e1]
        exact f0
      · rename_i st rest
        obtain ⟨m2, h2, h⟩ := bind_ok h
        have e1 := (pure_pair_ok h).1
        rw [← e1]
        have f1 := f0.followed_by (Steps.single
          (Prim.fileScope { m with d_errs := m.d_errs ++ reports } (getSymbolBytes path) hnone))
        exact (f1.followed_by (IH.statementList _ _ _ _ h2)).followed_by
          (Steps.single (Prim.fileDone _ _ _))

theorem steps_import_ (env : Env) (f : Nat) (IH : StepsAll env f)
    {st : SynTree} {sc : ScopeId} {m m1 : CodeModel}
    (h : import_ env (f + 1) st sc m = Except.ok m1) :
    Steps m m1 := by
  rw [import_] at h
  obtain ⟨c2, _, h⟩ := bind_ok h
  split at h
  · have := pure_ok h
    subst this
    exact Steps.of_error m _ _
  · obtain ⟨_, _, h⟩ := bind_ok h
    dsimp only at h
    obtain ⟨arg, _, h⟩ := bind_ok h
    obtain ⟨r, hr, h⟩ := bind_ok h
    obtain ⟨m2, resolved⟩ := r
    dsimp only at h
    have f2 : Steps m m2 := by
      split at hr
      · obtain ⟨r3, hr3, hr⟩ := bind_ok hr
        obtain ⟨m3, ref⟩ := r3
        dsimp only at hr
        have f3 := IH.string _ _ _ _ _ hr3
        split at hr
        · obtain ⟨path, _, hr⟩ := bind_ok hr
          split at hr
          · have f4 := f3.followed_by (Steps.single (Prim.imports m3 (getSymbolBytes path) ref))
            split at hr
            · obtain ⟨r5, hr5, hr⟩ := bind_ok hr
              obtain ⟨m5, res⟩ := r5
              dsimp only at hr
              have f5 := f4.followed_by (IH.parseFile _ _ _ _ hr5)
              split at hr
              · obtain ⟨rs, _, hr⟩ := bind_ok hr
                have e1 := (pure_pair_ok hr).1
                rw [← e1]
                exact f5.followed_by (Steps.single (Prim.resolved _ _ _ _))
              · have e1 := (pure_pair_ok hr).1
                rw [← e1]
                exact f5
            · have e1 := (pure_pair_ok hr).1
              rw [← e1]
              exact f4.followed_by (Steps.of_warning _ _ _)
          · have e1 := (pure_pair_ok hr).1
            rw [← e1]
            exact f3
        · have e1 := (pure_pair_ok hr).1
          rw [← e1]
          exact f3
      · obtain ⟨m3, h3, hr⟩ := bind_ok hr
        have e1 := (pure_pair_ok hr).1
        rw [← e1]
        exact IH.expr _ _ _ _ h3
    split at h
    · obtain ⟨_, hs, h⟩ := bind_ok h
      have := pure_ok h
      subst this
      exact f2.followed_by (Steps.single (Prim.unresolved _ _ _ (scope_lt hs)))
    · have := pure_ok h
      subst this
      exact f2

/-- Every walk function makes a sequence of recordings, at every fuel. -/
theorem stepsAll (env : Env) : ∀ f : Nat, StepsAll env f := by
  intro f
  induction f with
  | zero =>
    exact {
      parseFile := fun path m m1 r h => by rw [Gn.parseFile] at h; exact absurd h (fun h => throw_ok h)
      statementList := fun st sc m m1 h => by rw [Gn.statementList] at h; exact absurd h (fun h => throw_ok h)
      statement := fun st sc m m1 h => by rw [Gn.statement] at h; exact absurd h (fun h => throw_ok h)
      call_ := fun st sc m m1 h => by rw [Gn.call_] at h; exact absurd h (fun h => throw_ok h)
      loop_ := fun st sc m m1 h => by rw [Gn.loop_] at h; exact absurd h (fun h => throw_ok h)
      import_ := fun st sc m m1 h => by rw [Gn.import_] at h; exact absurd h (fun h => throw_ok h)
      expr := fun st sc m m1 h => by rw [Gn.expr] at h; exact absurd h (fun h => throw_ok h)
      exprList := fun st sc m m1 h => by rw [Gn.exprList] at h; exact absurd h (fun h => throw_ok h)
      block := fun st sc m m1 h => by rw [Gn.block] at h; exact absurd h (fun h => throw_ok h)
      condition_ := fun st sc m m1 h => by rw [Gn.condition_] at h; exact absurd h (fun h => throw_ok h)
      assignment_ := fun st sc m m1 h => by rw [Gn.assignment_] at h; exact absurd h (fun h => throw_ok h)
      lvalue := fun st sc m m1 h => by rw [Gn.lvalue] at h; exact absurd h (fun h => throw_ok h)
      primaryExpr := fun st sc m m1 h => by rw [Gn.primaryExpr] at h; exact absurd h (fun h => throw_ok h)
      unaryExpr := fun st sc m m1 h => by rw [Gn.unaryExpr] at h; exact absurd h (fun h => throw_ok h)
      exprNlr := fun st sc m m1 h => by rw [Gn.exprNlr] at h; exact absurd h (fun h => throw_ok h)
      arrayAccess := fun st sc m m1 h => by rw [Gn.arrayAccess] at h; exact absurd h (fun h => throw_ok h)
      list := fun st sc m m1 h => by rw [Gn.list] at h; exact absurd h (fun h => throw_ok h)
      scopeAccess := fun st sc m m1 h => steps_scopeAccess env 0 h
      stringLoop := fun st sc pos m m1 st1 b h => by rw [Gn.stringLoop] at h; exact absurd h (fun h => throw_ok h)
      string := fun st sc m m1 st1 h => by rw [Gn.string] at h; exact absurd h (fun h => throw_ok h)
      stringVar_ := fun st sc pos len m m1 st1 h => by rw [Gn.stringVar_] at h; exact absurd h (fun h => throw_ok h)
      namedObj_ := fun st sc kind m m1 h => by rw [Gn.namedObj_] at h; exact absurd h (fun h => throw_ok h)
      function_ := fun st sc kind m m1 h => by rw [Gn.function_] at h; exact absurd h (fun h => throw_ok h) }
  | succ f ih =>
    exact {
      parseFile := fun path m m1 r h => steps_parseFile env f ih h
      statementList := fun st sc m m1 h => steps_statementList env f ih h
      statement := fun st sc m m1 h => steps_statement env f ih h
      call_ := fun st sc m m1 h => steps_call_ env f ih h
      loop_ := fun st sc m m1 h => steps_loop_ env f ih h
      import_ := fun st sc m m1 h => steps_import_ env f ih h
      expr := fun st sc m m1 h => steps_expr env f ih h
      exprList := fun st sc m m1 h => steps_exprList env f ih h
      block := fun st sc m m1 h => steps_block env f ih h
      condition_ := fun st sc m m1 h => steps_condition_ env f ih h
      assignment_ := fun st sc m m1 h => steps_assignment_ env f ih h
      lvalue := fun st sc m m1 h => steps_lvalue env f ih h
      primaryExpr := fun st sc m m1 h => steps_primaryExpr env f ih h
      unaryExpr := fun st sc m m1 h => steps_unaryExpr env f ih h
      exprNlr := fun st sc m m1 h => steps_exprNlr env f ih h
      arrayAccess := fun st sc m m1 h => steps_arrayAccess env f ih h
      list := fun st sc m m1 h => steps_list env f ih h
      scopeAccess := fun st sc m m1 h => steps_scopeAccess env (f + 1) h
      stringLoop := fun st sc pos m m1 st1 b h => steps_stringLoop env f ih h
      string := fun st sc m m1 st1 h => steps_string env f ih h
      stringVar_ := fun st sc pos len m m1 st1 h => steps_stringVar_ env f ih h
      namedObj_ := fun st sc kind m m1 h => steps_namedObj_ env f ih h
      function_ := fun st sc kind m m1 h => steps_function_ env f ih h }

/-! ## The walk: what only grows -/

theorem hashValue_prefix_hashAppend {β : Type} (h : List (QByteArray × List β))
    (k k2 : QByteArray) (x : β) : hashValue h k2 <+: hashValue (hashAppend h k x) k2 := by
  by_cases e : k2 = k
  · subst e
    rw [hashValue_hashAppend_same]
    exact List.prefix_append _ _
  · rw [hashValue_hashAppend_other _ _ _ _ e]

theorem Grows.same (m : CodeModel) : Grows m m :=
  { config := ⟨rfl, rfl, rfl, rfl, rfl, rfl, rfl, rfl⟩
    scopes := fun _ s hs => ⟨s, hs, rfl, rfl, fun _ => List.prefix_refl _,
      fun _ => List.prefix_refl _⟩
    allLhs := fun _ => List.prefix_refl _
    allRhs := fun _ => List.prefix_refl _
    allFuncRefs := fun _ => List.prefix_refl _
    declared := List.prefix_refl _
    errs := List.prefix_refl _ }

theorem Grows.chain {a b c : CodeModel} (h1 : Grows a b) (h2 : Grows b c) : Grows a c := by
  obtain ⟨c1, c2, c3, c4, c5, c6, c7, c8⟩ := h1.config
  obtain ⟨d1, d2, d3, d4, d5, d6, d7, d8⟩ := h2.config
  refine
    { config := ⟨d1.trans c1, d2.trans c2, d3.trans c3, d4.trans c4, d5.trans c5,
        d6.trans c6, d7.trans c7, d8.trans c8⟩
      scopes := ?_
      allLhs := fun k => (h1.allLhs k).trans (h2.allLhs k)
      allRhs := fun k => (h1.allRhs k).trans (h2.allRhs k)
      allFuncRefs := fun k => (h1.allFuncRefs k).trans (h2.allFuncRefs k)
      declared := h1.declared.trans h2.declared
      errs := h1.errs.trans h2.errs }
  intro i s hs
  obtain ⟨s1, hs1, k1, o1, l1, r1⟩ := h1.scopes i s hs
  obtain ⟨s2, hs2, k2, o2, l2, r2⟩ := h2.scopes i s1 hs1
  exact ⟨s2, hs2, k2.trans k1, o2.trans o1, fun k => (l1 k).trans (l2 k),
    fun k => (r1 k).trans (r2 k)⟩

/-- A change of the model that leaves the scopes, the symbols, `declaredArgs` and the sink
as they are. -/
theorem Grows.of_global {m m1 : CodeModel} (hs : m1.scopes = m.scopes)
    (hc : m1.d_declare_args = m.d_declare_args ∧ m1.d_fileKind = m.d_fileKind
      ∧ m1.d_foreach = m.d_foreach ∧ m1.d_import = m.d_import
      ∧ m1.d_namedObjs = m.d_namedObjs ∧ m1.d_knownFuncs = m.d_knownFuncs
      ∧ m1.d_knownVars = m.d_knownVars ∧ m1.d_sourceRoot = m.d_sourceRoot)
    (hl : ∀ k, hashValue m.d_allLhs k <+: hashValue m1.d_allLhs k)
    (hr : ∀ k, hashValue m.d_allRhs k <+: hashValue m1.d_allRhs k)
    (hf : ∀ k, hashValue m.d_allFuncRefs k <+: hashValue m1.d_allFuncRefs k)
    (hd : m.d_declaredArgs <+: m1.d_declaredArgs) (he : m.d_errs <+: m1.d_errs) :
    Grows m m1 :=
  { config := hc
    scopes := fun i s h => ⟨s, by rw [hs]; exact h, rfl, rfl, fun _ => List.prefix_refl _,
      fun _ => List.prefix_refl _⟩
    allLhs := hl, allRhs := hr, allFuncRefs := hf, declared := hd, errs := he }

/-- An update of one scope that only lets its LHS and RHS lists grow. -/
theorem Grows.of_modify (m : CodeModel) (i : ScopeId) (g : Scope → Scope)
    (hg : ∀ s, (g s).d_kind = s.d_kind ∧ (g s).d_outer = s.d_outer
      ∧ (∀ k, hashValue s.d_lhs k <+: hashValue (g s).d_lhs k)
      ∧ (∀ k, hashValue s.d_rhs k <+: hashValue (g s).d_rhs k)) :
    Grows m (m.modifyScope i g) :=
  { config := ⟨rfl, rfl, rfl, rfl, rfl, rfl, rfl, rfl⟩
    scopes := by
      intro j s hs
      by_cases e : j = i
      · subst e
        refine ⟨g s, ?_, (hg s).1, (hg s).2.1, (hg s).2.2.1, (hg s).2.2.2⟩
        rw [modifyScope_get_same, hs]
        rfl
      · exact ⟨s, by rw [modifyScope_get_other _ _ _ _ e]; exact hs, rfl, rfl,
          fun _ => List.prefix_refl _, fun _ => List.prefix_refl _⟩
    allLhs := fun _ => List.prefix_refl _
    allRhs := fun _ => List.prefix_refl _
    allFuncRefs := fun _ => List.prefix_refl _
    declared := List.prefix_refl _
    errs := List.prefix_refl _ }

/-- The arena gets scopes at its end. -/
theorem Grows.append (m : CodeModel) (m1 : CodeModel) (ext : List Scope)
    (hs : m1.scopes = m.scopes ++ ext)
    (hc : m1.d_declare_args = m.d_declare_args ∧ m1.d_fileKind = m.d_fileKind
      ∧ m1.d_foreach = m.d_foreach ∧ m1.d_import = m.d_import
      ∧ m1.d_namedObjs = m.d_namedObjs ∧ m1.d_knownFuncs = m.d_knownFuncs
      ∧ m1.d_knownVars = m.d_knownVars ∧ m1.d_sourceRoot = m.d_sourceRoot)
    (hl : m1.d_allLhs = m.d_allLhs) (hr : m1.d_allRhs = m.d_allRhs)
    (hf : m1.d_allFuncRefs = m.d_allFuncRefs) (hd : m1.d_declaredArgs = m.d_declaredArgs)
    (he : m1.d_errs = m.d_errs) : Grows m m1 :=
  { config := hc
    scopes := by
      intro i s h
      refine ⟨s, ?_, rfl, rfl, fun _ => List.prefix_refl _, fun _ => List.prefix_refl _⟩
      have hi := (List.getElem?_eq_some_iff.1 h).1
      rw [hs, List.getElem?_append_left hi]
      exact h
    allLhs := fun _ => by rw [hl]
    allRhs := fun _ => by rw [hr]
    allFuncRefs := fun _ => by rw [hf]
    declared := by rw [hd]
    errs := by rw [he] }

/-- An update of a scope that was not in the arena at the beginning. -/
theorem Grows.of_modifyNew {m m2 : CodeModel} (h : Grows m m2) (id : ScopeId)
    (hid : m.scopes.length ≤ id) (g : Scope → Scope) : Grows m (m2.modifyScope id g) :=
  { config := h.config
    scopes := by
      intro i s hs
      have hi := (List.getElem?_eq_some_iff.1 hs).1
      obtain ⟨s1, hs1, r⟩ := h.scopes i s hs
      refine ⟨s1, ?_, r⟩
      have hne : i ≠ id := Nat.ne_of_lt (Nat.lt_of_lt_of_le hi hid)
      rw [modifyScope_get_other _ _ _ _ hne]
      exact hs1
    allLhs := h.allLhs
    allRhs := h.allRhs
    allFuncRefs := h.allFuncRefs
    declared := h.declared
    errs := h.errs }

theorem Grows.of_prim {m m1 : CodeModel} (h : Prim m m1) : Grows m m1 := by
  have cfg : ∀ M : CodeModel, M.d_declare_args = M.d_declare_args ∧ M.d_fileKind = M.d_fileKind
      ∧ M.d_foreach = M.d_foreach ∧ M.d_import = M.d_import
      ∧ M.d_namedObjs = M.d_namedObjs ∧ M.d_knownFuncs = M.d_knownFuncs
      ∧ M.d_knownVars = M.d_knownVars ∧ M.d_sourceRoot = M.d_sourceRoot :=
    fun _ => ⟨rfl, rfl, rfl, rfl, rfl, rfl, rfl, rfl⟩
  cases h with
  | errs r =>
    exact Grows.of_global rfl (cfg m) (fun _ => List.prefix_refl _) (fun _ => List.prefix_refl _)
      (fun _ => List.prefix_refl _) (List.prefix_refl _) (List.prefix_append _ _)
  | funcRef k x =>
    exact Grows.of_global rfl (cfg m) (fun _ => List.prefix_refl _) (fun _ => List.prefix_refl _)
      (fun _ => hashValue_prefix_hashAppend _ _ _ _) (List.prefix_refl _) (List.prefix_refl _)
  | loopVar x =>
    exact Grows.of_global rfl (cfg m) (fun _ => hashValue_prefix_hashAppend _ _ _ _)
      (fun _ => List.prefix_refl _) (fun _ => List.prefix_refl _) (List.prefix_refl _)
      (List.prefix_refl _)
  | varRhs _ st sc hv =>
    unfold Gn.varRhs at hv
    obtain ⟨_, _, hv⟩ := bind_ok hv
    obtain ⟨_, _, hv⟩ := bind_ok hv
    have := pure_ok hv
    subst this
    refine (Grows.of_modify m sc (fun s => { s with d_rhs := hashAppend s.d_rhs st.d_tok.d_val st })
      (fun s => ⟨rfl, rfl, fun _ => List.prefix_refl _,
        fun _ => hashValue_prefix_hashAppend _ _ _ _⟩)).chain ?_
    exact Grows.of_global rfl (cfg _) (fun _ => List.prefix_refl _)
      (fun _ => hashValue_prefix_hashAppend _ _ _ _) (fun _ => List.prefix_refl _)
      (List.prefix_refl _) (List.prefix_refl _)
  | varLhs _ st sc hv =>
    unfold Gn.varLhs at hv
    obtain ⟨_, _, hv⟩ := bind_ok hv
    obtain ⟨s, _, hv⟩ := bind_ok hv
    dsimp only at hv
    have g1 := Grows.of_modify m sc (fun s => { s with d_lhs := hashAppend s.d_lhs st.d_tok.d_val st })
      (fun s => ⟨rfl, rfl, fun _ => hashValue_prefix_hashAppend _ _ _ _,
        fun _ => List.prefix_refl _⟩)
    split at hv
    · have := pure_ok hv
      subst this
      refine g1.chain ?_
      exact Grows.of_global rfl (cfg _) (fun _ => hashValue_prefix_hashAppend _ _ _ _)
        (fun _ => List.prefix_refl _) (fun _ => List.prefix_refl _)
        (List.prefix_append _ _) (List.prefix_refl _)
    · have := pure_ok hv
      subst this
      refine g1.chain ?_
      exact Grows.of_global rfl (cfg _) (fun _ => hashValue_prefix_hashAppend _ _ _ _)
        (fun _ => List.prefix_refl _) (fun _ => List.prefix_refl _)
        (List.prefix_refl _) (List.prefix_refl _)
  | newScope sc st kind hlt =>
    have g1 : Grows m { m with scopes := m.scopes ++ [{ d_outer := some sc }] } :=
      Grows.append m _ [{ d_outer := some sc }] rfl (cfg m) rfl rfl rfl rfl rfl
    have g2 := Grows.of_modify { m with scopes := m.scopes ++ [{ d_outer := some sc }] } sc (fun s => { s with d_allScopes := s.d_allScopes ++ [m.scopes.length] }) (fun s => ⟨rfl, rfl, fun _ => List.prefix_refl _, fun _ => List.prefix_refl _⟩)
    exact Grows.of_modifyNew (g1.chain g2) m.scopes.length (Nat.le_refl _) _
  | params i p =>
    exact Grows.of_modify m i _ (fun s => ⟨rfl, rfl, fun _ => List.prefix_refl _,
      fun _ => List.prefix_refl _⟩)
  | namedDef sc n sym =>
    have g1 := Grows.of_modify m sc (fun s => { s with d_objectDefs := hashInsert s.d_objectDefs sym n }) (fun s => ⟨rfl, rfl, fun _ => List.prefix_refl _, fun _ => List.prefix_refl _⟩)
    have g2 : Grows (m.modifyScope sc (fun s => { s with d_objectDefs := hashInsert s.d_objectDefs sym n })) { (m.modifyScope sc (fun s => { s with d_objectDefs := hashInsert s.d_objectDefs sym n })) with d_allObjDefs := hashAppend m.d_allObjDefs sym n } :=
      Grows.of_global rfl (cfg _) (fun _ => List.prefix_refl _) (fun _ => List.prefix_refl _)
        (fun _ => List.prefix_refl _) (List.prefix_refl _) (List.prefix_refl _)
    have g3 := Grows.of_modify { (m.modifyScope sc (fun s => { s with d_objectDefs := hashInsert s.d_objectDefs sym n })) with d_allObjDefs := hashAppend m.d_allObjDefs sym n } n (fun s => { s with d_name := sym }) (fun s => ⟨rfl, rfl, fun _ => List.prefix_refl _, fun _ => List.prefix_refl _⟩)
    exact (g1.chain g2).chain g3
  | unnamed n =>
    exact Grows.of_global rfl (cfg m) (fun _ => List.prefix_refl _) (fun _ => List.prefix_refl _)
      (fun _ => List.prefix_refl _) (List.prefix_refl _) (List.prefix_refl _)
  | imports k x =>
    exact Grows.of_global rfl (cfg m) (fun _ => List.prefix_refl _) (fun _ => List.prefix_refl _)
      (fun _ => List.prefix_refl _) (List.prefix_refl _) (List.prefix_refl _)
  | resolved sc k res =>
    exact Grows.of_modify m sc _ (fun s => ⟨rfl, rfl, fun _ => List.prefix_refl _,
      fun _ => List.prefix_refl _⟩)
  | unresolved sc arg hlt =>
    refine (Grows.of_modify m sc (fun s => { s with d_unresolvedImports := s.d_unresolvedImports ++ [arg] })
      (fun s => ⟨rfl, rfl, fun _ => List.prefix_refl _, fun _ => List.prefix_refl _⟩)).chain ?_
    exact Grows.of_global rfl (cfg _) (fun _ => List.prefix_refl _) (fun _ => List.prefix_refl _)
      (fun _ => List.prefix_refl _) (List.prefix_refl _) (List.prefix_refl _)
  | unresolvedRef x =>
    exact Grows.of_global rfl (cfg m) (fun _ => List.prefix_refl _) (fun _ => List.prefix_refl _)
      (fun _ => List.prefix_refl _) (List.prefix_refl _) (List.prefix_refl _)
  | fileScope pathSym _ =>
    exact Grows.append m _ [{ d_kind := m.d_fileKind, d_name := pathSym }] rfl (cfg m) rfl rfl
      rfl rfl rfl
  | fileDone i st =>
    exact Grows.of_modify m i _ (fun s => ⟨rfl, rfl, fun _ => List.prefix_refl _,
      fun _ => List.prefix_refl _⟩)


/-- A sequence of recordings only lets the model grow. -/
theorem Steps.only_grow {m m1 : CodeModel} (h : Steps m m1) : Grows m m1 := by
  induction h with
  | refl => exact Grows.same m
  | tail _ hp ih => exact ih.chain (Grows.of_prim hp)

/-! ## The walk: declared arguments -/

theorem count_hashAppend (h : VarRefs) (k : QByteArray) (st x : SynTree) :
    ((hashAppend h k st).map (fun p => p.2.count x)).sum
      = (h.map (fun p => p.2.count x)).sum + [st].count x := by
  induction h with
  | nil => simp [hashAppend]
  | cons p rest ih =>
    obtain ⟨k1, v⟩ := p
    by_cases e : k1 = k
    · simp [hashAppend, e, List.count_append]
      omega
    · simp only [hashAppend, e, if_false, List.map_cons, List.sum_cons, ih]
      omega

theorem sum_map_updateAt {α : Type} (F : α → Nat) (g : α → α) :
    ∀ (l : List α) (i : Nat) (a : α), l[i]? = some a →
      ((updateAt l i g).map F).sum + F a = (l.map F).sum + F (g a) := by
  intro l
  induction l with
  | nil => intro i a h; simp at h
  | cons b bs ih =>
    intro i a h
    cases i with
    | zero =>
      simp at h
      subst h
      simp [updateAt]
      omega
    | succ i =>
      simp at h
      have := ih i a h
      simp [updateAt]
      omega

theorem updateAt_none {α : Type} (g : α → α) :
    ∀ (l : List α) (i : Nat), l[i]? = none → updateAt l i g = l := by
  intro l
  induction l with
  | nil => intro i _; rfl
  | cons b bs ih =>
    intro i h
    cases i with
    | zero => simp at h
    | succ i =>
      simp at h
      simp [updateAt, ih i (by simpa using h)]

/-- An update of a scope that keeps the count of every node in the LHS lists of the scopes
of kind `declare_args`. -/
theorem declCount_modify (m : CodeModel) (i : ScopeId) (g : Scope → Scope) (x : SynTree)
    (d : Nat)
    (hg : ∀ s, m.scopes[i]? = some s →
      (if (g s).d_kind = m.d_declare_args then lhsCount (g s) x else 0)
        = (if s.d_kind = m.d_declare_args then lhsCount s x else 0) + d)
    (hd : m.scopes[i]? = none → d = 0) :
    declCount (m.modifyScope i g) x = declCount m x + d := by
  unfold declCount
  cases hs : m.scopes[i]? with
  | none =>
    simp only [CodeModel.modifyScope]
    rw [updateAt_none g _ _ hs, hd hs]
    rfl
  | some s =>
    have h1 := sum_map_updateAt
      (fun s => if s.d_kind = m.d_declare_args then lhsCount s x else 0) g m.scopes i s hs
    have h2 := hg s hs
    simp only [CodeModel.modifyScope]
    dsimp only at h1
    omega


theorem DeclInv.keep_global {m m1 : CodeModel} (h : DeclInv m) (hs : m1.scopes = m.scopes)
    (hk : m1.d_declare_args = m.d_declare_args) (hd : m1.d_declaredArgs = m.d_declaredArgs) :
    DeclInv m1 := by
  intro x
  have := h x
  unfold declCount at this ⊢
  rw [hs, hk, hd]
  exact this

theorem DeclInv.keep_modify {m : CodeModel} (h : DeclInv m) (i : ScopeId) (g : Scope → Scope)
    (hg : ∀ s, (g s).d_kind = s.d_kind ∧ (g s).d_lhs = s.d_lhs) :
    DeclInv (m.modifyScope i g) := by
  intro x
  rw [declCount_modify m i g x 0 (fun s _ => by simp [lhsCount, (hg s).1, (hg s).2])
    (fun _ => rfl)]
  exact h x

theorem declCount_append (m m1 : CodeModel) (s : Scope) (x : SynTree)
    (hs : m1.scopes = m.scopes ++ [s]) (hk : m1.d_declare_args = m.d_declare_args)
    (hl : s.d_lhs = []) : declCount m1 x = declCount m x := by
  unfold declCount
  rw [hs, hk]
  simp [lhsCount, hl]

theorem DeclInv.keep_newScope {m : CodeModel} (h : DeclInv m) (sc : ScopeId) (st : SynTree)
    (kind : QByteArray) (hlt : sc < m.scopes.length) :
    DeclInv (Gn.newScope m sc st kind).1 := by
  intro x
  have e1 : declCount { m with scopes := m.scopes ++ [{ d_outer := some sc }] } x
      = declCount m x :=
    declCount_append m _ { d_outer := some sc } x rfl rfl rfl
  have e2 := declCount_modify { m with scopes := m.scopes ++ [{ d_outer := some sc }] } sc
    (fun s => { s with d_allScopes := s.d_allScopes ++ [m.scopes.length] }) x 0
    (fun s _ => by simp [lhsCount]) (fun _ => rfl)
  have hfresh : (CodeModel.modifyScope { m with scopes := m.scopes ++ [{ d_outer := some sc }] } sc
      (fun s => { s with d_allScopes := s.d_allScopes ++ [m.scopes.length] })).scopes[m.scopes.length]?
      = some { d_outer := some sc } := by
    rw [modifyScope_get_other _ _ _ _ (Nat.ne_of_gt hlt)]
    simp
  have e3 := declCount_modify (CodeModel.modifyScope { m with scopes := m.scopes ++ [{ d_outer := some sc }] } sc
      (fun s => { s with d_allScopes := s.d_allScopes ++ [m.scopes.length] })) m.scopes.length
    (fun s => { s with d_st := some st, d_kind := kind }) x 0
    (fun s hs => by
      rw [hfresh] at hs
      cases hs
      simp [lhsCount])
    (fun _ => rfl)
  have : (Gn.newScope m sc st kind).1 = CodeModel.modifyScope (CodeModel.modifyScope { m with scopes := m.scopes ++ [{ d_outer := some sc }] } sc
      (fun s => { s with d_allScopes := s.d_allScopes ++ [m.scopes.length] })) m.scopes.length
    (fun s => { s with d_st := some st, d_kind := kind }) := rfl
  rw [this, e3, e2, e1]
  exact h x

theorem DeclInv.keep_prim {m m1 : CodeModel} (hp : Prim m m1) (h : DeclInv m) : DeclInv m1 := by
  cases hp with
  | errs r => exact h.keep_global rfl rfl rfl
  | funcRef k x => exact h.keep_global rfl rfl rfl
  | loopVar x => exact h.keep_global rfl rfl rfl
  | varRhs _ st sc hv =>
    unfold Gn.varRhs at hv
    obtain ⟨_, _, hv⟩ := bind_ok hv
    obtain ⟨_, _, hv⟩ := bind_ok hv
    have := pure_ok hv
    subst this
    exact (h.keep_modify sc (fun s => { s with d_rhs := hashAppend s.d_rhs st.d_tok.d_val st })
      (fun s => ⟨rfl, rfl⟩)).keep_global rfl rfl rfl
  | varLhs _ st sc hv =>
    unfold Gn.varLhs at hv
    obtain ⟨_, _, hv⟩ := bind_ok hv
    obtain ⟨s, hs, hv⟩ := bind_ok hv
    have hs' := scope_ok hs
    dsimp only at hv
    split at hv
    · rename_i hk
      have := pure_ok hv
      subst this
      intro x
      have e := declCount_modify m sc
        (fun s => { s with d_lhs := hashAppend s.d_lhs st.d_tok.d_val st }) x ([st].count x)
        (fun s1 hs1 => by
          rw [hs'] at hs1
          cases hs1
          have hk' : s.d_kind = m.d_declare_args := hk
          simp only [hk', if_true, lhsCount]
          exact count_hashAppend _ _ _ _)
        (fun hn => by rw [hs'] at hn; cases hn)
      show (m.d_declaredArgs ++ [st]).count x = declCount (m.modifyScope sc
        (fun s => { s with d_lhs := hashAppend s.d_lhs st.d_tok.d_val st })) x
      rw [e, List.count_append, h x]
    · rename_i hk
      have := pure_ok hv
      subst this
      intro x
      have e := declCount_modify m sc
        (fun s => { s with d_lhs := hashAppend s.d_lhs st.d_tok.d_val st }) x 0
        (fun s1 hs1 => by
          rw [hs'] at hs1
          cases hs1
          have hk' : ¬ s.d_kind = m.d_declare_args := hk
          simp only [hk', if_false])
        (fun _ => rfl)
      show m.d_declaredArgs.count x = declCount (m.modifyScope sc
        (fun s => { s with d_lhs := hashAppend s.d_lhs st.d_tok.d_val st })) x
      rw [e]
      exact h x
  | newScope sc st kind hlt => exact h.keep_newScope sc st kind hlt
  | params i p => exact h.keep_modify i _ (fun s => ⟨rfl, rfl⟩)
  | namedDef sc n sym =>
    have h1 := h.keep_modify sc (fun s => { s with d_objectDefs := hashInsert s.d_objectDefs sym n }) (fun s => ⟨rfl, rfl⟩)
    have h2 : DeclInv { (m.modifyScope sc (fun s => { s with d_objectDefs := hashInsert s.d_objectDefs sym n })) with d_allObjDefs := hashAppend m.d_allObjDefs sym n } :=
      h1.keep_global rfl rfl rfl
    exact h2.keep_modify n (fun s => { s with d_name := sym }) (fun s => ⟨rfl, rfl⟩)
  | unnamed n => exact h.keep_global rfl rfl rfl
  | imports k x => exact h.keep_global rfl rfl rfl
  | resolved sc k res => exact h.keep_modify sc _ (fun s => ⟨rfl, rfl⟩)
  | unresolved sc arg hlt =>
    exact (h.keep_modify sc (fun s => { s with d_unresolvedImports := s.d_unresolvedImports ++ [arg] })
      (fun s => ⟨rfl, rfl⟩)).keep_global rfl rfl rfl
  | unresolvedRef x => exact h.keep_global rfl rfl rfl
  | fileScope pathSym _ =>
    intro x
    have e := declCount_append m { m with scopes := m.scopes ++ [{ d_kind := m.d_fileKind, d_name := pathSym }], d_files := hashInsert m.d_files pathSym m.scopes.length } { d_kind := m.d_fileKind, d_name := pathSym } x rfl rfl rfl
    rw [e]
    exact h x
  | fileDone i st => exact h.keep_modify i _ (fun s => ⟨rfl, rfl⟩)

/-- A sequence of recordings keeps `DeclInv`. -/
theorem Steps.declInv {m m1 : CodeModel} (hs : Steps m m1) (h : DeclInv m) : DeclInv m1 := by
  induction hs with
  | refl => exact h
  | tail _ hp ih => exact DeclInv.keep_prim hp ih

theorem DeclInv.clear (m : CodeModel) : DeclInv m.clear := by
  intro x
  rfl

/-- What `varLhs` records for an identifier in a scope of the arena. -/
theorem varLhs_ok (st : SynTree) (sc : ScopeId) (m : CodeModel) (s : Scope)
    (hid : st.d_tok.d_type = TokenType.Tok_identifier) (hsc : m.scopes[sc]? = some s) :
    ∃ m1, varLhs st sc m = Except.ok m1
      ∧ m1.scopes[sc]? = some { s with d_lhs := hashAppend s.d_lhs st.d_tok.d_val st }
      ∧ m1.d_allLhs = hashAppend m.d_allLhs st.d_tok.d_val st
      ∧ m1.d_declaredArgs
          = m.d_declaredArgs ++ (if s.d_kind = m.d_declare_args then [st] else [])
      ∧ m1.d_allRhs = m.d_allRhs ∧ m1.scopes.length = m.scopes.length := by
  have hget : (m.modifyScope sc
      (fun s => { s with d_lhs := hashAppend s.d_lhs st.d_tok.d_val st })).scopes[sc]?
      = some { s with d_lhs := hashAppend s.d_lhs st.d_tok.d_val st } := by
    rw [modifyScope_get_same, hsc]
    rfl
  have hlen : (m.modifyScope sc
      (fun s => { s with d_lhs := hashAppend s.d_lhs st.d_tok.d_val st })).scopes.length
      = m.scopes.length := by
    simp [CodeModel.modifyScope, updateAt_length]
  by_cases hk : s.d_kind = m.d_declare_args
  · have hv : varLhs st sc m = Except.ok { (m.modifyScope sc (fun s => { s with d_lhs := hashAppend s.d_lhs st.d_tok.d_val st })) with d_allLhs := hashAppend m.d_allLhs st.d_tok.d_val st, d_declaredArgs := m.d_declaredArgs ++ [st] } := by
      simp only [varLhs, qassert, hid, CodeModel.scope, hsc, bind, Except.bind, pure,
        Except.pure, decide_True, if_true]
      simp [CodeModel.modifyScope, hk]
    refine ⟨_, hv, hget, rfl, ?_, rfl, hlen⟩
    simp [hk]
  · have hv : varLhs st sc m = Except.ok { (m.modifyScope sc (fun s => { s with d_lhs := hashAppend s.d_lhs st.d_tok.d_val st })) with d_allLhs := hashAppend m.d_allLhs st.d_tok.d_val st } := by
      simp only [varLhs, qassert, hid, CodeModel.scope, hsc, bind, Except.bind, pure,
        Except.pure, decide_True, if_true]
      simp [CodeModel.modifyScope, hk]
    refine ⟨_, hv, hget, rfl, ?_, rfl, hlen⟩
    rw [if_neg hk, List.append_nil]
    rfl

/-- A built-in call with a block walks the block in a new scope of the kind of the call. -/
theorem function_scope (env : Env) (f : Nat) (st c2 lastc : SynTree) (sc : ScopeId)
    (kind : QByteArray) (m m1 : CodeModel)
    (hc2 : st.d_children[2]? = some c2) (hlast : st.d_children.getLast? = some lastc)
    (hb : lastc.d_tok.d_type = TokenType.R_Block)
    (h : function_ env (f + 1) st sc kind m = Except.ok m1) :
    ∃ (m2 m3 : CodeModel) (s3 : Scope), Steps m m2
      ∧ m3.scopes[m2.scopes.length]? = some s3
      ∧ s3.d_kind = kind ∧ s3.d_outer = some sc ∧ s3.d_lhs = []
      ∧ m3.d_declaredArgs = m2.d_declaredArgs
      ∧ block env f lastc m2.scopes.length m3 = Except.ok m1
      ∧ ∃ s1 : Scope, m1.scopes[m2.scopes.length]? = some s1 ∧ s1.d_kind = kind := by
  have SA := stepsAll env f
  rw [function_] at h
  obtain ⟨_, _, h⟩ := bind_ok h
  obtain ⟨c2a, hc2a, h⟩ := bind_ok h
  have := child_eq hc2 hc2a
  subst this
  obtain ⟨m2, h2, h⟩ := bind_ok h
  have f1 : Steps m m2 := by
    split at h2
    · exact SA.exprList _ _ _ _ h2
    · have := pure_ok h2
      subst this
      exact Steps.none_made _
  obtain ⟨lastca, hla, h⟩ := bind_ok h
  have : lastca = lastc := by
    simp only [SynTree.last, hlast, pure, Except.pure] at hla
    exact (Except.ok.inj hla).symm
  subst this
  rw [if_pos hb] at h
  obtain ⟨s0, hs0, h⟩ := bind_ok h
  have hs0' := scope_ok hs0
  obtain ⟨hn3, hsc3, _, _⟩ := newScope_facts m2 sc st kind s0 hs0'
  have hlen3 := newScope_length m2 sc st kind
  have hid := newScope_snd m2 sc st kind
  have hd3 : (newScope m2 sc st kind).1.d_declaredArgs = m2.d_declaredArgs := rfl
  rcases hns : newScope m2 sc st kind with ⟨m3, id⟩
  rw [hns] at h hn3 hlen3 hid hd3
  dsimp only at h hn3 hlen3 hid hd3
  subst hid
  split at h
  · have hget : (m3.modifyScope m2.scopes.length
        (fun s => { s with d_params := some c2a })).scopes[m2.scopes.length]?
        = some { d_outer := some sc, d_st := some st, d_kind := kind, d_params := some c2a } := by
      rw [modifyScope_get_same, hn3]
      rfl
    obtain ⟨s1, hs1, hk1, _⟩ := (SA.block _ _ _ _ h).only_grow.scopes _ _ hget
    exact ⟨m2, _, _, f1, hget, rfl, rfl, rfl, hd3, h, s1, hs1, hk1⟩
  · obtain ⟨s1, hs1, hk1, _⟩ := (SA.block _ _ _ _ h).only_grow.scopes _ _ hn3
    exact ⟨m2, _, _, f1, hn3, rfl, rfl, rfl, hd3, h, s1, hs1, hk1⟩

/-- The walk of the sample file with a `declare_args` block. -/
theorem declFile_walk :
    (statementList sampleEnv 30 declFile 0 sampleModel).toOption.map
        (fun m => (m.d_declaredArgs, m.scopes.map (fun s => s.d_kind)))
        = some ([identNode 2 1 "a", identNode 4 1 "b", identNode 5 1 "d", identNode 7 1 "e"],
            ["file".toList, "declare_args".toList, "group".toList]) := by
  decide!

/-- C14: a node is appended to `declaredArgs` exactly when it is recorded as an LHS
reference in a scope whose kind is `declare_args`. First, `varLhs` appends the node to the
LHS list of the scope, and to `declaredArgs` exactly when the kind of that scope is the
symbol of `declare_args`. Second, a built-in call with a block (`function_`, for
`declare_args` among others) walks its block in a new scope whose kind is the callee name
and which keeps that kind. Third, after `clear()` and then after every walk of a file or
of a statement list, every node is in `declaredArgs` as often as it is in the LHS lists of
the scopes of kind `declare_args`. Last, in the sample file the targets `a`, `b` (in an
`if`), `d` (in its `else`) and `e` (in a `foreach`) of the `declare_args` block are in
`declaredArgs` once each, and the targets in the nested `group` and in the file are not. -/
theorem declaredArgs_exact (env : Env) :
    (∀ (st : SynTree) (sc : ScopeId) (m : CodeModel) (s : Scope),
      st.d_tok.d_type = TokenType.Tok_identifier → m.scopes[sc]? = some s →
      ∃ m1, varLhs st sc m = Except.ok m1
        ∧ m1.scopes[sc]? = some { s with d_lhs := hashAppend s.d_lhs st.d_tok.d_val st }
        ∧ m1.d_declaredArgs
            = m.d_declaredArgs ++ (if s.d_kind = m.d_declare_args then [st] else []))
    ∧ (∀ (f : Nat) (st c2 lastc : SynTree) (sc : ScopeId) (kind : QByteArray)
        (m m1 : CodeModel), st.d_children[2]? = some c2 →
      st.d_children.getLast? = some lastc → lastc.d_tok.d_type = TokenType.R_Block →
      function_ env (f + 1) st sc kind m = Except.ok m1 →
      ∃ (m2 m3 : CodeModel) (s3 : Scope), Steps m m2
        ∧ m3.scopes[m2.scopes.length]? = some s3
        ∧ s3.d_kind = kind ∧ s3.d_outer = some sc ∧ s3.d_lhs = []
        ∧ m3.d_declaredArgs = m2.d_declaredArgs
        ∧ block env f lastc m2.scopes.length m3 = Except.ok m1
        ∧ ∃ s1 : Scope, m1.scopes[m2.scopes.length]? = some s1 ∧ s1.d_kind = kind)
    ∧ (∀ m : CodeModel, DeclInv m.clear)
    ∧ (∀ (f : Nat) (path : QByteArray) (m m1 : CodeModel) (r : Option ScopeId),
        DeclInv m → parseFile env f path m = Except.ok (m1, r) → DeclInv m1)
    ∧ (∀ (f : Nat) (st : SynTree) (sc : ScopeId) (m m1 : CodeModel),
        DeclInv m → statementList env f st sc m = Except.ok m1 → DeclInv m1)
    ∧ (statementList sampleEnv 30 declFile 0 sampleModel).toOption.map
        (fun m => (m.d_declaredArgs, m.scopes.map (fun s => s.d_kind)))
        = some ([identNode 2 1 "a", identNode 4 1 "b", identNode 5 1 "d", identNode 7 1 "e"],
            ["file".toList, "declare_args".toList, "group".toList]) := by
  refine ⟨?_, ?_, DeclInv.clear, ?_, ?_, declFile_walk⟩
  · intro st sc m s hid hsc
    obtain ⟨m1, h1, h2, _, h4, _⟩ := varLhs_ok st sc m s hid hsc
    exact ⟨m1, h1, h2, h4⟩
  · intro f st c2 lastc sc kind m m1 hc2 hlast hb h
    exact function_scope env f st c2 lastc sc kind m m1 hc2 hlast hb h
  · intro f path m m1 r hm h
    exact ((stepsAll env f).parseFile _ _ _ _ h).declInv hm
  · intro f st sc m m1 hm h
    exact ((stepsAll env f).statementList _ _ _ _ h).declInv hm


/-! ### Conditions and loops keep the scope -/

theorem ScopesKept.unchanged (m : CodeModel) : ScopesKept m m := ⟨rfl, rfl⟩

theorem ScopesKept.and_then {m m1 m2 : CodeModel} (h1 : ScopesKept m m1) (h2 : ScopesKept m1 m2) :
    ScopesKept m m2 := ⟨h2.1.trans h1.1, h2.2.trans h1.2⟩

theorem map_updateAt {α β : Type} (p : α → β) (g : α → α) (hg : ∀ a, p (g a) = p a) :
    ∀ (l : List α) (i : Nat), (updateAt l i g).map p = l.map p := by
  intro l
  induction l with
  | nil => intro i; rfl
  | cons a as ih =>
    intro i
    cases i with
    | zero => simp [updateAt, hg]
    | succ i => simp [updateAt, ih]

theorem ScopesKept.of_update (m : CodeModel) (sc : ScopeId) (g : Scope → Scope)
    (hg : ∀ s, (g s).d_allScopes = s.d_allScopes) : ScopesKept m (m.modifyScope sc g) :=
  ⟨rfl, map_updateAt (fun s => s.d_allScopes) g hg m.scopes sc⟩

theorem ScopesKept.of_varRhs {st : SynTree} {sc : ScopeId} {m m1 : CodeModel}
    (h : varRhs st sc m = Except.ok m1) : ScopesKept m m1 := by
  unfold Gn.varRhs at h
  obtain ⟨_, _, h⟩ := bind_ok h
  obtain ⟨_, _, h⟩ := bind_ok h
  have := pure_ok h
  subst this
  exact ScopesKept.of_update m sc _ (fun s => rfl)

theorem ScopesKept.of_varLhs {st : SynTree} {sc : ScopeId} {m m1 : CodeModel}
    (h : varLhs st sc m = Except.ok m1) : ScopesKept m m1 := by
  unfold Gn.varLhs at h
  obtain ⟨_, _, h⟩ := bind_ok h
  obtain ⟨_, _, h⟩ := bind_ok h
  dsimp only at h
  split at h
  · have := pure_ok h
    subst this
    exact ScopesKept.of_update m sc _ (fun s => rfl)
  · have := pure_ok h
    subst this
    exact ScopesKept.of_update m sc _ (fun s => rfl)

theorem loopsOnlyList_mem (fe : QByteArray) :
    ∀ (cs : List SynTree), SynTree.loopsOnlyList fe cs = true →
      ∀ c ∈ cs, SynTree.loopsOnly fe c = true := by
  intro cs
  induction cs with
  | nil => intro _ c hc; cases hc
  | cons x xs ih =>
    intro h c hc
    simp only [SynTree.loopsOnlyList, Bool.and_eq_true] at h
    rcases List.mem_cons.mp hc with rfl | hc
    · exact h.1
    · exact ih h.2 c hc

theorem loopsOnly_mem {fe : QByteArray} {st c : SynTree}
    (h : SynTree.loopsOnly fe st = true) (hc : c ∈ st.d_children) :
    SynTree.loopsOnly fe c = true := by
  cases st with
  | mk tok cs =>
    simp only [SynTree.loopsOnly, Bool.and_eq_true] at h
    exact loopsOnlyList_mem fe cs h.2 c hc

theorem loopsOnly_string {fe : QByteArray} {st : SynTree}
    (h : SynTree.loopsOnly fe st = true) : st.d_tok.d_type ≠ TokenType.Tok_string := by
  cases st with
  | mk tok cs =>
    simp only [SynTree.loopsOnly, Bool.and_eq_true, decide_eq_true_eq] at h
    exact h.1.1

theorem loopsOnly_call {fe : QByteArray} {st : SynTree}
    (h : SynTree.loopsOnly fe st = true) (ht : st.d_tok.d_type = TokenType.R_Call) :
    st.d_children.head?.map (fun c => c.d_tok.d_val) = some fe := by
  cases st with
  | mk tok cs =>
    simp only [SynTree.loopsOnly, Bool.and_eq_true, Bool.or_eq_true, decide_eq_true_eq,
      beq_iff_eq] at h
    rcases h.1.2 with h1 | h1
    · exact absurd ht h1
    · exact h1

theorem child_mem {st c : SynTree} {i : Nat} (h : st.child i = Except.ok c) :
    c ∈ st.d_children := by
  unfold SynTree.child at h
  split at h
  · rename_i c1 hc
    have := pure_ok h
    subst this
    exact List.getElem?_mem hc
  · exact absurd h (fun h => throw_ok h)

theorem first_mem {st c : SynTree} (h : st.first = Except.ok c) : c ∈ st.d_children := by
  unfold SynTree.first at h
  split at h
  · rename_i c1 hc
    have := pure_ok h
    subst this
    exact List.mem_of_mem_head? hc
  · exact absurd h (fun h => throw_ok h)

theorem last_mem {st c : SynTree} (h : st.last = Except.ok c) : c ∈ st.d_children := by
  unfold SynTree.last at h
  split at h
  · rename_i c1 hc
    have := pure_ok h
    subst this
    exact List.mem_of_mem_getLast? hc
  · exact absurd h (fun h => throw_ok h)

theorem ScopesKept.of_fold (fe : QByteArray) (step : CodeModel → SynTree → Walk CodeModel)
    (hstep : ∀ x m m1, SynTree.loopsOnly m.d_foreach x = true → step m x = Except.ok m1 →
      ScopesKept m m1) :
    ∀ (l : List SynTree) (m m1 : CodeModel), m.d_foreach = fe →
      (∀ x ∈ l, SynTree.loopsOnly fe x = true) →
      l.foldlM step m = Except.ok m1 → ScopesKept m m1 := by
  intro l
  induction l with
  | nil =>
    intro m m1 _ _ h
    have := pure_ok h
    subst this
    exact ScopesKept.unchanged m
  | cons x xs ih =>
    intro m m1 hfe hall h
    rw [List.foldlM_cons] at h
    obtain ⟨m2, h2, h3⟩ := bind_ok h
    have k1 : ScopesKept m m2 :=
      hstep x m m2 (by rw [hfe]; exact hall x (List.mem_cons_self _ _)) h2
    exact k1.and_then (ih m2 m1 (k1.1.trans hfe)
      (fun y hy => hall y (List.mem_cons_of_mem _ hy)) h3)


theorem ScopesKept.scopeAccess {env : Env} {f : Nat} {st : SynTree} {sc : ScopeId}
    {m m1 : CodeModel} (h : scopeAccess env f st sc m = Except.ok m1) : ScopesKept m m1 := by
  unfold Gn.scopeAccess at h
  split at h
  · exact absurd h (fun h => throw_ok h)
  · obtain ⟨_, _, h⟩ := bind_ok h
    obtain ⟨c, _, h⟩ := bind_ok h
    obtain ⟨m2, h2, h⟩ := bind_ok h
    obtain ⟨c2, _, h⟩ := bind_ok h
    have k1 : ScopesKept m m2 := ScopesKept.of_varRhs h2
    exact k1.and_then (ScopesKept.of_varRhs h)

theorem quiet_statementList (env : Env) (f : Nat) (IH : QuietAll env f)
    {st : SynTree} {sc : ScopeId} {m m1 : CodeModel}
    (hq : SynTree.loopsOnly m.d_foreach st = true)
    (h : statementList env (f + 1) st sc m = Except.ok m1) : ScopesKept m m1 := by
  rw [statementList] at h
  obtain ⟨_, _, h⟩ := bind_ok h
  exact ScopesKept.of_fold m.d_foreach _ (fun x m m1 hx h => IH.statement x sc m m1 hx h) _ _ _
    rfl (fun x hx => loopsOnly_mem hq hx) h

theorem quiet_statement (env : Env) (f : Nat) (IH : QuietAll env f)
    {st : SynTree} {sc : ScopeId} {m m1 : CodeModel}
    (hq : SynTree.loopsOnly m.d_foreach st = true)
    (h : statement env (f + 1) st sc m = Except.ok m1) : ScopesKept m m1 := by
  rw [statement] at h
  obtain ⟨_, _, h⟩ := bind_ok h
  obtain ⟨c, hc, h⟩ := bind_ok h
  have hqc := loopsOnly_mem hq (first_mem hc)
  split at h
  · exact IH.assignment_ _ _ _ _ hqc h
  · rename_i ht
    exact IH.call_ _ _ _ _ hqc ht h
  · exact IH.condition_ _ _ _ _ hqc h
  · have := pure_ok h
    subst this
    exact ScopesKept.unchanged _

theorem quiet_call_ (env : Env) (f : Nat) (IH : QuietAll env f)
    {st : SynTree} {sc : ScopeId} {m m1 : CodeModel}
    (hq : SynTree.loopsOnly m.d_foreach st = true)
    (ht : st.d_tok.d_type = TokenType.R_Call)
    (h : call_ env (f + 1) st sc m = Except.ok m1) : ScopesKept m m1 := by
  rw [call_] at h
  obtain ⟨_, _, h⟩ := bind_ok h
  obtain ⟨callee, hc, h⟩ := bind_ok h
  dsimp only at h
  have hk : callee.d_tok.d_val = m.d_foreach := by
    have h1 := loopsOnly_call hq ht
    unfold SynTree.child at hc
    split at hc
    · rename_i c1 hc1
      have := pure_ok hc
      subst this
      rw [List.head?_eq_getElem?, hc1] at h1
      simpa using h1
    · exact absurd hc (fun h => throw_ok h)
  rw [if_pos hk] at h
  have k1 : ScopesKept m
      { m with d_allFuncRefs := hashAppend m.d_allFuncRefs callee.d_tok.d_val callee } :=
    ⟨rfl, rfl⟩
  exact k1.and_then (IH.loop_ _ _ _ _ hq h)

theorem quiet_loop_ (env : Env) (f : Nat) (IH : QuietAll env f)
    {st : SynTree} {sc : ScopeId} {m m1 : CodeModel}
    (hq : SynTree.loopsOnly m.d_foreach st = true)
    (h : loop_ env (f + 1) st sc m = Except.ok m1) : ScopesKept m m1 := by
  rw [loop_] at h
  obtain ⟨c2, hc2, h⟩ := bind_ok h
  obtain ⟨lastc, hlast, h⟩ := bind_ok h
  split at h
  · have := pure_ok h
    subst this
    exact ⟨rfl, rfl⟩
  · obtain ⟨_, _, h⟩ := bind_ok h
    split at h
    · have := pure_ok h
      subst this
      exact ⟨rfl, rfl⟩
    · obtain ⟨v, _, h⟩ := bind_ok h
      dsimp only at h
      obtain ⟨e, he, h⟩ := bind_ok h
      obtain ⟨m2, h2, h⟩ := bind_ok h
      have hqe := loopsOnly_mem (loopsOnly_mem hq (child_mem hc2)) (last_mem he)
      have hql := loopsOnly_mem hq (last_mem hlast)
      split at h2
      · have k2 := IH.expr _ _ _ _ (by exact hqe) h2
        exact k2.and_then (IH.block _ _ _ _ (by rw [k2.1]; exact hql) h)
      · have k2 := IH.expr _ _ _ _ (by exact hqe) h2
        exact k2.and_then (IH.block _ _ _ _ (by rw [k2.1]; exact hql) h)

theorem quiet_expr (env : Env) (f : Nat) (IH : QuietAll env f)
    {st : SynTree} {sc : ScopeId} {m m1 : CodeModel}
    (hq : SynTree.loopsOnly m.d_foreach st = true)
    (h : expr env (f + 1) st sc m = Except.ok m1) : ScopesKept m m1 := by
  rw [expr] at h
  obtain ⟨_, _, h⟩ := bind_ok h
  obtain ⟨c, hc, h⟩ := bind_ok h
  obtain ⟨m2, h2, h⟩ := bind_ok h
  have k1 := IH.unaryExpr _ _ _ _ (loopsOnly_mem hq (first_mem hc)) h2
  split at h
  · split at h
    · obtain ⟨c2, hc2, h⟩ := bind_ok h
      exact k1.and_then (IH.exprNlr _ _ _ _
        (by rw [k1.1]; exact loopsOnly_mem hq (last_mem hc2)) h)
    · exact absurd h (fun h => throw_ok h)
  · have := pure_ok h
    subst this
    exact k1

theorem quiet_block (env : Env) (f : Nat) (IH : QuietAll env f)
    {st : SynTree} {sc : ScopeId} {m m1 : CodeModel}
    (hq : SynTree.loopsOnly m.d_foreach st = true)
    (h : block env (f + 1) st sc m = Except.ok m1) : ScopesKept m m1 := by
  rw [block] at h
  obtain ⟨_, _, h⟩ := bind_ok h
  obtain ⟨c, hc, h⟩ := bind_ok h
  exact IH.statementList _ _ _ _ (loopsOnly_mem hq (child_mem hc)) h

theorem quiet_condition_ (env : Env) (f : Nat) (IH : QuietAll env f)
    {st : SynTree} {sc : ScopeId} {m m1 : CodeModel}
    (hq : SynTree.loopsOnly m.d_foreach st = true)
    (h : condition_ env (f + 1) st sc m = Except.ok m1) : ScopesKept m m1 := by
  rw [condition_] at h
  obtain ⟨_, _, h⟩ := bind_ok h
  obtain ⟨c2, hc2, h⟩ := bind_ok h
  obtain ⟨m2, h2, h⟩ := bind_ok h
  obtain ⟨c4, hc4, h⟩ := bind_ok h
  obtain ⟨m3, h3, h⟩ := bind_ok h
  have k1 := IH.expr _ _ _ _ (loopsOnly_mem hq (child_mem hc2)) h2
  have k2 := k1.and_then (IH.block _ _ _ _
    (by rw [k1.1]; exact loopsOnly_mem hq (child_mem hc4)) h3)
  split at h
  · obtain ⟨_, _, h⟩ := bind_ok h
    obtain ⟨c6, hc6, h⟩ := bind_ok h
    have hq6 : SynTree.loopsOnly m3.d_foreach c6 = true := by
      rw [k2.1]; exact loopsOnly_mem hq (child_mem hc6)
    split at h
    · exact k2.and_then (IH.condition_ _ _ _ _ hq6 h)
    · exact k2.and_then (IH.block _ _ _ _ hq6 h)
  · have := pure_ok h
    subst this
    exact k2

theorem quiet_assignment_ (env : Env) (f : Nat) (IH : QuietAll env f)
    {st : SynTree} {sc : ScopeId} {m m1 : CodeModel}
    (hq : SynTree.loopsOnly m.d_foreach st = true)
    (h : assignment_ env (f + 1) st sc m = Except.ok m1) : ScopesKept m m1 := by
  rw [assignment_] at h
  obtain ⟨_, _, h⟩ := bind_ok h
  obtain ⟨c, hc, h⟩ := bind_ok h
  obtain ⟨m2, h2, h⟩ := bind_ok h
  obtain ⟨c2, hc2, h⟩ := bind_ok h
  have k1 := IH.lvalue _ _ _ _ (loopsOnly_mem hq (first_mem hc)) h2
  exact k1.and_then (IH.expr _ _ _ _ (by rw [k1.1]; exact loopsOnly_mem hq (last_mem hc2)) h)

theorem quiet_lvalue (env : Env) (f : Nat) (IH : QuietAll env f)
    {st : SynTree} {sc : ScopeId} {m m1 : CodeModel}
    (hq : SynTree.loopsOnly m.d_foreach st = true)
    (h : lvalue env (f + 1) st sc m = Except.ok m1) : ScopesKept m m1 := by
  rw [lvalue] at h
  obtain ⟨_, _, h⟩ := bind_ok h
  obtain ⟨id, _, h⟩ := bind_ok h
  split at h
  · split at h
    · obtain ⟨_, _, h⟩ := bind_ok h
      obtain ⟨m2, h2, h⟩ := bind_ok h
      obtain ⟨c2, hc2, h⟩ := bind_ok h
      have k1 : ScopesKept m m2 := ScopesKept.of_varLhs h2
      exact k1.and_then (IH.expr _ _ _ _
        (by rw [k1.1]; exact loopsOnly_mem hq (child_mem hc2)) h)
    · split at h
      · obtain ⟨_, _, h⟩ := bind_ok h
        obtain ⟨m2, h2, h⟩ := bind_ok h
        obtain ⟨c2, _, h⟩ := bind_ok h
        have k1 : ScopesKept m m2 := ScopesKept.of_varRhs h2
        exact k1.and_then (ScopesKept.of_varLhs h)
      · exact absurd h (fun h => throw_ok h)
  · exact ScopesKept.of_varLhs h

theorem quiet_primaryExpr (env : Env) (f : Nat) (IH : QuietAll env f)
    {st : SynTree} {sc : ScopeId} {m m1 : CodeModel}
    (hq : SynTree.loopsOnly m.d_foreach st = true)
    (h : primaryExpr env (f + 1) st sc m = Except.ok m1) : ScopesKept m m1 := by
  rw [primaryExpr] at h
  obtain ⟨_, _, h⟩ := bind_ok h
  obtain ⟨c, hc, h⟩ := bind_ok h
  have hqc := loopsOnly_mem hq (first_mem hc)
  split at h
  · rename_i ht
    exact IH.call_ _ _ _ _ hqc ht h
  · rename_i ht
    exact absurd ht (loopsOnly_string hqc)
  · obtain ⟨_, _, h⟩ := bind_ok h
    obtain ⟨c1, hc1, h⟩ := bind_ok h
    exact IH.expr _ _ _ _ (loopsOnly_mem hq (child_mem hc1)) h
  · obtain ⟨_, _, h⟩ := bind_ok h
    obtain ⟨c1, hc1, h⟩ := bind_ok h
    exact IH.block _ _ _ _ (loopsOnly_mem hqc (first_mem hc1)) h
  · exact ScopesKept.of_varRhs h
  · exact IH.arrayAccess _ _ _ _ hqc h
  · exact (ScopesKept.scopeAccess h)
  · exact IH.list _ _ _ _ hqc h
  · have := pure_ok h
    subst this
    exact ScopesKept.unchanged _

theorem quiet_unaryExpr (env : Env) (f : Nat) (IH : QuietAll env f)
    {st : SynTree} {sc : ScopeId} {m m1 : CodeModel}
    (hq : SynTree.loopsOnly m.d_foreach st = true)
    (h : unaryExpr env (f + 1) st sc m = Except.ok m1) : ScopesKept m m1 := by
  rw [unaryExpr] at h
  obtain ⟨_, _, h⟩ := bind_ok h
  split at h
  · obtain ⟨c, hc, h⟩ := bind_ok h
    exact IH.primaryExpr _ _ _ _ (loopsOnly_mem hq (first_mem hc)) h
  · split at h
    · obtain ⟨_, _, h⟩ := bind_ok h
      obtain ⟨c, hc, h⟩ := bind_ok h
      exact IH.unaryExpr _ _ _ _ (loopsOnly_mem hq (last_mem hc)) h
    · exact absurd h (fun h => throw_ok h)

theorem quiet_exprNlr (env : Env) (f : Nat) (IH : QuietAll env f)
    {st : SynTree} {sc : ScopeId} {m m1 : CodeModel}
    (hq : SynTree.loopsOnly m.d_foreach st = true)
    (h : exprNlr env (f + 1) st sc m = Except.ok m1) : ScopesKept m m1 := by
  rw [exprNlr] at h
  obtain ⟨_, _, h⟩ := bind_ok h
  obtain ⟨_, _, h⟩ := bind_ok h
  obtain ⟨c, hc, h⟩ := bind_ok h
  obtain ⟨m2, h2, h⟩ := bind_ok h
  have k1 := IH.expr _ _ _ _ (loopsOnly_mem hq (child_mem hc)) h2
  split at h
  · split at h
    · obtain ⟨c2, hc2, h⟩ := bind_ok h
      exact k1.and_then (IH.exprNlr _ _ _ _
        (by rw [k1.1]; exact loopsOnly_mem hq (last_mem hc2)) h)
    · exact absurd h (fun h => throw_ok h)
  · have := pure_ok h
    subst this
    exact k1

theorem quiet_arrayAccess (env : Env) (f : Nat) (IH : QuietAll env f)
    {st : SynTree} {sc : ScopeId} {m m1 : CodeModel}
    (hq : SynTree.loopsOnly m.d_foreach st = true)
    (h : arrayAccess env (f + 1) st sc m = Except.ok m1) : ScopesKept m m1 := by
  rw [arrayAccess] at h
  obtain ⟨_, _, h⟩ := bind_ok h
  obtain ⟨c, _, h⟩ := bind_ok h
  obtain ⟨m2, h2, h⟩ := bind_ok h
  obtain ⟨c2, hc2, h⟩ := bind_ok h
  have k1 : ScopesKept m m2 := ScopesKept.of_varRhs h2
  exact k1.and_then (IH.expr _ _ _ _ (by rw [k1.1]; exact loopsOnly_mem hq (child_mem hc2)) h)

theorem quiet_list (env : Env) (f : Nat) (IH : QuietAll env f)
    {st : SynTree} {sc : ScopeId} {m m1 : CodeModel}
    (hq : SynTree.loopsOnly m.d_foreach st = true)
    (h : list env (f + 1) st sc m = Except.ok m1) : ScopesKept m m1 := by
  rw [list] at h
  obtain ⟨_, _, h⟩ := bind_ok h
  exact ScopesKept.of_fold m.d_foreach _ (fun x m m1 hx h => IH.expr x sc m m1 hx h) _ _ _
    rfl (fun x hx => loopsOnly_mem hq
      (List.mem_of_mem_drop (List.mem_of_mem_dropLast hx))) h

/-- Every walk function keeps the `childScopes` lists on a tree with no string and no call
other than `foreach`, at every fuel. -/
theorem quietAll (env : Env) : ∀ f : Nat, QuietAll env f := by
  intro f
  induction f with
  | zero =>
    exact {
      statementList := fun st sc m m1 _ h => by rw [Gn.statementList] at h; exact absurd h (fun h => throw_ok h)
      statement := fun st sc m m1 _ h => by rw [Gn.statement] at h; exact absurd h (fun h => throw_ok h)
      call_ := fun st sc m m1 _ _ h => by rw [Gn.call_] at h; exact absurd h (fun h => throw_ok h)
      loop_ := fun st sc m m1 _ h => by rw [Gn.loop_] at h; exact absurd h (fun h => throw_ok h)
      expr := fun st sc m m1 _ h => by rw [Gn.expr] at h; exact absurd h (fun h => throw_ok h)
      block := fun st sc m m1 _ h => by rw [Gn.block] at h; exact absurd h (fun h => throw_ok h)
      condition_ := fun st sc m m1 _ h => by rw [Gn.condition_] at h; exact absurd h (fun h => throw_ok h)
      assignment_ := fun st sc m m1 _ h => by rw [Gn.assignment_] at h; exact absurd h (fun h => throw_ok h)
      lvalue := fun st sc m m1 _ h => by rw [Gn.lvalue] at h; exact absurd h (fun h => throw_ok h)
      primaryExpr := fun st sc m m1 _ h => by rw [Gn.primaryExpr] at h; exact absurd h (fun h => throw_ok h)
      unaryExpr := fun st sc m m1 _ h => by rw [Gn.unaryExpr] at h; exact absurd h (fun h => throw_ok h)
      exprNlr := fun st sc m m1 _ h => by rw [Gn.exprNlr] at h; exact absurd h (fun h => throw_ok h)
      arrayAccess := fun st sc m m1 _ h => by rw [Gn.arrayAccess] at h; exact absurd h (fun h => throw_ok h)
      list := fun st sc m m1 _ h => by rw [Gn.list] at h; exact absurd h (fun h => throw_ok h) }
  | succ f ih =>
    exact {
      statementList := fun st sc m m1 hq h => quiet_statementList env f ih hq h
      statement := fun st sc m m1 hq h => quiet_statement env f ih hq h
      call_ := fun st sc m m1 hq ht h => quiet_call_ env f ih hq ht h
      loop_ := fun st sc m m1 hq h => quiet_loop_ env f ih hq h
      expr := fun st sc m m1 hq h => quiet_expr env f ih hq h
      block := fun st sc m m1 hq h => quiet_block env f ih hq h
      condition_ := fun st sc m m1 hq h => quiet_condition_ env f ih hq h
      assignment_ := fun st sc m m1 hq h => quiet_assignment_ env f ih hq h
      lvalue := fun st sc m m1 hq h => quiet_lvalue env f ih hq h
      primaryExpr := fun st sc m m1 hq h => quiet_primaryExpr env f ih hq h
      unaryExpr := fun st sc m m1 hq h => quiet_unaryExpr env f ih hq h
      exprNlr := fun st sc m m1 hq h => quiet_exprNlr env f ih hq h
      arrayAccess := fun st sc m m1 hq h => quiet_arrayAccess env f ih hq h
      list := fun st sc m m1 hq h => quiet_list env f ih hq h }

theorem RecordedLhs.stays {m m1 : CodeModel} {sc : ScopeId} {id : SynTree}
    (h : RecordedLhs m sc id) (g : Grows m m1) : RecordedLhs m1 sc id := by
  obtain ⟨s, hs, hmem⟩ := h
  obtain ⟨s1, hs1, _, _, hl, _⟩ := g.scopes sc s hs
  exact ⟨s1, hs1, (hl _).subset hmem⟩

theorem statement_records (env : Env) (f : Nat) (stmt id : SynTree) (sc : ScopeId)
    (m m1 : CodeModel) (ha : IsPlainAssignment stmt id)
    (h : statement env f stmt sc m = Except.ok m1) : RecordedLhs m1 sc id := by
  obtain ⟨ts, ta, tlv, op, e, rfl, hta⟩ := ha
  cases f with
  | zero => rw [statement] at h; exact absurd h (fun h => throw_ok h)
  | succ f =>
    rw [statement] at h
    obtain ⟨_, _, h⟩ := bind_ok h
    obtain ⟨c, hc, h⟩ := bind_ok h
    have hc' : c = .mk ta [.mk tlv [id], op, e] := @first_eq (.mk ts [.mk ta [.mk tlv [id], op, e]]) _ _ rfl hc
    subst hc'
    simp only [d_tok_mk, hta] at h
    cases f with
    | zero => rw [assignment_] at h; exact absurd h (fun h => throw_ok h)
    | succ f =>
      rw [assignment_] at h
      obtain ⟨_, _, h⟩ := bind_ok h
      obtain ⟨lv, hlv, h⟩ := bind_ok h
      have hlv' : lv = .mk tlv [id] := @first_eq (.mk ta [.mk tlv [id], op, e]) _ _ rfl hlv
      subst hlv'
      obtain ⟨m2, h2, h⟩ := bind_ok h
      obtain ⟨e1, _, h⟩ := bind_ok h
      have hrec : RecordedLhs m2 sc id := by
        cases f with
        | zero => rw [lvalue] at h2; exact absurd h2 (fun h => throw_ok h)
        | succ f =>
          rw [lvalue] at h2
          obtain ⟨_, _, h2⟩ := bind_ok h2
          obtain ⟨id1, hid1, h2⟩ := bind_ok h2
          have hid' : id1 = id := @first_eq (.mk tlv [id]) _ _ rfl hid1
          subst hid'
          simp only [d_children_mk, List.length_singleton, gt_iff_lt, Nat.lt_irrefl,
            if_false] at h2
          have h2' := h2
          unfold varLhs at h2'
          obtain ⟨_, hq, h2'⟩ := bind_ok h2'
          obtain ⟨s, hs, _⟩ := bind_ok h2'
          have hty : id1.d_tok.d_type = TokenType.Tok_identifier := by
            simpa using qassert_ok hq
          obtain ⟨m2', hv, hsc2, _⟩ := varLhs_ok id1 sc m s hty (scope_ok hs)
          rw [hv] at h2
          cases h2
          refine ⟨_, hsc2, ?_⟩
          show id1 ∈ hashValue (hashAppend s.d_lhs id1.d_tok.d_val id1) id1.d_tok.d_val
          rw [hashValue_hashAppend_same]
          simp
      exact hrec.stays ((stepsAll env f).expr _ _ _ _ h).only_grow


theorem statements_record (env : Env) (f : Nat) (stmt id : SynTree) (sc : ScopeId)
    (ha : IsPlainAssignment stmt id) :
    ∀ (stmts : List SynTree) (m m1 : CodeModel), stmt ∈ stmts →
      stmts.foldlM (fun m s => statement env f s sc m) m = Except.ok m1 →
      RecordedLhs m1 sc id := by
  intro stmts
  induction stmts with
  | nil => intro m m1 hmem; cases hmem
  | cons x xs ih =>
    intro m m1 hmem h
    rw [List.foldlM_cons] at h
    obtain ⟨m2, h2, h3⟩ := bind_ok h
    rcases List.mem_cons.mp hmem with rfl | hmem
    · exact (statement_records env f stmt id sc m m2 ha h2).stays
        (Steps.of_foldlM (fun m s => statement env f s sc m)
          (fun x m m1 h => (stepsAll env f).statement x sc m m1 h) xs m2 m1 h3).only_grow
    · exact ih m2 m1 hmem h3

theorem block_records (env : Env) (f : Nat) (blk stmt id : SynTree) (sc : ScopeId)
    (m m1 : CodeModel) (hb : InBlock blk stmt) (ha : IsPlainAssignment stmt id)
    (h : block env f blk sc m = Except.ok m1) : RecordedLhs m1 sc id := by
  obtain ⟨tb, tl, lb, rb, stmts, rfl, hmem⟩ := hb
  cases f with
  | zero => rw [block] at h; exact absurd h (fun h => throw_ok h)
  | succ f =>
    rw [block] at h
    obtain ⟨_, _, h⟩ := bind_ok h
    obtain ⟨c, hc, h⟩ := bind_ok h
    have hc' : c = .mk tl stmts := @child_eq (.mk tb [lb, .mk tl stmts, rb]) _ _ 1 rfl hc
    subst hc'
    cases f with
    | zero => rw [statementList] at h; exact absurd h (fun h => throw_ok h)
    | succ f =>
      rw [statementList] at h
      obtain ⟨_, _, h⟩ := bind_ok h
      exact statements_record env f stmt id sc ha stmts m m1 hmem h

/-- A conditional without `else`: the guard and the block are walked with the scope of the
conditional. -/
theorem condition_then (env : Env) (f : Nat) (st g b : SynTree) (sc : ScopeId)
    (m : CodeModel) (ht : st.d_tok.d_type = TokenType.R_Condition)
    (h5 : st.d_children.length = 5) (hg : st.d_children[2]? = some g)
    (hb : st.d_children[4]? = some b) :
    condition_ env (f + 1) st sc m = (expr env f g sc m >>= fun m1 => block env f b sc m1) := by
  rw [condition_]
  simp only [qassert, ht, h5, child_ok hg, child_ok hb, bind, Except.bind]
  simp [pure, Except.pure]
  cases expr env f g sc m with
  | error e => rfl
  | ok m1 =>
    simp only
    cases block env f b sc m1 <;> rfl

/-- A conditional with `else`: the guard, the block and the `else` part, a conditional or
a block, are walked with the scope of the conditional. -/
theorem condition_else (env : Env) (f : Nat) (st g b c6 : SynTree) (sc : ScopeId)
    (m : CodeModel) (ht : st.d_tok.d_type = TokenType.R_Condition)
    (h7 : st.d_children.length = 7) (hg : st.d_children[2]? = some g)
    (hb : st.d_children[4]? = some b) (h6 : st.d_children[6]? = some c6) :
    condition_ env (f + 1) st sc m
      = (expr env f g sc m >>= fun m1 => block env f b sc m1 >>= fun m2 =>
          if c6.d_tok.d_type = TokenType.R_Condition then condition_ env f c6 sc m2
          else block env f c6 sc m2) := by
  rw [condition_]
  simp only [qassert, ht, h7, child_ok hg, child_ok hb, child_ok h6, bind, Except.bind]
  simp [pure, Except.pure]

theorem loop_valid (env : Env) (f : Nat) (st c2 lastc a l : SynTree) (sc : ScopeId)
    (m : CodeModel) (hc2 : st.d_children[2]? = some c2)
    (hlast : st.d_children.getLast? = some lastc)
    (h2 : c2.d_tok.d_type = TokenType.R_ExprList)
    (hl : lastc.d_tok.d_type = TokenType.R_Block) (h5 : st.d_children.length = 5)
    (hargs : c2.d_children = [a, l])
    (hv : (flatten a).d_tok.d_type = TokenType.Tok_identifier) :
    loop_ env (f + 1) st sc m
      = (expr env f l sc { m with d_allLhs := hashAppend m.d_allLhs (flatten a).d_tok.d_val (flatten a) }
          >>= fun m1 => block env f lastc sc m1) := by
  have h : ¬ (c2.d_tok.d_type = TokenType.Tok_Rpar ∨ lastc.d_tok.d_type ≠ TokenType.R_Block) := by
    rw [h2, hl]; decide
  have hn : c2.d_children.length = 2 := by rw [hargs]; rfl
  have hf : c2.first = Except.ok a := first_ok (by rw [hargs]; rfl)
  have hla : c2.last = Except.ok l := last_ok (by rw [hargs]; rfl)
  rw [loop_]
  simp only [child_ok hc2, last_ok hlast, bind, Except.bind, h, if_false, qassert, h2, h5, hn,
    ne_eq, not_true_eq_false, hf, hla, hv, not_false_eq_true, if_true]
  simp [hl, pure, Except.pure]

theorem condition_records (env : Env) (sc : ScopeId) (stmt id : SynTree)
    (ha : IsPlainAssignment stmt id) {st b : SynTree} (hc : ChainBlock st b)
    (hb : InBlock b stmt) :
    ∀ (f : Nat) (m m1 : CodeModel), condition_ env f st sc m = Except.ok m1 →
      RecordedLhs m1 sc id := by
  induction hc with
  | thenB st b h4 =>
    intro f m m1 h
    cases f with
    | zero => rw [condition_] at h; exact absurd h (fun h => throw_ok h)
    | succ f =>
      have hs := steps_condition_ env f (stepsAll env f) h
      rw [condition_] at h
      obtain ⟨_, _, h⟩ := bind_ok h
      obtain ⟨c2, _, h⟩ := bind_ok h
      obtain ⟨m2, h2, h⟩ := bind_ok h
      obtain ⟨c4, hc4, h⟩ := bind_ok h
      obtain ⟨m3, h3, h⟩ := bind_ok h
      have e4 : c4 = b := child_eq h4 hc4
      subst e4
      have r3 := block_records env f c4 stmt id sc m2 m3 hb ha h3
      split at h
      · obtain ⟨_, _, h⟩ := bind_ok h
        obtain ⟨c6, _, h⟩ := bind_ok h
        split at h
        · exact r3.stays ((stepsAll env f).condition_ _ _ _ _ h).only_grow
        · exact r3.stays ((stepsAll env f).block _ _ _ _ h).only_grow
      · have := pure_ok h
        subst this
        exact r3
  | elseB st b h6 hnc =>
    intro f m m1 h
    cases f with
    | zero => rw [condition_] at h; exact absurd h (fun h => throw_ok h)
    | succ f =>
      rw [condition_] at h
      obtain ⟨_, _, h⟩ := bind_ok h
      obtain ⟨c2, _, h⟩ := bind_ok h
      obtain ⟨m2, h2, h⟩ := bind_ok h
      obtain ⟨c4, hc4, h⟩ := bind_ok h
      obtain ⟨m3, h3, h⟩ := bind_ok h
      have hlen : st.d_children.length > 5 := by
        have := (List.getElem?_eq_some_iff.mp h6).1
        omega
      rw [if_pos hlen] at h
      obtain ⟨_, _, h⟩ := bind_ok h
      obtain ⟨c6, hc6, h⟩ := bind_ok h
      have e6 : c6 = b := child_eq h6 hc6
      subst e6
      rw [if_neg hnc] at h
      exact block_records env f c6 stmt id sc m3 m1 hb ha h
  | elseIf st c b h6 hcond _ ih =>
    intro f m m1 h
    cases f with
    | zero => rw [condition_] at h; exact absurd h (fun h => throw_ok h)
    | succ f =>
      rw [condition_] at h
      obtain ⟨_, _, h⟩ := bind_ok h
      obtain ⟨c2, _, h⟩ := bind_ok h
      obtain ⟨m2, h2, h⟩ := bind_ok h
      obtain ⟨c4, hc4, h⟩ := bind_ok h
      obtain ⟨m3, h3, h⟩ := bind_ok h
      have hlen : st.d_children.length > 5 := by
        have := (List.getElem?_eq_some_iff.mp h6).1
        omega
      rw [if_pos hlen] at h
      obtain ⟨_, _, h⟩ := bind_ok h
      obtain ⟨c6, hc6, h⟩ := bind_ok h
      have e6 : c6 = c := child_eq h6 hc6
      subst e6
      rw [if_pos hcond] at h
      exact ih hb f m3 m1 h

theorem loop_records (env : Env) (f : Nat) (st c2 body stmt id : SynTree) (sc : ScopeId)
    (m m1 : CodeModel) (hc2 : st.d_children[2]? = some c2)
    (hlast : st.d_children.getLast? = some body)
    (hn : c2.d_children.length = 2) (h2 : c2.d_tok.d_type ≠ TokenType.Tok_Rpar)
    (hl : body.d_tok.d_type = TokenType.R_Block)
    (hb : InBlock body stmt) (ha : IsPlainAssignment stmt id)
    (h : loop_ env f st sc m = Except.ok m1) : RecordedLhs m1 sc id := by
  cases f with
  | zero => rw [loop_] at h; exact absurd h (fun h => throw_ok h)
  | succ f =>
    rw [loop_] at h
    obtain ⟨c2', hc2', h⟩ := bind_ok h
    obtain ⟨lastc, hlast', h⟩ := bind_ok h
    have e2 : c2' = c2 := child_eq hc2 hc2'
    subst e2
    have el : lastc = body := by
      have := last_ok hlast
      rw [this] at hlast'
      exact (Except.ok.inj hlast').symm
    subst el
    have hno : ¬ (c2'.d_tok.d_type = TokenType.Tok_Rpar
        ∨ lastc.d_tok.d_type ≠ TokenType.R_Block) := by
      rintro (h1 | h1)
      · exact h2 h1
      · exact h1 hl
    rw [if_neg hno] at h
    obtain ⟨_, _, h⟩ := bind_ok h
    rw [if_neg (by rw [hn]; decide)] at h
    obtain ⟨v, _, h⟩ := bind_ok h
    dsimp only at h
    obtain ⟨e, he, h⟩ := bind_ok h
    obtain ⟨m2, _, h⟩ := bind_ok h
    exact block_records env f lastc stmt id sc m2 m1 hb ha h

theorem loop_allLhs (env : Env) (f : Nat) (st c2 lastc a l : SynTree) (sc : ScopeId)
    (m m1 : CodeModel) (hc2 : st.d_children[2]? = some c2)
    (hlast : st.d_children.getLast? = some lastc)
    (h2 : c2.d_tok.d_type = TokenType.R_ExprList)
    (hl : lastc.d_tok.d_type = TokenType.R_Block) (h5 : st.d_children.length = 5)
    (hargs : c2.d_children = [a, l])
    (hv : (flatten a).d_tok.d_type = TokenType.Tok_identifier)
    (h : loop_ env (f + 1) st sc m = Except.ok m1) :
    flatten a ∈ hashValue m1.d_allLhs (flatten a).d_tok.d_val := by
  rw [loop_valid env f st c2 lastc a l sc m hc2 hlast h2 hl h5 hargs hv] at h
  obtain ⟨m2, hm2, h⟩ := bind_ok h
  have g := (((stepsAll env f).expr _ _ _ _ hm2).followed_by
    ((stepsAll env f).block _ _ _ _ h)).only_grow
  have hp := g.allLhs (flatten a).d_tok.d_val
  apply hp.subset
  show flatten a ∈ hashValue (hashAppend m.d_allLhs (flatten a).d_tok.d_val (flatten a)) _
  rw [hashValue_hashAppend_same]
  simp

theorem chainFile_walk :
    chainWalked = some ([([], ["b".toList, "e".toList, "y".toList])],
      ["b".toList, "e".toList, "v".toList, "y".toList]) := by
  decide!

theorem chainFile_loopsOnly : SynTree.loopsOnly sampleModel.d_foreach chainFile = true := by
  decide

/-- C15: conditions and loops never introduce a scope. (1), (2) `condition_` is the walk of
the guard, then of the block, then of the `else` part (a further conditional or a block),
each with the scope `sc` of the conditional; (3) `loop_`, for a `foreach` with two arguments
and a block, is the walk of the iterable and then of the body, each with the scope `sc` of
the call, from a model with the scopes of `m`; (4), (5) the walk of a conditional or of a
`foreach` call whose tree holds no string and no call other than `foreach` leaves the
`childScopes` list of every scope as it was and adds no scope; (6), (7) an assignment to a
plain identifier that is a statement of a block of the `if` / `else if` / `else` chain, or
of the body of the `foreach`, is in the LHS map of `sc` in the model that the walk returns;
(8) the sample chain with a nested `foreach` is walked with one scope, without children,
whose LHS map holds `b`, `e` and `y`. -/
theorem conditions_loops_keep_scope (env : Env) :
    (∀ (f : Nat) (st g b : SynTree) (sc : ScopeId) (m : CodeModel),
      st.d_tok.d_type = TokenType.R_Condition → st.d_children.length = 5 →
      st.d_children[2]? = some g → st.d_children[4]? = some b →
      condition_ env (f + 1) st sc m = (expr env f g sc m >>= fun m1 => block env f b sc m1))
    ∧ (∀ (f : Nat) (st g b c6 : SynTree) (sc : ScopeId) (m : CodeModel),
      st.d_tok.d_type = TokenType.R_Condition → st.d_children.length = 7 →
      st.d_children[2]? = some g → st.d_children[4]? = some b →
      st.d_children[6]? = some c6 →
      condition_ env (f + 1) st sc m
        = (expr env f g sc m >>= fun m1 => block env f b sc m1 >>= fun m2 =>
            if c6.d_tok.d_type = TokenType.R_Condition then condition_ env f c6 sc m2
            else block env f c6 sc m2))
    ∧ (∀ (f : Nat) (st c2 body a l : SynTree) (sc : ScopeId) (m : CodeModel),
      st.d_children[2]? = some c2 → st.d_children.getLast? = some body →
      c2.d_tok.d_type = TokenType.R_ExprList → body.d_tok.d_type = TokenType.R_Block →
      st.d_children.length = 5 → c2.d_children = [a, l] →
      ∃ m0 : CodeModel, m0.scopes = m.scopes
        ∧ loop_ env (f + 1) st sc m
            = (expr env f l sc m0 >>= fun m1 => block env f body sc m1))
    ∧ (∀ (f : Nat) (st : SynTree) (sc : ScopeId) (m m1 : CodeModel),
      SynTree.loopsOnly m.d_foreach st = true →
      condition_ env f st sc m = Except.ok m1 → ScopesKept m m1)
    ∧ (∀ (f : Nat) (st : SynTree) (sc : ScopeId) (m m1 : CodeModel),
      SynTree.loopsOnly m.d_foreach st = true → st.d_tok.d_type = TokenType.R_Call →
      call_ env f st sc m = Except.ok m1 → ScopesKept m m1)
    ∧ (∀ (f : Nat) (st b stmt id : SynTree) (sc : ScopeId) (m m1 : CodeModel),
      ChainBlock st b → InBlock b stmt → IsPlainAssignment stmt id →
      condition_ env f st sc m = Except.ok m1 → RecordedLhs m1 sc id)
    ∧ (∀ (f : Nat) (st c2 body stmt id : SynTree) (sc : ScopeId) (m m1 : CodeModel),
      st.d_children[2]? = some c2 → st.d_children.getLast? = some body →
      c2.d_children.length = 2 → c2.d_tok.d_type ≠ TokenType.Tok_Rpar →
      body.d_tok.d_type = TokenType.R_Block →
      InBlock body stmt → IsPlainAssignment stmt id →
      loop_ env f st sc m = Except.ok m1 → RecordedLhs m1 sc id)
    ∧ (SynTree.loopsOnly sampleModel.d_foreach chainFile = true
      ∧ chainWalked = some ([([], ["b".toList, "e".toList, "y".toList])],
          ["b".toList, "e".toList, "v".toList, "y".toList])) := by
  refine ⟨fun f st g b sc m ht h5 hg hb => condition_then env f st g b sc m ht h5 hg hb,
    fun f st g b c6 sc m ht h7 hg hb h6 => condition_else env f st g b c6 sc m ht h7 hg hb h6,
    ?_, fun f st sc m m1 hq h => (quietAll env f).condition_ st sc m m1 hq h,
    fun f st sc m m1 hq ht h => (quietAll env f).call_ st sc m m1 hq ht h,
    fun f st b stmt id sc m m1 hc hb ha h => condition_records env sc stmt id ha hc hb f m m1 h,
    fun f st c2 body stmt id sc m m1 hc2 hlast hn h2 hl hb ha h =>
      loop_records env f st c2 body stmt id sc m m1 hc2 hlast hn h2 hl hb ha h,
    chainFile_loopsOnly, chainFile_walk⟩
  intro f st c2 body a l sc m hc2 hlast h2 hl h5 hargs
  by_cases hv : (flatten a).d_tok.d_type = TokenType.Tok_identifier
  · exact ⟨{ m with d_allLhs := hashAppend m.d_allLhs (flatten a).d_tok.d_val (flatten a) },
      rfl, loop_valid env f st c2 body a l sc m hc2 hlast h2 hl h5 hargs hv⟩
  · exact ⟨m.error ErrSource.Syntax "invalid loop variable in foreach statement",
      rfl, loop_invalid_var env f st c2 body a l sc m hc2 hlast h2 hl h5 hargs hv⟩

/-! ### C13: the loop variable -/

/-- C13 (amended): for a well-formed `foreach(v, list) \x7b ... \x7d` whose first argument is
the plain identifier `v`, `loop_` appends the node `v` to `allLhs[v]`, which leaves every
scope as it was, and then walks the iterable and the body in the scope of the call; the
node is in `allLhs[v]` of the model that `loop_` returns. -/
theorem loop_variable_global (env : Env) (f : Nat) (st c2 body a l : SynTree)
    (sc : ScopeId) (m m1 : CodeModel) (hc2 : st.d_children[2]? = some c2)
    (hlast : st.d_children.getLast? = some body)
    (h2 : c2.d_tok.d_type = TokenType.R_ExprList)
    (hl : body.d_tok.d_type = TokenType.R_Block) (h5 : st.d_children.length = 5)
    (hargs : c2.d_children = [a, l])
    (hv : (flatten a).d_tok.d_type = TokenType.Tok_identifier)
    (h : loop_ env (f + 1) st sc m = Except.ok m1) :
    (∃ m0 : CodeModel,
      m0 = { m with d_allLhs := hashAppend m.d_allLhs (flatten a).d_tok.d_val (flatten a) }
      ∧ m0.scopes = m.scopes
      ∧ loop_ env (f + 1) st sc m
          = (expr env f l sc m0 >>= fun m2 => block env f body sc m2))
    ∧ flatten a ∈ hashValue m1.d_allLhs (flatten a).d_tok.d_val :=
  ⟨⟨_, rfl, rfl, loop_valid env f st c2 body a l sc m hc2 hlast h2 hl h5 hargs hv⟩,
    loop_allLhs env f st c2 body a l sc m m1 hc2 hlast h2 hl h5 hargs hv h⟩

/-- C13 (counterexample): after the walk of `foreach(v, items) \x7b y = v \x7d` in the file
scope, the LHS map of that scope has no entry under `v`, while `allLhs[v]` holds the node of
the loop variable. -/
theorem loop_variable_not_local :
    (loop_ sampleEnv 30 goodLoop 0 sampleModel).toOption.map
        (fun m => (m.scopes.map (fun s => hashValue s.d_lhs "v".toList),
          hashValue m.d_allLhs "v".toList))
      = some ([[]], [identNode 5 9 "v"]) := by
  decide!

theorem loop_variable_global_witness :
    loop_ sampleEnv (29 + 1) goodLoop 0 sampleModel = Except.ok goodLoopWalked
    ∧ identNode 5 9 "v" ∈ hashValue goodLoopWalked.d_allLhs "v".toList :=
  ⟨walk_eq_ok _ _ (by decide!),
   (loop_variable_global sampleEnv 29 goodLoop
      (ruleNode TokenType.R_ExprList
        [exprNode (identNode 5 9 "v"), exprNode (identNode 5 12 "items")])
      (blockNode [assignNode 6 "y" (identNode 6 5 "v")])
      (exprNode (identNode 5 9 "v")) (exprNode (identNode 5 12 "items")) 0 sampleModel
      goodLoopWalked rfl rfl rfl rfl rfl rfl rfl (walk_eq_ok _ _ (by decide!))).2⟩


/-! ### C12: assignments -/

theorem recordRhs_length (sc : ScopeId) (m : CodeModel) (id : SynTree) :
    (recordRhs sc m id).scopes.length = m.scopes.length := by
  simp [recordRhs, CodeModel.modifyScope, updateAt_length]

theorem recordRhs_foldl_length (sc : ScopeId) :
    ∀ (ids : List SynTree) (m : CodeModel),
      (ids.foldl (recordRhs sc) m).scopes.length = m.scopes.length := by
  intro ids
  induction ids with
  | nil => intro m; rfl
  | cons x xs ih => intro m; rw [List.foldl_cons, ih, recordRhs_length]

theorem varRhs_record (id : SynTree) (sc : ScopeId) (m : CodeModel)
    (hid : id.d_tok.d_type = TokenType.Tok_identifier) (hsc : sc < m.scopes.length) :
    varRhs id sc m = Except.ok (recordRhs sc m id) := by
  obtain ⟨s, hs⟩ : ∃ s, m.scopes[sc]? = some s :=
    ⟨m.scopes[sc], List.getElem?_eq_getElem hsc⟩
  exact varRhs_ok id sc m s hid hs

theorem getLast?_cons_concat {α : Type} (a b : α) (l : List α) :
    (a :: (l ++ [b])).getLast? = some b := by
  have : a :: (l ++ [b]) = (a :: l) ++ [b] := rfl
  rw [this, List.getLast?_append]
  simp

theorem plain_walk (env : Env) {k : ExprKind} {st : SynTree} {ids : List SynTree}
    (hp : Plain k st ids) :
    ∃ d : Nat, ∀ f : Nat, d ≤ f → ∀ (sc : ScopeId) (m : CodeModel), sc < m.scopes.length →
      walkOf env f k st sc m = Except.ok (ids.foldl (recordRhs sc) m) := by
  induction hp with
  | expr1 t u ids ht _ ih =>
    obtain ⟨d, ih⟩ := ih
    refine ⟨d + 1, fun f hf sc m hsc => ?_⟩
    obtain ⟨f, rfl⟩ : ∃ g, f = g + 1 := ⟨f - 1, by omega⟩
    have h1 := ih f (by omega) sc m hsc
    simp only [walkOf] at h1 ⊢
    rw [expr]
    simp [qassert, d_tok_mk, d_children_mk, ht, SynTree.first, bind, Except.bind, pure,
      Except.pure, h1]
  | expr2 t u n ids ids2 ht _ _ ih1 ih2 =>
    obtain ⟨d1, ih1⟩ := ih1
    obtain ⟨d2, ih2⟩ := ih2
    refine ⟨d1 + d2 + 1, fun f hf sc m hsc => ?_⟩
    obtain ⟨f, rfl⟩ : ∃ g, f = g + 1 := ⟨f - 1, by omega⟩
    have h1 := ih1 f (by omega) sc m hsc
    have h2 := ih2 f (by omega) sc (ids.foldl (recordRhs sc) m)
      (by rw [recordRhs_foldl_length]; exact hsc)
    simp only [walkOf] at h1 h2 ⊢
    rw [expr]
    simp [qassert, d_tok_mk, d_children_mk, ht, SynTree.first, SynTree.last, bind,
      Except.bind, pure, Except.pure, h1, h2, List.foldl_append]
  | unary1 t p ids ht _ ih =>
    obtain ⟨d, ih⟩ := ih
    refine ⟨d + 1, fun f hf sc m hsc => ?_⟩
    obtain ⟨f, rfl⟩ : ∃ g, f = g + 1 := ⟨f - 1, by omega⟩
    have h1 := ih f (by omega) sc m hsc
    simp only [walkOf] at h1 ⊢
    rw [unaryExpr]
    simp [qassert, d_tok_mk, d_children_mk, ht, SynTree.first, bind, Except.bind, pure,
      Except.pure, h1]
  | unary2 t o u ids ht ho _ ih =>
    obtain ⟨d, ih⟩ := ih
    refine ⟨d + 1, fun f hf sc m hsc => ?_⟩
    obtain ⟨f, rfl⟩ : ∃ g, f = g + 1 := ⟨f - 1, by omega⟩
    have h1 := ih f (by omega) sc m hsc
    simp only [walkOf] at h1 ⊢
    rw [unaryExpr]
    simp [qassert, d_tok_mk, d_children_mk, ht, ho, SynTree.last, SynTree.typeAt, bind,
      Except.bind, pure, Except.pure, h1]
  | nlr2 t o e ids ht ho _ ih =>
    obtain ⟨d, ih⟩ := ih
    refine ⟨d + 1, fun f hf sc m hsc => ?_⟩
    obtain ⟨f, rfl⟩ : ∃ g, f = g + 1 := ⟨f - 1, by omega⟩
    have h1 := ih f (by omega) sc m hsc
    simp only [walkOf] at h1 ⊢
    rw [exprNlr]
    simp [qassert, d_tok_mk, d_children_mk, ht, ho, SynTree.child, SynTree.typeAt, bind,
      Except.bind, pure, Except.pure, h1]
  | nlr3 t o e n ids ids2 ht ho _ _ ih1 ih2 =>
    obtain ⟨d1, ih1⟩ := ih1
    obtain ⟨d2, ih2⟩ := ih2
    refine ⟨d1 + d2 + 1, fun f hf sc m hsc => ?_⟩
    obtain ⟨f, rfl⟩ : ∃ g, f = g + 1 := ⟨f - 1, by omega⟩
    have h1 := ih1 f (by omega) sc m hsc
    have h2 := ih2 f (by omega) sc (ids.foldl (recordRhs sc) m)
      (by rw [recordRhs_foldl_length]; exact hsc)
    simp only [walkOf] at h1 h2 ⊢
    rw [exprNlr]
    simp [qassert, d_tok_mk, d_children_mk, ht, ho, SynTree.child, SynTree.last,
      SynTree.typeAt, bind, Except.bind, pure, Except.pure, h1, h2, List.foldl_append]
  | ident t id hid =>
    refine ⟨1, fun f hf sc m hsc => ?_⟩
    obtain ⟨f, rfl⟩ : ∃ g, f = g + 1 := ⟨f - 1, by omega⟩
    simp only [walkOf]
    rw [primaryExpr]
    simp [qassert, d_children_mk, SynTree.first, bind, Except.bind, pure, Except.pure, hid,
      varRhs_record id sc m hid hsc]
  | integer t c hc =>
    refine ⟨1, fun f hf sc m hsc => ?_⟩
    obtain ⟨f, rfl⟩ : ∃ g, f = g + 1 := ⟨f - 1, by omega⟩
    simp only [walkOf]
    rw [primaryExpr]
    simp [qassert, d_children_mk, SynTree.first, bind, Except.bind, pure, Except.pure, hc]
  | paren t lp e rp ids hlp _ ih =>
    obtain ⟨d, ih⟩ := ih
    refine ⟨d + 1, fun f hf sc m hsc => ?_⟩
    obtain ⟨f, rfl⟩ : ∃ g, f = g + 1 := ⟨f - 1, by omega⟩
    have h1 := ih f (by omega) sc m hsc
    simp only [walkOf] at h1 ⊢
    rw [primaryExpr]
    simp [qassert, d_children_mk, SynTree.first, SynTree.child, bind, Except.bind, pure,
      Except.pure, hlp, h1]
  | array t ta id lb e rb ids hta hid hlb hrb _ ih =>
    obtain ⟨d, ih⟩ := ih
    refine ⟨d + 2, fun f hf sc m hsc => ?_⟩
    obtain ⟨f, rfl⟩ : ∃ g, f = g + 2 := ⟨f - 2, by omega⟩
    have h1 := ih f (by omega) sc (recordRhs sc m id) (by rw [recordRhs_length]; exact hsc)
    simp only [walkOf] at h1 ⊢
    rw [primaryExpr]
    simp only [qassert, d_children_mk, SynTree.first, bind, Except.bind, pure, Except.pure,
      List.head?, d_tok_mk, hta, List.isEmpty_cons, Bool.not_false]
    rw [arrayAccess]
    simp [qassert, d_tok_mk, d_children_mk, hta, hlb, hrb, SynTree.first, SynTree.child,
      SynTree.typeAt, bind, Except.bind, pure, Except.pure, varRhs_record id sc m hid hsc, h1]
  | scopeAcc t ta id dot fld hta hid hdot hfld =>
    refine ⟨2, fun f hf sc m hsc => ?_⟩
    obtain ⟨f, rfl⟩ : ∃ g, f = g + 2 := ⟨f - 2, by omega⟩
    simp only [walkOf]
    rw [primaryExpr]
    simp only [qassert, d_children_mk, SynTree.first, bind, Except.bind, pure, Except.pure,
      List.head?, d_tok_mk, hta, List.isEmpty_cons, Bool.not_false]
    unfold scopeAccess
    simp [qassert, d_tok_mk, d_children_mk, hta, hdot, SynTree.first, SynTree.last,
      SynTree.typeAt, bind, Except.bind, pure, Except.pure, varRhs_record id sc m hid hsc,
      varRhs_record fld sc (recordRhs sc m id) hfld (by rw [recordRhs_length]; exact hsc)]
  | list t tl lb rb es ids htl hlb hrb _ ih =>
    obtain ⟨d, ih⟩ := ih
    refine ⟨d + 2, fun f hf sc m hsc => ?_⟩
    obtain ⟨f, rfl⟩ : ∃ g, f = g + 2 := ⟨f - 2, by omega⟩
    have h1 := ih f (by omega) sc m hsc
    simp only [walkOf, d_children_mk] at h1 ⊢
    rw [primaryExpr]
    simp only [qassert, d_children_mk, SynTree.first, bind, Except.bind, pure, Except.pure,
      List.head?, d_tok_mk, htl, List.isEmpty_cons, Bool.not_false]
    rw [list]
    simp [qassert, d_tok_mk, d_children_mk, htl, hlb, hrb, SynTree.typeAt, SynTree.typeLast,
      bind, Except.bind, pure, Except.pure, h1, getLast?_cons_concat]
  | nil t =>
    refine ⟨0, fun f hf sc m hsc => ?_⟩
    simp [walkOf, d_children_mk, pure, Except.pure]
  | cons t e es ids ids2 _ _ ih1 ih2 =>
    obtain ⟨d1, ih1⟩ := ih1
    obtain ⟨d2, ih2⟩ := ih2
    refine ⟨d1 + d2, fun f hf sc m hsc => ?_⟩
    have h1 := ih1 f (by omega) sc m hsc
    have h2 := ih2 f (by omega) sc (ids.foldl (recordRhs sc) m)
      (by rw [recordRhs_foldl_length]; exact hsc)
    simp only [walkOf, d_children_mk] at h1 h2 ⊢
    rw [List.foldlM_cons, h1]
    simp only [bind, Except.bind]
    rw [h2, List.foldl_append]

theorem hashValue_hashAppend {β : Type} (h : List (QByteArray × List β))
    (k k2 : QByteArray) (x : β) :
    hashValue (hashAppend h k x) k2 = hashValue h k2 ++ (if k2 = k then [x] else []) := by
  by_cases hk : k2 = k
  · subst hk
    rw [hashValue_hashAppend_same, if_pos rfl]
  · rw [hashValue_hashAppend_other h k k2 x hk, if_neg hk, List.append_nil]

/-- The model after the recordings of `varRhs` for the nodes `ids`: the lists of `allRhs`
and of the RHS map of the scope grow by the nodes of their name, nothing else of the scope's
or the model's LHS maps changes. -/
theorem recordRhs_foldl (sc : ScopeId) :
    ∀ (ids : List SynTree) (m : CodeModel) (s : Scope), m.scopes[sc]? = some s →
      ∃ s1 : Scope, (ids.foldl (recordRhs sc) m).scopes[sc]? = some s1
        ∧ s1.d_lhs = s.d_lhs
        ∧ (ids.foldl (recordRhs sc) m).d_allLhs = m.d_allLhs
        ∧ (∀ k, hashValue (ids.foldl (recordRhs sc) m).d_allRhs k
            = hashValue m.d_allRhs k ++ ids.filter (fun x => x.d_tok.d_val = k))
        ∧ (∀ k, hashValue s1.d_rhs k
            = hashValue s.d_rhs k ++ ids.filter (fun x => x.d_tok.d_val = k)) := by
  intro ids
  induction ids with
  | nil => intro m s hs; exact ⟨s, hs, rfl, rfl, fun k => by simp, fun k => by simp⟩
  | cons x xs ih =>
    intro m s hs
    have hs2 : (recordRhs sc m x).scopes[sc]?
        = some { s with d_rhs := hashAppend s.d_rhs x.d_tok.d_val x } := by
      show (m.modifyScope sc _).scopes[sc]? = _
      rw [modifyScope_get_same, hs]
      rfl
    obtain ⟨s1, h1, h2, h3, h4, h5⟩ := ih (recordRhs sc m x) _ hs2
    refine ⟨s1, h1, h2, h3, fun k => ?_, fun k => ?_⟩
    · rw [List.foldl_cons, h4 k]
      show hashValue (hashAppend m.d_allRhs x.d_tok.d_val x) k ++ _ = _
      rw [hashValue_hashAppend, List.filter_cons]
      by_cases hk : x.d_tok.d_val = k
      · simp [hk]
      · have hk2 : ¬ k = x.d_tok.d_val := fun e => hk e.symm
        simp [hk, hk2]
    · rw [h5 k]
      show hashValue (hashAppend s.d_rhs x.d_tok.d_val x) k ++ _ = _
      rw [hashValue_hashAppend, List.filter_cons]
      by_cases hk : x.d_tok.d_val = k
      · simp [hk]
      · have hk2 : ¬ k = x.d_tok.d_val := fun e => hk e.symm
        simp [hk, hk2]

/-- The walk of the statement `id = e` for a plain expression `e` with the identifier
occurrences `ids`, from a model whose scope `sc` is `s`. -/
theorem assignment_walk (env : Env) (ts ta tlv : Token) (id op e : SynTree)
    (ids : List SynTree) (sc : ScopeId) (m : CodeModel) (s : Scope)
    (hts : ts.d_type = TokenType.R_Statement) (hta : ta.d_type = TokenType.R_Assignment)
    (htlv : tlv.d_type = TokenType.R_LValue)
    (hid : id.d_tok.d_type = TokenType.Tok_identifier)
    (hop : op.d_tok.d_type = TokenType.R_AssignOp) (he : Plain ExprKind.expr e ids)
    (hs : m.scopes[sc]? = some s) :
    ∃ d : Nat, ∀ f : Nat, d ≤ f → ∃ (m1 : CodeModel) (s1 : Scope),
      statement env f (.mk ts [.mk ta [.mk tlv [id], op, e]]) sc m = Except.ok m1
      ∧ m1.scopes[sc]? = some s1
      ∧ (∀ k, hashValue m1.d_allLhs k
          = hashValue m.d_allLhs k ++ (if k = id.d_tok.d_val then [id] else []))
      ∧ (∀ k, hashValue s1.d_lhs k
          = hashValue s.d_lhs k ++ (if k = id.d_tok.d_val then [id] else []))
      ∧ (∀ k, hashValue m1.d_allRhs k
          = hashValue m.d_allRhs k ++ ids.filter (fun x => x.d_tok.d_val = k))
      ∧ (∀ k, hashValue s1.d_rhs k
          = hashValue s.d_rhs k ++ ids.filter (fun x => x.d_tok.d_val = k)) := by
  obtain ⟨d, hd⟩ := plain_walk env he
  refine ⟨d + 3, fun f hf => ?_⟩
  obtain ⟨f, rfl⟩ : ∃ g, f = g + 3 := ⟨f - 3, by omega⟩
  obtain ⟨m0, hv, hs0, hall, _, hrhs, hlen⟩ := varLhs_ok id sc m s hid hs
  have hsc0 : sc < m0.scopes.length := (List.getElem?_eq_some_iff.1 hs0).1
  have hw := hd (f + 1) (by omega) sc m0 hsc0
  simp only [walkOf] at hw
  obtain ⟨s1, h1, h2, h3, h4, h5⟩ := recordRhs_foldl sc ids m0 _ hs0
  have hty : e.d_tok.d_type = TokenType.R_Expr := by
    cases he with
    | expr1 t u _ ht _ => exact ht
    | expr2 t u n _ _ ht _ _ => exact ht
  have hwalk : statement env (f + 3) (.mk ts [.mk ta [.mk tlv [id], op, e]]) sc m
      = Except.ok (ids.foldl (recordRhs sc) m0) := by
    rw [statement]
    simp only [qassert, d_tok_mk, d_children_mk, hts, SynTree.first, bind, Except.bind, pure,
      Except.pure, List.head?, hta, List.length_singleton, beq_self_eq_true, Bool.and_self,
      decide_True, if_true]
    rw [assignment_]
    simp only [qassert, d_tok_mk, d_children_mk, SynTree.first, SynTree.last, SynTree.typeAt,
      SynTree.typeLast, bind, Except.bind, pure, Except.pure, List.head?, htlv, hop, hty]
    rw [lvalue]
    simp [qassert, d_tok_mk, d_children_mk, SynTree.first, SynTree.typeAt, bind, Except.bind,
      pure, Except.pure, htlv, hid, hv, hw, hop, hty]
  refine ⟨_, s1, hwalk, h1, fun k => ?_, fun k => ?_, fun k => ?_, fun k => ?_⟩
  · rw [h3, hall, hashValue_hashAppend]
  · rw [h2]
    show hashValue (hashAppend s.d_lhs id.d_tok.d_val id) k = _
    rw [hashValue_hashAppend]
  · rw [h4 k, hrhs]
  · rw [h5 k]

theorem twoAssignments_walk :
    (statementList sampleEnv 12 twoAssignments 0 sampleModel).isOk = true
    ∧ twoAssignmentsWalked.d_allLhs
        = [("x".toList, [identNode 1 1 "x"]), ("y".toList, [identNode 2 1 "y"])]
    ∧ twoAssignmentsWalked.d_allRhs = [("x".toList, [identNode 2 5 "x"])]
    ∧ twoAssignmentsWalked.scopes.map (fun s => (s.d_lhs, s.d_rhs))
        = [([("x".toList, [identNode 1 1 "x"]), ("y".toList, [identNode 2 1 "y"])],
            [("x".toList, [identNode 2 5 "x"])])] := by
  decide!

/-- C12: the walk of an assignment `v = e`, where `v` is a plain identifier and `e` is built
from identifiers, integer literals, operators, parentheses, array and scope accesses and
lists, returns with enough fuel, and in the model it returns `allLhs[v]` and the list of `v`
in the LHS map of the current scope have grown by the node `v` alone, no other list of the
two maps has changed, and every list of `allRhs` and of the scope's RHS map has grown by
exactly the identifier nodes of `e` with that name, in their order (none for an integer
literal). For the file `x = 1`, `y = x`: `allLhs[x]`, `allRhs[x]` and `allLhs[y]` have one
entry each, `allRhs` has no key `y`, the query "LHS only" gives `y` and the query "RHS only"
gives nothing. -/
theorem assignment_records (env : Env) (ts ta tlv : Token) (id op e : SynTree)
    (ids : List SynTree) (sc : ScopeId) (m : CodeModel) (s : Scope)
    (hts : ts.d_type = TokenType.R_Statement) (hta : ta.d_type = TokenType.R_Assignment)
    (htlv : tlv.d_type = TokenType.R_LValue)
    (hid : id.d_tok.d_type = TokenType.Tok_identifier)
    (hop : op.d_tok.d_type = TokenType.R_AssignOp) (he : Plain ExprKind.expr e ids)
    (hs : m.scopes[sc]? = some s) :
    (∃ d : Nat, ∀ f : Nat, d ≤ f → ∃ (m1 : CodeModel) (s1 : Scope),
      statement env f (.mk ts [.mk ta [.mk tlv [id], op, e]]) sc m = Except.ok m1
      ∧ m1.scopes[sc]? = some s1
      ∧ (∀ k, hashValue m1.d_allLhs k
          = hashValue m.d_allLhs k ++ (if k = id.d_tok.d_val then [id] else []))
      ∧ (∀ k, hashValue s1.d_lhs k
          = hashValue s.d_lhs k ++ (if k = id.d_tok.d_val then [id] else []))
      ∧ (∀ k, hashValue m1.d_allRhs k
          = hashValue m.d_allRhs k ++ ids.filter (fun x => x.d_tok.d_val = k))
      ∧ (∀ k, hashValue s1.d_rhs k
          = hashValue s.d_rhs k ++ ids.filter (fun x => x.d_tok.d_val = k)))
    ∧ (∀ (t : Token) (c : SynTree), c.d_tok.d_type = TokenType.Tok_integer →
        Plain ExprKind.primary (.mk t [c]) [])
    ∧ (statementList sampleEnv 12 twoAssignments 0 sampleModel
          = Except.ok twoAssignmentsWalked
      ∧ hashValue twoAssignmentsWalked.d_allLhs "x".toList = [identNode 1 1 "x"]
      ∧ hashValue twoAssignmentsWalked.d_allRhs "x".toList = [identNode 2 5 "x"]
      ∧ hashValue twoAssignmentsWalked.d_allLhs "y".toList = [identNode 2 1 "y"]
      ∧ hashFind twoAssignmentsWalked.d_allRhs "y".toList = none
      ∧ queryLhsOnly twoAssignmentsWalked = ["y".toList]
      ∧ queryRhsOnly twoAssignmentsWalked = []) := by
  refine ⟨assignment_walk env ts ta tlv id op e ids sc m s hts hta htlv hid hop he hs,
    fun t c hc => Plain.integer t c hc,
    walk_eq_ok _ _ twoAssignments_walk.1, ?_, ?_, ?_, ?_, ?_, ?_⟩
  · rw [twoAssignments_walk.2.1]; decide
  · rw [twoAssignments_walk.2.2.1]; decide
  · rw [twoAssignments_walk.2.1]; decide
  · rw [twoAssignments_walk.2.2.1]; decide
  · rw [queryLhsOnly, twoAssignments_walk.2.1, twoAssignments_walk.2.2.1]; decide
  · rw [queryRhsOnly, twoAssignments_walk.2.1, twoAssignments_walk.2.2.1]; decide

theorem assignment_records_witness :
    Plain ExprKind.expr (exprNode (identNode 2 5 "x")) [identNode 2 5 "x"]
    ∧ sampleModel.scopes[0]? = some { d_kind := "file".toList }
    ∧ ∃ d : Nat, ∀ f : Nat, d ≤ f → ∃ (m1 : CodeModel) (s1 : Scope),
      statement sampleEnv f (assignNode 2 "y" (identNode 2 5 "x")) 0 sampleModel
        = Except.ok m1
      ∧ m1.scopes[0]? = some s1
      ∧ (∀ k, hashValue m1.d_allLhs k = hashValue sampleModel.d_allLhs k
          ++ (if k = "y".toList then [identNode 2 1 "y"] else []))
      ∧ (∀ k, hashValue s1.d_lhs k = hashValue ([] : VarRefs) k
          ++ (if k = "y".toList then [identNode 2 1 "y"] else []))
      ∧ (∀ k, hashValue m1.d_allRhs k = hashValue sampleModel.d_allRhs k
          ++ [identNode 2 5 "x"].filter (fun x => x.d_tok.d_val = k))
      ∧ (∀ k, hashValue s1.d_rhs k = hashValue ([] : VarRefs) k
          ++ [identNode 2 5 "x"].filter (fun x => x.d_tok.d_val = k)) :=
  ⟨Plain.expr1 _ _ _ rfl (Plain.unary1 _ _ _ rfl (Plain.ident _ _ rfl)), rfl,
   (assignment_records sampleEnv ⟨TokenType.R_Statement, 0, 0, 0, [], []⟩
      ⟨TokenType.R_Assignment, 0, 0, 0, [], []⟩ ⟨TokenType.R_LValue, 0, 0, 0, [], []⟩
      (identNode 2 1 "y")
      (ruleNode TokenType.R_AssignOp [tokenNode (TokenType.Tok_other 0) 2 3])
      (exprNode (identNode 2 5 "x")) [identNode 2 5 "x"] 0 sampleModel
      { d_kind := "file".toList } rfl rfl rfl rfl rfl
      (Plain.expr1 _ _ _ rfl (Plain.unary1 _ _ _ rfl (Plain.ident _ _ rfl))) rfl).1⟩


/-! ### C17: a file is parsed once -/

theorem hashFind_hashInsert_other {β : Type} :
    ∀ (h : List (QByteArray × β)) (k k2 : QByteArray) (x : β), k2 ≠ k →
      hashFind (hashInsert h k x) k2 = hashFind h k2 := by
  intro h
  induction h with
  | nil =>
    intro k k2 x hne
    have hne2 : ¬ k = k2 := fun e => hne e.symm
    simp [hashInsert, hashFind, hne2]
  | cons p rest ih =>
    intro k k2 x hne
    obtain ⟨k1, v⟩ := p
    have hne2 : ¬ k = k2 := fun e => hne e.symm
    by_cases h1 : k1 = k
    · subst h1
      simp [hashInsert, hashFind, hne2]
    · by_cases h2 : k1 = k2
      · subst h2
        simp [hashInsert, hashFind, h1]
      · simp [hashInsert, hashFind, h1, h2, ih k k2 x hne]

/-- No recording removes or redirects an entry of the Files map. -/
theorem Prim.keep_entry {m m1 : CodeModel} (h : Prim m m1) (k : QByteArray) (id : ScopeId)
    (hk : hashFind m.d_files k = some id) : hashFind m1.d_files k = some id := by
  cases h with
  | errs r => exact hk
  | funcRef k x => exact hk
  | loopVar x => exact hk
  | varRhs _ st sc hv =>
    unfold Gn.varRhs at hv
    obtain ⟨_, _, hv⟩ := bind_ok hv
    obtain ⟨_, _, hv⟩ := bind_ok hv
    have := pure_ok hv
    subst this
    exact hk
  | varLhs _ st sc hv =>
    unfold Gn.varLhs at hv
    obtain ⟨_, _, hv⟩ := bind_ok hv
    obtain ⟨_, _, hv⟩ := bind_ok hv
    dsimp only at hv
    split at hv
    · have := pure_ok hv
      subst this
      exact hk
    · have := pure_ok hv
      subst this
      exact hk
  | newScope sc st kind _ => exact hk
  | params i p => exact hk
  | namedDef sc n sym => exact hk
  | unnamed n => exact hk
  | imports k x => exact hk
  | resolved sc k res => exact hk
  | unresolved sc arg _ => exact hk
  | unresolvedRef x => exact hk
  | fileScope pathSym hnone =>
    show hashFind (hashInsert m.d_files pathSym m.scopes.length) k = some id
    have hne : k ≠ pathSym := by
      intro e
      rw [e, hnone] at hk
      cases hk
    rw [hashFind_hashInsert_other _ _ _ _ hne]
    exact hk
  | fileDone i st => exact hk

/-- An entry of the Files map stays through every sequence of recordings. -/
theorem Steps.keep_files {m m1 : CodeModel} (h : Steps m m1) (k : QByteArray) (id : ScopeId)
    (hk : hashFind m.d_files k = some id) : hashFind m1.d_files k = some id := by
  induction h with
  | refl => exact hk
  | tail _ hp ih => exact hp.keep_entry k id ih

theorem parseFile_known (env : Env) (f : Nat) (path : QByteArray) (m : CodeModel)
    (id : ScopeId) (h : hashFind m.d_files (getSymbolBytes path) = some id) :
    parseFile env (f + 1) path m = Except.ok (m, some id) := by
  rw [parseFile]
  simp only [h]
  rfl

theorem parseFile_fresh (env : Env) (f : Nat) (path : QByteArray) (m : CodeModel)
    (st : SynTree) (reports : List Report)
    (hnone : hashFind m.d_files (getSymbolBytes path) = none)
    (hopen : env.openAndParse path = some ([st], reports))
    (hst : st.d_tok.d_type = TokenType.R_StatementList) :
    parseFile env (f + 1) path m
      = (statementList env f st m.scopes.length
            { m with d_errs := m.d_errs ++ reports, scopes := m.scopes ++ [{ d_kind := m.d_fileKind, d_name := getSymbolBytes path }], d_files := hashInsert m.d_files (getSymbolBytes path) m.scopes.length }
          >>= fun m2 => pure (m2.modifyScope m.scopes.length
            (fun s => { s with d_st := some st }), some m.scopes.length)) := by
  rw [parseFile]
  simp only [hnone, hopen]
  simp [qassert, hst, bind, Except.bind, pure, Except.pure]

theorem import_known (env : Env) (f : Nat) (st c2 arg ref : SynTree) (sc id : ScopeId)
    (m : CodeModel) (r : Scope) (path : QByteArray)
    (hc2 : st.d_children[2]? = some c2) (hty2 : c2.d_tok.d_type = TokenType.R_ExprList)
    (harg : c2.d_children.head? = some arg) (hfl : flatten c2 = ref)
    (hty : ref.d_tok.d_type = TokenType.Tok_string)
    (hd : findNonEscapedDollar ref.d_tok.d_val 0 = -1)
    (hn : (extractPathIdentFromString ref.d_tok.d_val).2 = [])
    (hch : ref.d_children = [])
    (hpath : calcPath env m (env.getEscapedVal ref.d_tok) ref.d_tok.d_sourcePath = path)
    (hne : path ≠ []) (hex : env.fileExists path = true)
    (hfile : hashFind m.d_files (getSymbolBytes path) = some id)
    (hr : m.scopes[id]? = some r) :
    import_ env (f + 3) st sc m
      = Except.ok (CodeModel.modifyScope
          { m with d_allImports := hashAppend m.d_allImports (getSymbolBytes path) ref } sc
          (fun s => { s with d_relovedImports := hashInsert s.d_relovedImports r.d_name id })) := by
  have hc2' : st.child 2 = Except.ok c2 := child_ok hc2
  have hfirst : c2.first = Except.ok arg := first_ok harg
  have hne2 : c2.d_children.isEmpty = false := by
    cases hx : c2.d_children with
    | nil => rw [hx] at harg; cases harg
    | cons a l => rfl
  have hstr := string_plain env f ref sc m hty hd hn
  have hnr : ¬ (c2.d_tok.d_type = TokenType.Tok_Rpar) := by rw [hty2]; decide
  have hpe : path.isEmpty = false := by
    cases path with
    | nil => exact absurd rfl hne
    | cons a l => rfl
  have hpf : parseFile env (f + 2) path
      { m with d_allImports := hashAppend m.d_allImports (getSymbolBytes path) ref }
      = Except.ok
        ({ m with d_allImports := hashAppend m.d_allImports (getSymbolBytes path) ref }, some id) :=
    parseFile_known env (f + 1) path _ id hfile
  rw [import_]
  simp only [hc2', bind, Except.bind, hfl, hfirst, hstr, hnr, if_false, qassert, hty2, hne2,
    hty, hch, calcPathRef, hpath, pure, Except.pure, CodeModel.scope, hpe, hex, hpf]
  simp [hr, hne, hex, hpf]


theorem cycle_walk :
    (parseFile cycleEnv 14 "/proj/a.gni".toList projModel).isOk = true
    ∧ cycleWalked.2 = some 0
    ∧ cycleWalked.1.d_files = [("/proj/a.gni".toList, 0), ("/proj/b.gni".toList, 1)]
    ∧ cycleWalked.1.scopes.map (fun s => s.d_name)
        = ["/proj/a.gni".toList, "/proj/b.gni".toList]
    ∧ cycleWalked.1.scopes.map (fun s => s.d_relovedImports)
        = [[("/proj/b.gni".toList, 1)], [("/proj/a.gni".toList, 0)]]
    ∧ cycleWalked.1.scopes.map (fun s => s.d_lhs.map (fun p => (p.1, p.2.length)))
        = [[("a".toList, 1)], [("b".toList, 1)]]
    ∧ cycleWalked.1.d_allLhs.map (fun p => (p.1, p.2.length))
        = [("a".toList, 1), ("b".toList, 1)]
    ∧ cycleWalked.1.d_allImports.map (fun p => (p.1, p.2.length))
        = [("/proj/b.gni".toList, 1), ("/proj/a.gni".toList, 1)]
    ∧ cycleWalked.1.d_errs = [] := by
  decide!

theorem self_walk :
    (parseFile cycleEnv 14 "/proj/self.gni".toList projModel).isOk = true
    ∧ selfWalked.2 = some 0
    ∧ selfWalked.1.d_files = [("/proj/self.gni".toList, 0)]
    ∧ selfWalked.1.scopes.map (fun s => s.d_name) = ["/proj/self.gni".toList]
    ∧ selfWalked.1.scopes.map (fun s => s.d_relovedImports)
        = [[("/proj/self.gni".toList, 0)]]
    ∧ selfWalked.1.scopes.map (fun s => s.d_lhs.map (fun p => (p.1, p.2.length)))
        = [[("s".toList, 1)]]
    ∧ selfWalked.1.d_allLhs.map (fun p => (p.1, p.2.length)) = [("s".toList, 1)]
    ∧ selfWalked.1.d_allImports.map (fun p => (p.1, p.2.length))
        = [("/proj/self.gni".toList, 1)]
    ∧ selfWalked.1.d_errs = [] := by
  decide!

/-- C17: (1) `parseFile(p)` for a path that has an entry in the Files map returns that entry
and the model as it is, whatever the file system and the parser are (nothing is opened, and
no index changes); (2) for a path without entry whose file opens with a statement list,
`parseFile` makes the entry first and then walks the statements from a model that has it;
(3) no recording of any walk removes or redirects an entry, so in the model that the walk
of a statement list returns `parseFile(p)` finds the entry again and walks nothing, and
(4) an `import` of such a path only appends the reference to `allImports[p]` and puts the
entry into the resolved imports of the current scope; (5) for two files that import each
other and for a file that imports itself the analysis returns, with one scope per file,
each assignment recorded once and each import resolved to the scope of the other file. -/
theorem parseFile_once (env : Env) :
    (∀ (env2 : Env) (f : Nat) (path : QByteArray) (m : CodeModel) (id : ScopeId),
      hashFind m.d_files (getSymbolBytes path) = some id →
      parseFile env2 (f + 1) path m = Except.ok (m, some id))
    ∧ (∀ (f : Nat) (path : QByteArray) (m : CodeModel) (st : SynTree) (reports : List Report),
      hashFind m.d_files (getSymbolBytes path) = none →
      env.openAndParse path = some ([st], reports) →
      st.d_tok.d_type = TokenType.R_StatementList →
      ∃ m0 : CodeModel,
        hashFind m0.d_files (getSymbolBytes path) = some m.scopes.length
        ∧ parseFile env (f + 1) path m
          = (statementList env f st m.scopes.length m0
              >>= fun m2 => pure (m2.modifyScope m.scopes.length
                (fun s => { s with d_st := some st }), some m.scopes.length)))
    ∧ (∀ (f g : Nat) (st : SynTree) (sc id : ScopeId) (m m1 : CodeModel) (path : QByteArray),
      hashFind m.d_files (getSymbolBytes path) = some id →
      statementList env f st sc m = Except.ok m1 →
      parseFile env (g + 1) path m1 = Except.ok (m1, some id))
    ∧ (∀ (f : Nat) (st c2 arg ref : SynTree) (sc id : ScopeId) (m : CodeModel) (r : Scope)
        (path : QByteArray),
      st.d_children[2]? = some c2 → c2.d_tok.d_type = TokenType.R_ExprList →
      c2.d_children.head? = some arg → flatten c2 = ref →
      ref.d_tok.d_type = TokenType.Tok_string →
      findNonEscapedDollar ref.d_tok.d_val 0 = -1 →
      (extractPathIdentFromString ref.d_tok.d_val).2 = [] → ref.d_children = [] →
      calcPath env m (env.getEscapedVal ref.d_tok) ref.d_tok.d_sourcePath = path →
      path ≠ [] → env.fileExists path = true →
      hashFind m.d_files (getSymbolBytes path) = some id → m.scopes[id]? = some r →
      import_ env (f + 3) st sc m
        = Except.ok (CodeModel.modifyScope
            { m with d_allImports := hashAppend m.d_allImports (getSymbolBytes path) ref } sc
            (fun s => { s with d_relovedImports := hashInsert s.d_relovedImports r.d_name id })))
    ∧ (((parseFile cycleEnv 14 "/proj/a.gni".toList projModel).isOk = true
      ∧ cycleWalked.2 = some 0
      ∧ cycleWalked.1.d_files = [("/proj/a.gni".toList, 0), ("/proj/b.gni".toList, 1)]
      ∧ cycleWalked.1.scopes.map (fun s => s.d_name)
          = ["/proj/a.gni".toList, "/proj/b.gni".toList]
      ∧ cycleWalked.1.scopes.map (fun s => s.d_relovedImports)
          = [[("/proj/b.gni".toList, 1)], [("/proj/a.gni".toList, 0)]]
      ∧ cycleWalked.1.scopes.map (fun s => s.d_lhs.map (fun p => (p.1, p.2.length)))
          = [[("a".toList, 1)], [("b".toList, 1)]]
      ∧ cycleWalked.1.d_allLhs.map (fun p => (p.1, p.2.length))
          = [("a".toList, 1), ("b".toList, 1)]
      ∧ cycleWalked.1.d_allImports.map (fun p => (p.1, p.2.length))
          = [("/proj/b.gni".toList, 1), ("/proj/a.gni".toList, 1)]
      ∧ cycleWalked.1.d_errs = [])
      ∧ ((parseFile cycleEnv 14 "/proj/self.gni".toList projModel).isOk = true
        ∧ selfWalked.2 = some 0
        ∧ selfWalked.1.d_files = [("/proj/self.gni".toList, 0)]
        ∧ selfWalked.1.scopes.map (fun s => s.d_name) = ["/proj/self.gni".toList]
        ∧ selfWalked.1.scopes.map (fun s => s.d_relovedImports)
            = [[("/proj/self.gni".toList, 0)]]
        ∧ selfWalked.1.scopes.map (fun s => s.d_lhs.map (fun p => (p.1, p.2.length)))
            = [[("s".toList, 1)]]
        ∧ selfWalked.1.d_allLhs.map (fun p => (p.1, p.2.length)) = [("s".toList, 1)]
        ∧ selfWalked.1.d_allImports.map (fun p => (p.1, p.2.length))
            = [("/proj/self.gni".toList, 1)]
        ∧ selfWalked.1.d_errs = [])) := by
  refine ⟨fun env2 f path m id h => parseFile_known env2 f path m id h, ?_, ?_,
    fun f st c2 arg ref sc id m r path hc2 hty2 harg hfl hty hd hn hch hpath hne hex hfile hr =>
      import_known env f st c2 arg ref sc id m r path hc2 hty2 harg hfl hty hd hn hch hpath hne
        hex hfile hr,
    cycle_walk, self_walk⟩
  · intro f path m st reports hnone hopen hst
    exact ⟨{ m with d_errs := m.d_errs ++ reports, scopes := m.scopes ++ [{ d_kind := m.d_fileKind, d_name := getSymbolBytes path }], d_files := hashInsert m.d_files (getSymbolBytes path) m.scopes.length },
      hashFind_hashInsert_same _ _ _,
      parseFile_fresh env f path m st reports hnone hopen hst⟩
  · intro f g st sc id m m1 path hfile h
    exact parseFile_known env g path m1 id
      (((stepsAll env f).statementList st sc m m1 h).keep_files _ id hfile)


/-! ### C18: the analysis of a directory starts from a cleared model -/

/-- The model after `clear()` is the cleared empty model with the source root that the
model had. -/
theorem clear_root (m : CodeModel) :
    m.clear = { (CodeModel.clear {}) with d_sourceRoot := m.d_sourceRoot } := rfl

theorem clear_congr (m m2 : CodeModel) (h : m.d_sourceRoot = m2.d_sourceRoot) :
    m.clear = m2.clear := by
  rw [clear_root m, clear_root m2, h]

theorem parseDir_no_dotfile (env : Env) (de : DirEnv) (f : Nat) (dir : QByteArray)
    (m : CodeModel) (h : findDotFile env de f dir = Except.ok []) :
    parseDir env de f dir m
      = Except.ok (m.clear.error ErrSource.Semantics
          "could not find any dotfile in current or super directories", false) := by
  unfold parseDir
  rw [h]
  rfl

theorem parseDir_dotfile (env : Env) (de : DirEnv) (f : Nat) (dir dotfile : QByteArray)
    (m m2 : CodeModel) (h : findDotFile env de f dir = Except.ok dotfile)
    (hne : dotfile ≠ []) :
    parseDir env de f dir m = parseDir env de f dir m2 := by
  have he : dotfile.isEmpty = false := by
    cases dotfile with
    | nil => exact absurd rfl hne
    | cons a l => rfl
  unfold parseDir
  rw [h]
  simp only [bind, Except.bind, he]
  rfl

theorem parseDir_error (env : Env) (de : DirEnv) (f : Nat) (dir : QByteArray)
    (m : CodeModel) (e : WalkError) (h : findDotFile env de f dir = Except.error e) :
    parseDir env de f dir m = Except.error e := by
  unfold parseDir
  rw [h]
  rfl

/-- A second run of `parseDir` on the same directory gives the model and the result of the
first run. -/
theorem parseDir_twice (env : Env) (de : DirEnv) (f : Nat) (dir : QByteArray)
    (m m1 : CodeModel) (b : Bool) (h : parseDir env de f dir m = Except.ok (m1, b)) :
    parseDir env de f dir m1 = Except.ok (m1, b) := by
  cases hd : findDotFile env de f dir with
  | error e =>
    rw [parseDir_error env de f dir m e hd] at h
    cases h
  | ok dotfile =>
    by_cases hne : dotfile = []
    · subst hne
      rw [parseDir_no_dotfile env de f dir m hd] at h
      rw [parseDir_no_dotfile env de f dir m1 hd, ← h]
      have e1 : m.clear.error ErrSource.Semantics
          "could not find any dotfile in current or super directories" = m1 :=
        congrArg (fun r => r.1) (Except.ok.inj h)
      have hr : m1.d_sourceRoot = m.d_sourceRoot := by rw [← e1]; rfl
      rw [clear_congr m1 m hr]
    · rw [parseDir_dotfile env de f dir dotfile m1 m hd hne]
      exact h

/-- The results of `parseDir` from two models agree, up to the source root when no dotfile
is found. -/
theorem parseDir_independent (env : Env) (de : DirEnv) (f : Nat) (dir : QByteArray)
    (m m2 : CodeModel) :
    (parseDir env de f dir m).map (fun r => ({ r.1 with d_sourceRoot := [] }, r.2))
      = (parseDir env de f dir m2).map (fun r => ({ r.1 with d_sourceRoot := [] }, r.2)) := by
  cases hd : findDotFile env de f dir with
  | error e => rw [parseDir_error env de f dir m e hd, parseDir_error env de f dir m2 e hd]
  | ok dotfile =>
    by_cases hne : dotfile = []
    · subst hne
      rw [parseDir_no_dotfile env de f dir m hd, parseDir_no_dotfile env de f dir m2 hd]
      rfl
    · rw [parseDir_dotfile env de f dir dotfile m m2 hd hne]

theorem parseDir_same_indices (env : Env) (de : DirEnv) (f : Nat) (dir : QByteArray)
    (m m2 m1 m3 : CodeModel) (b b2 : Bool)
    (h1 : parseDir env de f dir m = Except.ok (m1, b))
    (h2 : parseDir env de f dir m2 = Except.ok (m3, b2)) :
    b2 = b ∧ m3.d_files = m1.d_files ∧ m3.scopes = m1.scopes
      ∧ m3.d_allLhs = m1.d_allLhs ∧ m3.d_allRhs = m1.d_allRhs
      ∧ m3.d_allFuncRefs = m1.d_allFuncRefs ∧ m3.d_allImports = m1.d_allImports
      ∧ m3.d_allObjDefs = m1.d_allObjDefs ∧ m3.d_allUnnamedObjs = m1.d_allUnnamedObjs
      ∧ m3.d_allUnresolvedImports = m1.d_allUnresolvedImports
      ∧ m3.d_unresolvedRefs = m1.d_unresolvedRefs ∧ m3.d_declaredArgs = m1.d_declaredArgs
      ∧ m3.d_errs = m1.d_errs := by
  have h := parseDir_independent env de f dir m m2
  rw [h1, h2] at h
  have e := Except.ok.inj h
  have e1 : ({ m1 with d_sourceRoot := [] } : CodeModel) = { m3 with d_sourceRoot := [] } :=
    congrArg (fun r => r.1) e
  have e2 : b = b2 := congrArg (fun r => r.2) e
  exact ⟨e2.symm, (congrArg (fun x => x.d_files) e1).symm,
    (congrArg (fun x => x.scopes) e1).symm, (congrArg (fun x => x.d_allLhs) e1).symm,
    (congrArg (fun x => x.d_allRhs) e1).symm, (congrArg (fun x => x.d_allFuncRefs) e1).symm,
    (congrArg (fun x => x.d_allImports) e1).symm, (congrArg (fun x => x.d_allObjDefs) e1).symm,
    (congrArg (fun x => x.d_allUnnamedObjs) e1).symm,
    (congrArg (fun x => x.d_allUnresolvedImports) e1).symm,
    (congrArg (fun x => x.d_unresolvedRefs) e1).symm,
    (congrArg (fun x => x.d_declaredArgs) e1).symm, (congrArg (fun x => x.d_errs) e1).symm⟩

theorem dir_walk :
    (parseDir dirFsEnv projDirs 16 "/proj/sub".toList {}).isOk = true
    ∧ (dirWalked {}).2 = true
    ∧ (dirWalked {}).1.d_sourceRoot = "/proj".toList
    ∧ (dirWalked {}).1.d_files
        = [("/proj/.gn".toList, 0), ("/proj/a.gni".toList, 1), ("/proj/b.gni".toList, 2)]
    ∧ (dirWalked {}).1.d_allLhs.map (fun p => (p.1, p.2.length))
        = [("root".toList, 1), ("a".toList, 1), ("b".toList, 1)]
    ∧ (dirWalked {}).1.d_allImports.map (fun p => (p.1, p.2.length))
        = [("/proj/b.gni".toList, 1), ("/proj/a.gni".toList, 1)] := by
  decide!

/-- C18: (1) after `clear()` the Files map, the scopes, the nine global indices and the
error sink are empty and the three registries are the static tables; (2) the cleared model
depends on the model before only through the source root, which `clear()` does not touch
and `parseDir` sets before it parses a file; (3) a second run of `parseDir` on the same
directory with the same files returns the model and the result of the first; (4) the runs
from any two models return the same result, Files map, scopes, indices and reports;
(5) the sample project is analysed from the directory `sub`: the dotfile and the two
build files are parsed, each once. -/
theorem parseDir_idempotent (env : Env) (de : DirEnv) :
    (∀ m : CodeModel, m.clear.d_files = [] ∧ m.clear.scopes = []
      ∧ m.clear.d_allLhs = [] ∧ m.clear.d_allRhs = [] ∧ m.clear.d_allFuncRefs = []
      ∧ m.clear.d_allImports = [] ∧ m.clear.d_allObjDefs = []
      ∧ m.clear.d_allUnnamedObjs = [] ∧ m.clear.d_allUnresolvedImports = []
      ∧ m.clear.d_unresolvedRefs = [] ∧ m.clear.d_declaredArgs = [] ∧ m.clear.d_errs = []
      ∧ m.clear.d_knownVars = s_knownVars.map (fun s => getSymbolBytes s.toList)
      ∧ m.clear.d_knownFuncs = s_knownFuncs.map (fun s => getSymbolBytes s.toList)
      ∧ m.clear.d_namedObjs = s_namedObjs.map (fun s => getSymbolBytes s.toList))
    ∧ (∀ m : CodeModel,
        m.clear = { (CodeModel.clear {}) with d_sourceRoot := m.d_sourceRoot })
    ∧ (∀ (f : Nat) (dir : QByteArray) (m m1 : CodeModel) (b : Bool),
        parseDir env de f dir m = Except.ok (m1, b) →
        parseDir env de f dir m1 = Except.ok (m1, b))
    ∧ (∀ (f : Nat) (dir : QByteArray) (m m2 m1 m3 : CodeModel) (b b2 : Bool),
        parseDir env de f dir m = Except.ok (m1, b) →
        parseDir env de f dir m2 = Except.ok (m3, b2) →
        b2 = b ∧ m3.d_files = m1.d_files ∧ m3.scopes = m1.scopes
          ∧ m3.d_allLhs = m1.d_allLhs ∧ m3.d_allRhs = m1.d_allRhs
          ∧ m3.d_allFuncRefs = m1.d_allFuncRefs ∧ m3.d_allImports = m1.d_allImports
          ∧ m3.d_allObjDefs = m1.d_allObjDefs ∧ m3.d_allUnnamedObjs = m1.d_allUnnamedObjs
          ∧ m3.d_allUnresolvedImports = m1.d_allUnresolvedImports
          ∧ m3.d_unresolvedRefs = m1.d_unresolvedRefs
          ∧ m3.d_declaredArgs = m1.d_declaredArgs ∧ m3.d_errs = m1.d_errs)
    ∧ ((parseDir dirFsEnv projDirs 16 "/proj/sub".toList {}).isOk = true
      ∧ (dirWalked {}).2 = true
      ∧ (dirWalked {}).1.d_sourceRoot = "/proj".toList
      ∧ (dirWalked {}).1.d_files
          = [("/proj/.gn".toList, 0), ("/proj/a.gni".toList, 1), ("/proj/b.gni".toList, 2)]
      ∧ (dirWalked {}).1.d_allLhs.map (fun p => (p.1, p.2.length))
          = [("root".toList, 1), ("a".toList, 1), ("b".toList, 1)]
      ∧ (dirWalked {}).1.d_allImports.map (fun p => (p.1, p.2.length))
          = [("/proj/b.gni".toList, 1), ("/proj/a.gni".toList, 1)]) :=
  ⟨fun _ => ⟨rfl, rfl, rfl, rfl, rfl, rfl, rfl, rfl, rfl, rfl, rfl, rfl, rfl, rfl, rfl⟩,
    fun m => clear_root m,
    fun f dir m m1 b h => parseDir_twice env de f dir m m1 b h,
    fun f dir m m2 m1 m3 b b2 h1 h2 => parseDir_same_indices env de f dir m m2 m1 m3 b b2 h1 h2,
    dir_walk⟩


/-! ### C21: the empty path -/

/-- C21 (amended): the empty path takes none of the four branches of `calcPath`, so for
every referencing file `calcPath("", ref)` is the canonical path of the empty path, which is
empty when `QFileInfo("").canonicalFilePath()` is, as for every file that does not exist;
it is not the source root. -/
theorem calcPath_empty (env : Env) (m : CodeModel) (ref : QByteArray)
    (hcanon : env.canonicalFilePath [] = []) :
    calcPath env m [] ref = env.canonicalFilePath [] ∧ calcPath env m [] ref = [] := by
  have h : calcPath env m [] ref = env.canonicalFilePath [] := by
    simp [calcPath, startsWithStr]
  exact ⟨h, h.trans hcanon⟩

/-- C21 (counterexample): with the source root `/proj` and the referencing file
`/proj/sub/BUILD` the empty path resolves to the empty path, not to `/proj`. -/
theorem calcPath_empty_not_root :
    projModel.d_sourceRoot = "/proj".toList
    ∧ calcPath projEnv projModel [] "/proj/sub/BUILD".toList = []
    ∧ calcPath projEnv projModel [] "/proj/sub/BUILD".toList ≠ "/proj".toList := by
  decide

theorem calcPath_empty_witness :
    projEnv.canonicalFilePath [] = []
    ∧ calcPath projEnv projModel [] [] = []
    ∧ calcPath projEnv projModel [] "/proj/sub/BUILD".toList = [] :=
  ⟨rfl, (calcPath_empty projEnv projModel [] rfl).2,
    (calcPath_empty projEnv projModel "/proj/sub/BUILD".toList rfl).2⟩


/-! ### C30: the scope graph is a forest -/

theorem childCount_zero (sh : Shape) (j : ScopeId) (h : ∀ p ∈ sh, j ∉ p.1) :
    childCount sh j = 0 := by
  unfold childCount
  induction sh with
  | nil => rfl
  | cons p rest ih =>
    have h1 : p.1.count j = 0 := List.count_eq_zero_of_not_mem (h p (List.mem_cons_self _ _))
    have h2 := ih (fun q hq => h q (List.mem_cons_of_mem _ hq))
    simp [h1, h2]

theorem ForestOn.fresh_count {sh : Shape} {files : ScopeHash} (h : ForestOn sh files)
    (j : ScopeId) (hj : sh.length ≤ j) : childCount sh j = 0 := by
  apply childCount_zero
  intro p hp hmem
  obtain ⟨i, hi⟩ := List.getElem?_of_mem hp
  obtain ⟨q, hq, _⟩ := h.child_outer i p hi j hmem
  have := (List.getElem?_eq_some_iff.1 hq).1
  omega

theorem ForestOn.empty : ForestOn [] [] :=
  { child_outer := fun i p h => by simp at h
    file_outer := fun k id h => by simp [hashFind] at h
    root_file := fun j q h => by simp at h
    once := fun j q o h => by simp at h
    outer_lt := fun j q o h => by simp at h }

theorem childCount_append (sh : Shape) (p : List ScopeId × Option ScopeId) (j : ScopeId) :
    childCount (sh ++ [p]) j = childCount sh j + p.1.count j := by
  simp [childCount]

/-- A file scope is added. -/
theorem ForestOn.addFile {sh : Shape} {files : ScopeHash} (h : ForestOn sh files)
    (k : QByteArray) (hk : hashFind files k = none) :
    ForestOn (sh ++ [([], none)]) (hashInsert files k sh.length) := by
  have hget : ∀ (i : ScopeId) (p : List ScopeId × Option ScopeId),
      (sh ++ [([], none)])[i]? = some p → sh[i]? = some p ∨ (i = sh.length ∧ p = ([], none)) := by
    intro i p hp
    by_cases hi : i < sh.length
    · left
      rw [List.getElem?_append_left hi] at hp
      exact hp
    · right
      have hi2 : sh.length ≤ i := Nat.le_of_not_lt hi
      rw [List.getElem?_append_right hi2] at hp
      by_cases e : i = sh.length
      · subst e
        simp at hp
        exact ⟨rfl, hp.symm⟩
      · have hlt : sh.length < i := Nat.lt_of_le_of_ne hi2 (fun e2 => e e2.symm)
        have : i - sh.length ≠ 0 := Nat.sub_ne_zero_of_lt hlt
        obtain ⟨n, hn⟩ := Nat.exists_eq_succ_of_ne_zero this
        rw [hn] at hp
        simp at hp
  have hold : ∀ (i : ScopeId) (p : List ScopeId × Option ScopeId), sh[i]? = some p →
      (sh ++ [([], none)])[i]? = some p := by
    intro i p hp
    rw [List.getElem?_append_left (List.getElem?_eq_some_iff.1 hp).1]
    exact hp
  refine ⟨?_, ?_, ?_, ?_, ?_⟩
  · intro i p hp c hc
    rcases hget i p hp with h1 | ⟨_, h1⟩
    · obtain ⟨q, hq, hq2⟩ := h.child_outer i p h1 c hc
      exact ⟨q, hold c q hq, hq2⟩
    · subst h1
      cases hc
  · intro k2 id hf
    by_cases e : k2 = k
    · subst e
      rw [hashFind_hashInsert_same] at hf
      cases hf
      exact ⟨([], none), by simp, rfl⟩
    · rw [hashFind_hashInsert_other _ _ _ _ e] at hf
      obtain ⟨q, hq, hq2⟩ := h.file_outer k2 id hf
      exact ⟨q, hold id q hq, hq2⟩
  · intro j q hq hq2
    rcases hget j q hq with h1 | ⟨h1, _⟩
    · obtain ⟨k2, hk2⟩ := h.root_file j q h1 hq2
      have e : k2 ≠ k := by
        intro e
        rw [e, hk] at hk2
        cases hk2
      exact ⟨k2, by rw [hashFind_hashInsert_other _ _ _ _ e]; exact hk2⟩
    · subst h1
      exact ⟨k, hashFind_hashInsert_same _ _ _⟩
  · intro j q o hq hq2
    rcases hget j q hq with h1 | ⟨_, h1⟩
    · rw [childCount_append]
      simp [h.once j q o h1 hq2]
    · subst h1
      cases hq2
  · intro j q o hq hq2
    rcases hget j q hq with h1 | ⟨_, h1⟩
    · exact h.outer_lt j q o h1 hq2
    · subst h1
      cases hq2

/-- A scope is created with `outer = sc` and appended to the `childScopes` of `sc`. -/
theorem ForestOn.addChild {sh : Shape} {files : ScopeHash} (h : ForestOn sh files)
    (sc : ScopeId) (hsc : sc < sh.length) :
    ForestOn (updateAt (sh ++ [([], some sc)]) sc (fun p => (p.1 ++ [sh.length], p.2)))
      files := by
  obtain ⟨a, ha⟩ : ∃ a, sh[sc]? = some a := ⟨sh[sc], List.getElem?_eq_getElem hsc⟩
  have happ : ∀ (i : ScopeId) (p : List ScopeId × Option ScopeId),
      (sh ++ [([], some sc)])[i]? = some p →
        sh[i]? = some p ∨ (i = sh.length ∧ p = ([], some sc)) := by
    intro i p hp
    by_cases hi : i < sh.length
    · left
      rw [List.getElem?_append_left hi] at hp
      exact hp
    · right
      have hi2 : sh.length ≤ i := Nat.le_of_not_lt hi
      rw [List.getElem?_append_right hi2] at hp
      by_cases e : i = sh.length
      · subst e
        simp at hp
        exact ⟨rfl, hp.symm⟩
      · have hlt : sh.length < i := Nat.lt_of_le_of_ne hi2 (fun e2 => e e2.symm)
        have : i - sh.length ≠ 0 := Nat.sub_ne_zero_of_lt hlt
        obtain ⟨n, hn⟩ := Nat.exists_eq_succ_of_ne_zero this
        rw [hn] at hp
        simp at hp
  have hsame : (updateAt (sh ++ [([], some sc)]) sc
      (fun p => (p.1 ++ [sh.length], p.2)))[sc]? = some (a.1 ++ [sh.length], a.2) := by
    rw [updateAt_get_same, List.getElem?_append_left hsc, ha]
    rfl
  have hother : ∀ i : ScopeId, i ≠ sc →
      (updateAt (sh ++ [([], some sc)]) sc (fun p => (p.1 ++ [sh.length], p.2)))[i]?
        = (sh ++ [([], some sc)])[i]? :=
    fun i hi => updateAt_get_other _ _ _ _ hi
  -- an old scope keeps its `outer`
  have lift : ∀ (c : ScopeId) (q : List ScopeId × Option ScopeId), sh[c]? = some q →
      ∃ q2 : List ScopeId × Option ScopeId,
        (updateAt (sh ++ [([], some sc)]) sc (fun p => (p.1 ++ [sh.length], p.2)))[c]? = some q2
          ∧ q2.2 = q.2 := by
    intro c q hq
    by_cases e : c = sc
    · subst e
      rw [ha] at hq
      cases hq
      exact ⟨_, hsame, rfl⟩
    · refine ⟨q, ?_, rfl⟩
      rw [hother c e, List.getElem?_append_left (List.getElem?_eq_some_iff.1 hq).1]
      exact hq
  -- a scope of the new graph is an old one with the same `outer`, or the new one
  have back : ∀ (j : ScopeId) (q : List ScopeId × Option ScopeId),
      (updateAt (sh ++ [([], some sc)]) sc (fun p => (p.1 ++ [sh.length], p.2)))[j]? = some q →
        (∃ q0 : List ScopeId × Option ScopeId, sh[j]? = some q0 ∧ q0.2 = q.2
            ∧ (q.1 = q0.1 ∨ (j = sc ∧ q.1 = q0.1 ++ [sh.length])))
          ∨ (j = sh.length ∧ q = ([], some sc)) := by
    intro j q hq
    by_cases e : j = sc
    · subst e
      rw [hsame] at hq
      cases hq
      exact Or.inl ⟨a, ha, rfl, Or.inr ⟨rfl, rfl⟩⟩
    · rw [hother j e] at hq
      rcases happ j q hq with h1 | h1
      · exact Or.inl ⟨q, h1, rfl, Or.inl rfl⟩
      · exact Or.inr h1
  have hnew : (updateAt (sh ++ [([], some sc)]) sc
      (fun p => (p.1 ++ [sh.length], p.2)))[sh.length]? = some ([], some sc) := by
    rw [hother _ (Nat.ne_of_gt hsc)]
    simp
  have hcount : ∀ j : ScopeId,
      childCount (updateAt (sh ++ [([], some sc)]) sc (fun p => (p.1 ++ [sh.length], p.2))) j
        = childCount sh j + [sh.length].count j := by
    intro j
    have h1 := sum_map_updateAt (fun p : List ScopeId × Option ScopeId => p.1.count j)
      (fun p => (p.1 ++ [sh.length], p.2)) (sh ++ [([], some sc)]) sc a
      (by rw [List.getElem?_append_left hsc]; exact ha)
    have h2 := childCount_append sh ([], some sc) j
    unfold childCount at h2 ⊢
    simp only [List.count_append, List.count_nil] at h1 h2
    omega
  refine ⟨?_, ?_, ?_, ?_, ?_⟩
  · intro i p hp c hc
    rcases back i p hp with ⟨q0, hq0, _, hch⟩ | ⟨_, h1⟩
    · rcases hch with hch | ⟨hi, hch⟩
      · rw [hch] at hc
        obtain ⟨q, hq, hq2⟩ := h.child_outer i q0 hq0 c hc
        obtain ⟨q2, hq3, hq4⟩ := lift c q hq
        exact ⟨q2, hq3, hq4.trans hq2⟩
      · rw [hch] at hc
        rcases List.mem_append.1 hc with hc | hc
        · obtain ⟨q, hq, hq2⟩ := h.child_outer i q0 hq0 c hc
          obtain ⟨q2, hq3, hq4⟩ := lift c q hq
          exact ⟨q2, hq3, hq4.trans hq2⟩
        · have : c = sh.length := by simpa using hc
          subst this
          exact ⟨_, hnew, by rw [hi]⟩
    · subst h1
      cases hc
  · intro k id hf
    obtain ⟨q, hq, hq2⟩ := h.file_outer k id hf
    obtain ⟨q2, hq3, hq4⟩ := lift id q hq
    exact ⟨q2, hq3, hq4.trans hq2⟩
  · intro j q hq hq2
    rcases back j q hq with ⟨q0, hq0, e, _⟩ | ⟨_, h1⟩
    · exact h.root_file j q0 hq0 (e.trans hq2)
    · subst h1
      cases hq2
  · intro j q o hq hq2
    rw [hcount j]
    rcases back j q hq with ⟨q0, hq0, e, _⟩ | ⟨h1, _⟩
    · have hlt := (List.getElem?_eq_some_iff.1 hq0).1
      have hne : sh.length ≠ j := Nat.ne_of_gt hlt
      rw [h.once j q0 o hq0 (e.trans hq2),
        List.count_eq_zero_of_not_mem (by simpa using fun e2 : j = sh.length => hne e2.symm)]
    · subst h1
      rw [h.fresh_count sh.length (Nat.le_refl _)]
      simp
  · intro j q o hq hq2
    rcases back j q hq with ⟨q0, hq0, e, _⟩ | ⟨h1, h2⟩
    · exact h.outer_lt j q0 o hq0 (e.trans hq2)
    · subst h2
      cases hq2
      rw [h1]
      exact hsc

theorem map_updateAt_comm {α β : Type} (p : α → β) (g : α → α) (g2 : β → β)
    (hg : ∀ a, p (g a) = g2 (p a)) :
    ∀ (l : List α) (i : Nat), (updateAt l i g).map p = updateAt (l.map p) i g2 := by
  intro l
  induction l with
  | nil => intro i; rfl
  | cons a as ih =>
    intro i
    cases i with
    | zero => simp [updateAt, hg]
    | succ i => simp [updateAt, ih]

theorem scopeShape_modify (m : CodeModel) (i : ScopeId) (g : Scope → Scope)
    (hg : ∀ s, (g s).d_allScopes = s.d_allScopes ∧ (g s).d_outer = s.d_outer) :
    scopeShape (m.modifyScope i g) = scopeShape m := by
  show (updateAt m.scopes i g).map (fun s : Scope => (s.d_allScopes, s.d_outer))
    = m.scopes.map (fun s : Scope => (s.d_allScopes, s.d_outer))
  exact map_updateAt (fun s : Scope => (s.d_allScopes, s.d_outer)) g
    (fun s => by show ((g s).d_allScopes, (g s).d_outer) = _; rw [(hg s).1, (hg s).2])
    m.scopes i

theorem scopeShape_newScope (m : CodeModel) (sc : ScopeId) (st : SynTree)
    (kind : QByteArray) :
    scopeShape (newScope m sc st kind).1
      = updateAt (scopeShape m ++ [([], some sc)]) sc
          (fun p => (p.1 ++ [(scopeShape m).length], p.2)) := by
  have e : (newScope m sc st kind).1 = CodeModel.modifyScope (CodeModel.modifyScope { m with scopes := m.scopes ++ [{ d_outer := some sc }] } sc
      (fun s => { s with d_allScopes := s.d_allScopes ++ [m.scopes.length] })) m.scopes.length
    (fun s => { s with d_st := some st, d_kind := kind }) := rfl
  have e2 := scopeShape_modify (CodeModel.modifyScope { m with scopes := m.scopes ++ [{ d_outer := some sc }] } sc
      (fun s => { s with d_allScopes := s.d_allScopes ++ [m.scopes.length] })) m.scopes.length
    (fun s => { s with d_st := some st, d_kind := kind }) (fun s => ⟨rfl, rfl⟩)
  rw [e, e2]
  show (updateAt (m.scopes ++ [{ d_outer := some sc }]) sc
      (fun s => { s with d_allScopes := s.d_allScopes ++ [m.scopes.length] })).map
        (fun s : Scope => (s.d_allScopes, s.d_outer)) = _
  rw [map_updateAt_comm (fun s : Scope => (s.d_allScopes, s.d_outer))
    (fun s => { s with d_allScopes := s.d_allScopes ++ [m.scopes.length] })
    (fun p => (p.1 ++ [m.scopes.length], p.2)) (fun a => rfl)]
  simp [scopeShape]

theorem Forest.of_shape {m m1 : CodeModel} (h : Forest m)
    (hs : scopeShape m1 = scopeShape m) (hf : m1.d_files = m.d_files) : Forest m1 := by
  unfold Forest at h ⊢
  rw [hs, hf]
  exact h

theorem Forest.after_prim {m m1 : CodeModel} (hp : Prim m m1) (h : Forest m) : Forest m1 := by
  cases hp with
  | errs r => exact h.of_shape rfl rfl
  | funcRef k x => exact h.of_shape rfl rfl
  | loopVar x => exact h.of_shape rfl rfl
  | varRhs _ st sc hv =>
    unfold Gn.varRhs at hv
    obtain ⟨_, _, hv⟩ := bind_ok hv
    obtain ⟨_, _, hv⟩ := bind_ok hv
    have := pure_ok hv
    subst this
    exact h.of_shape (scopeShape_modify m sc _ (fun s => ⟨rfl, rfl⟩)) rfl
  | varLhs _ st sc hv =>
    unfold Gn.varLhs at hv
    obtain ⟨_, _, hv⟩ := bind_ok hv
    obtain ⟨_, _, hv⟩ := bind_ok hv
    dsimp only at hv
    split at hv
    · have := pure_ok hv
      subst this
      exact h.of_shape (scopeShape_modify m sc _ (fun s => ⟨rfl, rfl⟩)) rfl
    · have := pure_ok hv
      subst this
      exact h.of_shape (scopeShape_modify m sc _ (fun s => ⟨rfl, rfl⟩)) rfl
  | newScope sc st kind hlt =>
    unfold Forest at h ⊢
    rw [scopeShape_newScope]
    exact h.addChild sc (by simpa [scopeShape] using hlt)
  | params i p => exact h.of_shape (scopeShape_modify m i _ (fun s => ⟨rfl, rfl⟩)) rfl
  | namedDef sc n sym =>
    refine h.of_shape ?_ rfl
    have e1 := scopeShape_modify m sc
      (fun s => { s with d_objectDefs := hashInsert s.d_objectDefs sym n }) (fun s => ⟨rfl, rfl⟩)
    have e2 := scopeShape_modify { (m.modifyScope sc (fun s => { s with d_objectDefs := hashInsert s.d_objectDefs sym n })) with d_allObjDefs := hashAppend m.d_allObjDefs sym n } n
      (fun s => { s with d_name := sym }) (fun s => ⟨rfl, rfl⟩)
    exact e2.trans e1
  | unnamed n => exact h.of_shape rfl rfl
  | imports k x => exact h.of_shape rfl rfl
  | resolved sc k res => exact h.of_shape (scopeShape_modify m sc _ (fun s => ⟨rfl, rfl⟩)) rfl
  | unresolved sc arg hlt =>
    exact h.of_shape (scopeShape_modify m sc _ (fun s => ⟨rfl, rfl⟩)) rfl
  | unresolvedRef x => exact h.of_shape rfl rfl
  | fileScope pathSym hnone =>
    unfold Forest at h ⊢
    have e : scopeShape { m with scopes := m.scopes ++ [{ d_kind := m.d_fileKind, d_name := pathSym }], d_files := hashInsert m.d_files pathSym m.scopes.length }
        = scopeShape m ++ [([], none)] := by
      simp [scopeShape]
    rw [e]
    have := h.addFile pathSym hnone
    simpa [scopeShape] using this
  | fileDone i st => exact h.of_shape (scopeShape_modify m i _ (fun s => ⟨rfl, rfl⟩)) rfl

/-- A sequence of recordings keeps the forest. -/
theorem Steps.forest {m m1 : CodeModel} (hs : Steps m m1) (h : Forest m) : Forest m1 := by
  induction hs with
  | refl => exact h
  | tail _ hp ih => exact Forest.after_prim hp ih

theorem Forest.cleared (m : CodeModel) : Forest m.clear := ForestOn.empty

theorem scopeShape_get (m : CodeModel) (i : ScopeId) :
    (scopeShape m)[i]? = (m.scopes[i]?).map (fun s => (s.d_allScopes, s.d_outer)) := by
  simp [scopeShape]

theorem count_le_sum (l : List Nat) (x : Nat) (h : x ∈ l) : x ≤ l.sum := by
  induction l with
  | nil => cases h
  | cons a as ih =>
    rcases List.mem_cons.1 h with e | e
    · subst e
      simp
    · have := ih e
      simp
      omega

theorem exists_pos_of_sum_pos (l : List Nat) (h : 0 < l.sum) : ∃ x ∈ l, 0 < x := by
  induction l with
  | nil => simp at h
  | cons a as ih =>
    by_cases ha : 0 < a
    · exact ⟨a, List.mem_cons_self _ _, ha⟩
    · have : 0 < as.sum := by
        simp at h ha
        omega
      obtain ⟨x, hx, hx2⟩ := ih this
      exact ⟨x, List.mem_cons_of_mem _ hx, hx2⟩

/-- From every scope of a forest a scope without `outer` is reached along `outer`. -/
theorem Forest.root {m : CodeModel} (h : Forest m) :
    ∀ j : ScopeId, j < m.scopes.length →
      ∃ (n : Nat) (r : ScopeId) (s : Scope),
        outerChain m n j = some r ∧ m.scopes[r]? = some s ∧ s.d_outer = none := by
  intro j
  induction j using Nat.strong_induction_on with
  | _ j ih =>
    intro hj
    obtain ⟨s, hs⟩ : ∃ s, m.scopes[j]? = some s := ⟨m.scopes[j], List.getElem?_eq_getElem hj⟩
    cases ho : s.d_outer with
    | none => exact ⟨0, j, s, by simp [outerChain, hj], hs, ho⟩
    | some o =>
      have hlt : o < j :=
        h.outer_lt j (s.d_allScopes, s.d_outer) o (by rw [scopeShape_get, hs]; rfl) ho
      obtain ⟨n, r, s2, h1, h2, h3⟩ := ih o hlt (Nat.lt_trans hlt hj)
      exact ⟨n + 1, r, s2, by simp [outerChain, hs, ho, h1], h2, h3⟩

theorem Forest.facts {m : CodeModel} (h : Forest m) : ScopeForest m := by
  have hsh : ∀ (i : ScopeId) (s : Scope), m.scopes[i]? = some s →
      (scopeShape m)[i]? = some (s.d_allScopes, s.d_outer) := by
    intro i s hs
    rw [scopeShape_get, hs]
    rfl
  have hback : ∀ (i : ScopeId) (q : List ScopeId × Option ScopeId),
      (scopeShape m)[i]? = some q →
        ∃ s : Scope, m.scopes[i]? = some s ∧ q = (s.d_allScopes, s.d_outer) := by
    intro i q hq
    rw [scopeShape_get] at hq
    cases hs : m.scopes[i]? with
    | none => rw [hs] at hq; cases hq
    | some s =>
      rw [hs] at hq
      exact ⟨s, rfl, (Option.some.inj hq).symm⟩
  have f1 : ∀ (i c : ScopeId) (s : Scope), m.scopes[i]? = some s → c ∈ s.d_allScopes →
      ∃ s2 : Scope, m.scopes[c]? = some s2 ∧ s2.d_outer = some i := by
    intro i c s hs hc
    obtain ⟨q, hq, hq2⟩ := h.child_outer i _ (hsh i s hs) c hc
    obtain ⟨s2, hs2, e⟩ := hback c q hq
    subst e
    exact ⟨s2, hs2, hq2⟩
  refine ⟨f1, ?_, ?_, ?_, ?_⟩
  · intro k id hf
    obtain ⟨q, hq, hq2⟩ := h.file_outer k id hf
    obtain ⟨s, hs, e⟩ := hback id q hq
    subst e
    exact ⟨s, hs, hq2⟩
  · intro j s hs
    constructor
    · intro ho
      exact h.root_file j _ (hsh j s hs) ho
    · rintro ⟨k, hk⟩
      obtain ⟨q, hq, hq2⟩ := h.file_outer k j hk
      rw [hsh j s hs] at hq
      cases hq
      exact hq2
  · intro j o s hs ho
    have hone : childCount (scopeShape m) j = 1 := h.once j _ o (hsh j s hs) ho
    have hsum : (m.scopes.map (fun s2 => s2.d_allScopes.count j)).sum = 1 := by
      have : childCount (scopeShape m) j
          = (m.scopes.map (fun s2 => s2.d_allScopes.count j)).sum := by
        simp [childCount, scopeShape, Function.comp_def]
      rw [← this]
      exact hone
    refine ⟨hsum, ?_⟩
    obtain ⟨x, hx, hx2⟩ := exists_pos_of_sum_pos _ (by rw [hsum]; exact Nat.one_pos)
    obtain ⟨s3, hs3, e⟩ := List.mem_map.1 hx
    subst e
    obtain ⟨i, hi⟩ := List.getElem?_of_mem hs3
    have hmem : j ∈ s3.d_allScopes := List.count_pos_iff.1 hx2
    obtain ⟨s4, hs4, ho4⟩ := f1 i j s3 hi hmem
    rw [hs] at hs4
    cases hs4
    rw [ho] at ho4
    cases ho4
    refine ⟨s3, hi, ?_⟩
    have hle := count_le_sum _ _ hx
    omega
  · intro j hj
    obtain ⟨n, r, s, h1, h2, h3⟩ := h.root j hj
    obtain ⟨k, hk⟩ := h.root_file r _ (hsh r s h2) h3
    exact ⟨n, r, k, h1, hk⟩

theorem parseDir_forest (env : Env) (de : DirEnv) (f : Nat) (dir : QByteArray)
    (m m1 : CodeModel) (b : Bool) (h : parseDir env de f dir m = Except.ok (m1, b)) :
    Forest m1 := by
  have hfold : ∀ (files : List QByteArray) (m2 m3 : CodeModel),
      files.foldlM (fun m p => do
        let r ← parseFile env f p m
        pure r.1) m2 = Except.ok m3 → Steps m2 m3 := by
    intro files
    induction files with
    | nil =>
      intro m2 m3 h2
      have := pure_ok h2
      subst this
      exact Steps.none_made _
    | cons p ps ih =>
      intro m2 m3 h2
      rw [List.foldlM_cons] at h2
      obtain ⟨m4, h4, h5⟩ := bind_ok h2
      obtain ⟨r, hr, h6⟩ := bind_ok h4
      have := pure_ok h6
      subst this
      obtain ⟨m5, r5⟩ := r
      exact ((stepsAll env f).parseFile p m2 m5 r5 hr).followed_by (ih _ _ h5)
  unfold parseDir at h
  obtain ⟨dotfile, _, h⟩ := bind_ok h
  split at h
  · have e := congrArg (fun r => r.1) (pure_ok h)
    dsimp only at e
    rw [← e]
    exact (Forest.cleared m).of_shape rfl rfl
  · obtain ⟨files, _, h⟩ := bind_ok h
    obtain ⟨m2, h2, h⟩ := bind_ok h
    have e := congrArg (fun r => r.1) (pure_ok h)
    dsimp only at e
    rw [← e]
    exact (hfold _ _ _ h2).forest ((Forest.cleared m).of_shape rfl rfl)

theorem nested_walk :
    (parseFile nestedEnv 31 "/p/BUILD.gn".toList (CodeModel.clear {})).isOk = true
    ∧ scopeShape nestedModel = [([1], none), ([2], some 0), ([], some 1)]
    ∧ nestedModel.scopes.map (fun s => s.d_kind)
        = ["file".toList, "declare_args".toList, "group".toList]
    ∧ nestedModel.d_files = [("/p/BUILD.gn".toList, 0)]
    ∧ outerChain nestedModel 2 2 = some 0 := by
  decide!

/-- C30: the scope graph is a forest after every walk. The cleared model is a forest; every
walk of a file or of a statement list, started from a model whose scope graph is a forest,
returns a model whose scope graph is one, and so does every run of `parseDir`: every scope
in the `childScopes` list of `i` has `outer = i`; the scopes of the Files map, and only
they, have no `outer`; a scope with an `outer` is in the `childScopes` lists exactly once,
in the list of its `outer`; following `outer` from any scope reaches a scope of the Files
map. The sample file with a `group` inside `declare_args` is evaluated. -/
theorem scope_graph_forest (env : Env) (de : DirEnv) :
    (∀ m : CodeModel, Forest m.clear ∧ ScopeForest m.clear)
    ∧ (∀ (f : Nat) (path : QByteArray) (m m1 : CodeModel) (r : Option ScopeId), Forest m →
        parseFile env f path m = Except.ok (m1, r) → Forest m1 ∧ ScopeForest m1)
    ∧ (∀ (f : Nat) (st : SynTree) (sc : ScopeId) (m m1 : CodeModel), Forest m →
        statementList env f st sc m = Except.ok m1 → Forest m1 ∧ ScopeForest m1)
    ∧ (∀ (f : Nat) (dir : QByteArray) (m m1 : CodeModel) (b : Bool),
        parseDir env de f dir m = Except.ok (m1, b) → Forest m1 ∧ ScopeForest m1)
    ∧ ((parseFile nestedEnv 31 "/p/BUILD.gn".toList (CodeModel.clear {})).isOk = true
      ∧ scopeShape nestedModel = [([1], none), ([2], some 0), ([], some 1)]
      ∧ nestedModel.scopes.map (fun s => s.d_kind)
          = ["file".toList, "declare_args".toList, "group".toList]
      ∧ nestedModel.d_files = [("/p/BUILD.gn".toList, 0)]
      ∧ outerChain nestedModel 2 2 = some 0) :=
  ⟨fun m => ⟨Forest.cleared m, (Forest.cleared m).facts⟩,
    fun f path m m1 r hm h =>
      have h1 := ((stepsAll env f).parseFile path m m1 r h).forest hm
      ⟨h1, h1.facts⟩,
    fun f st sc m m1 hm h =>
      have h1 := ((stepsAll env f).statementList st sc m m1 h).forest hm
      ⟨h1, h1.facts⟩,
    fun f dir m m1 b h =>
      have h1 := parseDir_forest env de f dir m m1 b h
      ⟨h1, h1.facts⟩,
    nested_walk⟩

/-! ## The symbol pool of the lexer -/

theorem hashFind_none_iff {β : Type} (h : List (QByteArray × β)) (k : QByteArray) :
    hashFind h k = none ↔ k ∉ h.map Prod.fst := by
  induction h with
  | nil => simp only [hashFind, List.map_nil, List.not_mem_nil, not_false_eq_true]
  | cons p rest ih =>
    obtain ⟨k1, v⟩ := p
    by_cases hk : k1 = k
    · simp only [hashFind, hk, if_true, List.map_cons, List.mem_cons, true_or, not_true_eq_false,
        reduceCtorEq]
    · have hk2 : ¬ k = k1 := fun e => hk e.symm
      simp only [hashFind, hk, hk2, if_false, List.map_cons, List.mem_cons, false_or, ih]

theorem hashFind_some_mem {β : Type} (h : List (QByteArray × β)) (k : QByteArray) (v : β)
    (hf : hashFind h k = some v) : (k, v) ∈ h := by
  induction h with
  | nil => simp [hashFind] at hf
  | cons p rest ih =>
    obtain ⟨k1, w⟩ := p
    by_cases hk : k1 = k
    · subst hk
      have e : w = v := by simpa [hashFind] using hf
      subst e
      exact List.mem_cons_self _ _
    · simp [hashFind, hk] at hf
      exact List.mem_cons_of_mem _ (ih hf)

theorem hashFind_of_mem {β : Type} (h : List (QByteArray × β)) (k : QByteArray) (v : β)
    (hn : (h.map Prod.fst).Nodup) (hm : (k, v) ∈ h) : hashFind h k = some v := by
  induction h with
  | nil => simp at hm
  | cons p rest ih =>
    obtain ⟨k1, w⟩ := p
    simp only [List.map_cons, List.nodup_cons] at hn
    rcases List.mem_cons.1 hm with e | hm2
    · cases e
      simp [hashFind]
    · have hk : k1 ≠ k := by
        intro e
        subst e
        exact hn.1 (List.mem_map_of_mem Prod.fst hm2)
      simp [hashFind, hk, ih hn.2 hm2]

theorem hashInsert_fresh {β : Type} (h : List (QByteArray × β)) (k : QByteArray) (x : β)
    (hf : hashFind h k = none) : hashInsert h k x = h ++ [(k, x)] := by
  induction h with
  | nil => simp [hashInsert]
  | cons p rest ih =>
    obtain ⟨k1, w⟩ := p
    by_cases hk : k1 = k
    · simp [hashFind, hk] at hf
    · simp [hashFind, hk] at hf
      simp [hashInsert, hk, ih hf]

theorem hashInsert_twice {β : Type} (h : List (QByteArray × β)) (k : QByteArray) (a b : β) :
    hashInsert (hashInsert h k a) k b = hashInsert h k b := by
  induction h with
  | nil => simp [hashInsert]
  | cons p rest ih =>
    obtain ⟨k1, w⟩ := p
    by_cases hk : k1 = k
    · simp [hashInsert, hk]
    · simp [hashInsert, hk, ih]

/-- With a pool between two calls, `getSymbol` of a non-empty array returns the stored
array when its bytes are a key, and else stores and returns the array itself. -/
theorem getSymbol_eq (syms : Symbols) (s : QBuf) (hp : PoolOk syms) (hs : s.bytes ≠ []) :
    getSymbol syms s =
      match hashFind syms s.bytes with
      | some v => (syms, v)
      | none => (syms ++ [(s.bytes, s)], s) := by
  cases hf : hashFind syms s.bytes with
  | none =>
    have h1 : hashFind (hashInsert syms s.bytes QBuf.null) s.bytes = some QBuf.null :=
      hashFind_hashInsert_same _ _ _
    have h2 : hashInsert (hashInsert syms s.bytes QBuf.null) s.bytes s = syms ++ [(s.bytes, s)] := by
      rw [hashInsert_twice, hashInsert_fresh _ _ _ hf]
    have h3 : QBuf.null.bytes = [] := rfl
    simp only [getSymbol, hs, hf, h1, h2, h3, List.isEmpty_eq_true, Option.getD_some,
      if_true, if_false]
  | some v =>
    have hv := (hp.2 _ (hashFind_some_mem _ _ _ hf)).2
    have hv2 : v.bytes ≠ [] := by rw [hv]; exact hs
    simp [getSymbol, hs, hf, hv2]

theorem getSymbol_empty (syms : Symbols) (s : QBuf) (hs : s.bytes = []) :
    getSymbol syms s = (syms, s) := by
  simp [getSymbol, hs]

theorem PoolOk.nil : PoolOk [] := by
  simp [PoolOk]

theorem PoolOk.getSymbol {syms : Symbols} (hp : PoolOk syms) (s : QBuf) :
    PoolOk (getSymbol syms s).1 := by
  by_cases hs : s.bytes = []
  · rw [getSymbol_empty _ _ hs]; exact hp
  · rw [getSymbol_eq _ _ hp hs]
    cases hf : hashFind syms s.bytes with
    | some v => exact hp
    | none =>
      refine ⟨?_, ?_⟩
      · have := (hashFind_none_iff _ _).1 hf
        simp only [List.map_append, List.map_cons, List.map_nil]
        exact List.Nodup.append hp.1 (List.nodup_singleton _) (by
          intro a h1 h2
          exact this ((List.mem_singleton.1 h2) ▸ h1))
      · intro p hm
        rcases List.mem_append.1 hm with h1 | h1
        · exact hp.2 p h1
        · have e := List.mem_singleton.1 h1
          subst e
          exact ⟨hs, rfl⟩

theorem PoolOk.internAll {syms : Symbols} (hp : PoolOk syms) (l : List QBuf) :
    PoolOk (internAll syms l) := by
  induction l generalizing syms with
  | nil => exact hp
  | cons s rest ih => exact ih (hp.getSymbol s)

/-- An entry of the pool stays as it is at a call of `getSymbol`. -/
theorem getSymbol_keeps {syms : Symbols} (hp : PoolOk syms) (s : QBuf) (k : QByteArray)
    (v : QBuf) (hf : hashFind syms k = some v) : hashFind (getSymbol syms s).1 k = some v := by
  by_cases hs : s.bytes = []
  · rw [getSymbol_empty _ _ hs]; exact hf
  · rw [getSymbol_eq _ _ hp hs]
    cases hf2 : hashFind syms s.bytes with
    | some w => exact hf
    | none =>
      have hn := (hp.getSymbol s).1
      rw [getSymbol_eq _ _ hp hs, hf2] at hn
      exact hashFind_of_mem _ _ _ hn
        (List.mem_append_left _ (hashFind_some_mem _ _ _ hf))

theorem internAll_keeps {syms : Symbols} (hp : PoolOk syms) (l : List QBuf) (k : QByteArray)
    (v : QBuf) (hf : hashFind syms k = some v) : hashFind (internAll syms l) k = some v := by
  induction l generalizing syms with
  | nil => exact hf
  | cons s rest ih => exact ih (hp.getSymbol s) (getSymbol_keeps hp s k v hf)

/-- After `getSymbol` of a non-empty array, the returned array is stored under its bytes,
which are the bytes of the argument. -/
theorem getSymbol_stored {syms : Symbols} (hp : PoolOk syms) (s : QBuf) (hs : s.bytes ≠ []) :
    hashFind (getSymbol syms s).1 s.bytes = some (getSymbol syms s).2
    ∧ (getSymbol syms s).2.bytes = s.bytes := by
  rw [getSymbol_eq _ _ hp hs]
  cases hf : hashFind syms s.bytes with
  | some v => exact ⟨hf, (hp.2 _ (hashFind_some_mem _ _ _ hf)).2⟩
  | none =>
    have hn := (hp.getSymbol s).1
    rw [getSymbol_eq _ _ hp hs, hf] at hn
    exact ⟨hashFind_of_mem _ _ _ hn (List.mem_append_right _ (List.mem_singleton.2 rfl)), rfl⟩

/-- The keys of the pool after a call of `getSymbol`. -/
theorem getSymbol_keys {syms : Symbols} (hp : PoolOk syms) (s : QBuf) (k : QByteArray) :
    k ∈ (getSymbol syms s).1.map Prod.fst ↔
      k ∈ syms.map Prod.fst ∨ (k ≠ [] ∧ s.bytes = k) := by
  by_cases hs : s.bytes = []
  · rw [getSymbol_empty _ _ hs]
    constructor
    · exact Or.inl
    · rintro (h | ⟨h1, h2⟩)
      · exact h
      · exact absurd (h2.symm.trans hs) h1
  · rw [getSymbol_eq _ _ hp hs]
    cases hf : hashFind syms s.bytes with
    | some v =>
      constructor
      · exact Or.inl
      · rintro (h | ⟨_, h2⟩)
        · exact h
        · subst h2
          exact List.mem_map_of_mem Prod.fst (hashFind_some_mem _ _ _ hf)
    | none =>
      simp only [List.map_append, List.map_cons, List.map_nil, List.mem_append,
        List.mem_singleton]
      constructor
      · rintro (h | h)
        · exact Or.inl h
        · subst h; exact Or.inr ⟨hs, rfl⟩
      · rintro (h | ⟨_, h2⟩)
        · exact Or.inl h
        · exact Or.inr h2.symm

theorem internAll_keys {syms : Symbols} (hp : PoolOk syms) (l : List QBuf) (k : QByteArray) :
    k ∈ (internAll syms l).map Prod.fst ↔
      k ∈ syms.map Prod.fst ∨ (k ≠ [] ∧ ∃ s ∈ l, s.bytes = k) := by
  induction l generalizing syms with
  | nil =>
    constructor
    · exact Or.inl
    · rintro (h | ⟨_, t, ht, _⟩)
      · exact h
      · exact absurd ht (List.not_mem_nil _)
  | cons s rest ih =>
    have h1 := @ih (getSymbol syms s).1 (hp.getSymbol s)
    have h0 : internAll syms (s :: rest) = internAll (getSymbol syms s).1 rest := rfl
    rw [h0, h1, getSymbol_keys hp]
    constructor
    · rintro ((h | ⟨h2, h3⟩) | ⟨h2, t, ht, h3⟩)
      · exact Or.inl h
      · exact Or.inr ⟨h2, s, List.mem_cons_self _ _, h3⟩
      · exact Or.inr ⟨h2, t, List.mem_cons_of_mem _ ht, h3⟩
    · rintro (h | ⟨h2, t, ht, h3⟩)
      · exact Or.inl (Or.inl h)
      · rcases List.mem_cons.1 ht with e | ht2
        · subst e; exact Or.inl (Or.inr ⟨h2, h3⟩)
        · exact Or.inr ⟨h2, t, ht2, h3⟩

/-- The number of the entries is the number of the distinct non-empty byte sequences. -/
theorem internAll_length (l : List QBuf) :
    (internAll [] l).length
      = ((l.map (fun s => s.bytes)).filter (fun k => decide (k ≠ []))).dedup.length := by
  have hp := PoolOk.nil.internAll l
  have hperm : ((internAll [] l).map Prod.fst).Perm
      ((l.map (fun s => s.bytes)).filter (fun k => decide (k ≠ []))).dedup := by
    refine (List.perm_ext_iff_of_nodup hp.1 (List.nodup_dedup _)).2 ?_
    intro k
    rw [internAll_keys PoolOk.nil l k]
    simp only [List.map_nil, List.not_mem_nil, false_or, List.mem_dedup, List.mem_filter,
      List.mem_map, decide_eq_true_eq]
    constructor
    · rintro ⟨h1, s, hs, h2⟩
      exact ⟨⟨s, hs, h2⟩, h1⟩
    · rintro ⟨⟨s, hs, h2⟩, h1⟩
      exact ⟨h1, s, hs, h2⟩
  have := hperm.length_eq
  simpa using this

/-- C22: between two clears of the pool, after any calls `before`, `getSymbol(s1)` of a
non-empty array, then any calls `between` and `getSymbol(s2)` of an array with the same
bytes return the same array, which is the value stored under these bytes and has the bytes
of `s1`, and the second call leaves the pool as it was; the pool holds each key once, its
keys are the non-empty byte sequences of the arguments, so that it has one entry for each
distinct of them, and the bytes of each value are its key; `getSymbol` of an array whose
bytes are a key returns the stored value and leaves the pool as it was. -/
theorem getSymbol_canonical (syms : Symbols) :
    (∀ (before between : List QBuf) (s1 s2 : QBuf), s1.bytes ≠ [] → s1.bytes = s2.bytes →
      getSymbol (internAll (getSymbol (internAll (clearSymbols syms) before) s1).1 between) s2
          = (internAll (getSymbol (internAll (clearSymbols syms) before) s1).1 between,
              (getSymbol (internAll (clearSymbols syms) before) s1).2)
        ∧ (getSymbol (internAll (clearSymbols syms) before) s1).2.bytes = s1.bytes
        ∧ hashFind (internAll (getSymbol (internAll (clearSymbols syms) before) s1).1 between)
            s1.bytes = some (getSymbol (internAll (clearSymbols syms) before) s1).2)
    ∧ (∀ l : List QBuf,
        ((internAll (clearSymbols syms) l).map Prod.fst).Nodup
        ∧ (∀ k, k ∈ (internAll (clearSymbols syms) l).map Prod.fst ↔
            k ≠ [] ∧ ∃ s ∈ l, s.bytes = k)
        ∧ (internAll (clearSymbols syms) l).length
            = ((l.map (fun s => s.bytes)).filter (fun k => decide (k ≠ []))).dedup.length
        ∧ (∀ e ∈ internAll (clearSymbols syms) l, e.2.bytes = e.1)
        ∧ (∀ k v, hashFind (internAll (clearSymbols syms) l) k = some v → v.bytes = k))
    ∧ (∀ (l : List QBuf) (s v : QBuf),
        hashFind (internAll (clearSymbols syms) l) s.bytes = some v →
          getSymbol (internAll (clearSymbols syms) l) s = (internAll (clearSymbols syms) l, v))
    ∧ getSymbol (getSymbol [] ⟨1, "foo".toList⟩).1 ⟨2, "foo".toList⟩
        = ([("foo".toList, ⟨1, "foo".toList⟩)], ⟨1, "foo".toList⟩) := by
  refine ⟨?_, ?_, ?_, by decide⟩
  · intro before between s1 s2 hs he
    have hp0 : PoolOk (internAll (clearSymbols syms) before) := PoolOk.nil.internAll before
    have hst := getSymbol_stored hp0 s1 hs
    have hp1 := hp0.getSymbol s1
    have hk := internAll_keeps hp1 between _ _ hst.1
    have hp2 := hp1.internAll between
    refine ⟨?_, hst.2, hk⟩
    rw [getSymbol_eq _ _ hp2 (he ▸ hs), ← he, hk]
  · intro l
    have hp : PoolOk (internAll (clearSymbols syms) l) := PoolOk.nil.internAll l
    refine ⟨hp.1, ?_, internAll_length l, fun e he => (hp.2 e he).2, ?_⟩
    · intro k
      have := internAll_keys PoolOk.nil l k
      show k ∈ List.map Prod.fst (internAll [] l) ↔ _
      rw [this]
      constructor
      · rintro (h | h)
        · exact absurd h (List.not_mem_nil _)
        · exact h
      · exact Or.inr
    · intro k v hf
      exact (hp.2 _ (hashFind_some_mem _ _ _ hf)).2
  · intro l s v hf
    have hp : PoolOk (internAll (clearSymbols syms) l) := PoolOk.nil.internAll l
    have hs : s.bytes ≠ [] := (hp.2 _ (hashFind_some_mem _ _ _ hf)).1
    rw [getSymbol_eq _ _ hp hs, hf]

/-- C23: `getSymbol` of an array with no bytes returns the array and leaves the pool as it
was, so that the pool gets no entry for it. -/
theorem getSymbol_of_empty (syms : Symbols) (a : Nat) :
    getSymbol syms ⟨a, []⟩ = (syms, ⟨a, []⟩)
    ∧ (getSymbol syms ⟨a, []⟩).2.bytes = []
    ∧ (getSymbol syms ⟨a, []⟩).1 = syms
    ∧ hashFind (getSymbol (clearSymbols syms) ⟨a, []⟩).1 [] = none := by
  have h : getSymbol syms ⟨a, []⟩ = (syms, ⟨a, []⟩) := getSymbol_empty _ _ rfl
  have h2 : getSymbol (clearSymbols syms) ⟨a, []⟩ = (clearSymbols syms, ⟨a, []⟩) :=
    getSymbol_empty _ _ rfl
  rw [h, h2]
  exact ⟨rfl, rfl, rfl, rfl⟩

/-! ## The lexer: the token maker and the way to the next token -/

theorem mid_nat (str : QByteArray) (p l : Nat) (hp : p ≤ str.length) :
    mid str p l = (str.drop p).take l := by
  unfold mid
  have h1 : ¬ ((p : Int) > (str.length : Int)) := by omega
  have h2 : ¬ ((p : Int) < 0) := by omega
  have h3 : ¬ ((l : Int) < 0) := by omega
  simp only [h1, h2, h3, if_false, false_or, Int.toNat_ofNat]
  split
  · rename_i h
    rw [List.take_of_length_le]
    simp only [List.length_drop]
    omega
  · rfl

/-- The token that `Lexer::token` makes and the members that it leaves. -/
theorem Lexer.token_fields (lx : Lexer) (tt : TokenType) (len : Nat) (val : QByteArray) :
    (lx.token tt len val).2.d_type = tt
    ∧ (lx.token tt len val).2.d_lineNr = lx.d_lineNr
    ∧ (lx.token tt len val).2.d_colNr = lx.d_colNr + 1
    ∧ (lx.token tt len val).2.d_len = len
    ∧ (lx.token tt len val).2.d_sourcePath = lx.d_sourcePath
    ∧ (lx.token tt len val).1.d_colNr = lx.d_colNr + len
    ∧ (lx.token tt len val).1.d_line = lx.d_line
    ∧ (lx.token tt len val).1.d_lineNr = lx.d_lineNr
    ∧ (lx.token tt len val).1.d_in = lx.d_in
    ∧ (lx.token tt len val).1.d_buffer = lx.d_buffer
    ∧ (lx.token tt len val).1.d_ignoreComments = lx.d_ignoreComments :=
  ⟨rfl, rfl, rfl, rfl, rfl, rfl, rfl, rfl, rfl, rfl, rfl⟩

/-- The value of a token that is no identifier is the one given to `Lexer::token`, and the
pool stays. -/
theorem Lexer.token_val (lx : Lexer) (tt : TokenType) (len : Nat) (val : QByteArray)
    (h : tt ≠ TokenType.Tok_identifier) :
    (lx.token tt len val).2.d_val = val ∧ (lx.token tt len val).1.d_symbols = lx.d_symbols := by
  simp [Lexer.token, h]

/-- The value of an identifier token is what `getSymbol` returns. -/
theorem Lexer.token_identifier (lx : Lexer) (len : Nat) (val : QByteArray) :
    (lx.token TokenType.Tok_identifier len val).2.d_val
        = (getSymbol lx.d_symbols ⟨lx.d_heap, val⟩).2.bytes
    ∧ (lx.token TokenType.Tok_identifier len val).1.d_symbols
        = (getSymbol lx.d_symbols ⟨lx.d_heap, val⟩).1 := by
  simp [Lexer.token]

/-- The reports after `Lexer::token`: one more for an Invalid token when there is a sink,
and else the same. -/
theorem Lexer.token_err (lx : Lexer) (tt : TokenType) (len : Nat) (val : QByteArray) :
    (lx.token tt len val).1.d_err =
      if (lx.token tt len val).2.d_type = TokenType.Tok_Invalid then
        lx.d_err.map (fun e => e ++
          [⟨Severity.error, ErrSource.Syntax, String.mk (lx.token tt len val).2.d_val⟩])
      else lx.d_err := by
  by_cases h : tt = TokenType.Tok_Invalid
  · subst h
    simp [Lexer.token]
  · simp [Lexer.token, h]

theorem Lexer.skipWhiteSpace_fields (lx : Lexer) :
    lx.skipWhiteSpace.d_line = lx.d_line
    ∧ lx.skipWhiteSpace.d_lineNr = lx.d_lineNr
    ∧ lx.skipWhiteSpace.d_in = lx.d_in
    ∧ lx.skipWhiteSpace.d_buffer = lx.d_buffer
    ∧ lx.skipWhiteSpace.d_ignoreComments = lx.d_ignoreComments
    ∧ lx.skipWhiteSpace.d_err = lx.d_err
    ∧ lx.skipWhiteSpace.d_symbols = lx.d_symbols
    ∧ lx.d_colNr ≤ lx.skipWhiteSpace.d_colNr :=
  ⟨rfl, rfl, rfl, rfl, rfl, rfl, rfl, Nat.le_add_right _ _⟩

theorem Lexer.skipWhiteSpace_ahead (lx : Lexer) : lx.skipWhiteSpace.ahead ≤ lx.ahead := by
  simp only [Lexer.ahead, Lexer.skipWhiteSpace]
  omega

/-- The lexer that stands at a byte that is no white space stays there. -/
theorem Lexer.skipWhiteSpace_at (lx : Lexer) (c : Char) (rest : List Char)
    (h : lx.d_line.drop lx.d_colNr = c :: rest) (hc : isspace c = false) :
    lx.skipWhiteSpace = lx := by
  simp [Lexer.skipWhiteSpace, h, List.takeWhile, hc]

/-- The lexer before white space `ws` and a byte that is none goes to this byte. -/
theorem Lexer.skipWhiteSpace_over (lx : Lexer) (ws : List Char) (c : Char) (rest : List Char)
    (h : lx.d_line.drop lx.d_colNr = ws ++ c :: rest) (hws : ∀ x ∈ ws, isspace x = true)
    (hc : isspace c = false) :
    lx.skipWhiteSpace = { lx with d_colNr := lx.d_colNr + ws.length }
    ∧ lx.d_line.drop (lx.d_colNr + ws.length) = c :: rest := by
  constructor
  · simp only [Lexer.skipWhiteSpace, h, takeWhile_append_stop isspace ws c rest hws hc]
  · rw [← List.drop_drop, h]
    simp

theorem Lexer.nextLine_ahead (lx : Lexer) (line : QByteArray)
    (rest : List QByteArray) (h : lx.d_in = some (line :: rest)) :
    (lx.nextLine line rest).ahead < lx.ahead
    ∧ (lx.nextLine line rest).d_in = some rest := by
  have hl : ((lx.nextLine line rest).d_line).length ≤ line.length := by
    simp only [Lexer.nextLine, chop]
    split
    · simp only [List.length_take]; omega
    · split
      · simp only [List.length_take]; omega
      · exact Nat.le_refl _
  have hc : (lx.nextLine line rest).d_colNr = 0 := rfl
  have hi : (lx.nextLine line rest).d_in = some rest := rfl
  refine ⟨?_, hi⟩
  simp only [Lexer.ahead, hi, hc, h, List.map_cons, List.sum_cons]
  omega

/-- The loop over the lines: it leaves the lexer before a byte of its line or at the end of
the stream, passes no byte twice and leaves the sink, the buffer and the pool. -/
theorem Lexer.lineLoop_fields :
    ∀ (lines : List QByteArray) (lx : Lexer), lx.d_in = some lines →
      ((Lexer.lineLoop lines lx).2 = false →
        (Lexer.lineLoop lines lx).1.d_colNr < (Lexer.lineLoop lines lx).1.d_line.length)
      ∧ (Lexer.lineLoop lines lx).1.ahead ≤ lx.ahead
      ∧ (Lexer.lineLoop lines lx).1.d_in ≠ none
      ∧ (Lexer.lineLoop lines lx).1.d_buffer = lx.d_buffer
      ∧ (Lexer.lineLoop lines lx).1.d_ignoreComments = lx.d_ignoreComments
      ∧ (Lexer.lineLoop lines lx).1.d_err = lx.d_err
      ∧ (Lexer.lineLoop lines lx).1.d_symbols = lx.d_symbols := by
  intro lines
  induction lines with
  | nil =>
    intro lx h
    by_cases hc : lx.d_colNr ≥ lx.d_line.length
    · simp [Lexer.lineLoop, hc, h]
    · simp only [Lexer.lineLoop, hc, if_false]
      refine ⟨fun _ => by omega, Nat.le_refl _, by rw [h]; simp, ?_, ?_, ?_, ?_⟩ <;>
        first | rfl | trivial
  | cons line rest ih =>
    intro lx h
    by_cases hc : lx.d_colNr ≥ lx.d_line.length
    · simp only [Lexer.lineLoop, hc, if_true]
      have hn := Lexer.nextLine_ahead lx line rest h
      have h2 := ih (lx.nextLine line rest).skipWhiteSpace hn.2
      have hs := Lexer.skipWhiteSpace_ahead (lx.nextLine line rest)
      refine ⟨h2.1, ?_, h2.2.2.1, h2.2.2.2.1, h2.2.2.2.2.1, h2.2.2.2.2.2.1, h2.2.2.2.2.2.2⟩
      have := h2.2.1
      omega
    · simp only [Lexer.lineLoop, hc, if_false]
      refine ⟨fun _ => by omega, Nat.le_refl _, by rw [h]; simp, ?_, ?_, ?_, ?_⟩ <;>
        first | rfl | trivial

/-- The lexer that stands before a byte of its line stays in the loop over the lines. -/
theorem Lexer.lineLoop_at (lines : List QByteArray) (lx : Lexer)
    (h : lx.d_colNr < lx.d_line.length) : Lexer.lineLoop lines lx = (lx, false) := by
  have hc : ¬ lx.d_colNr ≥ lx.d_line.length := by omega
  cases lines <;> simp [Lexer.lineLoop, hc]

theorem stringScan_off_pos : ∀ (cs : List Char) (off : Nat) (e : Bool),
    off + 1 ≤ (stringScan cs off e).2 := by
  intro cs
  induction cs with
  | nil => intro off e; simp [stringScan]
  | cons c rest ih =>
    intro off e
    simp only [stringScan]
    split
    · exact Nat.le_refl _
    · split
      · exact Nat.le_of_succ_le (ih _ _)
      · split
        · exact Nat.le_refl _
        · exact Nat.le_of_succ_le (ih _ _)

theorem identScan_off_le : ∀ (cs : List Char) (off : Nat), off ≤ identScan cs off := by
  intro cs
  induction cs with
  | nil => intro off; simp [identScan]
  | cons c rest ih =>
    intro off
    simp only [identScan]
    split
    · exact Nat.le_refl _
    · exact Nat.le_of_succ_le (ih _)

theorem numberScan_off_le : ∀ (cs : List Char) (off : Nat), off ≤ numberScan cs off := by
  intro cs
  induction cs with
  | nil => intro off; simp [numberScan]
  | cons c rest ih =>
    intro off
    simp only [numberScan]
    split
    · exact Nat.le_refl _
    · exact Nat.le_of_succ_le (ih _)

theorem Lexer.string_token (lx : Lexer) :
    ∃ (tt : TokenType) (val : QByteArray),
      lx.string = lx.token tt (stringScan (lx.d_line.drop (lx.d_colNr + 1)) 1 false).2 val := by
  unfold Lexer.string
  simp only
  split
  · exact ⟨_, _, rfl⟩
  · exact ⟨_, _, rfl⟩

theorem Lexer.ident_token (env : LexEnv) (lx : Lexer) :
    ∃ (tt : TokenType) (val : QByteArray),
      lx.ident env = lx.token tt (identScan (lx.d_line.drop (lx.d_colNr + 1)) 1) val := by
  unfold Lexer.ident
  simp only
  split <;> (try split) <;> exact ⟨_, _, rfl⟩

/-- The token at a byte of the line is made by `Lexer::token` with a length of one byte at
least. -/
theorem Lexer.tokenAt_token (env : LexEnv) (lx : Lexer) :
    ∃ (tt : TokenType) (len : Nat) (val : QByteArray),
      lx.tokenAt env = lx.token tt len val ∧ (lx.d_colNr < lx.d_line.length → 1 ≤ len) := by
  unfold Lexer.tokenAt
  simp only
  split
  · obtain ⟨tt, val, e⟩ := Lexer.string_token lx
    exact ⟨_, _, _, e, fun _ => Nat.le_of_succ_le (stringScan_off_pos _ _ _)⟩
  · split
    · obtain ⟨tt, val, e⟩ := Lexer.ident_token env lx
      exact ⟨_, _, _, e, fun _ => identScan_off_le _ _⟩
    · split
      · exact ⟨_, _, _, rfl, fun _ => numberScan_off_le _ _⟩
      · split
        · exact ⟨_, _, _, rfl, fun h => by omega⟩
        · split
          · exact ⟨_, _, _, rfl, fun _ => Nat.le_refl _⟩
          · rename_i h1
            refine ⟨_, _, _, rfl, fun _ => ?_⟩
            have : ¬ (env.tokenTypeFromString lx.d_line lx.d_colNr).2 = 0 :=
              fun e => h1 (Or.inr e)
            omega

/-- Every way through `Lexer::nextTokenImp` ends in `Lexer::token`: for the end of the
stream, or before a byte of the line with a length of one byte at least; up to there the
lexer passes no byte twice and leaves the sink and the buffer. -/
theorem Lexer.nextTokenImp_token (env : LexEnv) (lx : Lexer) :
    ∃ (lx0 : Lexer) (tt : TokenType) (len : Nat) (val : QByteArray),
      lx.nextTokenImp env = lx0.token tt len val
      ∧ lx0.d_err = lx.d_err
      ∧ lx0.d_buffer = lx.d_buffer
      ∧ lx0.d_ignoreComments = lx.d_ignoreComments
      ∧ lx0.ahead ≤ lx.ahead
      ∧ (tt = TokenType.Tok_Eof ∨ (lx0.d_colNr < lx0.d_line.length ∧ 1 ≤ len)) := by
  unfold Lexer.nextTokenImp
  cases hin : lx.d_in with
  | none =>
    exact ⟨lx, _, _, _, rfl, rfl, rfl, rfl, Nat.le_refl _, Or.inl rfl⟩
  | some lines =>
    have hs := Lexer.skipWhiteSpace_fields lx
    have hl := Lexer.lineLoop_fields lines lx.skipWhiteSpace (hs.2.2.1.trans hin)
    have ha : (Lexer.lineLoop lines lx.skipWhiteSpace).1.ahead ≤ lx.ahead :=
      Nat.le_trans hl.2.1 (Lexer.skipWhiteSpace_ahead lx)
    have hb := hl.2.2.2.1.trans hs.2.2.2.1
    have hi := hl.2.2.2.2.1.trans hs.2.2.2.2.1
    have he := hl.2.2.2.2.2.1.trans hs.2.2.2.2.2.1
    simp only
    cases hr : (Lexer.lineLoop lines lx.skipWhiteSpace).2 with
    | true =>
      simp only [if_true]
      exact ⟨_, _, _, _, rfl, he, hb, hi, ha, Or.inl rfl⟩
    | false =>
      have hlt := hl.1 hr
      simp only [Bool.false_eq_true, if_false]
      obtain ⟨tt, len, val, e, hlen⟩ :=
        Lexer.tokenAt_token env (Lexer.lineLoop lines lx.skipWhiteSpace).1
      exact ⟨_, _, _, _, e, he, hb, hi, ha, Or.inr ⟨hlt, hlen hlt⟩⟩

/-- The lexer that stands at a byte of its line that is no white space makes the token at
this byte. -/
theorem Lexer.nextTokenImp_at (env : LexEnv) (lx : Lexer) (lines : List QByteArray) (c : Char)
    (rest : List Char) (hin : lx.d_in = some lines)
    (h : lx.d_line.drop lx.d_colNr = c :: rest) (hc : isspace c = false) :
    lx.nextTokenImp env = lx.tokenAt env := by
  have hlt : lx.d_colNr < lx.d_line.length := by
    have := congrArg List.length h
    rw [List.length_drop] at this
    simp only [List.length_cons] at this
    omega
  unfold Lexer.nextTokenImp
  rw [hin]
  simp only [Lexer.skipWhiteSpace_at lx c rest h hc, Lexer.lineLoop_at lines lx hlt,
    Bool.false_eq_true, if_false]

/-! ## String literals -/

theorem drop_cons_facts {α : Type} (l : List α) (n : Nat) (c : α) (rest : List α)
    (h : l.drop n = c :: rest) :
    l.drop (n + 1) = rest ∧ l.length = n + 1 + rest.length ∧ l.getD n c = c ∧ l[n]? = some c := by
  have h1 : l.drop (n + 1) = rest := by
    rw [← List.drop_drop, h]
    rfl
  have h2 : (l.drop n).length = rest.length + 1 := by rw [h]; rfl
  rw [List.length_drop] at h2
  have h3 : l[n]? = some c := by
    have h0 : (l.drop n)[0]? = l[n + 0]? := List.getElem?_drop l n 0
    rw [h] at h0
    simpa using h0.symm
  refine ⟨h1, by omega, ?_, h3⟩
  simp [List.getD, h3]

theorem stringScan_cons (c : Char) (rest : List Char) (off : Nat) (e : Bool) :
    stringScan (c :: rest) off e =
      if c = Char.ofNat 0 then (false, off + 1)
      else if c = '\\' then
        stringScan rest (off + 1)
          (if rest.headD (Char.ofNat 0) = '"' ∨ rest.headD (Char.ofNat 0) = '\\'
              ∨ rest.headD (Char.ofNat 0) = '$' then true else e)
      else if c = '"' ∧ (!e) = true then (true, off + 1)
      else stringScan rest (off + 1) false := rfl

/-- The loop of `Lexer::string` over the pieces of a body: `off` moves by their bytes and
`escaped` gets the value that `escapedAfter` gives. -/
theorem stringScan_items : ∀ (items : List StrItem), (∀ it ∈ items, it.ok = true) →
    ∀ (tail : List Char) (off : Nat) (e : Bool),
      stringScan (bodyBytes items ++ tail) off e
        = stringScan tail (off + (bodyBytes items).length) (escapedAfter e items) := by
  intro items
  induction items with
  | nil => intro _ tail off e; simp [bodyBytes, escapedAfter]
  | cons it rest ih =>
    intro hok tail off e
    have hit := hok it (List.mem_cons_self _ _)
    have ih2 := ih (fun x hx => hok x (List.mem_cons_of_mem _ hx)) tail
    have hb : bodyBytes (it :: rest) = it.bytes ++ bodyBytes rest := by
      simp [bodyBytes]
    have hb0 : ¬ ('\\' = Char.ofNat 0) := by decide
    rw [hb]
    cases it with
    | byte c =>
      simp only [StrItem.ok, decide_eq_true_eq] at hit
      obtain ⟨h1, h2, h3⟩ := hit
      have hs : (StrItem.byte c).bytes ++ bodyBytes rest ++ tail
          = c :: (bodyBytes rest ++ tail) := rfl
      have hl : ((StrItem.byte c).bytes ++ bodyBytes rest).length
          = (bodyBytes rest).length + 1 := by
        simp [StrItem.bytes]
      have hd : decide (StrItem.byte c = StrItem.esc '\\') = false := by simp
      rw [hs, hl, stringScan_cons, escapedAfter, hd]
      simp only [h1, h2, h3, if_false, false_and]
      rw [ih2]
      congr 1
      omega
    | lone c =>
      simp only [StrItem.ok, decide_eq_true_eq] at hit
      obtain ⟨h1, h2, h3, h4⟩ := hit
      have hs : (StrItem.lone c).bytes ++ bodyBytes rest ++ tail
          = '\\' :: c :: (bodyBytes rest ++ tail) := rfl
      have hl : ((StrItem.lone c).bytes ++ bodyBytes rest).length
          = (bodyBytes rest).length + 2 := by
        simp [StrItem.bytes]
      have hd : decide (StrItem.lone c = StrItem.esc '\\') = false := by simp
      rw [hs, hl, stringScan_cons, stringScan_cons, escapedAfter, hd]
      simp only [hb0, h1, h2, h3, h4, if_false, if_true, false_and, List.headD_cons, false_or]
      rw [ih2]
      congr 1
      omega
    | esc c =>
      simp only [StrItem.ok, decide_eq_true_eq] at hit
      have hs : (StrItem.esc c).bytes ++ bodyBytes rest ++ tail
          = '\\' :: c :: (bodyBytes rest ++ tail) := rfl
      have hl : ((StrItem.esc c).bytes ++ bodyBytes rest).length
          = (bodyBytes rest).length + 2 := by
        simp [StrItem.bytes]
      rw [hs, hl, stringScan_cons, stringScan_cons, escapedAfter]
      rcases hit with h | h | h
      · subst h
        have h1 : ¬ ('"' = Char.ofNat 0) := by decide
        have h2 : ¬ ('"' = '\\') := by decide
        have h3 : decide (StrItem.esc '"' = StrItem.esc '\\') = false := by decide
        simp only [hb0, h1, h2, h3, if_false, if_true, List.headD_cons, true_or, Bool.not_true,
          Bool.false_eq_true, and_false]
        rw [ih2]
        congr 1
        omega
      · subst h
        have h3 : decide (StrItem.esc '\\' = StrItem.esc '\\') = true := by decide
        simp only [hb0, h3, if_false, if_true, List.headD_cons, true_or, or_true, ite_self]
        rw [ih2]
        congr 1
        omega
      · subst h
        have h1 : ¬ ('$' = Char.ofNat 0) := by decide
        have h2 : ¬ ('$' = '\\') := by decide
        have h4 : ¬ ('$' = '"') := by decide
        have h3 : decide (StrItem.esc '$' = StrItem.esc '\\') = false := by decide
        simp only [hb0, h1, h2, h3, h4, if_false, if_true, List.headD_cons, or_true, false_and]
        rw [ih2]
        congr 1
        omega

/-- The value of `escaped` after the pieces of a body: whether the last piece is the
escape of the backslash. -/
theorem escapedAfter_eq : ∀ (items : List StrItem) (e : Bool),
    escapedAfter e items
      = (items.getLast?.map (fun it => decide (it = StrItem.esc '\\'))).getD e := by
  intro items
  induction items with
  | nil => intro e; rfl
  | cons it rest ih =>
    intro e
    rw [escapedAfter, ih]
    cases rest with
    | nil => rfl
    | cons it2 rest2 =>
      rw [List.getLast?_cons_cons]
      cases h : (it2 :: rest2).getLast? with
      | none => simp at h
      | some x => rfl

/-- The loop of `Lexer::string` ends at a quote of the line. -/
theorem stringScan_closed : ∀ (cs : List Char) (off : Nat) (e : Bool) (off1 : Nat),
    stringScan cs off e = (true, off1) →
      ∃ n, n < cs.length ∧ off1 = off + n + 1 ∧ cs[n]? = some '"' := by
  intro cs
  induction cs with
  | nil => intro off e off1 h; simp [stringScan] at h
  | cons c rest ih =>
    intro off e off1 h
    simp only [stringScan] at h
    split at h
    · simp at h
    · split at h
      · obtain ⟨n, h1, h2, h3⟩ := ih _ _ _ h
        exact ⟨n + 1, by simp only [List.length_cons]; omega, by omega, by simpa using h3⟩
      · split at h
        · rename_i hq
          have e1 : off1 = off + 1 := by
            have := congrArg Prod.snd h
            exact this.symm
          exact ⟨0, by simp, by omega, by simp [hq.1]⟩
        · obtain ⟨n, h1, h2, h3⟩ := ih _ _ _ h
          exact ⟨n + 1, by simp only [List.length_cons]; omega, by omega, by simpa using h3⟩

/-- On bytes with no quote outside the escapes the loop of `Lexer::string` does not end at a
quote, and without a byte 0 it ends behind the line. -/
theorem stringScan_unclosed : ∀ (cs : List Char) (skip : Bool) (off : Nat) (e : Bool),
    closingQuote skip cs = false →
    (skip = true → e = true ∧
      (cs.head? = some '"' ∨ cs.head? = some '\\' ∨ cs.head? = some '$')) →
    (stringScan cs off e).1 = false
    ∧ ((∀ c ∈ cs, c ≠ Char.ofNat 0) → (stringScan cs off e).2 = off + cs.length + 1) := by
  intro cs
  induction cs with
  | nil => intro skip off e _ _; simp [stringScan]
  | cons c rest ih =>
    intro skip off e hq hs
    have hlen : ∀ k : Nat, off + 1 + rest.length + 1 = k → k = off + (c :: rest).length + 1 := by
      intro k hk
      simp only [List.length_cons]
      omega
    cases skip with
    | true =>
      obtain ⟨he, hc⟩ := hs rfl
      subst he
      simp only [closingQuote] at hq
      have h0 := ih false (off + 1) true hq (fun h => by cases h)
      have h1 := ih false (off + 1) false hq (fun h => by cases h)
      simp only [List.head?_cons, Option.some.injEq] at hc
      rcases hc with hc | hc | hc
      · subst hc
        have a1 : ¬ ('"' = Char.ofNat 0) := by decide
        have a2 : ¬ ('"' = '\\') := by decide
        simp only [stringScan, a1, a2, if_false, Bool.not_true, Bool.false_eq_true, and_false]
        exact ⟨h1.1, fun hn => hlen _ (h1.2 (fun x hx => hn x (List.mem_cons_of_mem _ hx))).symm⟩
      · subst hc
        have a1 : ¬ ('\\' = Char.ofNat 0) := by decide
        simp only [stringScan, a1, if_false, if_true, ite_self]
        exact ⟨h0.1, fun hn => hlen _ (h0.2 (fun x hx => hn x (List.mem_cons_of_mem _ hx))).symm⟩
      · subst hc
        have a1 : ¬ ('$' = Char.ofNat 0) := by decide
        have a2 : ¬ ('$' = '\\') := by decide
        have a3 : ¬ ('$' = '"') := by decide
        simp only [stringScan, a1, a2, a3, if_false, false_and]
        exact ⟨h1.1, fun hn => hlen _ (h1.2 (fun x hx => hn x (List.mem_cons_of_mem _ hx))).symm⟩
    | false =>
      simp only [closingQuote] at hq
      by_cases hc1 : c = '"'
      · simp [hc1] at hq
      · simp only [hc1, if_false] at hq
        by_cases hc0 : c = Char.ofNat 0
        · rw [stringScan_cons, if_pos hc0]
          exact ⟨rfl, fun hn => absurd hc0 (hn c (List.mem_cons_self _ _))⟩
        · by_cases hc2 : c = '\\'
          · subst hc2
            simp only [stringScan, hc0, if_false, if_true]
            by_cases hx : rest.head? = some '"' ∨ rest.head? = some '\\' ∨ rest.head? = some '$'
            · have hd : (rest.headD (Char.ofNat 0) = '"' ∨ rest.headD (Char.ofNat 0) = '\\'
                  ∨ rest.headD (Char.ofNat 0) = '$') := by
                cases rest with
                | nil => simp at hx
                | cons x xs => simpa using hx
              simp only [hx, and_true, decide_True] at hq
              simp only [hd, if_true]
              have h0 := ih true (off + 1) true hq (fun _ => ⟨rfl, hx⟩)
              exact ⟨h0.1, fun hn =>
                hlen _ (h0.2 (fun x hx => hn x (List.mem_cons_of_mem _ hx))).symm⟩
            · have hq2 : closingQuote false rest = false := by
                simpa [hx] using hq
              have h0 := ih false (off + 1) true hq2 (fun h => by cases h)
              have h1 := ih false (off + 1) e hq2 (fun h => by cases h)
              split
              · exact ⟨h0.1, fun hn =>
                  hlen _ (h0.2 (fun x hx => hn x (List.mem_cons_of_mem _ hx))).symm⟩
              · exact ⟨h1.1, fun hn =>
                  hlen _ (h1.2 (fun x hx => hn x (List.mem_cons_of_mem _ hx))).symm⟩
          · have hq2 : closingQuote false rest = false := by
              simpa [hc2] using hq
            have h1 := ih false (off + 1) false hq2 (fun h => by cases h)
            simp only [stringScan, hc0, hc1, hc2, if_false, false_and]
            exact ⟨h1.1, fun hn =>
              hlen _ (h1.2 (fun x hx => hn x (List.mem_cons_of_mem _ hx))).symm⟩

/-- The lexer that stands behind its line makes the token that it makes at the begin of
the next line. -/
theorem Lexer.nextTokenImp_behind (env : LexEnv) (lx : Lexer) (line : QByteArray)
    (more : List QByteArray) (hin : lx.d_in = some (line :: more))
    (h : lx.d_line.length ≤ lx.d_colNr) :
    lx.nextTokenImp env = (lx.nextLine line more).nextTokenImp env := by
  have hd : lx.d_line.drop lx.d_colNr = [] := List.drop_eq_nil_of_le h
  have hs : lx.skipWhiteSpace = lx := by
    simp [Lexer.skipWhiteSpace, hd]
  have hl : Lexer.lineLoop (line :: more) lx
      = Lexer.lineLoop more (lx.nextLine line more).skipWhiteSpace := by
    simp [Lexer.lineLoop, h]
  have e1 : lx.nextTokenImp env =
      if (Lexer.lineLoop (line :: more) lx).2 then
        (Lexer.lineLoop (line :: more) lx).1.token TokenType.Tok_Eof 0 env.defaultVal
      else (Lexer.lineLoop (line :: more) lx).1.tokenAt env := by
    unfold Lexer.nextTokenImp
    rw [hin]
    simp only [hs]
  rw [e1, hl]
  rfl

/-- The lexer that stands behind its line at the end of the stream makes the token of the
end. -/
theorem Lexer.nextTokenImp_end (env : LexEnv) (lx : Lexer) (hin : lx.d_in = some [])
    (h : lx.d_line.length ≤ lx.d_colNr) :
    lx.nextTokenImp env = lx.token TokenType.Tok_Eof 0 env.defaultVal := by
  have hd : lx.d_line.drop lx.d_colNr = [] := List.drop_eq_nil_of_le h
  have hs : lx.skipWhiteSpace = lx := by
    simp [Lexer.skipWhiteSpace, hd]
  unfold Lexer.nextTokenImp
  rw [hin]
  simp [hs, Lexer.lineLoop, h]

/-- The ways through `Lexer::nextTokenImp`: the token of the end of the stream, or the
token at a byte of the line. -/
theorem Lexer.nextTokenImp_cases (env : LexEnv) (lx : Lexer) :
    (∃ (lx0 : Lexer) (len : Nat),
      lx.nextTokenImp env = lx0.token TokenType.Tok_Eof len env.defaultVal)
    ∨ (∃ lx0 : Lexer, lx.nextTokenImp env = lx0.tokenAt env
        ∧ lx0.d_colNr < lx0.d_line.length ∧ lx0.d_symbols = lx.d_symbols) := by
  unfold Lexer.nextTokenImp
  cases hin : lx.d_in with
  | none => exact Or.inl ⟨lx, _, rfl⟩
  | some lines =>
    have hs := Lexer.skipWhiteSpace_fields lx
    have hl := Lexer.lineLoop_fields lines lx.skipWhiteSpace (hs.2.2.1.trans hin)
    simp only
    cases hr : (Lexer.lineLoop lines lx.skipWhiteSpace).2 with
    | true => exact Or.inl ⟨_, _, rfl⟩
    | false =>
      exact Or.inr ⟨_, rfl, hl.1 hr, hl.2.2.2.2.2.2.trans hs.2.2.2.2.2.2.1⟩

/-- The type of the token that `Lexer::string` makes. -/
theorem Lexer.string_type (lx : Lexer) :
    lx.string.2.d_type = TokenType.Tok_string ∨ lx.string.2.d_type = TokenType.Tok_Invalid := by
  unfold Lexer.string
  simp only
  split
  · exact Or.inl rfl
  · exact Or.inr rfl

/-- The two ways through `Lexer::ident`: the token of the type that `tokenTypeFromString`
finds when it passes the whole run, and else the identifier. -/
theorem Lexer.ident_eq (env : LexEnv) (lx : Lexer) :
    lx.ident env =
      if (env.tokenTypeFromString
            (mid lx.d_line lx.d_colNr (identScan (lx.d_line.drop (lx.d_colNr + 1)) 1)) 0).1
            ≠ TokenType.Tok_Invalid
          ∧ (env.tokenTypeFromString
            (mid lx.d_line lx.d_colNr (identScan (lx.d_line.drop (lx.d_colNr + 1)) 1)) 0).2
            = (mid lx.d_line lx.d_colNr (identScan (lx.d_line.drop (lx.d_colNr + 1)) 1)).length
      then
        lx.token (env.tokenTypeFromString
            (mid lx.d_line lx.d_colNr (identScan (lx.d_line.drop (lx.d_colNr + 1)) 1)) 0).1
          (identScan (lx.d_line.drop (lx.d_colNr + 1)) 1) env.defaultVal
      else
        lx.token TokenType.Tok_identifier (identScan (lx.d_line.drop (lx.d_colNr + 1)) 1)
          (mid lx.d_line lx.d_colNr (identScan (lx.d_line.drop (lx.d_colNr + 1)) 1)) := by
  unfold Lexer.ident
  simp only
  by_cases h1 : (env.tokenTypeFromString
      (mid lx.d_line lx.d_colNr (identScan (lx.d_line.drop (lx.d_colNr + 1)) 1)) 0).1
      = TokenType.Tok_Invalid
  · simp [h1]
  · by_cases h2 : (env.tokenTypeFromString
        (mid lx.d_line lx.d_colNr (identScan (lx.d_line.drop (lx.d_colNr + 1)) 1)) 0).2
        = (mid lx.d_line lx.d_colNr (identScan (lx.d_line.drop (lx.d_colNr + 1)) 1)).length
    · simp [h1, h2]
    · simp [h1, h2]

/-- The type of the token that `Lexer::ident` makes. -/
theorem Lexer.ident_type (env : LexEnv) (lx : Lexer) :
    (lx.ident env).2.d_type = TokenType.Tok_identifier
    ∨ ∃ s p, (lx.ident env).2.d_type = (env.tokenTypeFromString s p).1 := by
  rw [Lexer.ident_eq]
  split
  · exact Or.inr ⟨_, _, rfl⟩
  · exact Or.inl rfl

/-- The ways through the body of the loop of `Lexer::nextTokenImp`. -/
theorem Lexer.tokenAt_cases (env : LexEnv) (lx : Lexer) :
    (lx.d_line.getD lx.d_colNr (Char.ofNat 0) = '"' ∧ lx.tokenAt env = lx.string)
    ∨ ((isalpha (lx.d_line.getD lx.d_colNr (Char.ofNat 0)) = true
          ∨ lx.d_line.getD lx.d_colNr (Char.ofNat 0) = '_')
        ∧ lx.tokenAt env = lx.ident env)
    ∨ (lx.tokenAt env).2.d_type = TokenType.Tok_integer
    ∨ (lx.tokenAt env).2.d_type = TokenType.Tok_Comment
    ∨ (lx.tokenAt env).2.d_type = TokenType.Tok_Invalid
    ∨ ∃ s p, (lx.tokenAt env).2.d_type = (env.tokenTypeFromString s p).1 := by
  unfold Lexer.tokenAt
  simp only
  split
  · rename_i h
    exact Or.inl ⟨h, rfl⟩
  · split
    · rename_i h
      exact Or.inr (Or.inl ⟨h, rfl⟩)
    · split
      · exact Or.inr (Or.inr (Or.inl rfl))
      · split
        · exact Or.inr (Or.inr (Or.inr (Or.inl rfl)))
        · split
          · exact Or.inr (Or.inr (Or.inr (Or.inr (Or.inl rfl))))
          · exact Or.inr (Or.inr (Or.inr (Or.inr (Or.inr ⟨_, _, rfl⟩))))

theorem drop_eq_getD_cons (l : List Char) (n : Nat) (h : n < l.length) :
    l.drop n = l.getD n (Char.ofNat 0) :: l.drop (n + 1) := by
  rw [List.drop_eq_getElem_cons h]
  simp [List.getD, List.getElem?_eq_getElem h]

/-- White space is no letter, digit, underscore, quote or hash. -/
theorem isspace_other (c : Char) (h : isspace c = true) :
    isalpha c = false ∧ isdigit c = false ∧ c ≠ '_' ∧ c ≠ '"' ∧ c ≠ '#' := by
  simp only [isspace, Bool.decide_or, Bool.or_eq_true, decide_eq_true_eq] at h
  rcases h with h | h | h | h | h | h <;> subst h <;> decide

/-- The lexer at a quote makes the token of `Lexer::string`. -/
theorem Lexer.nextTokenImp_quote (env : LexEnv) (lx : Lexer) (lines : List QByteArray)
    (rest : List Char) (hin : lx.d_in = some lines)
    (h : lx.d_line.drop lx.d_colNr = '"' :: rest) : lx.nextTokenImp env = lx.string := by
  rw [Lexer.nextTokenImp_at env lx lines '"' rest hin h (by decide)]
  have hc := (drop_cons_facts _ _ _ _ h).2.2.1
  have hc2 : lx.d_line.getD lx.d_colNr (Char.ofNat 0) = '"' := by
    have h4 := (drop_cons_facts _ _ _ _ h).2.2.2
    simp [List.getD, h4]
  unfold Lexer.tokenAt
  simp only [hc2, if_true]

/-- The string token of `Lexer::string`: its bytes are the bytes of the line from the
opening quote on, as many as its length, and the last of them is a quote. -/
theorem Lexer.string_value (lx : Lexer) (rest : List Char)
    (hline : lx.d_line.drop lx.d_colNr = '"' :: rest)
    (hty : lx.string.2.d_type = TokenType.Tok_string) :
    lx.string.2.d_val = (lx.d_line.drop lx.d_colNr).take lx.string.2.d_len
    ∧ lx.string.2.d_val.length = lx.string.2.d_len
    ∧ 2 ≤ lx.string.2.d_len
    ∧ lx.d_line[lx.d_colNr + (lx.string.2.d_len - 1)]? = some '"'
    ∧ lx.d_line[lx.d_colNr]? = some '"'
    ∧ lx.string.2.d_colNr = lx.d_colNr + 1
    ∧ lx.string.2.d_lineNr = lx.d_lineNr
    ∧ lx.string.1.d_colNr = lx.d_colNr + lx.string.2.d_len
    ∧ lx.string.1.d_line = lx.d_line := by
  obtain ⟨hd, hlen, _, hq⟩ := drop_cons_facts _ _ _ _ hline
  cases hr : stringScan (lx.d_line.drop (lx.d_colNr + 1)) 1 false with
  | mk b off =>
    have hs : lx.string = if b then lx.token TokenType.Tok_string off (mid lx.d_line lx.d_colNr off)
        else lx.token TokenType.Tok_Invalid off "non-terminated string".toList := by
      unfold Lexer.string
      simp only [hr]
    cases b with
    | false =>
      rw [hs] at hty
      exact absurd hty (by simp [Lexer.token])
    | true =>
      rw [hd] at hr
      obtain ⟨n, hn, hoff, hget⟩ := stringScan_closed _ _ _ _ hr
      have hs2 : lx.string = lx.token TokenType.Tok_string off (mid lx.d_line lx.d_colNr off) := by
        rw [hs]; rfl
      have hv := (Lexer.token_val lx TokenType.Tok_string off (mid lx.d_line lx.d_colNr off)
        (by decide)).1
      have hf := Lexer.token_fields lx TokenType.Tok_string off (mid lx.d_line lx.d_colNr off)
      rw [hs2, hv, hf.2.2.2.1, hf.2.2.1, hf.2.1, hf.2.2.2.2.2.1, hf.2.2.2.2.2.2.1,
        mid_nat _ _ _ (by omega)]
      refine ⟨rfl, ?_, by omega, ?_, hq, rfl, rfl, rfl, rfl⟩
      · rw [List.length_take, List.length_drop]
        omega
      · have h1 : lx.d_line[lx.d_colNr + (off - 1)]? = (lx.d_line.drop lx.d_colNr)[off - 1]? := by
          rw [List.getElem?_drop]
        rw [h1, hline]
        have h2 : off - 1 = n + 1 := by omega
        rw [h2]
        simpa using hget

/-- C24 (what holds of the code): for a body of pieces without a byte 0, the lexer at the
opening quote of the literal `"` body `"` makes one string token that spans the literal
when the body does not end in the escape of the backslash; when it does, the closing quote
is taken for an escaped one, and a literal that ends the line gives the Invalid token
`non-terminated string`. -/
theorem string_escaped_backslash (env : LexEnv) (lx : Lexer) (lines : List QByteArray)
    (items : List StrItem) (after : List Char)
    (hin : lx.d_in = some lines)
    (hok : ∀ it ∈ items, it.ok = true)
    (hline : lx.d_line.drop lx.d_colNr = '"' :: (bodyBytes items ++ '"' :: after)) :
    (items.getLast? ≠ some (StrItem.esc '\\') →
      lx.nextTokenImp env = lx.token TokenType.Tok_string ((bodyBytes items).length + 2)
        ('"' :: (bodyBytes items ++ ['"'])))
    ∧ (items.getLast? = some (StrItem.esc '\\') → after = [] →
      lx.nextTokenImp env = lx.token TokenType.Tok_Invalid ((bodyBytes items).length + 3)
        "non-terminated string".toList) := by
  obtain ⟨hd, hlen, _, _⟩ := drop_cons_facts _ _ _ _ hline
  rw [Lexer.nextTokenImp_quote env lx lines _ hin hline]
  have hsc := stringScan_items items hok ('"' :: after) 1 false
  rw [escapedAfter_eq] at hsc
  have hq0 : ¬ ('"' = Char.ofNat 0) := by decide
  have hq1 : ¬ ('"' = '\\') := by decide
  constructor
  · intro hlast
    have hfl : (items.getLast?.map (fun it => decide (it = StrItem.esc '\\'))).getD false
        = false := by
      cases hg : items.getLast? with
      | none => rfl
      | some x =>
        have : x ≠ StrItem.esc '\\' := fun e => hlast (by rw [hg, e])
        simp [this]
    rw [hfl, stringScan_cons] at hsc
    simp only [hq0, hq1, if_false, Bool.not_false, and_self, if_true] at hsc
    unfold Lexer.string
    rw [hd, hsc]
    simp only [if_true]
    have e1 : 1 + (bodyBytes items).length + 1 = (bodyBytes items).length + 2 := by omega
    rw [e1, mid_nat _ _ _ (by omega), hline]
    congr 1
    have : (bodyBytes items).length + 2 = (bodyBytes items ++ ['"']).length + 1 := by
      simp
    rw [this, List.take_succ_cons]
    have e2 : bodyBytes items ++ '"' :: after = (bodyBytes items ++ ['"']) ++ after := by simp
    rw [e2, List.take_left]
  · intro hlast hafter
    subst hafter
    have hfl : (items.getLast?.map (fun it => decide (it = StrItem.esc '\\'))).getD false
        = true := by
      rw [hlast]; rfl
    rw [hfl, stringScan_cons] at hsc
    simp only [hq0, hq1, if_false, Bool.not_true, Bool.false_eq_true, and_false,
      stringScan] at hsc
    unfold Lexer.string
    rw [hd, hsc]
    simp only [Bool.false_eq_true, if_false]
    have e1 : 1 + (bodyBytes items).length + 1 + 1 = (bodyBytes items).length + 3 := by omega
    rw [e1]

theorem string_escaped_backslash_witness :
    ((sampleLexer ["\"\\\\\"\n"] true).nextLine "\"\\\\\"\n".toList []).nextTokenImp sampleLexEnv
      = ((sampleLexer ["\"\\\\\"\n"] true).nextLine "\"\\\\\"\n".toList []).token
          TokenType.Tok_Invalid 5 "non-terminated string".toList
    ∧ ((sampleLexer ["\"\\\\\"\n"] true).nextToken sampleLexEnv 1).map
        (fun r => (r.2.d_type, r.2.d_lineNr, r.2.d_colNr, r.2.d_len, r.2.d_val))
      = some (TokenType.Tok_Invalid, 1, 1, 5, "non-terminated string".toList)
    ∧ ((sampleLexer ["x = \"a\\\\\"\n"] true).nextToken sampleLexEnv 1).bind
        (fun r => (r.1.nextToken sampleLexEnv 1).bind
          (fun r => (r.1.nextToken sampleLexEnv 1).map
            (fun r => (r.2.d_type, r.2.d_lineNr, r.2.d_colNr, r.2.d_len, r.2.d_val))))
      = some (TokenType.Tok_Invalid, 1, 5, 6, "non-terminated string".toList)
    ∧ ((sampleLexer ["\"a\\\\b\"\n"] true).nextToken sampleLexEnv 1).map
        (fun r => (r.2.d_type, r.2.d_lineNr, r.2.d_colNr, r.2.d_len, r.2.d_val))
      = some (TokenType.Tok_string, 1, 1, 6, "\"a\\\\b\"".toList) :=
  ⟨(string_escaped_backslash sampleLexEnv
      ((sampleLexer ["\"\\\\\"\n"] true).nextLine "\"\\\\\"\n".toList []) []
      [StrItem.esc '\\'] [] rfl (by decide) rfl).2 rfl rfl,
    by decide, by decide, by decide⟩

/-- A token of the type of strings that the lexer makes at a byte of the line is made by
`Lexer::string` at a quote, when `tokenTypeFromString` gives no such type. -/
theorem Lexer.tokenAt_string (env : LexEnv) (lx : Lexer)
    (hstr : ∀ s p, (env.tokenTypeFromString s p).1 ≠ TokenType.Tok_string)
    (hty : (lx.tokenAt env).2.d_type = TokenType.Tok_string) :
    lx.d_line.getD lx.d_colNr (Char.ofNat 0) = '"' ∧ lx.tokenAt env = lx.string := by
  rcases Lexer.tokenAt_cases env lx with h | h | h | h | h | ⟨s, p, h⟩
  · exact h
  · rw [h.2] at hty
    rcases Lexer.ident_type env lx with h2 | ⟨s, p, h2⟩
    · rw [h2] at hty; cases hty
    · rw [h2] at hty; exact absurd hty (hstr s p)
  · rw [h] at hty; cases hty
  · rw [h] at hty; cases hty
  · rw [h] at hty; cases hty
  · rw [h] at hty; exact absurd hty (hstr s p)

/-- C25: every string token that the lexer makes, `tokenTypeFromString` giving no token of
this type, has as its value the bytes of the line from the column of the token on, as many
as the length of the token says: the first of them is the opening quote, so that the column
is the 1-based one of this quote, the last of them is the closing quote, and the lexer
stands behind it; the bytes between are those of the line, with the escapes as written. -/
theorem string_token_value (env : LexEnv) (lx : Lexer)
    (hstr : ∀ s p, (env.tokenTypeFromString s p).1 ≠ TokenType.Tok_string)
    (hty : (lx.nextTokenImp env).2.d_type = TokenType.Tok_string) :
    (lx.nextTokenImp env).2.d_val
        = ((lx.nextTokenImp env).1.d_line.drop ((lx.nextTokenImp env).2.d_colNr - 1)).take
            (lx.nextTokenImp env).2.d_len
    ∧ (lx.nextTokenImp env).2.d_val.length = (lx.nextTokenImp env).2.d_len
    ∧ 1 ≤ (lx.nextTokenImp env).2.d_colNr
    ∧ 2 ≤ (lx.nextTokenImp env).2.d_len
    ∧ (lx.nextTokenImp env).1.d_line[(lx.nextTokenImp env).2.d_colNr - 1]? = some '"'
    ∧ (lx.nextTokenImp env).1.d_line[(lx.nextTokenImp env).2.d_colNr - 1
          + ((lx.nextTokenImp env).2.d_len - 1)]? = some '"'
    ∧ (lx.nextTokenImp env).2.d_val.head? = some '"'
    ∧ (lx.nextTokenImp env).2.d_val.getLast? = some '"'
    ∧ (lx.nextTokenImp env).1.d_colNr
        = (lx.nextTokenImp env).2.d_colNr - 1 + (lx.nextTokenImp env).2.d_len := by
  rcases Lexer.nextTokenImp_cases env lx with ⟨lx0, len, h⟩ | ⟨lx0, h, hlt, _⟩
  · rw [h] at hty
    cases hty
  · rw [h] at hty ⊢
    obtain ⟨hq, hs⟩ := Lexer.tokenAt_string env lx0 hstr hty
    rw [hs] at hty ⊢
    have hline : lx0.d_line.drop lx0.d_colNr = '"' :: lx0.d_line.drop (lx0.d_colNr + 1) := by
      rw [drop_eq_getD_cons _ _ hlt, hq]
    obtain ⟨h1, h2, h3, h4, h5, h6, h7, h8, h9⟩ := Lexer.string_value lx0 _ hline hty
    rw [h6, h9, h8]
    simp only [Nat.add_sub_cancel]
    refine ⟨h1, h2, Nat.le_add_left _ _, h3, h5, h4, ?_, ?_, trivial⟩
    · rw [h1, hline]
      have : lx0.string.2.d_len = (lx0.string.2.d_len - 1) + 1 := by omega
      rw [this, List.take_succ_cons]
      rfl
    · have hne : lx0.string.2.d_val ≠ [] := by
        intro e
        rw [e] at h2
        simp only [List.length_nil] at h2
        omega
      rw [List.getLast?_eq_getElem?, h2]
      have h10 : lx0.string.2.d_val[lx0.string.2.d_len - 1]?
          = (List.drop lx0.d_colNr lx0.d_line)[lx0.string.2.d_len - 1]? := by
        rw [h1, List.getElem?_take]
        simp only [ite_eq_left_iff, not_lt]
        intro hh
        omega
      rw [h10, List.getElem?_drop]
      exact h4

theorem ite_type_mem (c : Prop) [Decidable c] (a b : TokenType × Nat) (L : List TokenType)
    (ha : a.1 ∈ L) (hb : b.1 ∈ L) : (if c then a else b).1 ∈ L := by
  split <;> assumption

theorem sampleTokenType_types (s : QByteArray) (p : Nat) :
    (sampleTokenType s p).1 ∈ [TokenType.Tok_other 0, TokenType.Tok_other 1,
      TokenType.Tok_other 2, TokenType.Tok_other 3, TokenType.Tok_other 4, TokenType.Tok_Hash,
      TokenType.Tok_Lpar, TokenType.Tok_Rpar, TokenType.Tok_Lbrack, TokenType.Tok_Rbrack,
      TokenType.Tok_Lbrace, TokenType.Tok_Rbrace, TokenType.Tok_Dot, TokenType.Tok_Invalid] := by
  unfold sampleTokenType
  dsimp only
  repeat (refine ite_type_mem _ _ _ _ (by decide) ?_)
  decide

theorem sampleTokenType_no_string (s : QByteArray) (p : Nat) :
    (sampleTokenType s p).1 ≠ TokenType.Tok_string
    ∧ (sampleTokenType s p).1 ≠ TokenType.Tok_identifier
    ∧ (sampleTokenType s p).1 ≠ TokenType.Tok_Comment := by
  have h := sampleTokenType_types s p
  refine ⟨?_, ?_, ?_⟩ <;>
  · intro e
    rw [e] at h
    revert h
    decide

theorem string_token_value_witness :
    ((sampleLexer ["x = \"a\\\"b$\x7bc\x7d\" y\n"] true).nextLine
        "x = \"a\\\"b$\x7bc\x7d\" y\n".toList []).d_line = "x = \"a\\\"b$\x7bc\x7d\" y".toList
    ∧ ((({ (sampleLexer ["x = \"a\\\"b$\x7bc\x7d\" y\n"] true).nextLine
          "x = \"a\\\"b$\x7bc\x7d\" y\n".toList [] with d_colNr := 3 } : Lexer).nextTokenImp
          sampleLexEnv).2.d_type = TokenType.Tok_string
      ∧ (({ (sampleLexer ["x = \"a\\\"b$\x7bc\x7d\" y\n"] true).nextLine
          "x = \"a\\\"b$\x7bc\x7d\" y\n".toList [] with d_colNr := 3 } : Lexer).nextTokenImp
          sampleLexEnv).2.d_val = "\"a\\\"b$\x7bc\x7d\"".toList
      ∧ (({ (sampleLexer ["x = \"a\\\"b$\x7bc\x7d\" y\n"] true).nextLine
          "x = \"a\\\"b$\x7bc\x7d\" y\n".toList [] with d_colNr := 3 } : Lexer).nextTokenImp
          sampleLexEnv).2.d_colNr = 5
      ∧ (({ (sampleLexer ["x = \"a\\\"b$\x7bc\x7d\" y\n"] true).nextLine
          "x = \"a\\\"b$\x7bc\x7d\" y\n".toList [] with d_colNr := 3 } : Lexer).nextTokenImp
          sampleLexEnv).2.d_len = 10)
    ∧ (({ (sampleLexer ["x = \"a\\\"b$\x7bc\x7d\" y\n"] true).nextLine
          "x = \"a\\\"b$\x7bc\x7d\" y\n".toList [] with d_colNr := 3 } : Lexer).nextTokenImp
          sampleLexEnv).2.d_val.length = 10 :=
  ⟨by decide, ⟨by decide, by decide, by decide, by decide⟩,
    (string_token_value sampleLexEnv
      { (sampleLexer ["x = \"a\\\"b$\x7bc\x7d\" y\n"] true).nextLine
          "x = \"a\\\"b$\x7bc\x7d\" y\n".toList [] with d_colNr := 3 }
      (fun s p => (sampleTokenType_no_string s p).1) (by decide)).2.1.trans (by decide)⟩

/-- The lexer before white space and a byte that is none makes the token at this byte. -/
theorem Lexer.nextTokenImp_over (env : LexEnv) (lx : Lexer) (lines : List QByteArray)
    (ws : List Char) (c : Char) (rest : List Char) (hin : lx.d_in = some lines)
    (h : lx.d_line.drop lx.d_colNr = ws ++ c :: rest) (hws : ∀ x ∈ ws, isspace x = true)
    (hc : isspace c = false) :
    lx.nextTokenImp env = Lexer.tokenAt env { lx with d_colNr := lx.d_colNr + ws.length } := by
  obtain ⟨hs, hd⟩ := Lexer.skipWhiteSpace_over lx ws c rest h hws hc
  have hlt : lx.d_colNr + ws.length < lx.d_line.length := by
    have := congrArg List.length hd
    rw [List.length_drop] at this
    simp only [List.length_cons] at this
    omega
  unfold Lexer.nextTokenImp
  rw [hin]
  simp only [hs]
  rw [Lexer.lineLoop_at lines _ hlt]
  simp only [Bool.false_eq_true, if_false, hin]

/-- A call of `Lexer::nextToken` with an empty buffer returns the token that
`Lexer::nextTokenImp` makes, when this is no comment. -/
theorem Lexer.nextToken_made (env : LexEnv) (lx : Lexer) (fuel : Nat) (hbuf : lx.d_buffer = [])
    (hty : (lx.nextTokenImp env).2.d_type ≠ TokenType.Tok_Comment) :
    lx.nextToken env (fuel + 1) = some (lx.nextTokenImp env) := by
  unfold Lexer.nextToken
  simp only [hbuf, hty, false_and, if_false]

/-- Two lexers with an empty buffer that make the same token return the same token. -/
theorem Lexer.nextToken_congr (env : LexEnv) (a b : Lexer) (f : Nat) (ha : a.d_buffer = [])
    (hb : b.d_buffer = []) (h : a.nextTokenImp env = b.nextTokenImp env) :
    a.nextToken env f = b.nextToken env f := by
  cases f with
  | zero => rfl
  | succ f =>
    unfold Lexer.nextToken
    simp only [ha, hb, h]

/-- The reports after `Lexer::nextTokenImp`: one more exactly when the token is an Invalid
one and there is a sink. -/
theorem Lexer.nextTokenImp_err (env : LexEnv) (lx : Lexer) :
    (lx.nextTokenImp env).1.d_err =
      if (lx.nextTokenImp env).2.d_type = TokenType.Tok_Invalid then
        lx.d_err.map (fun e => e ++
          [⟨Severity.error, ErrSource.Syntax, String.mk (lx.nextTokenImp env).2.d_val⟩])
      else lx.d_err := by
  obtain ⟨lx0, tt, len, val, h, he, _⟩ := Lexer.nextTokenImp_token env lx
  rw [h, Lexer.token_err, he]

/-- The reports after `Lexer::nextToken` with an empty buffer: one more exactly when the
returned token is an Invalid one and there is a sink. -/
theorem Lexer.nextToken_err (env : LexEnv) : ∀ (fuel : Nat) (lx lx1 : Lexer) (t : Token),
    lx.d_buffer = [] → lx.nextToken env fuel = some (lx1, t) →
    lx1.d_err =
      if t.d_type = TokenType.Tok_Invalid then
        lx.d_err.map (fun e => e ++ [⟨Severity.error, ErrSource.Syntax, String.mk t.d_val⟩])
      else lx.d_err := by
  intro fuel
  induction fuel with
  | zero => intro lx lx1 t _ h; simp [Lexer.nextToken] at h
  | succ f ih =>
    intro lx lx1 t hbuf h
    unfold Lexer.nextToken at h
    simp only [hbuf] at h
    have herr := Lexer.nextTokenImp_err env lx
    split at h
    · rename_i hc
      have hb : (lx.nextTokenImp env).1.d_buffer = [] := by
        obtain ⟨lx0, tt, len, val, e, _, hb0, _⟩ := Lexer.nextTokenImp_token env lx
        rw [e, (Lexer.token_fields lx0 tt len val).2.2.2.2.2.2.2.2.2.1, hb0, hbuf]
      have h2 := ih _ _ _ hb h
      rw [h2, herr, hc.1]
      simp
    · have e := Option.some.inj h
      have e1 : lx1 = (lx.nextTokenImp env).1 := (congrArg Prod.fst e).symm
      have e2 : t = (lx.nextTokenImp env).2 := (congrArg Prod.snd e).symm
      rw [e1, e2]
      exact herr

/-- C26 (amended): when the lexer, with an empty buffer, stands before white space and an
opening quote that no quote outside the escapes follows on the line, `nextToken` returns
the Invalid token `non-terminated string` at the line and the 1-based column of the opening
quote, the sink, when there is one, gets one report more, and the lexer keeps its line;
when the rest of the line has no byte 0, the token goes to the end of the line, the lexer
stands behind the line, and the next call gives what the lexer gives that has read the
following line, or the token of the end of the stream when no line follows. For every call
the sink gets one report more exactly when the token is an Invalid one. -/
theorem unterminated_string (env : LexEnv) (lx : Lexer) (lines : List QByteArray)
    (ws rest : List Char) (fuel : Nat)
    (hin : lx.d_in = some lines) (hbuf : lx.d_buffer = [])
    (hline : lx.d_line.drop lx.d_colNr = ws ++ '"' :: rest)
    (hws : ∀ c ∈ ws, isspace c = true)
    (hopen : closingQuote false rest = false) :
    (∃ (lx1 : Lexer) (t : Token), lx.nextToken env (fuel + 1) = some (lx1, t)
      ∧ t.d_type = TokenType.Tok_Invalid
      ∧ t.d_lineNr = lx.d_lineNr
      ∧ t.d_colNr = lx.d_colNr + ws.length + 1
      ∧ t.d_val = "non-terminated string".toList
      ∧ lx1.d_err = lx.d_err.map (fun e => e ++
          [⟨Severity.error, ErrSource.Syntax, "non-terminated string"⟩])
      ∧ lx1.d_lineNr = lx.d_lineNr ∧ lx1.d_line = lx.d_line ∧ lx1.d_in = some lines
      ∧ lx1.d_buffer = []
      ∧ ((∀ c ∈ rest, c ≠ Char.ofNat 0) →
          t.d_len = rest.length + 2
          ∧ lx1.d_colNr = lx.d_line.length + 1
          ∧ (∀ (line : QByteArray) (more : List QByteArray) (f : Nat), lines = line :: more →
              lx1.nextToken env f = (lx1.nextLine line more).nextToken env f)
          ∧ (lines = [] → ∀ f : Nat, ∃ (lx2 : Lexer) (t2 : Token),
              lx1.nextToken env (f + 1) = some (lx2, t2)
              ∧ t2.d_type = TokenType.Tok_Eof ∧ lx2.d_err = lx1.d_err)))
    ∧ (∀ lx0 : Lexer, (lx0.nextTokenImp env).1.d_err =
        if (lx0.nextTokenImp env).2.d_type = TokenType.Tok_Invalid then
          lx0.d_err.map (fun e => e ++
            [⟨Severity.error, ErrSource.Syntax, String.mk (lx0.nextTokenImp env).2.d_val⟩])
        else lx0.d_err)
    ∧ (∀ (f : Nat) (lx0 lx1 : Lexer) (t : Token), lx0.d_buffer = [] →
        lx0.nextToken env f = some (lx1, t) →
        lx1.d_err =
          if t.d_type = TokenType.Tok_Invalid then
            lx0.d_err.map (fun e => e ++ [⟨Severity.error, ErrSource.Syntax, String.mk t.d_val⟩])
          else lx0.d_err) := by
  refine ⟨?_, Lexer.nextTokenImp_err env, Lexer.nextToken_err env⟩
  have hover := Lexer.nextTokenImp_over env lx lines ws '"' rest hin hline hws (by decide)
  obtain ⟨_, hd⟩ := Lexer.skipWhiteSpace_over lx ws '"' rest hline hws (by decide)
  obtain ⟨hd1, hlen, _, hget⟩ := drop_cons_facts _ _ _ _ hd
  have hsc := stringScan_unclosed rest false 1 false hopen (fun h => by cases h)
  have hq : Lexer.tokenAt env { lx with d_colNr := lx.d_colNr + ws.length }
      = Lexer.token { lx with d_colNr := lx.d_colNr + ws.length } TokenType.Tok_Invalid
          (stringScan rest 1 false).2 "non-terminated string".toList := by
    have hc2 : lx.d_line.getD (lx.d_colNr + ws.length) (Char.ofNat 0) = '"' := by
      simp [List.getD, hget]
    unfold Lexer.tokenAt
    simp only [hc2, if_true]
    unfold Lexer.string
    simp only [hd1, hsc.1, Bool.false_eq_true, if_false]
  rw [hq] at hover
  have hty : (lx.nextTokenImp env).2.d_type ≠ TokenType.Tok_Comment := by
    rw [hover]; simp [Lexer.token]
  have hnt := Lexer.nextToken_made env lx fuel hbuf hty
  rw [hover] at hnt
  refine ⟨(Lexer.token { lx with d_colNr := lx.d_colNr + ws.length } TokenType.Tok_Invalid
      (stringScan rest 1 false).2 "non-terminated string".toList).1,
    (Lexer.token { lx with d_colNr := lx.d_colNr + ws.length } TokenType.Tok_Invalid
      (stringScan rest 1 false).2 "non-terminated string".toList).2,
    hnt, rfl, rfl, rfl, rfl, rfl, rfl, rfl, hin, hbuf, ?_⟩
  intro hnul
  have hoff := hsc.2 hnul
  have hcol : (Lexer.token { lx with d_colNr := lx.d_colNr + ws.length } TokenType.Tok_Invalid
      (stringScan rest 1 false).2 "non-terminated string".toList).1.d_colNr
      = lx.d_line.length + 1 := by
    show lx.d_colNr + ws.length + (stringScan rest 1 false).2 = lx.d_line.length + 1
    rw [hoff]
    omega
  have hlen1 : (Lexer.token { lx with d_colNr := lx.d_colNr + ws.length } TokenType.Tok_Invalid
      (stringScan rest 1 false).2 "non-terminated string".toList).2.d_len
      = rest.length + 2 := by
    show (stringScan rest 1 false).2 = _
    rw [hoff]
    omega
  have hin1 : (Lexer.token { lx with d_colNr := lx.d_colNr + ws.length } TokenType.Tok_Invalid
      (stringScan rest 1 false).2 "non-terminated string".toList).1.d_in = some lines := hin
  have hbuf1 : (Lexer.token { lx with d_colNr := lx.d_colNr + ws.length } TokenType.Tok_Invalid
      (stringScan rest 1 false).2 "non-terminated string".toList).1.d_buffer = [] := hbuf
  have hline1 : (Lexer.token { lx with d_colNr := lx.d_colNr + ws.length } TokenType.Tok_Invalid
      (stringScan rest 1 false).2 "non-terminated string".toList).1.d_line = lx.d_line := rfl
  generalize Lexer.token { lx with d_colNr := lx.d_colNr + ws.length } TokenType.Tok_Invalid
      (stringScan rest 1 false).2 "non-terminated string".toList = tk at hcol hlen1 hin1 hbuf1 hline1 ⊢
  have hle : tk.1.d_line.length ≤ tk.1.d_colNr := by
    rw [hcol, hline1]; exact Nat.le_succ _
  refine ⟨hlen1, hcol, ?_, ?_⟩
  · intro line more f hl
    exact Lexer.nextToken_congr env _ _ f hbuf1 hbuf1
      (Lexer.nextTokenImp_behind env tk.1 line more (by rw [← hl]; exact hin1) hle)
  · intro hl f
    have he := Lexer.nextTokenImp_end env tk.1 (by rw [← hl]; exact hin1) hle
    have hty2 : (tk.1.nextTokenImp env).2.d_type ≠ TokenType.Tok_Comment := by
      rw [he]; simp [Lexer.token]
    have h1 : (tk.1.nextTokenImp env).2.d_type = TokenType.Tok_Eof := by rw [he]; rfl
    have h2 : (tk.1.nextTokenImp env).1.d_err = tk.1.d_err := by rw [he]; rfl
    exact ⟨_, _, Lexer.nextToken_made env _ f hbuf1 hty2, h1, h2⟩

/-- C26 (counterexample): the line `"a`, byte 0, `b` has an opening quote that no
closing quote follows; the Invalid token ends behind the byte 0, and the next call returns
the identifier `b` of the same line 1, not a token of the following line. -/
theorem unterminated_string_nul :
    closingQuote false "a\x00b".toList = false
    ∧ ((sampleLexer ["\"a\x00b\n", "c\n"] true).nextToken sampleLexEnv 1).map
        (fun r => (r.2.d_type, r.2.d_lineNr, r.2.d_colNr, r.2.d_len, r.1.d_colNr))
      = some (TokenType.Tok_Invalid, 1, 1, 3, 3)
    ∧ ((sampleLexer ["\"a\x00b\n", "c\n"] true).nextToken sampleLexEnv 1).bind
        (fun r => (r.1.nextToken sampleLexEnv 1).map
          (fun q => (q.2.d_type, q.2.d_lineNr, q.2.d_colNr, q.2.d_val)))
      = some (TokenType.Tok_identifier, 1, 4, "b".toList) := by
  decide

theorem unterminated_string_witness :
    (sampleLexerAt "x = \"abc\n" 3 ["y\n"]).d_line.drop 3 = " \"abc".toList
    ∧ closingQuote false "abc".toList = false
    ∧ (∃ (lx1 : Lexer) (t : Token),
        (sampleLexerAt "x = \"abc\n" 3 ["y\n"]).nextToken sampleLexEnv 1 = some (lx1, t)
        ∧ t.d_type = TokenType.Tok_Invalid ∧ t.d_lineNr = 1 ∧ t.d_colNr = 5
        ∧ lx1.d_err = some [⟨Severity.error, ErrSource.Syntax, "non-terminated string"⟩]
        ∧ lx1.d_colNr = 9
        ∧ (lx1.nextToken sampleLexEnv 1).map (fun r => (r.2.d_type, r.2.d_lineNr, r.2.d_val))
            = some (TokenType.Tok_identifier, 2, "y".toList)) := by
  refine ⟨by decide, by decide, ?_⟩
  obtain ⟨⟨lx1, t, h1, h2, h3, h4, _, h6, _, _, _, _, h11⟩, _⟩ :=
    unterminated_string sampleLexEnv (sampleLexerAt "x = \"abc\n" 3 ["y\n"]) ["y\n".toList]
      " ".toList "abc".toList 0 rfl rfl (by decide) (by decide) (by decide)
  obtain ⟨_, h13, h14, _⟩ := h11 (by decide)
  refine ⟨lx1, t, h1, h2, h3, h4, h6, h13, ?_⟩
  rw [h14 "y\n".toList [] 1 rfl]
  have e : lx1 = ((sampleLexerAt "x = \"abc\n" 3 ["y\n"]).nextTokenImp sampleLexEnv).1 := by
    have h0 : (sampleLexerAt "x = \"abc\n" 3 ["y\n"]).nextToken sampleLexEnv 1
        = some ((sampleLexerAt "x = \"abc\n" 3 ["y\n"]).nextTokenImp sampleLexEnv) := by
      decide
    rw [h0] at h1
    exact (congrArg Prod.fst (Option.some.inj h1)).symm
  rw [e]
  decide

/-! ## Identifiers and keywords -/

theorem identScan_eq : ∀ (cs : List Char) (off : Nat),
    identScan cs off = off + (cs.takeWhile (fun d => isalnum d || d == '_')).length := by
  intro cs
  induction cs with
  | nil => intro off; rfl
  | cons c rest ih =>
    intro off
    by_cases hc : isalnum c = true
    · simp [identScan, List.takeWhile, hc, ih]
      omega
    · by_cases hu : c = '_'
      · simp [identScan, List.takeWhile, hu, ih]
        omega
      · have hb : (c == '_') = false := by simp [hu]
        simp [identScan, List.takeWhile, hc, hu, hb]

theorem take_takeWhile_length {α : Type} (p : α → Bool) : ∀ l : List α,
    l.take (l.takeWhile p).length = l.takeWhile p := by
  intro l
  induction l with
  | nil => rfl
  | cons a rest ih =>
    by_cases h : p a = true
    · simp [List.takeWhile, h, ih]
    · simp [List.takeWhile, h]

theorem takeWhile_each {α : Type} (p : α → Bool) : ∀ (l : List α) (d : α),
    d ∈ l.takeWhile p → p d = true := by
  intro l
  induction l with
  | nil => intro d h; simp at h
  | cons a rest ih =>
    intro d h
    by_cases hp : p a = true
    · simp only [List.takeWhile, hp, List.mem_cons] at h
      rcases h with h | h
      · rw [h]; exact hp
      · exact ih d h
    · simp [List.takeWhile, hp] at h

theorem drop_takeWhile_head {α : Type} (p : α → Bool) : ∀ (l : List α) (d : α),
    (l.drop (l.takeWhile p).length).head? = some d → p d = false := by
  intro l
  induction l with
  | nil => intro d h; simp at h
  | cons a rest ih =>
    intro d h
    by_cases hp : p a = true
    · simp only [List.takeWhile, hp, List.length_cons, List.drop_succ_cons] at h
      exact ih d h
    · simp only [List.takeWhile, hp, List.length_nil, List.drop_zero, List.head?_cons,
        Option.some.injEq] at h
      subst h
      simpa using hp

/-- A letter or `_` with a run of letters, digits and `_` behind is a valid identifier. -/
theorem isValidIdent_run (c : Char) (rest : List Char) (hc : isalpha c = true ∨ c = '_') :
    isValidIdent (c :: rest.takeWhile (fun d => isalnum d || d == '_')) = true := by
  have h1 : ¬ ((!isalpha c) = true ∧ c ≠ '_') := by
    rintro ⟨h1, h2⟩
    rcases hc with h | h
    · simp [h] at h1
    · exact h2 h
  simp only [isValidIdent, h1, if_false, List.all_eq_true]
  intro d hd
  have := takeWhile_each (fun d => isalnum d || d == '_') rest d hd
  simp only [Bool.or_eq_true, beq_iff_eq] at this
  rcases this with h | h
  · simp [h]
  · simp [h]

/-- The two ways through `Lexer::ident` at a letter or `_`, with the run that it passes. -/
theorem Lexer.ident_run (env : LexEnv) (lx : Lexer) (c : Char) (rest : List Char)
    (hline : lx.d_line.drop lx.d_colNr = c :: rest) :
    lx.ident env =
      if (env.tokenTypeFromString (c :: rest.takeWhile (fun d => isalnum d || d == '_')) 0).1
            ≠ TokenType.Tok_Invalid
          ∧ (env.tokenTypeFromString (c :: rest.takeWhile (fun d => isalnum d || d == '_')) 0).2
            = (c :: rest.takeWhile (fun d => isalnum d || d == '_')).length
      then
        lx.token (env.tokenTypeFromString
            (c :: rest.takeWhile (fun d => isalnum d || d == '_')) 0).1
          (c :: rest.takeWhile (fun d => isalnum d || d == '_')).length env.defaultVal
      else
        lx.token TokenType.Tok_identifier
          (c :: rest.takeWhile (fun d => isalnum d || d == '_')).length
          (c :: rest.takeWhile (fun d => isalnum d || d == '_')) := by
  obtain ⟨hd, hlen, _, _⟩ := drop_cons_facts _ _ _ _ hline
  have hoff : identScan (lx.d_line.drop (lx.d_colNr + 1)) 1
      = (c :: rest.takeWhile (fun d => isalnum d || d == '_')).length := by
    rw [hd, identScan_eq, List.length_cons]
    omega
  have hmid : mid lx.d_line lx.d_colNr
      (c :: rest.takeWhile (fun d => isalnum d || d == '_')).length
      = c :: rest.takeWhile (fun d => isalnum d || d == '_') := by
    rw [mid_nat _ _ _ (by omega), hline, List.length_cons, List.take_succ_cons,
      take_takeWhile_length]
  rw [Lexer.ident_eq, hoff, hmid]

/-- The lexer at a letter or `_` makes the token of `Lexer::ident`. -/
theorem Lexer.tokenAt_letter (env : LexEnv) (lx : Lexer)
    (hc : isalpha (lx.d_line.getD lx.d_colNr (Char.ofNat 0)) = true
      ∨ lx.d_line.getD lx.d_colNr (Char.ofNat 0) = '_') :
    lx.tokenAt env = lx.ident env := by
  have hq : lx.d_line.getD lx.d_colNr (Char.ofNat 0) ≠ '"' := by
    intro e
    rw [e] at hc
    revert hc
    decide
  unfold Lexer.tokenAt
  simp only [hq, if_false, hc, if_true]

/-- An identifier token that the lexer makes at a byte of the line has a valid identifier
as its value, when the pool is one between two calls and `tokenTypeFromString` gives no
token of the type of identifiers. -/
theorem Lexer.tokenAt_identifier (env : LexEnv) (lx : Lexer)
    (hkw : ∀ s p, (env.tokenTypeFromString s p).1 ≠ TokenType.Tok_identifier)
    (hp : PoolOk lx.d_symbols) (hlt : lx.d_colNr < lx.d_line.length)
    (hty : (lx.tokenAt env).2.d_type = TokenType.Tok_identifier) :
    isValidIdent (lx.tokenAt env).2.d_val = true := by
  rcases Lexer.tokenAt_cases env lx with h | h | h | h | h | ⟨s, p, h⟩
  · rw [h.2] at hty
    rcases Lexer.string_type lx with h2 | h2 <;> rw [h2] at hty <;> cases hty
  · have hline := drop_eq_getD_cons lx.d_line lx.d_colNr hlt
    rw [h.2] at hty ⊢
    rw [Lexer.ident_run env lx _ _ hline] at hty ⊢
    split at hty
    · exact absurd hty (hkw _ _)
    · rename_i hn
      rw [if_neg hn, (Lexer.token_identifier lx _ _).1,
        (getSymbol_stored hp ⟨lx.d_heap, _⟩ (by simp)).2]
      exact isValidIdent_run _ _ h.1
  · rw [h] at hty; cases hty
  · rw [h] at hty; cases hty
  · rw [h] at hty; cases hty
  · rw [h] at hty; exact absurd hty (hkw s p)

/-- C27: at a letter or `_` the lexer passes the run of the letters, digits and `_` up to
the first byte that is none of them; the token has the length of the run and the column of
its first byte. When `tokenTypeFromString` finds a token type in the run and passes the
whole run, the token has this type and the pool stays; in every other case, so when it
passes only a part of the run, the token is an identifier whose value is the run, which is
a valid identifier and is stored in the pool under its bytes. Every identifier token that
the lexer makes has a valid identifier as its value. -/
theorem ident_token_run (env : LexEnv) (lx : Lexer) (lines : List QByteArray) (c : Char)
    (rest : List Char)
    (hin : lx.d_in = some lines)
    (hline : lx.d_line.drop lx.d_colNr = c :: rest)
    (hc : isalpha c = true ∨ c = '_')
    (hp : PoolOk lx.d_symbols)
    (hkw : ∀ s p, (env.tokenTypeFromString s p).1 ≠ TokenType.Tok_identifier) :
    (∀ d, (rest.drop (rest.takeWhile (fun d => isalnum d || d == '_')).length).head? = some d →
        (isalnum d || d == '_') = false)
    ∧ (∀ d ∈ rest.takeWhile (fun d => isalnum d || d == '_'), (isalnum d || d == '_') = true)
    ∧ (lx.nextTokenImp env).2.d_len
        = (c :: rest.takeWhile (fun d => isalnum d || d == '_')).length
    ∧ (lx.nextTokenImp env).2.d_colNr = lx.d_colNr + 1
    ∧ (lx.nextTokenImp env).2.d_lineNr = lx.d_lineNr
    ∧ (lx.nextTokenImp env).1.d_colNr
        = lx.d_colNr + (c :: rest.takeWhile (fun d => isalnum d || d == '_')).length
    ∧ ((env.tokenTypeFromString (c :: rest.takeWhile (fun d => isalnum d || d == '_')) 0).1
          ≠ TokenType.Tok_Invalid
        ∧ (env.tokenTypeFromString (c :: rest.takeWhile (fun d => isalnum d || d == '_')) 0).2
          = (c :: rest.takeWhile (fun d => isalnum d || d == '_')).length →
        (lx.nextTokenImp env).2.d_type
          = (env.tokenTypeFromString (c :: rest.takeWhile (fun d => isalnum d || d == '_')) 0).1
        ∧ (lx.nextTokenImp env).2.d_type ≠ TokenType.Tok_identifier
        ∧ (lx.nextTokenImp env).1.d_symbols = lx.d_symbols)
    ∧ (¬ ((env.tokenTypeFromString (c :: rest.takeWhile (fun d => isalnum d || d == '_')) 0).1
          ≠ TokenType.Tok_Invalid
        ∧ (env.tokenTypeFromString (c :: rest.takeWhile (fun d => isalnum d || d == '_')) 0).2
          = (c :: rest.takeWhile (fun d => isalnum d || d == '_')).length) →
        (lx.nextTokenImp env).2.d_type = TokenType.Tok_identifier
        ∧ (lx.nextTokenImp env).2.d_val = c :: rest.takeWhile (fun d => isalnum d || d == '_')
        ∧ isValidIdent (lx.nextTokenImp env).2.d_val = true
        ∧ (lx.nextTokenImp env).1.d_symbols
          = (getSymbol lx.d_symbols
              ⟨lx.d_heap, c :: rest.takeWhile (fun d => isalnum d || d == '_')⟩).1
        ∧ (∃ v : QBuf, hashFind (lx.nextTokenImp env).1.d_symbols
              (c :: rest.takeWhile (fun d => isalnum d || d == '_')) = some v
            ∧ v.bytes = (lx.nextTokenImp env).2.d_val)
        ∧ PoolOk (lx.nextTokenImp env).1.d_symbols)
    ∧ (∀ lx0 : Lexer, PoolOk lx0.d_symbols →
        (lx0.nextTokenImp env).2.d_type = TokenType.Tok_identifier →
        isValidIdent (lx0.nextTokenImp env).2.d_val = true) := by
  have hsp : isspace c = false := by
    cases hs : isspace c with
    | false => rfl
    | true =>
      have := isspace_other c hs
      rcases hc with h | h
      · rw [this.1] at h; cases h
      · exact absurd h this.2.2.1
  have hget : lx.d_line.getD lx.d_colNr (Char.ofNat 0) = c := by
    have h4 := (drop_cons_facts _ _ _ _ hline).2.2.2
    simp [List.getD, h4]
  have hat := Lexer.nextTokenImp_at env lx lines c rest hin hline hsp
  rw [Lexer.tokenAt_letter env lx (by rw [hget]; exact hc),
    Lexer.ident_run env lx c rest hline] at hat
  refine ⟨drop_takeWhile_head (fun d => isalnum d || d == '_') rest,
    takeWhile_each (fun d => isalnum d || d == '_') rest, ?_, ?_, ?_, ?_, ?_, ?_, ?_⟩
  · rw [hat]; split <;> rfl
  · rw [hat]; split <;> rfl
  · rw [hat]; split <;> rfl
  · rw [hat]; split <;> rfl
  · intro hk
    rw [hat, if_pos hk]
    exact ⟨rfl, hkw _ _, (Lexer.token_val lx _ _ _ (hkw _ _)).2⟩
  · intro hk
    rw [hat, if_neg hk]
    have hst := getSymbol_stored hp
      ⟨lx.d_heap, c :: rest.takeWhile (fun d => isalnum d || d == '_')⟩ (by simp)
    have hti := Lexer.token_identifier lx
      (c :: rest.takeWhile (fun d => isalnum d || d == '_')).length
      (c :: rest.takeWhile (fun d => isalnum d || d == '_'))
    rw [hti.1, hti.2, hst.2]
    exact ⟨rfl, rfl, isValidIdent_run c rest hc, rfl, ⟨_, hst.1, hst.2⟩, hp.getSymbol _⟩
  · intro lx0 hp0 hty
    rcases Lexer.nextTokenImp_cases env lx0 with ⟨lx1, len, h⟩ | ⟨lx1, h, hlt, hsy⟩
    · rw [h] at hty; cases hty
    · rw [h] at hty ⊢
      exact Lexer.tokenAt_identifier env lx1 hkw (by rw [hsy]; exact hp0) hlt hty

theorem ident_token_run_witness :
    (sampleLexerAt "if iffy = 1\n" 3 []).d_line.drop 3 = 'i' :: "ffy = 1".toList
    ∧ "ffy = 1".toList.takeWhile (fun d => isalnum d || d == '_') = "ffy".toList
    ∧ sampleTokenType "iffy".toList 0 = (TokenType.Tok_other 1, 2)
    ∧ ((sampleLexerAt "if iffy = 1\n" 3 []).nextTokenImp sampleLexEnv).2.d_type
        = TokenType.Tok_identifier
    ∧ ((sampleLexerAt "if iffy = 1\n" 3 []).nextTokenImp sampleLexEnv).2.d_val = "iffy".toList
    ∧ ((sampleLexerAt "if iffy = 1\n" 3 []).nextTokenImp sampleLexEnv).2.d_len = 4
    ∧ ((sampleLexerAt "if iffy = 1\n" 0 []).nextTokenImp sampleLexEnv).2.d_type
        = TokenType.Tok_other 1
    ∧ ((sampleLexerAt "if iffy = 1\n" 0 []).nextTokenImp sampleLexEnv).2.d_len = 2 :=
  ⟨by decide, by decide, by decide,
    ((ident_token_run sampleLexEnv (sampleLexerAt "if iffy = 1\n" 3 []) [] 'i'
      "ffy = 1".toList rfl (by decide) (by decide) (PoolOk.nil.getSymbol _)
      (fun s p => (sampleTokenType_no_string s p).2.1)).2.2.2.2.2.2.2.1 (by decide)).1,
    by decide, by decide,
    ((ident_token_run sampleLexEnv (sampleLexerAt "if iffy = 1\n" 0 []) [] 'i'
      "f iffy = 1".toList rfl (by decide) (by decide) (PoolOk.nil.getSymbol _)
      (fun s p => (sampleTokenType_no_string s p).2.1)).2.2.2.2.2.2.1 (by decide)).1,
    by decide⟩

/-! ## Comments -/

theorem mid_from (str : QByteArray) (p : Nat) : mid str p (-1) = str.drop p := by
  unfold mid
  by_cases h : (p : Int) > (str.length : Int)
  · simp only [h, if_true]
    rw [List.drop_eq_nil_of_le]
    omega
  · have h2 : ¬ ((p : Int) < 0) := by omega
    simp [h, h2]

/-- C28 (what holds of the code): at a `#` for which `tokenTypeFromString` gives the type
of the hash, the lexer makes a comment token that goes to the end of the line, its length
being the number of the bytes from the `#` on; its value is the text behind the byte that
follows the `#`, without the white space at its ends: the byte next to the `#` is not part
of the value. -/
theorem comment_token (env : LexEnv) (lx : Lexer) (lines : List QByteArray) (rest : List Char)
    (hin : lx.d_in = some lines)
    (hline : lx.d_line.drop lx.d_colNr = '#' :: rest)
    (hhash : (env.tokenTypeFromString lx.d_line lx.d_colNr).1 = TokenType.Tok_Hash) :
    lx.nextTokenImp env = lx.token TokenType.Tok_Comment (rest.length + 1) (trimmed (rest.drop 1))
    ∧ (lx.nextTokenImp env).2.d_type = TokenType.Tok_Comment
    ∧ (lx.nextTokenImp env).2.d_len = rest.length + 1
    ∧ (lx.nextTokenImp env).2.d_val = trimmed (rest.drop 1)
    ∧ (lx.nextTokenImp env).2.d_colNr = lx.d_colNr + 1
    ∧ (lx.nextTokenImp env).1.d_colNr = lx.d_line.length := by
  obtain ⟨hd, hlen, _, hget⟩ := drop_cons_facts _ _ _ _ hline
  have hc : lx.d_line.getD lx.d_colNr (Char.ofNat 0) = '#' := by
    simp [List.getD, hget]
  have h1 : ¬ ('#' = '"') := by decide
  have h2 : ¬ (isalpha '#' = true ∨ '#' = '_') := by decide
  have h3 : ¬ (isdigit '#' = true) := by decide
  have hm : mid lx.d_line (lx.d_colNr + 2) (-1) = rest.drop 1 := by
    have := mid_from lx.d_line (lx.d_colNr + 2)
    rw [show ((lx.d_colNr + 2 : Nat) : Int) = (lx.d_colNr : Int) + 2 by omega] at this
    rw [this, ← hd, List.drop_drop]
  have hl : lx.d_line.length - lx.d_colNr = rest.length + 1 := by omega
  have e : lx.nextTokenImp env
      = lx.token TokenType.Tok_Comment (rest.length + 1) (trimmed (rest.drop 1)) := by
    rw [Lexer.nextTokenImp_at env lx lines '#' rest hin hline (by decide)]
    unfold Lexer.tokenAt
    simp only [hc, h1, h2, h3, if_false, hhash, if_true]
    unfold Lexer.lineComment
    rw [hm, hl]
    simp only [Bool.false_eq_true, if_false]
  rw [e]
  refine ⟨rfl, rfl, rfl, (Lexer.token_val lx _ _ _ (by decide)).1, rfl, ?_⟩
  show lx.d_colNr + (rest.length + 1) = lx.d_line.length
  omega

theorem comment_token_witness :
    (sampleLexerAt "#abc\n" 0 []).d_line.drop 0 = '#' :: "abc".toList
    ∧ ((sampleLexerAt "#abc\n" 0 []).nextTokenImp sampleLexEnv).2.d_val = trimmed "bc".toList
    ∧ trimmed "bc".toList = "bc".toList
    ∧ ((sampleLexer ["#abc\n"] false).nextToken sampleLexEnv 1).map
        (fun r => (r.2.d_type, r.2.d_lineNr, r.2.d_colNr, r.2.d_len, r.2.d_val))
      = some (TokenType.Tok_Comment, 1, 1, 4, "bc".toList)
    ∧ ((sampleLexer ["# abc  \n"] false).nextToken sampleLexEnv 1).map
        (fun r => (r.2.d_type, r.2.d_lineNr, r.2.d_colNr, r.2.d_len, r.2.d_val))
      = some (TokenType.Tok_Comment, 1, 1, 7, "abc".toList)
    ∧ ((sampleLexer ["x #a\n"] false).nextToken sampleLexEnv 1).bind
        (fun r => (r.1.nextToken sampleLexEnv 1).map
          (fun r => (r.2.d_type, r.2.d_lineNr, r.2.d_colNr, r.2.d_len, r.2.d_val)))
      = some (TokenType.Tok_Comment, 1, 3, 2, []) :=
  ⟨by decide,
    (comment_token sampleLexEnv (sampleLexerAt "#abc\n" 0 []) [] "abc".toList rfl (by decide)
      (by decide)).2.2.2.1,
    by decide, by decide, by decide, by decide⟩

/-! ## Comments in `nextToken` and `peekToken` -/

theorem Lexer.token_ahead (lx : Lexer) (tt : TokenType) (len : Nat) (val : QByteArray)
    (hlt : lx.d_colNr < lx.d_line.length) (hlen : 1 ≤ len) :
    (lx.token tt len val).1.ahead < lx.ahead := by
  show (match lx.d_in with
      | none => 0
      | some lines => (lines.map (fun l => l.length + 1)).sum)
    + (lx.d_line.length - (lx.d_colNr + len)) < lx.ahead
  unfold Lexer.ahead
  exact Nat.add_lt_add_left (by omega) _

/-- With comments ignored, `Lexer::nextToken` returns no comment token. -/
theorem Lexer.nextToken_not_comment (env : LexEnv) : ∀ (fuel : Nat) (lx lx1 : Lexer) (t : Token),
    lx.d_ignoreComments = true → lx.nextToken env fuel = some (lx1, t) →
    t.d_type ≠ TokenType.Tok_Comment ∧ lx1.d_ignoreComments = true := by
  intro fuel
  induction fuel with
  | zero => intro lx lx1 t _ h; simp [Lexer.nextToken] at h
  | succ f ih =>
    intro lx lx1 t hig h
    unfold Lexer.nextToken at h
    cases hb : lx.d_buffer with
    | nil =>
      simp only [hb] at h
      have hi : (lx.nextTokenImp env).1.d_ignoreComments = true := by
        obtain ⟨lx0, tt, len, val, e, _, _, hi0, _⟩ := Lexer.nextTokenImp_token env lx
        rw [e, (Lexer.token_fields lx0 tt len val).2.2.2.2.2.2.2.2.2.2, hi0, hig]
      split at h
      · exact ih _ _ _ hi h
      · rename_i hc
        have e := Option.some.inj h
        have e1 : lx1 = (lx.nextTokenImp env).1 := (congrArg Prod.fst e).symm
        have e2 : t = (lx.nextTokenImp env).2 := (congrArg Prod.snd e).symm
        rw [e1, e2]
        exact ⟨fun hty => hc ⟨hty, hi⟩, hi⟩
    | cons b rest =>
      simp only [hb] at h
      split at h
      · exact ih { lx with d_buffer := rest } lx1 t hig h
      · rename_i hc
        have e := Option.some.inj h
        have e1 : lx1 = { lx with d_buffer := rest } := (congrArg Prod.fst e).symm
        have e2 : t = b := (congrArg Prod.snd e).symm
        rw [e1, e2]
        exact ⟨fun hty => hc ⟨hty, hig⟩, hig⟩

/-- The fuel that is more than the tokens of the buffer and the bytes and line ends that the
lexer has not passed is enough for `Lexer::nextToken`. -/
theorem Lexer.nextToken_returns (env : LexEnv) : ∀ (fuel : Nat) (lx : Lexer),
    lx.d_buffer.length + lx.ahead < fuel → ∃ r, lx.nextToken env fuel = some r := by
  intro fuel
  induction fuel with
  | zero => intro lx h; omega
  | succ f ih =>
    intro lx hf
    unfold Lexer.nextToken
    cases hb : lx.d_buffer with
    | nil =>
      simp only
      split
      · rename_i hc
        apply ih
        obtain ⟨lx0, tt, len, val, e, _, hb0, _, ha, hk⟩ := Lexer.nextTokenImp_token env lx
        rw [e] at hc ⊢
        have htt : tt = TokenType.Tok_Comment := hc.1
        rcases hk with hk | ⟨hlt, hlen⟩
        · rw [hk] at htt; cases htt
        · have h1 := Lexer.token_ahead lx0 tt len val hlt hlen
          have h2 : (lx0.token tt len val).1.d_buffer = [] := by
            rw [(Lexer.token_fields lx0 tt len val).2.2.2.2.2.2.2.2.2.1, hb0, hb]
          rw [h2]
          rw [hb] at hf
          simp only [List.length_nil] at hf ⊢
          omega
      · exact ⟨_, rfl⟩
    | cons b rest =>
      simp only
      split
      · apply ih
        rw [hb] at hf
        simp only [List.length_cons] at hf
        show rest.length + lx.ahead < f
        omega
      · exact ⟨_, rfl⟩

/-- C29 (what holds of the code): with comments ignored, `nextToken` returns a token that is
no comment, given the fuel for the tokens of the buffer and the rest of the stream;
`peekToken(1)` returns a token, and when this is no comment, the `nextToken` that follows
returns the same token and takes it from the buffer. `peekToken` itself returns what
`nextTokenImp` makes, comments too. -/
theorem nextToken_no_comment (env : LexEnv) (lx : Lexer) (fuel : Nat)
    (hig : lx.d_ignoreComments = true)
    (hfuel : lx.d_buffer.length + lx.ahead < fuel) :
    (∃ (lx1 : Lexer) (t : Token), lx.nextToken env fuel = some (lx1, t)
      ∧ t.d_type ≠ TokenType.Tok_Comment)
    ∧ (∀ (f : Nat) (lx1 : Lexer) (t : Token), lx.nextToken env f = some (lx1, t) →
        t.d_type ≠ TokenType.Tok_Comment)
    ∧ (∃ (lx1 : Lexer) (t : Token), lx.peekToken env 1 = some (lx1, t)
        ∧ lx1.d_buffer.head? = some t
        ∧ (lx.d_buffer = [] → (lx1, t) =
            ({ (lx.nextTokenImp env).1 with d_buffer := [(lx.nextTokenImp env).2] },
              (lx.nextTokenImp env).2))
        ∧ (t.d_type ≠ TokenType.Tok_Comment → ∀ f : Nat,
            lx1.nextToken env (f + 1) = some ({ lx1 with d_buffer := lx1.d_buffer.tail }, t))) := by
  refine ⟨?_, ?_, ?_⟩
  · obtain ⟨⟨lx1, t⟩, h⟩ := Lexer.nextToken_returns env fuel lx hfuel
    exact ⟨lx1, t, h, (Lexer.nextToken_not_comment env fuel lx lx1 t hig h).1⟩
  · intro f lx1 t h
    exact (Lexer.nextToken_not_comment env f lx lx1 t hig h).1
  · have hnext : ∀ (lx1 : Lexer) (t : Token) (rest : List Token), lx1.d_buffer = t :: rest →
        t.d_type ≠ TokenType.Tok_Comment → ∀ f : Nat,
          lx1.nextToken env (f + 1) = some ({ lx1 with d_buffer := lx1.d_buffer.tail }, t) := by
      intro lx1 t rest hb hty f
      unfold Lexer.nextToken
      simp only [hb, hty, false_and, if_false, List.tail_cons]
    cases hb : lx.d_buffer with
    | nil =>
      have hbuf : (lx.nextTokenImp env).1.d_buffer = [] := by
        obtain ⟨lx0, tt, len, val, e, _, hb0, _⟩ := Lexer.nextTokenImp_token env lx
        rw [e, (Lexer.token_fields lx0 tt len val).2.2.2.2.2.2.2.2.2.1, hb0, hb]
      have hp : lx.peekToken env 1 =
          some ({ (lx.nextTokenImp env).1 with d_buffer := [(lx.nextTokenImp env).2] },
            (lx.nextTokenImp env).2) := by
        simp [Lexer.peekToken, hb, Lexer.fillBuffer, hbuf]
      exact ⟨_, _, hp, rfl, fun _ => rfl, hnext _ _ [] rfl⟩
    | cons b rest =>
      have hp : lx.peekToken env 1 = some (lx, b) := by
        simp [Lexer.peekToken, hb, Lexer.fillBuffer]
      exact ⟨_, _, hp, by rw [hb]; rfl, fun h => absurd h (List.cons_ne_nil _ _),
        hnext _ _ rest hb⟩

theorem nextToken_no_comment_witness :
    (sampleLexer ["# c\n", "x\n"] true).d_ignoreComments = true
    ∧ (sampleLexer ["# c\n", "x\n"] true).d_buffer.length
        + (sampleLexer ["# c\n", "x\n"] true).ahead < 9
    ∧ (∃ (lx1 : Lexer) (t : Token),
        (sampleLexer ["# c\n", "x\n"] true).nextToken sampleLexEnv 9 = some (lx1, t)
        ∧ t.d_type ≠ TokenType.Tok_Comment)
    ∧ ((sampleLexer ["# c\n", "x\n"] true).peekToken sampleLexEnv 1).map
        (fun r => (r.2.d_type, r.2.d_lineNr, r.2.d_colNr, r.2.d_val))
      = some (TokenType.Tok_Comment, 1, 1, "c".toList)
    ∧ ((sampleLexer ["# c\n", "x\n"] true).peekToken sampleLexEnv 1).bind
        (fun r => (r.1.nextToken sampleLexEnv 9).map
          (fun q => (q.2.d_type, q.2.d_lineNr, q.2.d_colNr, q.2.d_val)))
      = some (TokenType.Tok_identifier, 2, 1, "x".toList)
    ∧ ((sampleLexer ["# c\n", "x\n"] true).nextToken sampleLexEnv 9).map
        (fun q => (q.2.d_type, q.2.d_lineNr, q.2.d_colNr, q.2.d_val))
      = some (TokenType.Tok_identifier, 2, 1, "x".toList) :=
  ⟨rfl, by decide,
    (nextToken_no_comment sampleLexEnv (sampleLexer ["# c\n", "x\n"] true) 9 rfl
      (by decide)).1,
    by decide, by decide, by decide⟩


/-! ## Termination and spans of the interpolation scanners -/

theorem firstFreeDollar_pos :
    ∀ (rest : List Char) (prev : Option Char) (i : Nat),
      firstFreeDollar prev rest i = -1 ∨
        ∃ p q, rest = p ++ '$' :: q ∧ firstFreeDollar prev rest i = ((i + p.length : Nat) : Int)
          ∧ (p.getLast?.or prev) ≠ some '\\' := by
  intro rest
  induction rest with
  | nil => intro prev i; exact Or.inl rfl
  | cons c cs ih =>
    intro prev i
    rw [firstFreeDollar]
    by_cases h : c = '$' ∧ prev ≠ some '\\'
    · rw [if_pos h]
      refine Or.inr ⟨[], cs, ?_, ?_, ?_⟩
      · rw [h.1]; rfl
      · simp
      · simpa using h.2
    · rw [if_neg h]
      rcases ih (some c) (i + 1) with e | ⟨p, q, e1, e2, e3⟩
      · exact Or.inl e
      · refine Or.inr ⟨c :: p, q, ?_, ?_, ?_⟩
        · rw [e1]; rfl
        · rw [e2]; simp only [List.length_cons]; push_cast; omega
        · rw [getLast_or_cons]; exact e3

/-- The result of `findNonEscapedDollar(str, k)`: `-1`, or the index of a `$` at or behind
`k` that is not preceded by a backslash. -/
theorem findNonEscapedDollar_pos (str : QByteArray) (k : Nat) :
    findNonEscapedDollar str (k : Int) = -1 ∨
      ∃ w q, str = w ++ '$' :: q ∧ findNonEscapedDollar str (k : Int) = (w.length : Int)
        ∧ k ≤ w.length ∧ w.getLast? ≠ some '\\' := by
  by_cases hk : k ≤ str.length
  · have e : str = str.take k ++ str.drop k := (List.take_append_drop k str).symm
    have hl : (str.take k).length = k := by simp [hk]
    have h := findNonEscapedDollar_append (str.take k) (str.drop k)
    rw [← e, hl] at h
    rcases firstFreeDollar_pos (str.drop k) (str.take k).getLast? k with e1 | ⟨p, q, e1, e2, e3⟩
    · exact Or.inl (h.trans e1)
    · refine Or.inr ⟨str.take k ++ p, q, ?_, ?_, ?_, ?_⟩
      · rw [List.append_assoc, ← e1]; exact e
      · rw [h, e2]; simp [hl]
      · simp [hl]
      · rw [List.getLast?_append]; exact e3
  · exact Or.inl (findNonEscapedDollar_beyond str _ (by omega))

theorem findNonEscapedDollar_pos_int (str : QByteArray) (k : Int) (hk : 0 ≤ k) :
    findNonEscapedDollar str k = -1 ∨
      ∃ w q, str = w ++ '$' :: q ∧ findNonEscapedDollar str k = (w.length : Int)
        ∧ k ≤ (w.length : Int) ∧ w.getLast? ≠ some '\\' := by
  obtain ⟨n, rfl⟩ := Int.eq_ofNat_of_zero_le hk
  rcases findNonEscapedDollar_pos str n with e | ⟨w, q, e1, e2, e3, e4⟩
  · exact Or.inl e
  · exact Or.inr ⟨w, q, e1, e2, by omega, e4⟩

/-- One iteration of the loop of `findDollars` at a `$` that is followed by a byte: the loop
returns (a `${` without `}`), or records a span of length `len ≥ 1` and searches on from
`pos + len`. -/
theorem findDollarsLoop_next (w r : QByteArray) (c : Char) (fuel : Nat) (res : List Dollar) :
    findDollarsLoop (w ++ '$' :: c :: r) (fuel + 1) (w.length : Int) res = some res ∨
      ∃ len : Nat, 1 ≤ len
        ∧ (w.length + len ≤ (w ++ '$' :: c :: r).length ∨ (c = '0' ∧ len = 5))
        ∧ findDollarsLoop (w ++ '$' :: c :: r) (fuel + 1) (w.length : Int) res =
          findDollarsLoop (w ++ '$' :: c :: r) fuel
            (findNonEscapedDollar (w ++ '$' :: c :: r) ((w.length + len : Nat) : Int))
            (res ++ [Dollar.make (w.length : Int) (len : Int)]) := by
  rw [findDollarsLoop_step]
  by_cases h1 : c = '{'
  · rw [if_pos h1]
    by_cases h2 : findChar '}' (c :: r) (w.length + 1) = -1
    · rw [if_pos h2]; exact Or.inl rfl
    · rw [if_neg h2]
      have hm : '}' ∈ c :: r := by
        by_contra hn
        exact h2 ((findChar_eq_neg_one_iff _ _ _).2 hn)
      obtain ⟨a, b, e, ha⟩ := exists_first_split '}' (c :: r) hm
      have hv : findChar '}' (c :: r) (w.length + 1) = ((w.length + 1 + a.length : Nat) : Int) := by
        rw [e]; exact findChar_append_cons '}' a b _ ha
      refine Or.inr ⟨a.length + 2, by omega, Or.inl ?_, ?_⟩
      · have : (c :: r).length = a.length + (b.length + 1) := by rw [e]; simp
        simp only [List.length_append, List.length_cons] at this ⊢
        omega
      · rw [hv]
        have e1 : (((w.length + 1 + a.length : Nat) : Int) - (w.length : Int) + 1)
            = ((a.length + 2 : Nat) : Int) := by push_cast; omega
        have e2 : ((w.length : Int) + ((a.length + 2 : Nat) : Int))
            = ((w.length + (a.length + 2) : Nat) : Int) := by push_cast; omega
        rw [e1, e2]
  · rw [if_neg h1]
    by_cases h2 : c = '0'
    · rw [if_pos h2]
      refine Or.inr ⟨5, by omega, Or.inr ⟨h2, rfl⟩, ?_⟩
      have e2 : ((w.length : Int) + 5) = ((w.length + 5 : Nat) : Int) := by push_cast; omega
      rw [e2]; rfl
    · rw [if_neg h2]
      refine Or.inr ⟨1 + ((c :: r).takeWhile specNameByte).length, by omega, Or.inl ?_, ?_⟩
      · have := congrArg List.length (List.takeWhile_append_dropWhile specNameByte (c :: r))
        simp only [List.length_append, List.length_cons] at this ⊢
        omega
      · have e2 : ((w.length : Int) + (1 + (((c :: r).takeWhile specNameByte).length : Int)))
            = ((w.length + (1 + ((c :: r).takeWhile specNameByte).length) : Nat) : Int) := by
          push_cast; omega
        have e3 : (1 + (((c :: r).takeWhile specNameByte).length : Int))
            = ((1 + ((c :: r).takeWhile specNameByte).length : Nat) : Int) := by push_cast; omega
        rw [e2, e3]

theorem getElem?_append_cons_length (w : List Char) (x : Char) (r : List Char) :
    (w ++ x :: r)[w.length]? = some x := by
  induction w with
  | nil => simp
  | cons a as ih => simpa using ih

theorem getElem?_append_cons_succ (w : List Char) (x c : Char) (r : List Char) :
    (w ++ x :: c :: r)[w.length + 1]? = some c := by
  induction w with
  | nil => simp
  | cons a as ih => simpa using ih

/-- The spans that the loop of `findDollars` records, for a string shorter than 65536
bytes: each is `Dollar.inside`, and each starts at or behind the end of those before. -/
theorem findDollarsLoop_spans (str : QByteArray) (hlen : str.length < 65536) :
    ∀ (fuel : Nat) (pos : Int) (res out : List Dollar),
      (pos = -1 ∨ ∃ w q, str = w ++ '$' :: q ∧ pos = (w.length : Int)) →
      (∀ d ∈ res, d.inside str) →
      (∀ d ∈ res, pos = -1 ∨ ((d.d_pos + d.d_len : Nat) : Int) ≤ pos) →
      res.Pairwise (fun a b => a.d_pos + a.d_len ≤ b.d_pos) →
      findDollarsLoop str fuel pos res = some out →
      (∀ d ∈ out, d.inside str) ∧ out.Pairwise (fun a b => a.d_pos + a.d_len ≤ b.d_pos) := by
  intro fuel
  induction fuel with
  | zero =>
    intro pos res out _ h1 _ h3 h
    rw [findDollarsLoop] at h
    split at h
    · cases h
    · cases h; exact ⟨h1, h3⟩
  | succ f ih =>
    intro pos res out hp h1 h2 h3 h
    rcases hp with hp | ⟨w, q, e, hp⟩
    · rw [hp, findDollarsLoop_done] at h
      cases h; exact ⟨h1, h3⟩
    · subst hp
      have hb : ∀ d ∈ res, ((d.d_pos + d.d_len : Nat) : Int) ≤ (w.length : Int) := by
        intro d hd
        rcases h2 d hd with h4 | h4
        · omega
        · exact h4
      cases q with
      | nil =>
        have hne : (w.length : Int) ≠ -1 := by omega
        have hlt : ¬ ((w.length : Int) + 1 < (str.length : Int)) := by
          rw [e]; simp only [List.length_append, List.length_singleton]; push_cast; omega
        rw [findDollarsLoop] at h
        simp only [hne, ne_eq, not_false_eq_true, if_true, hlt, if_false] at h
        refine ih _ res out ?_ h1 ?_ h3 h
        · rcases findNonEscapedDollar_pos_int str ((w.length : Int) + 0) (by omega) with
            e3 | ⟨w2, q2, e3, e4, _, _⟩
          · exact Or.inl e3
          · exact Or.inr ⟨w2, q2, e3, e4⟩
        · intro d hd
          rcases findNonEscapedDollar_pos_int str ((w.length : Int) + 0) (by omega) with
            e3 | ⟨w2, q2, e3, e4, e5, _⟩
          · exact Or.inl e3
          · right; rw [e4]; have := hb d hd; omega
      | cons c r =>
        have hsz : str.length = w.length + (r.length + 2) := by rw [e]; simp
        rw [e] at h
        rcases findDollarsLoop_next w r c f res with h5 | ⟨len, hl1, hl2, h5⟩
        · rw [h5] at h; cases h; exact ⟨h1, h3⟩
        · rw [h5, ← e] at h
          have hl3 : len < 65536 := by
            rcases hl2 with h6 | ⟨_, h6⟩
            · rw [← e] at h6; omega
            · omega
          rw [Dollar_make_nat w.length len (by omega) hl3] at h
          refine ih _ _ out ?_ ?_ ?_ ?_ h
          · rcases findNonEscapedDollar_pos str (w.length + len) with
              e3 | ⟨w2, q2, e3, e4, _, _⟩
            · exact Or.inl e3
            · exact Or.inr ⟨w2, q2, e3, e4⟩
          · intro d hd
            rcases List.mem_append.1 hd with hd | hd
            · exact h1 d hd
            · rw [List.mem_singleton.1 hd]
              refine ⟨?_, hl1, by show w.length + 1 < str.length; omega, ?_⟩
              · show str[w.length]? = some '$'
                rw [e]; exact getElem?_append_cons_length w '$' (c :: r)
              · rcases hl2 with h6 | ⟨h6, h7⟩
                · left; rw [← e] at h6; exact h6
                · right
                  refine ⟨?_, h7⟩
                  show str[w.length + 1]? = some '0'
                  rw [e, ← h6]; exact getElem?_append_cons_succ w '$' c r
          · intro d hd
            rcases findNonEscapedDollar_pos str (w.length + len) with
              e3 | ⟨w2, q2, e3, e4, e5, _⟩
            · exact Or.inl e3
            · right
              rw [e4]
              rcases List.mem_append.1 hd with hd | hd
              · have := hb d hd; omega
              · rw [List.mem_singleton.1 hd]
                show ((w.length + len : Nat) : Int) ≤ (w2.length : Int)
                omega
          · rw [List.pairwise_append]
            refine ⟨h3, List.pairwise_singleton _ _, ?_⟩
            intro a ha b hb2
            rw [List.mem_singleton.1 hb2]
            have := hb a ha
            show a.d_pos + a.d_len ≤ w.length
            omega

/-- The scan of `n` blanks followed by `$a`: one span, made from the position `n` and the
length 2. -/
theorem findDollars_blanks (n : Nat) :
    findDollars 2 (List.replicate n ' ' ++ '$' :: ['a']) = some [Dollar.make (n : Int) 2] := by
  have hn : '$' ∉ List.replicate n ' ' := by
    intro h
    have := List.eq_of_mem_replicate h
    exact absurd this (by decide)
  have hl : (List.replicate n ' ').length = n := List.length_replicate _ _
  have hg : ((List.replicate n ' ').getLast?.or none) ≠ some '\\' := by
    cases n with
    | zero => simp
    | succ k => rw [List.replicate_succ']; simp
  have h0 : findNonEscapedDollar (List.replicate n ' ' ++ '$' :: ['a']) 0
      = ((List.replicate n ' ').length : Int) := by
    rw [findNonEscapedDollar_zero, firstFreeDollar_append_cons _ _ _ _ hn, if_neg hg]
    simp
  have h1 : ¬ ('a' = '{') := by decide
  have h2 : ¬ ('a' = '0') := by decide
  have h3 : (['a'].takeWhile specNameByte).length = 1 := by decide
  unfold findDollars
  rw [h0, findDollarsLoop_step, if_neg h1, if_neg h2, findNonEscapedDollar_beyond,
    findDollarsLoop_done, hl, h3]
  · rfl
  · rw [hl, h3]
    simp only [List.length_append, List.length_replicate, List.length_cons, List.length_nil]
    push_cast
    omega

theorem getElem?_blanks (n : Nat) (l : List Char) :
    (List.replicate (n + 1) ' ' ++ l)[0]? = some ' ' := by
  rw [List.replicate_succ]
  simp

/-- Claim C37, counterexample: in the string token `"$0"` of four bytes the span at the
`$` has the fixed length 5 and ends behind the string; and in a string of 65536 blanks
followed by `$a` the span is recorded at position 0, where no `$` stands, because position
and length are stored in 16 bits. -/
theorem findDollars_span_outside :
    findDollars 4 "\"$0\"".toList = some [⟨1, 5⟩]
    ∧ ¬ (1 + 5 ≤ "\"$0\"".toList.length)
    ∧ findDollars 2 (List.replicate (65535 + 1) ' ' ++ '$' :: ['a']) = some [⟨0, 2⟩]
    ∧ (List.replicate (65535 + 1) ' ' ++ '$' :: ['a'])[0]? = some ' ' := by
  refine ⟨by decide, by decide, ?_, getElem?_blanks 65535 _⟩
  have h := findDollars_blanks (65535 + 1)
  have e : Dollar.make ((65535 + 1 : Nat) : Int) 2 = ⟨0, 2⟩ := by decide
  rw [e] at h
  exact h

/-- Claim C37, amended: for a string shorter than 65536 bytes, every span `(pos, len)` that
`findDollars` returns starts at a `$` that is followed by a byte (`str[pos] = '$'`,
`pos + 1 < size`), has `len ≥ 1`, and ends inside the string (`pos + len ≤ size`) unless it
is the span of fixed length 5 at a `$0`; each span starts at or behind the end of every
span before it. -/
theorem findDollars_spans_inside (str : QByteArray) (hlen : str.length < 65536) (fuel : Nat)
    (out : List Dollar) (h : findDollars fuel str = some out) :
    (∀ d ∈ out, str[d.d_pos]? = some '$' ∧ 1 ≤ d.d_len ∧ d.d_pos + 1 < str.length
      ∧ (d.d_pos + d.d_len ≤ str.length ∨ (str[d.d_pos + 1]? = some '0' ∧ d.d_len = 5)))
    ∧ out.Pairwise (fun a b => a.d_pos + a.d_len ≤ b.d_pos) := by
  unfold findDollars at h
  refine findDollarsLoop_spans str hlen fuel _ [] out ?_ ?_ ?_ List.Pairwise.nil h
  · rcases findNonEscapedDollar_pos str 0 with e3 | ⟨w2, q2, e3, e4, _, _⟩
    · exact Or.inl e3
    · exact Or.inr ⟨w2, q2, e3, e4⟩
  · intro d hd; cases hd
  · intro d hd; cases hd

theorem findDollars_spans_inside_witness :
    "\"$a/$\x7bb\x7d$0x41\"".toList.length < 65536
    ∧ findDollars 14 "\"$a/$\x7bb\x7d$0x41\"".toList = some [⟨1, 2⟩, ⟨4, 4⟩, ⟨8, 5⟩]
    ∧ ((∀ d ∈ [(⟨1, 2⟩ : Dollar), ⟨4, 4⟩, ⟨8, 5⟩],
          "\"$a/$\x7bb\x7d$0x41\"".toList[d.d_pos]? = some '$' ∧ 1 ≤ d.d_len
          ∧ d.d_pos + 1 < "\"$a/$\x7bb\x7d$0x41\"".toList.length
          ∧ (d.d_pos + d.d_len ≤ "\"$a/$\x7bb\x7d$0x41\"".toList.length
            ∨ ("\"$a/$\x7bb\x7d$0x41\"".toList[d.d_pos + 1]? = some '0' ∧ d.d_len = 5)))
        ∧ [(⟨1, 2⟩ : Dollar), ⟨4, 4⟩, ⟨8, 5⟩].Pairwise
            (fun a b => a.d_pos + a.d_len ≤ b.d_pos)) :=
  ⟨by decide, by decide,
    findDollars_spans_inside "\"$a/$\x7bb\x7d$0x41\"".toList (by decide) 14 _ (by decide)⟩

theorem implicitNameLoop_backslash :
    ∀ (cs : List Char) (i ls : Int), '\\' ∈ cs → implicitNameLoop cs i ls = none := by
  intro cs
  induction cs with
  | nil => intro i ls h; cases h
  | cons c t ih =>
    intro i ls h
    rw [implicitNameLoop]
    by_cases hb : c = '\\'
    · rw [if_pos hb]
    · rw [if_neg hb]
      have ht : '\\' ∈ t := by
        rcases List.mem_cons.1 h with h | h
        · exact absurd h.symm hb
        · exact h
      split
      · split
        · rfl
        · exact ih _ _ ht
      · exact ih _ _ ht

theorem mem_drop_skip (s : QByteArray) (n : Nat) (x : Char)
    (hg : s.getD n (Char.ofNat 0) ≠ x) (h : x ∈ s.drop n) : x ∈ s.drop (n + 1) := by
  have hn : n < s.length := by
    by_contra hn
    rw [List.drop_eq_nil_of_le (by omega)] at h
    cases h
  rw [drop_eq_getD_cons s n hn] at h
  rcases List.mem_cons.1 h with h | h
  · exact absurd h.symm hg
  · exact h

theorem get_nat (s : QByteArray) (n : Nat) (c : Char) (hc : c ≠ Char.ofNat 0)
    (h : get s (n : Int) = c) : s.getD n (Char.ofNat 0) = c := by
  unfold get at h
  split at h
  · unfold at_ at h
    have h0 : ¬ ((n : Int) < 0) := by omega
    simpa [h0] using h
  · exact absurd h.symm hc

/-- The index behind the leading slashes: the bytes before it are no backslash. -/
theorem implicitNamePrefix_drop (s : QByteArray) (n : Nat) (h : '\\' ∈ s.drop n) :
    '\\' ∈ s.drop (implicitNamePrefix s (n : Int)).1.toNat := by
  have h0 : '/' ≠ Char.ofNat 0 := by decide
  unfold implicitNamePrefix
  by_cases h1 : get s (n : Int) = '/'
  · rw [if_pos h1]
    have g1 := get_nat s n '/' h0 h1
    have d1 := mem_drop_skip s n '\\' (by rw [g1]; decide) h
    have e1 : ((n : Int) + 1) = ((n + 1 : Nat) : Int) := by push_cast; rfl
    by_cases h2 : get s ((n : Int) + 1) = '/'
    · rw [if_pos h2]
      rw [e1] at h2
      have g2 := get_nat s (n + 1) '/' h0 h2
      have d2 := mem_drop_skip s (n + 1) '\\' (by rw [g2]; decide) d1
      have e2 : ((n : Int) + 2).toNat = n + 1 + 1 := by omega
      show '\\' ∈ s.drop ((n : Int) + 2).toNat
      rw [e2]; exact d2
    · rw [if_neg h2]
      have e2 : ((n : Int) + 1).toNat = n + 1 := by omega
      show '\\' ∈ s.drop ((n : Int) + 1).toNat
      rw [e2]; exact d1
  · rw [if_neg h1]
    show '\\' ∈ s.drop ((n : Int)).toNat
    rw [Int.toNat_ofNat]; exact h

/-- A label with a backslash does not look like an implicit name path. -/
theorem looksLike_backslash (s : QByteArray) (h : '\\' ∈ s) :
    looksLikeImplicitNamePath s = false := by
  unfold looksLikeImplicitNamePath
  rcases s with _ | ⟨c, t⟩
  · rfl
  · simp only [List.isEmpty_cons, Bool.false_eq_true, if_false, at_zero_cons]
    have hd : '\\' ∈ (c :: t).drop
        (implicitNamePrefix (c :: t) (if c = '"' then 1 else 0)).1.toNat := by
      by_cases hc : c = '"'
      · rw [if_pos hc]
        have hg : (c :: t).getD 0 (Char.ofNat 0) ≠ '\\' := by
          show c ≠ '\\'
          rw [hc]; decide
        have := implicitNamePrefix_drop (c :: t) 1 (mem_drop_skip (c :: t) 0 '\\' hg h)
        simpa using this
      · rw [if_neg hc]
        have := implicitNamePrefix_drop (c :: t) 0 h
        simpa using this
    rw [implicitNameLoop_backslash _ _ _ hd]

/-- The test for an embedded `//` in the loop of `looksLikeImplicitNamePath` never fires:
`lastSlash` is an index before `i`. -/
theorem implicitNameLoop_no_slash_test :
    ∀ (cs : List Char) (i ls : Int), ls < i → '\\' ∉ cs →
      implicitNameLoop cs i ls ≠ none := by
  intro cs
  induction cs with
  | nil => intro i ls _ _ h; cases h
  | cons c t ih =>
    intro i ls hl hb
    have hc : c ≠ '\\' := fun e => hb (by simp [e])
    have ht : '\\' ∉ t := fun e => hb (by simp [e])
    rw [implicitNameLoop, if_neg hc]
    have hz : ¬ (ls ≠ -1 ∧ i - ls = 0) := by omega
    by_cases hs : c = '/'
    · rw [if_pos hs, if_neg hz]; exact ih _ _ (by omega) ht
    · rw [if_neg hs]; exact ih _ _ (by omega) ht

/-- Claim C38 (what holds of the code): a label with a backslash is never taken for an
implicit name path, so a colon-free label with a backslash gives `(s, "")`; an embedded
`//` is not rejected: the test `i - lastSlash == 0` of the loop never holds (the loop
returns only at a backslash), and `a//b` gives `("a//b", "b")` like `a/b`. -/
theorem implicit_name_double_slash :
    (∀ s : QByteArray, '\\' ∈ s → looksLikeImplicitNamePath s = false)
    ∧ (∀ s : QByteArray, ':' ∉ s → '\\' ∈ s → extractPathIdentFromString s = (s, []))
    ∧ (∀ (cs : List Char) (i ls : Int), ls < i →
        (implicitNameLoop cs i ls = none ↔ '\\' ∈ cs))
    ∧ looksLikeImplicitNamePath "a//b".toList = true
    ∧ extractPathIdentFromString "a//b".toList = ("a//b".toList, "b".toList)
    ∧ extractPathIdentFromString "//x//y/z".toList = ("//x//y/z".toList, "z".toList)
    ∧ extractPathIdentFromString "a\\b/c".toList = ("a\\b/c".toList, []) := by
  refine ⟨looksLike_backslash, ?_, ?_, by decide, by decide, by decide, by decide⟩
  · intro s hc hb
    have hne : s.isEmpty = false := by
      cases s with
      | nil => cases hb
      | cons _ _ => rfl
    have hpos1 : indexOf s ':' 0 = -1 := by
      rw [indexOf_zero]; exact findChar_of_not_mem ':' s 0 hc
    unfold extractPathIdentFromString
    simp only [hne, Bool.false_eq_true, if_false, hpos1, if_true, looksLike_backslash s hb]
  · intro cs i ls hl
    constructor
    · intro h
      by_contra hb
      exact implicitNameLoop_no_slash_test cs i ls hl hb h
    · exact implicitNameLoop_backslash cs i ls


/-! ## Symbol at a source position -/

theorem find?_append_none {α : Type} (p : α → Bool) (l1 l2 : List α)
    (h : l1.find? p = none) : (l1 ++ l2).find? p = l2.find? p := by
  rw [List.find?_append, h]; rfl

theorem find?_append_some {α : Type} (p : α → Bool) (l1 l2 : List α) (a : α)
    (h : l1.find? p = some a) : (l1 ++ l2).find? p = some a := by
  rw [List.find?_append, h]; rfl

mutual
/-- The search returns the first reachable node that covers the position. -/
theorem findSymbol_eq_find (line col : Nat) :
    ∀ st : SynTree, findSymbolBySourcePos line col st
      = (specReachable line st).find? (specCovers line col)
  | .mk tok cs => by
    rw [findSymbolBySourcePos, specReachable, findSymbolInChildren_eq_find line col cs]
    cases h : (specReachableList line cs).find? (specCovers line col) with
    | some res => rw [find?_append_some _ _ _ _ h]
    | none =>
      rw [find?_append_none _ _ _ h]
      by_cases hc : tok.d_lineNr = line ∧ tok.d_colNr ≤ col ∧ col ≤ tok.d_colNr + tok.d_len
      · have : specCovers line col (.mk tok cs) = true := by
          simp only [specCovers, SynTree.d_tok, decide_eq_true_eq]; exact hc
        simp [hc, List.find?, this]
      · have : specCovers line col (.mk tok cs) = false := by
          simp only [specCovers, SynTree.d_tok, decide_eq_false_iff_not]; exact hc
        simp [hc, List.find?, this]
theorem findSymbolInChildren_eq_find (line col : Nat) :
    ∀ cs : List SynTree, findSymbolInChildren line col cs
      = (specReachableList line cs).find? (specCovers line col)
  | [] => by rw [findSymbolInChildren, specReachableList]; rfl
  | c :: cs => by
    rw [findSymbolInChildren, specReachableList]
    by_cases hl : c.d_tok.d_lineNr ≤ line
    · rw [if_pos hl, if_pos hl, findSymbol_eq_find line col c]
      cases h : (specReachable line c).find? (specCovers line col) with
      | some res => rw [find?_append_some _ _ _ _ h]
      | none =>
        rw [find?_append_none _ _ _ h]
        exact findSymbolInChildren_eq_find line col cs
    · rw [if_neg hl, if_neg hl]
      exact findSymbolInChildren_eq_find line col cs
end

mutual
theorem specReachable_sublist (line : Nat) :
    ∀ st : SynTree, (specReachable line st).Sublist (specPostOrder st)
  | .mk tok cs => by
    rw [specReachable, specPostOrder]
    exact (specReachableList_sublist line cs).append (List.Sublist.refl _)
theorem specReachableList_sublist (line : Nat) :
    ∀ cs : List SynTree, (specReachableList line cs).Sublist (specPostOrderList cs)
  | [] => by rw [specReachableList, specPostOrderList]
  | c :: cs => by
    rw [specReachableList, specPostOrderList]
    refine List.Sublist.append ?_ (specReachableList_sublist line cs)
    split
    · exact specReachable_sublist line c
    · exact List.nil_sublist _
end

mutual
/-- In a tree with ascending lines no node stands before the line of the root. -/
theorem specLinesAscend_ge :
    ∀ st : SynTree, specLinesAscend st = true →
      ∀ n ∈ specPostOrder st, st.d_tok.d_lineNr ≤ n.d_tok.d_lineNr
  | .mk tok cs => by
    intro h n hn
    rw [specLinesAscend] at h
    rw [specPostOrder] at hn
    rcases List.mem_append.1 hn with hn | hn
    · exact specLinesAscendList_ge tok.d_lineNr cs h n hn
    · rw [List.mem_singleton.1 hn]
theorem specLinesAscendList_ge (l : Nat) :
    ∀ cs : List SynTree, specLinesAscendList l cs = true →
      ∀ n ∈ specPostOrderList cs, l ≤ n.d_tok.d_lineNr
  | [] => by
    intro _ n hn
    rw [specPostOrderList] at hn
    cases hn
  | c :: cs => by
    intro h n hn
    rw [specLinesAscendList] at h
    simp only [Bool.and_eq_true, decide_eq_true_eq] at h
    rw [specPostOrderList] at hn
    rcases List.mem_append.1 hn with hn | hn
    · exact Nat.le_trans h.1.1 (specLinesAscend_ge c h.1.2 n hn)
    · exact specLinesAscendList_ge l cs h.2 n hn
end

theorem find?_none_of_all {α : Type} (p : α → Bool) (l : List α)
    (h : ∀ a ∈ l, p a = false) : l.find? p = none := by
  rw [List.find?_eq_none]
  intro a ha
  simp [h a ha]

mutual
/-- In a tree with ascending lines the children that are left out hold no node of the line:
the first covering node among the reachable ones is the first of the whole tree. -/
theorem specReachable_find (line col : Nat) :
    ∀ st : SynTree, specLinesAscend st = true →
      (specReachable line st).find? (specCovers line col)
        = (specPostOrder st).find? (specCovers line col)
  | .mk tok cs => by
    intro h
    rw [specLinesAscend] at h
    rw [specReachable, specPostOrder, List.find?_append, List.find?_append,
      specReachableList_find line col tok.d_lineNr cs h]
theorem specReachableList_find (line col : Nat) (l : Nat) :
    ∀ cs : List SynTree, specLinesAscendList l cs = true →
      (specReachableList line cs).find? (specCovers line col)
        = (specPostOrderList cs).find? (specCovers line col)
  | [] => by intro _; rw [specReachableList, specPostOrderList]
  | c :: cs => by
    intro h
    rw [specLinesAscendList] at h
    simp only [Bool.and_eq_true, decide_eq_true_eq] at h
    rw [specReachableList, specPostOrderList, List.find?_append, List.find?_append,
      specReachableList_find line col l cs h.2]
    by_cases hl : c.d_tok.d_lineNr ≤ line
    · rw [if_pos hl, specReachable_find line col c h.1.2]
    · rw [if_neg hl]
      have hn : (specPostOrder c).find? (specCovers line col) = none := by
        apply find?_none_of_all
        intro n hn
        have := specLinesAscend_ge c h.1.2 n hn
        simp only [specCovers, decide_eq_false_iff_not]
        intro hc
        omega
      rw [hn]; rfl
end

/-- Claim C35: `findSymbolBySourcePos(st, line, col)` is the first node that covers the
position (`n.line = line` and `n.col ≤ col ≤ n.col + n.len`) among the nodes reachable
through children whose line is `≤ line`, in depth-first order with the children before
their parent; so a returned node is a node of the tree that covers the position, none
before it does, and the result is null exactly when no reachable node covers it. In a tree
with ascending lines it is the first covering node of the whole tree. The overload for a
path returns null when the path has no entry in `d_files` or the entry has no tree yet,
and searches the tree of the file otherwise. On the sample tree the position directly
behind `v` still selects `v`. -/
theorem findSymbol_first_covering (line col : Nat) (st : SynTree) :
    findSymbolBySourcePos line col st
      = (specReachable line st).find? (specCovers line col)
    ∧ (∀ n, findSymbolBySourcePos line col st = some n →
        n.d_tok.d_lineNr = line ∧ n.d_tok.d_colNr ≤ col ∧ col ≤ n.d_tok.d_colNr + n.d_tok.d_len
        ∧ n ∈ specPostOrder st
        ∧ ∃ pre post, specReachable line st = pre ++ n :: post
            ∧ ∀ x ∈ pre, specCovers line col x = false)
    ∧ (findSymbolBySourcePos line col st = none
        ↔ ∀ n ∈ specReachable line st, specCovers line col n = false)
    ∧ (specLinesAscend st = true →
        findSymbolBySourcePos line col st = (specPostOrder st).find? (specCovers line col))
    ∧ (∀ (m : CodeModel) (path : QByteArray),
        (hashFind m.d_files path = none → m.findSymbolBySourcePos path line col = none)
        ∧ (∀ id s, hashFind m.d_files path = some id → m.scopes[id]? = some s →
            (s.d_st = none → m.findSymbolBySourcePos path line col = none)
            ∧ (∀ t, s.d_st = some t →
                m.findSymbolBySourcePos path line col = findSymbolBySourcePos line col t)))
    ∧ (findSymbolBySourcePos 2 3 positionTree
          = some (.mk ⟨TokenType.Tok_identifier, 2, 3, 1, "v".toList, []⟩ [])
      ∧ findSymbolBySourcePos 2 4 positionTree
          = some (.mk ⟨TokenType.Tok_identifier, 2, 3, 1, "v".toList, []⟩ [])
      ∧ findSymbolBySourcePos 2 8 positionTree
          = some (.mk ⟨TokenType.Tok_identifier, 2, 7, 1, "w".toList, []⟩ [])
      ∧ findSymbolBySourcePos 2 9 positionTree = none
      ∧ findSymbolBySourcePos 1 1 positionTree = none) := by
  have he := findSymbol_eq_find line col st
  refine ⟨he, ?_, ?_, ?_, ?_, by decide, by decide, by decide, by decide, by decide⟩
  · intro n hn
    rw [he] at hn
    have h1 := List.find?_some hn
    simp only [specCovers, decide_eq_true_eq] at h1
    have h2 := List.mem_of_find?_eq_some hn
    obtain ⟨pre, post, h3, h4⟩ := (List.find?_eq_some.1 hn).2
    refine ⟨h1.1, h1.2.1, h1.2.2, (specReachable_sublist line st).subset h2, pre, post, h3, ?_⟩
    intro x hx
    have := h4 x hx
    simpa using this
  · rw [he, List.find?_eq_none]
    constructor
    · intro h n hn; have := h n hn; simpa using this
    · intro h n hn; simp [h n hn]
  · intro h
    rw [he]; exact specReachable_find line col st h
  · intro m path
    refine ⟨?_, ?_⟩
    · intro h
      simp [CodeModel.findSymbolBySourcePos, h, getSymbolBytes]
    · intro id s h hs
      refine ⟨?_, ?_⟩
      · intro hst
        simp [CodeModel.findSymbolBySourcePos, h, hs, hst]
      · intro t hst
        simp [CodeModel.findSymbolBySourcePos, h, hs, hst]


/-! ## Lookahead of the lexer -/

theorem Lexer.token_buffer (lx : Lexer) (b : List Token) (tt : TokenType) (len : Nat)
    (val : QByteArray) :
    Lexer.token { lx with d_buffer := b } tt len val
      = ({ (lx.token tt len val).1 with d_buffer := b }, (lx.token tt len val).2) := rfl

theorem Lexer.lineLoop_buffer (b : List Token) :
    ∀ (lines : List QByteArray) (lx : Lexer),
      Lexer.lineLoop lines { lx with d_buffer := b }
        = ({ (Lexer.lineLoop lines lx).1 with d_buffer := b }, (Lexer.lineLoop lines lx).2) := by
  intro lines
  induction lines with
  | nil =>
    intro lx
    simp only [Lexer.lineLoop]
    split <;> rfl
  | cons line rest ih =>
    intro lx
    simp only [Lexer.lineLoop]
    split
    · exact ih (lx.nextLine line rest).skipWhiteSpace
    · rfl

theorem Lexer.tokenAt_buffer (env : LexEnv) (lx : Lexer) (b : List Token) :
    Lexer.tokenAt env { lx with d_buffer := b }
      = ({ (lx.tokenAt env).1 with d_buffer := b }, (lx.tokenAt env).2) := by
  simp only [Lexer.tokenAt, Lexer.string, Lexer.ident, Lexer.number, Lexer.lineComment]
  repeat' split
  all_goals rfl

/-- What `Lexer::nextTokenImp` does is independent of the buffer, which it leaves as it
is. -/
theorem Lexer.nextTokenImp_buffer (env : LexEnv) (lx : Lexer) (b : List Token) :
    Lexer.nextTokenImp env { lx with d_buffer := b }
      = ({ (lx.nextTokenImp env).1 with d_buffer := b }, (lx.nextTokenImp env).2) := by
  rcases lx with ⟨_ | lines, lineNr, colNr, line, sp, lt, buf, err, ic, pc, sy, hp⟩
  · rfl
  · unfold Lexer.nextTokenImp
    dsimp only
    have e := Lexer.lineLoop_buffer b lines
      (Lexer.skipWhiteSpace ⟨some lines, lineNr, colNr, line, sp, lt, buf, err, ic, pc, sy, hp⟩)
    have e2 : Lexer.skipWhiteSpace ⟨some lines, lineNr, colNr, line, sp, lt, b, err, ic, pc, sy, hp⟩
        = { Lexer.skipWhiteSpace ⟨some lines, lineNr, colNr, line, sp, lt, buf, err, ic, pc, sy, hp⟩
            with d_buffer := b } := rfl
    rw [e2, e]
    dsimp only
    split
    · rfl
    · exact Lexer.tokenAt_buffer env _ b

theorem Lexer.nextTokenImp_keeps (env : LexEnv) (lx : Lexer) :
    (lx.nextTokenImp env).1.d_buffer = lx.d_buffer
    ∧ (lx.nextTokenImp env).1.d_ignoreComments = lx.d_ignoreComments := by
  obtain ⟨lx0, tt, len, val, e, _, h2, h3, _, _⟩ := Lexer.nextTokenImp_token env lx
  rw [e]
  exact ⟨h2, h3⟩

theorem Lexer.set_buffer_self (lx : Lexer) (b : List Token) (h : lx.d_buffer = b) :
    { lx with d_buffer := b } = lx := by
  cases lx
  cases h
  rfl

theorem Lexer.fillBuffer_length (env : LexEnv) :
    ∀ (j : Nat) (lx : Lexer),
      (Lexer.fillBuffer env j lx).d_buffer.length = lx.d_buffer.length + j
      ∧ (Lexer.fillBuffer env j lx).d_ignoreComments = lx.d_ignoreComments := by
  intro j
  induction j with
  | zero => intro lx; exact ⟨rfl, rfl⟩
  | succ j ih =>
    intro lx
    rw [Lexer.fillBuffer]
    obtain ⟨h1, h2⟩ := ih { (lx.nextTokenImp env).1 with
      d_buffer := (lx.nextTokenImp env).1.d_buffer ++ [(lx.nextTokenImp env).2] }
    refine ⟨?_, ?_⟩
    · rw [h1]
      simp only [List.length_append, List.length_singleton, (Lexer.nextTokenImp_keeps env lx).1]
      omega
    · rw [h2]; exact (Lexer.nextTokenImp_keeps env lx).2

/-- Filling the buffer leaves its first token in front, and commutes with taking it off. -/
theorem Lexer.fillBuffer_pop (env : LexEnv) :
    ∀ (j : Nat) (lx : Lexer) (t : Token) (rest : List Token), lx.d_buffer = t :: rest →
      ∃ pb, (Lexer.fillBuffer env j lx).d_buffer = t :: pb
        ∧ { Lexer.fillBuffer env j lx with d_buffer := pb }
            = Lexer.fillBuffer env j { lx with d_buffer := rest } := by
  intro j
  induction j with
  | zero =>
    intro lx t rest h
    exact ⟨rest, h, rfl⟩
  | succ j ih =>
    intro lx t rest h
    rw [Lexer.fillBuffer, Lexer.fillBuffer]
    have hk := (Lexer.nextTokenImp_keeps env lx).1
    obtain ⟨pb, h1, h2⟩ := ih { (lx.nextTokenImp env).1 with
      d_buffer := (lx.nextTokenImp env).1.d_buffer ++ [(lx.nextTokenImp env).2] } t
      (rest ++ [(lx.nextTokenImp env).2]) (by rw [hk, h]; rfl)
    refine ⟨pb, h1, ?_⟩
    rw [h2, Lexer.nextTokenImp_buffer env lx rest]

/-- Filling the empty buffer puts the next token in front; taking it off gives the lexer
that has made this token and fills its buffer with the tokens behind. -/
theorem Lexer.fillBuffer_first (env : LexEnv) (j : Nat) (lx : Lexer) (h : lx.d_buffer = []) :
    ∃ pb, (Lexer.fillBuffer env (j + 1) lx).d_buffer = (lx.nextTokenImp env).2 :: pb
      ∧ { Lexer.fillBuffer env (j + 1) lx with d_buffer := pb }
          = Lexer.fillBuffer env j (lx.nextTokenImp env).1 := by
  rw [Lexer.fillBuffer]
  have hk := (Lexer.nextTokenImp_keeps env lx).1
  obtain ⟨pb, h1, h2⟩ := Lexer.fillBuffer_pop env j { (lx.nextTokenImp env).1 with
      d_buffer := (lx.nextTokenImp env).1.d_buffer ++ [(lx.nextTokenImp env).2] }
    (lx.nextTokenImp env).2 [] (by rw [hk, h]; rfl)
  refine ⟨pb, h1, ?_⟩
  rw [h2]
  congr 1
  exact Lexer.set_buffer_self _ _ (by rw [hk, h])

theorem Lexer.nextToken_pop (env : LexEnv) (f : Nat) (lx : Lexer) (t : Token)
    (rest : List Token) (h : lx.d_buffer = t :: rest) :
    lx.nextToken env (f + 1) =
      if t.d_type = TokenType.Tok_Comment ∧ lx.d_ignoreComments = true then
        Lexer.nextToken env f { lx with d_buffer := rest }
      else some ({ lx with d_buffer := rest }, t) := by
  rw [Lexer.nextToken]
  simp only [h]

theorem Lexer.nextToken_imp (env : LexEnv) (f : Nat) (lx : Lexer) (h : lx.d_buffer = []) :
    lx.nextToken env (f + 1) =
      if (lx.nextTokenImp env).2.d_type = TokenType.Tok_Comment
          ∧ (lx.nextTokenImp env).1.d_ignoreComments = true then
        Lexer.nextToken env f (lx.nextTokenImp env).1
      else some (lx.nextTokenImp env) := by
  rw [Lexer.nextToken]
  simp only [h]

/-- A call of `Lexer::nextToken` after the buffer was filled returns what it returns
without, and leaves the lexer of the call without, its buffer filled. -/
theorem Lexer.nextToken_filled (env : LexEnv) :
    ∀ (fuel j : Nat) (lx : Lexer),
      (Lexer.nextToken env fuel (Lexer.fillBuffer env j lx) = none
        ∧ Lexer.nextToken env fuel lx = none)
      ∨ ∃ (lx1 : Lexer) (t : Token) (j1 : Nat),
          Lexer.nextToken env fuel lx = some (lx1, t)
          ∧ Lexer.nextToken env fuel (Lexer.fillBuffer env j lx)
              = some (Lexer.fillBuffer env j1 lx1, t) := by
  intro fuel
  induction fuel with
  | zero => intro j lx; exact Or.inl ⟨rfl, rfl⟩
  | succ f ih =>
    intro j lx
    -- the same token is taken, from lexers of which one is the other with its buffer filled
    have step : ∀ (a : Lexer) (t : Token) (j1 : Nat) (pb : List Token),
        (Lexer.fillBuffer env j lx).d_buffer = t :: pb →
        { Lexer.fillBuffer env j lx with d_buffer := pb } = Lexer.fillBuffer env j1 a →
        lx.nextToken env (f + 1) =
          (if t.d_type = TokenType.Tok_Comment ∧ a.d_ignoreComments = true then
            Lexer.nextToken env f a else some (a, t)) →
        (Lexer.nextToken env (f + 1) (Lexer.fillBuffer env j lx) = none
          ∧ Lexer.nextToken env (f + 1) lx = none)
        ∨ ∃ (lx1 : Lexer) (t : Token) (j1 : Nat),
            Lexer.nextToken env (f + 1) lx = some (lx1, t)
            ∧ Lexer.nextToken env (f + 1) (Lexer.fillBuffer env j lx)
                = some (Lexer.fillBuffer env j1 lx1, t) := by
      intro a t j1 pb h1 h2 h3
      have hic : (Lexer.fillBuffer env j lx).d_ignoreComments = a.d_ignoreComments := by
        have e1 := (Lexer.fillBuffer_length env j1 a).2
        rw [← h2] at e1
        exact e1
      rw [Lexer.nextToken_pop env f _ t pb h1, h2, hic, h3]
      by_cases hc : t.d_type = TokenType.Tok_Comment ∧ a.d_ignoreComments = true
      · rw [if_pos hc, if_pos hc]
        exact ih j1 a
      · rw [if_neg hc, if_neg hc]
        exact Or.inr ⟨a, t, j1, rfl, rfl⟩
    cases hb : lx.d_buffer with
    | cons t rest =>
      obtain ⟨pb, h1, h2⟩ := Lexer.fillBuffer_pop env j lx t rest hb
      exact step { lx with d_buffer := rest } t j pb h1 h2 (Lexer.nextToken_pop env f lx t rest hb)
    | nil =>
      cases j with
      | zero =>
        rw [Lexer.fillBuffer]
        cases h : lx.nextToken env (f + 1) with
        | none => exact Or.inl ⟨rfl, rfl⟩
        | some r => exact Or.inr ⟨r.1, r.2, 0, rfl, rfl⟩
      | succ j =>
        obtain ⟨pb, h1, h2⟩ := Lexer.fillBuffer_first env j lx hb
        exact step (lx.nextTokenImp env).1 (lx.nextTokenImp env).2 j pb h1 h2
          (Lexer.nextToken_imp env f lx hb)

/-- The tokens of the calls of `Lexer::nextToken` are the same after the buffer was
filled. -/
theorem Lexer.nextTokens_filled (env : LexEnv) (fuel : Nat) :
    ∀ (k j : Nat) (lx : Lexer),
      Lexer.nextTokens env fuel k (Lexer.fillBuffer env j lx) = Lexer.nextTokens env fuel k lx := by
  intro k
  induction k with
  | zero => intro j lx; rfl
  | succ k ih =>
    intro j lx
    rw [Lexer.nextTokens, Lexer.nextTokens]
    rcases Lexer.nextToken_filled env fuel j lx with ⟨h1, h2⟩ | ⟨lx1, t, j1, h1, h2⟩
    · rw [h1, h2]
    · rw [h1, h2]
      dsimp only
      rw [ih j1 lx1]

/-- Claim C34: `peekToken(n)` with `n ≥ 1` returns a token and consumes none: the calls of
`nextToken` that follow return the same tokens as without the peek (any number of calls,
any fuel); a second `peekToken(n)` returns the same token and leaves the lexer as it is;
and `peekToken(m)` with `1 ≤ m ≤ n` returns the `m`-th token of the buffer and leaves the
lexer, its input included, as it is. -/
theorem peekToken_does_not_consume (env : LexEnv) (lx : Lexer) (n : Nat) (hn : 1 ≤ n) :
    ∃ (lx1 : Lexer) (t : Token),
      lx.peekToken env n = some (lx1, t)
      ∧ (∀ fuel k, Lexer.nextTokens env fuel k lx1 = Lexer.nextTokens env fuel k lx)
      ∧ lx1.peekToken env n = some (lx1, t)
      ∧ (∀ m, 1 ≤ m → m ≤ n →
          ∃ t2, lx1.peekToken env m = some (lx1, t2) ∧ lx1.d_buffer[m - 1]? = some t2) := by
  have hn0 : ¬ (n = 0) := by omega
  have hlen := (Lexer.fillBuffer_length env (n - lx.d_buffer.length) lx).1
  have hge : n ≤ (Lexer.fillBuffer env (n - lx.d_buffer.length) lx).d_buffer.length := by omega
  -- a peek at a lexer whose buffer holds `m` tokens
  have again : ∀ m, 1 ≤ m → m ≤ n →
      ∃ t2, (Lexer.fillBuffer env (n - lx.d_buffer.length) lx).peekToken env m
          = some (Lexer.fillBuffer env (n - lx.d_buffer.length) lx, t2)
        ∧ (Lexer.fillBuffer env (n - lx.d_buffer.length) lx).d_buffer[m - 1]? = some t2 := by
    intro m hm1 hm2
    have hm0 : ¬ (m = 0) := by omega
    have hz : m - (Lexer.fillBuffer env (n - lx.d_buffer.length) lx).d_buffer.length = 0 := by
      omega
    have hlt : m - 1 < (Lexer.fillBuffer env (n - lx.d_buffer.length) lx).d_buffer.length := by
      omega
    refine ⟨(Lexer.fillBuffer env (n - lx.d_buffer.length) lx).d_buffer.get ⟨m - 1, hlt⟩, ?_, ?_⟩
    · unfold Lexer.peekToken
      rw [if_neg hm0, hz]
      simp only [Lexer.fillBuffer]
      rw [List.getElem?_eq_getElem hlt]
      rfl
    · rw [List.getElem?_eq_getElem hlt]
      rfl
  obtain ⟨t, ht1, ht2⟩ := again n hn (Nat.le_refl _)
  refine ⟨Lexer.fillBuffer env (n - lx.d_buffer.length) lx, t, ?_, ?_, ht1, again⟩
  · unfold Lexer.peekToken
    rw [if_neg hn0]
    simp only [ht2]
    rfl
  · intro fuel k
    exact Lexer.nextTokens_filled env fuel k _ lx

theorem peekToken_does_not_consume_witness :
    1 ≤ 2
    ∧ (∃ (lx1 : Lexer) (t : Token),
        (sampleLexer ["a # c\n", "b = 1\n"] true).peekToken sampleLexEnv 2 = some (lx1, t)
        ∧ (∀ fuel k, Lexer.nextTokens sampleLexEnv fuel k lx1
            = Lexer.nextTokens sampleLexEnv fuel k (sampleLexer ["a # c\n", "b = 1\n"] true))
        ∧ lx1.peekToken sampleLexEnv 2 = some (lx1, t)
        ∧ (∀ m, 1 ≤ m → m ≤ 2 →
            ∃ t2, lx1.peekToken sampleLexEnv m = some (lx1, t2)
              ∧ lx1.d_buffer[m - 1]? = some t2))
    ∧ ((sampleLexer ["a # c\n", "b = 1\n"] true).peekToken sampleLexEnv 2).map
        (fun r => (r.2.d_type, r.2.d_lineNr, r.2.d_colNr, r.2.d_val))
      = some (TokenType.Tok_Comment, 1, 3, "c".toList)
    ∧ ((sampleLexer ["a # c\n", "b = 1\n"] true).peekToken sampleLexEnv 2).bind
        (fun r => (Lexer.nextTokens sampleLexEnv 9 3 r.1).map
          (fun ts => ts.map (fun q => (q.d_type, q.d_lineNr, q.d_colNr, q.d_val))))
      = some [(TokenType.Tok_identifier, 1, 1, "a".toList),
          (TokenType.Tok_identifier, 2, 1, "b".toList), (TokenType.Tok_other 0, 2, 3, "=".toList)]
    ∧ (Lexer.nextTokens sampleLexEnv 9 3 (sampleLexer ["a # c\n", "b = 1\n"] true)).map
        (fun ts => ts.map (fun q => (q.d_type, q.d_lineNr, q.d_colNr, q.d_val)))
      = some [(TokenType.Tok_identifier, 1, 1, "a".toList),
          (TokenType.Tok_identifier, 2, 1, "b".toList),
          (TokenType.Tok_other 0, 2, 3, "=".toList)] :=
  ⟨by decide,
    peekToken_does_not_consume sampleLexEnv (sampleLexer ["a # c\n", "b = 1\n"] true) 2
      (by decide),
    by decide, by decide, by decide⟩


/-- Behind the white space the lexer stands at the end of the line or before a byte that is
no white space. -/
theorem Lexer.skipWhiteSpace_stops (lx : Lexer) :
    lx.skipWhiteSpace.d_colNr < lx.skipWhiteSpace.d_line.length →
      isspace (lx.skipWhiteSpace.d_line.getD lx.skipWhiteSpace.d_colNr (Char.ofNat 0)) = false := by
  intro h
  have e1 : lx.skipWhiteSpace.d_line = lx.d_line := rfl
  have e2 : lx.skipWhiteSpace.d_colNr
      = lx.d_colNr + ((lx.d_line.drop lx.d_colNr).takeWhile isspace).length := rfl
  rw [e1, e2] at h ⊢
  have hd := drop_eq_getD_cons lx.d_line _ h
  rw [← List.drop_drop] at hd
  apply drop_takeWhile_head isspace (lx.d_line.drop lx.d_colNr)
  rw [hd]
  rfl

/-! ## Progress of the lexer -/

theorem Lexer.reads_nextLine (lines : List QByteArray) (lx : Lexer) (line : QByteArray)
    (rest : List QByteArray) (h : lx.reads lines) (hin : lx.d_in = some (line :: rest)) :
    (lx.nextLine line rest).reads lines := by
  obtain ⟨h1, h2, h3⟩ := h
  have hd : lines.drop lx.d_lineNr = line :: rest := by
    rw [h1] at hin
    exact Option.some.inj hin
  obtain ⟨d1, d2, d3, _⟩ := drop_cons_facts lines lx.d_lineNr line rest hd
  refine ⟨?_, ?_, ?_⟩
  · show some rest = some (lines.drop (lx.d_lineNr + 1))
    rw [d1]
  · show lx.d_lineNr + 1 ≤ lines.length
    omega
  · show (lx.nextLine line rest).d_line = lineBytes (lines.getD lx.d_lineNr [])
    have e : lines.getD lx.d_lineNr [] = line := by
      have h4 := (drop_cons_facts lines lx.d_lineNr line rest hd).2.2.2
      simp [List.getD, h4]
    rw [e]
    rfl

/-- The loop over the lines keeps the lexer on the lines that it reads; it leaves the
lexer as it is or on a later line, and before a byte that is no white space when the lexer
was behind the white space of its line. -/
theorem Lexer.lineLoop_reads (lines : List QByteArray) :
    ∀ (ins : List QByteArray) (lx : Lexer), lx.reads lines → lx.d_in = some ins →
      (lx.d_colNr < lx.d_line.length →
        isspace (lx.d_line.getD lx.d_colNr (Char.ofNat 0)) = false) →
      (Lexer.lineLoop ins lx).1.reads lines
      ∧ ((Lexer.lineLoop ins lx).1 = lx ∨ lx.d_lineNr < (Lexer.lineLoop ins lx).1.d_lineNr)
      ∧ ((Lexer.lineLoop ins lx).1.d_colNr < (Lexer.lineLoop ins lx).1.d_line.length →
          isspace ((Lexer.lineLoop ins lx).1.d_line.getD (Lexer.lineLoop ins lx).1.d_colNr
            (Char.ofNat 0)) = false) := by
  intro ins
  induction ins with
  | nil =>
    intro lx h _ hw
    have e : (Lexer.lineLoop [] lx).1 = lx := by
      simp only [Lexer.lineLoop]
      split <;> rfl
    rw [e]
    exact ⟨h, Or.inl rfl, hw⟩
  | cons line rest ih =>
    intro lx h hin hw
    by_cases hc : lx.d_colNr ≥ lx.d_line.length
    · simp only [Lexer.lineLoop, hc, if_true]
      have hr := Lexer.reads_nextLine lines lx line rest h hin
      have hr2 : (lx.nextLine line rest).skipWhiteSpace.reads lines := hr
      have hsk : (lx.nextLine line rest).skipWhiteSpace.d_colNr
            < (lx.nextLine line rest).skipWhiteSpace.d_line.length →
          isspace ((lx.nextLine line rest).skipWhiteSpace.d_line.getD
            (lx.nextLine line rest).skipWhiteSpace.d_colNr (Char.ofNat 0)) = false :=
        Lexer.skipWhiteSpace_stops (lx.nextLine line rest)
      obtain ⟨i1, i2, i3⟩ := ih (lx.nextLine line rest).skipWhiteSpace hr2 rfl hsk
      refine ⟨i1, Or.inr ?_, i3⟩
      have hn : (lx.nextLine line rest).skipWhiteSpace.d_lineNr = lx.d_lineNr + 1 := rfl
      rcases i2 with i2 | i2
      · rw [i2, hn]; omega
      · rw [hn] at i2; omega
    · have e : (Lexer.lineLoop (line :: rest) lx).1 = lx := by
        simp only [Lexer.lineLoop, hc, if_false]
      rw [e]
      exact ⟨h, Or.inl rfl, hw⟩

/-- Where `Lexer::nextTokenImp` makes its token, for a lexer that reads the lines `lines`:
on these lines, at the lexer or behind it on its line, or on a later line; a token other
than that of the end is made before a byte of the line that is no white space, with a
length of one byte at least. -/
theorem Lexer.nextTokenImp_place (env : LexEnv) (lines : List QByteArray) (lx : Lexer)
    (h : lx.reads lines) :
    ∃ (lx0 : Lexer) (tt : TokenType) (len : Nat) (val : QByteArray),
      lx.nextTokenImp env = lx0.token tt len val
      ∧ lx0.reads lines
      ∧ (tt = TokenType.Tok_Eof ∨ (lx0.d_colNr < lx0.d_line.length ∧ 1 ≤ len
          ∧ isspace (lx0.d_line.getD lx0.d_colNr (Char.ofNat 0)) = false))
      ∧ ((lx0.d_lineNr = lx.d_lineNr ∧ lx.d_colNr ≤ lx0.d_colNr)
          ∨ lx.d_lineNr < lx0.d_lineNr) := by
  unfold Lexer.nextTokenImp
  have hin := h.1
  rw [hin]
  dsimp only
  have hs : lx.skipWhiteSpace.reads lines := h
  have hsin : lx.skipWhiteSpace.d_in = some (lines.drop lx.d_lineNr) := hin
  obtain ⟨l1, l2, l3⟩ := Lexer.lineLoop_reads lines (lines.drop lx.d_lineNr) lx.skipWhiteSpace hs
    hsin (Lexer.skipWhiteSpace_stops lx)
  have hf := (Lexer.lineLoop_fields (lines.drop lx.d_lineNr) lx.skipWhiteSpace hsin).1
  have hpos : ((Lexer.lineLoop (lines.drop lx.d_lineNr) lx.skipWhiteSpace).1.d_lineNr
        = lx.d_lineNr
      ∧ lx.d_colNr ≤ (Lexer.lineLoop (lines.drop lx.d_lineNr) lx.skipWhiteSpace).1.d_colNr)
      ∨ lx.d_lineNr < (Lexer.lineLoop (lines.drop lx.d_lineNr) lx.skipWhiteSpace).1.d_lineNr := by
    rcases l2 with l2 | l2
    · left
      rw [l2]
      exact ⟨rfl, (Lexer.skipWhiteSpace_fields lx).2.2.2.2.2.2.2⟩
    · right
      exact l2
  cases hr : (Lexer.lineLoop (lines.drop lx.d_lineNr) lx.skipWhiteSpace).2 with
  | true =>
    simp only [if_true]
    exact ⟨_, _, _, _, rfl, l1, Or.inl rfl, hpos⟩
  | false =>
    simp only [Bool.false_eq_true, if_false]
    have hlt := hf hr
    obtain ⟨tt, len, val, e, hlen⟩ :=
      Lexer.tokenAt_token env (Lexer.lineLoop (lines.drop lx.d_lineNr) lx.skipWhiteSpace).1
    exact ⟨_, tt, len, val, e, l1, Or.inr ⟨hlt, hlen hlt, l3 hlt⟩, hpos⟩

theorem Lexer.token_reads (lines : List QByteArray) (lx : Lexer) (tt : TokenType) (len : Nat)
    (val : QByteArray) (h : lx.reads lines) : (lx.token tt len val).1.reads lines := h

/-- A fresh lexer that is given a stream reads its lines. -/
theorem Lexer.setStream_reads (lx : Lexer) (lines : List QByteArray) (path : QByteArray)
    (h : lx.d_line = []) : (lx.setStream lines path).reads lines :=
  ⟨rfl, Nat.zero_le _, h⟩

theorem Lexer.token_left (lx : Lexer) (tt : TokenType) (len : Nat) (val : QByteArray) :
    (lx.token tt len val).1.left ≤ lx.left := by
  have e1 : (lx.token tt len val).1.d_buffer = lx.d_buffer := rfl
  have e2 : (lx.token tt len val).1.d_in = lx.d_in := rfl
  have e3 : (lx.token tt len val).1.d_line = lx.d_line := rfl
  have e4 : (lx.token tt len val).1.d_colNr = lx.d_colNr + len := rfl
  simp only [Lexer.left, Lexer.ahead, e1, e2, e3, e4]
  omega

/-- A call of `Lexer::nextTokenImp` passes a byte at least, unless it makes the token of
the end. -/
theorem Lexer.nextTokenImp_left (env : LexEnv) (lx : Lexer) :
    (lx.nextTokenImp env).1.left ≤ lx.left
    ∧ ((lx.nextTokenImp env).2.d_type = TokenType.Tok_Eof
        ∨ (lx.nextTokenImp env).1.left < lx.left) := by
  obtain ⟨lx0, tt, len, val, e, _, hb, _, ha, hc⟩ := Lexer.nextTokenImp_token env lx
  rw [e]
  have h0 : lx0.left ≤ lx.left := by
    simp only [Lexer.left, hb]; omega
  have h1 := Lexer.token_left lx0 tt len val
  refine ⟨Nat.le_trans h1 h0, ?_⟩
  rcases hc with hc | ⟨hc1, hc2⟩
  · exact Or.inl hc
  · right
    have h2 := Lexer.token_ahead lx0 tt len val hc1 hc2
    have e1 : (lx0.token tt len val).1.d_buffer = lx0.d_buffer := rfl
    simp only [Lexer.left, e1, hb] at h0 ⊢
    omega

/-- A call of `Lexer::nextToken` takes a token of the buffer or passes a byte at least,
unless it returns the token of the end. -/
theorem Lexer.nextToken_left (env : LexEnv) :
    ∀ (fuel : Nat) (lx lx1 : Lexer) (t : Token), lx.nextToken env fuel = some (lx1, t) →
      lx1.left ≤ lx.left ∧ (t.d_type = TokenType.Tok_Eof ∨ lx1.left < lx.left) := by
  intro fuel
  induction fuel with
  | zero => intro lx lx1 t h; cases h
  | succ f ih =>
    intro lx lx1 t h
    cases hb : lx.d_buffer with
    | cons b rest =>
      have hl : ({ lx with d_buffer := rest } : Lexer).left < lx.left := by
        simp only [Lexer.left, Lexer.ahead, hb, List.length_cons]
        omega
      rw [Lexer.nextToken_pop env f lx b rest hb] at h
      split at h
      · obtain ⟨i1, i2⟩ := ih _ _ _ h
        exact ⟨by omega, Or.inr (by omega)⟩
      · cases h
        exact ⟨by omega, Or.inr hl⟩
    | nil =>
      obtain ⟨n1, n2⟩ := Lexer.nextTokenImp_left env lx
      rw [Lexer.nextToken_imp env f lx hb] at h
      split at h
      · rename_i hc
        obtain ⟨i1, i2⟩ := ih _ _ _ h
        have hne : (lx.nextTokenImp env).2.d_type ≠ TokenType.Tok_Eof := by
          rw [hc.1]; decide
        have n3 : (lx.nextTokenImp env).1.left < lx.left := by
          rcases n2 with n2 | n2
          · exact absurd n2 hne
          · exact n2
        exact ⟨by omega, Or.inr (by omega)⟩
      · have e := Option.some.inj h
        obtain ⟨rfl, rfl⟩ : (lx.nextTokenImp env).1 = lx1 ∧ (lx.nextTokenImp env).2 = t :=
          ⟨congrArg Prod.fst e, congrArg Prod.snd e⟩
        exact ⟨n1, n2⟩

/-- The loop of `Lexer::tokens` ends, when the token of the end is not valid: the rounds
and the fuel that exceed what the lexer has left are enough. -/
theorem Lexer.tokensLoop_returns (env : LexEnv) (isValid : Token → Bool)
    (hv : ∀ t : Token, t.d_type = TokenType.Tok_Eof → isValid t = false) (fuel : Nat) :
    ∀ (n : Nat) (lx : Lexer) (t : Token) (res : List Token), lx.left < fuel →
      (isValid t = false ∨ lx.left < n) →
      ∃ out, Lexer.tokensLoop env isValid fuel n lx t res = some out := by
  intro n
  induction n with
  | zero =>
    intro lx t res _ h
    rcases h with h | h
    · exact ⟨(lx, res), by simp [Lexer.tokensLoop, h]⟩
    · omega
  | succ n ih =>
    intro lx t res hf h
    rw [Lexer.tokensLoop]
    cases hval : isValid t with
    | false => exact ⟨(lx, res), by simp⟩
    | true =>
      have hn : lx.left < n + 1 := by
        rcases h with h | h
        · rw [hval] at h; cases h
        · exact h
      obtain ⟨r, hr⟩ := Lexer.nextToken_returns env fuel lx hf
      obtain ⟨p1, p2⟩ := Lexer.nextToken_left env fuel lx r.1 r.2 hr
      simp only [if_true, hr]
      apply ih r.1 r.2 _ (by omega)
      rcases p2 with p2 | p2
      · exact Or.inl (hv _ p2)
      · exact Or.inr (by omega)

/-- The function `Lexer::tokens` returns, when the token of the end is not valid. -/
theorem Lexer.tokens_returns (env : LexEnv) (isValid : Token → Bool)
    (hv : ∀ t : Token, t.d_type = TokenType.Tok_Eof → isValid t = false) (fuel : Nat)
    (lx : Lexer) (lines : List QByteArray) (path : QByteArray)
    (hf : (lx.setStream lines path).left < fuel) :
    ∃ out, Lexer.tokens env isValid fuel lx lines path = some out := by
  unfold Lexer.tokens
  obtain ⟨r, hr⟩ := Lexer.nextToken_returns env fuel (lx.setStream lines path) hf
  obtain ⟨p1, p2⟩ := Lexer.nextToken_left env fuel _ r.1 r.2 hr
  rw [hr]
  apply Lexer.tokensLoop_returns env isValid hv fuel fuel r.1 r.2 [] (by omega)
  exact Or.inr (by omega)

/-- The calls of `Lexer::nextToken` reach the token of the end: at the latest the call
number `left + 1` returns it. -/
theorem Lexer.nextTokens_end (env : LexEnv) (fuel : Nat) :
    ∀ (n : Nat) (lx : Lexer), lx.left ≤ n → lx.left < fuel →
      ∃ (k : Nat) (ts : List Token) (t : Token), k ≤ lx.left
        ∧ Lexer.nextTokens env fuel (k + 1) lx = some (ts ++ [t])
        ∧ t.d_type = TokenType.Tok_Eof := by
  intro n
  induction n with
  | zero =>
    intro lx hn hf
    obtain ⟨r, hr⟩ := Lexer.nextToken_returns env fuel lx hf
    obtain ⟨p1, p2⟩ := Lexer.nextToken_left env fuel lx r.1 r.2 hr
    rcases p2 with p2 | p2
    · refine ⟨0, [], r.2, Nat.zero_le _, ?_, p2⟩
      rw [Lexer.nextTokens, hr]
      rfl
    · omega
  | succ n ih =>
    intro lx hn hf
    obtain ⟨r, hr⟩ := Lexer.nextToken_returns env fuel lx hf
    obtain ⟨p1, p2⟩ := Lexer.nextToken_left env fuel lx r.1 r.2 hr
    rcases p2 with p2 | p2
    · refine ⟨0, [], r.2, Nat.zero_le _, ?_, p2⟩
      rw [Lexer.nextTokens, hr]
      rfl
    · obtain ⟨k, ts, t, hk, h1, h2⟩ := ih r.1 (by omega) (by omega)
      refine ⟨k + 1, r.2 :: ts, t, by omega, ?_, h2⟩
      rw [Lexer.nextTokens, hr]
      dsimp only
      rw [h1]
      rfl

/-- Claim C39: for a lexer that reads the lines `lines` (as a fresh lexer does after
`setStream`), the token that `nextTokenImp` returns is made on these lines, at the
position of the lexer or behind it; a token other than that of the end has a length of one
byte at least, its line `n` is one of the lines, and it starts at a byte of this line that
is no white space, its column being the offset of this byte plus one; the lexer then stands
behind the token, so the token of the next call, when it is on the same line, starts at or
behind `column + length`, and is on no earlier line. So the calls of `nextToken` reach the
token of the end after `left + 1` calls at the latest, and `Lexer::tokens` returns (when,
as its loop needs it, the token of the end is not valid). -/
theorem lexer_makes_progress (env : LexEnv) (lines : List QByteArray) (lx : Lexer)
    (h : lx.reads lines) :
    (∀ (lx1 : Lexer) (t : Token), lx.nextTokenImp env = (lx1, t) →
      lx1.reads lines
      ∧ ((lx.d_lineNr = t.d_lineNr ∧ lx.d_colNr + 1 ≤ t.d_colNr) ∨ lx.d_lineNr < t.d_lineNr)
      ∧ lx1.d_lineNr = t.d_lineNr ∧ lx1.d_colNr + 1 = t.d_colNr + t.d_len
      ∧ (t.d_type ≠ TokenType.Tok_Eof →
          1 ≤ t.d_len ∧ 1 ≤ t.d_lineNr ∧ t.d_lineNr ≤ lines.length ∧ 1 ≤ t.d_colNr
          ∧ t.d_colNr - 1 < (lineBytes (lines.getD (t.d_lineNr - 1) [])).length
          ∧ isspace ((lineBytes (lines.getD (t.d_lineNr - 1) [])).getD (t.d_colNr - 1)
              (Char.ofNat 0)) = false)
      ∧ t.d_lineNr ≤ (lx1.nextTokenImp env).2.d_lineNr
      ∧ ((lx1.nextTokenImp env).2.d_lineNr = t.d_lineNr →
          t.d_colNr + t.d_len ≤ (lx1.nextTokenImp env).2.d_colNr))
    ∧ (∀ lx2 : Lexer, (lx2.nextTokenImp env).2.d_type ≠ TokenType.Tok_Eof →
        1 ≤ (lx2.nextTokenImp env).2.d_len)
    ∧ (∀ fuel, lx.left < fuel →
        ∃ (k : Nat) (ts : List Token) (t : Token), k ≤ lx.left
          ∧ Lexer.nextTokens env fuel (k + 1) lx = some (ts ++ [t])
          ∧ t.d_type = TokenType.Tok_Eof)
    ∧ (∀ (isValid : Token → Bool),
        (∀ t : Token, t.d_type = TokenType.Tok_Eof → isValid t = false) →
        ∀ (fuel : Nat) (lx0 : Lexer) (path : QByteArray),
          (lx0.setStream lines path).left < fuel →
          ∃ out, Lexer.tokens env isValid fuel lx0 lines path = some out)
    ∧ (∀ (lx0 : Lexer) (path : QByteArray), lx0.d_line = [] →
        (lx0.setStream lines path).reads lines) := by
  refine ⟨?_, ?_, fun fuel hf => Lexer.nextTokens_end env fuel lx.left lx (Nat.le_refl _) hf,
    fun isValid hv fuel lx0 path hf => Lexer.tokens_returns env isValid hv fuel lx0 lines path hf,
    fun lx0 path h0 => Lexer.setStream_reads lx0 lines path h0⟩
  · intro lx1 t e
    obtain ⟨lx0, tt, len, val, e0, r0, c0, p0⟩ := Lexer.nextTokenImp_place env lines lx h
    rw [e0] at e
    have e1 : lx1 = (lx0.token tt len val).1 := (congrArg Prod.fst e).symm
    have e2 : t = (lx0.token tt len val).2 := (congrArg Prod.snd e).symm
    have t1 : t.d_type = tt := by rw [e2]; rfl
    have t2 : t.d_lineNr = lx0.d_lineNr := by rw [e2]; rfl
    have t3 : t.d_colNr = lx0.d_colNr + 1 := by rw [e2]; rfl
    have t4 : t.d_len = len := by rw [e2]; rfl
    have s1 : lx1.d_lineNr = lx0.d_lineNr := by rw [e1]; rfl
    have s2 : lx1.d_colNr = lx0.d_colNr + len := by rw [e1]; rfl
    have r1 : lx1.reads lines := by rw [e1]; exact r0
    obtain ⟨lx3, tt3, len3, val3, e3, _, _, p3⟩ := Lexer.nextTokenImp_place env lines lx1 r1
    have u2 : (lx1.nextTokenImp env).2.d_lineNr = lx3.d_lineNr := by rw [e3]; rfl
    have u3 : (lx1.nextTokenImp env).2.d_colNr = lx3.d_colNr + 1 := by rw [e3]; rfl
    refine ⟨r1, ?_, by omega, by omega, ?_, ?_, ?_⟩
    · rcases p0 with ⟨p1, p2⟩ | p1
      · left; omega
      · right; omega
    · intro hne
      rcases c0 with c0 | ⟨c1, c2, c3⟩
      · exact absurd (t1.trans c0) hne
      · obtain ⟨_, q2, q3⟩ := r0
        have hpos : 1 ≤ lx0.d_lineNr := by
          by_contra hz
          have hz0 : lx0.d_lineNr = 0 := by omega
          rw [hz0] at q3
          rw [q3] at c1
          simp at c1
        obtain ⟨m, hm⟩ : ∃ m, lx0.d_lineNr = m + 1 := ⟨lx0.d_lineNr - 1, by omega⟩
        rw [hm] at q3
        have hl : lineBytes (lines.getD (t.d_lineNr - 1) []) = lx0.d_line := by
          rw [t2, hm, q3]
          rfl
        have hc : t.d_colNr - 1 = lx0.d_colNr := by omega
        rw [hl, hc]
        exact ⟨by omega, by omega, by omega, by omega, c1, c3⟩
    · rw [u2]
      rcases p3 with ⟨p1, _⟩ | p1 <;> omega
    · intro hsame
      rw [u2] at hsame
      rw [u3]
      rcases p3 with ⟨p1, p2⟩ | p1 <;> omega
  · intro lx2 hne
    obtain ⟨lx0, tt, len, val, e0, _, _, _, _, c0⟩ := Lexer.nextTokenImp_token env lx2
    rw [e0] at hne ⊢
    rcases c0 with c0 | ⟨_, c2⟩
    · exact absurd c0 hne
    · exact c2

theorem lexer_makes_progress_witness :
    (sampleLexer ["a = \"b\"\n", "  # c\n", "d\n"] false).reads
        ["a = \"b\"\n".toList, "  # c\n".toList, "d\n".toList]
    ∧ (∃ (k : Nat) (ts : List Token) (t : Token),
        k ≤ (sampleLexer ["a = \"b\"\n", "  # c\n", "d\n"] false).left
        ∧ Lexer.nextTokens sampleLexEnv 30 (k + 1)
            (sampleLexer ["a = \"b\"\n", "  # c\n", "d\n"] false) = some (ts ++ [t])
        ∧ t.d_type = TokenType.Tok_Eof)
    ∧ (Lexer.nextTokens sampleLexEnv 30 6
          (sampleLexer ["a = \"b\"\n", "  # c\n", "d\n"] false)).map
        (fun ts => ts.map (fun q => (q.d_type, q.d_lineNr, q.d_colNr, q.d_len)))
      = some [(TokenType.Tok_identifier, 1, 1, 1), (TokenType.Tok_other 0, 1, 3, 1),
          (TokenType.Tok_string, 1, 5, 3), (TokenType.Tok_Comment, 2, 3, 3),
          (TokenType.Tok_identifier, 3, 1, 1), (TokenType.Tok_Eof, 3, 2, 0)]
    ∧ (Lexer.tokens sampleLexEnv (fun t => decide (t.d_type ≠ TokenType.Tok_Eof)) 30
          { d_ignoreComments := false } ["a = \"b\"\n".toList, "  # c\n".toList, "d\n".toList]
          "/p/BUILD.gn".toList).map
        (fun r => r.2.map (fun q => (q.d_type, q.d_lineNr, q.d_colNr, q.d_len)))
      = some [(TokenType.Tok_identifier, 1, 1, 1), (TokenType.Tok_other 0, 1, 3, 1),
          (TokenType.Tok_string, 1, 5, 3), (TokenType.Tok_Comment, 2, 3, 3),
          (TokenType.Tok_identifier, 3, 1, 1)] :=
  ⟨by decide,
    (lexer_makes_progress sampleLexEnv ["a = \"b\"\n".toList, "  # c\n".toList, "d\n".toList]
      (sampleLexer ["a = \"b\"\n", "  # c\n", "d\n"] false) (by decide)).2.2.1 30 (by decide),
    by decide, by decide⟩


/-! ## The result of `parseDir` -/

theorem getErrCount_zero (m : CodeModel) :
    (getErrCount m == 0) = true ↔ ∀ r ∈ m.d_errs, r.severity ≠ Severity.error := by
  unfold getErrCount
  rw [beq_iff_eq, List.length_eq_zero, List.filter_eq_nil_iff]
  constructor
  · intro h r hr; have := h r hr; simpa using this
  · intro h r hr; simp [h r hr]

/-- Claim C31: when `findDotFile` returns the empty string, `parseDir` returns false with
exactly one report in the sink, the semantic error of the missing dotfile; no file is
parsed: the Files map, the scopes and the global indices are empty. Otherwise the value
that `parseDir` returns is true exactly when the sink, which `clear()` has emptied at the
start, holds no report made with `error` (warnings do not count). The sample project
returns true, also with a file that cannot be opened (a warning), and false with a syntax
error in a file; from the directory `/`, above the project, no dotfile is found. -/
theorem parseDir_result (env : Env) (de : DirEnv) (f : Nat) (dir : QByteArray)
    (m : CodeModel) :
    (findDotFile env de f dir = Except.ok [] →
      ∃ m1, parseDir env de f dir m = Except.ok (m1, false)
        ∧ m1.d_errs = [⟨Severity.error, ErrSource.Semantics,
            "could not find any dotfile in current or super directories"⟩]
        ∧ getErrCount m1 = 1
        ∧ m1.d_files = [] ∧ m1.scopes = []
        ∧ m1.d_allRhs = [] ∧ m1.d_allLhs = [] ∧ m1.d_allFuncRefs = [] ∧ m1.d_allImports = []
        ∧ m1.d_allObjDefs = [] ∧ m1.d_allUnresolvedImports = [] ∧ m1.d_allUnnamedObjs = []
        ∧ m1.d_unresolvedRefs = [] ∧ m1.d_declaredArgs = [])
    ∧ (∀ (dotfile : QByteArray) (m1 : CodeModel) (b : Bool),
        findDotFile env de f dir = Except.ok dotfile → dotfile ≠ [] →
        parseDir env de f dir m = Except.ok (m1, b) →
        (b = true ↔ ∀ r ∈ m1.d_errs, r.severity ≠ Severity.error))
    ∧ m.clear.d_errs = []
    ∧ (findDotFile dirFsEnv projDirs 16 "/".toList = Except.ok []
      ∧ (parseDir dirFsEnv projDirs 16 "/".toList {}).toOption.map
          (fun r => (r.2, r.1.d_errs.length, r.1.d_files.length, r.1.scopes.length))
        = some (false, 1, 0, 0))
    ∧ ((parseDir dirFsEnv projDirs 16 "/proj/sub".toList {}).toOption.map
          (fun r => (r.2, r.1.d_errs))
        = some (true, [])
      ∧ (parseDir dirFsEnv warnDirs 16 "/proj/sub".toList {}).toOption.map
          (fun r => (r.2, r.1.d_errs))
        = some (true, [⟨Severity.warning, ErrSource.Lexer, "cannot open file for reading"⟩])
      ∧ (parseDir errFsEnv projDirs 16 "/proj/sub".toList {}).toOption.map
          (fun r => (r.2, r.1.d_errs))
        = some (false, [⟨Severity.error, ErrSource.Syntax, "unexpected token"⟩])) := by
  refine ⟨?_, ?_, rfl, ⟨rfl, by decide!⟩, ⟨by decide!, by decide!, by decide!⟩⟩
  · intro h
    refine ⟨_, parseDir_no_dotfile env de f dir m h, rfl, rfl, rfl, rfl, rfl, rfl, rfl, rfl, rfl,
      rfl, rfl, rfl, rfl⟩
  · intro dotfile m1 b h hne hp
    have hemp : dotfile.isEmpty = false := by
      cases dotfile with
      | nil => exact absurd rfl hne
      | cons _ _ => rfl
    unfold parseDir at hp
    obtain ⟨d, hd, hp⟩ := bind_ok hp
    rw [h] at hd
    cases hd
    simp only [hemp, Bool.false_eq_true, if_false] at hp
    obtain ⟨files, _, hp⟩ := bind_ok hp
    obtain ⟨m2, _, hp⟩ := bind_ok hp
    have e := pure_ok hp
    have e1 : m2 = m1 := congrArg Prod.fst e
    have e2 : (getErrCount m2 == 0) = b := congrArg Prod.snd e
    rw [← e2, ← e1]
    exact getErrCount_zero m2


/-! ## The lists of the scopes and the lists of the model -/

theorem sum_map_updateAt_same {α : Type} (F : α → Nat) (g : α → α)
    (hg : ∀ a, F (g a) = F a) :
    ∀ (l : List α) (i : Nat), ((updateAt l i g).map F).sum = (l.map F).sum := by
  intro l
  induction l with
  | nil => intro i; rfl
  | cons b bs ih =>
    intro i
    cases i with
    | zero => simp [updateAt, hg b]
    | succ i => simp [updateAt, ih i]

theorem sum_map_updateAt_add {α : Type} (F : α → Nat) (g : α → α) (d : Nat) (l : List α)
    (i : Nat) (a : α) (h : l[i]? = some a) (hg : F (g a) = F a + d) :
    ((updateAt l i g).map F).sum = (l.map F).sum + d := by
  have := sum_map_updateAt F g l i a h
  omega

theorem sum_modifyScope_same (m : CodeModel) (i : ScopeId) (g : Scope → Scope)
    (F : Scope → Nat) (hg : ∀ s, F (g s) = F s) :
    ((m.modifyScope i g).scopes.map F).sum = (m.scopes.map F).sum :=
  sum_map_updateAt_same F g hg m.scopes i

theorem sum_modifyScope_add (m : CodeModel) (i : ScopeId) (g : Scope → Scope)
    (F : Scope → Nat) (d : Nat) (s : Scope) (hs : m.scopes[i]? = some s)
    (hg : F (g s) = F s + d) :
    ((m.modifyScope i g).scopes.map F).sum = (m.scopes.map F).sum + d :=
  sum_map_updateAt_add F g d m.scopes i s hs hg

theorem count_hashValue_hashAppend (h : VarRefs) (k k2 : QByteArray) (st x : SynTree) :
    (hashValue (hashAppend h k st) k2).count x
      = (hashValue h k2).count x + (if k2 = k then [st] else []).count x := by
  rw [hashValue_hashAppend, List.count_append]

theorem RefInv.stays_global {m m1 : CodeModel} (h : RefInv m) (hs : m1.scopes = m.scopes)
    (h1 : m1.d_allRhs = m.d_allRhs) (h2 : m1.d_allLhs = m.d_allLhs)
    (h3 : m1.d_allUnresolvedImports = m.d_allUnresolvedImports) : RefInv m1 :=
  ⟨fun k x => by rw [hs, h1]; exact h.rhs k x, fun k x => by rw [hs, h2]; exact h.lhs k x,
    fun x => by rw [hs, h3]; exact h.unres x⟩

theorem RefInv.stays_modify {m : CodeModel} (h : RefInv m) (i : ScopeId) (g : Scope → Scope)
    (hg : ∀ s, (g s).d_rhs = s.d_rhs ∧ (g s).d_lhs = s.d_lhs
      ∧ (g s).d_unresolvedImports = s.d_unresolvedImports) :
    RefInv (m.modifyScope i g) := by
  refine ⟨fun k x => ?_, fun k x => ?_, fun x => ?_⟩
  · rw [sum_modifyScope_same m i g (fun s => (hashValue s.d_rhs k).count x)
      (fun s => by simp only [(hg s).1])]
    exact h.rhs k x
  · rw [sum_modifyScope_same m i g (fun s => (hashValue s.d_lhs k).count x)
      (fun s => by simp only [(hg s).2.1])]
    exact h.lhs k x
  · rw [sum_modifyScope_same m i g (fun s => s.d_unresolvedImports.count x)
      (fun s => by simp only [(hg s).2.2])]
    exact h.unres x

theorem RefInv.stays_append {m m1 : CodeModel} (h : RefInv m) (s : Scope)
    (hs : m1.scopes = m.scopes ++ [s]) (h1 : m1.d_allRhs = m.d_allRhs)
    (h2 : m1.d_allLhs = m.d_allLhs)
    (h3 : m1.d_allUnresolvedImports = m.d_allUnresolvedImports)
    (e1 : s.d_rhs = []) (e2 : s.d_lhs = []) (e3 : s.d_unresolvedImports = []) : RefInv m1 := by
  refine ⟨fun k x => ?_, fun k x => ?_, fun x => ?_⟩
  · rw [hs, h1, ← h.rhs k x]
    simp only [List.map_append, List.sum_append, List.map_cons, List.map_nil, List.sum_cons,
      List.sum_nil, e1]
    rfl
  · rw [hs, h2]
    have := h.lhs k x
    simp only [List.map_append, List.sum_append, List.map_cons, List.map_nil, List.sum_cons,
      List.sum_nil, e2]
    exact this
  · rw [hs, h3, ← h.unres x]
    simp only [List.map_append, List.sum_append, List.map_cons, List.map_nil, List.sum_cons,
      List.sum_nil, e3]
    rfl

theorem RefInv.stays_newScope {m : CodeModel} (h : RefInv m) (sc : ScopeId) (st : SynTree)
    (kind : QByteArray) : RefInv (Gn.newScope m sc st kind).1 := by
  have h1 : RefInv { m with scopes := m.scopes ++ [{ d_outer := some sc }] } :=
    h.stays_append { d_outer := some sc } rfl rfl rfl rfl rfl rfl rfl
  have h2 := h1.stays_modify sc
    (fun s => { s with d_allScopes := s.d_allScopes ++ [m.scopes.length] })
    (fun s => ⟨rfl, rfl, rfl⟩)
  exact h2.stays_modify m.scopes.length (fun s => { s with d_st := some st, d_kind := kind })
    (fun s => ⟨rfl, rfl, rfl⟩)

/-- Every recording keeps `RefInv`. -/
theorem RefInv.stays_prim {m m1 : CodeModel} (hp : Prim m m1) (h : RefInv m) : RefInv m1 := by
  cases hp with
  | errs r => exact h.stays_global rfl rfl rfl rfl
  | funcRef k x => exact h.stays_global rfl rfl rfl rfl
  | loopVar v =>
    refine ⟨h.rhs, fun k x => ?_, h.unres⟩
    have := h.lhs k x
    show _ ≤ (hashValue (hashAppend m.d_allLhs v.d_tok.d_val v) k).count x
    rw [count_hashValue_hashAppend]
    exact Nat.le_trans this (Nat.le_add_right _ _)
  | varRhs _ st sc hv =>
    unfold Gn.varRhs at hv
    obtain ⟨_, _, hv⟩ := bind_ok hv
    obtain ⟨s, hs, hv⟩ := bind_ok hv
    have hs2 := scope_ok hs
    have := pure_ok hv
    subst this
    refine ⟨fun k x => ?_, fun k x => ?_, fun x => ?_⟩
    · have e := sum_modifyScope_add m sc
        (fun s => { s with d_rhs := hashAppend s.d_rhs st.d_tok.d_val st })
        (fun s => (hashValue s.d_rhs k).count x)
        ((if k = st.d_tok.d_val then [st] else []).count x) s hs2
        (count_hashValue_hashAppend _ _ _ _ _)
      show _ = (hashValue (hashAppend m.d_allRhs st.d_tok.d_val st) k).count x
      rw [count_hashValue_hashAppend, ← h.rhs k x]
      exact e
    · have e := sum_modifyScope_same m sc
        (fun s => { s with d_rhs := hashAppend s.d_rhs st.d_tok.d_val st })
        (fun s => (hashValue s.d_lhs k).count x) (fun s => rfl)
      exact Nat.le_trans (Nat.le_of_eq e) (h.lhs k x)
    · have e := sum_modifyScope_same m sc
        (fun s => { s with d_rhs := hashAppend s.d_rhs st.d_tok.d_val st })
        (fun s => s.d_unresolvedImports.count x) (fun s => rfl)
      exact e.trans (h.unres x)
  | varLhs _ st sc hv =>
    unfold Gn.varLhs at hv
    obtain ⟨_, _, hv⟩ := bind_ok hv
    obtain ⟨s, hs, hv⟩ := bind_ok hv
    have hs2 := scope_ok hs
    dsimp only at hv
    have key : RefInv { (m.modifyScope sc
        (fun s => { s with d_lhs := hashAppend s.d_lhs st.d_tok.d_val st })) with
        d_allLhs := hashAppend m.d_allLhs st.d_tok.d_val st } := by
      refine ⟨fun k x => ?_, fun k x => ?_, fun x => ?_⟩
      · have e := sum_modifyScope_same m sc
          (fun s => { s with d_lhs := hashAppend s.d_lhs st.d_tok.d_val st })
          (fun s => (hashValue s.d_rhs k).count x) (fun s => rfl)
        exact e.trans (h.rhs k x)
      · have e := sum_modifyScope_add m sc
          (fun s => { s with d_lhs := hashAppend s.d_lhs st.d_tok.d_val st })
          (fun s => (hashValue s.d_lhs k).count x)
          ((if k = st.d_tok.d_val then [st] else []).count x) s hs2
          (count_hashValue_hashAppend _ _ _ _ _)
        show _ ≤ (hashValue (hashAppend m.d_allLhs st.d_tok.d_val st) k).count x
        rw [count_hashValue_hashAppend]
        exact Nat.le_trans (Nat.le_of_eq e) (Nat.add_le_add_right (h.lhs k x) _)
      · have e := sum_modifyScope_same m sc
          (fun s => { s with d_lhs := hashAppend s.d_lhs st.d_tok.d_val st })
          (fun s => s.d_unresolvedImports.count x) (fun s => rfl)
        exact e.trans (h.unres x)
    split at hv
    · have := pure_ok hv
      subst this
      exact key.stays_global rfl rfl rfl rfl
    · have := pure_ok hv
      subst this
      exact key
  | newScope sc st kind hlt => exact h.stays_newScope sc st kind
  | params i p => exact h.stays_modify i _ (fun s => ⟨rfl, rfl, rfl⟩)
  | namedDef sc n sym =>
    have h1 := h.stays_modify sc
      (fun s => { s with d_objectDefs := hashInsert s.d_objectDefs sym n })
      (fun s => ⟨rfl, rfl, rfl⟩)
    have h2 : RefInv { (m.modifyScope sc (fun s => { s with d_objectDefs := hashInsert s.d_objectDefs sym n })) with d_allObjDefs := hashAppend m.d_allObjDefs sym n } :=
      h1.stays_global rfl rfl rfl rfl
    exact h2.stays_modify n (fun s => { s with d_name := sym }) (fun s => ⟨rfl, rfl, rfl⟩)
  | unnamed n => exact h.stays_global rfl rfl rfl rfl
  | imports k x => exact h.stays_global rfl rfl rfl rfl
  | resolved sc k res => exact h.stays_modify sc _ (fun s => ⟨rfl, rfl, rfl⟩)
  | unresolved sc arg hlt =>
    obtain ⟨s, hs2⟩ : ∃ s, m.scopes[sc]? = some s :=
      ⟨m.scopes.get ⟨sc, hlt⟩, List.getElem?_eq_getElem hlt⟩
    refine ⟨fun k x => ?_, fun k x => ?_, fun x => ?_⟩
    · have e := sum_modifyScope_same m sc
        (fun s => { s with d_unresolvedImports := s.d_unresolvedImports ++ [arg] })
        (fun s => (hashValue s.d_rhs k).count x) (fun s => rfl)
      exact e.trans (h.rhs k x)
    · have e := sum_modifyScope_same m sc
        (fun s => { s with d_unresolvedImports := s.d_unresolvedImports ++ [arg] })
        (fun s => (hashValue s.d_lhs k).count x) (fun s => rfl)
      exact Nat.le_trans (Nat.le_of_eq e) (h.lhs k x)
    · have e := sum_modifyScope_add m sc
        (fun s => { s with d_unresolvedImports := s.d_unresolvedImports ++ [arg] })
        (fun s => s.d_unresolvedImports.count x) ([arg].count x) s hs2 (List.count_append _ _ _)
      show _ = (m.d_allUnresolvedImports ++ [arg]).count x
      rw [List.count_append, ← h.unres x]
      exact e
  | unresolvedRef x => exact h.stays_global rfl rfl rfl rfl
  | fileScope pathSym _ =>
    exact h.stays_append { d_kind := m.d_fileKind, d_name := pathSym } rfl rfl rfl rfl rfl rfl rfl
  | fileDone i st => exact h.stays_modify i _ (fun s => ⟨rfl, rfl, rfl⟩)

/-- A sequence of recordings keeps `RefInv`. -/
theorem Steps.refInv {m m1 : CodeModel} (hs : Steps m m1) (h : RefInv m) : RefInv m1 := by
  induction hs with
  | refl => exact h
  | tail _ hp ih => exact ih.stays_prim hp

theorem RefInv.of_empty (m : CodeModel) (h0 : m.scopes = []) (h1 : m.d_allRhs = [])
    (h3 : m.d_allUnresolvedImports = []) : RefInv m := by
  refine ⟨fun k x => ?_, fun k x => ?_, fun x => ?_⟩
  · rw [h0, h1]; rfl
  · rw [h0]; exact Nat.zero_le _
  · rw [h0, h3]; rfl

/-- What `parseDir` returns is reached by recordings from a model without scopes and with
empty lists. -/
theorem parseDir_steps (env : Env) (de : DirEnv) (f : Nat) (dir : QByteArray)
    (m m1 : CodeModel) (b : Bool) (h : parseDir env de f dir m = Except.ok (m1, b)) :
    ∃ root, Steps { m.clear with d_sourceRoot := root } m1 := by
  have hfold : ∀ (files : List QByteArray) (m2 m3 : CodeModel),
      files.foldlM (fun m p => do
        let r ← parseFile env f p m
        pure r.1) m2 = Except.ok m3 → Steps m2 m3 := by
    intro files
    induction files with
    | nil =>
      intro m2 m3 h2
      have := pure_ok h2
      subst this
      exact Steps.none_made _
    | cons p ps ih =>
      intro m2 m3 h2
      rw [List.foldlM_cons] at h2
      obtain ⟨m4, h4, h5⟩ := bind_ok h2
      obtain ⟨r, hr, h6⟩ := bind_ok h4
      have := pure_ok h6
      subst this
      obtain ⟨m5, r5⟩ := r
      exact ((stepsAll env f).parseFile p m2 m5 r5 hr).followed_by (ih _ _ h5)
  unfold parseDir at h
  obtain ⟨dotfile, _, h⟩ := bind_ok h
  split at h
  · have e := congrArg (fun r => r.1) (pure_ok h)
    dsimp only at e
    rw [← e]
    exact ⟨m.d_sourceRoot, Steps.of_error _ _ _⟩
  · obtain ⟨files, _, h⟩ := bind_ok h
    obtain ⟨m2, h2, h⟩ := bind_ok h
    have e := congrArg (fun r => r.1) (pure_ok h)
    dsimp only at e
    rw [← e]
    exact ⟨_, hfold _ _ _ h2⟩

theorem count_flatten {α : Type} [DecidableEq α] (x : α) :
    ∀ ls : List (List α), ls.flatten.count x = (ls.map (fun l => l.count x)).sum := by
  intro ls
  induction ls with
  | nil => rfl
  | cons l rest ih => simp [List.count_append, ih]

theorem FileNames.no_files (m : CodeModel) (h : m.d_files = []) : FileNames m := by
  intro k id hk
  rw [h] at hk
  cases hk

theorem FileNames.global {m m1 : CodeModel} (h : FileNames m) (hs : m1.scopes = m.scopes)
    (hf : m1.d_files = m.d_files) : FileNames m1 := by
  intro k id hk
  rw [hf] at hk
  rw [hs]
  exact h k id hk

theorem FileNames.modify {m : CodeModel} (h : FileNames m) (i : ScopeId) (g : Scope → Scope)
    (hg : ∀ k id s, hashFind m.d_files k = some id → m.scopes[id]? = some s → id = i →
      (g s).d_name = s.d_name) :
    FileNames (m.modifyScope i g) := by
  intro k id hk
  obtain ⟨s, hs, hn⟩ := h k id hk
  by_cases e : id = i
  · refine ⟨g s, ?_, ?_⟩
    · rw [e, modifyScope_get_same, ← e, hs]; rfl
    · rw [hg k id s hk hs e, hn]
  · exact ⟨s, by rw [modifyScope_get_other _ _ _ _ e]; exact hs, hn⟩

theorem FileNames.with_more {m m1 : CodeModel} (h : FileNames m) (l : List Scope)
    (hs : m1.scopes = m.scopes ++ l) (hf : m1.d_files = m.d_files) : FileNames m1 := by
  intro k id hk
  rw [hf] at hk
  obtain ⟨s, hs2, hn⟩ := h k id hk
  refine ⟨s, ?_, hn⟩
  rw [hs, List.getElem?_append_left (List.getElem?_eq_some_iff.1 hs2).1]
  exact hs2

/-- Every recording keeps the names of the scopes of the Files map, in a forest. -/
theorem FileNames.keeps_prim {m m1 : CodeModel} (hp : Prim m m1) (hf : Forest m)
    (h : FileNames m) : FileNames m1 := by
  cases hp with
  | errs r => exact h.global rfl rfl
  | funcRef k x => exact h.global rfl rfl
  | loopVar x => exact h.global rfl rfl
  | varRhs _ st sc hv =>
    unfold Gn.varRhs at hv
    obtain ⟨_, _, hv⟩ := bind_ok hv
    obtain ⟨_, _, hv⟩ := bind_ok hv
    have := pure_ok hv
    subst this
    exact (h.modify sc (fun s => { s with d_rhs := hashAppend s.d_rhs st.d_tok.d_val st })
      (fun _ _ _ _ _ _ => rfl)).global rfl rfl
  | varLhs _ st sc hv =>
    unfold Gn.varLhs at hv
    obtain ⟨_, _, hv⟩ := bind_ok hv
    obtain ⟨_, _, hv⟩ := bind_ok hv
    dsimp only at hv
    split at hv
    · have := pure_ok hv
      subst this
      exact (h.modify sc (fun s => { s with d_lhs := hashAppend s.d_lhs st.d_tok.d_val st })
        (fun _ _ _ _ _ _ => rfl)).global rfl rfl
    · have := pure_ok hv
      subst this
      exact (h.modify sc (fun s => { s with d_lhs := hashAppend s.d_lhs st.d_tok.d_val st })
        (fun _ _ _ _ _ _ => rfl)).global rfl rfl
  | newScope sc st kind hlt =>
    have h1 : FileNames { m with scopes := m.scopes ++ [{ d_outer := some sc }] } :=
      h.with_more [{ d_outer := some sc }] rfl rfl
    have h2 := h1.modify sc
      (fun s => { s with d_allScopes := s.d_allScopes ++ [m.scopes.length] })
      (fun _ _ _ _ _ _ => rfl)
    have hnew : ∀ k id, hashFind m.d_files k = some id → id ≠ m.scopes.length := by
      intro k id hk e
      obtain ⟨s, hs, _⟩ := h k id hk
      have := (List.getElem?_eq_some_iff.1 hs).1
      exact absurd e (Nat.ne_of_lt this)
    exact h2.modify m.scopes.length (fun s => { s with d_st := some st, d_kind := kind })
      (fun k id s hk _ e => absurd e (hnew k id hk))
  | params i p => exact h.modify i _ (fun _ _ _ _ _ _ => rfl)
  | namedDef sc n sym hn =>
    have h1 := h.modify sc
      (fun s => { s with d_objectDefs := hashInsert s.d_objectDefs sym n })
      (fun _ _ _ _ _ _ => rfl)
    have h2 : FileNames { (m.modifyScope sc (fun s => { s with d_objectDefs := hashInsert s.d_objectDefs sym n })) with d_allObjDefs := hashAppend m.d_allObjDefs sym n } :=
      h1.global rfl rfl
    refine h2.modify n (fun s => { s with d_name := sym }) ?_
    intro k id s hk _ e
    exfalso
    obtain ⟨s0, o, hs0, ho⟩ := hn
    obtain ⟨q, hq, hq2⟩ := hf.file_outer k id hk
    rw [scopeShape_get, e, hs0] at hq
    cases hq
    have hq3 : s0.d_outer = none := hq2
    rw [ho] at hq3
    cases hq3
  | unnamed n => exact h.global rfl rfl
  | imports k x => exact h.global rfl rfl
  | resolved sc k res => exact h.modify sc _ (fun _ _ _ _ _ _ => rfl)
  | unresolved sc arg hlt =>
    exact (h.modify sc
      (fun s => { s with d_unresolvedImports := s.d_unresolvedImports ++ [arg] })
      (fun _ _ _ _ _ _ => rfl)).global rfl rfl
  | unresolvedRef x => exact h.global rfl rfl
  | fileScope pathSym hnone =>
    intro k id hk
    by_cases e : k = pathSym
    · have hk2 : hashFind (hashInsert m.d_files pathSym m.scopes.length) k
          = some m.scopes.length := by rw [e]; exact hashFind_hashInsert_same _ _ _
      have hk3 : some id = some m.scopes.length := hk.symm.trans hk2
      cases hk3
      refine ⟨{ d_kind := m.d_fileKind, d_name := pathSym }, ?_, e.symm⟩
      show (m.scopes ++ [_])[m.scopes.length]? = _
      simp
    · have hk2 : hashFind m.d_files k = some id := by
        rw [← hashFind_hashInsert_other m.d_files pathSym k m.scopes.length e]
        exact hk
      obtain ⟨s, hs, hn⟩ := h k id hk2
      refine ⟨s, ?_, hn⟩
      show (m.scopes ++ [_])[id]? = _
      rw [List.getElem?_append_left (List.getElem?_eq_some_iff.1 hs).1]
      exact hs
  | fileDone i st => exact h.modify i _ (fun _ _ _ _ _ _ => rfl)

/-- A sequence of recordings keeps the forest and the names of the scopes of the Files
map. -/
theorem Steps.fileNames {m m1 : CodeModel} (hs : Steps m m1) (hf : Forest m)
    (h : FileNames m) : Forest m1 ∧ FileNames m1 := by
  induction hs with
  | refl => exact ⟨hf, h⟩
  | tail _ hp ih => exact ⟨ih.1.after_prim hp, ih.2.keeps_prim hp ih.1⟩

/-- The scope that `parseFile` returns is that of the Files map under the symbol of the
path. -/
theorem parseFile_entry (env : Env) (fuel : Nat) (path : QByteArray) (m m1 : CodeModel)
    (id : ScopeId) (h : parseFile env fuel path m = Except.ok (m1, some id)) :
    hashFind m1.d_files (getSymbolBytes path) = some id := by
  cases fuel with
  | zero => rw [parseFile] at h; exact absurd h (fun h => throw_ok h)
  | succ f =>
    rw [parseFile] at h
    dsimp only at h
    split at h
    · rename_i id0 hk
      have e := pure_pair_ok h
      rw [← e.1]
      cases e.2
      exact hk
    · split at h
      · have e := (pure_pair_ok h).2
        cases e
      · obtain ⟨_, _, h⟩ := bind_ok h
        split at h
        · have e := (pure_pair_ok h).2
          cases e
        · obtain ⟨m2, h2, h⟩ := bind_ok h
          have e := pure_pair_ok h
          rw [← e.1]
          cases e.2
          have hs := (stepsAll env f).statementList _ _ _ _ h2
          exact hs.keep_files _ _ (hashFind_hashInsert_same _ _ _)

/-- The two outcomes of `import_` for a call with an argument: after the walks of the
argument and of the imported file, which lead from `m` to `m2`, either the scope that
`parseFile` has returned, the one of the Files map under the symbol of the path, is
inserted into the resolved imports of `sc` under its name, or the first argument is
appended to the unresolved imports of `sc` and to those of the model. -/
theorem import_outcome (env : Env) (fuel : Nat) (st c2 : SynTree) (sc : ScopeId)
    (m m1 : CodeModel) (hc2 : st.child 2 = Except.ok c2)
    (hty : c2.d_tok.d_type ≠ TokenType.Tok_Rpar)
    (h : import_ env fuel st sc m = Except.ok m1) :
    ∃ (arg : SynTree) (m2 : CodeModel), c2.first = Except.ok arg ∧ Steps m m2
      ∧ ((∃ (path : QByteArray) (resId : ScopeId) (r : Scope),
            hashFind m2.d_files (getSymbolBytes path) = some resId
            ∧ m2.scopes[resId]? = some r
            ∧ m1 = m2.modifyScope sc (fun s =>
                { s with d_relovedImports := hashInsert s.d_relovedImports r.d_name resId }))
        ∨ ((∃ s, m2.scopes[sc]? = some s)
            ∧ m1 = { (m2.modifyScope sc (fun s =>
                { s with d_unresolvedImports := s.d_unresolvedImports ++ [arg] })) with
                d_allUnresolvedImports := m2.d_allUnresolvedImports ++ [arg] })) := by
  cases fuel with
  | zero => rw [import_] at h; exact absurd h (fun h => throw_ok h)
  | succ f =>
    have IH := stepsAll env f
    rw [import_] at h
    obtain ⟨c2', hc2', h⟩ := bind_ok h
    rw [hc2] at hc2'
    cases hc2'
    rw [if_neg hty] at h
    obtain ⟨_, _, h⟩ := bind_ok h
    dsimp only at h
    obtain ⟨arg, harg, h⟩ := bind_ok h
    obtain ⟨r, hr, h⟩ := bind_ok h
    obtain ⟨m2, resolved⟩ := r
    dsimp only at h
    have key : (resolved = false ∧ Steps m m2)
        ∨ (resolved = true ∧ ∃ (m3 : CodeModel) (path : QByteArray) (resId : ScopeId)
            (r : Scope), Steps m m3
            ∧ hashFind m3.d_files (getSymbolBytes path) = some resId
            ∧ m3.scopes[resId]? = some r
            ∧ m2 = m3.modifyScope sc (fun s =>
                { s with d_relovedImports := hashInsert s.d_relovedImports r.d_name resId })) := by
      split at hr
      · obtain ⟨r3, hr3, hr⟩ := bind_ok hr
        obtain ⟨m3, ref⟩ := r3
        dsimp only at hr
        have f3 := IH.string _ _ _ _ _ hr3
        split at hr
        · obtain ⟨path, _, hr⟩ := bind_ok hr
          split at hr
          · have f4 := f3.followed_by (Steps.single (Prim.imports m3 (getSymbolBytes path) ref))
            split at hr
            · obtain ⟨r5, hr5, hr⟩ := bind_ok hr
              obtain ⟨m5, res⟩ := r5
              dsimp only at hr
              have f5 := f4.followed_by (IH.parseFile _ _ _ _ hr5)
              split at hr
              · rename_i resId
                obtain ⟨rs, hrs, hr⟩ := bind_ok hr
                have e := pure_pair_ok hr
                right
                exact ⟨e.2.symm, m5, path, resId, rs, f5,
                  parseFile_entry env f path _ m5 resId hr5, scope_ok hrs, e.1.symm⟩
              · have e := pure_pair_ok hr
                left
                rw [← e.1]
                exact ⟨e.2.symm, f5⟩
            · have e := pure_pair_ok hr
              left
              rw [← e.1]
              exact ⟨e.2.symm, f4.followed_by (Steps.of_warning _ _ _)⟩
          · have e := pure_pair_ok hr
            left
            rw [← e.1]
            exact ⟨e.2.symm, f3⟩
        · have e := pure_pair_ok hr
          left
          rw [← e.1]
          exact ⟨e.2.symm, f3⟩
      · obtain ⟨m3, h3, hr⟩ := bind_ok hr
        have e := pure_pair_ok hr
        left
        rw [← e.1]
        exact ⟨e.2.symm, IH.expr _ _ _ _ h3⟩
    rcases key with ⟨e, f2⟩ | ⟨e, m3, path, resId, rs, f3, k1, k2, k3⟩
    · subst e
      simp only [Bool.not_false, if_true] at h
      obtain ⟨s, hs, h⟩ := bind_ok h
      have := pure_ok h
      subst this
      exact ⟨arg, m2, harg, f2, Or.inr ⟨⟨s, scope_ok hs⟩, rfl⟩⟩
    · subst e
      simp only [Bool.not_true, Bool.false_eq_true, if_false] at h
      have := pure_ok h
      subst this
      exact ⟨arg, m3, harg, f3, Or.inl ⟨path, resId, rs, k1, k2, k3⟩⟩

theorem perm_of_refInv {m : CodeModel} (h : RefInv m) :
    List.Perm m.d_allUnresolvedImports
      (m.scopes.map (fun s => s.d_unresolvedImports)).flatten := by
  rw [List.perm_iff_count]
  intro x
  rw [count_flatten, List.map_map, ← h.unres x]
  rfl

/-- Claim C33, counterexample: the file `a.gni` imports `x.gni` (missing), `b.gni` and
`z.gni` (missing), and `b.gni` imports `y.gni` (missing). The unresolved imports of the
model are recorded in the order `x`, `y`, `z`; those of the scope of `a.gni` are `x`, `z`
and that of `b.gni` is `y`: the list of the model is the concatenation of the lists of the
scopes in neither order. -/
theorem unresolved_not_concatenation :
    (parseFile mixEnv 14 "/proj/a.gni".toList projModel).isOk = true
    ∧ argValues mixWalked.d_allUnresolvedImports
        = ["\"//x.gni\"".toList, "\"//y.gni\"".toList, "\"//z.gni\"".toList]
    ∧ mixWalked.scopes.map (fun s => (s.d_name, argValues s.d_unresolvedImports))
        = [("/proj/a.gni".toList, ["\"//x.gni\"".toList, "\"//z.gni\"".toList]),
            ("/proj/b.gni".toList, ["\"//y.gni\"".toList])]
    ∧ mixWalked.d_allUnresolvedImports
        ≠ (mixWalked.scopes.map (fun s => s.d_unresolvedImports)).flatten
    ∧ mixWalked.d_allUnresolvedImports
        ≠ (mixWalked.scopes.reverse.map (fun s => s.d_unresolvedImports)).flatten := by
  decide!

/-- Claim C33, amended: a call of `import_` with an argument, in a model whose scope graph
is a forest with the file scopes named by their keys, has one of two outcomes after the
walks of the argument and of the imported file (the recordings from `m` to `m2`): resolved,
where the root scope of the imported file, the one of the Files map under the symbol of
its path, is inserted into the resolved imports of the importing scope under this symbol,
and the call appends nothing to the unresolved lists; or unresolved, where the first
argument is appended once to the unresolved imports of the importing scope and once to
`allUnresolvedImports`, and nothing else is changed. Hence, after the call as after every
run of `parseDir`, `allUnresolvedImports` holds the nodes of the lists of all scopes
together, each as often as they hold it: it is a permutation of their concatenation. -/
theorem import_outcomes (env : Env) (fuel : Nat) (st c2 : SynTree) (sc : ScopeId)
    (m m1 : CodeModel) (hf : Forest m) (hn : FileNames m) (hr : RefInv m)
    (hc2 : st.child 2 = Except.ok c2) (hty : c2.d_tok.d_type ≠ TokenType.Tok_Rpar)
    (h : import_ env fuel st sc m = Except.ok m1) :
    (∃ (arg : SynTree) (m2 : CodeModel), c2.first = Except.ok arg ∧ Steps m m2
      ∧ ((∃ (path : QByteArray) (resId : ScopeId) (r : Scope),
            hashFind m2.d_files (getSymbolBytes path) = some resId
            ∧ m2.scopes[resId]? = some r ∧ r.d_name = getSymbolBytes path ∧ r.d_outer = none
            ∧ m1 = m2.modifyScope sc (fun s =>
                { s with d_relovedImports := hashInsert s.d_relovedImports (getSymbolBytes path) resId })
            ∧ m1.d_allUnresolvedImports = m2.d_allUnresolvedImports
            ∧ m1.scopes.map (fun s => s.d_unresolvedImports)
                = m2.scopes.map (fun s => s.d_unresolvedImports))
        ∨ (∃ s : Scope, m2.scopes[sc]? = some s
            ∧ m1.scopes[sc]?
                = some { s with d_unresolvedImports := s.d_unresolvedImports ++ [arg] }
            ∧ (∀ i, i ≠ sc → m1.scopes[i]? = m2.scopes[i]?)
            ∧ m1.d_allUnresolvedImports = m2.d_allUnresolvedImports ++ [arg]
            ∧ { m1 with scopes := m2.scopes,
                        d_allUnresolvedImports := m2.d_allUnresolvedImports } = m2)))
    ∧ Forest m1 ∧ FileNames m1 ∧ RefInv m1
    ∧ List.Perm m1.d_allUnresolvedImports
        (m1.scopes.map (fun s => s.d_unresolvedImports)).flatten
    ∧ (∀ (de : DirEnv) (f : Nat) (dir : QByteArray) (ma mb : CodeModel) (b : Bool),
        parseDir env de f dir ma = Except.ok (mb, b) →
        List.Perm mb.d_allUnresolvedImports
          (mb.scopes.map (fun s => s.d_unresolvedImports)).flatten) := by
  have hsteps : Steps m m1 := by
    cases fuel with
    | zero => rw [import_] at h; exact absurd h (fun h => throw_ok h)
    | succ f => exact (stepsAll env (f + 1)).import_ _ _ _ _ h
  have hfn := hsteps.fileNames hf hn
  have hri := hsteps.refInv hr
  refine ⟨?_, hfn.1, hfn.2, hri, perm_of_refInv hri, ?_⟩
  · obtain ⟨arg, m2, harg, hs2, hout⟩ := import_outcome env fuel st c2 sc m m1 hc2 hty h
    have hfn2 := hs2.fileNames hf hn
    refine ⟨arg, m2, harg, hs2, ?_⟩
    rcases hout with ⟨path, resId, r, k1, k2, k3⟩ | ⟨⟨s, hs⟩, k3⟩
    · left
      obtain ⟨r2, hr2, hname⟩ := hfn2.2 _ _ k1
      rw [k2] at hr2
      cases hr2
      obtain ⟨q, hq, hq2⟩ := hfn2.1.file_outer _ _ k1
      rw [scopeShape_get, k2] at hq
      cases hq
      rw [hname] at k3
      refine ⟨path, resId, r, k1, k2, hname, hq2, k3, ?_, ?_⟩
      · rw [k3]; rfl
      · rw [k3]
        exact map_updateAt (fun (s : Scope) => s.d_unresolvedImports)
          (fun (s : Scope) => { s with d_relovedImports := hashInsert s.d_relovedImports (getSymbolBytes path) resId })
          (fun _ => rfl) m2.scopes sc
    · right
      refine ⟨s, hs, ?_, ?_, ?_, ?_⟩
      · rw [k3]
        show (m2.modifyScope sc _).scopes[sc]? = _
        rw [modifyScope_get_same, hs]
        rfl
      · intro i hi
        rw [k3]
        exact modifyScope_get_other m2 sc i _ hi
      · rw [k3]
      · rw [k3]
        rfl
  · intro de f dir ma mb b hp
    obtain ⟨root, hs⟩ := parseDir_steps env de f dir ma mb b hp
    exact perm_of_refInv (hs.refInv (RefInv.of_empty _ rfl rfl rfl))

theorem import_outcomes_witness :
    (Forest importerModel ∧ FileNames importerModel ∧ RefInv importerModel
      ∧ importCallB.child 2
          = Except.ok (ruleNode TokenType.R_ExprList [exprNode (stringNode 2 8 "\"//b.gni\"")])
      ∧ (ruleNode TokenType.R_ExprList [exprNode (stringNode 2 8 "\"//b.gni\"")]).d_tok.d_type
          ≠ TokenType.Tok_Rpar
      ∧ import_ mixEnv 12 importCallB 0 importerModel = Except.ok importedModel)
    ∧ List.Perm importedModel.d_allUnresolvedImports
        (importedModel.scopes.map (fun s => s.d_unresolvedImports)).flatten
    ∧ importedModel.scopes.map
          (fun s => (s.d_name, s.d_relovedImports, argValues s.d_unresolvedImports))
        = [("/proj/a.gni".toList, [("/proj/b.gni".toList, 1)], []),
            ("/proj/b.gni".toList, [], ["\"//y.gni\"".toList])]
    ∧ argValues importedModel.d_allUnresolvedImports = ["\"//y.gni\"".toList] := by
  have hF : Forest importerModel :=
    Forest.after_prim (Prim.fileScope projModel "/proj/a.gni".toList rfl)
      ((Forest.cleared {}).of_shape rfl rfl)
  have hN : FileNames importerModel :=
    FileNames.keeps_prim (Prim.fileScope projModel "/proj/a.gni".toList rfl)
      ((Forest.cleared {}).of_shape rfl rfl) (FileNames.no_files _ rfl)
  have hR : RefInv importerModel :=
    RefInv.stays_prim (Prim.fileScope projModel "/proj/a.gni".toList rfl)
      (RefInv.of_empty _ rfl rfl rfl)
  have hW : import_ mixEnv 12 importCallB 0 importerModel = Except.ok importedModel :=
    walk_eq_ok _ _ (by decide!)
  exact ⟨⟨hF, hN, hR, rfl, by decide, hW⟩,
    (import_outcomes mixEnv 12 importCallB _ 0 importerModel importedModel hF hN hR rfl
      (by decide) hW).2.2.2.2.1,
    by decide!, by decide!⟩

/-! ## The lookup of a named object through the imports -/

/-- A name of the local object definitions is found there, whatever the flags. -/
theorem findObject_local (env : Env) (m : CodeModel) (f : Nat) (self : ScopeId) (s : Scope)
    (name : QByteArray) (o : ScopeId) (recursive imports : Bool)
    (hs : m.scopes[self]? = some s) (ho : hashFind s.d_objectDefs name = some o) :
    findObject env m (f + 1) self name recursive imports = Except.ok (some o) := by
  rw [findObject]
  simp only [CodeModel.scope, hs, ho, bind, Except.bind, pure, Except.pure]

/-- The lookup in a scope without `outer` that does not define the name goes to the
resolved imports when `imports` is set, and is null otherwise. -/
theorem findObject_root (env : Env) (m : CodeModel) (f : Nat) (self : ScopeId) (s : Scope)
    (name : QByteArray) (recursive imports : Bool)
    (hs : m.scopes[self]? = some s) (ho : hashFind s.d_objectDefs name = none)
    (hout : s.d_outer = none) :
    findObject env m (f + 1) self name recursive imports =
      if imports then
        s.d_relovedImports.foldlM
          (fun acc i =>
            match acc with
            | some o => pure (some o)
            | none => findObject env m f i.2 name recursive env.findObjectImports)
          none
      else pure none := by
  rw [findObject]
  simp only [CodeModel.scope, hs, ho, hout, bind, Except.bind, pure, Except.pure]

/-- Two scopes without `outer` that have each other as their first resolved import and do
not define the name: when the nested calls of `findObject` follow the imports, the lookup
does not end. -/
theorem findObject_cycle (env : Env) (m : CodeModel) (a b : ScopeId) (sa sb : Scope)
    (ka kb : QByteArray) (ra rb : ScopeHash) (name : QByteArray) (recursive : Bool)
    (himp : env.findObjectImports = true)
    (ha : m.scopes[a]? = some sa) (hb : m.scopes[b]? = some sb)
    (hao : sa.d_outer = none) (hbo : sb.d_outer = none)
    (han : hashFind sa.d_objectDefs name = none) (hbn : hashFind sb.d_objectDefs name = none)
    (hai : sa.d_relovedImports = (kb, b) :: ra) (hbi : sb.d_relovedImports = (ka, a) :: rb) :
    ∀ fuel, findObject env m fuel a name recursive true = Except.error WalkError.fuel
      ∧ findObject env m fuel b name recursive true = Except.error WalkError.fuel := by
  intro fuel
  induction fuel with
  | zero => exact ⟨by rw [findObject]; rfl, by rw [findObject]; rfl⟩
  | succ f ih =>
    refine ⟨?_, ?_⟩
    · rw [findObject_root env m f a sa name recursive true ha han hao, if_pos rfl, hai,
        List.foldlM_cons]
      dsimp only
      rw [himp, ih.2]
      rfl
    · rw [findObject_root env m f b sb name recursive true hb hbn hbo, if_pos rfl, hbi,
        List.foldlM_cons]
      dsimp only
      rw [himp, ih.1]
      rfl

/-- A fold over the imports that tries them until one gives an object does not run out of
fuel when no single lookup does. -/
theorem foldlM_imports_fuel (g : QByteArray × ScopeId → Walk (Option ScopeId))
    (l : ScopeHash) (h : ∀ i ∈ l, g i ≠ Except.error WalkError.fuel) (acc : Option ScopeId) :
    l.foldlM
        (fun acc i =>
          match acc with
          | some o => pure (some o)
          | none => g i)
        acc ≠ Except.error WalkError.fuel := by
  induction l generalizing acc with
  | nil => intro e; cases e
  | cons i l ih =>
    rw [List.foldlM_cons]
    cases acc with
    | some o => exact ih (fun j hj => h j (List.mem_cons_of_mem _ hj)) (some o)
    | none =>
      have hi := h i (List.mem_cons_self _ _)
      cases hg : g i with
      | error e =>
        intro e2
        apply hi
        rw [hg]
        simp only [hg, bind, Except.bind, pure, Except.pure] at e2
        exact e2
      | ok r =>
        simp only [hg, bind, Except.bind, pure, Except.pure]
        exact ih (fun j hj => h j (List.mem_cons_of_mem _ hj)) r

/-- When the nested calls of `findObject` do not follow the imports, a lookup without the
imports on a forest needs no more fuel than the index of the scope. -/
theorem findObject_flat (env : Env) (m : CodeModel) (hf : Forest m)
    (himp : env.findObjectImports = false) (name : QByteArray) (recursive : Bool) :
    ∀ (fuel : Nat) (self : ScopeId), self < fuel ∨ (m.scopes.length ≤ self ∧ 1 ≤ fuel) →
      findObject env m fuel self name recursive false ≠ Except.error WalkError.fuel := by
  intro fuel
  induction fuel with
  | zero =>
    intro self h
    rcases h with h | ⟨_, h⟩
    · exact absurd h (Nat.not_lt_zero _)
    · exact absurd h (by decide)
  | succ f ih =>
    intro self h
    rw [findObject]
    cases hs : m.scopes[self]? with
    | none =>
      simp only [CodeModel.scope, hs, bind, Except.bind, pure, Except.pure]
      intro e; cases e
    | some s =>
      have hlt : self < m.scopes.length := by
        rcases Nat.lt_or_ge self m.scopes.length with h1 | h1
        · exact h1
        · rw [List.getElem?_eq_none h1] at hs; cases hs
      have hsf : self < f + 1 := by
        rcases h with h | ⟨h, _⟩
        · exact h
        · exact absurd hlt (Nat.not_lt.2 h)
      cases ho : hashFind s.d_objectDefs name with
      | some o =>
        simp only [CodeModel.scope, hs, ho, bind, Except.bind, pure, Except.pure]
        intro e; cases e
      | none =>
        cases hout : s.d_outer with
        | none =>
          simp only [CodeModel.scope, hs, ho, hout, bind, Except.bind, pure, Except.pure]
          intro e; cases e
        | some o =>
          cases recursive with
          | false =>
            simp only [CodeModel.scope, hs, ho, hout, bind, Except.bind, pure, Except.pure]
            intro e; cases e
          | true =>
            have hol : o < self :=
              hf.outer_lt self (s.d_allScopes, s.d_outer) o
                (by rw [scopeShape_get, hs]; rfl) hout
            have h2 := ih o (Or.inl (Nat.lt_of_lt_of_le hol (Nat.lt_succ_iff.1 hsf)))
            cases hr : findObject env m f o name true false with
            | error e =>
              simp only [CodeModel.scope, hs, ho, hout, himp, hr, bind, Except.bind, pure, Except.pure, if_true]
              intro e2
              apply h2
              rw [hr]
              exact e2
            | ok r =>
              cases r with
              | some o2 =>
                simp only [CodeModel.scope, hs, ho, hout, himp, hr, bind, Except.bind, pure, Except.pure, if_true]
                intro e; cases e
              | none =>
                simp only [CodeModel.scope, hs, ho, hout, himp, hr, bind, Except.bind, pure, Except.pure, if_true]
                intro e; cases e

/-- When the nested calls of `findObject` do not follow the imports, every lookup on a
forest returns with one unit of fuel per scope and two more. -/
theorem findObject_flat_top (env : Env) (m : CodeModel) (hf : Forest m)
    (himp : env.findObjectImports = false) (name : QByteArray) (recursive imports : Bool)
    (fuel : Nat) (self : ScopeId) (hfuel : m.scopes.length + 2 ≤ fuel) :
    findObject env m fuel self name recursive imports ≠ Except.error WalkError.fuel := by
  obtain ⟨f, rfl⟩ : ∃ f, fuel = f + 1 := ⟨fuel - 1, by omega⟩
  have hfl : m.scopes.length + 1 ≤ f := by omega
  have hall : ∀ i : ScopeId,
      findObject env m f i name recursive false ≠ Except.error WalkError.fuel := by
    intro i
    apply findObject_flat env m hf himp name recursive f i
    rcases Nat.lt_or_ge i m.scopes.length with h1 | h1
    · exact Or.inl (Nat.lt_of_lt_of_le h1 (Nat.le_of_succ_le hfl))
    · exact Or.inr ⟨h1, Nat.le_trans (Nat.le_add_left 1 _) hfl⟩
  rw [findObject]
  cases hs : m.scopes[self]? with
  | none =>
    simp only [CodeModel.scope, hs, bind, Except.bind, pure, Except.pure]
    intro e; cases e
  | some s =>
    cases ho : hashFind s.d_objectDefs name with
    | some o =>
      simp only [CodeModel.scope, hs, ho, bind, Except.bind, pure, Except.pure]
      intro e; cases e
    | none =>
      have hfold : ∀ acc : Option ScopeId,
          s.d_relovedImports.foldlM
            (fun acc i =>
              match acc with
              | some o => pure (some o)
              | none => findObject env m f i.2 name recursive false)
            acc ≠ Except.error WalkError.fuel :=
        foldlM_imports_fuel (fun i => findObject env m f i.2 name recursive false)
          s.d_relovedImports (fun i _ => hall i.2)
      have hend : (if imports then
            s.d_relovedImports.foldlM
              (fun acc i =>
                match acc with
                | some o => pure (some o)
                | none => findObject env m f i.2 name recursive false)
              none
          else (pure none : Walk (Option ScopeId))) ≠ Except.error WalkError.fuel := by
        cases imports with
        | false => intro e; cases e
        | true => exact hfold none
      cases hout : s.d_outer with
      | none =>
        simp only [CodeModel.scope, hs, ho, hout, himp, bind, Except.bind, pure, Except.pure]
        exact hend
      | some o =>
        cases recursive with
        | false =>
          simp only [CodeModel.scope, hs, ho, hout, himp, bind, Except.bind, pure, Except.pure]
          exact hend
        | true =>
          cases hr : findObject env m f o name true false with
          | error e =>
            simp only [CodeModel.scope, hs, ho, hout, himp, hr, bind, Except.bind, pure, Except.pure, if_true]
            intro e2
            apply hall o
            rw [hr]
            exact e2
          | ok r =>
            cases r with
            | some o2 =>
              simp only [CodeModel.scope, hs, ho, hout, himp, hr, bind, Except.bind, pure, Except.pure, if_true]
              intro e; cases e
            | none =>
              simp only [CodeModel.scope, hs, ho, hout, himp, hr, bind, Except.bind, pure, Except.pure, if_true]
              exact hend

/-- In the model of the two files that import each other, the scopes 0 and 1 are the two
files, each without `outer`, without the object `zzz` and with the other one as its only
resolved import. -/
theorem cycleWalked_shape :
    cycleEnv.findObjectImports = true
    ∧ cycleWalked.1.scopes[0]? = some (cycleWalked.1.scopes.getD 0 {})
    ∧ cycleWalked.1.scopes[1]? = some (cycleWalked.1.scopes.getD 1 {})
    ∧ (cycleWalked.1.scopes.getD 0 {}).d_outer = none
    ∧ (cycleWalked.1.scopes.getD 1 {}).d_outer = none
    ∧ hashFind (cycleWalked.1.scopes.getD 0 {}).d_objectDefs "zzz".toList = none
    ∧ hashFind (cycleWalked.1.scopes.getD 1 {}).d_objectDefs "zzz".toList = none
    ∧ (cycleWalked.1.scopes.getD 0 {}).d_relovedImports = [("/proj/b.gni".toList, 1)]
    ∧ (cycleWalked.1.scopes.getD 1 {}).d_relovedImports = [("/proj/a.gni".toList, 0)]
    ∧ getScope cycleWalked.1 "/proj/a.gni".toList = some 0 := by
  refine ⟨rfl, ?_, ?_, ?_, ?_, ?_, ?_, ?_, ?_, ?_⟩
  · decide!
  · decide!
  · decide!
  · decide!
  · decide!
  · decide!
  · decide!
  · decide!
  · decide!

/-- The lookup of the label `:zzz` from `/proj/a.gni` is the lookup of the object `zzz` in
the scope of that file with the default of `imports`. -/
theorem findFromPath_label_zzz (env : Env) (m : CodeModel) (fuel : Nat) (id : ScopeId)
    (h : getScope m "/proj/a.gni".toList = some id) :
    findFromPath env m fuel ":zzz".toList "/proj/a.gni".toList =
      (findObject env m fuel id "zzz".toList true env.findObjectImports >>= fun o =>
        match o with
        | some o => m.scope o >>= fun os => pure os.d_st
        | none => pure none) := by
  have e : extractPathIdentFromString ":zzz".toList = ([], "zzz".toList) := by decide
  have e2 : getSymbolBytes "zzz".toList = "zzz".toList := by decide
  have c1 : ([] : QByteArray).isEmpty = true := rfl
  have c2 : "zzz".toList.isEmpty = false := rfl
  have c3 : ":zzz".toList.isEmpty = false := rfl
  unfold findFromPath
  simp only [e, c1, c2, c3, Bool.not_true, Bool.not_false, Bool.false_and, Bool.true_and,
    Bool.false_eq_true, if_false, if_true, h, e2]

/-- In the model of the file that imports itself, the scope 0 is the file, without `outer`,
without the object `zzz` and with itself as its only resolved import. -/
theorem selfWalked_shape :
    selfWalked.1.scopes[0]? = some (selfWalked.1.scopes.getD 0 {})
    ∧ (selfWalked.1.scopes.getD 0 {}).d_outer = none
    ∧ hashFind (selfWalked.1.scopes.getD 0 {}).d_objectDefs "zzz".toList = none
    ∧ (selfWalked.1.scopes.getD 0 {}).d_relovedImports = [("/proj/self.gni".toList, 0)] := by
  refine ⟨?_, ?_, ?_, ?_⟩
  · decide!
  · decide!
  · decide!
  · decide!

/-- The names, the `outer` and the resolved imports of the scopes of the two models. -/
theorem cycle_scopes :
    cycleWalked.1.scopes.map (fun s => (s.d_name, s.d_outer, s.d_relovedImports))
        = [("/proj/a.gni".toList, none, [("/proj/b.gni".toList, 1)]),
           ("/proj/b.gni".toList, none, [("/proj/a.gni".toList, 0)])]
    ∧ selfWalked.1.scopes.map (fun s => (s.d_name, s.d_outer, s.d_relovedImports))
        = [("/proj/self.gni".toList, none, [("/proj/self.gni".toList, 0)])] := by
  refine ⟨?_, ?_⟩
  · decide!
  · decide!

/-- The lookup of `zzz` in the two files that import each other does not end. -/
theorem cycle_lookup (fuel : Nat) :
    findObject cycleEnv cycleWalked.1 fuel 0 "zzz".toList true true
      = Except.error WalkError.fuel :=
  have hsh := cycleWalked_shape
  (findObject_cycle cycleEnv cycleWalked.1 0 1 _ _ _ _ [] [] "zzz".toList true hsh.1
    hsh.2.1 hsh.2.2.1 hsh.2.2.2.1 hsh.2.2.2.2.1 hsh.2.2.2.2.2.1 hsh.2.2.2.2.2.2.1
    hsh.2.2.2.2.2.2.2.1 hsh.2.2.2.2.2.2.2.2.1 fuel).1

/-- The lookup of `zzz` in the file that imports itself does not end. -/
theorem self_lookup (fuel : Nat) :
    findObject cycleEnv selfWalked.1 fuel 0 "zzz".toList true true
      = Except.error WalkError.fuel :=
  have hsh := selfWalked_shape
  (findObject_cycle cycleEnv selfWalked.1 0 0 _ _ _ _ [] [] "zzz".toList true
    cycleWalked_shape.1 hsh.1 hsh.1 hsh.2.1 hsh.2.1 hsh.2.2.1 hsh.2.2.1 hsh.2.2.2 hsh.2.2.2
    fuel).1

/-- The lookup of the label `:zzz` of `/proj/a.gni` does not end. -/
theorem cycle_label (fuel : Nat) :
    findFromPath cycleEnv cycleWalked.1 fuel ":zzz".toList "/proj/a.gni".toList
      = Except.error WalkError.fuel := by
  rw [findFromPath_label_zzz cycleEnv cycleWalked.1 fuel 0 cycleWalked_shape.2.2.2.2.2.2.2.2.2,
    cycleWalked_shape.1, cycle_lookup fuel]
  rfl

/-- The definition of a string token is looked up as a label. -/
theorem findDefinition_string (env : Env) (m : CodeModel) (fuel : Nat) (st : SynTree)
    (h : st.d_tok.d_type = TokenType.Tok_string) :
    findDefinition env m fuel (some st) =
      findFromPath env m fuel (env.getEscapedVal st.d_tok) st.d_tok.d_sourcePath := by
  rw [findDefinition]
  exact if_pos h

/-- The type, the escaped value and the source path of the string token `":zzz"`. -/
theorem labelNode_token :
    labelNode.d_tok.d_type = TokenType.Tok_string
    ∧ cycleEnv.getEscapedVal labelNode.d_tok = ":zzz".toList
    ∧ labelNode.d_tok.d_sourcePath = "/proj/a.gni".toList := by
  refine ⟨?_, ?_, ?_⟩
  · decide!
  · decide!
  · decide!

/-- The lookup of the definition of the string `":zzz"` of `/proj/a.gni` does not end. -/
theorem cycle_definition (fuel : Nat) :
    findDefinition cycleEnv cycleWalked.1 fuel (some labelNode)
      = Except.error WalkError.fuel := by
  rw [findDefinition_string _ _ _ _ labelNode_token.1, labelNode_token.2.1,
    labelNode_token.2.2]
  exact cycle_label fuel

/-- When the nested calls leave the imports out, the lookup of `zzz` in the two files
that import each other is null. -/
theorem cycle_lookup_flat :
    findObject flatEnv cycleWalked.1 4 0 "zzz".toList true false = Except.ok none :=
  (walk_eq_ok _ none (by decide!)).trans (congrArg Except.ok (by decide!))

/-- When the nested calls leave the imports out, the lookup of the label `:zzz` of
`/proj/a.gni` is null. -/
theorem cycle_label_flat :
    findFromPath flatEnv cycleWalked.1 4 ":zzz".toList "/proj/a.gni".toList
      = Except.ok none := by
  rw [findFromPath_label_zzz flatEnv cycleWalked.1 4 0 cycleWalked_shape.2.2.2.2.2.2.2.2.2,
    show flatEnv.findObjectImports = false from rfl, cycle_lookup_flat]
  rfl

/-- Claim C40. `Scope::findObject` gives the object of the local object definitions when
the name is there, otherwise what the lookup in `outer` gives, otherwise the first object
that a resolved import gives, otherwise null. With the import lookup on in the nested calls
it does not return on two files that import each other when neither defines the name: the
lookup runs out of every amount of fuel, as it does for the label `:zzz` in the model of
`/proj/a.gni` and `/proj/b.gni` and in that of the file that imports itself. When the
nested calls leave the imports out, every lookup on a model that `parseDir` gives
returns. -/
theorem findObject_import_cycle (env : Env) (m : CodeModel) :
    (∀ (f : Nat) (self : ScopeId) (s : Scope) (name : QByteArray) (o : ScopeId)
        (recursive imports : Bool), m.scopes[self]? = some s →
        hashFind s.d_objectDefs name = some o →
        findObject env m (f + 1) self name recursive imports = Except.ok (some o))
    ∧ (∀ (f : Nat) (self : ScopeId) (s : Scope) (name : QByteArray) (outer o : ScopeId)
        (imports : Bool), m.scopes[self]? = some s → hashFind s.d_objectDefs name = none →
        s.d_outer = some outer →
        findObject env m f outer name true env.findObjectImports = Except.ok (some o) →
        findObject env m (f + 1) self name true imports = Except.ok (some o))
    ∧ (∀ (f : Nat) (self : ScopeId) (s : Scope) (name : QByteArray)
        (recursive imports : Bool), m.scopes[self]? = some s →
        hashFind s.d_objectDefs name = none → s.d_outer = none →
        findObject env m (f + 1) self name recursive imports =
          if imports then
            s.d_relovedImports.foldlM
              (fun acc i =>
                match acc with
                | some o => pure (some o)
                | none => findObject env m f i.2 name recursive env.findObjectImports)
              none
          else pure none)
    ∧ (env.findObjectImports = true →
        ∀ (a b : ScopeId) (sa sb : Scope) (ka kb : QByteArray) (ra rb : ScopeHash)
          (name : QByteArray) (recursive : Bool),
          m.scopes[a]? = some sa → m.scopes[b]? = some sb →
          sa.d_outer = none → sb.d_outer = none →
          hashFind sa.d_objectDefs name = none → hashFind sb.d_objectDefs name = none →
          sa.d_relovedImports = (kb, b) :: ra → sb.d_relovedImports = (ka, a) :: rb →
          ∀ fuel, findObject env m fuel a name recursive true = Except.error WalkError.fuel
            ∧ findObject env m fuel b name recursive true = Except.error WalkError.fuel)
    ∧ (env.findObjectImports = false →
        (Forest m → ∀ (fuel : Nat) (self : ScopeId) (name : QByteArray)
          (recursive imports : Bool), m.scopes.length + 2 ≤ fuel →
          findObject env m fuel self name recursive imports ≠ Except.error WalkError.fuel)
        ∧ (∀ (de : DirEnv) (f : Nat) (dir : QByteArray) (m1 : CodeModel) (b : Bool),
            parseDir env de f dir m = Except.ok (m1, b) →
            ∀ (fuel : Nat) (self : ScopeId) (name : QByteArray) (recursive imports : Bool),
              m1.scopes.length + 2 ≤ fuel →
              findObject env m1 fuel self name recursive imports
                ≠ Except.error WalkError.fuel))
    ∧ (parseFile cycleEnv 14 "/proj/a.gni".toList projModel).isOk = true
    ∧ (parseFile cycleEnv 14 "/proj/self.gni".toList projModel).isOk = true
    ∧ cycleWalked.1.scopes.map (fun s => (s.d_name, s.d_outer, s.d_relovedImports))
        = [("/proj/a.gni".toList, none, [("/proj/b.gni".toList, 1)]),
           ("/proj/b.gni".toList, none, [("/proj/a.gni".toList, 0)])]
    ∧ selfWalked.1.scopes.map (fun s => (s.d_name, s.d_outer, s.d_relovedImports))
        = [("/proj/self.gni".toList, none, [("/proj/self.gni".toList, 0)])]
    ∧ cycleEnv.findObjectImports = true
    ∧ (∀ fuel, findObject cycleEnv cycleWalked.1 fuel 0 "zzz".toList true true
        = Except.error WalkError.fuel)
    ∧ (∀ fuel, findObject cycleEnv selfWalked.1 fuel 0 "zzz".toList true true
        = Except.error WalkError.fuel)
    ∧ (∀ fuel, findFromPath cycleEnv cycleWalked.1 fuel ":zzz".toList "/proj/a.gni".toList
        = Except.error WalkError.fuel)
    ∧ (labelNode.d_tok.d_type = TokenType.Tok_string
        ∧ labelNode.d_tok.d_val = "\":zzz\"".toList
        ∧ labelNode.d_tok.d_sourcePath = "/proj/a.gni".toList
        ∧ ∀ fuel, findDefinition cycleEnv cycleWalked.1 fuel (some labelNode)
          = Except.error WalkError.fuel)
    ∧ flatEnv.findObjectImports = false
    ∧ findFromPath flatEnv cycleWalked.1 4 ":zzz".toList "/proj/a.gni".toList
        = Except.ok none := by
  refine ⟨?_, ?_, ?_, ?_, ?_, cycle_walk.1, self_walk.1, cycle_scopes.1, cycle_scopes.2,
    cycleWalked_shape.1, cycle_lookup, self_lookup, cycle_label,
    ⟨labelNode_token.1, by decide!, labelNode_token.2.2, cycle_definition⟩, rfl,
    cycle_label_flat⟩
  · intro f self s name o recursive imports hs ho
    exact findObject_local env m f self s name o recursive imports hs ho
  · intro f self s name outer o imports hs ho hout hr
    rw [findObject]
    simp only [CodeModel.scope, hs, ho, hout, hr, bind, Except.bind, pure, Except.pure,
      if_true]
  · intro f self s name recursive imports hs ho hout
    exact findObject_root env m f self s name recursive imports hs ho hout
  · intro himp a b sa sb ka kb ra rb name recursive ha hb hao hbo han hbn hai hbi
    exact findObject_cycle env m a b sa sb ka kb ra rb name recursive himp ha hb hao hbo
      han hbn hai hbi
  · intro himp
    refine ⟨?_, ?_⟩
    · intro hf fuel self name recursive imports hfuel
      exact findObject_flat_top env m hf himp name recursive imports fuel self hfuel
    · intro de f dir m1 b hp fuel self name recursive imports hfuel
      obtain ⟨root, hs⟩ := parseDir_steps env de f dir m m1 b hp
      exact findObject_flat_top env m1
        (hs.forest ((Forest.cleared m).of_shape rfl rfl)) himp name recursive imports fuel
        self hfuel

/-! ## The scan for `$` at the end of a string -/

theorem Frame.count_objDefs {N : Nat} {sc : ScopeId} {m m1 : CodeModel} (h : Frame N sc m m1)
    {i : ScopeId} (k : QByteArray) (hN : i < N) :
    (hashValue m1.d_allObjDefs k).count i = (hashValue m.d_allObjDefs k).count i := by
  obtain ⟨ext, he, hb⟩ := h.objDefs k
  rw [he, List.count_append]
  have : ext.count i = 0 :=
    List.count_eq_zero.2 (fun hm => absurd hN (Nat.not_lt.2 (hb i hm)))
  rw [this, Nat.add_zero]

theorem Frame.count_unnamed {N : Nat} {sc : ScopeId} {m m1 : CodeModel} (h : Frame N sc m m1)
    {i : ScopeId} (hN : i < N) :
    m1.d_allUnnamedObjs.count i = m.d_allUnnamedObjs.count i := by
  obtain ⟨ext, he, hb⟩ := h.unnamed
  rw [he, List.count_append]
  have : ext.count i = 0 :=
    List.count_eq_zero.2 (fun hm => absurd hN (Nat.not_lt.2 (hb i hm)))
  rw [this, Nat.add_zero]

/-- A later walk under the new scope keeps what `namedObj_` registered. -/
theorem NamedObjExact.frame {n sc : ScopeId} {st : SynTree} {kind : QByteArray}
    {M M1 : CodeModel} {named : Option QByteArray}
    (hr : NamedObjExact n sc st kind M named)
    (hf : Frame M.scopes.length n M M1) (hne : sc ≠ n) :
    NamedObjExact n sc st kind M1 named := by
  obtain ⟨s, sc1, hs, h1, h2, h3, hsc, hch, hnamed⟩ := hr
  have hnlt : n < M.scopes.length := (List.getElem?_eq_some_iff.1 hs).1
  have hsclt : sc < M.scopes.length := (List.getElem?_eq_some_iff.1 hsc).1
  obtain ⟨s1, hs1, a1, a2, a3, a4, _, _⟩ := hf.self s hs
  have hsc1 : M1.scopes[sc]? = some sc1 := by
    rw [hf.others sc hsclt hne]; exact hsc
  refine ⟨s1, sc1, hs1, a1.trans h1, a2.trans h2, a4.trans h3, hsc1, hch, ?_⟩
  cases named with
  | some sym =>
    obtain ⟨b1, b2, b3, b4, b5⟩ := hnamed
    exact ⟨a3.trans b1, (hf.count_objDefs sym hnlt).trans b2,
      fun k hk => (hf.count_objDefs k hnlt).trans (b3 k hk), b4,
      (hf.count_unnamed hnlt).trans b5⟩
  | none =>
    obtain ⟨b1, b2, b3⟩ := hnamed
    exact ⟨a3.trans b1, (hf.count_unnamed hnlt).trans b2,
      fun k => (hf.count_objDefs k hnlt).trans (b3 k)⟩

/-- The registration that `namedObj_` leaves in the model that it returns, for a call
with at least one argument: each registration is made once. -/
theorem namedObj_exact (env : Env) (f : Nat) (st c2 arg : SynTree) (sc : ScopeId)
    (kind : QByteArray) (m m1 : CodeModel) (hwf : m.ObjsInArena) (hch : m.ChildrenInArena)
    (hc2 : st.d_children[2]? = some c2) (hargs : c2.d_tok.d_type ≠ TokenType.Tok_Rpar)
    (harg : c2.d_children.head? = some arg)
    (h : namedObj_ env (f + 1) st sc kind m = Except.ok m1) :
    ∃ named, NamedObjExact m.scopes.length sc st kind m1 named
      ∧ ((∃ m2 name, (flatten arg).d_tok.d_type = TokenType.Tok_string
            ∧ string env f (flatten arg) sc (newScope m sc st kind).1 = Except.ok (m2, name)
            ∧ name.d_children = []
            ∧ named = some (getSymbolBytes (env.getEscapedVal name.d_tok)))
         ∨ (((flatten arg).d_tok.d_type ≠ TokenType.Tok_string
              ∨ ∃ m2 name, string env f (flatten arg) sc (newScope m sc st kind).1
                  = Except.ok (m2, name) ∧ name.d_children ≠ [])
            ∧ named = none)) := by
  have FA := frameAll env f
  rw [namedObj_] at h
  obtain ⟨c2a, hc2a, h⟩ := bind_ok h
  have := child_eq hc2 hc2a
  subst this
  rw [if_neg hargs] at h
  obtain ⟨_, _, h⟩ := bind_ok h
  obtain ⟨s0, hs0, h⟩ := bind_ok h
  have hs0' := scope_ok hs0
  have hlt := scope_lt hs0
  have hne : sc ≠ m.scopes.length := Nat.ne_of_lt hlt
  obtain ⟨hn3, hsc3, ho3, hu3⟩ := newScope_facts m sc st kind s0 hs0'
  have hlen3 := newScope_length m sc st kind
  have hid := newScope_snd m sc st kind
  rcases hns : newScope m sc st kind with ⟨m3, id⟩
  rw [hns] at h hn3 hsc3 ho3 hu3 hlen3 hid
  dsimp only at h hn3 hsc3 ho3 hu3 hlen3 hid
  subst hid
  obtain ⟨arga, harga, h⟩ := bind_ok h
  have := first_eq harg harga
  subst this
  obtain ⟨m4, h4, h⟩ := bind_ok h
  -- the scope is fresh in the lists
  have hfreshU : m3.d_allUnnamedObjs.count m.scopes.length = 0 := by
    rw [hu3]
    exact List.count_eq_zero.2 (fun hm => absurd (hwf.2 _ hm) (Nat.lt_irrefl _))
  have hfreshO : ∀ k, (hashValue m3.d_allObjDefs k).count m.scopes.length = 0 := by
    intro k; rw [ho3]
    exact List.count_eq_zero.2 (fun hm => absurd (hwf.1 k _ hm) (Nat.lt_irrefl _))
  have hfreshC : s0.d_allScopes.count m.scopes.length = 0 :=
    List.count_eq_zero.2 (fun hm => absurd (hch sc s0 hs0' _ hm) (Nat.lt_irrefl _))
  have hn3lt : m.scopes.length < m3.scopes.length := by omega
  have hcount : ∀ ext : List ScopeId, (∀ i ∈ ext, m3.scopes.length ≤ i) →
      ((s0.d_allScopes ++ [m.scopes.length]) ++ ext).count m.scopes.length = 1 := by
    intro ext hext
    rw [List.count_append, List.count_append, hfreshC]
    have : ext.count m.scopes.length = 0 :=
      List.count_eq_zero.2 (fun hm => absurd hn3lt (Nat.not_lt.2 (hext _ hm)))
    rw [this]
    simp
  -- the registration, before the block is walked
  have hreg : ∃ named, NamedObjExact m.scopes.length sc st kind m4 named
      ∧ ((∃ m2 name, (flatten arga).d_tok.d_type = TokenType.Tok_string
            ∧ string env f (flatten arga) sc m3 = Except.ok (m2, name)
            ∧ name.d_children = []
            ∧ named = some (getSymbolBytes (env.getEscapedVal name.d_tok)))
         ∨ (((flatten arga).d_tok.d_type ≠ TokenType.Tok_string
              ∨ ∃ m2 name, string env f (flatten arga) sc m3 = Except.ok (m2, name)
                  ∧ name.d_children ≠ [])
            ∧ named = none)) := by
    split at h4
    · rename_i hty
      obtain ⟨r, hr, h4⟩ := bind_ok h4
      obtain ⟨m5, name⟩ := r
      dsimp only at h4
      have f5 := FA.string _ _ _ _ _ hr
      have hn5 : m5.scopes[m.scopes.length]? = some { d_outer := some sc, d_st := some st, d_kind := kind } := by
        rw [f5.others _ hn3lt (fun e => hne e.symm)]; exact hn3
      obtain ⟨sc5, hsc5, _, _, _, _, _, ext, hext, hextb⟩ := f5.self _ hsc3
      have hch5 : sc5.d_allScopes.count m.scopes.length = 1 := by
        rw [hext]; exact hcount ext hextb
      have hU5 := (f5.count_unnamed hn3lt).trans hfreshU
      have hO5 := fun k => (f5.count_objDefs k hn3lt).trans (hfreshO k)
      split at h4
      · rename_i hempty
        have := pure_ok h4
        subst this
        generalize hsym : getSymbolBytes (env.getEscapedVal name.d_tok) = sym
        refine ⟨some sym, ?_, Or.inl ⟨m5, name, hty, hr, ?_, by rw [hsym]⟩⟩
        · refine ⟨{ d_outer := some sc, d_st := some st, d_kind := kind, d_params := some name, d_name := sym },
            { sc5 with d_objectDefs := hashInsert sc5.d_objectDefs sym m.scopes.length },
            ?_, rfl, rfl, rfl, ?_, hch5, rfl, ?_, ?_, ?_, ?_⟩
          · rw [modifyScope_get_same]
            simp only [CodeModel.modifyScope]
            rw [updateAt_get_other _ _ _ _ (fun e => hne e.symm), updateAt_get_same, hn5]
            rfl
          · rw [modifyScope_get_other _ _ _ _ hne]
            simp only [CodeModel.modifyScope]
            rw [updateAt_get_same, updateAt_get_other _ _ _ _ hne, hsc5]
            rfl
          · simp only [CodeModel.modifyScope]
            rw [hashValue_hashAppend_same, List.count_append, hO5 sym]
            simp
          · intro k hk
            simp only [CodeModel.modifyScope]
            rw [hashValue_hashAppend_other _ _ _ _ hk]
            exact hO5 k
          · exact hashFind_hashInsert_same _ _ _
          · simpa [CodeModel.modifyScope] using hU5
        · simpa using hempty
      · rename_i hempty
        have := pure_ok h4
        subst this
        refine ⟨none, ?_, Or.inr ⟨Or.inr ⟨m5, name, hr, ?_⟩, rfl⟩⟩
        · refine ⟨{ d_outer := some sc, d_st := some st, d_kind := kind, d_params := some name },
            sc5, ?_, rfl, rfl, rfl, ?_, hch5, rfl, ?_, ?_⟩
          · simp only [CodeModel.modifyScope]
            rw [updateAt_get_same, hn5]
            rfl
          · simp only [CodeModel.modifyScope]
            rw [updateAt_get_other _ _ _ _ hne, hsc5]
          · simp only [CodeModel.modifyScope]
            rw [List.count_append]
            have : m5.d_allUnnamedObjs.count m.scopes.length = 0 := hU5
            rw [this]
            simp
          · intro k
            simpa [CodeModel.modifyScope] using hO5 k
        · simpa using hempty
    · rename_i hty
      obtain ⟨m5, h5, h4⟩ := bind_ok h4
      have := pure_ok h4
      subst this
      have f5 := FA.expr _ _ _ _ h5
      have hlen5 : (m3.modifyScope m.scopes.length
          (fun s => { s with d_params := some arga })).scopes.length = m3.scopes.length := by
        simp [CodeModel.modifyScope, updateAt_length]
      have hn5 : m5.scopes[m.scopes.length]?
          = some { d_outer := some sc, d_st := some st, d_kind := kind, d_params := some arga } := by
        rw [f5.others _ (by rw [hlen5]; exact hn3lt) (fun e => hne e.symm),
          modifyScope_get_same, hn3]
        rfl
      have hsc3' : (m3.modifyScope m.scopes.length
          (fun s => { s with d_params := some arga })).scopes[sc]?
          = some { s0 with d_allScopes := s0.d_allScopes ++ [m.scopes.length] } := by
        rw [modifyScope_get_other _ _ _ _ hne]; exact hsc3
      obtain ⟨sc5, hsc5, _, _, _, _, _, ext, hext, hextb⟩ := f5.self _ hsc3'
      have hch5 : sc5.d_allScopes.count m.scopes.length = 1 := by
        rw [hext]; exact hcount ext (fun i hi => by rw [← hlen5]; exact hextb i hi)
      have hO5 := fun k => (f5.count_objDefs k (by rw [hlen5]; exact hn3lt)).trans
        (show (hashValue (m3.modifyScope m.scopes.length
          (fun s => { s with d_params := some arga })).d_allObjDefs k).count m.scopes.length = 0
          from hfreshO k)
      have hU5 := (f5.count_unnamed (by rw [hlen5]; exact hn3lt)).trans
        (show (m3.modifyScope m.scopes.length
          (fun s => { s with d_params := some arga })).d_allUnnamedObjs.count m.scopes.length = 0
          from hfreshU)
      refine ⟨none, ?_, Or.inr ⟨Or.inl hty, rfl⟩⟩
      refine ⟨_, sc5, hn5, rfl, rfl, rfl, hsc5, hch5, rfl, ?_, hO5⟩
      rw [List.count_append, hU5]
      simp
  obtain ⟨named, hreg4, hcase⟩ := hreg
  refine ⟨named, ?_, hcase⟩
  split at h
  · split at h
    · obtain ⟨lastc, _, h⟩ := bind_ok h
      exact hreg4.frame (FA.block _ _ _ _ h) hne
    · exact absurd h (fun h => throw_ok h)
  · have := pure_ok h
    subst this
    exact hreg4

/-- The function `namedObj_` on a call with an argument list and four children at least, in
an existing scope: the creation of the scope, the walk of the first argument with the
registration, and the walk of the block when there are five children. -/
theorem namedObj_unfold (env : Env) (f : Nat) (st c2 arg : SynTree) (sc : ScopeId)
    (kind : QByteArray) (m : CodeModel) (s0 : Scope)
    (hc2 : st.d_children[2]? = some c2) (hty2 : c2.d_tok.d_type = TokenType.R_ExprList)
    (harg : c2.d_children.head? = some arg) (hlen : 4 ≤ st.d_children.length)
    (hsc : m.scopes[sc]? = some s0) :
    namedObj_ env (f + 1) st sc kind m =
      ((if (flatten arg).d_tok.d_type = TokenType.Tok_string then
          string env f (flatten arg) sc (newScope m sc st kind).1 >>= fun r =>
            if r.2.d_children.isEmpty then
              pure (CodeModel.modifyScope
                { (CodeModel.modifyScope
                    (r.1.modifyScope m.scopes.length (fun s => { s with d_params := some r.2 }))
                    sc
                    (fun s =>
                      { s with
                        d_objectDefs :=
                          hashInsert s.d_objectDefs
                            (getSymbolBytes (env.getEscapedVal r.2.d_tok)) m.scopes.length })) with
                  d_allObjDefs :=
                    hashAppend r.1.d_allObjDefs
                      (getSymbolBytes (env.getEscapedVal r.2.d_tok)) m.scopes.length }
                m.scopes.length
                (fun s => { s with d_name := getSymbolBytes (env.getEscapedVal r.2.d_tok) }))
            else
              pure
                { (r.1.modifyScope m.scopes.length (fun s => { s with d_params := some r.2 })) with
                  d_allUnnamedObjs := r.1.d_allUnnamedObjs ++ [m.scopes.length] }
        else
          expr env f arg sc ((newScope m sc st kind).1.modifyScope m.scopes.length
              (fun s => { s with d_params := some arg })) >>= fun m2 =>
            pure { m2 with d_allUnnamedObjs := m2.d_allUnnamedObjs ++ [m.scopes.length] })
        >>= fun m3 =>
          if st.d_children.length > 4 then
            if st.d_children.length = 5 then st.last >>= fun b => block env f b m.scopes.length m3
            else throw WalkError.assertion
          else pure m3) := by
  have hne : c2.d_tok.d_type ≠ TokenType.Tok_Rpar := by rw [hty2]; decide
  have hnil : c2.d_children.isEmpty = false := by
    cases hc : c2.d_children with
    | nil => rw [hc] at harg; cases harg
    | cons a l => rfl
  have hfirst : c2.first = Except.ok arg := by
    simp only [SynTree.first, harg]; rfl
  rw [namedObj_]
  simp only [SynTree.child, hc2, CodeModel.scope, hsc, hfirst, hne, hty2, hnil, hlen, qassert,
    bind, Except.bind, pure, Except.pure, if_false, if_true, decide_True, Bool.not_false,
    Bool.and_self, ge_iff_le, newScope_snd]
  rfl

/-- C9: for a named-object call with an argument list, `namedObj_` creates one scope, the
scope `n` at the end of the arena, and returns as soon as the walk of the first argument
and, when the call has a block, the walk of the block under `n` return; the model that it
returns is the one that these walks give, with the registration made in between.
When the first argument is a string literal to which `string()` attached no child, the
registration sets the interned escaped value as `d_name` of `n`, appends `n` to
`allObjDefs[d_name]` and stores it in the `localObjectDefs[d_name]` of the current scope;
otherwise it appends `n` to `allUnnamedObjs`. For a plain literal without a block the call
returns with three units of fuel. In every model that `namedObj_` returns, `n` has `d_outer`
the current scope, `d_kind` the callee name and `d_st` the call node, is once in the
children of the current scope, and is either once in `allObjDefs[d_name]`, in no other list
of `allObjDefs` and not in `allUnnamedObjs`, or once in `allUnnamedObjs`, with an empty
`d_name`, and in no list of `allObjDefs`; the scopes below `n` other than the current one
are as before. -/
theorem namedObj_creates_scope (env : Env) (f : Nat) (st c2 arg : SynTree) (sc : ScopeId)
    (kind : QByteArray) (m : CodeModel) (s0 : Scope)
    (hc2 : st.d_children[2]? = some c2) (hty2 : c2.d_tok.d_type = TokenType.R_ExprList)
    (harg : c2.d_children.head? = some arg) (hlen : 4 ≤ st.d_children.length)
    (hsc : m.scopes[sc]? = some s0) (hwf : m.ObjsInArena) (hch : m.ChildrenInArena) :
    (∀ (m2 : CodeModel) (name : SynTree) (sym : QByteArray) (m3 : CodeModel),
      (flatten arg).d_tok.d_type = TokenType.Tok_string →
      string env f (flatten arg) sc (newScope m sc st kind).1 = Except.ok (m2, name) →
      name.d_children = [] → sym = getSymbolBytes (env.getEscapedVal name.d_tok) →
      m3 = CodeModel.modifyScope
        { (CodeModel.modifyScope
            (m2.modifyScope m.scopes.length (fun s => { s with d_params := some name }))
            sc (fun s => { s with d_objectDefs := hashInsert s.d_objectDefs sym m.scopes.length })) with
          d_allObjDefs := hashAppend m2.d_allObjDefs sym m.scopes.length }
        m.scopes.length (fun s => { s with d_name := sym }) →
      (st.d_children.length = 4 → namedObj_ env (f + 1) st sc kind m = Except.ok m3)
      ∧ (∀ b, st.d_children.length = 5 → st.last = Except.ok b →
          namedObj_ env (f + 1) st sc kind m = block env f b m.scopes.length m3))
    ∧ (∀ (m2 : CodeModel) (name : SynTree) (m3 : CodeModel),
      (flatten arg).d_tok.d_type = TokenType.Tok_string →
      string env f (flatten arg) sc (newScope m sc st kind).1 = Except.ok (m2, name) →
      name.d_children ≠ [] →
      m3 = { (m2.modifyScope m.scopes.length (fun s => { s with d_params := some name })) with
          d_allUnnamedObjs := m2.d_allUnnamedObjs ++ [m.scopes.length] } →
      (st.d_children.length = 4 → namedObj_ env (f + 1) st sc kind m = Except.ok m3)
      ∧ (∀ b, st.d_children.length = 5 → st.last = Except.ok b →
          namedObj_ env (f + 1) st sc kind m = block env f b m.scopes.length m3))
    ∧ (∀ (m2 m3 : CodeModel),
      (flatten arg).d_tok.d_type ≠ TokenType.Tok_string →
      expr env f arg sc ((newScope m sc st kind).1.modifyScope m.scopes.length
        (fun s => { s with d_params := some arg })) = Except.ok m2 →
      m3 = { m2 with d_allUnnamedObjs := m2.d_allUnnamedObjs ++ [m.scopes.length] } →
      (st.d_children.length = 4 → namedObj_ env (f + 1) st sc kind m = Except.ok m3)
      ∧ (∀ b, st.d_children.length = 5 → st.last = Except.ok b →
          namedObj_ env (f + 1) st sc kind m = block env f b m.scopes.length m3))
    ∧ (∀ (g : Nat) (sym : QByteArray), f = g + 2 →
      (flatten arg).d_tok.d_type = TokenType.Tok_string →
      findNonEscapedDollar (flatten arg).d_tok.d_val 0 = -1 →
      (extractPathIdentFromString (flatten arg).d_tok.d_val).2 = [] →
      (flatten arg).d_children = [] → st.d_children.length = 4 →
      sym = getSymbolBytes (env.getEscapedVal (flatten arg).d_tok) →
      ∃ m1, namedObj_ env (f + 1) st sc kind m = Except.ok m1
        ∧ m1.scopes.length = m.scopes.length + 1
        ∧ m1.d_allObjDefs = hashAppend m.d_allObjDefs sym m.scopes.length
        ∧ m1.d_allUnnamedObjs = m.d_allUnnamedObjs
        ∧ m1.scopes[m.scopes.length]? = some
            { d_outer := some sc, d_st := some st, d_kind := kind,
              d_params := some (flatten arg), d_name := sym }
        ∧ m1.scopes[sc]? = some
            { s0 with
              d_allScopes := s0.d_allScopes ++ [m.scopes.length]
              d_objectDefs := hashInsert s0.d_objectDefs sym m.scopes.length })
    ∧ (∀ m1, namedObj_ env (f + 1) st sc kind m = Except.ok m1 →
      m.scopes.length < m1.scopes.length
      ∧ (∀ i, i < m.scopes.length → i ≠ sc → m1.scopes[i]? = m.scopes[i]?)
      ∧ ∃ named, NamedObjExact m.scopes.length sc st kind m1 named
        ∧ ((∃ m2 name, (flatten arg).d_tok.d_type = TokenType.Tok_string
              ∧ string env f (flatten arg) sc (newScope m sc st kind).1 = Except.ok (m2, name)
              ∧ name.d_children = []
              ∧ named = some (getSymbolBytes (env.getEscapedVal name.d_tok)))
           ∨ (((flatten arg).d_tok.d_type ≠ TokenType.Tok_string
                ∨ ∃ m2 name, string env f (flatten arg) sc (newScope m sc st kind).1
                    = Except.ok (m2, name) ∧ name.d_children ≠ [])
              ∧ named = none))) := by
  have hun := namedObj_unfold env f st c2 arg sc kind m s0 hc2 hty2 harg hlen hsc
  have hne2 : c2.d_tok.d_type ≠ TokenType.Tok_Rpar := by rw [hty2]; decide
  have hA : ∀ (m2 : CodeModel) (name : SynTree) (sym : QByteArray) (m3 : CodeModel),
      (flatten arg).d_tok.d_type = TokenType.Tok_string →
      string env f (flatten arg) sc (newScope m sc st kind).1 = Except.ok (m2, name) →
      name.d_children = [] → sym = getSymbolBytes (env.getEscapedVal name.d_tok) →
      m3 = CodeModel.modifyScope
        { (CodeModel.modifyScope
            (m2.modifyScope m.scopes.length (fun s => { s with d_params := some name }))
            sc (fun s => { s with d_objectDefs := hashInsert s.d_objectDefs sym m.scopes.length })) with
          d_allObjDefs := hashAppend m2.d_allObjDefs sym m.scopes.length }
        m.scopes.length (fun s => { s with d_name := sym }) →
      (st.d_children.length = 4 → namedObj_ env (f + 1) st sc kind m = Except.ok m3)
      ∧ (∀ b, st.d_children.length = 5 → st.last = Except.ok b →
          namedObj_ env (f + 1) st sc kind m = block env f b m.scopes.length m3) := by
    intro m2 name sym m3 hty hs hnil hsym hm3
    subst hsym hm3
    have hemp : name.d_children.isEmpty = true := by rw [hnil]; rfl
    refine ⟨fun h4 => ?_, fun b h5 hb => ?_⟩
    · rw [hun]
      simp only [hty, hs, hemp, h4, bind, Except.bind, pure, Except.pure, if_true,
        gt_iff_lt, Nat.lt_irrefl, if_false]
    · rw [hun]
      simp only [hty, hs, hemp, h5, hb, bind, Except.bind, pure, Except.pure, if_true,
        gt_iff_lt, Nat.lt_succ_self]
  refine ⟨hA, ?_, ?_, ?_, ?_⟩
  · intro m2 name m3 hty hs hnil hm3
    subst hm3
    have hemp : name.d_children.isEmpty = false := by
      cases hc : name.d_children with
      | nil => exact absurd hc hnil
      | cons a l => rfl
    refine ⟨fun h4 => ?_, fun b h5 hb => ?_⟩
    · rw [hun]
      simp only [hty, hs, hemp, h4, bind, Except.bind, pure, Except.pure, if_true,
        gt_iff_lt, Nat.lt_irrefl, if_false, Bool.false_eq_true]
    · rw [hun]
      simp only [hty, hs, hemp, h5, hb, bind, Except.bind, pure, Except.pure, if_true,
        gt_iff_lt, Nat.lt_succ_self, if_false, Bool.false_eq_true]
  · intro m2 m3 hty he hm3
    subst hm3
    refine ⟨fun h4 => ?_, fun b h5 hb => ?_⟩
    · rw [hun]
      simp only [hty, he, h4, bind, Except.bind, pure, Except.pure, if_true,
        gt_iff_lt, Nat.lt_irrefl, if_false]
    · rw [hun]
      simp only [hty, he, h5, hb, bind, Except.bind, pure, Except.pure, if_true,
        gt_iff_lt, Nat.lt_succ_self, if_false]
  · intro g sym hf hty hd hn hnil h4 hsym
    subst hf
    have hs := string_plain env g (flatten arg) sc (newScope m sc st kind).1 hty hd hn
    have hlt : sc < m.scopes.length := (List.getElem?_eq_some_iff.1 hsc).1
    have hne : sc ≠ m.scopes.length := Nat.ne_of_lt hlt
    obtain ⟨hn3, hsc3, ho3, hu3⟩ := newScope_facts m sc st kind s0 hsc
    have hlen3 := newScope_length m sc st kind
    refine ⟨_, (hA _ _ sym _ hty hs hnil hsym rfl).1 h4, ?_, ?_, ?_, ?_, ?_⟩
    · simp only [CodeModel.modifyScope, updateAt_length]
      exact hlen3
    · simp only [CodeModel.modifyScope]
      rw [ho3]
    · simp only [CodeModel.modifyScope]
      exact hu3
    · rw [modifyScope_get_same]
      simp only [CodeModel.modifyScope]
      rw [updateAt_get_other _ _ _ _ (fun e => hne e.symm), updateAt_get_same, hn3]
      rfl
    · rw [modifyScope_get_other _ _ _ _ hne]
      simp only [CodeModel.modifyScope]
      rw [updateAt_get_same, updateAt_get_other _ _ _ _ hne, hsc3]
      rfl
  · intro m1 h
    have fr := (frameAll env (f + 1)).namedObj_ st sc kind m m1 h
    obtain ⟨named, h1, h2⟩ :=
      namedObj_exact env f st c2 arg sc kind m m1 hwf hch hc2 hne2 harg h
    obtain ⟨s, _, hs, _⟩ := h1
    exact ⟨(List.getElem?_eq_some_iff.1 hs).1, fr.others,
      namedObj_exact env f st c2 arg sc kind m m1 hwf hch hc2 hne2 harg h⟩

theorem namedObj_creates_scope_witness :
    (plainCall.d_children[2]? = some sampleArgs
      ∧ sampleArgs.d_tok.d_type = TokenType.R_ExprList
      ∧ sampleArgs.d_children.head? = some (exprNode (stringNode 1 12 "\"app\""))
      ∧ 4 ≤ plainCall.d_children.length
      ∧ sampleModel.scopes[0]? = some { d_kind := "file".toList }
      ∧ sampleModel.ObjsInArena ∧ sampleModel.ChildrenInArena)
    ∧ (∃ m1, namedObj_ sampleEnv (2 + 1) plainCall 0 "executable".toList sampleModel
          = Except.ok m1
        ∧ m1.scopes.length = sampleModel.scopes.length + 1
        ∧ m1.d_allObjDefs
            = hashAppend sampleModel.d_allObjDefs "app".toList sampleModel.scopes.length
        ∧ m1.d_allUnnamedObjs = sampleModel.d_allUnnamedObjs
        ∧ m1.scopes[sampleModel.scopes.length]? = some
            { d_outer := some 0, d_st := some plainCall, d_kind := "executable".toList,
              d_params := some (flatten (exprNode (stringNode 1 12 "\"app\""))),
              d_name := "app".toList }
        ∧ m1.scopes[0]? = some
            { ({ d_kind := "file".toList } : Scope) with
              d_allScopes := ({ d_kind := "file".toList } : Scope).d_allScopes
                ++ [sampleModel.scopes.length]
              d_objectDefs := hashInsert ({ d_kind := "file".toList } : Scope).d_objectDefs
                "app".toList sampleModel.scopes.length })
    ∧ (unnamedCall.d_children[2]? = some unnamedArgs
      ∧ unnamedArgs.d_tok.d_type = TokenType.R_ExprList
      ∧ unnamedArgs.d_children.head? = some (exprNode (identNode 1 12 "target_name"))
      ∧ 4 ≤ unnamedCall.d_children.length
      ∧ (flatten (exprNode (identNode 1 12 "target_name"))).d_tok.d_type
          ≠ TokenType.Tok_string
      ∧ namedObj_ sampleEnv (11 + 1) unnamedCall 0 "executable".toList sampleModel
          = Except.ok unnamedWalked)
    ∧ (sampleModel.scopes.length < unnamedWalked.scopes.length
      ∧ ∃ named, NamedObjExact sampleModel.scopes.length 0 unnamedCall "executable".toList
          unnamedWalked named)
    ∧ unnamedWalked.d_allUnnamedObjs = [1] ∧ unnamedWalked.d_allObjDefs = []
    ∧ unnamedWalked.scopes.map (fun s => (s.d_name, s.d_outer, s.d_allScopes, s.d_objectDefs))
        = [([], none, [1], []), ([], some 0, [], [])]
    ∧ embeddedWalked.d_allUnnamedObjs = [1] ∧ embeddedWalked.d_allObjDefs = []
    ∧ embeddedWalked.scopes.map (fun s => (s.d_name, s.d_outer, s.d_allScopes, s.d_objectDefs))
        = [([], none, [1], []), ([], some 0, [], [])]
    ∧ sampleWalked.d_allUnnamedObjs = [] ∧ sampleWalked.d_allObjDefs = [("app".toList, [1])]
    ∧ sampleWalked.scopes.map (fun s => (s.d_name, s.d_outer, s.d_allScopes, s.d_objectDefs))
        = [([], none, [1], [("app".toList, 1)]), ("app".toList, some 0, [], [])] := by
  have hwf : sampleModel.ObjsInArena :=
    ⟨fun k i hi => by simp [sampleModel, CodeModel.clear, hashValue, hashFind] at hi,
      fun i hi => by simp [sampleModel, CodeModel.clear] at hi⟩
  have hch : sampleModel.ChildrenInArena := by
    intro i s hs c hc
    cases i with
    | zero =>
      have : s = { d_kind := "file".toList } := (Option.some.inj hs).symm
      subst this
      cases hc
    | succ j => cases hs
  have hun : namedObj_ sampleEnv (11 + 1) unnamedCall 0 "executable".toList sampleModel
      = Except.ok unnamedWalked := walk_eq_ok _ _ (by decide)
  have h1 := (namedObj_creates_scope sampleEnv 2 plainCall sampleArgs
    (exprNode (stringNode 1 12 "\"app\"")) 0 "executable".toList sampleModel
    { d_kind := "file".toList } rfl rfl rfl (by decide) rfl hwf hch).2.2.2.1 0 "app".toList rfl
    rfl (by decide) (by decide) rfl rfl (by decide)
  have h2 := (namedObj_creates_scope sampleEnv 11 unnamedCall unnamedArgs
    (exprNode (identNode 1 12 "target_name")) 0 "executable".toList sampleModel
    { d_kind := "file".toList } rfl rfl rfl (by decide) rfl hwf hch).2.2.2.2 unnamedWalked hun
  obtain ⟨named, h3, _⟩ := h2.2.2
  exact ⟨⟨rfl, rfl, rfl, by decide, rfl, hwf, hch⟩, h1,
    ⟨rfl, rfl, rfl, by decide, by decide, hun⟩, ⟨h2.1, named, h3⟩,
    by decide, by decide, rfl, by decide, by decide, rfl, by decide, by decide, rfl⟩

/-! ## The LHS lists of the scopes and of the model, node by node -/

end Gn
